import Mathlib

/-! PPM-tools: bucket dictionary builder and task segments.

A shallow embedding of `task_classifier.c`, `TaskSegRaw.c`, `TaskSegBuck.c`
and `arll.c`.

Conventions of the embedding.

* A `double` is a rational number: arithmetic is exact and the order is total
  (no rounding, no NaN, no infinities). The rounding of IEEE-754 arithmetic is
  modelled apart, for `Buck_create` (`double_round`, `Buck_create_double`).
* A pair `(const double *list, unsigned size)` is a `List ℚ` of exactly `size`
  elements; `list + i` is `List.drop i` and a shorter `size` is `List.take`.
* A function that can abort (a failing `assert`, a NULL dereference, an
  out-of-bounds access) returns an `Option`; `none` is the abort. The
  assertions are compiled in: the sources rely on their side effects
  (`assert(!Elem_init(...))`).
* `malloc` never fails; the cells of a fresh array are shown as zeros where
  every function overwrites them before reading them, and hold an explicit
  parameter `junk` where they can be read (`realloc_cells`, `TSR_eval`).
* The square root of the C library is a parameter of the functions that call
  it (`TSR_eval`), or the test that uses it is squared (`bad_gt`).
* `unsigned` sizes and indices are natural numbers; the two conversions
  between `unsigned` and `int` that the key functions perform are modelled on
  32 bits (`int_of_unsigned`, `unsigned_of_int`).
-/

namespace PPM

/-! ## GSL statistics -/

/-- Arithmetic mean, `gsl_stats_mean(data, 1, n)`; 0 for the empty list. -/
def gsl_stats_mean (data : List ℚ) : ℚ :=
  data.sum / data.length

/-- Sample variance around `mean`: the sum of the squared deviations over
`n - 1`. `gsl_stats_sd_m(data, 1, n, mean)` is its square root. -/
def gsl_stats_variance_m (data : List ℚ) (mean : ℚ) : ℚ :=
  (data.map fun x => (x - mean) ^ 2).sum / ((data.length : ℚ) - 1)

/-- The test `stddev / mean > k` of `Buck_create`, where `stddev` is the
square root of `var`, `var ≥ 0`, `mean ≠ 0` and `k > 0`: for a negative mean
the quotient is not positive, for a positive mean both sides are squared. -/
def bad_gt (var mean k : ℚ) : Bool :=
  decide (0 < mean ∧ (k * mean) ^ 2 < var)

/-! ## task_classifier.c -/

/-- The tree of buckets; `NULL` is the null pointer. The field `stddev` holds
the variance (the square of the C field), it is never read back. -/
inductive Bucket where
  | NULL : Bucket
  | node (mean supremum stddev : ℚ) (size : Nat) (lowbp highbp : Bucket) : Bucket
  deriving DecidableEq, Repr

/-- The field `buckp->size`; `none` for a NULL dereference. -/
def Bucket.size? : Bucket → Option Nat
  | .NULL => none
  | .node _ _ _ size _ _ => some size

/-- The dictionary: `supremum_l` and `mean_l` are the two allocated arrays. -/
structure TCDict where
  supremum_l : List ℚ
  mean_l : List ℚ
  size : Nat
  deriving DecidableEq, Repr

/-- The key type `TCKey` is a C `int`. -/
abbrev TCKey := Int

def TCKey_INVALID : TCKey := -1

def TCKey_is_valid (tck : TCKey) : Bool := tck != TCKey_INVALID

def TCVal_INVALID : ℚ := -1

/-- Index of the first element `> n` of `list`, `list.length` if there is
none. `none` on the empty list, where the C function reads `list[0]` out of
bounds and recurses without end. -/
def bsearch_upbound_aux : Nat → ℚ → List ℚ → Option Nat
  | 0, _, _ => none
  | fuel + 1, n, list =>
    if list.length = 0 then none
    else if list.length = 1 then
      if list.getD 0 0 > n then some 0 else some 1
    else
      let ci := list.length / 2
      if list.getD ci 0 > n then
        bsearch_upbound_aux fuel n (list.take ci)
      else
        (bsearch_upbound_aux fuel n (list.drop ci)).map fun r => ci + r

def bsearch_upbound (n : ℚ) (list : List ℚ) : Option Nat :=
  bsearch_upbound_aux list.length n list

/-- Index of the first element `>= n` of `list`, `list.length` if there is
none. `none` on the empty list, as for `bsearch_upbound`. -/
def bsearch_supremum_aux : Nat → ℚ → List ℚ → Option Nat
  | 0, _, _ => none
  | fuel + 1, n, list =>
    if list.length = 0 then none
    else if list.length = 1 then
      if list.getD 0 0 ≥ n then some 0 else some 1
    else
      let ci := list.length / 2
      if list.getD ci 0 ≥ n then
        bsearch_supremum_aux fuel n (list.take ci)
      else
        (bsearch_supremum_aux fuel n (list.drop ci)).map fun r => ci + r

def bsearch_supremum (n : ℚ) (list : List ℚ) : Option Nat :=
  bsearch_supremum_aux list.length n list

/-- `Buck_create(reql, size, k)` with `fuel` bounding the recursion depth.
The result `some .NULL` is the returned null pointer (`mean == 0.0`), `none`
is an abort. -/
def Buck_create_aux : Nat → List ℚ → ℚ → Option Bucket
  | 0, _, _ => none
  | fuel + 1, reql, k =>
    if ¬ (k > 0) then none                      -- assert(k > 0.0)
    else if reql.length = 0 then none           -- assert(size)
    else
      let supremum := reql.getD (reql.length - 1) 0
      let mean := gsl_stats_mean reql
      if mean = 0 then some .NULL               -- goto buck_create_err
      else
        let stddev := if reql.length > 1 then gsl_stats_variance_m reql mean else 0
        if bad_gt stddev mean k then
          if ¬ (reql.length > 1) then none      -- assert(size > 1)
          else
            match bsearch_upbound mean reql with
            | none => none
            | some upbound =>
              if ¬ (upbound < reql.length) then none   -- assert(upbound < size)
              else
                match Buck_create_aux fuel (reql.take upbound) k with
                | none => none
                | some .NULL => some .NULL      -- if (!nbuckp->lowbp) goto buck_create_err
                | some (.node lm ls ld lsize ll lh) =>
                  match Buck_create_aux fuel (reql.drop upbound) k with
                  | none => none
                  -- the second test reads lowbp again, so a NULL highbp is
                  -- dereferenced by `nbuckp->highbp->size`
                  | some .NULL => none
                  | some (.node hm hs hd hsize hl hh) =>
                    some (.node mean supremum stddev (lsize + hsize)
                      (.node lm ls ld lsize ll lh) (.node hm hs hd hsize hl hh))
        else
          some (.node mean supremum stddev 1 .NULL .NULL)

/-- `Buck_create`: every recursive call is on a strictly shorter list, so a
depth of `size` calls is never exceeded (`Buck_create_aux_fuel`). -/
def Buck_create (reql : List ℚ) (k : ℚ) : Option Bucket :=
  Buck_create_aux reql.length reql k

/-- `Buck_to_dict(buckp, dict)`: `off` is the distance the two array pointers
of the by-value `dict` have been advanced; the arrays themselves are shared.
`none` for a NULL dereference or a write outside the arrays. -/
def Buck_to_dict : Bucket → Nat → List ℚ × List ℚ → Option (List ℚ × List ℚ)
  | .NULL, _, _ => none
  | .node mean supremum _ size lowbp highbp, off, (mean_l, supremum_l) =>
    if size > 1 then
      match lowbp.size? with
      | none => none
      | some lsize =>
        match Buck_to_dict lowbp off (mean_l, supremum_l) with
        | none => none
        | some arrs =>
          match highbp.size? with
          | none => none
          | some _ => Buck_to_dict highbp (off + lsize) arrs
    else
      if off < mean_l.length ∧ off < supremum_l.length then
        some (mean_l.set off mean, supremum_l.set off supremum)
      else none

/-- `TCDict_init(ctx, tcdictp, reql, reql_siz, k, max_dict_siz)`: the
dictionary written to `*tcdictp` when the call returns 0, `none` when it
aborts (`assert(0)` on every error path). An empty `reql` leaves `*tcdictp`
as the caller passed it. The arrays come from `malloc`; their initial content
is modelled as zeros. -/
def TCDict_init (tcdictp : TCDict) (reql : List ℚ) (k : ℚ)
    (max_dict_siz : Nat) : Option TCDict :=
  if reql.length = 0 then some tcdictp
  else
    match Buck_create reql k with
    | none => none
    | some .NULL => none
    | some (.node m s d size l h) =>
      if size > max_dict_siz then none
      else
        match Buck_to_dict (.node m s d size l h) 0
            (List.replicate size 0, List.replicate size 0) with
        | none => none
        | some (mean_l, supremum_l) =>
          some { supremum_l := supremum_l, mean_l := mean_l, size := size }

/-- The conversion `(TCKey)key` of an `unsigned` to `int` (32 bits, two's
complement). -/
def int_of_unsigned (u : Nat) : Int :=
  if u % 4294967296 < 2147483648 then ((u % 4294967296 : Nat) : Int)
  else ((u % 4294967296 : Nat) : Int) - 4294967296

/-- The conversion `(unsigned)key` of an `int` to `unsigned` (32 bits). -/
def unsigned_of_int (i : Int) : Nat :=
  (i % 4294967296).toNat

/-- `TCDict_key_from_val(ctx, val)`; the search runs over the first `size`
entries of `supremum_l`. -/
def TCDict_key_from_val (ctx : TCDict) (val : ℚ) : Option TCKey :=
  if ctx.size = 0 then some TCKey_INVALID
  else
    match bsearch_supremum val (ctx.supremum_l.take ctx.size) with
    | none => none
    | some key => if key = ctx.size then some TCKey_INVALID else some (int_of_unsigned key)

/-- `TCDict_val_from_key(ctx, key)`. -/
def TCDict_val_from_key (ctx : TCDict) (key : TCKey) : ℚ :=
  if ¬ TCKey_is_valid key then TCVal_INVALID
  else if unsigned_of_int key ≥ ctx.size then TCVal_INVALID
  else ctx.mean_l.getD (unsigned_of_int key) 0

/-! ## Proof-level definitions for the dictionary builder -/

/-- First index of `list` whose element satisfies `p`, by the bisection both
searches of `task_classifier.c` share. -/
def bsearch_first (p : ℚ → Bool) : Nat → List ℚ → Option Nat
  | 0, _ => none
  | fuel + 1, list =>
    if list.length = 0 then none
    else if list.length = 1 then
      if p (list.getD 0 0) then some 0 else some 1
    else
      let ci := list.length / 2
      if p (list.getD ci 0) then
        bsearch_first p fuel (list.take ci)
      else
        (bsearch_first p fuel (list.drop ci)).map fun r => ci + r

/-- The `(mean, supremum)` pairs of the leaves of a bucket tree, from low to
high: the entries `Buck_to_dict` writes, in array order. -/
def Bucket.leaves : Bucket → List (ℚ × ℚ)
  | .NULL => []
  | .node mean supremum _ size lowbp highbp =>
    if size > 1 then lowbp.leaves ++ highbp.leaves else [(mean, supremum)]

/-- The value `Buck_create` stores in `stddev` for the list `reql` (as a
variance). -/
def Buck_stddev (reql : List ℚ) : ℚ :=
  if reql.length > 1 then gsl_stats_variance_m reql (gsl_stats_mean reql) else 0

/-- `Built k reql b runs`: `b` is the tree `Buck_create` returns for `reql`
and `k`, and `runs` are the sublists its leaves were created from, from low to
high. -/
inductive Built (k : ℚ) : List ℚ → Bucket → List (List ℚ) → Prop
  | leaf (reql : List ℚ) :
      reql ≠ [] → gsl_stats_mean reql ≠ 0 →
      bad_gt (Buck_stddev reql) (gsl_stats_mean reql) k = false →
      Built k reql
        (.node (gsl_stats_mean reql) (reql.getD (reql.length - 1) 0) (Buck_stddev reql)
          1 .NULL .NULL) [reql]
  | split (reql : List ℚ) (u : Nat) (low high : Bucket) (rl rh : List (List ℚ))
      (ls hs : Nat) :
      bad_gt (Buck_stddev reql) (gsl_stats_mean reql) k = true →
      bsearch_upbound (gsl_stats_mean reql) reql = some u → u < reql.length →
      Built k (reql.take u) low rl → Built k (reql.drop u) high rh →
      low.size? = some ls → high.size? = some hs →
      Built k reql
        (.node (gsl_stats_mean reql) (reql.getD (reql.length - 1) 0) (Buck_stddev reql)
          (ls + hs) low high) (rl ++ rh)

/-- The array `l` with the entries from index `off` on overwritten by `xs`. -/
def splice (l : List ℚ) (off : Nat) (xs : List ℚ) : List ℚ :=
  l.take off ++ xs ++ l.drop (off + xs.length)

/-! ## arll.c -/

/-- The array linked list. A block is a value of type `α` (`blk_siz` is its
size in bytes and is left out); `blk_l` is the allocated array of `blk_lsiz`
blocks, of which the first `blk_cnt` are in use. -/
structure arll (α : Type) where
  blk_l : List α
  blk_cnt : Nat
  blk_lsiz : Nat
  blk_curi : Nat

/-- `arll_next(arllp)`: the block under the cursor (`none` is the NULL
pointer at the end of the list) and the list with the cursor advanced. The
cursor stays inside `blk_l` as long as `blk_cnt ≤ blk_l.length`. -/
def arll_next {α : Type} (arllp : arll α) : Option α × arll α :=
  if arllp.blk_curi = arllp.blk_cnt then (none, arllp)
  else (arllp.blk_l[arllp.blk_curi]?, { arllp with blk_curi := arllp.blk_curi + 1 })

/-- `arll_rewind(arllp)`. -/
def arll_rewind {α : Type} (arllp : arll α) : arll α :=
  { arllp with blk_curi := 0 }

/-- `arll_len(arllp)`. -/
def arll_len {α : Type} (arllp : arll α) : Nat :=
  arllp.blk_cnt

/-! ## TaskSeg.h, TaskSegRaw.c -/

def TSTT_calc : Nat := 0

def TSTT_com : Nat := 1

def TSTT_enumsize : Nat := 2

/-- The entry `a[i]` of an array `a[TSTT_enumsize]`, kept as a pair. -/
def idx2 {α : Type} (a : α × α) (i : Nat) : α :=
  if i = 0 then a.1 else a.2

/-- A task handed to `TSR_put` and returned by `TSR_next`. -/
structure TSRTask where
  req : ℚ
  type : Nat
  deriving DecidableEq, Repr

/-- The weights of one task type: `req_l` is the allocated array of
`req_l_siz` cells, of which the first `task_cnt` are in use; `avg`, `stddev`
and `sum` are the values cached by `TSR_eval`. -/
structure TReql where
  req_l : List ℚ
  req_l_siz : Nat
  task_cnt : Nat
  task_curr : Nat
  avg : ℚ
  stddev : ℚ
  sum : ℚ
  deriving DecidableEq, Repr

/-- A raw segment: the type of every task in insertion order, and the
weights per type. -/
structure TaskSegRaw where
  task_type_l : List Nat
  treq_l : TReql × TReql
  ct : TSRTask
  deriving DecidableEq, Repr

/-- The tolerances of a raw segment context. -/
structure TSR_compopt where
  mu_max : ℚ
  sigma_max : ℚ
  deriving DecidableEq, Repr

/-- `task_cnt_tot(ctx)`, an `unsigned` sum. -/
def task_cnt_tot (ctx : TaskSegRaw) : Nat :=
  ((idx2 ctx.treq_l TSTT_calc).task_cnt + (idx2 ctx.treq_l TSTT_com).task_cnt) % 4294967296

/-- `TSR_size(tsrp, filter)`. -/
def TSR_size (tsrp : TaskSegRaw) (filter : Nat) : Nat :=
  (idx2 tsrp.treq_l filter).task_cnt

/-- The body of the `for` loop of `TaskSegRaw_compar` for the task type `i`:
`some r` when the body executes `return r`, `none` when it runs to its end or
executes `continue`. -/
def TaskSegRaw_compar_body (tsropt : TSR_compopt) (tsr1p tsr2p : TaskSegRaw)
    (i : Nat) : Option Int :=
  let t1 := idx2 tsr1p.treq_l i
  let t2 := idx2 tsr2p.treq_l i
  if t1.task_cnt ≠ t2.task_cnt then some 0
  else if t1.task_cnt = 0 then none
  else
    let fmax := if t1.avg > t2.avg then t1.avg else t2.avg
    let fmin := if t1.avg > t2.avg then t2.avg else t1.avg
    if fmin = 0 then some (if fmin = fmax then 1 else 0)
    else if fmax / fmin > tsropt.mu_max then some 0
    else
      let smax := if t1.stddev > t2.stddev then t1.stddev else t2.stddev
      let smin := if t1.stddev > t2.stddev then t2.stddev else t1.stddev
      if smin = 0 then some (if smin = smax then 1 else 0)
      else if smax / smin > tsropt.sigma_max then some 0
      else none

/-- The `for (i = 0; i < TSTT_enumsize; i++)` loop of `TaskSegRaw_compar`
over the remaining values of `i`. -/
def TaskSegRaw_compar_for (tsropt : TSR_compopt) (tsr1p tsr2p : TaskSegRaw) :
    List Nat → Option Int
  | [] => none
  | i :: rest =>
    match TaskSegRaw_compar_body tsropt tsr1p tsr2p i with
    | some r => some r
    | none => TaskSegRaw_compar_for tsropt tsr1p tsr2p rest

/-- `TaskSegRaw_compar(ts1p, ts2p)`; `tsropt` is the option pair of the
context of `ts1p`. `memcmp` over the first `task_cnt_tot(tsr1p)` type bytes
is the comparison of the two prefixes. -/
def TaskSegRaw_compar (tsropt : TSR_compopt) (tsr1p tsr2p : TaskSegRaw) : Int :=
  match TaskSegRaw_compar_for tsropt tsr1p tsr2p [TSTT_calc, TSTT_com] with
  | some r => r
  | none =>
    if tsr1p.task_type_l.take (task_cnt_tot tsr1p)
        ≠ tsr2p.task_type_l.take (task_cnt_tot tsr1p) then 0
    else 1

/-- What the specification asks of `TaskSegRaw_compar`: for each task type
equal counts, means both zero or `max/min <= mu_max`, the same for the
standard deviations with `sigma_max`, and identical type sequences. -/
def TaskSegRaw_similar (tsropt : TSR_compopt) (a b : TaskSegRaw) : Prop :=
  (∀ i, i < TSTT_enumsize →
    (idx2 a.treq_l i).task_cnt = (idx2 b.treq_l i).task_cnt ∧
    (((idx2 a.treq_l i).avg = 0 ∧ (idx2 b.treq_l i).avg = 0) ∨
      max (idx2 a.treq_l i).avg (idx2 b.treq_l i).avg /
        min (idx2 a.treq_l i).avg (idx2 b.treq_l i).avg ≤ tsropt.mu_max) ∧
    (((idx2 a.treq_l i).stddev = 0 ∧ (idx2 b.treq_l i).stddev = 0) ∨
      max (idx2 a.treq_l i).stddev (idx2 b.treq_l i).stddev /
        min (idx2 a.treq_l i).stddev (idx2 b.treq_l i).stddev ≤ tsropt.sigma_max)) ∧
  a.task_type_l.take (task_cnt_tot a) = b.task_type_l.take (task_cnt_tot b)

/-- The raw segment holding the single task `calc(2)` after `TSR_eval`: the
arrays have their initial capacity (16 weights per type, 32 types), one calc
weight is in use, its mean is 2, and the standard deviation of fewer than two
weights is `0.0`. The unused cells are shown as zeros; `TaskSegRaw_compar`
reads neither them nor `sum`. -/
def seg_calc2 : TaskSegRaw :=
  { task_type_l := TSTT_calc :: List.replicate 31 0
    treq_l :=
      ({ req_l := 2 :: List.replicate 15 0, req_l_siz := 16, task_cnt := 1, task_curr := 0,
         avg := 2, stddev := 0, sum := 2 },
       { req_l := List.replicate 16 0, req_l_siz := 16, task_cnt := 0, task_curr := 0,
         avg := 0, stddev := 0, sum := 0 })
    ct := { req := 0, type := 0 } }

/-- The raw segment holding the tasks `calc(2), com(7)` after `TSR_eval`. -/
def seg_calc2_com7 : TaskSegRaw :=
  { task_type_l := TSTT_calc :: TSTT_com :: List.replicate 30 0
    treq_l :=
      ({ req_l := 2 :: List.replicate 15 0, req_l_siz := 16, task_cnt := 1, task_curr := 0,
         avg := 2, stddev := 0, sum := 2 },
       { req_l := 7 :: List.replicate 15 0, req_l_siz := 16, task_cnt := 1, task_curr := 0,
         avg := 7, stddev := 0, sum := 7 })
    ct := { req := 0, type := 0 } }

/-! ## TaskSegBuck.c -/

/-- The cached `TaskSeg_summary` of a bucketed segment, one entry per type. -/
structure TaskSeg_summary where
  devi_sum : ℚ × ℚ
  devi_mean : ℚ × ℚ
  dict_size : Nat × Nat
  sum : ℚ × ℚ
  avg : ℚ × ℚ
  deriving DecidableEq, Repr

/-- A bucketed segment. `dictp` holds the addresses of the two dictionaries;
`seg` is the list of letters, each letter the 16-bit value `as_short` of the
union `TCLetter` (bit 0 the type, bits 1..15 the key). The segment owns its
letter list: no two segments share one `arll`. -/
structure TaskSegBuck where
  dictp : Nat × Nat
  seg : arll Nat
  task_cnt : Nat × Nat
  summary : TaskSeg_summary

/-- The `while` loop of `TaskSegBuck_compar` over the two letter lists: the
returned value and the two lists with their cursors advanced. `none` is the
failing `assert((lp2 = arll_next(bseg2p->seg)))`, or the fuel running out. -/
def TaskSegBuck_compar_loop : Nat → arll Nat → arll Nat → Option (Int × arll Nat × arll Nat)
  | 0, _, _ => none
  | fuel + 1, seg1, seg2 =>
    match arll_next seg1 with
    | (none, seg1') => some (1, seg1', seg2)
    | (some lp1, seg1') =>
      match arll_next seg2 with
      | (none, _) => none
      | (some lp2, seg2') =>
        if lp1 ≠ lp2 then some (0, seg1', seg2')
        else TaskSegBuck_compar_loop fuel seg1' seg2'

/-- `TaskSegBuck_compar(seg1p, seg2p)`: the two arguments are addresses in the
memory `mem`; the result is the returned value and the memory with the
cursors the call has moved. The loop makes at most `blk_cnt + 1` calls of
`arll_next` on the first list after its rewind. -/
def TaskSegBuck_compar (mem : Nat → TaskSegBuck) (seg1p seg2p : Nat) :
    Option (Int × (Nat → TaskSegBuck)) :=
  if seg1p = seg2p then some (1, mem)
  else if idx2 (mem seg1p).dictp TSTT_calc ≠ idx2 (mem seg2p).dictp TSTT_calc then
    some (0, mem)
  else if idx2 (mem seg1p).dictp TSTT_com ≠ idx2 (mem seg2p).dictp TSTT_com then
    some (0, mem)
  else if arll_len (mem seg1p).seg ≠ arll_len (mem seg2p).seg then some (0, mem)
  else
    match TaskSegBuck_compar_loop ((mem seg1p).seg.blk_cnt + 1)
        (arll_rewind (mem seg1p).seg) (arll_rewind (mem seg2p).seg) with
    | none => none
    | some (r, seg1', seg2') =>
      some (r, Function.update
        (Function.update mem seg1p { mem seg1p with seg := seg1' })
        seg2p { mem seg2p with seg := seg2' })

/-- A bucketed segment with the three letters `(calc, 0)`, `(com, 1)` and
`(calc, 1)`, its dictionaries at the addresses 100 and 200. -/
def seg_buck_example : TaskSegBuck :=
  { dictp := (100, 200)
    seg := { blk_l := [0, 3, 2], blk_cnt := 3, blk_lsiz := 3, blk_curi := 0 }
    task_cnt := (2, 1)
    summary :=
      { devi_sum := (0, 0), devi_mean := (0, 0), dict_size := (2, 2), sum := (0, 0),
        avg := (0, 0) } }

/-! ## TaskSegRaw.c: put, next, rewind; arll.c: construct, push -/

/-- The array `a` with `a[i] = x`, for an array `a[TSTT_enumsize]` kept as a
pair. -/
def set2 {α : Type} (a : α × α) (i : Nat) (x : α) : α × α :=
  if i = 0 then (x, a.2) else (a.1, x)

/-- The array `realloc(l, n * sizeof(*l))` returns (`malloc` for an empty
`l`): `n` cells, the old content kept, every fresh cell holding the
unspecified value `junk`. -/
def realloc_cells {α : Type} (junk : α) (l : List α) (n : Nat) : List α :=
  l.take n ++ List.replicate (n - l.length) junk

def TSR_MALLOC_CNT : Nat := 16

/-- `task_curr_tot(ctx)`, an `unsigned` sum. -/
def task_curr_tot (ctx : TaskSegRaw) : Nat :=
  ((idx2 ctx.treq_l TSTT_calc).task_curr + (idx2 ctx.treq_l TSTT_com).task_curr) % 4294967296

/-- `task_lsiz_tot(ctx)`, an `unsigned` sum. -/
def task_lsiz_tot (ctx : TaskSegRaw) : Nat :=
  ((idx2 ctx.treq_l TSTT_calc).req_l_siz + (idx2 ctx.treq_l TSTT_com).req_l_siz) % 4294967296

/-- The segment `TaskSegRaw_init(ctx, nseg)` leaves in `*nseg`: the structure
zeroed, two weight arrays of `TSR_MALLOC_CNT` cells and a type array of twice
as many. `junk` and `junkt` are the contents of uninitialised weight and type
cells. The registration with the context is not modelled. -/
def TaskSegRaw_init (junk : ℚ) (junkt : Nat) : TaskSegRaw :=
  { task_type_l := realloc_cells junkt [] (TSR_MALLOC_CNT * 2)
    treq_l :=
      ({ req_l := realloc_cells junk [] TSR_MALLOC_CNT, req_l_siz := TSR_MALLOC_CNT,
         task_cnt := 0, task_curr := 0, avg := 0, stddev := 0, sum := 0 },
       { req_l := realloc_cells junk [] TSR_MALLOC_CNT, req_l_siz := TSR_MALLOC_CNT,
         task_cnt := 0, task_curr := 0, avg := 0, stddev := 0, sum := 0 })
    ct := { req := 0, type := 0 } }

/-- The block `if (rqlp->task_cnt == rqlp->req_l_siz) { ... }` of `TSR_put`
for a task of type `type`: the weight array of the type is doubled and the
type array is resized to the sum of the two capacities. -/
def TSR_put_grow (junk : ℚ) (junkt : Nat) (tsrp : TaskSegRaw) (type : Nat) : TaskSegRaw :=
  let rqlp := idx2 tsrp.treq_l type
  if rqlp.task_cnt = rqlp.req_l_siz then
    let grown : TaskSegRaw :=
      { tsrp with
        treq_l := set2 tsrp.treq_l type
          { rqlp with
            req_l := realloc_cells junk rqlp.req_l (rqlp.req_l_siz * 2)
            req_l_siz := rqlp.req_l_siz * 2 % 4294967296 } }
    { grown with
      task_type_l := realloc_cells junkt grown.task_type_l (task_lsiz_tot grown) }
  else tsrp

/-- The two assignments that end `TSR_put`: the type goes to
`task_type_l[task_cnt_tot(tsrp)]`, the weight to `req_l[task_cnt++]`. `none`
is a write outside an array. -/
def TSR_put_write (tsrp : TaskSegRaw) (task : TSRTask) : Option TaskSegRaw :=
  let rqlp := idx2 tsrp.treq_l task.type
  if ¬ task_cnt_tot tsrp < tsrp.task_type_l.length then none
  else if ¬ rqlp.task_cnt < rqlp.req_l.length then none
  else
    some
      { tsrp with
        task_type_l := tsrp.task_type_l.set (task_cnt_tot tsrp) task.type
        treq_l := set2 tsrp.treq_l task.type
          { rqlp with
            req_l := rqlp.req_l.set rqlp.task_cnt task.req
            task_cnt := (rqlp.task_cnt + 1) % 4294967296 } }

/-- `TSR_put(tsrp, task)`: the segment after the call, which returns
`TSR_ok` (`realloc` does not fail). `none` is the failing
`assert((unsigned)task.type < TSTT_enumsize)` or a write outside an array. -/
def TSR_put (junk : ℚ) (junkt : Nat) (tsrp : TaskSegRaw) (task : TSRTask) :
    Option TaskSegRaw :=
  if ¬ task.type < TSTT_enumsize then none
  else TSR_put_write (TSR_put_grow junk junkt tsrp task.type) task

/-- `TSR_next(tsrp)`: the task returned (`none` is the NULL pointer) and the
segment after the call. The outer `none` is a read outside an array. -/
def TSR_next (tsrp : TaskSegRaw) : Option (Option TSRTask × TaskSegRaw) :=
  let tcsum := task_curr_tot tsrp
  if tcsum = task_cnt_tot tsrp then some (none, tsrp)
  else
    match tsrp.task_type_l[tcsum]? with
    | none => none
    | some ttype =>
      if ¬ ttype < TSTT_enumsize then none
      else
        let reqlp := idx2 tsrp.treq_l ttype
        match reqlp.req_l[reqlp.task_curr]? with
        | none => none
        | some req =>
          some (some { req := req, type := ttype },
            { tsrp with
              ct := { req := req, type := ttype }
              treq_l := set2 tsrp.treq_l ttype
                { reqlp with task_curr := (reqlp.task_curr + 1) % 4294967296 } })

/-- `TSR_rewind(tsrp)`. -/
def TSR_rewind (tsrp : TaskSegRaw) : TaskSegRaw :=
  { tsrp with
    treq_l :=
      ({ tsrp.treq_l.1 with task_curr := 0 }, { tsrp.treq_l.2 with task_curr := 0 }) }

/-- The tasks `tasks` put one after the other with `TSR_put`. -/
def TSR_put_all (junk : ℚ) (junkt : Nat) : TaskSegRaw → List TSRTask → Option TaskSegRaw
  | tsrp, [] => some tsrp
  | tsrp, task :: rest =>
    match TSR_put junk junkt tsrp task with
    | none => none
    | some tsrp' => TSR_put_all junk junkt tsrp' rest

/-- The results of `n` successive calls of `TSR_next`, and the segment after
the last one. -/
def TSR_next_n : Nat → TaskSegRaw → Option (List (Option TSRTask) × TaskSegRaw)
  | 0, tsrp => some ([], tsrp)
  | n + 1, tsrp =>
    match TSR_next tsrp with
    | none => none
    | some (r, tsrp') =>
      match TSR_next_n n tsrp' with
      | none => none
      | some (rs, tsrp'') => some (r :: rs, tsrp'')

/-- `TSR_repr tsrp tasks`: the raw segment `tsrp` holds the tasks `tasks`, in
this order, and no `unsigned` counter of it has wrapped. -/
def TSR_repr (tsrp : TaskSegRaw) (tasks : List TSRTask) : Prop :=
  tasks.length + 16 < 2147483648 ∧
  (∀ t ∈ tasks, t.type < TSTT_enumsize) ∧
  tsrp.task_type_l.length = task_lsiz_tot tsrp ∧
  tsrp.task_type_l.take tasks.length = tasks.map (fun t => t.type) ∧
  ∀ i, i < TSTT_enumsize →
    (idx2 tsrp.treq_l i).req_l.length = (idx2 tsrp.treq_l i).req_l_siz ∧
    0 < (idx2 tsrp.treq_l i).req_l_siz ∧
    (idx2 tsrp.treq_l i).task_cnt = (tasks.filter (fun t => t.type = i)).length ∧
    (idx2 tsrp.treq_l i).task_cnt ≤ (idx2 tsrp.treq_l i).req_l_siz ∧
    (idx2 tsrp.treq_l i).req_l.take (idx2 tsrp.treq_l i).task_cnt =
      (tasks.filter (fun t => t.type = i)).map (fun t => t.req) ∧
    (idx2 tsrp.treq_l i).req_l_siz ≤ 16 + 2 * (tasks.filter (fun t => t.type = i)).length

/-- `TSR_at tsrp tasks k`: the segment holds `tasks` and its two cursors stand
after the first `k` of them. -/
def TSR_at (tsrp : TaskSegRaw) (tasks : List TSRTask) (k : Nat) : Prop :=
  TSR_repr tsrp tasks ∧ k ≤ tasks.length ∧
  ∀ i, i < TSTT_enumsize →
    (idx2 tsrp.treq_l i).task_curr = ((tasks.take k).filter (fun t => t.type = i)).length

/-- A run of `n` tasks with different weights, every third one a
communication. -/
def tsr_example_gen : Nat → List TSRTask
  | 0 => []
  | n + 1 =>
    { req := (n : ℚ) + 1 / 2, type := if n % 3 = 0 then TSTT_com else TSTT_calc } ::
      tsr_example_gen n

/-- Forty tasks; 26 of them are calculations, more than the initial capacity
`TSR_MALLOC_CNT`. -/
def tsr_example_tasks : List TSRTask := tsr_example_gen 40

/-! ## arll.c (construct, push) and TaskSegBuck.c: TSB_init -/

/-- The cells of `realloc(arllp->blk_l, newsiz * arllp->blk_siz)` in
`arll_realloc`: the byte count is an `unsigned` product. -/
def arll_realloc_cells {α : Type} (junk : α) (blk_siz : Nat) (l : List α) (newsiz : Nat) :
    List α :=
  realloc_cells junk l (newsiz * blk_siz % 4294967296 / blk_siz)

/-- `arll_construct(blk_siz, init_lsiz)`: the new list, `none` for the failing
`assert(init_lsiz && blk_siz)`. `junk` is the content of an uninitialised
block. -/
def arll_construct {α : Type} (junk : α) (blk_siz init_lsiz : Nat) : Option (arll α) :=
  if init_lsiz = 0 ∨ blk_siz = 0 then none
  else
    some { blk_l := arll_realloc_cells junk blk_siz [] init_lsiz, blk_cnt := 0,
           blk_lsiz := init_lsiz, blk_curi := 0 }

/-- `arll_push(arllp, blkp)` for a list of blocks of `blk_siz` bytes: the
returned index and the list after the call; `none` is a write outside the
array. -/
def arll_push {α : Type} (junk : α) (blk_siz : Nat) (arllp : arll α) (blk : α) :
    Option (Int × arll α) :=
  let arllp1 : arll α :=
    if arllp.blk_cnt = arllp.blk_lsiz then
      { arllp with
        blk_l := arll_realloc_cells junk blk_siz arllp.blk_l (arllp.blk_lsiz * 2 % 4294967296)
        blk_lsiz := arllp.blk_lsiz * 2 % 4294967296 }
    else arllp
  if ¬ arllp1.blk_cnt < arllp1.blk_l.length then none
  else
    some (int_of_unsigned arllp1.blk_cnt,
      { arllp1 with
        blk_l := arllp1.blk_l.set arllp1.blk_cnt blk
        blk_cnt := (arllp1.blk_cnt + 1) % 4294967296 })

/-- The size `sizeof(TCLetter)` in bytes. -/
def sizeof_TCLetter : Nat := 2

/-- The value `as_short` of a `TCLetter` whose bit-fields were assigned
`ttype` (1 bit) and `idx` (15 bits, from an `int`): bit 0 is the type, bits
1..15 are the key. -/
def TCLetter_mk (ttype : Nat) (idx : Int) : Nat :=
  ttype % 2 + 2 * (idx % 32768).toNat

/-- The bit-field `ttype` of a letter. -/
def TCLetter_ttype (letter : Nat) : Nat := letter % 2

/-- The bit-field `idx` of a letter. -/
def TCLetter_idx (letter : Nat) : Nat := letter / 2 % 32768

/-- The `while ((ctp = TSR_next(tsr_src)))` loop of `TSB_init`. `dmem` maps
the address of a dictionary to the dictionary. `none` is a failing assertion
(task type, key validity, `arll_push`) or the fuel running out. -/
def TSB_init_loop (junk : Nat) (dmem : Nat → TCDict) :
    Nat → TaskSegBuck → TaskSegRaw → Option (TaskSegBuck × TaskSegRaw)
  | 0, _, _ => none
  | fuel + 1, tsbp, tsr_src =>
    match TSR_next tsr_src with
    | none => none
    | some (none, tsr') => some (tsbp, tsr')
    | some (some ctp, tsr') =>
      if ¬ ctp.type < TSTT_enumsize then none
      else
        match TCDict_key_from_val (dmem (idx2 tsbp.dictp ctp.type)) ctp.req with
        | none => none
        | some ckey =>
          if ¬ TCKey_is_valid ckey then none
          else
            match arll_push junk sizeof_TCLetter tsbp.seg (TCLetter_mk ctp.type ckey) with
            | none => none
            | some (r, seg') =>
              if r = -1 then none
              else
                TSB_init_loop junk dmem fuel
                  { tsbp with
                    task_cnt := set2 tsbp.task_cnt ctp.type
                      ((idx2 tsbp.task_cnt ctp.type + 1) % 4294967296)
                    seg := seg' }
                  tsr'

/-- `qsort` with the comparison `sort_cf`: the weights in ascending order. -/
def qsort_cf (l : List ℚ) : List ℚ := l.insertionSort (· ≤ ·)

/-- `TaskSegRaw_to_reql(tsp, sort)`: a copy of the first `task_cnt` weights of
each type, sorted on demand; `none` is a read outside a weight array. -/
def TaskSegRaw_to_reql (tsrp : TaskSegRaw) (sort : Bool) : Option (List ℚ × List ℚ) :=
  if (idx2 tsrp.treq_l TSTT_calc).req_l.length < (idx2 tsrp.treq_l TSTT_calc).task_cnt ∨
      (idx2 tsrp.treq_l TSTT_com).req_l.length < (idx2 tsrp.treq_l TSTT_com).task_cnt then none
  else
    let c := (idx2 tsrp.treq_l TSTT_calc).req_l.take (idx2 tsrp.treq_l TSTT_calc).task_cnt
    let m := (idx2 tsrp.treq_l TSTT_com).req_l.take (idx2 tsrp.treq_l TSTT_com).task_cnt
    if sort then some (qsort_cf c, qsort_cf m) else some (c, m)

/-- The `while ((clp = arll_next(bsegp->seg)))` loop of `TaskSegBuck_to_reql`:
`reql` are the two arrays being filled, `idx` the two fill counts. `none` is a
failing assertion or the fuel running out. -/
def TaskSegBuck_to_reql_loop (dmem : Nat → TCDict) (dictp : Nat × Nat) :
    Nat → arll Nat → (List ℚ × List ℚ) → (Nat × Nat) →
      Option (arll Nat × (List ℚ × List ℚ) × (Nat × Nat))
  | 0, _, _, _ => none
  | fuel + 1, seg, reql, idx =>
    match arll_next seg with
    | (none, seg') => some (seg', reql, idx)
    | (some clp, seg') =>
      let ttype := TCLetter_ttype clp
      if ¬ idx2 idx ttype < (idx2 reql ttype).length then none
      else
        let cval := TCDict_val_from_key (dmem (idx2 dictp ttype)) (TCLetter_idx clp : Int)
        if ¬ cval ≥ 0 then none
        else
          TaskSegBuck_to_reql_loop dmem dictp fuel seg'
            (set2 reql ttype ((idx2 reql ttype).set (idx2 idx ttype) cval))
            (set2 idx ttype (idx2 idx ttype + 1))

/-- `TaskSegBuck_to_reql(tsp, sort)`: the decoded weights per type and the
segment with its cursor moved. The loop makes at most `blk_cnt + 1` calls of
`arll_next`. -/
def TaskSegBuck_to_reql (junk : ℚ) (dmem : Nat → TCDict) (bsegp : TaskSegBuck)
    (sort : Bool) : Option ((List ℚ × List ℚ) × TaskSegBuck) :=
  match TaskSegBuck_to_reql_loop dmem bsegp.dictp (bsegp.seg.blk_cnt + 1)
      (arll_rewind bsegp.seg)
      (realloc_cells junk [] (idx2 bsegp.task_cnt TSTT_calc),
        realloc_cells junk [] (idx2 bsegp.task_cnt TSTT_com))
      (0, 0) with
  | none => none
  | some (seg', reql, idx) =>
    if idx2 idx TSTT_calc ≠ (idx2 reql TSTT_calc).length ∨
        idx2 idx TSTT_com ≠ (idx2 reql TSTT_com).length then none
    else
      some (if sort then (qsort_cf reql.1, qsort_cf reql.2) else reql,
        { bsegp with seg := seg' })

/-- The body of the `for` loop of `TSB_eval` for the type `i`: the summary
after it, given the decoded weights `buck` and the raw weights `raw` of the
type; `none` is the failing assertion on the two sizes. -/
def TSB_eval_body (dmem : Nat → TCDict) (dictp : Nat × Nat) (s : TaskSeg_summary)
    (i : Nat) (buck raw : List ℚ) : Option TaskSeg_summary :=
  if buck.length ≠ raw.length then none
  else if buck.length = 0 then some s
  else
    let deltal := List.zipWith (fun b r => b - r) buck raw
    some
      { devi_sum := set2 s.devi_sum i deltal.sum
        devi_mean := set2 s.devi_mean i (gsl_stats_mean (deltal.map fun d => |d|))
        dict_size := set2 s.dict_size i (dmem (idx2 dictp i)).size
        sum := set2 s.sum i buck.sum
        avg := set2 s.avg i (gsl_stats_mean buck) }

/-- `TSB_eval(tsbp, orig_tsrp)`. -/
def TSB_eval (junk : ℚ) (dmem : Nat → TCDict) (tsbp : TaskSegBuck)
    (orig_tsrp : TaskSegRaw) : Option TaskSegBuck :=
  match TaskSegBuck_to_reql junk dmem tsbp false with
  | none => none
  | some (buck_reql, tsbp1) =>
    match TaskSegRaw_to_reql orig_tsrp false with
    | none => none
    | some raw_reql =>
      match TSB_eval_body dmem tsbp1.dictp tsbp1.summary TSTT_calc
          (idx2 buck_reql TSTT_calc) (idx2 raw_reql TSTT_calc) with
      | none => none
      | some s1 =>
        match TSB_eval_body dmem tsbp1.dictp s1 TSTT_com
            (idx2 buck_reql TSTT_com) (idx2 raw_reql TSTT_com) with
        | none => none
        | some s2 => some { tsbp1 with summary := s2 }

/-- `TSB_init(ctx, tsbp, calc_dictp, com_dictp, tsr_src)` for valid pointers:
the bucketed segment written to `*tsbp` and the raw segment with its cursors
moved, when the call returns 0; `none` when an assertion fails. `junk` and
`junkw` are the contents of uninitialised letters and weights; the
registration with the context is not modelled. The loop makes at most one
call of `TSR_next` more than there are tasks. -/
def TSB_init (junk : Nat) (junkw : ℚ) (dmem : Nat → TCDict) (calc_dictp com_dictp : Nat)
    (tsr_src : TaskSegRaw) : Option (TaskSegBuck × TaskSegRaw) :=
  match arll_construct junk sizeof_TCLetter
      ((TSR_size tsr_src TSTT_calc + TSR_size tsr_src TSTT_com) % 4294967296) with
  | none => none
  | some seg =>
    match TSB_init_loop junk dmem (TSR_size tsr_src TSTT_calc + TSR_size tsr_src TSTT_com + 1)
        { dictp := (calc_dictp, com_dictp), seg := seg, task_cnt := (0, 0),
          summary :=
            { devi_sum := (0, 0), devi_mean := (0, 0), dict_size := (0, 0), sum := (0, 0),
              avg := (0, 0) } }
        (TSR_rewind tsr_src) with
    | none => none
    | some (tsbp, tsr1) =>
      match TSB_eval junkw dmem tsbp tsr1 with
      | none => none
      | some tsbp' => some (tsbp', tsr1)

/-- The letter `TSB_init` computes for the task `t`. -/
def TSB_letter (dmem : Nat → TCDict) (dictp : Nat × Nat) (t : TSRTask) : Nat :=
  TCLetter_mk t.type
    ((TCDict_key_from_val (dmem (idx2 dictp t.type)) t.req).getD TCKey_INVALID)

/-- Two dictionaries at the addresses 1 (calculation, two buckets) and 2
(communication, one bucket). -/
def tsb_example_dmem (p : Nat) : TCDict :=
  if p = 1 then { supremum_l := [10, 20], mean_l := [5, 15], size := 2 }
  else { supremum_l := [100], mean_l := [50], size := 1 }

/-- Three tasks: a calculation, a communication, a calculation. -/
def tsb_example_tasks : List TSRTask :=
  [{ req := 3, type := TSTT_calc }, { req := 70, type := TSTT_com },
   { req := 12, type := TSTT_calc }]

/-- The raw segment that holds `tsb_example_tasks`. -/
def tsb_example_raw : TaskSegRaw :=
  (TSR_put_all 0 0 (TaskSegRaw_init 0 0) tsb_example_tasks).getD (TaskSegRaw_init 0 0)


/-! ## pm.h, pm.c: the PPM tree

Vertices, groups and contexts live in three memories indexed by address; the
address 0 is the NULL pointer and reading or writing through it aborts. An
address returned by `malloc` is a parameter of the function that allocates.
The recursive functions of `pm.c` take a bound on the depth of their call
stack as their first argument and return `none` when it is exceeded. -/

def PMV_seg : Nat := 0

def PMV_insc : Nat := 1

def PMV_wrap : Nat := 2

def PMV_enumsize : Nat := 3

def PMV_SBIT_evaluated : Nat := 0x0001

def PMV_SBIT_commonstem_start_1 : Nat := 0x0002

def PMV_SBIT_commonstem_start_2 : Nat := 0x0004

def PMV_SBIT_INSC_is_sym : Nat := 0x0200

/-- The operator `!` of C on an integer. -/
def lnot (x : Nat) : Nat := if x = 0 then 1 else 0

/-- The memory `m` after the store `*a = v`. -/
def store {α : Type} (m : Nat → α) (a : Nat) (v : α) : Nat → α :=
  fun x => if x = a then v else m x

/-- A value of type `PMV **`: NULL, `&ctx->headp`, `&v->np`, `&v->pp` (which
is `&v->wp`, the two share the union) or `&v->cp`. -/
inductive PMVSlot where
  | null : PMVSlot
  | headp (ctx : Nat) : PMVSlot
  | np (v : Nat) : PMVSlot
  | pp (v : Nat) : PMVSlot
  | cp (v : Nat) : PMVSlot
  deriving DecidableEq, Repr

/-- A vertex `struct PMV`. The union of `segconti`, `{pp, cp}` and `wp` is
kept as the two pointers `pp` and `cp`: `wp` is the storage of `pp`, and
`segconti`, which the functions below never read, is left out, as is
`external`. `depth`, `vcnt`, `hash` and `flags` are 32-bit unsigned. -/
structure PMV where
  type : Nat
  np : Nat
  prevnpp : PMVSlot
  gp : Nat
  ctxp : Nat
  depth : Nat
  vcnt : Nat
  hash : Nat
  flags : Nat
  pp : Nat
  cp : Nat
  deriving DecidableEq, Repr

/-- The member `wp` of the union. -/
def PMV.wp (v : PMV) : Nat := v.pp

/-- The vertex with new values of `hash`, `depth` and `vcnt`. -/
def PMV.with_summary (v : PMV) (hash depth vcnt : Nat) : PMV :=
  { v with hash := hash, depth := depth, vcnt := vcnt }

/-- The vertex with a new value of `flags`. -/
def PMV.with_flags (v : PMV) (flags : Nat) : PMV := { v with flags := flags }

/-- The vertex with a new value of `np`. -/
def PMV.with_np (v : PMV) (p : Nat) : PMV := { v with np := p }

/-- The vertex with a new value of `pp`, which is also `wp`. -/
def PMV.with_pp (v : PMV) (p : Nat) : PMV := { v with pp := p }

/-- The vertex with a new value of `cp`. -/
def PMV.with_cp (v : PMV) (p : Nat) : PMV := { v with cp := p }

/-- The vertex with a new value of `prevnpp`. -/
def PMV.with_prevnpp (v : PMV) (slot : PMVSlot) : PMV := { v with prevnpp := slot }

/-- The constant `pmv_zero`. -/
def pmv_zero : PMV :=
  { type := 0, np := 0, prevnpp := PMVSlot.null, gp := 0, ctxp := 0, depth := 0, vcnt := 0,
    hash := 0, flags := 0, pp := 0, cp := 0 }

abbrev PMVMem : Type := Nat → PMV

/-- The constant `hp` of `PMV_eval_r`. -/
def hp : Nat := 0x7FffFFff

/-- The statement `if (force || !(cp->flags & PMV_SBIT_evaluated))
PMV_eval_r(cp, force);` with the recursive call passed as `eval`. -/
def PMV_eval_child (eval : PMVMem → Nat → Bool → Option PMVMem) (m : PMVMem) (cp : Nat)
    (force : Bool) : Option PMVMem :=
  if force = true ∨ (m cp).flags &&& PMV_SBIT_evaluated = 0 then eval m cp force else some m

/-- The case `PMV_wrap` of the `switch` of `PMV_eval_r`. -/
def PMV_eval_r_wrap (eval : PMVMem → Nat → Bool → Option PMVMem) (m : PMVMem) (vp : Nat)
    (force : Bool) : Option PMVMem :=
  let m1 := store m vp ((m vp).with_summary 0 0 0)
  if (m1 vp).wp = 0 then some m1
  else
    match PMV_eval_child eval m1 (m1 vp).wp force with
    | none => none
    | some m2 =>
      some (store m2 vp ((m2 vp).with_summary
        (((m2 vp).hash + (m2 (m2 vp).wp).hash) % 4294967296 % hp)
        (((m2 vp).depth + (m2 (m2 vp).wp).depth) % 4294967296)
        (((m2 vp).vcnt + (m2 (m2 vp).wp).vcnt) % 4294967296)))

/-- The block `if (vp->pp) { ... }` of the case `PMV_insc`: the memory and
`max_depth` after it. -/
def PMV_eval_r_insc_pp (eval : PMVMem → Nat → Bool → Option PMVMem) (m : PMVMem) (vp : Nat)
    (force : Bool) : Option (PMVMem × Nat) :=
  if (m vp).pp = 0 then some (m, 0)
  else
    match PMV_eval_child eval m (m vp).pp force with
    | none => none
    | some m2 =>
      some (store m2 vp ((m2 vp).with_summary
          (((m2 vp).hash + (m2 (m2 vp).pp).hash) % 4294967296 % hp)
          (m2 vp).depth
          (((m2 vp).vcnt + (m2 (m2 vp).pp).vcnt) % 4294967296)),
        (m2 (m2 vp).pp).depth)

/-- The block `if (vp->cp) { ... }` of the case `PMV_insc`. -/
def PMV_eval_r_insc_cp (eval : PMVMem → Nat → Bool → Option PMVMem) (m : PMVMem) (vp : Nat)
    (force : Bool) (max_depth : Nat) : Option (PMVMem × Nat) :=
  if (m vp).cp = 0 then some (m, max_depth)
  else
    match PMV_eval_child eval m (m vp).cp force with
    | none => none
    | some m2 =>
      some (store m2 vp ((m2 vp).with_summary
          (((m2 vp).hash + (m2 (m2 vp).cp).hash) % 4294967296 % hp)
          (m2 vp).depth
          (((m2 vp).vcnt + (m2 (m2 vp).cp).vcnt) % 4294967296)),
        if (m2 (m2 vp).cp).depth > max_depth then (m2 (m2 vp).cp).depth else max_depth)

/-- The case `PMV_insc` of the `switch` of `PMV_eval_r`; `sim` is
`PMV_is_similar`. -/
def PMV_eval_r_insc (eval : PMVMem → Nat → Bool → Option PMVMem)
    (sim : PMVMem → Nat → Nat → Bool → Option (PMVMem × Nat)) (m : PMVMem) (vp : Nat)
    (force : Bool) : Option PMVMem :=
  let m1 := store m vp ((m vp).with_summary 32768 1 1)
  match PMV_eval_r_insc_pp eval m1 vp force with
  | none => none
  | some (m2, max_depth) =>
    match PMV_eval_r_insc_cp eval m2 vp force max_depth with
    | none => none
    | some (m3, max_depth) =>
      let m4 := store m3 vp ((m3 vp).with_summary (m3 vp).hash
        (((m3 vp).depth + max_depth) % 4294967296) (m3 vp).vcnt)
      match sim m4 (m4 vp).pp (m4 vp).cp true with
      | none => none
      | some (m5, r) =>
        if r ≠ 0 then
          some (store m5 vp ((m5 vp).with_flags ((m5 vp).flags ||| PMV_SBIT_INSC_is_sym)))
        else some m5

/-- The `switch` of `PMV_eval_r`, for a valid type. -/
def PMV_eval_r_switch (eval : PMVMem → Nat → Bool → Option PMVMem)
    (sim : PMVMem → Nat → Nat → Bool → Option (PMVMem × Nat)) (m : PMVMem) (vp : Nat)
    (force : Bool) : Option PMVMem :=
  if (m vp).type = PMV_wrap then PMV_eval_r_wrap eval m vp force
  else if (m vp).type = PMV_insc then PMV_eval_r_insc eval sim m vp force
  else some (store m vp ((m vp).with_summary 1 1 1))

/-- The block `if (vp->np) { ... }` that ends `PMV_eval_r`. -/
def PMV_eval_r_np (eval : PMVMem → Nat → Bool → Option PMVMem) (m : PMVMem) (vp : Nat)
    (force : Bool) : Option PMVMem :=
  if (m vp).np = 0 then some m
  else
    match PMV_eval_child eval m (m vp).np force with
    | none => none
    | some m2 =>
      some (store m2 vp ((m2 vp).with_summary
        (((m2 vp).hash + (m2 (m2 vp).np).hash) % 4294967296 % hp)
        (((m2 vp).depth + (m2 (m2 vp).np).depth) % 4294967296)
        (((m2 vp).vcnt + (m2 (m2 vp).np).vcnt) % 4294967296)))

/-- The body of `PMV_eval_r(vp, force)` with its calls of `PMV_eval_r` and
`PMV_is_similar` passed as `eval` and `sim`: the memory after the call, `none`
for a failing assertion. -/
def PMV_eval_r_body (eval : PMVMem → Nat → Bool → Option PMVMem)
    (sim : PMVMem → Nat → Nat → Bool → Option (PMVMem × Nat)) (m : PMVMem) (vp : Nat)
    (force : Bool) : Option PMVMem :=
  if vp = 0 then none
  else if ¬ (m vp).type < PMV_enumsize then none
  else
    match PMV_eval_r_switch eval sim m vp force with
    | none => none
    | some m1 =>
      match PMV_eval_r_np eval m1 vp force with
      | none => none
      | some m2 =>
        some (store m2 vp ((m2 vp).with_flags ((m2 vp).flags ||| PMV_SBIT_evaluated)))

/-- The branch of `_PMV_find_common_stem` for two vertices of which exactly
one, `vwp`, is a wrapper; `vop` is the other one. The result is the memory
with the ends `(*vwendpp, *voendpp)`; `none` in the first component of the
ends stands for the jump to `_PMV_eq_until_here`. -/
def PMV_find_common_stem_wrap
    (fss : PMVMem → Nat → Nat → Bool → Option (PMVMem × Nat × Nat)) (m : PMVMem)
    (vwp vop : Nat) (check_summary : Bool) : Option (PMVMem × Option (Nat × Nat)) :=
  match fss m (m vwp).wp vop false with
  | none => none
  | some (m1, vwend, voend) =>
    if vwend = 0 then some (m1, some (0, 0))
    else if (m1 vwend).np ≠ 0 then some (m1, some (0, 0))
    else if voend = 0 then none
    else
      match fss m1 (m1 vwp).np (m1 voend).np check_summary with
      | none => none
      | some (m2, vwend2, voend2) =>
        if vwend2 = 0 then some (m2, none) else some (m2, some (vwend2, voend2))

/-- One comparison of branches in the `switch` of `_PMV_find_common_stem`:
`PMV_find_similar_stem(p1, p2, v1endpp, v2endpp, 1)` followed by the two
tests that jump to `_PMV_eq_until_prev`. The Boolean tells that no jump was
made. -/
def PMV_find_common_stem_branch
    (fss : PMVMem → Nat → Nat → Bool → Option (PMVMem × Nat × Nat)) (m : PMVMem)
    (p1 p2 : Nat) : Option (PMVMem × Bool) :=
  match fss m p1 p2 true with
  | none => none
  | some (m1, v1end, v2end) =>
    if v1end = 0 then some (m1, false)
    else if v2end = 0 then none
    else if (m1 v1end).np ≠ (m1 v2end).np then some (m1, false)
    else some (m1, true)

/-- The `switch` of `_PMV_find_common_stem` for two vertices of the same
type; `sym` is `PMV_insc_is_symm`, called for `v1p` first. The Boolean tells
that no jump to `_PMV_eq_until_prev` was made. -/
def PMV_find_common_stem_switch
    (fss : PMVMem → Nat → Nat → Bool → Option (PMVMem × Nat × Nat))
    (sym : PMVMem → Nat → Option (PMVMem × Nat)) (m : PMVMem) (v1p v2p : Nat) :
    Option (PMVMem × Bool) :=
  if (m v1p).type = PMV_seg then some (m, true)
  else if (m v1p).type = PMV_insc then
    match sym m v1p with
    | none => none
    | some (m1, s1) =>
      match sym m1 v2p with
      | none => none
      | some (m2, s2) =>
        if s1 ≠ s2 then some (m2, false)
        else
          match PMV_find_common_stem_branch fss m2 (m2 v1p).pp (m2 v2p).pp with
          | none => none
          | some (m3, false) => some (m3, false)
          | some (m3, true) => PMV_find_common_stem_branch fss m3 (m3 v1p).cp (m3 v2p).cp
  else if (m v1p).type = PMV_wrap then
    PMV_find_common_stem_branch fss m (m v1p).wp (m v2p).wp
  else none

/-- The body of `_PMV_find_common_stem(v1p, v2p, v1endpp, v2endpp,
check_summary)`: the memory after the call and the two ends written to
`*v1endpp` and `*v2endpp`. -/
def PMV_find_common_stem_body
    (fss : PMVMem → Nat → Nat → Bool → Option (PMVMem × Nat × Nat))
    (sym : PMVMem → Nat → Option (PMVMem × Nat)) (m : PMVMem) (v1p v2p : Nat)
    (check_summary : Bool) : Option (PMVMem × Nat × Nat) :=
  if v1p ≠ 0 ∧ v1p = v2p then none
  else if (v1p = 0 ∧ v2p ≠ 0) ∨ (v1p ≠ 0 ∧ v2p = 0) ∨ v1p = v2p then some (m, 0, 0)
  else if (m v1p).flags &&& PMV_SBIT_commonstem_start_2 ≠ 0 ∨
      (m v2p).flags &&& PMV_SBIT_commonstem_start_1 ≠ 0 then some (m, 0, 0)
  else if (m v1p).type ≠ (m v2p).type then
    if (m v1p).type = PMV_wrap then
      match PMV_find_common_stem_wrap fss m v1p v2p check_summary with
      | none => none
      | some (m1, none) => some (m1, v1p, v2p)
      | some (m1, some (vwend, voend)) => some (m1, vwend, voend)
    else if (m v2p).type = PMV_wrap then
      match PMV_find_common_stem_wrap fss m v2p v1p check_summary with
      | none => none
      | some (m1, none) => some (m1, v1p, v2p)
      | some (m1, some (vwend, voend)) => some (m1, voend, vwend)
    else some (m, 0, 0)
  else if check_summary = true ∧
      ((m v1p).hash ≠ (m v2p).hash ∨ (m v1p).depth ≠ (m v2p).depth ∨
        (m v1p).vcnt ≠ (m v2p).vcnt) then some (m, 0, 0)
  else
    match PMV_find_common_stem_switch fss sym m v1p v2p with
    | none => none
    | some (m1, false) => some (m1, 0, 0)
    | some (m1, true) =>
      match fss m1 (m1 v1p).np (m1 v2p).np check_summary with
      | none => none
      | some (m2, v1end, v2end) =>
        if v1end = 0 then some (m2, v1p, v2p) else some (m2, v1end, v2end)

/-- The body of `PMV_find_similar_stem`; `fcs` is `_PMV_find_common_stem`.
The two statements `flags &= !BIT` clear every flag, `!BIT` being 0. -/
def PMV_find_similar_stem_body
    (fcs : PMVMem → Nat → Nat → Bool → Option (PMVMem × Nat × Nat)) (m : PMVMem)
    (v1p v2p : Nat) (check_summary : Bool) : Option (PMVMem × Nat × Nat) :=
  if v1p ≠ 0 ∧ v1p = v2p then none
  else if (v1p = 0 ∧ v2p ≠ 0) ∨ (v1p ≠ 0 ∧ v2p = 0) ∨ v1p = v2p then some (m, 0, 0)
  else
    let m1 := store m v1p ((m v1p).with_flags ((m v1p).flags ||| PMV_SBIT_commonstem_start_1))
    let m2 := store m1 v2p
      ((m1 v2p).with_flags ((m1 v2p).flags ||| PMV_SBIT_commonstem_start_2))
    match fcs m2 v1p v2p check_summary with
    | none => none
    | some (m3, v1end, v2end) =>
      let m4 := store m3 v1p
        ((m3 v1p).with_flags ((m3 v1p).flags &&& lnot PMV_SBIT_commonstem_start_1))
      let m5 := store m4 v2p
        ((m4 v2p).with_flags ((m4 v2p).flags &&& lnot PMV_SBIT_commonstem_start_2))
      some (m5, v1end, v2end)

/-- The body of `PMV_is_similar(v1, v2, check_summary)`: the memory after the
call and the returned `int`. -/
def PMV_is_similar_body
    (fss : PMVMem → Nat → Nat → Bool → Option (PMVMem × Nat × Nat)) (m : PMVMem)
    (v1 v2 : Nat) (check_summary : Bool) : Option (PMVMem × Nat) :=
  if v1 = 0 then some (m, if v1 = v2 then 1 else 0)
  else
    match fss m v1 v2 check_summary with
    | none => none
    | some (m1, v1end, v2end) =>
      if v1end = 0 then some (m1, 0)
      else if v2end = 0 then none
      else if (m1 v1end).np ≠ (m1 v2end).np then some (m1, 0)
      else some (m1, 1)

/-- The body of `PMV_insc_is_symm(vp)`. -/
def PMV_insc_is_symm_body (eval : PMVMem → Nat → Bool → Option PMVMem) (m : PMVMem)
    (vp : Nat) : Option (PMVMem × Nat) :=
  if vp = 0 then none
  else if (m vp).type ≠ PMV_insc then none
  else
    match (if (m vp).flags &&& PMV_SBIT_evaluated = 0 then eval m vp false else some m) with
    | none => none
    | some m1 => some (m1, (m1 vp).flags &&& PMV_SBIT_INSC_is_sym)

mutual
/-- `PMV_eval_r(vp, force)`. -/
def PMV_eval_r : Nat → PMVMem → Nat → Bool → Option PMVMem
  | 0, _, _, _ => none
  | fuel + 1, m, vp, force =>
    PMV_eval_r_body (fun m' v f => PMV_eval_r fuel m' v f)
      (fun m' a b c => PMV_is_similar fuel m' a b c) m vp force
termination_by structural fuel => fuel
/-- `_PMV_find_common_stem(v1p, v2p, v1endpp, v2endpp, check_summary)`. -/
def PMV_find_common_stem : Nat → PMVMem → Nat → Nat → Bool → Option (PMVMem × Nat × Nat)
  | 0, _, _, _, _ => none
  | fuel + 1, m, v1p, v2p, check_summary =>
    PMV_find_common_stem_body (fun m' a b c => PMV_find_similar_stem fuel m' a b c)
      (fun m' v => PMV_insc_is_symm fuel m' v) m v1p v2p check_summary
termination_by structural fuel => fuel
/-- `PMV_find_similar_stem(v1p, v2p, v1endpp, v2endpp, check_summary)`. -/
def PMV_find_similar_stem : Nat → PMVMem → Nat → Nat → Bool → Option (PMVMem × Nat × Nat)
  | 0, _, _, _, _ => none
  | fuel + 1, m, v1p, v2p, check_summary =>
    PMV_find_similar_stem_body (fun m' a b c => PMV_find_common_stem fuel m' a b c)
      m v1p v2p check_summary
termination_by structural fuel => fuel
/-- `PMV_is_similar(v1, v2, check_summary)`. -/
def PMV_is_similar : Nat → PMVMem → Nat → Nat → Bool → Option (PMVMem × Nat)
  | 0, _, _, _, _ => none
  | fuel + 1, m, v1, v2, check_summary =>
    PMV_is_similar_body (fun m' a b c => PMV_find_similar_stem fuel m' a b c)
      m v1 v2 check_summary
termination_by structural fuel => fuel
/-- `PMV_insc_is_symm(vp)`. -/
def PMV_insc_is_symm : Nat → PMVMem → Nat → Option (PMVMem × Nat)
  | 0, _, _ => none
  | fuel + 1, m, vp => PMV_insc_is_symm_body (fun m' v f => PMV_eval_r fuel m' v f) m vp
termination_by structural fuel => fuel
end

/-! ### Groups and contexts -/

/-- A value of type `Elem **`: NULL, `&ctx->elem_dll` or `&e->next_p`. -/
inductive ElemSlot where
  | null : ElemSlot
  | elem_dll (ctx : Nat) : ElemSlot
  | next_p (e : Nat) : ElemSlot
  deriving DecidableEq, Repr

/-- The `struct CPMV`; `wp` is the storage of `pp`. -/
structure CPMV where
  type : Nat
  np : Nat
  pp : Nat
  cp : Nat
  deriving DecidableEq, Repr

/-- A group `struct PMVG` with the fields of its `Elem`. The list `vpl` is
kept in the group; the context pointer `ctxp` is the address of the
`PMContext` whose `gctx` it is. -/
structure PMVG where
  next_p : Nat
  prev_next_pp : ElemSlot
  ctxp : Nat
  idx : Int
  vpl : arll Nat
  cpmv : CPMV
  id : Nat

/-- The `PMVGCtx` with the fields of its `ElemCtx`. -/
structure PMVGCtx where
  elem_dll : Nat
  size : Nat
  gid_curr : Nat
  deriving DecidableEq, Repr

/-- The `struct PMContext` without the segment containers and the plot. -/
structure PMContext where
  headp : Nat
  gctx : PMVGCtx
  pmvcnt : List Nat

/-- The three memories: vertices, groups, contexts. -/
structure PMState where
  vm : PMVMem
  gm : Nat → PMVG
  cm : Nat → PMContext

/-- The size `sizeof(PMV*)` in bytes. -/
def sizeof_PMVp : Nat := 8

/-- A group as `_obj_alloc` returns it: every byte 0. -/
def pmvg_zero : PMVG :=
  { next_p := 0, prev_next_pp := ElemSlot.null, ctxp := 0, idx := 0,
    vpl := { blk_l := [], blk_cnt := 0, blk_lsiz := 0, blk_curi := 0 },
    cpmv := { type := 0, np := 0, pp := 0, cp := 0 }, id := 0 }

/-- The store `*slot = p` through a `PMV **`. -/
def PMVSlot_store (s : PMState) (slot : PMVSlot) (p : Nat) : Option PMState :=
  match slot with
  | PMVSlot.null => none
  | PMVSlot.headp ctx => some { s with cm := store s.cm ctx { s.cm ctx with headp := p } }
  | PMVSlot.np v => some { s with vm := store s.vm v ((s.vm v).with_np p) }
  | PMVSlot.pp v => some { s with vm := store s.vm v ((s.vm v).with_pp p) }
  | PMVSlot.cp v => some { s with vm := store s.vm v ((s.vm v).with_cp p) }

/-- The store `*slot = p` through an `Elem **`. -/
def ElemSlot_store (s : PMState) (slot : ElemSlot) (p : Nat) : Option PMState :=
  match slot with
  | ElemSlot.null => none
  | ElemSlot.elem_dll ctx =>
    some { s with
      cm := store s.cm ctx { s.cm ctx with gctx := { (s.cm ctx).gctx with elem_dll := p } } }
  | ElemSlot.next_p e => some { s with gm := store s.gm e { s.gm e with next_p := p } }

/-- `Elem_init(ctx, ep)` for the group context of the `PMContext` at `ctx`
and the group at `ep`. -/
def Elem_init (s : PMState) (ctx ep : Nat) : Option PMState :=
  if ctx = 0 ∨ ep = 0 then none
  else
    let g0 : PMVG :=
      { s.gm ep with next_p := 0, prev_next_pp := ElemSlot.null, ctxp := 0, idx := 0 }
    let s1 : PMState := { s with gm := store s.gm ep g0 }
    let s2 : PMState :=
      if (s1.cm ctx).gctx.elem_dll ≠ 0 then
        { s1 with
          gm := store s1.gm (s1.cm ctx).gctx.elem_dll
            { s1.gm (s1.cm ctx).gctx.elem_dll with prev_next_pp := ElemSlot.next_p ep } }
      else s1
    let s3 : PMState :=
      { s2 with
        gm := store s2.gm ep
          { s2.gm ep with
            next_p := (s2.cm ctx).gctx.elem_dll
            prev_next_pp := ElemSlot.elem_dll ctx
            ctxp := ctx
            idx := -1 } }
    some
      { s3 with
        cm := store s3.cm ctx
          { s3.cm ctx with
            gctx :=
              { (s3.cm ctx).gctx with
                elem_dll := ep
                size := ((s3.cm ctx).gctx.size + 1) % 4294967296 } } }

/-- `PMVG_init(ctx, gp, type)`; `junk` is the content of an uninitialised
block of the member list. -/
def PMVG_init (junk : Nat) (s : PMState) (ctx gp type : Nat) : Option PMState :=
  if ctx = 0 ∨ gp = 0 then none
  else
    match Elem_init s ctx gp with
    | none => none
    | some s1 =>
      if ¬ type < PMV_enumsize then none
      else
        match arll_construct junk sizeof_PMVp 1 with
        | none => none
        | some vpl =>
          let s2 : PMState :=
            { s1 with
              gm := store s1.gm gp
                { s1.gm gp with vpl := vpl, id := (s1.cm ctx).gctx.gid_curr } }
          let s3 : PMState :=
            { s2 with
              cm := store s2.cm ctx
                { s2.cm ctx with
                  gctx :=
                    { (s2.cm ctx).gctx with
                      gid_curr := ((s2.cm ctx).gctx.gid_curr + 1) % 4294967296 } } }
          some
            { s3 with
              gm := store s3.gm gp { s3.gm gp with cpmv := { (s3.gm gp).cpmv with type := type } } }

/-- `PMVG_addv(gp, vp)`: the state after the call and the returned `int`. -/
def PMVG_addv (junk : Nat) (s : PMState) (gp vp : Nat) : Option (PMState × Int) :=
  if gp = 0 ∨ vp = 0 then none
  else if (s.vm vp).type ≠ (s.gm gp).cpmv.type then none
  else
    match arll_push junk sizeof_PMVp (s.gm gp).vpl vp with
    | none => none
    | some (r, vpl) =>
      some ({ s with gm := store s.gm gp { s.gm gp with vpl := vpl } },
        if r = -1 then -1 else 0)

/-- `PMV_create(ctx, type, prevnpp)`; `nvp` is the address `malloc` returns
for the vertex and `ngp` the address `_obj_alloc` returns for its group. -/
def PMV_create (junk : Nat) (s : PMState) (ctx type : Nat) (prevnpp : PMVSlot)
    (nvp ngp : Nat) : Option (PMState × Nat) :=
  if ¬ type < PMV_enumsize then none
  else if ctx = 0 then none
  else if nvp = 0 then none
  else
    let s1 : PMState :=
      { s with
        vm := store s.vm nvp { pmv_zero with type := type, prevnpp := prevnpp, gp := ngp }
        gm := store s.gm ngp pmvg_zero }
    match PMVG_init junk s1 ctx ngp type with
    | none => none
    | some s2 =>
      let s3 : PMState := { s2 with vm := store s2.vm nvp { s2.vm nvp with ctxp := ctx } }
      if (s3.vm nvp).gp = 0 then none
      else
        match PMVG_addv junk s3 (s3.vm nvp).gp nvp with
        | none => none
        | some (s4, r) =>
          if r ≠ 0 then none
          else
            some
              ({ s4 with
                  cm := store s4.cm ctx
                    { s4.cm ctx with
                      pmvcnt := (s4.cm ctx).pmvcnt.set type
                        (((s4.cm ctx).pmvcnt.getD type 0 + 1) % 4294967296) } },
                nvp)

/-- The loop `while ((vpp = arll_next(from->vpl))) { ... }` of `PMVG_merge`. -/
def PMVG_merge_loop (junk : Nat) : Nat → PMState → Nat → Nat → Option PMState
  | 0, _, _, _ => none
  | fuel + 1, s, to_, from_ =>
    match arll_next (s.gm from_).vpl with
    | (none, vpl) => some { s with gm := store s.gm from_ { s.gm from_ with vpl := vpl } }
    | (some vp, vpl) =>
      let s1 : PMState := { s with gm := store s.gm from_ { s.gm from_ with vpl := vpl } }
      if vp = 0 then none
      else
        let s2 : PMState := { s1 with vm := store s1.vm vp { s1.vm vp with gp := to_ } }
        match PMVG_addv junk s2 to_ vp with
        | none => none
        | some (s3, r) => if r ≠ 0 then none else PMVG_merge_loop junk fuel s3 to_ from_

/-- `_Elem_deinit(objp)`. -/
def Elem_deinit (s : PMState) (ep : Nat) : Option PMState :=
  if (s.gm ep).ctxp = 0 then none
  else if (s.cm (s.gm ep).ctxp).gctx.size = 0 then none
  else
    let ctx := (s.gm ep).ctxp
    let s1 : PMState :=
      { s with
        cm := store s.cm ctx
          { s.cm ctx with gctx := { (s.cm ctx).gctx with size := (s.cm ctx).gctx.size - 1 } } }
    let s2 : PMState :=
      if (s1.gm ep).next_p ≠ 0 then
        { s1 with
          gm := store s1.gm (s1.gm ep).next_p
            { s1.gm (s1.gm ep).next_p with prev_next_pp := (s1.gm ep).prev_next_pp } }
      else s1
    ElemSlot_store s2 (s2.gm ep).prev_next_pp (s2.gm ep).next_p

/-- `PMVG_merge(to, from)`: the state after the call, which returns 0. The
group `from` is deinitialised and freed; its cell keeps its last content. The
loop makes at most one call of `arll_next` more than the list has blocks. -/
def PMVG_merge (junk : Nat) (s : PMState) (to_ from_ : Nat) : Option PMState :=
  if to_ = 0 ∨ from_ = 0 then none
  else if to_ = from_ then some s
  else if (s.gm to_).cpmv.type ≠ (s.gm from_).cpmv.type then none
  else
    match PMVG_merge_loop junk ((s.gm from_).vpl.blk_cnt + 1) s to_ from_ with
    | none => none
    | some s1 => Elem_deinit s1 from_

/-- The loop `while (cv) { if (cv == untilp) break; cv = cv->np; }` of
`PMV_wrap_section`: the final `cv`. -/
def PMV_wrap_section_loop : Nat → PMVMem → Nat → Nat → Option Nat
  | 0, _, _, _ => none
  | fuel + 1, m, cv, untilp =>
    if cv = 0 then some 0
    else if cv = untilp then some cv
    else PMV_wrap_section_loop fuel m (m cv).np untilp

/-- The statements of `PMV_wrap_section` from `nv->wp = fromp` to
`if (nv->np) nv->np->prevnpp = &nv->np`, for the new wrapper `nv`. -/
def PMV_wrap_section_relink (s1 : PMState) (fromp untilp nv : Nat) : Option PMState :=
  let s2 : PMState := { s1 with vm := store s1.vm nv ((s1.vm nv).with_pp fromp) }
  match PMVSlot_store s2 (s2.vm nv).prevnpp nv with
  | none => none
  | some s3 =>
    let s4 : PMState :=
      { s3 with vm := store s3.vm fromp ((s3.vm fromp).with_prevnpp (PMVSlot.pp nv)) }
    let s5 : PMState :=
      { s4 with vm := store s4.vm nv ((s4.vm nv).with_np (s4.vm untilp).np) }
    let s6 : PMState :=
      { s5 with vm := store s5.vm untilp ((s5.vm untilp).with_np 0) }
    let s7 : PMState :=
      if (s6.vm nv).np ≠ 0 then
        { s6 with
          vm := store s6.vm (s6.vm nv).np
            ((s6.vm (s6.vm nv).np).with_prevnpp (PMVSlot.np nv)) }
      else s6
    some s7

/-- `PMV_wrap_section(fromp, untilp)`: the state after the call and the
returned pointer. `nvp` and `ngp` are the addresses the allocations in
`PMV_create` return. -/
def PMV_wrap_section (junk : Nat) (fuel : Nat) (s : PMState) (fromp untilp nvp ngp : Nat) :
    Option (PMState × Nat) :=
  if fromp = 0 ∨ untilp = 0 then none
  else if (s.vm fromp).ctxp ≠ (s.vm untilp).ctxp then none
  else
    match PMV_create junk s (s.vm fromp).ctxp PMV_wrap (s.vm fromp).prevnpp nvp ngp with
    | none => none
    | some (s1, nv) =>
      if nv = 0 then none
      else
        match PMV_wrap_section_loop fuel s1.vm fromp untilp with
        | none => none
        | some cv =>
          if cv = 0 then none
          else
            match PMV_wrap_section_relink s1 fromp untilp nv with
            | none => none
            | some s7 =>
              match PMV_eval_r fuel s7.vm (s7.vm nv).wp true with
              | none => none
              | some m8 =>
                match PMV_eval_r fuel m8 nv false with
                | none => none
                | some m9 => some ({ s7 with vm := m9 }, nv)

/-- The branch of `PMV_merge_r` for two vertices of different types, `vwrap`
being the wrapper: the state after `PMV_wrap_section(vother, votherend)` and
the pointer it returned. -/
def PMV_merge_r_wrap (junk : Nat) (nvp ngp : Nat) (fuel : Nat) (s : PMState)
    (vwrap vother : Nat) : Option (PMState × Nat) :=
  match PMV_find_similar_stem fuel s.vm (s.vm vwrap).wp vother false with
  | none => none
  | some (m1, vwrapend, votherend) =>
    if vwrapend = 0 then none
    else if (m1 vwrapend).np ≠ 0 then none
    else PMV_wrap_section junk fuel { s with vm := m1 } vother votherend nvp ngp

/-- `PMV_merge_r(v1p, v2p)`. `nvp` and `ngp` are the addresses the allocations
of the call of `PMV_wrap_section` return, whose result the assertion
`assert(PMV_wrap_section(vother, votherend) == 0)` compares with 0. -/
def PMV_merge_r (junk : Nat) (nvp ngp : Nat) : Nat → PMState → Nat → Nat → Option PMState
  | 0, _, _, _ => none
  | fuel + 1, s, v1p, v2p =>
    if v1p = 0 then (if v1p = v2p then some s else none)
    else if v2p = 0 then none
    else if (s.vm v1p).ctxp ≠ (s.vm v2p).ctxp then none
    else if (s.vm v1p).type ≠ (s.vm v2p).type then
      if (s.vm v2p).type = PMV_wrap then
        match PMV_merge_r_wrap junk nvp ngp fuel s v2p v1p with
        | none => none
        | some (s1, r) => if r ≠ 0 then none else PMV_merge_r junk nvp ngp fuel s1 v1p v2p
      else if (s.vm v1p).type = PMV_wrap then
        match PMV_merge_r_wrap junk nvp ngp fuel s v1p v2p with
        | none => none
        | some (s1, r) => if r ≠ 0 then none else PMV_merge_r junk nvp ngp fuel s1 v1p v2p
      else none
    else
      let sw : Option PMState :=
        if (s.vm v1p).type = PMV_seg then some s
        else if (s.vm v1p).type = PMV_insc then
          match PMV_merge_r junk nvp ngp fuel s (s.vm v1p).pp (s.vm v2p).pp with
          | none => none
          | some s1 => PMV_merge_r junk nvp ngp fuel s1 (s1.vm v1p).cp (s1.vm v2p).cp
        else if (s.vm v1p).type = PMV_wrap then
          PMV_merge_r junk nvp ngp fuel s (s.vm v1p).wp (s.vm v2p).wp
        else none
      match sw with
      | none => none
      | some s2 =>
        match PMV_merge_r junk nvp ngp fuel s2 (s2.vm v1p).np (s2.vm v2p).np with
        | none => none
        | some s3 => PMVG_merge junk s3 (s3.vm v1p).gp (s3.vm v2p).gp


/-! ### Example states -/

/-- A vertex as `PMV_create` and the builder leave it. -/
def pm_example_vertex (type np : Nat) (prevnpp : PMVSlot) (gp pp cp : Nat) : PMV :=
  { pmv_zero with type := type, np := np, prevnpp := prevnpp, gp := gp, ctxp := 1, pp := pp,
                  cp := cp }

/-- A group with the one member `vp`, as `PMV_create` leaves it. -/
def pm_example_group (next_p : Nat) (prev_next_pp : ElemSlot) (type id vp : Nat) : PMVG :=
  { next_p := next_p, prev_next_pp := prev_next_pp, ctxp := 1, idx := -1,
    vpl := { blk_l := [vp], blk_cnt := 1, blk_lsiz := 1, blk_curi := 0 },
    cpmv := { type := type, np := 0, pp := 0, cp := 0 }, id := id }

/-- The tree the builder makes of a fork with one segment in each branch: the
inosculation 1 with the segments 2 (parent branch) and 3 (child branch), the
groups 11, 12, 13 and the context 1, before `PMV_eval_r`. -/
def pm_example_built : PMState :=
  { vm := fun a =>
      if a = 1 then pm_example_vertex PMV_insc 0 (PMVSlot.headp 1) 11 2 3
      else if a = 2 then pm_example_vertex PMV_seg 0 (PMVSlot.pp 1) 12 0 0
      else if a = 3 then pm_example_vertex PMV_seg 0 (PMVSlot.cp 1) 13 0 0
      else pmv_zero
    gm := fun g =>
      if g = 11 then pm_example_group 0 (ElemSlot.next_p 12) PMV_insc 0 1
      else if g = 12 then pm_example_group 11 (ElemSlot.next_p 13) PMV_seg 1 2
      else if g = 13 then pm_example_group 12 (ElemSlot.elem_dll 1) PMV_seg 2 3
      else pmvg_zero
    cm := fun _ =>
      { headp := 1, gctx := { elem_dll := 13, size := 3, gid_curr := 3 }, pmvcnt := [2, 1, 0] } }

/-- The state `PMV_build_graph` returns for the example: `pm_example_built`
after `PMV_eval_r(headp, 1)`. -/
def pm_example : PMState :=
  { pm_example_built with
    vm := (PMV_eval_r 12 pm_example_built.vm 1 true).getD pm_example_built.vm }

/-- The example after a loop `arll_rewind(gp->vpl); while (arll_next(gp->vpl))`
over the members of every segment group, as `_get_seg_summary` runs it: the
cursors of the groups 12 and 13 stand at the end of their lists. -/
def pm_example_iterated : PMState :=
  { pm_example with
    gm := fun g =>
      if g = 12 ∨ g = 13 then
        { pm_example.gm g with vpl := { (pm_example.gm g).vpl with blk_curi := 1 } }
      else pm_example.gm g }

/-- The example after `PMV_wrap_section(2, 2)`: the new wrapper 4, with the
new group 14, stands between the inosculation 1 and the segment 2. -/
def pm_example_wrapped : PMState :=
  ((PMV_wrap_section 0 12 pm_example 2 2 4 14).map (fun r => r.1)).getD pm_example


/-! ### Proof-level definitions for the PPM tree -/

/-- The tree under a vertex pointer, with the addresses of its vertices:
`nil` is the NULL pointer. -/
inductive VTree where
  | nil : VTree
  | seg (a : Nat) (np : VTree) : VTree
  | insc (a : Nat) (pp cp np : VTree) : VTree
  | wrap (a : Nat) (wp np : VTree) : VTree
  deriving DecidableEq, Repr

/-- The pointer to the tree. -/
def VTree.root : VTree → Nat
  | VTree.nil => 0
  | VTree.seg a _ => a
  | VTree.insc a _ _ _ => a
  | VTree.wrap a _ _ => a

/-- The tree under the `np` pointer of the root. -/
def VTree.npt : VTree → VTree
  | VTree.nil => VTree.nil
  | VTree.seg _ np => np
  | VTree.insc _ _ _ np => np
  | VTree.wrap _ _ np => np

/-- The addresses of the vertices of the tree. -/
def VTree.nodes : VTree → List Nat
  | VTree.nil => []
  | VTree.seg a np => a :: np.nodes
  | VTree.insc a pp cp np => a :: (pp.nodes ++ cp.nodes ++ np.nodes)
  | VTree.wrap a wp np => a :: (wp.nodes ++ np.nodes)

/-- The number of vertices of the tree, wrappers included. -/
def VTree.size : VTree → Nat
  | VTree.nil => 0
  | VTree.seg _ np => 1 + np.size
  | VTree.insc _ pp cp np => 1 + pp.size + cp.size + np.size
  | VTree.wrap _ wp np => 1 + wp.size + np.size

/-- The statement `hash += c; hash %= hp` on 32-bit values. -/
def hfold (h c : Nat) : Nat := (h + c) % 4294967296 % hp

/-- The statement `depth += c` on 32-bit values. -/
def ufold (d c : Nat) : Nat := (d + c) % 4294967296

/-- The hash of a tree, computed bottom-up from its shape. -/
def VTree.hash : VTree → Nat
  | VTree.nil => 0
  | VTree.seg _ np => hfold 1 np.hash
  | VTree.insc _ pp cp np => hfold (hfold (hfold 32768 pp.hash) cp.hash) np.hash
  | VTree.wrap _ wp np => hfold (hfold 0 wp.hash) np.hash

/-- The depth of a tree, computed bottom-up from its shape. -/
def VTree.depth : VTree → Nat
  | VTree.nil => 0
  | VTree.seg _ np => ufold 1 np.depth
  | VTree.insc _ pp cp np => ufold (ufold 1 (max pp.depth cp.depth)) np.depth
  | VTree.wrap _ wp np => ufold (ufold 0 wp.depth) np.depth

/-- The vertex count of a tree, computed bottom-up from its shape. -/
def VTree.vcnt : VTree → Nat
  | VTree.nil => 0
  | VTree.seg _ np => ufold 1 np.vcnt
  | VTree.insc _ pp cp np => ufold (ufold (ufold 1 pp.vcnt) cp.vcnt) np.vcnt
  | VTree.wrap _ wp np => ufold (ufold 0 wp.vcnt) np.vcnt

/-- The memory `m` holds the tree `t`: types and the pointers `np`, `pp`,
`cp`, `wp` of its vertices are those of `t`. -/
def VTree.Rep (m : PMVMem) : VTree → Prop
  | VTree.nil => True
  | VTree.seg a np =>
    a ≠ 0 ∧ (m a).type = PMV_seg ∧ (m a).np = np.root ∧ VTree.Rep m np
  | VTree.insc a pp cp np =>
    a ≠ 0 ∧ (m a).type = PMV_insc ∧ (m a).pp = pp.root ∧ (m a).cp = cp.root ∧
      (m a).np = np.root ∧ VTree.Rep m pp ∧ VTree.Rep m cp ∧ VTree.Rep m np
  | VTree.wrap a wp np =>
    a ≠ 0 ∧ (m a).type = PMV_wrap ∧ (m a).pp = wp.root ∧ (m a).np = np.root ∧
      VTree.Rep m wp ∧ VTree.Rep m np

/-- The vertex at `a` stores the summary of the tree `t`. -/
def Stored (m : PMVMem) (a : Nat) (t : VTree) : Prop :=
  (m a).hash = t.hash ∧ (m a).depth = t.depth ∧ (m a).vcnt = t.vcnt

/-- Every vertex of the tree stores the summary of the tree under it. -/
def VTree.Corr (m : PMVMem) : VTree → Prop
  | VTree.nil => True
  | VTree.seg a np => Stored m a (VTree.seg a np) ∧ VTree.Corr m np
  | VTree.insc a pp cp np =>
    Stored m a (VTree.insc a pp cp np) ∧ VTree.Corr m pp ∧ VTree.Corr m cp ∧ VTree.Corr m np
  | VTree.wrap a wp np =>
    Stored m a (VTree.wrap a wp np) ∧ VTree.Corr m wp ∧ VTree.Corr m np

/-- The fields of a vertex that `PMV_eval_r` and the similarity functions do
not write: everything but the summary and the flags. -/
def PMV.skel (v : PMV) : PMV := { v with hash := 0, depth := 0, vcnt := 0, flags := 0 }

/-- The vertex without its flags. -/
def PMV.noflags (v : PMV) : PMV := { v with flags := 0 }

/-- `StemOf t s`: the tree `s` hangs on the stem of `t`, that is, `s` is
reached from `t` along `np` pointers. -/
inductive StemOf : VTree → VTree → Prop where
  | refl (t : VTree) : StemOf t t
  | step (t s : VTree) : StemOf t.npt s → StemOf t s

/-- The two ends `PMV_find_similar_stem` returns: both NULL, or vertices on
the stems of the two trees. -/
def Ends (ta tb : VTree) (e1 e2 : Nat) : Prop :=
  (e1 = 0 ∧ e2 = 0) ∨
  ∃ sa sb, StemOf ta sa ∧ StemOf tb sb ∧ sa ≠ VTree.nil ∧ sb ≠ VTree.nil ∧
    e1 = sa.root ∧ e2 = sb.root

/-- What `PMV_eval_r` guarantees for the tree `t` under its argument: it
writes only summaries and flags, only in `t`, and every vertex of `t` stores
the summary of its tree afterwards if the call was forced or if that was so
before. -/
def EvalPost (m m' : PMVMem) (t : VTree) (force : Bool) : Prop :=
  (∀ a, (m' a).skel = (m a).skel) ∧ (∀ a, a ∉ t.nodes → m' a = m a) ∧
  ((force = true ∨ t.Corr m) → t.Corr m')

/-- The effect of a call on the memory: it writes only summaries and flags,
only at the addresses `ns`, and only flags if `C` holds. -/
def Eff (m m' : PMVMem) (ns : List Nat) (C : Prop) : Prop :=
  (∀ a, (m' a).skel = (m a).skel) ∧ (∀ a, a ∉ ns → m' a = m a) ∧
  (C → ∀ a, (m' a).noflags = (m a).noflags)

/-- What the similarity functions guarantee for the two trees under their
arguments: they write only summaries and flags, only in the two trees, and
only flags if the summaries are the right ones. -/
def SimPost (m m' : PMVMem) (ta tb : VTree) : Prop :=
  Eff m m' (ta.nodes ++ tb.nodes) (ta.Corr m ∧ tb.Corr m)

/-- The specification of a function `eval` that stands for `PMV_eval_r` with
a stack bound of `n`. -/
def EvalSpec (eval : PMVMem → Nat → Bool → Option PMVMem) (n : Nat) : Prop :=
  ∀ (m : PMVMem) (t : VTree) (force : Bool), t ≠ VTree.nil → t.Rep m → t.nodes.Nodup →
    3 * t.size ≤ n → ∃ m', eval m t.root force = some m' ∧ EvalPost m m' t force

/-- The specification of a function that stands for `PMV_find_similar_stem`
with a stack bound of `n`. -/
def FssSpec (fss : PMVMem → Nat → Nat → Bool → Option (PMVMem × Nat × Nat)) (n : Nat) : Prop :=
  ∀ (m : PMVMem) (ta tb : VTree) (cs : Bool), ta.Rep m → tb.Rep m →
    (ta.nodes ++ tb.nodes).Nodup → 3 * (ta.size + tb.size) + 1 ≤ n →
    ∃ m' e1 e2, fss m ta.root tb.root cs = some (m', e1, e2) ∧ SimPost m m' ta tb ∧
      Ends ta tb e1 e2

/-- The specification of a function that stands for `_PMV_find_common_stem`
with a stack bound of `n`, called for two vertices. -/
def FcsSpec (fcs : PMVMem → Nat → Nat → Bool → Option (PMVMem × Nat × Nat)) (n : Nat) : Prop :=
  ∀ (m : PMVMem) (ta tb : VTree) (cs : Bool), ta ≠ VTree.nil → tb ≠ VTree.nil →
    ta.Rep m → tb.Rep m → (ta.nodes ++ tb.nodes).Nodup → 3 * (ta.size + tb.size) ≤ n →
    ∃ m' e1 e2, fcs m ta.root tb.root cs = some (m', e1, e2) ∧ SimPost m m' ta tb ∧
      Ends ta tb e1 e2

/-- The specification of a function that stands for `PMV_is_similar` with a
stack bound of `n`. -/
def SimSpec (sim : PMVMem → Nat → Nat → Bool → Option (PMVMem × Nat)) (n : Nat) : Prop :=
  ∀ (m : PMVMem) (ta tb : VTree) (cs : Bool), ta.Rep m → tb.Rep m →
    (ta.nodes ++ tb.nodes).Nodup → 3 * (ta.size + tb.size) + 2 ≤ n →
    ∃ m' r, sim m ta.root tb.root cs = some (m', r) ∧ SimPost m m' ta tb

/-- The specification of a function that stands for `PMV_insc_is_symm` with a
stack bound of `n`. -/
def SymSpec (sym : PMVMem → Nat → Option (PMVMem × Nat)) (n : Nat) : Prop :=
  ∀ (m : PMVMem) (a : Nat) (pp cp np : VTree), (VTree.insc a pp cp np).Rep m →
    (VTree.insc a pp cp np).nodes.Nodup → 3 * (VTree.insc a pp cp np).size + 1 ≤ n →
    ∃ m' r, sym m a = some (m', r) ∧
      Eff m m' (VTree.insc a pp cp np).nodes ((VTree.insc a pp cp np).Corr m)

/-- `SubtreeOf T t`: the tree `t` is the tree under a pointer of `T`, or `T`
itself. -/
inductive SubtreeOf : VTree → VTree → Prop where
  | refl (t : VTree) : SubtreeOf t t
  | seg_np (a : Nat) (np s : VTree) : SubtreeOf np s → SubtreeOf (VTree.seg a np) s
  | insc_pp (a : Nat) (pp cp np s : VTree) :
    SubtreeOf pp s → SubtreeOf (VTree.insc a pp cp np) s
  | insc_cp (a : Nat) (pp cp np s : VTree) :
    SubtreeOf cp s → SubtreeOf (VTree.insc a pp cp np) s
  | insc_np (a : Nat) (pp cp np s : VTree) :
    SubtreeOf np s → SubtreeOf (VTree.insc a pp cp np) s
  | wrap_wp (a : Nat) (wp np s : VTree) : SubtreeOf wp s → SubtreeOf (VTree.wrap a wp np) s
  | wrap_np (a : Nat) (wp np s : VTree) : SubtreeOf np s → SubtreeOf (VTree.wrap a wp np) s

/-- The hash a pointer contributes to the vertex that holds it: 0 for NULL. -/
def PMV_hash_of (m : PMVMem) (p : Nat) : Nat := if p = 0 then 0 else (m p).hash

/-- The depth a pointer contributes: 0 for NULL. -/
def PMV_depth_of (m : PMVMem) (p : Nat) : Nat := if p = 0 then 0 else (m p).depth

/-- The vertex count a pointer contributes: 0 for NULL. -/
def PMV_vcnt_of (m : PMVMem) (p : Nat) : Nat := if p = 0 then 0 else (m p).vcnt

/-- The equations the specification gives for the summary of the vertex `u`,
per variant, in terms of the summaries of the vertices it points to. -/
def PMV_summary_eqs (m : PMVMem) (u : Nat) : Prop :=
  ((m u).type = PMV_seg →
    (m u).hash = (1 + PMV_hash_of m (m u).np) % hp ∧
    (m u).depth = 1 + PMV_depth_of m (m u).np ∧
    (m u).vcnt = 1 + PMV_vcnt_of m (m u).np) ∧
  ((m u).type = PMV_insc →
    (m u).hash = (2 ^ 15 + PMV_hash_of m (m u).pp + PMV_hash_of m (m u).cp +
      PMV_hash_of m (m u).np) % hp ∧
    (m u).depth = 1 + max (PMV_depth_of m (m u).pp) (PMV_depth_of m (m u).cp) +
      PMV_depth_of m (m u).np ∧
    (m u).vcnt = 1 + PMV_vcnt_of m (m u).pp + PMV_vcnt_of m (m u).cp +
      PMV_vcnt_of m (m u).np) ∧
  ((m u).type = PMV_wrap →
    (m u).hash = (PMV_hash_of m (m u).wp + PMV_hash_of m (m u).np) % hp ∧
    (m u).depth = PMV_depth_of m (m u).wp + PMV_depth_of m (m u).np ∧
    (m u).vcnt = PMV_vcnt_of m (m u).wp + PMV_vcnt_of m (m u).np)

/-- The load `*slot` through a `PMV **`; 0 for the NULL slot. -/
def PMVSlot_get (s : PMState) : PMVSlot → Nat
  | PMVSlot.null => 0
  | PMVSlot.headp ctx => (s.cm ctx).headp
  | PMVSlot.np v => (s.vm v).np
  | PMVSlot.pp v => (s.vm v).pp
  | PMVSlot.cp v => (s.vm v).cp

/-- The vertex a slot lies in; 0 for the NULL slot and for the head pointer of
a context. -/
def PMVSlot.owner : PMVSlot → Nat
  | PMVSlot.null => 0
  | PMVSlot.headp _ => 0
  | PMVSlot.np v => v
  | PMVSlot.pp v => v
  | PMVSlot.cp v => v

/-- The addresses of the vertices on the stem of the tree: the root and what
follows it along `np`. -/
def VTree.stem : VTree → List Nat
  | VTree.nil => []
  | VTree.seg a np => a :: np.stem
  | VTree.insc a _ _ np => a :: np.stem
  | VTree.wrap a _ np => a :: np.stem

/-- The tree with its stem cut behind the vertex `u`. -/
def VTree.upto : VTree → Nat → VTree
  | VTree.nil, _ => VTree.nil
  | VTree.seg a np, u => if a = u then VTree.seg a VTree.nil else VTree.seg a (np.upto u)
  | VTree.insc a pp cp np, u =>
    if a = u then VTree.insc a pp cp VTree.nil else VTree.insc a pp cp (np.upto u)
  | VTree.wrap a wp np, u =>
    if a = u then VTree.wrap a wp VTree.nil else VTree.wrap a wp (np.upto u)

/-- The tree under the `np` pointer of the vertex `u` of the stem. -/
def VTree.after : VTree → Nat → VTree
  | VTree.nil, _ => VTree.nil
  | VTree.seg a np, u => if a = u then np else np.after u
  | VTree.insc a _ _ np, u => if a = u then np else np.after u
  | VTree.wrap a _ np, u => if a = u then np else np.after u

/-- What `PMV_wrap_section(fromp, untilp)` does to the edges of the tree, `s`
being the state before, `s'` the state after, `slot` the value of
`fromp->prevnpp` before and `nvp` the new wrapper. -/
def WrapEdges (s s' : PMState) (slot : PMVSlot) (fromp untilp nvp : Nat) : Prop :=
  PMVSlot_get s' slot = nvp ∧
  (s'.vm nvp).type = PMV_wrap ∧ (s'.vm nvp).wp = fromp ∧
  (s'.vm fromp).prevnpp = PMVSlot.pp nvp ∧
  (s'.vm nvp).np = (s.vm untilp).np ∧
  ((s.vm untilp).np ≠ 0 → (s'.vm (s.vm untilp).np).prevnpp = PMVSlot.np nvp) ∧
  (s'.vm untilp).np = 0 ∧
  (∀ a, a ≠ nvp →
    (s'.vm a).type = (s.vm a).type ∧
    (a ≠ untilp → slot ≠ PMVSlot.np a → (s'.vm a).np = (s.vm a).np) ∧
    (slot ≠ PMVSlot.pp a → (s'.vm a).pp = (s.vm a).pp) ∧
    (slot ≠ PMVSlot.cp a → (s'.vm a).cp = (s.vm a).cp) ∧
    (a ≠ fromp → a ≠ (s.vm untilp).np → (s'.vm a).prevnpp = (s.vm a).prevnpp)) ∧
  (∀ c, slot ≠ PMVSlot.headp c → (s'.cm c).headp = (s.cm c).headp)

/-- The tree `PMV_wrap_section(t.root, untilp)` makes of the tree `t` under
`fromp`: the new wrapper `nvp` around the section up to `untilp`, followed by
what followed `untilp`. -/
def VTree.wrapped (t : VTree) (untilp nvp : Nat) : VTree :=
  VTree.wrap nvp (t.upto untilp) (t.after untilp)

/-- The in-order flattening of a tree as the specification describes it: a
vertex, then its `pp` and `cp` branches, then what follows along `np`;
wrappers are transparent, their wrapped stem is followed by what follows the
wrapper. The list holds the addresses of the vertices that are not wrappers. -/
def VTree.flat : VTree → List Nat
  | VTree.nil => []
  | VTree.seg a np => a :: np.flat
  | VTree.insc a pp cp np => a :: (pp.flat ++ cp.flat ++ np.flat)
  | VTree.wrap _ wp np => wp.flat ++ np.flat

/-- The in-order flattening of the specification, read from the memory, for
the tree under the pointer `vp`; `none` if the stack bound does not suffice or
a vertex has no valid type. This is a function of the specification, not of
the source. -/
def PMV_flatten : Nat → PMVMem → Nat → Option (List Nat)
  | 0, _, _ => none
  | fuel + 1, m, vp =>
    if vp = 0 then some []
    else if (m vp).type = PMV_seg then
      (PMV_flatten fuel m (m vp).np).map (fun l => vp :: l)
    else if (m vp).type = PMV_insc then
      match PMV_flatten fuel m (m vp).pp, PMV_flatten fuel m (m vp).cp,
        PMV_flatten fuel m (m vp).np with
      | some a, some b, some c => some (vp :: (a ++ b ++ c))
      | _, _, _ => none
    else if (m vp).type = PMV_wrap then
      match PMV_flatten fuel m (m vp).wp, PMV_flatten fuel m (m vp).np with
      | some a, some c => some (a ++ c)
      | _, _ => none
    else none

/-- The slot references of the tree are the ones the builder maintains: the
`prevnpp` of every vertex is the slot that holds the pointer to it, `slot` for
the root. -/
def VTree.Linked (m : PMVMem) : PMVSlot → VTree → Prop
  | _, VTree.nil => True
  | slot, VTree.seg a np => (m a).prevnpp = slot ∧ VTree.Linked m (PMVSlot.np a) np
  | slot, VTree.insc a pp cp np =>
    (m a).prevnpp = slot ∧ VTree.Linked m (PMVSlot.pp a) pp ∧
      VTree.Linked m (PMVSlot.cp a) cp ∧ VTree.Linked m (PMVSlot.np a) np
  | slot, VTree.wrap a wp np =>
    (m a).prevnpp = slot ∧ VTree.Linked m (PMVSlot.pp a) wp ∧ VTree.Linked m (PMVSlot.np a) np

/-- The shape of a tree: the tree without the addresses of its vertices. -/
inductive PShape where
  | nil : PShape
  | seg (np : PShape) : PShape
  | insc (pp cp np : PShape) : PShape
  | wrap (wp np : PShape) : PShape
  deriving DecidableEq, Repr

/-- The shape of the tree as a detached unit: the sequence of variants along
`np`, and the shapes of the branches at every inosculation. -/
def VTree.shape : VTree → PShape
  | VTree.nil => PShape.nil
  | VTree.seg _ np => PShape.seg np.shape
  | VTree.insc _ pp cp np => PShape.insc pp.shape cp.shape np.shape
  | VTree.wrap _ wp np => PShape.wrap wp.shape np.shape

/-- A tree without wrappers in which every inosculation has a parent branch
and a child branch, as the builder makes them. -/
def VTree.Plain : VTree → Prop
  | VTree.nil => True
  | VTree.seg _ np => VTree.Plain np
  | VTree.insc _ pp cp np =>
    pp ≠ VTree.nil ∧ cp ≠ VTree.nil ∧ VTree.Plain pp ∧ VTree.Plain cp ∧ VTree.Plain np
  | VTree.wrap _ _ _ => False

/-- The flags of the root of an evaluated tree: `PMV_SBIT_evaluated`, with
`PMV_SBIT_INSC_is_sym` for an inosculation whose branches have the same
shape. -/
def VTree.eflags : VTree → Nat
  | VTree.nil => 0
  | VTree.seg _ _ => PMV_SBIT_evaluated
  | VTree.insc _ pp cp _ =>
    if pp.shape = cp.shape then PMV_SBIT_evaluated ||| PMV_SBIT_INSC_is_sym
    else PMV_SBIT_evaluated
  | VTree.wrap _ _ _ => PMV_SBIT_evaluated

/-- The flags of every vertex of the tree are clear, or they are the flags of
an evaluated vertex. -/
def VTree.FlagsOK (m : PMVMem) : VTree → Prop
  | VTree.nil => True
  | VTree.seg a np =>
    ((m a).flags = 0 ∨ (m a).flags = (VTree.seg a np).eflags) ∧ VTree.FlagsOK m np
  | VTree.insc a pp cp np =>
    ((m a).flags = 0 ∨ (m a).flags = (VTree.insc a pp cp np).eflags) ∧
      VTree.FlagsOK m pp ∧ VTree.FlagsOK m cp ∧ VTree.FlagsOK m np
  | VTree.wrap a wp np =>
    ((m a).flags = 0 ∨ (m a).flags = (VTree.wrap a wp np).eflags) ∧
      VTree.FlagsOK m wp ∧ VTree.FlagsOK m np

/-- The condition `FlagsOK` for the trees under the pointers of the root. -/
def VTree.FlagsBelow (m : PMVMem) : VTree → Prop
  | VTree.nil => True
  | VTree.seg _ np => VTree.FlagsOK m np
  | VTree.insc _ pp cp np => VTree.FlagsOK m pp ∧ VTree.FlagsOK m cp ∧ VTree.FlagsOK m np
  | VTree.wrap _ wp np => VTree.FlagsOK m wp ∧ VTree.FlagsOK m np

/-- A tree of an evaluated IR: it has no wrapper and no empty branch, the
memory holds it, and every vertex stores the summary of its tree. -/
def VTree.Held (m : PMVMem) (t : VTree) : Prop := t.Plain ∧ t.Rep m ∧ t.Corr m

/-- The effect of a call on an evaluated IR: it writes only flags, and only
at the addresses `ns`. -/
def Gd (m m' : PMVMem) (ns : List Nat) : Prop :=
  (∀ a, (m' a).noflags = (m a).noflags) ∧ (∀ a, a ∉ ns → m' a = m a)

/-- The ends `PMV_find_similar_stem` returns for two trees of an evaluated
IR: NULL if a tree is empty; the last vertices of the two stems if the trees
have the same shape; and else NULL, or two vertices of the stems that are not
both the last ones. -/
def EndsG (ta tb : VTree) (e1 e2 : Nat) : Prop :=
  ((ta = VTree.nil ∨ tb = VTree.nil) → e1 = 0 ∧ e2 = 0) ∧
  (ta ≠ VTree.nil → tb ≠ VTree.nil → ta.shape = tb.shape →
    ∃ sa sb, StemOf ta sa ∧ StemOf tb sb ∧ sa ≠ VTree.nil ∧ sb ≠ VTree.nil ∧
      e1 = sa.root ∧ e2 = sb.root ∧ sa.npt = VTree.nil ∧ sb.npt = VTree.nil) ∧
  (ta ≠ VTree.nil → tb ≠ VTree.nil → ta.shape ≠ tb.shape →
    (e1 = 0 ∧ e2 = 0) ∨
    ∃ sa sb, StemOf ta sa ∧ StemOf tb sb ∧ sa ≠ VTree.nil ∧ sb ≠ VTree.nil ∧
      e1 = sa.root ∧ e2 = sb.root ∧ ¬ (sa.npt = VTree.nil ∧ sb.npt = VTree.nil))

/-- The specification of `PMV_eval_r(v, 0)` on an evaluated IR, for a vertex
whose flags `s` do not say evaluated. -/
def EvalG (eval : PMVMem → Nat → Bool → Option PMVMem) (n : Nat) : Prop :=
  ∀ (m : PMVMem) (t : VTree) (s : Nat), t ≠ VTree.nil → t.Held m → t.nodes.Nodup →
    t.FlagsBelow m → (m t.root).flags = s → (s = 0 ∨ s = 2 ∨ s = 4) → 3 * t.size ≤ n →
    ∃ m', eval m t.root false = some m' ∧ Gd m m' t.nodes ∧ t.FlagsBelow m' ∧
      (m' t.root).flags = t.eflags ||| s

/-- The specification of `PMV_insc_is_symm` on an evaluated IR, for an
inosculation that is the start of a stem match (`s` is the flag of the
start). -/
def SymG (sym : PMVMem → Nat → Option (PMVMem × Nat)) (n : Nat) : Prop :=
  ∀ (m : PMVMem) (a : Nat) (pp cp np : VTree) (s : Nat), (VTree.insc a pp cp np).Held m →
    (VTree.insc a pp cp np).nodes.Nodup → (VTree.insc a pp cp np).FlagsBelow m →
    ((m a).flags = s ∨ (m a).flags = (VTree.insc a pp cp np).eflags ||| s) →
    (s = 2 ∨ s = 4) → 3 * (VTree.insc a pp cp np).size + 1 ≤ n →
    ∃ m', sym m a = some (m', (VTree.insc a pp cp np).eflags &&& PMV_SBIT_INSC_is_sym) ∧
      Gd m m' (VTree.insc a pp cp np).nodes ∧ (VTree.insc a pp cp np).FlagsBelow m'

/-- The specification of `PMV_find_similar_stem` on an evaluated IR. -/
def FssG (fss : PMVMem → Nat → Nat → Bool → Option (PMVMem × Nat × Nat)) (n : Nat) : Prop :=
  ∀ (m : PMVMem) (ta tb : VTree) (cs : Bool), ta.Held m → tb.Held m →
    (ta.nodes ++ tb.nodes).Nodup → ta.FlagsOK m → tb.FlagsOK m →
    3 * (ta.size + tb.size) + 1 ≤ n →
    ∃ m' e1 e2, fss m ta.root tb.root cs = some (m', e1, e2) ∧
      Gd m m' (ta.nodes ++ tb.nodes) ∧ ta.FlagsOK m' ∧ tb.FlagsOK m' ∧ EndsG ta tb e1 e2

/-- The specification of `_PMV_find_common_stem` on an evaluated IR, called
for the two starts of a stem match. -/
def FcsG (fcs : PMVMem → Nat → Nat → Bool → Option (PMVMem × Nat × Nat)) (n : Nat) : Prop :=
  ∀ (m : PMVMem) (ta tb : VTree) (cs : Bool), ta ≠ VTree.nil → tb ≠ VTree.nil →
    ta.Held m → tb.Held m → (ta.nodes ++ tb.nodes).Nodup →
    ta.FlagsBelow m → tb.FlagsBelow m →
    ((m ta.root).flags = 2 ∨ (m ta.root).flags = ta.eflags ||| 2) →
    ((m tb.root).flags = 4 ∨ (m tb.root).flags = tb.eflags ||| 4) →
    3 * (ta.size + tb.size) ≤ n →
    ∃ m' e1 e2, fcs m ta.root tb.root cs = some (m', e1, e2) ∧
      Gd m m' (ta.nodes ++ tb.nodes) ∧ ta.FlagsBelow m' ∧ tb.FlagsBelow m' ∧
      EndsG ta tb e1 e2

/-- The specification of `PMV_is_similar` on an evaluated IR: it returns 1
for two trees of the same shape and 0 for two trees of different shapes. -/
def SimG (sim : PMVMem → Nat → Nat → Bool → Option (PMVMem × Nat)) (n : Nat) : Prop :=
  ∀ (m : PMVMem) (ta tb : VTree) (cs : Bool), ta ≠ VTree.nil → tb ≠ VTree.nil →
    ta.Held m → tb.Held m → (ta.nodes ++ tb.nodes).Nodup → ta.FlagsOK m → tb.FlagsOK m →
    3 * (ta.size + tb.size) + 2 ≤ n →
    ∃ m', sim m ta.root tb.root cs = some (m', if ta.shape = tb.shape then 1 else 0) ∧
      Gd m m' (ta.nodes ++ tb.nodes) ∧ ta.FlagsOK m' ∧ tb.FlagsOK m'

/-- The memory in the course of `PMV_eval_r(v, 0)` on an evaluated IR: away
from `v` only flags differ from the memory `m` at the call, and `v` has its
pointers. -/
def MidEval (m mi : PMVMem) (v : Nat) : Prop :=
  (∀ a, a ≠ v → (mi a).noflags = (m a).noflags) ∧ (mi v).skel = (m v).skel

/-- The specification of `PMV_eval_r(v, 1)` for a tree as the builder leaves
it, with all flags clear: afterwards the tree is a tree of an evaluated IR. -/
def EvalF (eval : PMVMem → Nat → Bool → Option PMVMem) (n : Nat) : Prop :=
  ∀ (m : PMVMem) (t : VTree), t ≠ VTree.nil → t.Plain → t.Rep m → t.nodes.Nodup →
    (∀ a ∈ t.nodes, (m a).flags = 0) → 3 * t.size ≤ n →
    ∃ m', eval m t.root true = some m' ∧ (∀ a, (m' a).skel = (m a).skel) ∧
      (∀ a, a ∉ t.nodes → m' a = m a) ∧ t.Corr m' ∧ t.FlagsOK m'

/-- The tree of `pm_example_built`. -/
def pm_example_tree : VTree :=
  VTree.insc 1 (VTree.seg 2 VTree.nil) (VTree.seg 3 VTree.nil) VTree.nil


/-- The stem of three segments the builder makes of three runs of tasks that
`fork_end` tasks separate: the segments 1, 2, 3, each alone in its group (11,
12, 13), in the context 1, before `PMV_eval_r`. -/
def pm_stem3_built : PMState :=
  { vm := fun a =>
      if a = 1 then pm_example_vertex PMV_seg 2 (PMVSlot.headp 1) 11 0 0
      else if a = 2 then pm_example_vertex PMV_seg 3 (PMVSlot.np 1) 12 0 0
      else if a = 3 then pm_example_vertex PMV_seg 0 (PMVSlot.np 2) 13 0 0
      else pmv_zero
    gm := fun g =>
      if g = 11 then pm_example_group 0 (ElemSlot.next_p 12) PMV_seg 0 1
      else if g = 12 then pm_example_group 11 (ElemSlot.next_p 13) PMV_seg 1 2
      else if g = 13 then pm_example_group 12 (ElemSlot.elem_dll 1) PMV_seg 2 3
      else pmvg_zero
    cm := fun _ =>
      { headp := 1, gctx := { elem_dll := 13, size := 3, gid_curr := 3 }, pmvcnt := [3, 0, 0] } }

/-- The state `PMV_build_graph` returns for the stem of three segments. -/
def pm_stem3 : PMState :=
  { pm_stem3_built with
    vm := (PMV_eval_r 12 pm_stem3_built.vm 1 true).getD pm_stem3_built.vm }

/-! ## graph_miner.c

The member `external` of a vertex, which only `graph_miner.c` uses, is kept in
a memory of its own; `PMV_create` leaves 0 in it (`*nvp = pmv_zero`). The
addresses the allocations of the `k`-th call of `PMV_create` return are
`av k` for the vertex and `ag k` for its group. -/

def GM_RECURRING_ADDED : Nat := 0x1

/-- `_mine_for_symm(vp)`; `nvp` and `ngp` are the addresses an allocation in
`PMV_merge_r` returns. -/
def mine_for_symm (junk nvp ngp : Nat) : Nat → PMState → Nat → Option PMState
  | 0, _, _ => none
  | fuel + 1, s, vp =>
    if vp = 0 then some s
    else
      let sw : Option PMState :=
        if (s.vm vp).type = PMV_seg then some s
        else if (s.vm vp).type = PMV_insc then
          match mine_for_symm junk nvp ngp fuel s (s.vm vp).pp with
          | none => none
          | some s1 =>
            match mine_for_symm junk nvp ngp fuel s1 (s1.vm vp).cp with
            | none => none
            | some s2 =>
              match PMV_insc_is_symm fuel s2.vm vp with
              | none => none
              | some (m3, r) =>
                if r ≠ 0 then
                  PMV_merge_r junk nvp ngp fuel { s2 with vm := m3 } (m3 vp).pp (m3 vp).cp
                else some { s2 with vm := m3 }
        else if (s.vm vp).type = PMV_wrap then mine_for_symm junk nvp ngp fuel s (s.vm vp).wp
        else none
      match sw with
      | none => none
      | some s4 => mine_for_symm junk nvp ngp fuel s4 (s4.vm vp).np

/-- `GM_mine_for_symm(ctx)`. -/
def GM_mine_for_symm (junk nvp ngp : Nat) (fuel : Nat) (s : PMState) (ctx : Nat) :
    Option PMState :=
  if ctx = 0 then none else mine_for_symm junk nvp ngp fuel s (s.cm ctx).headp

/-- `GM_find_terminating(haystack, needle, similarl)`: the memory and the list
`similarl` after the call. -/
def GM_find_terminating (junk : Nat) :
    Nat → PMVMem → Nat → Nat → arll Nat → Option (PMVMem × arll Nat)
  | 0, _, _, _, _ => none
  | fuel + 1, m, haystack, needle, similarl =>
    if haystack = 0 then some (m, similarl)
    else
      match PMV_is_similar fuel m haystack needle true with
      | none => none
      | some (m1, r) =>
        if r ≠ 0 then
          match arll_push junk sizeof_PMVp similarl haystack with
          | none => none
          | some (_, similarl1) => some (m1, similarl1)
        else if needle = 0 then none
        else if (m1 haystack).depth < (m1 needle).depth then some (m1, similarl)
        else if (m1 haystack).vcnt < (m1 needle).vcnt then some (m1, similarl)
        else
          let sw : Option (PMVMem × arll Nat) :=
            if (m1 haystack).type = PMV_seg then some (m1, similarl)
            else if (m1 haystack).type = PMV_insc then
              match GM_find_terminating junk fuel m1 (m1 haystack).pp needle similarl with
              | none => none
              | some (m2, l2) => GM_find_terminating junk fuel m2 (m2 haystack).cp needle l2
            else if (m1 haystack).type = PMV_wrap then
              GM_find_terminating junk fuel m1 (m1 haystack).wp needle similarl
            else none
          match sw with
          | none => none
          | some (m3, l3) => GM_find_terminating junk fuel m3 (m3 haystack).np needle l3

/-- The loop `while ((cvpp = arll_next(simp_arll))) PMV_merge_r(needlep,
*cvpp);` of `_mine_for_asymm`. -/
def mine_for_asymm_loop (junk nvp ngp : Nat) (fuel : Nat) :
    Nat → PMState → Nat → arll Nat → Option PMState
  | 0, _, _, _ => none
  | n + 1, s, needlep, simp_arll =>
    match arll_next simp_arll with
    | (none, _) => some s
    | (some cvp, l1) =>
      match PMV_merge_r junk nvp ngp fuel s needlep cvp with
      | none => none
      | some s1 => mine_for_asymm_loop junk nvp ngp fuel n s1 needlep l1

/-- The block of `_mine_for_asymm` for an inosculation `vp` that is not
symmetric. -/
def mine_for_asymm_insc (junk nvp ngp : Nat) (fuel : Nat) (s : PMState) (vp : Nat) :
    Option PMState :=
  match arll_construct junk sizeof_PMVp 1 with
  | none => none
  | some simp_arll =>
    match GM_find_terminating junk fuel s.vm (s.vm vp).pp (s.vm vp).cp simp_arll with
    | none => none
    | some (m1, l1) =>
      let r : Option (PMVMem × arll Nat × Nat) :=
        if arll_len l1 = 0 then
          match GM_find_terminating junk fuel m1 (m1 vp).cp (m1 vp).pp l1 with
          | none => none
          | some (m2, l2) => some (m2, l2, (m2 vp).pp)
        else some (m1, l1, (s.vm vp).cp)
      match r with
      | none => none
      | some (m2, l2, needlep) =>
        mine_for_asymm_loop junk nvp ngp fuel (arll_len l2 + 1) { s with vm := m2 } needlep
          (arll_rewind l2)

/-- `_mine_for_asymm(vp)`. -/
def mine_for_asymm (junk nvp ngp : Nat) : Nat → PMState → Nat → Option PMState
  | 0, _, _ => none
  | fuel + 1, s, vp =>
    if vp = 0 then some s
    else
      let sw : Option PMState :=
        if (s.vm vp).type = PMV_seg then some s
        else if (s.vm vp).type = PMV_wrap then mine_for_asymm junk nvp ngp fuel s (s.vm vp).wp
        else if (s.vm vp).type = PMV_insc then
          match mine_for_asymm junk nvp ngp fuel s (s.vm vp).pp with
          | none => none
          | some s1 =>
            match mine_for_asymm junk nvp ngp fuel s1 (s1.vm vp).cp with
            | none => none
            | some s2 =>
              match PMV_insc_is_symm fuel s2.vm vp with
              | none => none
              | some (m3, r) =>
                if r = 0 then mine_for_asymm_insc junk nvp ngp fuel { s2 with vm := m3 } vp
                else some { s2 with vm := m3 }
        else none
      match sw with
      | none => none
      | some s4 => mine_for_asymm junk nvp ngp fuel s4 (s4.vm vp).np

/-- `GM_mine_for_asymm(ctx)`. -/
def GM_mine_for_asymm (junk nvp ngp : Nat) (fuel : Nat) (s : PMState) (ctx : Nat) :
    Option PMState :=
  if ctx = 0 then none else mine_for_asymm junk nvp ngp fuel s (s.cm ctx).headp

/-- The state of `_mine_recurrence`: the three memories, the member
`external.as_uint` of every vertex, and the number of calls of `PMV_create`
made so far. -/
structure GMState where
  s : PMState
  ext : Nat → Nat
  cnt : Nat

/-- The local variables of the loop of `_mine_recurrence`; `vp_wrap_end` is
`none` as long as it is not initialised. -/
structure GMLoop where
  np : Nat
  np_recursion : Nat
  first_recurrence : Bool
  first_not_matching : Bool
  vp_wrap_end : Option Nat

/-- The call `wp = PMV_wrap_section(fromp, untilp)` of `_mine_recurrence`
followed by `wp->external.as_uint |= GM_RECURRING_ADDED`. -/
def mine_recurrence_wrap (junk : Nat) (av ag : Nat → Nat) (fuel : Nat) (g : GMState)
    (fromp untilp : Nat) : Option (GMState × Nat) :=
  match PMV_wrap_section junk fuel g.s fromp untilp (av g.cnt) (ag g.cnt) with
  | none => none
  | some (s1, wp) =>
    if wp = 0 then none
    else
      some ({ s := s1, ext := store (store g.ext (av g.cnt) 0) wp
                ((store g.ext (av g.cnt) 0) wp ||| GM_RECURRING_ADDED),
              cnt := g.cnt + 1 }, wp)

/-- The loop `while (np) { ... }` of `_mine_recurrence` for the vertex `vp`. -/
def mine_recurrence_loop (junk : Nat) (av ag : Nat → Nat) (fuel : Nat) :
    Nat → GMState → Nat → GMLoop → Option (GMState × GMLoop)
  | 0, _, _, _ => none
  | n + 1, g, vp, l =>
    if l.np = 0 then some (g, l)
    else
      match PMV_find_similar_stem fuel g.s.vm vp l.np false with
      | none => none
      | some (m1, vendp, nendp) =>
        let g1 : GMState := { g with s := { g.s with vm := m1 } }
        let miss : GMLoop :=
          { l with
            np := (m1 l.np).np
            np_recursion := if l.first_not_matching then l.np else l.np_recursion
            first_not_matching := false }
        if vendp ≠ 0 then
          let first : Option (GMState × GMLoop × Bool) :=
            if l.first_recurrence then
              match mine_recurrence_wrap junk av ag fuel g1 vp vendp with
              | none => none
              | some (g2, _) =>
                some (g2, { l with first_recurrence := false, vp_wrap_end := some vendp }, true)
            else
              match l.vp_wrap_end with
              | none => none
              | some e => some (g1, l, decide (vendp = e))
          match first with
          | none => none
          | some (g2, l2, false) =>
            mine_recurrence_loop junk av ag fuel n g2 vp
              { l2 with
                np := (g2.s.vm l2.np).np
                np_recursion := if l2.first_not_matching then l2.np else l2.np_recursion
                first_not_matching := false }
          | some (g2, l2, true) =>
            match mine_recurrence_wrap junk av ag fuel g2 l2.np nendp with
            | none => none
            | some (g3, wp) =>
              match PMV_merge_r junk (av g3.cnt) (ag g3.cnt) fuel g3.s vp l2.np with
              | none => none
              | some s4 =>
                mine_recurrence_loop junk av ag fuel n { g3 with s := s4 } vp
                  { l2 with np := (s4.vm wp).np }
        else mine_recurrence_loop junk av ag fuel n g1 vp miss

/-- `_mine_recurrence(vp, ctx)`. The loop runs at most `fuel` times. -/
def mine_recurrence (junk : Nat) (av ag : Nat → Nat) : Nat → GMState → Nat → Option GMState
  | 0, _, _ => none
  | fuel + 1, g, vp =>
    if vp = 0 then some g
    else
      let g0 : Option GMState :=
        if (g.s.vm vp).type = PMV_insc then
          match mine_recurrence junk av ag fuel g (g.s.vm vp).pp with
          | none => none
          | some g1 => mine_recurrence junk av ag fuel g1 (g1.s.vm vp).cp
        else some g
      match g0 with
      | none => none
      | some g1 =>
        if g1.ext vp &&& GM_RECURRING_ADDED ≠ 0 then
          mine_recurrence junk av ag fuel g1 (g1.s.vm vp).np
        else
          match mine_recurrence_loop junk av ag fuel fuel g1 vp
              { np := (g1.s.vm vp).np, np_recursion := (g1.s.vm vp).np,
                first_recurrence := true, first_not_matching := true, vp_wrap_end := none } with
          | none => none
          | some (g2, l) => mine_recurrence junk av ag fuel g2 l.np_recursion

/-- `GM_mine_recurrence(ctx)` for a model whose vertices have 0 in
`external`. -/
def GM_mine_recurrence (junk : Nat) (av ag : Nat → Nat) (fuel : Nat) (s : PMState) (ctx : Nat) :
    Option GMState :=
  if ctx = 0 then none
  else mine_recurrence junk av ag fuel { s := s, ext := fun _ => 0, cnt := 0 } (s.cm ctx).headp


/-! ## pm.c: linking the groups, writing the groups to a file -/

/-- The group with a new value of `cpmv.np`. -/
def PMVG.with_cnp (g : PMVG) (p : Nat) : PMVG := { g with cpmv := { g.cpmv with np := p } }

/-- The group with a new value of `cpmv.pp`, which is also `cpmv.wp`. -/
def PMVG.with_cpp (g : PMVG) (p : Nat) : PMVG := { g with cpmv := { g.cpmv with pp := p } }

/-- The group with a new value of `cpmv.cp`. -/
def PMVG.with_ccp (g : PMVG) (p : Nat) : PMVG := { g with cpmv := { g.cpmv with cp := p } }

/-- The statement `if (!gp->cpmv.x) gp->cpmv.x = _link_groups(p);` for one of
the members `x` of `cpmv`, read by `get` and written by `set`; `link` is
`_link_groups`. -/
def link_groups_edge (link : PMState → Nat → Option (PMState × Nat)) (get : CPMV → Nat)
    (set : PMVG → Nat → PMVG) (s : PMState) (gp p : Nat) : Option PMState :=
  if get (s.gm gp).cpmv = 0 then
    match link s p with
    | none => none
    | some (s1, r) => some { s1 with gm := store s1.gm gp (set (s1.gm gp) r) }
  else some s

/-- The body of `_link_groups(vp)` with its recursive calls passed as `link`:
the state after the call and the returned group pointer. Reading `gp->cpmv`
through a NULL `gp` aborts. -/
def link_groups_body (link : PMState → Nat → Option (PMState × Nat)) (s : PMState) (vp : Nat) :
    Option (PMState × Nat) :=
  if vp = 0 then some (s, 0)
  else if ¬ (s.vm vp).type < PMV_enumsize then none
  else if (s.vm vp).gp = 0 then none
  else
    let gp := (s.vm vp).gp
    let sw : Option PMState :=
      if (s.vm vp).type = PMV_insc then
        match link_groups_edge link CPMV.pp PMVG.with_cpp s gp (s.vm vp).pp with
        | none => none
        | some s2 => link_groups_edge link CPMV.cp PMVG.with_ccp s2 gp (s2.vm vp).cp
      else if (s.vm vp).type = PMV_wrap then
        link_groups_edge link CPMV.pp PMVG.with_cpp s gp (s.vm vp).wp
      else some s
    match sw with
    | none => none
    | some s4 =>
      match link_groups_edge link CPMV.np PMVG.with_cnp s4 gp (s4.vm vp).np with
      | none => none
      | some s5 => some (s5, gp)

/-- `_link_groups(vp)`. -/
def link_groups : Nat → PMState → Nat → Option (PMState × Nat)
  | 0, _, _ => none
  | fuel + 1, s, vp => link_groups_body (fun s1 p => link_groups fuel s1 p) s vp

/-- `PM_link_groups(ctx)`. -/
def PM_link_groups (fuel : Nat) (s : PMState) (ctx : Nat) : Option PMState :=
  if ctx = 0 then none else (link_groups fuel s (s.cm ctx).headp).map (fun r => r.1)

/-- The loop of `ElemCtx_assign_idx` over the groups from `ep` on, `idx` being
the next index, an `int`. -/
def ElemCtx_assign_idx_loop : Nat → (Nat → PMVG) → Nat → Int → Option (Nat → PMVG)
  | 0, _, _, _ => none
  | fuel + 1, gm, ep, idx =>
    if ep = 0 then some gm
    else
      ElemCtx_assign_idx_loop fuel (store gm ep { gm ep with idx := idx }) (gm ep).next_p
        (int_of_unsigned (unsigned_of_int (idx + 1)))

/-- `ElemCtx_assign_idx(&ctx->gctx)` for the groups of the context `ctx`. -/
def ElemCtx_assign_idx (fuel : Nat) (s : PMState) (ctx : Nat) : Option PMState :=
  if ctx = 0 then none
  else
    match ElemCtx_assign_idx_loop fuel s.gm (s.cm ctx).gctx.elem_dll 0 with
    | none => none
    | some gm => some { s with gm := gm }

/-- A record `PMVG_pckd` of 13 bytes; `wi` is the storage of `pi`. -/
structure PMVG_pckd where
  type : Nat
  ni : Int
  pi : Int
  ci : Int
  deriving DecidableEq, Repr

/-- The `n` bytes of the unsigned number `x`, least significant byte first. -/
def le_bytes : Nat → Nat → List Nat
  | 0, _ => []
  | n + 1, x => x % 256 :: le_bytes n (x / 256)

/-- The 13 bytes of a packed record. -/
def PMVG_pckd.bytes (r : PMVG_pckd) : List Nat :=
  (r.type % 256) :: (le_bytes 4 (unsigned_of_int r.ni) ++ le_bytes 4 (unsigned_of_int r.pi) ++
    le_bytes 4 (unsigned_of_int r.ci))

/-- The index `((Elem*)gp)->idx` of a group, -1 for the NULL pointer. -/
def PMVG_idx_of (gm : Nat → PMVG) (gp : Nat) : Int := if gp ≠ 0 then (gm gp).idx else -1

/-- The loop `while (ep) { ... }` of `_pmvg_ctx_to_file` that fills the array
`pmvgl`, from the group `ep` and the index `i` on. A write behind the end of
the array aborts. -/
def pmvg_ctx_to_file_loop (gm : Nat → PMVG) :
    Nat → Nat → Nat → List PMVG_pckd → Option (List PMVG_pckd)
  | 0, _, _, _ => none
  | fuel + 1, ep, i, pmvgl =>
    if ep = 0 then some pmvgl
    else
      match pmvgl[i]? with
      | none => none
      | some r0 =>
        let r1 : PMVG_pckd := { r0 with type := (gm ep).cpmv.type, ni := PMVG_idx_of gm (gm ep).cpmv.np }
        let r2 : Option PMVG_pckd :=
          if (gm ep).cpmv.type = PMV_seg then some r1
          else if (gm ep).cpmv.type = PMV_insc then
            some { r1 with pi := PMVG_idx_of gm (gm ep).cpmv.pp, ci := PMVG_idx_of gm (gm ep).cpmv.cp }
          else if (gm ep).cpmv.type = PMV_wrap then
            some { r1 with pi := PMVG_idx_of gm (gm ep).cpmv.pp }
          else none
        match r2 with
        | none => none
        | some r => pmvg_ctx_to_file_loop gm fuel (gm ep).next_p (i + 1) (pmvgl.set i r)

/-- `_pmvg_ctx_to_file(ctx, wfp)`: the state after the call and the bytes it
writes to the file. `junk i` is the content of the `i`-th record of the array
that `malloc` returns. -/
def pmvg_ctx_to_file (junk : Nat → PMVG_pckd) (fuel : Nat) (s : PMState) (ctx : Nat) :
    Option (PMState × List Nat) :=
  match ElemCtx_assign_idx fuel s ctx with
  | none => none
  | some s1 =>
    match PM_link_groups fuel s1 ctx with
    | none => none
    | some s2 =>
      let size := (s2.cm ctx).gctx.size
      match pmvg_ctx_to_file_loop s2.gm fuel (s2.cm ctx).gctx.elem_dll 0
          ((List.range size).map junk) with
      | none => none
      | some pmvgl => some (s2, le_bytes 4 size ++ (pmvgl.map PMVG_pckd.bytes).flatten)



/-! ## model_parser.h, pm.c: the model builder

The member `segconti` of a segment vertex shares its storage with `pp`, `cp`
and `wp`, which no function reads for a segment vertex; it is kept in a memory
of its own, as is the list `segcontl` of a context. The raw segments are kept
without their registration in the segment context and without the statistics
that `TSR_eval` caches. The `k`-th call of `PMV_create` gets the addresses
`av k` for the vertex and `ag k` for the group; the segment of the `k`-th
vertex is allocated at `asg k`. -/

def MPTT_start : Nat := 0

def MPTT_end : Nat := 1

def MPTT_fork : Nat := 2

def MPTT_join : Nat := 3

def MPTT_calc : Nat := 4

def MPTT_com : Nat := 5

def MPTT_forkend : Nat := 10

/-- The `MPTask` without `mem`, `dest` and `lno`. -/
structure MPTask where
  pno : Int
  ttype : Nat
  req : ℚ
  next : Nat × Nat
  deriving DecidableEq, Repr

/-- The `struct Segcont`. -/
structure Segcont where
  segp : Nat
  pid : Int
  deriving DecidableEq, Repr

/-- The size `sizeof(Segcont)` in bytes. -/
def sizeof_Segcont : Nat := 16

/-- The parser context as the builder reads it. -/
structure MParser where
  task_l : List MPTask
  head : Nat
  cap_val_com : ℚ
  cap_val_cal : ℚ

/-- The state the builder works on: the memories of `pm.c`, the member
`segconti` of every vertex, the list `segcontl` of every context, the raw
segments, the cursor `parsctx->cti` and the number of vertices created. -/
structure Builder where
  s : PMState
  segconti : Nat → Int
  segcontl : Nat → arll Segcont
  segm : Nat → TaskSegRaw
  cti : Nat
  cnt : Nat

/-- The loop `while(ct.ttype == MPTT_calc || ct.ttype == MPTT_com) { ... }`
of `_create_seg`, for the segment at `segp` with the process id `pid`: the
builder after it. -/
def create_seg_loop (junkw : ℚ) (junkt : Nat) (parsctx : MParser) (segp : Nat) (pid : Int) :
    Nat → Builder → Option Builder
  | 0, _ => none
  | fuel + 1, b =>
    match parsctx.task_l[b.cti]? with
    | none => none
    | some ct =>
      if ct.ttype = MPTT_calc ∨ ct.ttype = MPTT_com then
        let csegt : TSRTask :=
          if ct.ttype = MPTT_calc then
            { type := TSTT_calc,
              req := if ct.req < parsctx.cap_val_cal then ct.req else parsctx.cap_val_cal }
          else
            { type := TSTT_com,
              req := if ct.req < parsctx.cap_val_com then ct.req else parsctx.cap_val_com }
        if ct.pno ≠ pid then none
        else
          match TSR_put junkw junkt (b.segm segp) csegt with
          | none => none
          | some seg =>
            create_seg_loop junkw junkt parsctx segp pid fuel
              { b with segm := store b.segm segp seg, cti := idx2 ct.next 0 }
      else some b

/-- `_create_seg(parsctx, pmctx, prevnpp, tsrctx)`, with its call of
`_build_graph` passed as `build`. -/
def create_seg (junk : Nat) (junkw : ℚ) (junkt : Nat) (junks : Segcont) (av ag asg : Nat → Nat)
    (build : Builder → PMVSlot → Option (Builder × Nat))
    (fuel : Nat) (parsctx : MParser) (pmctx : Nat) (b : Builder) (prevnpp : PMVSlot) :
    Option (Builder × Nat) :=
  match parsctx.task_l[b.cti]? with
  | none => none
  | some ct =>
    match PMV_create junk b.s pmctx PMV_seg prevnpp (av b.cnt) (ag b.cnt) with
    | none => none
    | some (s1, nv) =>
      if nv = 0 then none
      else
        let segp := asg b.cnt
        if segp = 0 then none
        else
          let b1 : Builder :=
            { b with s := s1, cnt := b.cnt + 1,
                     segm := store b.segm segp (TaskSegRaw_init junkw junkt) }
          match create_seg_loop junkw junkt parsctx segp ct.pno fuel b1 with
          | none => none
          | some b2 =>
            match arll_push junks sizeof_Segcont (b2.segcontl pmctx)
                { segp := segp, pid := ct.pno } with
            | none => none
            | some (i, l) =>
              if i = -1 then none
              else
                let b3 : Builder :=
                  { b2 with segconti := store b2.segconti nv i,
                            segcontl := store b2.segcontl pmctx l }
                match build b3 (PMVSlot.np nv) with
                | none => none
                | some (b4, r) =>
                  if b4.cti = 0 then none
                  else
                    some ({ b4 with
                            s := { b4.s with vm := store b4.s.vm nv ((b4.s.vm nv).with_np r) } },
                          nv)

/-- The branch `if (ct.next[1] == 0) { ... }` of `_create_insc` for the fork
task `ct`, an empty fork. -/
def create_insc_empty (build : Builder → PMVSlot → Option (Builder × Nat)) (parsctx : MParser)
    (b : Builder) (prevnpp : PMVSlot) (ct : MPTask) : Option (Builder × Nat) :=
  match parsctx.task_l[idx2 ct.next 0]? with
  | none => none
  | some ct1 =>
    if ct1.ttype ≠ MPTT_forkend then none
    else if ct1.pno ≠ ct.pno then none
    else
      match build { b with cti := idx2 ct1.next 0 } prevnpp with
      | none => none
      | some (b1, nv) =>
        match parsctx.task_l[b1.cti]? with
        | none => none
        | some ct2 =>
          match build { b1 with cti := idx2 ct2.next 0 } (PMVSlot.np nv) with
          | none => none
          | some (b2, r) =>
            if nv = 0 then none
            else if b2.cti = 0 then none
            else
              some ({ b2 with
                      s := { b2.s with vm := store b2.s.vm nv ((b2.s.vm nv).with_np r) } },
                    nv)

/-- `_create_insc(parsctx, pmctx, prevnpp, tsrctx)`, with its calls of
`_build_graph` passed as `build`. -/
def create_insc (junk : Nat) (av ag : Nat → Nat)
    (build : Builder → PMVSlot → Option (Builder × Nat))
    (parsctx : MParser) (pmctx : Nat) (b : Builder) (prevnpp : PMVSlot) :
    Option (Builder × Nat) :=
  match parsctx.task_l[b.cti]? with
  | none => none
  | some ct =>
    if idx2 ct.next 1 = 0 then create_insc_empty build parsctx b prevnpp ct
    else
      match PMV_create junk b.s pmctx PMV_insc prevnpp (av b.cnt) (ag b.cnt) with
      | none => none
      | some (s1, nv) =>
        if nv = 0 then none
        else
          match build { b with s := s1, cnt := b.cnt + 1, cti := idx2 ct.next 0 }
              (PMVSlot.pp nv) with
          | none => none
          | some (b1, rp) =>
            let b1s : Builder :=
              { b1 with s := { b1.s with vm := store b1.s.vm nv ((b1.s.vm nv).with_pp rp) } }
            if b1s.cti = 0 then none
            else if (b1s.s.vm nv).pp = 0 then none
            else
              let ret_ti := b1s.cti
              match build { b1s with cti := idx2 ct.next 1 } (PMVSlot.cp nv) with
              | none => none
              | some (b2, rc) =>
                let b2s : Builder :=
                  { b2 with s := { b2.s with vm := store b2.s.vm nv ((b2.s.vm nv).with_cp rc) } }
                if b2s.cti = 0 then none
                else if (b2s.s.vm nv).cp = 0 then none
                else if ret_ti ≠ b2s.cti then none
                else
                  match parsctx.task_l[ret_ti]? with
                  | none => none
                  | some ctr =>
                    match build { b2s with cti := idx2 ctr.next 0 } (PMVSlot.np nv) with
                    | none => none
                    | some (b3, r) =>
                      if b3.cti = 0 then none
                      else
                        some ({ b3 with
                                s := { b3.s with
                                       vm := store b3.s.vm nv ((b3.s.vm nv).with_np r) } },
                              nv)

/-- `_build_graph(parsctx, pmctx, prevnpp, tsrctx)`: the builder after the
call and the returned vertex pointer. -/
def build_graph (junk : Nat) (junkw : ℚ) (junkt : Nat) (junks : Segcont) (av ag asg : Nat → Nat)
    (parsctx : MParser) (pmctx : Nat) : Nat → Builder → PMVSlot → Option (Builder × Nat)
  | 0, _, _ => none
  | fuel + 1, b, prevnpp =>
    match parsctx.task_l[b.cti]? with
    | none => none
    | some ct =>
      if ct.ttype = MPTT_fork then
        match create_insc junk av ag
            (fun b1 slot => build_graph junk junkw junkt junks av ag asg parsctx pmctx fuel b1 slot)
            parsctx pmctx b prevnpp with
        | none => none
        | some (b1, nv) => if b1.cti = 0 then none else some (b1, nv)
      else if ct.ttype = MPTT_calc ∨ ct.ttype = MPTT_com then
        match create_seg junk junkw junkt junks av ag asg
            (fun b1 slot => build_graph junk junkw junkt junks av ag asg parsctx pmctx fuel b1 slot)
            fuel parsctx pmctx b prevnpp with
        | none => none
        | some (b1, nv) => if b1.cti = 0 then none else some (b1, nv)
      else if ct.ttype = MPTT_forkend then
        build_graph junk junkw junkt junks av ag asg parsctx pmctx fuel
          { b with cti := idx2 ct.next 0 } prevnpp
      else if ct.ttype = MPTT_join ∨ ct.ttype = MPTT_end then some (b, 0)
      else none

/-- `PMV_build_graph(parsctx, pm_ctx, tsrctx)`: the builder after the call
and the returned `int`; `MP_err` is 2. -/
def PMV_build_graph (junk : Nat) (junkw : ℚ) (junkt : Nat) (junks : Segcont)
    (av ag asg : Nat → Nat) (fuel : Nat) (parsctx : MParser) (pm_ctx : Nat) (b : Builder) :
    Option (Builder × Int) :=
  if pm_ctx = 0 then none
  else
    match parsctx.task_l[parsctx.head]? with
    | none => none
    | some ct =>
      if ct.ttype ≠ MPTT_start then some (b, 2)
      else if idx2 ct.next 0 = 0 then some (b, 2)
      else
        match build_graph junk junkw junkt junks av ag asg parsctx pm_ctx fuel
            { b with cti := idx2 ct.next 0 } (PMVSlot.headp pm_ctx) with
        | none => none
        | some (b1, r) =>
          let s1 : PMState :=
            { b1.s with cm := store b1.s.cm pm_ctx { b1.s.cm pm_ctx with headp := r } }
          if (s1.cm pm_ctx).headp = 0 then none
          else
            match PMV_eval_r fuel s1.vm (s1.cm pm_ctx).headp true with
            | none => none
            | some m => some ({ b1 with s := { s1 with vm := m } }, 0)

/-- The state `PMContext_create` returns at the address 1, with empty
memories around it: no vertex, no group, an empty list of 64 segment
containers. -/
def builder_init : Builder :=
  { s := { vm := fun _ => pmv_zero, gm := fun _ => pmvg_zero,
           cm := fun _ => { headp := 0, gctx := { elem_dll := 0, size := 0, gid_curr := 0 },
                            pmvcnt := [0, 0, 0] } }
    segconti := fun _ => 0
    segcontl := fun _ => { blk_l := List.replicate 64 { segp := 0, pid := 0 }, blk_cnt := 0,
                           blk_lsiz := 64, blk_curi := 0 }
    segm := fun _ => TaskSegRaw_init 0 0
    cti := 0
    cnt := 0 }

/-- The call of `PMV_build_graph` for a model on the empty state, with
vertices allocated at 1, 2, ..., groups at 11, 12, ... and segments at 21, 22,
.... -/
def pm_build (parsctx : MParser) : Option (Builder × Int) :=
  PMV_build_graph 0 0 0 { segp := 0, pid := 0 } (fun k => k + 1) (fun k => k + 11)
    (fun k => k + 21) 20 parsctx 1 builder_init

/-- The call of `_build_graph` for a model on the empty state, from the task
`cti` on, for the slot `&ctx->headp`. -/
def pm_build_from (parsctx : MParser) (cti : Nat) : Option (Builder × Nat) :=
  build_graph 0 0 0 { segp := 0, pid := 0 } (fun k => k + 1) (fun k => k + 11)
    (fun k => k + 21) parsctx 1 20 { builder_init with cti := cti } (PMVSlot.headp 1)

/-- A task of the table. -/
def mptask (pno : Int) (ttype : Nat) (req : ℚ) (next0 next1 : Nat) : MPTask :=
  { pno := pno, ttype := ttype, req := req, next := (next0, next1) }

/-- The model of the scenario of asymmetric reuse: a fork whose parent branch
is calc(1), calc(1) and whose child branch is calc(2), calc(2), calc(1),
calc(1). -/
def mp_asymm : MParser :=
  { task_l :=
      [mptask 1 MPTT_start 0 1 0, mptask 1 MPTT_fork 0 2 5, mptask 1 MPTT_calc 1 3 0,
       mptask 1 MPTT_calc 1 4 0, mptask 1 MPTT_join 0 9 0, mptask 1 MPTT_calc 2 6 0,
       mptask 1 MPTT_calc 2 7 0, mptask 1 MPTT_calc 1 8 0, mptask 1 MPTT_calc 1 4 0,
       mptask 1 MPTT_end 0 0 0]
    head := 0, cap_val_com := 1000000, cap_val_cal := 1000000 }

/-- The state after `PMV_build_graph` for `mp_asymm`: vertices are allocated
at 1, 2, 3, groups at 11, 12, 13, segments at 21, 22, 23. -/
def pm_asymm : Builder :=
  ((pm_build mp_asymm).map (fun r => r.1)).getD builder_init

/-- An empty fork in front of one task: start, fork without a second branch,
`fork_end`, calc, end. -/
def mp_empty_fork : MParser :=
  { task_l :=
      [mptask 1 MPTT_start 0 1 0, mptask 1 MPTT_fork 0 2 0, mptask 1 MPTT_forkend 0 3 0,
       mptask 1 MPTT_calc 1 4 0, mptask 1 MPTT_end 0 0 0]
    head := 0, cap_val_com := 1000000, cap_val_cal := 1000000 }

/-- An empty fork in front of a task, a join and one more task: start, fork
without a second branch, `fork_end`, calc, join, calc, end. -/
def mp_empty_fork_join : MParser :=
  { task_l :=
      [mptask 1 MPTT_start 0 1 0, mptask 1 MPTT_fork 0 2 0, mptask 1 MPTT_forkend 0 3 0,
       mptask 1 MPTT_calc 1 4 0, mptask 1 MPTT_join 0 5 0, mptask 1 MPTT_calc 1 6 0,
       mptask 1 MPTT_end 0 0 0]
    head := 0, cap_val_com := 1000000, cap_val_cal := 1000000 }



/-! ## seg_cluster.c

A `SegCluster` is its list `segv_arll`, which no other cluster shares; the
list of clusters holds the clusters by value. The method `TaskSeg_compar` of
the class of the segments is the parameter `compar`: it takes the addresses of
two segments and returns the `int` of the method, `none` for a failing
assertion. Its result depends on the contents of the two segments only, which
the functions of `seg_cluster.c` modelled here do not change. -/

/-- `arll_geti(arllp, i)`: the block at the index `i`; `none` is the failing
assertion for `i > blk_cnt`, or a read outside the array. -/
def arll_geti {α : Type} (arllp : arll α) (i : Nat) : Option α :=
  if i > arllp.blk_cnt then none else arllp.blk_l[i]?

/-- The `Elem` of a segment. -/
structure SegElem where
  next_p : Nat
  prev_next_pp : ElemSlot
  ctxp : Nat
  deriving DecidableEq, Repr

/-- The `ElemCtx` of a segment context. -/
structure SegElemCtx where
  elem_dll : Nat
  size : Nat
  deriving DecidableEq, Repr

/-- The memories `seg_cluster.c` works on: the vertices, the member `segconti`
of every vertex, the list `segcontl` of every PM context, the `Elem` of every
segment and the `ElemCtx` of every segment context. -/
structure SCState where
  vm : PMVMem
  segconti : Nat → Int
  segcontl : Nat → arll Segcont
  em : Nat → SegElem
  ectx : Nat → SegElemCtx

/-- The `SegClusterCtx` without `k` and the plot. -/
structure SegClusterCtx where
  cluster_arll : arll (arll Nat)
  segv_grp : Nat

/-- The size `sizeof(SegCluster)` in bytes. -/
def sizeof_SegCluster : Nat := 8

/-- `PMV_getseg(vp)`. -/
def PMV_getseg (st : SCState) (vp : Nat) : Option Segcont :=
  if vp = 0 then none
  else if (st.vm vp).type ≠ PMV_seg then none
  else if (st.vm vp).ctxp = 0 then none
  else arll_geti (st.segcontl (st.vm vp).ctxp) (unsigned_of_int (st.segconti vp))

/-- `PMV_setseg(vp, segp)`. -/
def PMV_setseg (st : SCState) (vp : Nat) (segp : Nat) : Option SCState :=
  if vp = 0 then none
  else if (st.vm vp).ctxp = 0 then none
  else
    let l := st.segcontl (st.vm vp).ctxp
    let i := unsigned_of_int (st.segconti vp)
    match arll_geti l i with
    | none => none
    | some c =>
      some { st with
             segcontl := store st.segcontl (st.vm vp).ctxp
               { l with blk_l := l.blk_l.set i { c with segp := segp } } }

/-- The loop `while ((clp = arll_next(ctx->cluster_arll))) { ... }` of
`SegClusterCtx_add`: the list of clusters after it, and whether the vertex was
added to a cluster. -/
def SegClusterCtx_add_loop (junk : Nat) (compar : Nat → Nat → Option Int) (st : SCState)
    (segvp : Nat) : Nat → arll (arll Nat) → Option (arll (arll Nat) × Bool)
  | 0, _ => none
  | fuel + 1, cl =>
    match arll_next cl with
    | (none, cl1) => some (cl1, false)
    | (some clp, cl1) =>
      match arll_next (arll_rewind clp) with
      | (none, _) => none
      | (some repvp, sv1) =>
        match PMV_getseg st repvp with
        | none => none
        | some repc =>
          if repc.segp = 0 then none
          else
            match PMV_getseg st segvp with
            | none => none
            | some cc =>
              if cc.segp = 0 then none
              else
                match compar repc.segp cc.segp with
                | none => none
                | some r =>
                  if r ≠ 0 then
                    match arll_push junk sizeof_PMVp sv1 segvp with
                    | none => none
                    | some (_, sv2) =>
                      some ({ cl1 with blk_l := cl1.blk_l.set cl.blk_curi sv2 }, true)
                  else
                    SegClusterCtx_add_loop junk compar st segvp fuel
                      { cl1 with blk_l := cl1.blk_l.set cl.blk_curi sv1 }

/-- `SegClusterCtx_add(ctx, segvp)`: the list of clusters after the call,
which returns 0. `junkc` is the content of an uninitialised cell of the list
of clusters. -/
def SegClusterCtx_add (junk : Nat) (junkc : arll Nat) (compar : Nat → Nat → Option Int)
    (st : SCState) (cl : arll (arll Nat)) (segvp : Nat) : Option (arll (arll Nat)) :=
  if segvp = 0 then none
  else
    match SegClusterCtx_add_loop junk compar st segvp (cl.blk_cnt + 1) (arll_rewind cl) with
    | none => none
    | some (cl1, true) => some cl1
    | some (cl1, false) =>
      match arll_construct junk sizeof_PMVp 1 with
      | none => none
      | some sv =>
        match arll_push junk sizeof_PMVp sv segvp with
        | none => none
        | some (i, sv1) =>
          if i = -1 then none
          else
            match arll_push junkc sizeof_SegCluster cl1 sv1 with
            | none => none
            | some (j, cl2) => if j = -1 then none else some cl2

/-- The loop `while ((vpp = arll_next(segv_grp->vpl))) { ... }` of
`SegClusterCtx_create`: the member list and the list of clusters after it. -/
def SegClusterCtx_create_loop (junk : Nat) (junkc : arll Nat)
    (compar : Nat → Nat → Option Int) (st : SCState) :
    Nat → arll Nat → arll (arll Nat) → Option (arll Nat × arll (arll Nat))
  | 0, _, _ => none
  | fuel + 1, vpl, cl =>
    match arll_next vpl with
    | (none, vpl1) => some (vpl1, cl)
    | (some vp, vpl1) =>
      match SegClusterCtx_add junk junkc compar st cl vp with
      | none => none
      | some cl1 => SegClusterCtx_create_loop junk junkc compar st fuel vpl1 cl1

/-- `SegClusterCtx_create(segv_grp, k, plot)` without a plot, for the group at
`segv_grp` with the member list `vpl`: the member list after the call and the
new context. -/
def SegClusterCtx_create (junk : Nat) (junkc : arll Nat) (compar : Nat → Nat → Option Int)
    (st : SCState) (segv_grp : Nat) (vpl : arll Nat) : Option (arll Nat × SegClusterCtx) :=
  if segv_grp = 0 then none
  else
    match arll_construct junkc sizeof_SegCluster 1 with
    | none => none
    | some cl =>
      match SegClusterCtx_create_loop junk junkc compar st (vpl.blk_cnt + 1) (arll_rewind vpl)
          cl with
      | none => none
      | some (vpl1, cl1) => some (vpl1, { cluster_arll := cl1, segv_grp := segv_grp })

/-- The store `*slot = p` through an `Elem **` of a segment context. -/
def SegElemSlot_store (st : SCState) (slot : ElemSlot) (p : Nat) : Option SCState :=
  match slot with
  | ElemSlot.null => none
  | ElemSlot.elem_dll ctx =>
    some { st with ectx := store st.ectx ctx { st.ectx ctx with elem_dll := p } }
  | ElemSlot.next_p e => some { st with em := store st.em e { st.em e with next_p := p } }

/-- `Object_deinit(segp)` for a segment: the method of its class frees its
arrays and calls `_Elem_deinit`. -/
def TaskSeg_deinit (st : SCState) (segp : Nat) : Option SCState :=
  if segp = 0 then some st
  else if (st.em segp).ctxp = 0 then none
  else if (st.ectx (st.em segp).ctxp).size = 0 then none
  else
    let ctx := (st.em segp).ctxp
    let st1 : SCState :=
      { st with ectx := store st.ectx ctx { st.ectx ctx with size := (st.ectx ctx).size - 1 } }
    let st2 : SCState :=
      if (st1.em segp).next_p ≠ 0 then
        { st1 with
          em := store st1.em (st1.em segp).next_p
            { st1.em (st1.em segp).next_p with prev_next_pp := (st1.em segp).prev_next_pp } }
      else st1
    SegElemSlot_store st2 (st2.em segp).prev_next_pp (st2.em segp).next_p

/-- The loop `while ((vpp = arll_next(clp->segv_arll))) { ... }` of
`SegClusterCtx_remdupl` for the representative `repvp`. -/
def SegClusterCtx_remdupl_inner (repvp : Nat) : Nat → SCState → arll Nat → Option (SCState × arll Nat)
  | 0, _, _ => none
  | fuel + 1, st, sv =>
    match arll_next sv with
    | (none, sv1) => some (st, sv1)
    | (some vp, sv1) =>
      match PMV_getseg st vp with
      | none => none
      | some c =>
        match TaskSeg_deinit st c.segp with
        | none => none
        | some st1 =>
          match PMV_getseg st1 vp with
          | none => none
          | some _ =>
            match PMV_getseg st1 repvp with
            | none => none
            | some rc =>
              match PMV_setseg st1 vp rc.segp with
              | none => none
              | some st2 =>
                match PMV_getseg st2 vp with
                | none => none
                | some c2 =>
                  if c2.segp = 0 then none
                  else SegClusterCtx_remdupl_inner repvp fuel st2 sv1

/-- The loop `while ((clp = arll_next(ctx->cluster_arll))) { ... }` of
`SegClusterCtx_remdupl`. -/
def SegClusterCtx_remdupl_loop : Nat → SCState → arll (arll Nat) → Option (SCState × arll (arll Nat))
  | 0, _, _ => none
  | fuel + 1, st, cl =>
    match arll_next cl with
    | (none, cl1) => some (st, cl1)
    | (some clp, cl1) =>
      match arll_next (arll_rewind clp) with
      | (none, _) => none
      | (some repvp, sv1) =>
        match SegClusterCtx_remdupl_inner repvp (sv1.blk_cnt + 1) st sv1 with
        | none => none
        | some (st1, sv2) =>
          SegClusterCtx_remdupl_loop fuel st1 { cl1 with blk_l := cl1.blk_l.set cl.blk_curi sv2 }

/-- `SegClusterCtx_remdupl(ctx)`: the memories and the context after the
call. -/
def SegClusterCtx_remdupl (st : SCState) (ctx : SegClusterCtx) : Option (SCState × SegClusterCtx) :=
  match SegClusterCtx_remdupl_loop (ctx.cluster_arll.blk_cnt + 1) st
      (arll_rewind ctx.cluster_arll) with
  | none => none
  | some (st1, cl1) => some (st1, { ctx with cluster_arll := cl1 })


/-! ### Proof-level definitions for the linking of the groups -/

/-- The group `group(p)` of the vertex under a pointer, NULL for the NULL
pointer. -/
def PMV_gp_of (m : PMVMem) (p : Nat) : Nat := if p = 0 then 0 else (m p).gp

/-- The group without the edges of its compressed vertex. -/
def PMVG.noedge (g : PMVG) : PMVG := { g with cpmv := { g.cpmv with np := 0, pp := 0, cp := 0 } }

/-- The edges of the compressed vertex of the group of `v` point at the
groups of the vertices `v` points at. -/
def LinkedAt (s : PMState) (v : Nat) : Prop :=
  (s.gm (s.vm v).gp).cpmv.np = PMV_gp_of s.vm (s.vm v).np ∧
  ((s.vm v).type = PMV_insc →
    (s.gm (s.vm v).gp).cpmv.pp = PMV_gp_of s.vm (s.vm v).pp ∧
    (s.gm (s.vm v).gp).cpmv.cp = PMV_gp_of s.vm (s.vm v).cp) ∧
  ((s.vm v).type = PMV_wrap → (s.gm (s.vm v).gp).cpmv.pp = PMV_gp_of s.vm (s.vm v).wp)

/-- A freshly built tree: the memory holds it, every vertex is alone in its
group and the edges of the compressed vertices are empty. -/
def LinkPre (s : PMState) (t : VTree) : Prop :=
  t.Rep s.vm ∧ t.nodes.Nodup ∧ (∀ v ∈ t.nodes, (s.vm v).gp ≠ 0) ∧
  (∀ v ∈ t.nodes, ∀ w ∈ t.nodes, (s.vm v).gp = (s.vm w).gp → v = w) ∧
  (∀ v ∈ t.nodes, (s.gm (s.vm v).gp).cpmv.np = 0 ∧ (s.gm (s.vm v).gp).cpmv.pp = 0 ∧
    (s.gm (s.vm v).gp).cpmv.cp = 0)

/-- What `_link_groups` does to the tree under its argument: it writes only
edges of compressed vertices, only in the groups of the tree, and links every
vertex of the tree. -/
def LinkPost (s s' : PMState) (t : VTree) : Prop :=
  s'.vm = s.vm ∧ s'.cm = s.cm ∧
  (∀ g, (∀ v ∈ t.nodes, (s.vm v).gp ≠ g) → s'.gm g = s.gm g) ∧
  (∀ g, (s'.gm g).noedge = (s.gm g).noedge) ∧ ∀ v ∈ t.nodes, LinkedAt s' v


/-! ### Proof-level definitions for the lists and the clusters -/

/-- The blocks in use of a list. -/
def arll.members {α : Type} (a : arll α) : List α := a.blk_l.take a.blk_cnt

/-- The list `a` holds the blocks `xs`: its array has `blk_lsiz` cells, of
which the first `blk_cnt` are `xs`, and it has grown by doubling. -/
def ArllRep {α : Type} (a : arll α) (xs : List α) : Prop :=
  a.members = xs ∧ a.blk_cnt = xs.length ∧ a.blk_l.length = a.blk_lsiz ∧ 0 < a.blk_lsiz ∧
  a.blk_lsiz ≤ 2 * a.blk_cnt + 1

/-- The list of clusters `cl` holds the clusters `cs`. -/
def ClRep (cl : arll (arll Nat)) (cs : List (List Nat)) : Prop :=
  ∃ as : List (arll Nat), ArllRep cl as ∧ List.Forall₂ ArllRep as cs

/-- The clusters of a context, each one as the list of its member vertices. -/
def SegClusterCtx.clusters (ctx : SegClusterCtx) : List (List Nat) :=
  ctx.cluster_arll.members.map arll.members

/-- The segment `PMV_getseg(v).segp` of a vertex, NULL if the call aborts. -/
def PMV_segp_of (st : SCState) (v : Nat) : Nat :=
  match PMV_getseg st v with
  | none => 0
  | some c => c.segp

/-- The test `if (TaskSeg_compar(repseg, cseg))` for the vertices `rep` and
`v`. -/
def SegCluster_fits (compar : Nat → Nat → Option Int) (st : SCState) (rep v : Nat) : Bool :=
  match compar (PMV_segp_of st rep) (PMV_segp_of st v) with
  | none => false
  | some r => decide (r ≠ 0)

/-- First fit, as the specification words it: the vertex goes to the first
cluster whose first member is equal to it, and opens a new cluster at the end
if there is none. -/
def first_fit_add (fits : Nat → Nat → Bool) : List (List Nat) → Nat → List (List Nat)
  | [], v => [[v]]
  | c :: cs, v =>
    if fits (c.headD 0) v = true then (c ++ [v]) :: cs else c :: first_fit_add fits cs v

/-- The clusters of first fit for the members `l`, in their order. -/
def first_fit (fits : Nat → Nat → Bool) (l : List Nat) : List (List Nat) :=
  l.foldl (first_fit_add fits) []


/-! ### An example for the clusters -/

/-- The segment vertices 1, 2, 3 of the PM context 1 with the containers 0, 1,
2, which hold the segments 101, 102, 103 of the segment context 7. -/
def sc_example : SCState :=
  { vm := fun a =>
      if a = 1 ∨ a = 2 ∨ a = 3 then { pmv_zero with type := PMV_seg, gp := 12, ctxp := 1 }
      else pmv_zero
    segconti := fun a => (a : Int) - 1
    segcontl := fun _ =>
      { blk_l := [{ segp := 101, pid := 0 }, { segp := 102, pid := 0 }, { segp := 103, pid := 1 },
                  { segp := 0, pid := 0 }],
        blk_cnt := 3, blk_lsiz := 4, blk_curi := 0 }
    em := fun e =>
      if e = 103 then { next_p := 102, prev_next_pp := ElemSlot.elem_dll 7, ctxp := 7 }
      else if e = 102 then { next_p := 101, prev_next_pp := ElemSlot.next_p 103, ctxp := 7 }
      else if e = 101 then { next_p := 0, prev_next_pp := ElemSlot.next_p 102, ctxp := 7 }
      else { next_p := 0, prev_next_pp := ElemSlot.null, ctxp := 0 }
    ectx := fun _ => { elem_dll := 103, size := 3 } }

/-- The member list of the group of the vertices 1, 2, 3. -/
def sc_example_vpl : arll Nat := { blk_l := [1, 2, 3, 0], blk_cnt := 3, blk_lsiz := 4, blk_curi := 0 }

/-- A comparison that takes the segments 101 and 103 for equal and the segment
102 for different from both. -/
def sc_example_compar (a b : Nat) : Option Int :=
  some (if a = b ∨ (a = 101 ∧ b = 103) ∨ (a = 103 ∧ b = 101) then 1 else 0)


/-! ### Proof-level definitions for the segment contexts -/

/-- The doubly linked list of a segment context from the pointer `p`, which the
cell `slot` holds, on: the elements `es` in their order, every one with its
`prev_next_pp` at the cell that points to it. -/
def SegChainFrom (em : Nat → SegElem) (C : Nat) : ElemSlot → Nat → List Nat → Prop
  | _, p, [] => p = 0
  | slot, p, e :: es =>
    p = e ∧ e ≠ 0 ∧ (em e).prev_next_pp = slot ∧ (em e).ctxp = C ∧
    SegChainFrom em C (ElemSlot.next_p e) (em e).next_p es

/-- The segment context `C` holds the segments `ch`, in the order of its list
`elem_dll`, and counts them in `size`. -/
def SegCtxRep (st : SCState) (C : Nat) (ch : List Nat) : Prop :=
  C ≠ 0 ∧ SegChainFrom st.em C (ElemSlot.elem_dll C) (st.ectx C).elem_dll ch ∧ ch.Nodup ∧
  (st.ectx C).size = ch.length

/-- The container of a vertex: the PM context and the index in its list
`segcontl`. -/
def PMV_segcont_of (st : SCState) (v : Nat) : Nat × Nat :=
  ((st.vm v).ctxp, unsigned_of_int (st.segconti v))

/-- The segments that `SegClusterCtx_remdupl` destroys: those of the members
of every cluster after its first member. -/
def SegClusterCtx.duplicates (st : SCState) (ctx : SegClusterCtx) : List Nat :=
  (ctx.clusters.map (fun c => c.tail.map (PMV_segp_of st))).flatten


/-- An empty list of clusters. -/
def sc_example_vpl_empty : arll (arll Nat) :=
  { blk_l := [], blk_cnt := 0, blk_lsiz := 0, blk_curi := 0 }

/-- The cluster context that `SegClusterCtx_create` makes for the example: the
clusters `[1, 3]` and `[2]`. -/
def sc_example_ctx : SegClusterCtx :=
  ((SegClusterCtx_create 0 sc_example_vpl sc_example_compar sc_example 12 sc_example_vpl).map
    (fun r => r.2)).getD { cluster_arll := sc_example_vpl_empty, segv_grp := 0 }



/-! ### An example for the search of a terminating subtree -/

/-- The vertices of a fork whose parent branch is the stem of the segments 2
and 4 and whose child branch is the segment 3, before `PMV_eval_r`. -/
def pm_tail_built : PMVMem := fun a =>
  if a = 1 then pm_example_vertex PMV_insc 0 (PMVSlot.headp 1) 11 2 3
  else if a = 2 then pm_example_vertex PMV_seg 4 (PMVSlot.pp 1) 12 0 0
  else if a = 3 then pm_example_vertex PMV_seg 0 (PMVSlot.cp 1) 13 0 0
  else if a = 4 then pm_example_vertex PMV_seg 0 (PMVSlot.np 2) 14 0 0
  else pmv_zero

/-- The vertices of `pm_tail_built` after `PMV_eval_r(headp, 1)`. -/
def pm_tail : PMVMem := (PMV_eval_r 12 pm_tail_built 1 true).getD pm_tail_built

/-- The tree of `pm_tail_built`. -/
def pm_tail_tree : VTree :=
  VTree.insc 1 (VTree.seg 2 (VTree.seg 4 VTree.nil)) (VTree.seg 3 VTree.nil) VTree.nil

/-- An empty list of vertex pointers, as `arll_construct(sizeof(PMV*), 1)` makes
it. -/
def arll_example_empty : arll Nat := { blk_l := [0], blk_cnt := 0, blk_lsiz := 1, blk_curi := 0 }


/-! ### Proof-level definitions for the groups -/

/-- The vertex without its group pointer. -/
def PMV.nogp (v : PMV) : PMV := { v with gp := 0 }

/-- The group without its list of members. -/
def PMVG.novpl (g : PMVG) : PMVG :=
  { g with vpl := { blk_l := [], blk_cnt := 0, blk_lsiz := 0, blk_curi := 0 } }

/-- The group without the pointers of the list of its context. -/
def PMVG.nolink (g : PMVG) : PMVG := { g with next_p := 0, prev_next_pp := ElemSlot.null }

/-- The groups of the context `c` for the vertices `V`: the context counts the
live groups `live`; every live group is registered in the context and its list
holds, once each and with the cursor at the start, the vertices of `V` whose
`gp` points to it, at least one; every vertex of `V` belongs to the context and to a live
group of its type. -/
def GroupsOK (s : PMState) (c : Nat) (V live : List Nat) : Prop :=
  c ≠ 0 ∧ V.Nodup ∧ V.length < 33554432 ∧ live.Nodup ∧ (s.cm c).gctx.size = live.length ∧
  (∀ g ∈ live, g ≠ 0 ∧ (s.gm g).ctxp = c ∧ (s.gm g).prev_next_pp ≠ ElemSlot.null ∧
    ∃ ms, ArllRep (s.gm g).vpl ms ∧ (s.gm g).vpl.blk_curi = 0 ∧ ms.Nodup ∧ ms ≠ [] ∧
      ∀ w, w ∈ ms ↔ (w ∈ V ∧ (s.vm w).gp = g)) ∧
  (∀ v ∈ V, v ≠ 0 ∧ (s.vm v).ctxp = c ∧ (s.vm v).gp ∈ live ∧
    (s.vm v).type = (s.gm (s.vm v).gp).cpmv.type)

/-- A step of the miner from the state `s` to the state `s'`: the groups are
in order afterwards, no group is new, the vertices differ in flags and group
pointers only, the flags only at the addresses `F`, two vertices of `V` that
shared a group still do, and the head pointers stay. -/
def GpStep (s s' : PMState) (c : Nat) (V live live' F : List Nat) : Prop :=
  GroupsOK s' c V live' ∧ (∀ g ∈ live', g ∈ live) ∧
  (∀ v, (s'.vm v).noflags.nogp = (s.vm v).noflags.nogp) ∧
  (∀ v, v ∉ F → (s'.vm v).flags = (s.vm v).flags) ∧
  (∀ v ∈ V, ∀ w ∈ V, (s.vm v).gp = (s.vm w).gp → (s'.vm v).gp = (s'.vm w).gp) ∧
  (∀ c', (s'.cm c').headp = (s.cm c').headp)


/-! ### The example of the symmetric fork -/

/-- The model of a fork whose two branches are each calc(1), calc(1). -/
def mp_symm : MParser :=
  { task_l :=
      [mptask 1 MPTT_start 0 1 0, mptask 1 MPTT_fork 0 2 5, mptask 1 MPTT_calc 1 3 0,
       mptask 1 MPTT_calc 1 4 0, mptask 1 MPTT_join 0 7 0, mptask 1 MPTT_calc 1 6 0,
       mptask 1 MPTT_calc 1 4 0, mptask 1 MPTT_end 0 0 0]
    head := 0, cap_val_com := 1000000, cap_val_cal := 1000000 }

/-- The state after `PMV_build_graph` for `mp_symm`: the inosculation 1 with
the segment vertices 2 and 3, the groups 11, 12, 13. -/
def pm_symm : PMState :=
  ((pm_build mp_symm).map (fun r => r.1.s)).getD builder_init.s



/-! ### Vertex counts, `TSR_eval`, `arll_geti`: definitions -/

/-- The number of segment vertices of the tree, those of the branches, the
wrapped stems and the `np` successors included. -/
def VTree.segs : VTree → Nat
  | VTree.nil => 0
  | VTree.seg _ np => 1 + np.segs
  | VTree.insc _ pp cp np => pp.segs + cp.segs + np.segs
  | VTree.wrap _ wp np => wp.segs + np.segs

/-- The number of inosculation vertices of the tree. -/
def VTree.inscs : VTree → Nat
  | VTree.nil => 0
  | VTree.seg _ np => np.inscs
  | VTree.insc _ pp cp np => 1 + pp.inscs + cp.inscs + np.inscs
  | VTree.wrap _ wp np => wp.inscs + np.inscs

/-- No unsigned 32-bit addition of the computation of the summaries of the
tree by `PMV_eval_r` exceeds `2^32 - 1`: the mathematical sum of the two
operands of every `+=` on `hash`, `depth` and `vcnt` is below `2^32`. -/
def VTree.NoWrap : VTree → Prop
  | VTree.nil => True
  | VTree.seg _ np =>
    1 + np.hash < 4294967296 ∧ 1 + np.depth < 4294967296 ∧ 1 + np.vcnt < 4294967296 ∧
      VTree.NoWrap np
  | VTree.insc _ pp cp np =>
    32768 + pp.hash < 4294967296 ∧ hfold 32768 pp.hash + cp.hash < 4294967296 ∧
      hfold (hfold 32768 pp.hash) cp.hash + np.hash < 4294967296 ∧
      1 + max pp.depth cp.depth < 4294967296 ∧
      ufold 1 (max pp.depth cp.depth) + np.depth < 4294967296 ∧
      1 + pp.vcnt < 4294967296 ∧ ufold 1 pp.vcnt + cp.vcnt < 4294967296 ∧
      ufold (ufold 1 pp.vcnt) cp.vcnt + np.vcnt < 4294967296 ∧
      VTree.NoWrap pp ∧ VTree.NoWrap cp ∧ VTree.NoWrap np
  | VTree.wrap _ wp np =>
    0 + wp.hash < 4294967296 ∧ hfold 0 wp.hash + np.hash < 4294967296 ∧
      0 + wp.depth < 4294967296 ∧ ufold 0 wp.depth + np.depth < 4294967296 ∧
      0 + wp.vcnt < 4294967296 ∧ ufold 0 wp.vcnt + np.vcnt < 4294967296 ∧
      VTree.NoWrap wp ∧ VTree.NoWrap np

/-- A stem of `n` forks with one segment in each branch. -/
def fork_chain : Nat → VTree
  | 0 => VTree.nil
  | n + 1 =>
    VTree.insc (3 * n + 1) (VTree.seg (3 * n + 2) VTree.nil) (VTree.seg (3 * n + 3) VTree.nil)
      (fork_chain n)

/-- The body of the loop of `TSR_eval` for one task type: `avg` is
`gsl_stats_mean(req_l, 1, task_cnt)`, `stddev` is `gsl_stats_sd_m(req_l, 1,
task_cnt, avg)` for more than one task and 0 otherwise, and `sum` is the
result of `for (j = 0; j < req_l_siz; j++) sum += req_l[j]`. `sqrt` is the
square root of the C library; `none` is a read outside the array. -/
def TSR_eval_type (sqrt : ℚ → ℚ) (creqp : TReql) : Option TReql :=
  if ¬ creqp.task_cnt ≤ creqp.req_l.length then none
  else if ¬ creqp.req_l_siz ≤ creqp.req_l.length then none
  else
    let data := creqp.req_l.take creqp.task_cnt
    let avg := gsl_stats_mean data
    let stddev := if creqp.task_cnt > 1 then sqrt (gsl_stats_variance_m data avg) else 0
    let sum := (creqp.req_l.take creqp.req_l_siz).foldl (fun s x => s + x) 0
    some { creqp with avg := avg, stddev := stddev, sum := sum }

/-- `TSR_eval(tsrp)`: the segment after the call. -/
def TSR_eval (sqrt : ℚ → ℚ) (tsrp : TaskSegRaw) : Option TaskSegRaw :=
  match TSR_eval_type sqrt tsrp.treq_l.1 with
  | none => none
  | some r0 =>
    match TSR_eval_type sqrt tsrp.treq_l.2 with
    | none => none
    | some r1 => some { tsrp with treq_l := (r0, r1) }

/-- A square root that is exact on the squares of rationals. -/
def sqrt_example (q : ℚ) : ℚ := (Nat.sqrt q.num.toNat : ℚ) / (Nat.sqrt q.den : ℚ)

/-- Three calculations of the weights 0, 4 and 8. -/
def tsr_eval_tasks : List TSRTask :=
  [{ req := 0, type := TSTT_calc }, { req := 4, type := TSTT_calc },
   { req := 8, type := TSTT_calc }]

/-- The segment `TaskSegRaw_init` and three calls of `TSR_put` make of
`tsr_eval_tasks`, the cells `malloc` returned holding the value `junk`. -/
def tsr_eval_example (junk : ℚ) : TaskSegRaw :=
  (TSR_put_all junk 0 (TaskSegRaw_init junk 0) tsr_eval_tasks).getD (TaskSegRaw_init junk 0)

/-- The index of the block `arll_geti(arllp, i)` points to; `none` is the
failing `assert(0)` (the NULL pointer without assertions) for
`i > blk_cnt`. -/
def arll_geti_index {α : Type} (arllp : arll α) (i : Nat) : Option Nat :=
  if i > arllp.blk_cnt then none else some i

/-- The list of 7, 8 and 9 in an array of four blocks. -/
def arll_example3 : arll Nat :=
  { blk_l := [7, 8, 9, 99], blk_cnt := 3, blk_lsiz := 4, blk_curi := 0 }

/-- The list `arll_construct(8, 1)` and the pushes of 7, 8 and 9 make, the
cells of `realloc` holding 99. -/
def arll_example_pushed : Option (arll Nat) :=
  match arll_construct 99 8 1 with
  | none => none
  | some a0 =>
    match arll_push 99 8 a0 7 with
    | none => none
    | some (_, a1) =>
      match arll_push 99 8 a1 8 with
      | none => none
      | some (_, a2) =>
        match arll_push 99 8 a2 9 with
        | none => none
        | some (_, a3) => some a3


/-! ### Edges of compressed vertices kept by `PM_link_groups`: definitions -/

/-- The edges of the compressed vertex `a` that are not NULL are the same in
`b` (`wp` is stored in `pp`). -/
def CPMV.kept (a b : CPMV) : Prop :=
  (a.np ≠ 0 → b.np = a.np) ∧ (a.pp ≠ 0 → b.pp = a.pp) ∧ (a.cp ≠ 0 → b.cp = a.cp)

/-- Every edge of a compressed vertex that is not NULL in the state `s` is the
same in the state `s1`. -/
def EdgesKept (s s1 : PMState) : Prop := ∀ g, CPMV.kept (s.gm g).cpmv (s1.gm g).cpmv

/-- The symmetric fork after `PM_link_groups`, `GM_mine_for_symm` and a second
`PM_link_groups`: the order of the raw export, the mining and the export of
the compressed graph. -/
def pm_symm_relinked : Option PMState :=
  match PM_link_groups 4 pm_symm 1 with
  | none => none
  | some s1 =>
    match GM_mine_for_symm 0 4 14 12 s1 1 with
    | none => none
    | some s2 => PM_link_groups 4 s2 1


/-! ### Summaries across `PMV_wrap_section`: definitions -/

/-- The cached summary and the flags of a vertex. -/
def PMV.summ (v : PMV) : Nat × Nat × Nat × Nat := (v.hash, v.depth, v.vcnt, v.flags)

/-- `Splice t W T T1`: the tree `T1` is the tree `T` with its subtree `t`
replaced by `W`. -/
inductive Splice (t W : VTree) : VTree → VTree → Prop where
  | here : Splice t W t W
  | seg_np (a : Nat) (np N : VTree) : Splice t W np N → Splice t W (VTree.seg a np) (VTree.seg a N)
  | insc_pp (a : Nat) (pp cp np N : VTree) :
    Splice t W pp N → Splice t W (VTree.insc a pp cp np) (VTree.insc a N cp np)
  | insc_cp (a : Nat) (pp cp np N : VTree) :
    Splice t W cp N → Splice t W (VTree.insc a pp cp np) (VTree.insc a pp N np)
  | insc_np (a : Nat) (pp cp np N : VTree) :
    Splice t W np N → Splice t W (VTree.insc a pp cp np) (VTree.insc a pp cp N)
  | wrap_wp (a : Nat) (wp np N : VTree) :
    Splice t W wp N → Splice t W (VTree.wrap a wp np) (VTree.wrap a N np)
  | wrap_np (a : Nat) (wp np N : VTree) :
    Splice t W np N → Splice t W (VTree.wrap a wp np) (VTree.wrap a wp N)


/-! ### The search without the prune: definitions -/

/-- The depth-first search of `GM_find_terminating` without its prune, as the
specification describes it: a similar vertex is recorded and not descended
into; every other vertex is descended into (parent branch, child branch or
wrapped stem, then the `np` successor), whatever its depth and its vertex
count are. This is a function of the specification, not of the source. -/
def GM_find_terminating_unpruned (junk : Nat) :
    Nat → PMVMem → Nat → Nat → arll Nat → Option (PMVMem × arll Nat)
  | 0, _, _, _, _ => none
  | fuel + 1, m, haystack, needle, similarl =>
    if haystack = 0 then some (m, similarl)
    else
      match PMV_is_similar fuel m haystack needle true with
      | none => none
      | some (m1, r) =>
        if r ≠ 0 then
          match arll_push junk sizeof_PMVp similarl haystack with
          | none => none
          | some (_, similarl1) => some (m1, similarl1)
        else
          let sw : Option (PMVMem × arll Nat) :=
            if (m1 haystack).type = PMV_seg then some (m1, similarl)
            else if (m1 haystack).type = PMV_insc then
              match GM_find_terminating_unpruned junk fuel m1 (m1 haystack).pp needle similarl with
              | none => none
              | some (m2, l2) =>
                GM_find_terminating_unpruned junk fuel m2 (m2 haystack).cp needle l2
            else if (m1 haystack).type = PMV_wrap then
              GM_find_terminating_unpruned junk fuel m1 (m1 haystack).wp needle similarl
            else none
          match sw with
          | none => none
          | some (m3, l3) => GM_find_terminating_unpruned junk fuel m3 (m3 haystack).np needle l3

/-- The search with the prune switched on (`GM_find_terminating`) or off
(`GM_find_terminating_unpruned`), for the proofs that treat the two
together. -/
def GM_find_terminating_gen (prune : Bool) (junk : Nat) :
    Nat → PMVMem → Nat → Nat → arll Nat → Option (PMVMem × arll Nat)
  | 0, _, _, _, _ => none
  | fuel + 1, m, haystack, needle, similarl =>
    if haystack = 0 then some (m, similarl)
    else
      match PMV_is_similar fuel m haystack needle true with
      | none => none
      | some (m1, r) =>
        if r ≠ 0 then
          match arll_push junk sizeof_PMVp similarl haystack with
          | none => none
          | some (_, similarl1) => some (m1, similarl1)
        else if prune = true ∧ needle = 0 then none
        else if prune = true ∧ (m1 haystack).depth < (m1 needle).depth then some (m1, similarl)
        else if prune = true ∧ (m1 haystack).vcnt < (m1 needle).vcnt then some (m1, similarl)
        else
          let sw : Option (PMVMem × arll Nat) :=
            if (m1 haystack).type = PMV_seg then some (m1, similarl)
            else if (m1 haystack).type = PMV_insc then
              match GM_find_terminating_gen prune junk fuel m1 (m1 haystack).pp needle similarl with
              | none => none
              | some (m2, l2) =>
                GM_find_terminating_gen prune junk fuel m2 (m2 haystack).cp needle l2
            else if (m1 haystack).type = PMV_wrap then
              GM_find_terminating_gen prune junk fuel m1 (m1 haystack).wp needle similarl
            else none
          match sw with
          | none => none
          | some (m3, l3) => GM_find_terminating_gen prune junk fuel m3 (m3 haystack).np needle l3

/-- The roots of the subtrees of the haystack that have the shape of the
needle `N`, in the order of the depth-first search; a subtree that matches is
not searched further. -/
def VTree.matches : VTree → VTree → List Nat
  | VTree.nil, _ => []
  | VTree.seg a np, N =>
    if (VTree.seg a np).shape = N.shape then [a] else np.matches N
  | VTree.insc a pp cp np, N =>
    if (VTree.insc a pp cp np).shape = N.shape then [a]
    else pp.matches N ++ cp.matches N ++ np.matches N
  | VTree.wrap a wp np, N =>
    if (VTree.wrap a wp np).shape = N.shape then [a] else wp.matches N ++ np.matches N


/-! ### The membership of the vertices in the groups: definitions -/

/-- The groups registered in a context: the list `gctx.elem_dll` followed
along `next_p`, for at most `gctx.size` steps. -/
def PMVG_live_from : Nat → (Nat → PMVG) → Nat → List Nat
  | 0, _, _ => []
  | fuel + 1, gm, ep => if ep = 0 then [] else ep :: PMVG_live_from fuel gm (gm ep).next_p

/-- The live groups of the context `c`. -/
def PMVG_live (s : PMState) (c : Nat) : List Nat :=
  PMVG_live_from (s.cm c).gctx.size s.gm (s.cm c).gctx.elem_dll

/-- The membership invariant of the groups for the vertices `V` and the live
groups `live`: every vertex is listed exactly once in the member list of its
group `gp`, which is live and has the variant of the vertex, and in the member
list of no other live group. -/
def GroupInv (s : PMState) (V live : List Nat) : Prop :=
  ∀ v ∈ V, (s.vm v).gp ∈ live ∧ (s.gm (s.vm v).gp).cpmv.type = (s.vm v).type ∧
    (s.gm (s.vm v).gp).vpl.members.count v = 1 ∧
    ∀ g ∈ live, g ≠ (s.vm v).gp → v ∉ (s.gm g).vpl.members

/-- The invariant `GroupInv` as a test. -/
def GroupInv_test (s : PMState) (V live : List Nat) : Bool :=
  V.all fun v =>
    decide ((s.vm v).gp ∈ live) && decide ((s.gm (s.vm v).gp).cpmv.type = (s.vm v).type) &&
      decide ((s.gm (s.vm v).gp).vpl.members.count v = 1) &&
      live.all fun g => decide (g ≠ (s.vm v).gp → v ∉ (s.gm g).vpl.members)



/-! ## The arithmetic of `double`

The functions of this section round: they are used where a claim depends on
the rounding of IEEE-754 arithmetic (round to nearest, ties to even), which
the exact rational model of the sections above leaves out. A floating-point
format is given by its precision `p` (the number of bits of the significand)
and by `emin`, the exponent of its smallest positive (subnormal) value
`2^emin`: `double` is `p = 53`, `emin = -1074`; the `long double` of x86-64
is `p = 64`, `emin = -16445`. The overflow to infinity and NaN are not
modelled: a value beyond the largest finite number is rounded as if the
exponent range were unbounded above.

The GNU Scientific Library is not part of the repository. `gsl_stats_mean`
and `gsl_stats_sd_m` are modelled after the recurrences of its
implementation: both accumulate in `long double` and return a `double`. -/

/-- The index of the leading bit of `n` (the largest `e` with `2^e ≤ n`), 0
for `n < 2`; `fuel` bounds the number of halvings. -/
def ilog2_aux : Nat → Nat → Nat
  | 0, _ => 0
  | fuel + 1, n => if n < 2 then 0 else ilog2_aux fuel (n / 2) + 1

def ilog2 (n : Nat) : Nat := ilog2_aux n n

/-- The power `2^e` for an integer exponent. -/
def pow2 (e : Int) : ℚ :=
  if 0 ≤ e then ((2 ^ e.toNat : Nat) : ℚ) else 1 / ((2 ^ (-e).toNat : Nat) : ℚ)

/-- The absolute value. -/
def fabs (x : ℚ) : ℚ := if x < 0 then -x else x

/-- The exponent of `x ≠ 0`: the integer `e` with `2^e ≤ |x| < 2^(e+1)`. -/
def ilogb (x : ℚ) : Int :=
  let e0 : Int := (ilog2 x.num.natAbs : Int) - (ilog2 x.den : Int)
  if pow2 e0 ≤ fabs x then e0 else e0 - 1

/-- The value of the format `(p, emin)` nearest to `x`, the one with the even
significand if two are equally near. The spacing of the values around `x` is
`2^q` with `q = max (ilogb x - (p - 1)) emin`. -/
def fp_round (p : Nat) (emin : Int) (x : ℚ) : ℚ :=
  if x = 0 then 0
  else
    let q : Int := max (ilogb x - ((p : Int) - 1)) emin
    let s : ℚ := fabs x / pow2 q
    let n : Int := Rat.floor s
    let r : ℚ := s - (n : ℚ)
    let k : Int :=
      if r < 1 / 2 then n else if 1 / 2 < r then n + 1 else if n % 2 = 0 then n else n + 1
    (if x < 0 then -1 else 1) * (k : ℚ) * pow2 q

/-- The conversion to `double` and the rounding of a `double` operation. -/
def double_round (x : ℚ) : ℚ := fp_round 53 (-1074) x

/-- The rounding of a `long double` operation (x87 extended precision). -/
def long_double_round (x : ℚ) : ℚ := fp_round 64 (-16445) x

/-- The integer square root: the largest `r` with `r * r ≤ n`, found bit by
bit from the bit `i - 1` down, `r` being the bits found so far. -/
def isqrt_aux : Nat → Nat → Nat → Nat
  | 0, _, r => r
  | i + 1, n, r =>
    if (r + 2 ^ i) * (r + 2 ^ i) ≤ n then isqrt_aux i n (r + 2 ^ i) else isqrt_aux i n r

def isqrt (n : Nat) : Nat := isqrt_aux (ilog2 n / 2 + 1) n 0

/-- The function `sqrt` of the C library on a `double` `x ≥ 0`: the `double`
nearest to the square root (IEEE-754 requires the correctly rounded result).
The significand `n` is the integer part of the root of `x / 4^q`; the
remainder is compared with one half through the square of the midpoint. -/
def double_sqrt (x : ℚ) : ℚ :=
  if x ≤ 0 then 0
  else
    let q : Int := max (ilogb x / 2 - 52) (-1074)
    let n : Nat := isqrt (Rat.floor (x / (pow2 q * pow2 q))).toNat
    let mid : ℚ := ((n : ℚ) + 1 / 2) * pow2 q
    let k : Nat :=
      if x < mid * mid then n else if mid * mid < x then n + 1
      else if n % 2 = 0 then n else n + 1
    (k : ℚ) * pow2 q

/-- The loop of `gsl_stats_mean`: `mean += (data[i] - mean) / (i + 1)` on a
`long double`, from the index `i` on. -/
def gsl_stats_mean_loop : List ℚ → Nat → ℚ → ℚ
  | [], _, mean => mean
  | x :: data, i, mean =>
    gsl_stats_mean_loop data (i + 1)
      (long_double_round (mean +
        long_double_round (long_double_round (x - mean) / ((i : ℚ) + 1))))

/-- The value `gsl_stats_mean(data, 1, n)` returns: the running mean,
accumulated in `long double` and converted to `double`. -/
def gsl_stats_mean_double (data : List ℚ) : ℚ :=
  double_round (gsl_stats_mean_loop data 0 0)

/-- The loop of the variance of the library: `delta = data[i] - mean` (a
`double` subtraction), `variance += (delta * delta - variance) / (i + 1)` on a
`long double`. -/
def gsl_stats_variance_loop (mean : ℚ) : List ℚ → Nat → ℚ → ℚ
  | [], _, variance => variance
  | x :: data, i, variance =>
    let delta : ℚ := double_round (x - mean)
    gsl_stats_variance_loop mean data (i + 1)
      (long_double_round (variance +
        long_double_round
          (long_double_round (long_double_round (delta * delta) - variance) / ((i : ℚ) + 1))))

/-- The value `gsl_stats_sd_m(data, 1, n, mean)` returns for `n > 1`: the
variance loop returns a `double`, which is multiplied by the `double`
`n / (n - 1)`; the result is the square root of the product. -/
def gsl_stats_sd_m_double (data : List ℚ) (mean : ℚ) : ℚ :=
  let variance : ℚ := double_round (gsl_stats_variance_loop mean data 0 0)
  double_sqrt (double_round (variance *
    double_round ((data.length : ℚ) / ((data.length : ℚ) - 1))))

/-- The value `bad = stddev / mean` that `Buck_create` computes for the list
`reql` of doubles. -/
def Buck_bad_double (reql : List ℚ) : ℚ :=
  double_round
    ((if reql.length > 1 then gsl_stats_sd_m_double reql (gsl_stats_mean_double reql) else 0) /
      gsl_stats_mean_double reql)

/-- `Buck_create(reql, size, k)` in `double` arithmetic, with `fuel` bounding
the recursion depth: the function `Buck_create_aux` with the rounded mean,
standard deviation and quotient. The field `stddev` holds the standard
deviation. The result `some .NULL` is the returned null pointer, `none` is an
abort. -/
def Buck_create_double_aux : Nat → List ℚ → ℚ → Option Bucket
  | 0, _, _ => none
  | fuel + 1, reql, k =>
    if ¬ (k > 0) then none                      -- assert(k > 0.0)
    else if reql.length = 0 then none           -- assert(size)
    else
      let supremum := reql.getD (reql.length - 1) 0
      let mean := gsl_stats_mean_double reql
      if mean = 0 then some .NULL               -- goto buck_create_err
      else
        let stddev := if reql.length > 1 then gsl_stats_sd_m_double reql mean else 0
        let bad := double_round (stddev / mean)
        if bad > k then
          if ¬ (reql.length > 1) then none      -- assert(size > 1)
          else
            match bsearch_upbound mean reql with
            | none => none
            | some upbound =>
              if ¬ (upbound < reql.length) then none   -- assert(upbound < size)
              else
                match Buck_create_double_aux fuel (reql.take upbound) k with
                | none => none
                | some .NULL => some .NULL      -- if (!nbuckp->lowbp) goto buck_create_err
                | some (.node lm ls ld lsize ll lh) =>
                  match Buck_create_double_aux fuel (reql.drop upbound) k with
                  | none => none
                  -- the second test reads lowbp again, so a NULL highbp is
                  -- dereferenced by `nbuckp->highbp->size`
                  | some .NULL => none
                  | some (.node hm hs hd hsize hl hh) =>
                    some (.node mean supremum stddev (lsize + hsize)
                      (.node lm ls ld lsize ll lh) (.node hm hs hd hsize hl hh))
        else
          some (.node mean supremum stddev 1 .NULL .NULL)

/-- `Buck_create` in `double` arithmetic. A depth of `size` calls is never
exceeded: the lower list is strictly shorter, and the call for the upper list
is reached only if the lower list is not empty. -/
def Buck_create_double (reql : List ℚ) (k : ℚ) : Option Bucket :=
  Buck_create_double_aux reql.length reql k


/-! ### An example with wrappers for the search of a terminating subtree -/

/-- The tree the builder makes of a fork (the inosculation 50) whose parent
branch is the fork 1 and whose child branch is the segment 20 followed by the
fork 21, before `PMV_eval_r`. The parent branch of the fork 1 is the stem of
the segments 2, 3, 4; its child branch is the segment 6 followed by the fork 7
with the branches 8, 9 and 10, 11. The fork 21 has the branches 22, 23 and
24, 25. The vertex `a` is the one member of the group `100 + a`. -/
def pm_wraps_built : PMState :=
  { vm := fun a =>
      if a = 50 then pm_example_vertex PMV_insc 0 (PMVSlot.headp 1) 150 1 20
      else if a = 1 then pm_example_vertex PMV_insc 0 (PMVSlot.pp 50) 101 2 6
      else if a = 2 then pm_example_vertex PMV_seg 3 (PMVSlot.pp 1) 102 0 0
      else if a = 3 then pm_example_vertex PMV_seg 4 (PMVSlot.np 2) 103 0 0
      else if a = 4 then pm_example_vertex PMV_seg 0 (PMVSlot.np 3) 104 0 0
      else if a = 6 then pm_example_vertex PMV_seg 7 (PMVSlot.cp 1) 106 0 0
      else if a = 7 then pm_example_vertex PMV_insc 0 (PMVSlot.np 6) 107 8 10
      else if a = 8 then pm_example_vertex PMV_seg 9 (PMVSlot.pp 7) 108 0 0
      else if a = 9 then pm_example_vertex PMV_seg 0 (PMVSlot.np 8) 109 0 0
      else if a = 10 then pm_example_vertex PMV_seg 11 (PMVSlot.cp 7) 110 0 0
      else if a = 11 then pm_example_vertex PMV_seg 0 (PMVSlot.np 10) 111 0 0
      else if a = 20 then pm_example_vertex PMV_seg 21 (PMVSlot.cp 50) 120 0 0
      else if a = 21 then pm_example_vertex PMV_insc 0 (PMVSlot.np 20) 121 22 24
      else if a = 22 then pm_example_vertex PMV_seg 23 (PMVSlot.pp 21) 122 0 0
      else if a = 23 then pm_example_vertex PMV_seg 0 (PMVSlot.np 22) 123 0 0
      else if a = 24 then pm_example_vertex PMV_seg 25 (PMVSlot.cp 21) 124 0 0
      else if a = 25 then pm_example_vertex PMV_seg 0 (PMVSlot.np 24) 125 0 0
      else pmv_zero
    gm := fun g =>
      if g = 150 then pm_example_group 0 (ElemSlot.next_p 101) PMV_insc 0 50
      else if g = 101 then pm_example_group 150 (ElemSlot.next_p 102) PMV_insc 1 1
      else if g = 102 then pm_example_group 101 (ElemSlot.next_p 103) PMV_seg 2 2
      else if g = 103 then pm_example_group 102 (ElemSlot.next_p 104) PMV_seg 3 3
      else if g = 104 then pm_example_group 103 (ElemSlot.next_p 106) PMV_seg 4 4
      else if g = 106 then pm_example_group 104 (ElemSlot.next_p 107) PMV_seg 5 6
      else if g = 107 then pm_example_group 106 (ElemSlot.next_p 108) PMV_insc 6 7
      else if g = 108 then pm_example_group 107 (ElemSlot.next_p 109) PMV_seg 7 8
      else if g = 109 then pm_example_group 108 (ElemSlot.next_p 110) PMV_seg 8 9
      else if g = 110 then pm_example_group 109 (ElemSlot.next_p 111) PMV_seg 9 10
      else if g = 111 then pm_example_group 110 (ElemSlot.next_p 120) PMV_seg 10 11
      else if g = 120 then pm_example_group 111 (ElemSlot.next_p 121) PMV_seg 11 20
      else if g = 121 then pm_example_group 120 (ElemSlot.next_p 122) PMV_insc 12 21
      else if g = 122 then pm_example_group 121 (ElemSlot.next_p 123) PMV_seg 13 22
      else if g = 123 then pm_example_group 122 (ElemSlot.next_p 124) PMV_seg 14 23
      else if g = 124 then pm_example_group 123 (ElemSlot.next_p 125) PMV_seg 15 24
      else if g = 125 then pm_example_group 124 (ElemSlot.elem_dll 1) PMV_seg 16 25
      else pmvg_zero
    cm := fun _ =>
      { headp := 50, gctx := { elem_dll := 125, size := 17, gid_curr := 17 },
        pmvcnt := [13, 4, 0] } }

/-- The example after `PMV_eval_r(headp, 1)`. -/
def pm_wraps_eval : PMState :=
  { pm_wraps_built with
    vm := (PMV_eval_r 60 pm_wraps_built.vm 50 true).getD pm_wraps_built.vm }

/-- The example after `PMV_wrap_section(3, 4)`: the new wrapper 40, with the
new group 140, holds the end of the parent branch of the fork 1. -/
def pm_wraps_first : PMState :=
  ((PMV_wrap_section 0 60 pm_wraps_eval 3 4 40 140).map (fun r => r.1)).getD pm_wraps_eval

/-- The example after `PMV_wrap_section(10, 10)` in addition: the new wrapper
41 holds the first segment of the child branch of the fork 7. -/
def pm_wraps_second : PMState :=
  ((PMV_wrap_section 0 60 pm_wraps_first 10 10 41 141).map (fun r => r.1)).getD pm_wraps_first

/-- The example after `PMV_wrap_section(24, 24)` in addition: the new wrapper
42 holds the first segment of the child branch of the fork 21. -/
def pm_wraps : PMState :=
  ((PMV_wrap_section 0 60 pm_wraps_second 24 24 42 142).map (fun r => r.1)).getD pm_wraps_second

/-- The tree under the vertex 1 of `pm_wraps`, the haystack of the example. -/
def pm_wraps_haystack : VTree :=
  VTree.insc 1
    (VTree.seg 2 (VTree.wrap 40 (VTree.seg 3 (VTree.seg 4 VTree.nil)) VTree.nil))
    (VTree.seg 6
      (VTree.insc 7 (VTree.seg 8 (VTree.seg 9 VTree.nil))
        (VTree.wrap 41 (VTree.seg 10 VTree.nil) (VTree.seg 11 VTree.nil)) VTree.nil))
    VTree.nil

/-- The tree under the vertex 20 of `pm_wraps`, the needle of the example. -/
def pm_wraps_needle : VTree :=
  VTree.seg 20
    (VTree.insc 21 (VTree.seg 22 (VTree.seg 23 VTree.nil))
      (VTree.wrap 42 (VTree.seg 24 VTree.nil) (VTree.seg 25 VTree.nil)) VTree.nil)

/-! ## Theorems: bucket dictionary builder -/

theorem bsearch_upbound_aux_eq (n : ℚ) : ∀ (fuel : Nat) (list : List ℚ),
    bsearch_upbound_aux fuel n list = bsearch_first (fun x => decide (x > n)) fuel list := by
  intro fuel
  induction fuel with
  | zero => intro list; rfl
  | succ fuel ih =>
    intro list
    simp only [bsearch_upbound_aux, bsearch_first, ih, decide_eq_true_eq]

theorem bsearch_supremum_aux_eq (n : ℚ) : ∀ (fuel : Nat) (list : List ℚ),
    bsearch_supremum_aux fuel n list = bsearch_first (fun x => decide (x ≥ n)) fuel list := by
  intro fuel
  induction fuel with
  | zero => intro list; rfl
  | succ fuel ih =>
    intro list
    simp only [bsearch_supremum_aux, bsearch_first, ih, decide_eq_true_eq]

theorem bsearch_first_spec (p : ℚ → Bool) : ∀ (fuel : Nat) (l : List ℚ),
    l.length ≤ fuel → l ≠ [] →
    l.Pairwise (fun a b => p a = true → p b = true) →
    ∃ r, bsearch_first p fuel l = some r ∧ r ≤ l.length ∧
      (∀ x ∈ l.take r, p x = false) ∧ (∀ x ∈ l.drop r, p x = true) := by
  intro fuel
  induction fuel with
  | zero =>
    intro l hl hne
    exact absurd (List.length_eq_zero.mp (Nat.le_zero.mp hl)) hne
  | succ fuel ih =>
    intro l hl hne hp
    have hlen : l.length ≠ 0 := fun h => hne (List.length_eq_zero.mp h)
    unfold bsearch_first
    rw [if_neg hlen]
    by_cases h1 : l.length = 1
    · rw [if_pos h1]
      obtain ⟨a, rfl⟩ := List.length_eq_one.mp h1
      by_cases hpa : p a = true
      · refine ⟨0, by simp [hpa], by simp, by simp, by simpa using hpa⟩
      · refine ⟨1, by simp [hpa], by simp, by simpa using hpa, by simp⟩
    · rw [if_neg h1]
      have h2 : 2 ≤ l.length := by omega
      have hci0 : 0 < l.length / 2 := by omega
      have hci : l.length / 2 < l.length := by omega
      set ci := l.length / 2 with hcidef
      have hget : l.getD ci 0 = l[ci] := by
        simp [List.getD_eq_getElem?_getD, List.getElem?_eq_getElem hci]
      have hsplit : l = l.take ci ++ l[ci] :: l.drop (ci + 1) := by
        conv_lhs => rw [← List.take_append_drop ci l, List.drop_eq_getElem_cons hci]
      have hp' := hp
      rw [hsplit, List.pairwise_append, List.pairwise_cons] at hp'
      obtain ⟨hpl, ⟨hpc, hpr⟩, hplr⟩ := hp'
      simp only [hget]
      by_cases hpc' : p l[ci] = true
      · rw [if_pos hpc']
        have hne' : l.take ci ≠ [] := by
          intro h
          have := congrArg List.length h
          rw [List.length_take_of_le (Nat.le_of_lt hci), List.length_nil] at this
          omega
        obtain ⟨r, hr, hrle, hlow, hhigh⟩ :=
          ih (l.take ci) (Nat.le_trans (List.length_take_le ci l) (by omega)) hne' hpl
        have hrci : r ≤ ci := by
          rwa [List.length_take_of_le (Nat.le_of_lt hci)] at hrle
        refine ⟨r, hr, by omega, ?_, ?_⟩
        · intro x hx
          apply hlow
          rw [List.take_take, Nat.min_eq_left hrci]
          exact hx
        · intro x hx
          have hdrop : l.drop r = (l.take ci).drop r ++ l.drop ci := by
            conv_lhs => rw [← List.take_append_drop ci l]
            rw [List.drop_append_of_le_length (by simp; omega)]
          rw [hdrop, List.mem_append] at hx
          rcases hx with hx | hx
          · exact hhigh x hx
          · rw [List.drop_eq_getElem_cons hci, List.mem_cons] at hx
            rcases hx with rfl | hx
            · exact hpc'
            · exact hpc x hx hpc'
      · rw [if_neg hpc']
        have hne' : l.drop ci ≠ [] := by
          intro h
          have := congrArg List.length h
          rw [List.length_drop, List.length_nil] at this
          omega
        have hpd : (l.drop ci).Pairwise (fun a b => p a = true → p b = true) := by
          rw [List.drop_eq_getElem_cons hci]
          exact List.pairwise_cons.mpr ⟨hpc, hpr⟩
        obtain ⟨r, hr, hrle, hlow, hhigh⟩ :=
          ih (l.drop ci) (by rw [List.length_drop]; omega) hne' hpd
        refine ⟨ci + r, by simp [hr], by simp at hrle; omega, ?_, ?_⟩
        · intro x hx
          rw [List.take_add, List.mem_append] at hx
          rcases hx with hx | hx
          · have := hplr x hx l[ci] (List.mem_cons_self _ _)
            cases hpx : p x
            · rfl
            · exact absurd (this hpx) hpc'
          · exact hlow x hx
        · intro x hx
          apply hhigh
          rw [List.drop_drop]
          exact hx

/-- Fuel beyond the length of the list does not change the result of the
bisection: `list.length` calls always suffice. -/
theorem bsearch_first_fuel (p : ℚ → Bool) : ∀ (fuel fuel' : Nat) (l : List ℚ),
    l.length ≤ fuel → l.length ≤ fuel' →
    bsearch_first p fuel l = bsearch_first p fuel' l := by
  intro fuel
  induction fuel with
  | zero =>
    intro fuel' l h _
    have hl : l.length = 0 := Nat.le_zero.mp h
    cases fuel' with
    | zero => rfl
    | succ f => simp [bsearch_first, hl]
  | succ fuel ih =>
    intro fuel' l h h'
    cases fuel' with
    | zero =>
      have hl : l.length = 0 := Nat.le_zero.mp h'
      simp [bsearch_first, hl]
    | succ fuel' =>
      unfold bsearch_first
      by_cases h0 : l.length = 0
      · rw [if_pos h0, if_pos h0]
      rw [if_neg h0, if_neg h0]
      by_cases h1 : l.length = 1
      · rw [if_pos h1, if_pos h1]
      rw [if_neg h1, if_neg h1]
      have e1 := ih fuel' (l.take (l.length / 2))
        (Nat.le_trans (List.length_take_le _ _) (by omega))
        (Nat.le_trans (List.length_take_le _ _) (by omega))
      have e2 := ih fuel' (l.drop (l.length / 2))
        (by rw [List.length_drop]; omega) (by rw [List.length_drop]; omega)
      simp only [e1, e2]

theorem Built.ne_nil {k : ℚ} {reql : List ℚ} {b : Bucket} {rs : List (List ℚ)}
    (h : Built k reql b rs) : reql ≠ [] := by
  cases h with
  | leaf _ hne _ _ => exact hne
  | split _ u _ _ _ _ _ _ _ _ hu _ _ _ _ =>
    intro h0
    rw [h0] at hu
    exact absurd hu (Nat.not_lt_zero _)

theorem Built.size_eq {k : ℚ} {reql : List ℚ} {b : Bucket} {rs : List (List ℚ)}
    (h : Built k reql b rs) :
    b.size? = some b.leaves.length ∧ 1 ≤ b.leaves.length := by
  induction h with
  | leaf reql _ _ _ => simp [Bucket.size?, Bucket.leaves]
  | split reql u low high rl rh ls hs _ _ _ _ _ hls hhs ihl ihh =>
    obtain ⟨el, pl⟩ := ihl
    obtain ⟨eh, ph⟩ := ihh
    rw [hls] at el
    rw [hhs] at eh
    have el' : ls = low.leaves.length := Option.some.inj el
    have eh' : hs = high.leaves.length := Option.some.inj eh
    have : ls + hs > 1 := by omega
    simp only [Bucket.size?, Bucket.leaves, if_pos this, List.length_append]
    exact ⟨by rw [el', eh'], by omega⟩

theorem Buck_create_aux_nil (fuel : Nat) (k : ℚ) : Buck_create_aux fuel [] k = none := by
  cases fuel <;> simp [Buck_create_aux]

theorem Buck_create_aux_succ (fuel : Nat) (reql : List ℚ) (k : ℚ) :
    Buck_create_aux (fuel + 1) reql k =
      if ¬ (k > 0) then none
      else if reql.length = 0 then none
      else if gsl_stats_mean reql = 0 then some .NULL
      else if bad_gt (Buck_stddev reql) (gsl_stats_mean reql) k then
        if ¬ (reql.length > 1) then none
        else
          match bsearch_upbound (gsl_stats_mean reql) reql with
          | none => none
          | some upbound =>
            if ¬ (upbound < reql.length) then none
            else
              match Buck_create_aux fuel (reql.take upbound) k with
              | none => none
              | some .NULL => some .NULL
              | some (.node lm ls ld lsize ll lh) =>
                match Buck_create_aux fuel (reql.drop upbound) k with
                | none => none
                | some .NULL => none
                | some (.node hm hs hd hsize hl hh) =>
                  some (.node (gsl_stats_mean reql) (reql.getD (reql.length - 1) 0)
                    (Buck_stddev reql) (lsize + hsize)
                    (.node lm ls ld lsize ll lh) (.node hm hs hd hsize hl hh))
      else
        some (.node (gsl_stats_mean reql) (reql.getD (reql.length - 1) 0)
          (Buck_stddev reql) 1 .NULL .NULL) := by
  simp only [Buck_create_aux, Buck_stddev]

theorem Buck_create_aux_built (k : ℚ) : ∀ (fuel : Nat) (reql : List ℚ) (b : Bucket),
    Buck_create_aux fuel reql k = some b → b ≠ .NULL →
    ∃ rs, Built k reql b rs := by
  intro fuel
  induction fuel with
  | zero => intro reql b hb; simp [Buck_create_aux] at hb
  | succ fuel ih =>
    intro reql b hb hnn
    rw [Buck_create_aux_succ] at hb
    by_cases hk : k > 0
    swap
    · rw [if_pos hk] at hb; exact absurd hb (by simp)
    rw [if_neg (not_not.mpr hk)] at hb
    by_cases hlen : reql.length = 0
    · rw [if_pos hlen] at hb; exact absurd hb (by simp)
    rw [if_neg hlen] at hb
    by_cases hm : gsl_stats_mean reql = 0
    · rw [if_pos hm] at hb; exact absurd (Option.some.inj hb).symm hnn
    rw [if_neg hm] at hb
    have hne : reql ≠ [] := fun h => hlen (by rw [h]; rfl)
    by_cases hbad : bad_gt (Buck_stddev reql) (gsl_stats_mean reql) k = true
    · rw [if_pos hbad] at hb
      by_cases h1 : reql.length > 1
      swap
      · rw [if_pos h1] at hb; exact absurd hb (by simp)
      rw [if_neg (not_not.mpr h1)] at hb
      cases hu : bsearch_upbound (gsl_stats_mean reql) reql with
      | none => rw [hu] at hb; exact absurd hb (by simp)
      | some u =>
        rw [hu] at hb
        simp only at hb
        by_cases hul : u < reql.length
        swap
        · rw [if_pos hul] at hb; exact absurd hb (by simp)
        rw [if_neg (not_not.mpr hul)] at hb
        cases hl : Buck_create_aux fuel (reql.take u) k with
        | none => rw [hl] at hb; exact absurd hb (by simp)
        | some low =>
          rw [hl] at hb
          cases low with
          | NULL => exact absurd (Option.some.inj hb).symm hnn
          | node lm ls ld lsize ll lh =>
            simp only at hb
            cases hh : Buck_create_aux fuel (reql.drop u) k with
            | none => rw [hh] at hb; exact absurd hb (by simp)
            | some high =>
              rw [hh] at hb
              cases high with
              | NULL => exact absurd hb (by simp)
              | node hm' hs hd hsize hl' hh' =>
                simp only [Option.some.injEq] at hb
                subst hb
                obtain ⟨rl, hbl⟩ := ih _ _ hl (by simp)
                obtain ⟨rh, hbh⟩ := ih _ _ hh (by simp)
                exact ⟨rl ++ rh,
                  Built.split reql u _ _ rl rh lsize hsize hbad hu hul hbl hbh rfl rfl⟩
    · rw [if_neg hbad] at hb
      simp only [Option.some.injEq] at hb
      subst hb
      exact ⟨[reql], Built.leaf reql hne hm (by simpa using hbad)⟩

theorem Buck_create_aux_fuel (k : ℚ) : ∀ (fuel fuel' : Nat) (reql : List ℚ),
    reql.length ≤ fuel → reql.length ≤ fuel' →
    Buck_create_aux fuel reql k = Buck_create_aux fuel' reql k := by
  intro fuel
  induction fuel with
  | zero =>
    intro fuel' reql h _
    rw [List.length_eq_zero.mp (Nat.le_zero.mp h), Buck_create_aux_nil, Buck_create_aux_nil]
  | succ fuel ih =>
    intro fuel' reql h h'
    cases fuel' with
    | zero =>
      rw [List.length_eq_zero.mp (Nat.le_zero.mp h'), Buck_create_aux_nil, Buck_create_aux_nil]
    | succ fuel' =>
      rw [Buck_create_aux_succ, Buck_create_aux_succ]
      cases hu : bsearch_upbound (gsl_stats_mean reql) reql with
      | none => rfl
      | some u =>
        simp only
        by_cases hul : u < reql.length
        swap
        · rw [if_pos hul, if_pos hul]
        rw [if_neg (not_not.mpr hul), if_neg (not_not.mpr hul)]
        by_cases hu0 : u = 0
        · subst hu0
          simp only [List.take_zero, Buck_create_aux_nil]
        have e1 := ih fuel' (reql.take u)
          (Nat.le_trans (List.length_take_le u reql) (by omega))
          (Nat.le_trans (List.length_take_le u reql) (by omega))
        have e2 := ih fuel' (reql.drop u)
          (by rw [List.length_drop]; omega) (by rw [List.length_drop]; omega)
        rw [e1, e2]

theorem sum_le_length_mul (l : List ℚ) (b : ℚ) (h : ∀ x ∈ l, x ≤ b) :
    l.sum ≤ (l.length : ℚ) * b := by
  induction l with
  | nil => simp
  | cons a t ih =>
    have h1 := h a (List.mem_cons_self _ _)
    have h2 := ih (fun x hx => h x (List.mem_cons_of_mem _ hx))
    simp only [List.sum_cons, List.length_cons, Nat.cast_add, Nat.cast_one]
    linarith

theorem length_mul_le_sum (l : List ℚ) (a : ℚ) (h : ∀ x ∈ l, a ≤ x) :
    (l.length : ℚ) * a ≤ l.sum := by
  induction l with
  | nil => simp
  | cons c t ih =>
    have h1 := h c (List.mem_cons_self _ _)
    have h2 := ih (fun x hx => h x (List.mem_cons_of_mem _ hx))
    simp only [List.sum_cons, List.length_cons, Nat.cast_add, Nat.cast_one]
    linarith

theorem length_pos_rat {l : List ℚ} (h : l ≠ []) : (0 : ℚ) < (l.length : ℚ) := by
  have : 0 < l.length := List.length_pos.mpr h
  exact_mod_cast this

theorem le_gsl_stats_mean (l : List ℚ) (a : ℚ) (hne : l ≠ []) (h : ∀ x ∈ l, a ≤ x) :
    a ≤ gsl_stats_mean l := by
  unfold gsl_stats_mean
  rw [le_div_iff₀ (length_pos_rat hne)]
  have := length_mul_le_sum l a h
  linarith

theorem sorted_head_le (l : List ℚ) (hs : l.Sorted (· ≤ ·)) (hne : l ≠ []) :
    ∃ a ∈ l, ∀ x ∈ l, a ≤ x := by
  cases l with
  | nil => exact absurd rfl hne
  | cons a t =>
    refine ⟨a, List.mem_cons_self _ _, ?_⟩
    intro x hx
    rcases List.mem_cons.mp hx with rfl | hx
    · exact le_refl _
    · exact List.rel_of_sorted_cons hs x hx

/-- On an ascending list `bsearch_upbound` finds the split point. -/
theorem bsearch_upbound_sorted (n : ℚ) (l : List ℚ) (hs : l.Sorted (· ≤ ·)) (hne : l ≠ []) :
    ∃ u, bsearch_upbound n l = some u ∧ u ≤ l.length ∧
      (∀ x ∈ l.take u, x ≤ n) ∧ (∀ x ∈ l.drop u, n < x) := by
  have hp : l.Pairwise (fun a b => (fun x => decide (x > n)) a = true →
      (fun x => decide (x > n)) b = true) := by
    refine List.Pairwise.imp ?_ hs
    intro a b hab ha
    simp only [decide_eq_true_eq] at ha ⊢
    exact lt_of_lt_of_le ha hab
  obtain ⟨r, hr, hle, hlow, hhigh⟩ :=
    bsearch_first_spec (fun x => decide (x > n)) l.length l (le_refl _) hne hp
  refine ⟨r, by rw [bsearch_upbound, bsearch_upbound_aux_eq]; exact hr, hle, ?_, ?_⟩
  · intro x hx
    have := hlow x hx
    simpa using this
  · intro x hx
    have := hhigh x hx
    simpa using this

/-- On an ascending list `bsearch_supremum` finds the lower bound. -/
theorem bsearch_supremum_sorted (n : ℚ) (l : List ℚ) (hs : l.Sorted (· ≤ ·)) (hne : l ≠ []) :
    ∃ u, bsearch_supremum n l = some u ∧ u ≤ l.length ∧
      (∀ x ∈ l.take u, x < n) ∧ (∀ x ∈ l.drop u, n ≤ x) := by
  have hp : l.Pairwise (fun a b => (fun x => decide (x ≥ n)) a = true →
      (fun x => decide (x ≥ n)) b = true) := by
    refine List.Pairwise.imp ?_ hs
    intro a b hab ha
    simp only [decide_eq_true_eq] at ha ⊢
    exact le_trans ha hab
  obtain ⟨r, hr, hle, hlow, hhigh⟩ :=
    bsearch_first_spec (fun x => decide (x ≥ n)) l.length l (le_refl _) hne hp
  refine ⟨r, by rw [bsearch_supremum, bsearch_supremum_aux_eq]; exact hr, hle, ?_, ?_⟩
  · intro x hx
    have := hlow x hx
    simpa using this
  · intro x hx
    have := hhigh x hx
    simpa using this

theorem Buck_create_built (reql : List ℚ) (k : ℚ) (b : Bucket)
    (h : Buck_create reql k = some b) (hnn : b ≠ .NULL) : ∃ rs, Built k reql b rs :=
  Buck_create_aux_built k reql.length reql b h hnn

theorem int_of_unsigned_of_lt (u : Nat) (h : u < 2147483648) : int_of_unsigned u = (u : Int) := by
  unfold int_of_unsigned
  have hmod : u % 4294967296 = u := Nat.mod_eq_of_lt (by omega)
  rw [hmod, if_pos h]

/-- The lower-bound search over the first `size` suprema of a dictionary whose
suprema increase strictly. -/
theorem TCDict_key_from_val_spec (d : TCDict) (v : ℚ) (hsize : 1 ≤ d.size)
    (hlen : d.size ≤ d.supremum_l.length)
    (hinc : ∀ i j, i < j → j < d.size → d.supremum_l.getD i 0 < d.supremum_l.getD j 0) :
    ∃ u, u ≤ d.size ∧
      TCDict_key_from_val d v =
        some (if u = d.size then TCKey_INVALID else int_of_unsigned u) ∧
      (∀ i, i < u → d.supremum_l.getD i 0 < v) ∧
      (∀ i, u ≤ i → i < d.size → v ≤ d.supremum_l.getD i 0) := by
  set l := d.supremum_l.take d.size with hl
  have hll : l.length = d.size := List.length_take_of_le hlen
  have hget : ∀ i (hi : i < l.length), l[i] = d.supremum_l.getD i 0 := by
    intro i hi
    rw [List.getD_eq_getElem _ _ (by omega)]
    exact List.getElem_take _
  have hsorted : l.Sorted (· ≤ ·) := by
    refine List.pairwise_iff_getElem.mpr ?_
    intro i j hi hj hij
    rw [hget i hi, hget j hj]
    exact le_of_lt (hinc i j hij (by omega))
  have hne : l ≠ [] := List.ne_nil_of_length_pos (by omega)
  obtain ⟨u, hu, hule, hlow, hhigh⟩ := bsearch_supremum_sorted v l hsorted hne
  refine ⟨u, by omega, ?_, ?_, ?_⟩
  · unfold TCDict_key_from_val
    rw [if_neg (by omega), ← hl, hu]
    simp only
    split <;> rfl
  · intro i hi
    rw [← hget i (by omega)]
    exact hlow _ (List.mem_take_iff_getElem.mpr
      ⟨i, by rw [Nat.min_eq_left hule]; exact hi, rfl⟩)
  · intro i hui hi
    rw [← hget i (by omega)]
    refine hhigh _ (List.mem_drop_iff_getElem.mpr ⟨i - u, by omega, ?_⟩)
    congr 1
    omega

/-- The rational test `bad_gt` is the test `stddev / mean > k` of the source,
with `stddev` the real square root of the variance. -/
theorem bad_gt_iff (var mean k : ℚ) (hk : 0 < k) (hm : mean ≠ 0) :
    bad_gt var mean k = true ↔ (k : ℝ) < Real.sqrt (var : ℝ) / (mean : ℝ) := by
  unfold bad_gt
  rw [decide_eq_true_eq]
  rcases lt_or_gt_of_ne hm with hneg | hpos
  · constructor
    · intro h
      exact absurd h.1 (not_lt.mpr (le_of_lt hneg))
    · intro h
      have hm' : ((mean : ℚ) : ℝ) < 0 := by exact_mod_cast hneg
      have hk' : (0 : ℝ) < (k : ℝ) := by exact_mod_cast hk
      have : Real.sqrt (var : ℝ) / (mean : ℝ) ≤ 0 :=
        div_nonpos_iff.mpr (Or.inl ⟨Real.sqrt_nonneg _, le_of_lt hm'⟩)
      linarith
  · have hm' : (0 : ℝ) < ((mean : ℚ) : ℝ) := by exact_mod_cast hpos
    have hk' : (0 : ℝ) < (k : ℝ) := by exact_mod_cast hk
    rw [lt_div_iff₀ hm', Real.lt_sqrt (le_of_lt (mul_pos hk' hm'))]
    constructor
    · intro h
      have := h.2
      exact_mod_cast this
    · intro h
      refine ⟨hpos, ?_⟩
      exact_mod_cast h

theorem Built.runs_props {k : ℚ} {reql : List ℚ} {b : Bucket} {rs : List (List ℚ)}
    (h : Built k reql b rs) :
    rs.flatten = reql ∧
    b.leaves = rs.map (fun r => (gsl_stats_mean r, r.getD (r.length - 1) 0)) ∧
    ∀ r ∈ rs, r ≠ [] ∧ gsl_stats_mean r ≠ 0 ∧
      bad_gt (Buck_stddev r) (gsl_stats_mean r) k = false := by
  induction h with
  | leaf reql hne hm hbad =>
    simp only [Bucket.leaves, gt_iff_lt, lt_self_iff_false, if_false, List.flatten_cons,
      List.flatten_nil, List.append_nil, List.map_cons, List.map_nil, List.mem_singleton,
      forall_eq, true_and]
    exact ⟨hne, hm, hbad⟩
  | split reql u low high rl rh ls hs _ _ _ hbl hbh hls hhs ihl ihh =>
    obtain ⟨el, pl⟩ := hbl.size_eq
    obtain ⟨eh, ph⟩ := hbh.size_eq
    rw [hls] at el
    rw [hhs] at eh
    have el' : ls = low.leaves.length := Option.some.inj el
    have eh' : hs = high.leaves.length := Option.some.inj eh
    have hgt : ls + hs > 1 := by omega
    obtain ⟨jl, ll, pl'⟩ := ihl
    obtain ⟨jh, lh, ph'⟩ := ihh
    refine ⟨?_, ?_, ?_⟩
    · rw [List.flatten_append, jl, jh, List.take_append_drop]
    · simp only [Bucket.leaves, if_pos hgt, List.map_append, ll, lh]
    · intro r hr
      rcases List.mem_append.mp hr with hr | hr
      · exact pl' r hr
      · exact ph' r hr

theorem gsl_stats_variance_m_nonneg (l : List ℚ) (m : ℚ) (hne : l ≠ []) :
    0 ≤ gsl_stats_variance_m l m := by
  unfold gsl_stats_variance_m
  apply div_nonneg
  · apply List.sum_nonneg
    intro x hx
    obtain ⟨y, _, rfl⟩ := List.mem_map.mp hx
    exact sq_nonneg _
  · have : 1 ≤ l.length := List.length_pos.mpr hne
    have : (1 : ℚ) ≤ (l.length : ℚ) := by exact_mod_cast this
    linarith

/-- C4: in a dictionary of size at least 1 (and at most 2^31, so that every
index is a `TCKey`) whose suprema increase strictly, `TCDict_key_from_val(v)`
is the smallest index `i` with `supremum[i] >= v`, and it is `TCKey_INVALID`
(-1) exactly when `v > supremum[size-1]`. -/
theorem TCDict_key_from_val_lower_bound (d : TCDict) (v : ℚ) (hsize : 1 ≤ d.size)
    (hmax : d.size ≤ 2147483648) (hlen : d.size ≤ d.supremum_l.length)
    (hinc : ∀ i j, i < j → j < d.size → d.supremum_l.getD i 0 < d.supremum_l.getD j 0) :
    ∃ key : TCKey, TCDict_key_from_val d v = some key ∧
      (key = TCKey_INVALID ↔ v > d.supremum_l.getD (d.size - 1) 0) ∧
      (key ≠ TCKey_INVALID →
        0 ≤ key ∧ key.toNat < d.size ∧ v ≤ d.supremum_l.getD key.toNat 0 ∧
        ∀ j, j < key.toNat → d.supremum_l.getD j 0 < v) := by
  obtain ⟨u, hule, hkey, hlow, hhigh⟩ := TCDict_key_from_val_spec d v hsize hlen hinc
  refine ⟨_, hkey, ?_, ?_⟩
  · by_cases hu : u = d.size
    · rw [if_pos hu]
      simp only [true_iff]
      exact hlow (d.size - 1) (by omega)
    · rw [if_neg hu, int_of_unsigned_of_lt u (by omega)]
      have h1 : ((u : Int) = TCKey_INVALID) ↔ False := by
        unfold TCKey_INVALID
        constructor
        · intro h; omega
        · intro h; exact absurd h id
      rw [h1, false_iff, not_lt]
      exact hhigh (d.size - 1) (by omega) (by omega)
  · by_cases hu : u = d.size
    · rw [if_pos hu]
      intro h
      exact absurd rfl h
    · rw [if_neg hu, int_of_unsigned_of_lt u (by omega)]
      intro _
      refine ⟨Int.ofNat_nonneg u, ?_, ?_, ?_⟩
      · rw [Int.toNat_ofNat]; omega
      · rw [Int.toNat_ofNat]; exact hhigh u (le_refl _) (by omega)
      · rw [Int.toNat_ofNat]; exact hlow

theorem TCDict_key_from_val_lower_bound_witness :
    ∃ key : TCKey, TCDict_key_from_val ⟨[1, 10], [1, 10], 2⟩ 2 = some key ∧
      (key = TCKey_INVALID ↔ (2 : ℚ) > ([1, 10] : List ℚ).getD (2 - 1) 0) ∧
      (key ≠ TCKey_INVALID →
        0 ≤ key ∧ key.toNat < 2 ∧ (2 : ℚ) ≤ ([1, 10] : List ℚ).getD key.toNat 0 ∧
        ∀ j, j < key.toNat → ([1, 10] : List ℚ).getD j 0 < 2) :=
  TCDict_key_from_val_lower_bound ⟨[1, 10], [1, 10], 2⟩ 2 (by decide) (by decide) (by decide)
    (by
      intro i j hij hj
      have hj' : j = 1 := by
        have : j < 2 := hj
        omega
      have hi' : i = 0 := by omega
      subst hj' hi'
      decide!)

/-- In exact arithmetic (the rational model `Buck_create`) the leaves of the
tree built over a non-empty ascending list with `k > 0` are, from low to high,
the buckets of consecutive runs whose concatenation is the input, and each run
has exactly one element or a sample standard deviation over mean of at most
`k`. In `double` arithmetic the bound holds for the computed quotient only
(`Buck_create_double`). -/
theorem Buck_create_leaves_partition (v : List ℚ) (k : ℚ) (b : Bucket)
    (_hne : v ≠ []) (_hs : v.Sorted (· ≤ ·)) (hk : 0 < k)
    (h : Buck_create v k = some b) (hnn : b ≠ .NULL) :
    ∃ runs : List (List ℚ), runs.flatten = v ∧ (∀ r ∈ runs, r ≠ []) ∧
      b.leaves = runs.map (fun r => (gsl_stats_mean r, r.getD (r.length - 1) 0)) ∧
      ∀ r ∈ runs, r.length = 1 ∨
        Real.sqrt ((gsl_stats_variance_m r (gsl_stats_mean r) : ℚ) : ℝ) /
          ((gsl_stats_mean r : ℚ) : ℝ) ≤ (k : ℝ) := by
  obtain ⟨rs, hbuilt⟩ := Buck_create_built v k b h hnn
  obtain ⟨hj, hl, hr⟩ := hbuilt.runs_props
  refine ⟨rs, hj, fun r hmem => (hr r hmem).1, hl, ?_⟩
  intro r hmem
  obtain ⟨hrne, hm, hbad⟩ := hr r hmem
  by_cases h1 : r.length > 1
  · right
    have hbad' : ¬ bad_gt (gsl_stats_variance_m r (gsl_stats_mean r)) (gsl_stats_mean r) k
        = true := by
      have : Buck_stddev r = gsl_stats_variance_m r (gsl_stats_mean r) := by
        unfold Buck_stddev
        rw [if_pos h1]
      rw [this] at hbad
      rw [hbad]
      exact Bool.false_ne_true
    rw [bad_gt_iff _ _ _ hk hm] at hbad'
    exact not_lt.mp hbad'
  · left
    have : 0 < r.length := List.length_pos.mpr hrne
    omega

theorem Buck_create_leaves_partition_witness :
    ∃ runs : List (List ℚ), runs.flatten = [1, 1, 1, 10, 10, 10] ∧ (∀ r ∈ runs, r ≠ []) ∧
      (Bucket.node (11 / 2) 10 (243 / 10) 2
        (.node 1 1 0 1 .NULL .NULL) (.node 10 10 0 1 .NULL .NULL)).leaves =
        runs.map (fun r => (gsl_stats_mean r, r.getD (r.length - 1) 0)) ∧
      ∀ r ∈ runs, r.length = 1 ∨
        Real.sqrt ((gsl_stats_variance_m r (gsl_stats_mean r) : ℚ) : ℝ) /
          ((gsl_stats_mean r : ℚ) : ℝ) ≤ ((1 / 10 : ℚ) : ℝ) :=
  Buck_create_leaves_partition [1, 1, 1, 10, 10, 10] (1 / 10)
    (.node (11 / 2) 10 (243 / 10) 2 (.node 1 1 0 1 .NULL .NULL) (.node 10 10 0 1 .NULL .NULL))
    (by simp) (by decide!) (by norm_num) (by decide!) (by simp)

/-- C7, counterexample: the single weight 0 has mean 0, `Buck_create` returns
NULL and the build fails, for `k = 1/10` and `M = 1`. -/
theorem TCDict_init_single_zero_fails :
    (0 : ℚ) ≥ 0 ∧ (1 / 10 : ℚ) > 0 ∧ 1 ≥ 1 ∧
    Buck_create [0] (1 / 10) = some .NULL ∧
    TCDict_init ⟨[], [], 0⟩ [0] (1 / 10) 1 = none := by
  refine ⟨le_refl _, by norm_num, le_refl _, by decide!, by decide!⟩

/-- C7, amended: for a single weight `v0 > 0`, every `k > 0` and every
`M >= 1` the build succeeds with exactly one bucket, `mean = supremum = v0`
and size 1. -/
theorem TCDict_init_single_pos (t : TCDict) (v0 k : ℚ) (M : Nat)
    (hv : 0 < v0) (hk : 0 < k) (hM : 1 ≤ M) :
    Buck_create [v0] k = some (.node v0 v0 0 1 .NULL .NULL) ∧
    TCDict_init t [v0] k M = some ⟨[v0], [v0], 1⟩ := by
  have hb : Buck_create [v0] k = some (.node v0 v0 0 1 .NULL .NULL) := by
    unfold Buck_create
    simp only [List.length_singleton]
    rw [Buck_create_aux_succ]
    have hmean : gsl_stats_mean [v0] = v0 := by
      simp [gsl_stats_mean]
    have hsd : Buck_stddev [v0] = 0 := by
      simp [Buck_stddev]
    have hbad : bad_gt 0 v0 k = false := by
      unfold bad_gt
      rw [decide_eq_false_iff_not]
      intro hh
      exact absurd hh.2 (not_lt.mpr (sq_nonneg _))
    rw [if_neg (not_not.mpr hk), if_neg (by simp), hmean, if_neg (ne_of_gt hv), hsd, hbad]
    simp
  refine ⟨hb, ?_⟩
  unfold TCDict_init
  rw [if_neg (by simp), hb]
  simp only
  rw [if_neg (by omega)]
  simp [Buck_to_dict]

theorem TCDict_init_single_pos_witness :
    Buck_create [3] (1 / 10) = some (.node 3 3 0 1 .NULL .NULL) ∧
    TCDict_init ⟨[], [], 0⟩ [3] (1 / 10) 1 = some ⟨[3], [3], 1⟩ :=
  TCDict_init_single_pos ⟨[], [], 0⟩ 3 (1 / 10) 1 (by norm_num) (by norm_num) (le_refl _)

/-- C8: from `[1,1,1,10,10,10]` with `k = 0.1` and `M >= 2` the build gives
size 2, `supremum = [1,10]` and `mean = [1,10]`; then the keys of 1, 10 and 2
are 0, 1 and 1. -/
theorem TCDict_init_example_split (t : TCDict) (M : Nat) (hM : 2 ≤ M) :
    TCDict_init t [1, 1, 1, 10, 10, 10] (1 / 10) M = some ⟨[1, 10], [1, 10], 2⟩ ∧
    TCDict_key_from_val ⟨[1, 10], [1, 10], 2⟩ 1 = some 0 ∧
    TCDict_key_from_val ⟨[1, 10], [1, 10], 2⟩ 10 = some 1 ∧
    TCDict_key_from_val ⟨[1, 10], [1, 10], 2⟩ 2 = some 1 := by
  refine ⟨?_, by decide!, by decide!, by decide!⟩
  have hb : Buck_create [1, 1, 1, 10, 10, 10] (1 / 10) =
      some (.node (11 / 2) 10 (243 / 10) 2
        (.node 1 1 0 1 .NULL .NULL) (.node 10 10 0 1 .NULL .NULL)) := by decide!
  have hd : Buck_to_dict (.node (11 / 2) 10 (243 / 10) 2
        (.node 1 1 0 1 .NULL .NULL) (.node 10 10 0 1 .NULL .NULL)) 0
        (List.replicate 2 0, List.replicate 2 0) = some ([1, 10], [1, 10]) := by decide!
  unfold TCDict_init
  rw [if_neg (by simp), hb]
  simp only
  rw [if_neg (by omega), hd]

theorem TCDict_init_example_split_witness :
    TCDict_init ⟨[], [], 0⟩ [1, 1, 1, 10, 10, 10] (1 / 10) 2 = some ⟨[1, 10], [1, 10], 2⟩ ∧
    TCDict_key_from_val ⟨[1, 10], [1, 10], 2⟩ 1 = some 0 ∧
    TCDict_key_from_val ⟨[1, 10], [1, 10], 2⟩ 10 = some 1 ∧
    TCDict_key_from_val ⟨[1, 10], [1, 10], 2⟩ 2 = some 1 :=
  TCDict_init_example_split ⟨[], [], 0⟩ 2 (le_refl _)

/-! ## Theorems: task segments -/

/-- C9, failing input: the segments `calc(2)` and `calc(2), com(7)` are not
similar in the sense of the specification (their com counts are 0 and 1), yet
`TaskSegRaw_compar` returns 1 for them: the calc standard deviations are both
zero and `return fmin == fmax` leaves the function before the com type and
the type sequences are looked at. -/
theorem TaskSegRaw_compar_returns_early :
    TaskSegRaw_compar ⟨5 / 4, 5 / 4⟩ seg_calc2 seg_calc2_com7 = 1 ∧
    TSR_size seg_calc2 TSTT_com = 0 ∧ TSR_size seg_calc2_com7 TSTT_com = 1 ∧
    ¬ TaskSegRaw_similar ⟨5 / 4, 5 / 4⟩ seg_calc2 seg_calc2_com7 := by
  refine ⟨by decide!, by decide, by decide, ?_⟩
  intro h
  have := (h.1 TSTT_com (by decide)).1
  exact absurd this (by decide)

theorem TaskSegBuck_compar_loop_spec : ∀ (fuel : Nat) (seg1 seg2 : arll Nat),
    seg1.blk_cnt = seg2.blk_cnt → seg1.blk_curi = seg2.blk_curi →
    seg1.blk_curi ≤ seg1.blk_cnt →
    seg1.blk_cnt ≤ seg1.blk_l.length → seg2.blk_cnt ≤ seg2.blk_l.length →
    seg1.blk_cnt - seg1.blk_curi < fuel →
    ∃ r seg1' seg2', TaskSegBuck_compar_loop fuel seg1 seg2 = some (r, seg1', seg2') ∧
      (r = 0 ∨ r = 1) ∧
      (r = 1 ↔ ∀ i, seg1.blk_curi ≤ i → i < seg1.blk_cnt →
        seg1.blk_l[i]? = seg2.blk_l[i]?) := by
  intro fuel
  induction fuel with
  | zero => intro _ _ _ _ _ _ _ h; exact absurd h (Nat.not_lt_zero _)
  | succ fuel ih =>
    intro seg1 seg2 hcnt hcur hle hl1 hl2 hfuel
    unfold TaskSegBuck_compar_loop
    by_cases hend : seg1.blk_curi = seg1.blk_cnt
    · have e1 : arll_next seg1 = (none, seg1) := by
        unfold arll_next
        rw [if_pos hend]
      rw [e1]
      refine ⟨1, seg1, seg2, rfl, Or.inr rfl, ?_⟩
      simp only [true_iff]
      intro i h1 h2
      omega
    · have hlt : seg1.blk_curi < seg1.blk_l.length := by omega
      have hlt2 : seg2.blk_curi < seg2.blk_l.length := by omega
      have e1 : arll_next seg1 =
          (some seg1.blk_l[seg1.blk_curi], { seg1 with blk_curi := seg1.blk_curi + 1 }) := by
        unfold arll_next
        rw [if_neg hend, List.getElem?_eq_getElem hlt]
      have hend2 : ¬ seg2.blk_curi = seg2.blk_cnt := by omega
      have e2 : arll_next seg2 =
          (some seg2.blk_l[seg2.blk_curi], { seg2 with blk_curi := seg2.blk_curi + 1 }) := by
        unfold arll_next
        rw [if_neg hend2, List.getElem?_eq_getElem hlt2]
      rw [e1]
      simp only
      rw [e2]
      simp only
      by_cases hne : seg1.blk_l[seg1.blk_curi] ≠ seg2.blk_l[seg2.blk_curi]
      · rw [if_pos hne]
        refine ⟨0, _, _, rfl, Or.inl rfl, ?_⟩
        constructor
        · intro h; exact absurd h (by decide)
        · intro h
          have := h seg1.blk_curi (le_refl _) (by omega)
          rw [List.getElem?_eq_getElem hlt, List.getElem?_eq_getElem (by omega)] at this
          have heq := Option.some.inj this
          simp only [hcur] at heq hne
          exact absurd heq hne
      · rw [if_neg hne]
        have heq := not_not.mp hne
        obtain ⟨r, s1', s2', hr, h01, hiff⟩ :=
          ih { seg1 with blk_curi := seg1.blk_curi + 1 }
            { seg2 with blk_curi := seg2.blk_curi + 1 }
            hcnt (by simp only; omega) (by simp only; omega) hl1 hl2 (by simp only; omega)
        refine ⟨r, s1', s2', hr, h01, ?_⟩
        rw [hiff]
        simp only
        constructor
        · intro h i h1 h2
          by_cases hi : i = seg1.blk_curi
          · subst hi
            rw [List.getElem?_eq_getElem hlt, List.getElem?_eq_getElem (by omega)]
            simp only [hcur] at heq ⊢
            rw [heq]
          · exact h i (by omega) h2
        · intro h i h1 h2
          exact h i (by omega) h2

/-- C10: `TaskSegBuck_compar(a, b)` returns 1 exactly when `a` and `b` have the
same calc dictionary and the same com dictionary, letter lists of equal
length, and equal 16-bit letters at every position; otherwise it returns 0. -/
theorem TaskSegBuck_compar_iff (mem : Nat → TaskSegBuck) (a b : Nat)
    (ha : (mem a).seg.blk_cnt ≤ (mem a).seg.blk_l.length)
    (hb : (mem b).seg.blk_cnt ≤ (mem b).seg.blk_l.length) :
    ∃ r mem', TaskSegBuck_compar mem a b = some (r, mem') ∧ (r = 0 ∨ r = 1) ∧
      (r = 1 ↔
        idx2 (mem a).dictp TSTT_calc = idx2 (mem b).dictp TSTT_calc ∧
        idx2 (mem a).dictp TSTT_com = idx2 (mem b).dictp TSTT_com ∧
        arll_len (mem a).seg = arll_len (mem b).seg ∧
        ∀ i, i < arll_len (mem a).seg →
          (mem a).seg.blk_l[i]? = (mem b).seg.blk_l[i]?) := by
  unfold TaskSegBuck_compar
  by_cases hab : a = b
  · subst hab
    rw [if_pos rfl]
    exact ⟨1, mem, rfl, Or.inr rfl, by simp⟩
  rw [if_neg hab]
  by_cases h1 : idx2 (mem a).dictp TSTT_calc ≠ idx2 (mem b).dictp TSTT_calc
  · rw [if_pos h1]
    refine ⟨0, mem, rfl, Or.inl rfl, ?_⟩
    constructor
    · intro h; exact absurd h (by decide)
    · intro h; exact absurd h.1 h1
  rw [if_neg h1]
  by_cases h2 : idx2 (mem a).dictp TSTT_com ≠ idx2 (mem b).dictp TSTT_com
  · rw [if_pos h2]
    refine ⟨0, mem, rfl, Or.inl rfl, ?_⟩
    constructor
    · intro h; exact absurd h (by decide)
    · intro h; exact absurd h.2.1 h2
  rw [if_neg h2]
  by_cases h3 : arll_len (mem a).seg ≠ arll_len (mem b).seg
  · rw [if_pos h3]
    refine ⟨0, mem, rfl, Or.inl rfl, ?_⟩
    constructor
    · intro h; exact absurd h (by decide)
    · intro h; exact absurd h.2.2.1 h3
  rw [if_neg h3]
  have h1' := not_not.mp h1
  have h2' := not_not.mp h2
  have h3' := not_not.mp h3
  obtain ⟨r, s1', s2', hr, h01, hiff⟩ :=
    TaskSegBuck_compar_loop_spec ((mem a).seg.blk_cnt + 1)
      (arll_rewind (mem a).seg) (arll_rewind (mem b).seg)
      h3' rfl (Nat.zero_le _) ha hb (by simp [arll_rewind])
  rw [hr]
  refine ⟨r, _, rfl, h01, ?_⟩
  rw [hiff]
  simp only [arll_rewind, arll_len] at h3' ⊢
  constructor
  · intro h
    exact ⟨h1', h2', h3', fun i hi => h i (Nat.zero_le _) hi⟩
  · intro h i _ hi
    exact h.2.2.2 i hi

theorem TaskSegBuck_compar_iff_witness :
    ∃ r mem', TaskSegBuck_compar (fun _ => seg_buck_example) 0 1 = some (r, mem') ∧
      (r = 0 ∨ r = 1) ∧
      (r = 1 ↔
        idx2 seg_buck_example.dictp TSTT_calc = idx2 seg_buck_example.dictp TSTT_calc ∧
        idx2 seg_buck_example.dictp TSTT_com = idx2 seg_buck_example.dictp TSTT_com ∧
        arll_len seg_buck_example.seg = arll_len seg_buck_example.seg ∧
        ∀ i, i < arll_len seg_buck_example.seg →
          seg_buck_example.seg.blk_l[i]? = seg_buck_example.seg.blk_l[i]?) :=
  TaskSegBuck_compar_iff (fun _ => seg_buck_example) 0 1 (by decide) (by decide)

/-! ## Theorems: raw segment put and iteration -/

theorem idx2_set2_same {α : Type} (a : α × α) (i : Nat) (x : α) :
    idx2 (set2 a i x) i = x := by
  unfold idx2 set2
  by_cases h : i = 0 <;> simp [h]

theorem idx2_set2_other {α : Type} (a : α × α) (i j : Nat) (x : α)
    (hi : i < TSTT_enumsize) (hj : j < TSTT_enumsize) (hij : i ≠ j) :
    idx2 (set2 a i x) j = idx2 a j := by
  unfold TSTT_enumsize at hi hj
  unfold idx2 set2
  by_cases h : i = 0
  · have : j ≠ 0 := by omega
    simp [h, this]
  · have : j = 0 := by omega
    simp [h, this]

theorem length_realloc_cells {α : Type} (junk : α) (l : List α) (n : Nat) :
    (realloc_cells junk l n).length = n := by
  unfold realloc_cells
  rw [List.length_append, List.length_replicate]
  by_cases h : n ≤ l.length
  · rw [List.length_take_of_le h]; omega
  · rw [List.take_of_length_le (by omega)]; omega

theorem take_realloc_cells {α : Type} (junk : α) (l : List α) (n m : Nat)
    (hm : m ≤ l.length) (hn : m ≤ n) :
    (realloc_cells junk l n).take m = l.take m := by
  unfold realloc_cells
  by_cases h : n ≤ l.length
  · rw [List.take_append_of_le_length (by rw [List.length_take_of_le h]; exact hn),
      List.take_take, Nat.min_eq_left hn]
  · rw [List.take_of_length_le (l := l) (by omega),
      List.take_append_of_le_length hm]

theorem take_set_succ {α : Type} (l : List α) (k : Nat) (x : α) (h : k < l.length) :
    (l.set k x).take (k + 1) = l.take k ++ [x] := by
  rw [List.set_eq_take_append_cons_drop, if_pos h]
  rw [List.take_append_eq_append_take, List.length_take_of_le (Nat.le_of_lt h)]
  rw [List.take_of_length_le (by rw [List.length_take_of_le (Nat.le_of_lt h)]; omega)]
  simp

theorem take_set_of_le {α : Type} (l : List α) (k m : Nat) (x : α) (h : m ≤ k) :
    (l.set k x).take m = l.take m := by
  apply List.ext_getElem?
  intro i
  rw [List.getElem?_take, List.getElem?_take]
  split
  · rw [List.getElem?_set_ne (by omega)]
  · rfl

theorem filter_type_length_add (tasks : List TSRTask)
    (h : ∀ t ∈ tasks, t.type < TSTT_enumsize) :
    (tasks.filter (fun t => t.type = TSTT_calc)).length +
      (tasks.filter (fun t => t.type = TSTT_com)).length = tasks.length := by
  induction tasks with
  | nil => rfl
  | cons t rest ih =>
    have ht := h t (List.mem_cons_self _ _)
    have ih' := ih (fun u hu => h u (List.mem_cons_of_mem _ hu))
    unfold TSTT_enumsize at ht
    unfold TSTT_calc TSTT_com at ih' ⊢
    rcases Nat.lt_or_ge t.type 1 with h0 | h1
    · have e : t.type = 0 := by omega
      simp [List.filter_cons, e]
      omega
    · have e : t.type = 1 := by omega
      simp [List.filter_cons, e]
      omega

theorem TSR_repr_cnt_tot {tsrp : TaskSegRaw} {tasks : List TSRTask}
    (h : TSR_repr tsrp tasks) : task_cnt_tot tsrp = tasks.length := by
  obtain ⟨hb, hty, _, _, hi⟩ := h
  unfold task_cnt_tot
  rw [(hi TSTT_calc (by decide)).2.2.1, (hi TSTT_com (by decide)).2.2.1,
    filter_type_length_add tasks hty]
  exact Nat.mod_eq_of_lt (by omega)

theorem TSR_repr_lsiz_tot {tsrp : TaskSegRaw} {tasks : List TSRTask}
    (h : TSR_repr tsrp tasks) :
    task_lsiz_tot tsrp =
      (idx2 tsrp.treq_l TSTT_calc).req_l_siz + (idx2 tsrp.treq_l TSTT_com).req_l_siz := by
  obtain ⟨hb, hty, _, _, hi⟩ := h
  have e := filter_type_length_add tasks hty
  have h0 := (hi TSTT_calc (by decide)).2.2.2.2.2
  have h1 := (hi TSTT_com (by decide)).2.2.2.2.2
  unfold task_lsiz_tot
  exact Nat.mod_eq_of_lt (by omega)

theorem TSR_repr_lsiz {tsrp : TaskSegRaw} {tasks : List TSRTask}
    (h : TSR_repr tsrp tasks) : tasks.length ≤ task_lsiz_tot tsrp := by
  rw [TSR_repr_lsiz_tot h]
  obtain ⟨hb, hty, _, _, hi⟩ := h
  have e := filter_type_length_add tasks hty
  have h0 := (hi TSTT_calc (by decide)).2.2.1
  have h1 := (hi TSTT_com (by decide)).2.2.1
  have h0' := (hi TSTT_calc (by decide)).2.2.2.1
  have h1' := (hi TSTT_com (by decide)).2.2.2.1
  omega

/-- The growth step of `TSR_put` keeps the tasks a segment holds and leaves
room for one more weight of the type. -/
theorem TSR_put_grow_repr (junk : ℚ) (junkt : Nat) (tsrp : TaskSegRaw)
    (tasks : List TSRTask) (type : Nat) (hty : type < TSTT_enumsize)
    (h : TSR_repr tsrp tasks) :
    TSR_repr (TSR_put_grow junk junkt tsrp type) tasks ∧
    (idx2 (TSR_put_grow junk junkt tsrp type).treq_l type).task_cnt <
      (idx2 (TSR_put_grow junk junkt tsrp type).treq_l type).req_l_siz := by
  have hlsiz := TSR_repr_lsiz h
  have hlsiz' := TSR_repr_lsiz_tot h
  obtain ⟨hb, htys, hlen, htake, hi⟩ := h
  obtain ⟨a1, a2, a3, a4, a5, a6⟩ := hi type hty
  have e := filter_type_length_add tasks htys
  have b0 := (hi TSTT_calc (by decide)).2.2.2.2.2
  have b1 := (hi TSTT_com (by decide)).2.2.2.2.2
  have c0 := (hi TSTT_calc (by decide)).2.2.1
  have c1 := (hi TSTT_com (by decide)).2.2.1
  unfold TSR_put_grow
  by_cases hfull : (idx2 tsrp.treq_l type).task_cnt = (idx2 tsrp.treq_l type).req_l_siz
  · have hcn : (tasks.filter (fun t => t.type = type)).length ≤ tasks.length :=
      List.length_filter_le _ _
    have hmod : (idx2 tsrp.treq_l type).req_l_siz * 2 % 4294967296 =
        (idx2 tsrp.treq_l type).req_l_siz * 2 := Nat.mod_eq_of_lt (by omega)
    simp only [if_pos hfull, hmod]
    refine ⟨⟨hb, htys, ?_, ?_, ?_⟩, ?_⟩
    · simp only
      rw [length_realloc_cells]
      rfl
    · simp only
      rw [take_realloc_cells _ _ _ _ (by rw [hlen]; exact hlsiz)]
      · exact htake
      · rw [hlsiz'] at hlsiz
        unfold task_lsiz_tot
        simp only
        by_cases ht0 : type = TSTT_calc
        · subst ht0
          rw [idx2_set2_same, idx2_set2_other _ _ _ _ (by decide) (by decide) (by decide)]
          simp only
          omega
        · have ht1 : type = TSTT_com := by
            unfold TSTT_enumsize at hty; unfold TSTT_calc at ht0; unfold TSTT_com; omega
          subst ht1
          rw [idx2_set2_same, idx2_set2_other _ _ _ _ (by decide) (by decide) (by decide)]
          simp only
          omega
    · intro i hi'
      by_cases hit : type = i
      · subst hit
        simp only [idx2_set2_same]
        refine ⟨length_realloc_cells _ _ _, by omega, a3, by omega, ?_, by omega⟩
        rw [take_realloc_cells _ _ _ _ (by omega) (by omega)]
        exact a5
      · simp only [idx2_set2_other _ _ _ _ hty hi' hit]
        exact hi i hi'
    · simp only [idx2_set2_same]
      omega
  · simp only [if_neg hfull]
    exact ⟨⟨hb, htys, hlen, htake, hi⟩, by omega⟩

theorem task_lsiz_tot_set2 (tsrp : TaskSegRaw) (type : Nat) (x : TReql) (l : List Nat)
    (c : TSRTask) (hty : type < TSTT_enumsize)
    (hx : x.req_l_siz = (idx2 tsrp.treq_l type).req_l_siz) :
    task_lsiz_tot { task_type_l := l, treq_l := set2 tsrp.treq_l type x, ct := c } =
      task_lsiz_tot tsrp := by
  unfold task_lsiz_tot
  simp only
  by_cases ht0 : type = TSTT_calc
  · subst ht0
    rw [idx2_set2_same, idx2_set2_other _ _ _ _ (by decide) (by decide) (by decide), hx]
  · have ht1 : type = TSTT_com := by
      unfold TSTT_enumsize at hty; unfold TSTT_calc at ht0; unfold TSTT_com; omega
    subst ht1
    rw [idx2_set2_same, idx2_set2_other _ _ _ _ (by decide) (by decide) (by decide), hx]

/-- The two assignments of `TSR_put` append the task to the tasks the segment
holds, when there is room for one more weight of its type. -/
theorem TSR_put_write_repr (tsrp : TaskSegRaw) (tasks : List TSRTask) (task : TSRTask)
    (hty : task.type < TSTT_enumsize) (hn : tasks.length + 1 + 16 < 2147483648)
    (h : TSR_repr tsrp tasks)
    (hroom : (idx2 tsrp.treq_l task.type).task_cnt < (idx2 tsrp.treq_l task.type).req_l_siz) :
    ∃ tsrp', TSR_put_write tsrp task = some tsrp' ∧ TSR_repr tsrp' (tasks ++ [task]) := by
  have hcnt := TSR_repr_cnt_tot h
  have hlsiz' := TSR_repr_lsiz_tot h
  obtain ⟨hb, htys, hlen, htake, hi⟩ := h
  obtain ⟨a1, a2, a3, a4, a5, a6⟩ := hi task.type hty
  have e := filter_type_length_add tasks htys
  have hc0 := (hi TSTT_calc (by decide)).2.2.2.1
  have hc1 := (hi TSTT_com (by decide)).2.2.2.1
  have c0 := (hi TSTT_calc (by decide)).2.2.1
  have c1 := (hi TSTT_com (by decide)).2.2.1
  have htot : task_cnt_tot tsrp < tsrp.task_type_l.length := by
    rw [hlen, hlsiz', hcnt]
    by_cases ht0 : task.type = TSTT_calc
    · rw [ht0] at hroom; omega
    · have ht1 : task.type = TSTT_com := by
        unfold TSTT_enumsize at hty; unfold TSTT_calc at ht0; unfold TSTT_com; omega
      rw [ht1] at hroom; omega
  have hroom' : (idx2 tsrp.treq_l task.type).task_cnt <
      (idx2 tsrp.treq_l task.type).req_l.length := by rw [a1]; exact hroom
  have hcn : (tasks.filter (fun t => t.type = task.type)).length ≤ tasks.length :=
    List.length_filter_le _ _
  have hmod : ((idx2 tsrp.treq_l task.type).task_cnt + 1) % 4294967296 =
      (idx2 tsrp.treq_l task.type).task_cnt + 1 := Nat.mod_eq_of_lt (by omega)
  unfold TSR_put_write
  simp only [not_not.mpr htot, not_not.mpr hroom', if_false, hmod]
  refine ⟨_, rfl, ?_, ?_, ?_, ?_, ?_⟩
  · rw [List.length_append, List.length_singleton]
    exact hn
  · intro t ht
    rcases List.mem_append.mp ht with ht | ht
    · exact htys t ht
    · rw [List.mem_singleton.mp ht]; exact hty
  · simp only
    rw [List.length_set, hlen]
    apply Eq.symm
    apply task_lsiz_tot_set2 _ _ _ _ _ hty
    rfl
  · simp only
    rw [List.length_append, List.length_singleton, hcnt,
      take_set_succ _ _ _ (by rw [← hcnt]; exact htot), htake, List.map_append]
    rfl
  · intro i hi'
    simp only
    by_cases hit : task.type = i
    · subst hit
      simp only [idx2_set2_same]
      have hf : (tasks ++ [task]).filter (fun t => t.type = task.type) =
          tasks.filter (fun t => t.type = task.type) ++ [task] := by
        rw [List.filter_append]
        simp
      rw [hf, List.length_append, List.length_singleton, List.map_append, List.length_set]
      refine ⟨a1, a2, by rw [a3], by omega, ?_, by omega⟩
      rw [take_set_succ _ _ _ hroom', a5]
      rfl
    · simp only [idx2_set2_other _ _ _ _ hty hi' hit]
      have hf : (tasks ++ [task]).filter (fun t => t.type = i) =
          tasks.filter (fun t => t.type = i) := by
        rw [List.filter_append]
        simp [hit]
      rw [hf]
      exact hi i hi'

/-- `TSR_put` appends the task to the tasks the segment holds. -/
theorem TSR_put_repr (junk : ℚ) (junkt : Nat) (tsrp : TaskSegRaw) (tasks : List TSRTask)
    (task : TSRTask) (hty : task.type < TSTT_enumsize)
    (hn : tasks.length + 1 + 16 < 2147483648) (h : TSR_repr tsrp tasks) :
    ∃ tsrp', TSR_put junk junkt tsrp task = some tsrp' ∧ TSR_repr tsrp' (tasks ++ [task]) := by
  obtain ⟨hg, hroom⟩ := TSR_put_grow_repr junk junkt tsrp tasks task.type hty h
  unfold TSR_put
  rw [if_neg (not_not.mpr hty)]
  exact TSR_put_write_repr _ tasks task hty hn hg hroom

theorem TaskSegRaw_init_repr (junk : ℚ) (junkt : Nat) :
    TSR_repr (TaskSegRaw_init junk junkt) [] := by
  refine ⟨by simp, by simp, ?_, by simp, ?_⟩
  · unfold TaskSegRaw_init task_lsiz_tot
    simp only [length_realloc_cells]
    rfl
  · intro i _
    unfold TaskSegRaw_init idx2
    by_cases h : i = 0 <;> simp [h, length_realloc_cells, TSR_MALLOC_CNT]

theorem TSR_put_all_repr (junk : ℚ) (junkt : Nat) : ∀ (more : List TSRTask)
    (tsrp : TaskSegRaw) (tasks : List TSRTask),
    (∀ t ∈ more, t.type < TSTT_enumsize) → tasks.length + more.length + 16 < 2147483648 →
    TSR_repr tsrp tasks →
    ∃ tsrp', TSR_put_all junk junkt tsrp more = some tsrp' ∧ TSR_repr tsrp' (tasks ++ more) := by
  intro more
  induction more with
  | nil =>
    intro tsrp tasks _ _ h
    exact ⟨tsrp, rfl, by rw [List.append_nil]; exact h⟩
  | cons t rest ih =>
    intro tsrp tasks hty hn h
    rw [List.length_cons] at hn
    obtain ⟨r1, hr1, hrep1⟩ :=
      TSR_put_repr junk junkt tsrp tasks t (hty t (List.mem_cons_self _ _)) (by omega) h
    obtain ⟨r2, hr2, hrep2⟩ :=
      ih r1 (tasks ++ [t]) (fun u hu => hty u (List.mem_cons_of_mem _ hu))
        (by rw [List.length_append, List.length_singleton]; omega) hrep1
    refine ⟨r2, ?_, ?_⟩
    · unfold TSR_put_all
      rw [hr1]
      exact hr2
    · rw [List.append_assoc] at hrep2
      exact hrep2

/-- `TSR_repr` reads only the type array and, per type, the weight array, its
capacity and the task count. -/
theorem TSR_repr_congr (tsrp tsrp' : TaskSegRaw) {tasks : List TSRTask}
    (ht : tsrp'.task_type_l = tsrp.task_type_l)
    (hf : ∀ i, i < TSTT_enumsize →
      (idx2 tsrp'.treq_l i).req_l = (idx2 tsrp.treq_l i).req_l ∧
      (idx2 tsrp'.treq_l i).req_l_siz = (idx2 tsrp.treq_l i).req_l_siz ∧
      (idx2 tsrp'.treq_l i).task_cnt = (idx2 tsrp.treq_l i).task_cnt)
    (h : TSR_repr tsrp tasks) : TSR_repr tsrp' tasks := by
  obtain ⟨hb, htys, hlen, htake, hi⟩ := h
  refine ⟨hb, htys, ?_, by rw [ht]; exact htake, ?_⟩
  · rw [ht, hlen]
    unfold task_lsiz_tot
    rw [(hf TSTT_calc (by decide)).2.1, (hf TSTT_com (by decide)).2.1]
  · intro i hi'
    obtain ⟨e1, e2, e3⟩ := hf i hi'
    rw [e1, e2, e3]
    exact hi i hi'

theorem filter_getElem?_at {α : Type} (p : α → Bool) (l : List α) (k : Nat)
    (hk : k < l.length) (hp : p l[k] = true) :
    (l.filter p)[((l.take k).filter p).length]? = some l[k] := by
  have hsplit : l = l.take k ++ l[k] :: l.drop (k + 1) := by
    conv_lhs => rw [← List.take_append_drop k l, List.drop_eq_getElem_cons hk]
  conv_lhs => rw [hsplit, List.filter_append, List.filter_cons, if_pos hp]
  rw [List.getElem?_append_right (by rw [← hsplit])]
  simp [← hsplit]

theorem take_succ_eq_append {α : Type} (l : List α) (k : Nat) (hk : k < l.length) :
    l.take (k + 1) = l.take k ++ [l[k]] := by
  rw [List.take_succ, List.getElem?_eq_getElem hk]
  rfl

theorem TSR_rewind_at (tsrp : TaskSegRaw) (tasks : List TSRTask)
    (h : TSR_repr tsrp tasks) : TSR_at (TSR_rewind tsrp) tasks 0 := by
  have hidx : ∀ i, idx2 (TSR_rewind tsrp).treq_l i =
      { idx2 tsrp.treq_l i with task_curr := 0 } := by
    intro i
    unfold TSR_rewind idx2
    by_cases hi : i = 0 <;> simp [hi]
  refine ⟨TSR_repr_congr tsrp _ rfl (fun i _ => by rw [hidx i]; exact ⟨rfl, rfl, rfl⟩) h,
    Nat.zero_le _, ?_⟩
  intro i _
  rw [hidx i]
  simp

/-- At the end of the tasks `TSR_next` returns NULL and changes nothing. -/
theorem TSR_next_end (tsrp : TaskSegRaw) (tasks : List TSRTask)
    (h : TSR_at tsrp tasks tasks.length) : TSR_next tsrp = some (none, tsrp) := by
  obtain ⟨hrep, _, hcur⟩ := h
  have hcnt := TSR_repr_cnt_tot hrep
  have hsum : task_curr_tot tsrp = tasks.length := by
    unfold task_curr_tot
    rw [hcur TSTT_calc (by decide), hcur TSTT_com (by decide), List.take_length,
      filter_type_length_add tasks hrep.2.1]
    exact Nat.mod_eq_of_lt (by have := hrep.1; omega)
  unfold TSR_next
  simp only [hsum, hcnt, if_true]

/-- Before the end `TSR_next` returns the task under the cursors and moves
the cursor of its type by one. -/
theorem TSR_next_at (tsrp : TaskSegRaw) (tasks : List TSRTask) (k : Nat)
    (hk : k < tasks.length) (h : TSR_at tsrp tasks k) :
    ∃ tsrp', TSR_next tsrp = some (some tasks[k], tsrp') ∧ TSR_at tsrp' tasks (k + 1) := by
  obtain ⟨hrep, _, hcur⟩ := h
  have hcnt := TSR_repr_cnt_tot hrep
  obtain ⟨hb, htys, hlen, htake, hi⟩ := hrep
  have htk : ∀ t ∈ tasks.take k, t.type < TSTT_enumsize :=
    fun t ht => htys t (List.mem_of_mem_take ht)
  have hsum : task_curr_tot tsrp = k := by
    unfold task_curr_tot
    rw [hcur TSTT_calc (by decide), hcur TSTT_com (by decide),
      filter_type_length_add _ htk, List.length_take_of_le (Nat.le_of_lt hk)]
    exact Nat.mod_eq_of_lt (by omega)
  have hty : tasks[k].type < TSTT_enumsize := htys _ (List.getElem_mem _)
  have htype : tsrp.task_type_l[k]? = some tasks[k].type := by
    rw [← List.getElem?_take_of_lt hk, htake, List.getElem?_map,
      List.getElem?_eq_getElem hk]
    rfl
  obtain ⟨a1, a2, a3, a4, a5, a6⟩ := hi tasks[k].type hty
  have hfilt := filter_getElem?_at (fun t => decide (t.type = tasks[k].type)) tasks k hk
    (by simp)
  have hjlt : ((tasks.take k).filter (fun t => decide (t.type = tasks[k].type))).length <
      (idx2 tsrp.treq_l tasks[k].type).task_cnt := by
    rw [a3]
    by_contra hcon
    rw [List.getElem?_eq_none (Nat.le_of_not_lt hcon)] at hfilt
    exact absurd hfilt (by simp)
  have hreq : (idx2 tsrp.treq_l tasks[k].type).req_l[
      (idx2 tsrp.treq_l tasks[k].type).task_curr]? = some tasks[k].req := by
    rw [hcur _ hty, ← List.getElem?_take_of_lt hjlt, a5, List.getElem?_map, hfilt]
    rfl
  have hcn : ((tasks.take k).filter (fun t => decide (t.type = tasks[k].type))).length ≤ k :=
    le_trans (List.length_filter_le _ _) (List.length_take_le _ _)
  have hmod : ((idx2 tsrp.treq_l tasks[k].type).task_curr + 1) % 4294967296 =
      (idx2 tsrp.treq_l tasks[k].type).task_curr + 1 := by
    rw [hcur _ hty]
    exact Nat.mod_eq_of_lt (by omega)
  unfold TSR_next
  simp only [hsum, hcnt, if_neg (Nat.ne_of_lt hk), htype, not_not.mpr hty, if_false, hreq,
    hmod]
  refine ⟨_, rfl, ?_, by omega, ?_⟩
  · refine TSR_repr_congr tsrp _ rfl ?_ ⟨hb, htys, hlen, htake, hi⟩
    intro i hi'
    simp only
    by_cases hit : tasks[k].type = i
    · subst hit
      rw [idx2_set2_same]
      exact ⟨rfl, rfl, rfl⟩
    · rw [idx2_set2_other _ _ _ _ hty hi' hit]
      exact ⟨rfl, rfl, rfl⟩
  · intro i hi'
    simp only
    rw [take_succ_eq_append _ _ hk, List.filter_append, List.length_append]
    by_cases hit : tasks[k].type = i
    · subst hit
      rw [idx2_set2_same]
      simp only
      rw [hcur _ hty]
      simp
    · rw [idx2_set2_other _ _ _ _ hty hi' hit, hcur i hi']
      simp [hit]

/-- From the cursor position `k` on, `TSR_next` returns the remaining tasks in
order and then NULL. -/
theorem TSR_next_n_at : ∀ (m : Nat) (tsrp : TaskSegRaw) (tasks : List TSRTask) (k : Nat),
    k + m = tasks.length → TSR_at tsrp tasks k →
    ∃ tsrp', TSR_next_n (m + 1) tsrp =
        some ((tasks.drop k).map some ++ [none], tsrp') ∧
      TSR_at tsrp' tasks tasks.length := by
  intro m
  induction m with
  | zero =>
    intro tsrp tasks k hk h
    have hk' : k = tasks.length := by omega
    subst hk'
    refine ⟨tsrp, ?_, h⟩
    unfold TSR_next_n
    rw [TSR_next_end tsrp tasks h]
    simp [TSR_next_n]
  | succ m ih =>
    intro tsrp tasks k hk h
    have hlt : k < tasks.length := by omega
    obtain ⟨r1, hr1, hat1⟩ := TSR_next_at tsrp tasks k hlt h
    obtain ⟨r2, hr2, hat2⟩ := ih r1 tasks (k + 1) (by omega) hat1
    refine ⟨r2, ?_, hat2⟩
    rw [TSR_next_n, hr1]
    simp only
    rw [hr2]
    simp only
    rw [List.drop_eq_getElem_cons hlt]
    rfl

theorem tsr_example_gen_types (n : Nat) : ∀ t ∈ tsr_example_gen n, t.type < TSTT_enumsize := by
  induction n with
  | zero => intro t ht; simp [tsr_example_gen] at ht
  | succ n ih =>
    intro t ht
    unfold tsr_example_gen at ht
    rcases List.mem_cons.mp ht with h | h
    · rw [h]
      simp only
      split <;> decide
    · exact ih t h

/-- C12: tasks put one after the other with `TSR_put` into a fresh raw segment
come back, after `TSR_rewind`, from successive calls of `TSR_next` in
insertion order with their types and weights, and the call after the last
task returns NULL. The tasks are calculations or communications in any
interleaving; their number plus 16 stays below 2^31, the range in which the
`unsigned` capacities of the segment do not wrap. -/
theorem TSR_put_then_next (junk : ℚ) (junkt : Nat) (tasks : List TSRTask)
    (hty : ∀ t ∈ tasks, t.type < TSTT_enumsize) (hn : tasks.length + 16 < 2147483648) :
    ∃ tsrp tsrp', TSR_put_all junk junkt (TaskSegRaw_init junk junkt) tasks = some tsrp ∧
      TSR_next_n (tasks.length + 1) (TSR_rewind tsrp) =
        some (tasks.map some ++ [none], tsrp') := by
  obtain ⟨tsrp, hput, hrep⟩ :=
    TSR_put_all_repr junk junkt tasks (TaskSegRaw_init junk junkt) [] hty
      (by rw [List.length_nil]; omega) (TaskSegRaw_init_repr junk junkt)
  rw [List.nil_append] at hrep
  obtain ⟨tsrp', hnext, _⟩ :=
    TSR_next_n_at tasks.length (TSR_rewind tsrp) tasks 0 (by omega) (TSR_rewind_at tsrp tasks hrep)
  rw [List.drop_zero] at hnext
  exact ⟨tsrp, tsrp', hput, hnext⟩

theorem TSR_put_then_next_witness :
    (tsr_example_tasks.filter (fun t => t.type = TSTT_calc)).length = 26 ∧
    ∃ tsrp tsrp',
      TSR_put_all 0 0 (TaskSegRaw_init 0 0) tsr_example_tasks = some tsrp ∧
      TSR_next_n (tsr_example_tasks.length + 1) (TSR_rewind tsrp) =
        some (tsr_example_tasks.map some ++ [none], tsrp') :=
  ⟨by decide!,
    TSR_put_then_next 0 0 tsr_example_tasks (tsr_example_gen_types 40) (by decide!)⟩

/-! ## Theorems: TSB_init -/

theorem TCLetter_ttype_mk (ttype : Nat) (key : Int) (h : ttype < TSTT_enumsize) :
    TCLetter_ttype (TCLetter_mk ttype key) = ttype := by
  unfold TSTT_enumsize at h
  unfold TCLetter_ttype TCLetter_mk
  omega

theorem TCLetter_idx_mk (ttype : Nat) (key : Nat) (h : ttype < TSTT_enumsize)
    (hk : key < 32768) : TCLetter_idx (TCLetter_mk ttype (key : Int)) = key := by
  unfold TSTT_enumsize at h
  unfold TCLetter_idx TCLetter_mk
  omega

theorem TCKey_is_valid_natCast (key : Nat) : TCKey_is_valid (key : Int) = true := by
  show ((key : Int) != (-1 : Int)) = true
  simp only [bne_iff_ne, ne_eq]
  omega

/-- The state of the loop of `TSB_init` after `k` tasks of `tasks`. -/
theorem TSB_init_loop_spec (junk : Nat) (dmem : Nat → TCDict) (dictp : Nat × Nat)
    (tasks : List TSRTask)
    (hkey : ∀ t ∈ tasks, ∃ key : Nat,
      TCDict_key_from_val (dmem (idx2 dictp t.type)) t.req = some (key : Int)) :
    ∀ (fuel : Nat) (tsbp : TaskSegBuck) (tsr : TaskSegRaw) (k : Nat),
    tasks.length - k < fuel → TSR_at tsr tasks k →
    tsbp.dictp = dictp → tsbp.seg.blk_cnt = k → tsbp.seg.blk_lsiz = tasks.length →
    tsbp.seg.blk_l.length = tasks.length →
    tsbp.seg.blk_l.take k = (tasks.take k).map (TSB_letter dmem dictp) →
    (∀ i, i < TSTT_enumsize →
      idx2 tsbp.task_cnt i = ((tasks.take k).filter (fun t => t.type = i)).length) →
    ∃ tsbp' tsr', TSB_init_loop junk dmem fuel tsbp tsr = some (tsbp', tsr') ∧
      TSR_at tsr' tasks tasks.length ∧
      tsbp'.dictp = dictp ∧ tsbp'.summary = tsbp.summary ∧
      tsbp'.seg.blk_cnt = tasks.length ∧ tsbp'.seg.blk_curi = tsbp.seg.blk_curi ∧
      tsbp'.seg.blk_l = tasks.map (TSB_letter dmem dictp) ∧
      (∀ i, i < TSTT_enumsize →
        idx2 tsbp'.task_cnt i = (tasks.filter (fun t => t.type = i)).length) := by
  intro fuel
  induction fuel with
  | zero => intro _ _ _ h; exact absurd h (Nat.not_lt_zero _)
  | succ fuel ih =>
    intro tsbp tsr k hfuel hat hd hcnt hlsiz hlen htake hcounts
    have hkle : k ≤ tasks.length := hat.2.1
    have hb : tasks.length + 16 < 2147483648 := hat.1.1
    unfold TSB_init_loop
    by_cases hend : k = tasks.length
    · subst hend
      rw [TSR_next_end tsr tasks hat]
      simp only
      refine ⟨tsbp, tsr, rfl, hat, hd, rfl, hcnt, rfl, ?_, ?_⟩
      · rw [List.take_length, List.take_of_length_le (le_of_eq hlen)] at htake
        exact htake
      · intro i hi
        rw [hcounts i hi, List.take_length]
    · have hk : k < tasks.length := by omega
      obtain ⟨tsr1, hnext, hat1⟩ := TSR_next_at tsr tasks k hk hat
      have hty : tasks[k].type < TSTT_enumsize := hat.1.2.1 _ (List.getElem_mem _)
      obtain ⟨key, hkv⟩ := hkey tasks[k] (List.getElem_mem _)
      have hpush : arll_push junk sizeof_TCLetter tsbp.seg
          (TCLetter_mk tasks[k].type (key : Int)) =
          some ((k : Int),
            { tsbp.seg with
              blk_l := tsbp.seg.blk_l.set k (TCLetter_mk tasks[k].type (key : Int))
              blk_cnt := k + 1 }) := by
        unfold arll_push
        have hnf : ¬ k = tsbp.seg.blk_lsiz := by omega
        simp only [hcnt, if_neg hnf]
        have hlt : k < tsbp.seg.blk_l.length := by omega
        have hmod : (k + 1) % 4294967296 = k + 1 := Nat.mod_eq_of_lt (by omega)
        rw [if_neg (not_not.mpr hlt), int_of_unsigned_of_lt k (by omega), hmod]
      have hck : ((tasks.take k).filter (fun t => decide (t.type = tasks[k].type))).length ≤ k :=
        le_trans (List.length_filter_le _ _) (List.length_take_le _ _)
      have hmodc : (idx2 tsbp.task_cnt tasks[k].type + 1) % 4294967296 =
          idx2 tsbp.task_cnt tasks[k].type + 1 := by
        rw [hcounts _ hty]
        exact Nat.mod_eq_of_lt (by omega)
      rw [hnext]
      simp only [not_not.mpr hty, if_false, hd, hkv, TCKey_is_valid_natCast, not_true_eq_false,
        hpush, hmodc]
      have hne : ¬ ((k : Int) = -1) := by omega
      rw [if_neg hne]
      have hletter : TCLetter_mk tasks[k].type (key : Int) = TSB_letter dmem dictp tasks[k] := by
        unfold TSB_letter
        rw [hkv]
        rfl
      obtain ⟨tsbp', tsr', hloop, h1, h2, h3, h4, h5, h6, h7⟩ :=
        ih { tsbp with
              task_cnt := set2 tsbp.task_cnt tasks[k].type
                (idx2 tsbp.task_cnt tasks[k].type + 1)
              seg :=
                { tsbp.seg with
                  blk_l := tsbp.seg.blk_l.set k (TCLetter_mk tasks[k].type (key : Int))
                  blk_cnt := k + 1 } }
          tsr1 (k + 1) (by omega) hat1 hd rfl hlsiz
          (by simp only [List.length_set]; exact hlen)
          (by
            simp only
            rw [take_set_succ _ _ _ (by omega), htake, take_succ_eq_append _ _ hk,
              List.map_append, hletter]
            rfl)
          (by
            intro i hi
            simp only
            rw [take_succ_eq_append _ _ hk, List.filter_append, List.length_append]
            by_cases hit : tasks[k].type = i
            · subst hit
              rw [idx2_set2_same, hcounts _ hty]
              simp
            · rw [idx2_set2_other _ _ _ _ hty hi hit, hcounts i hi]
              simp [hit])
      simp only [hd] at hloop
      exact ⟨tsbp', tsr', hloop, h1, h2, h3, h4, h5, h6, h7⟩

theorem filter_take_length_lt {α : Type} (p : α → Bool) (l : List α) (k : Nat)
    (hk : k < l.length) (hp : p l[k] = true) :
    ((l.take k).filter p).length < (l.filter p).length := by
  have h := filter_getElem?_at p l k hk hp
  by_contra hcon
  rw [List.getElem?_eq_none (Nat.le_of_not_lt hcon)] at h
  exact absurd h (by simp)

/-- The letter of a task that has a key below 2^15 carries the type and the
key of the task. -/
theorem TSB_letter_fields (dmem : Nat → TCDict) (dictp : Nat × Nat) (t : TSRTask) (key : Nat)
    (hty : t.type < TSTT_enumsize)
    (hkey : TCDict_key_from_val (dmem (idx2 dictp t.type)) t.req = some (key : Int))
    (hk : key < 32768) :
    TCLetter_ttype (TSB_letter dmem dictp t) = t.type ∧
    TCLetter_idx (TSB_letter dmem dictp t) = key := by
  unfold TSB_letter
  rw [hkey]
  exact ⟨TCLetter_ttype_mk _ _ hty, TCLetter_idx_mk _ _ hty hk⟩

/-- The decoding loop of `TaskSegBuck_to_reql` runs to the end of the letters
of `tasks` and fills both arrays. -/
theorem TaskSegBuck_to_reql_loop_spec (dmem : Nat → TCDict) (dictp : Nat × Nat)
    (tasks : List TSRTask) (hty : ∀ t ∈ tasks, t.type < TSTT_enumsize)
    (hkey : ∀ t ∈ tasks, ∃ key : Nat,
      TCDict_key_from_val (dmem (idx2 dictp t.type)) t.req = some (key : Int) ∧
      key < 32768 ∧ 0 ≤ TCDict_val_from_key (dmem (idx2 dictp t.type)) (key : Int)) :
    ∀ (fuel : Nat) (seg : arll Nat) (reql : List ℚ × List ℚ) (idx : Nat × Nat),
    tasks.length - seg.blk_curi < fuel → seg.blk_curi ≤ tasks.length →
    seg.blk_cnt = tasks.length → seg.blk_l = tasks.map (TSB_letter dmem dictp) →
    (∀ i, i < TSTT_enumsize →
      (idx2 reql i).length = (tasks.filter (fun t => t.type = i)).length ∧
      idx2 idx i = ((tasks.take seg.blk_curi).filter (fun t => t.type = i)).length) →
    ∃ seg' reql' idx', TaskSegBuck_to_reql_loop dmem dictp fuel seg reql idx =
        some (seg', reql', idx') ∧
      seg'.blk_l = seg.blk_l ∧ seg'.blk_cnt = seg.blk_cnt ∧ seg'.blk_lsiz = seg.blk_lsiz ∧
      ∀ i, i < TSTT_enumsize →
        (idx2 reql' i).length = (tasks.filter (fun t => t.type = i)).length ∧
        idx2 idx' i = (tasks.filter (fun t => t.type = i)).length := by
  intro fuel
  induction fuel with
  | zero => intro _ _ _ h; exact absurd h (Nat.not_lt_zero _)
  | succ fuel ih =>
    intro seg reql idx hfuel hle hcnt hl hinv
    unfold TaskSegBuck_to_reql_loop
    by_cases hend : seg.blk_curi = tasks.length
    · have hn : arll_next seg = (none, seg) := by
        unfold arll_next
        rw [if_pos (by rw [hend, hcnt])]
      rw [hn]
      refine ⟨seg, reql, idx, rfl, rfl, rfl, rfl, ?_⟩
      intro i hi
      have h := hinv i hi
      rw [hend, List.take_length] at h
      exact h
    · have hk : seg.blk_curi < tasks.length := by omega
      have hn : arll_next seg =
          (some (TSB_letter dmem dictp tasks[seg.blk_curi]),
            { seg with blk_curi := seg.blk_curi + 1 }) := by
        unfold arll_next
        rw [if_neg (by rw [hcnt]; exact hend), hl, List.getElem?_map,
          List.getElem?_eq_getElem hk]
        rfl
      have htyk : tasks[seg.blk_curi].type < TSTT_enumsize := hty _ (List.getElem_mem _)
      obtain ⟨key, hkv, hk15, hval⟩ := hkey tasks[seg.blk_curi] (List.getElem_mem _)
      obtain ⟨hlt, hli⟩ := TSB_letter_fields dmem dictp _ key htyk hkv hk15
      have hroom : idx2 idx tasks[seg.blk_curi].type <
          (idx2 reql tasks[seg.blk_curi].type).length := by
        rw [(hinv _ htyk).1, (hinv _ htyk).2]
        exact filter_take_length_lt (fun t => decide (t.type = tasks[seg.blk_curi].type))
          tasks seg.blk_curi hk (by simp)
      rw [hn]
      simp only [hlt, hli, not_not.mpr hroom, if_false, ge_iff_le, not_not.mpr hval]
      obtain ⟨seg', reql', idx', hloop, h1, h2, h3, h4⟩ :=
        ih { seg with blk_curi := seg.blk_curi + 1 }
          (set2 reql tasks[seg.blk_curi].type
            ((idx2 reql tasks[seg.blk_curi].type).set (idx2 idx tasks[seg.blk_curi].type)
              (TCDict_val_from_key (dmem (idx2 dictp tasks[seg.blk_curi].type)) (key : Int))))
          (set2 idx tasks[seg.blk_curi].type (idx2 idx tasks[seg.blk_curi].type + 1))
          (by simp only; omega) (by simp only; omega) hcnt hl
          (by
            intro i hi
            simp only
            rw [take_succ_eq_append _ _ hk, List.filter_append, List.length_append]
            by_cases hit : tasks[seg.blk_curi].type = i
            · subst hit
              rw [idx2_set2_same, idx2_set2_same, List.length_set, (hinv _ htyk).1,
                (hinv _ htyk).2]
              simp
            · rw [idx2_set2_other _ _ _ _ htyk hi hit, idx2_set2_other _ _ _ _ htyk hi hit,
                (hinv i hi).1, (hinv i hi).2]
              simp [hit])
      exact ⟨seg', reql', idx', hloop, h1, h2, h3, h4⟩

theorem TSB_eval_body_some (dmem : Nat → TCDict) (dictp : Nat × Nat) (s : TaskSeg_summary)
    (i : Nat) (buck raw : List ℚ) (h : buck.length = raw.length) :
    ∃ s', TSB_eval_body dmem dictp s i buck raw = some s' := by
  unfold TSB_eval_body
  rw [if_neg (not_not.mpr h)]
  by_cases h0 : buck.length = 0
  · rw [if_pos h0]; exact ⟨_, rfl⟩
  · rw [if_neg h0]; exact ⟨_, rfl⟩

/-- `TSB_eval` returns for a bucketed segment that holds the letters of the
tasks of the raw segment, and changes neither the letters nor the counts. -/
theorem TSB_eval_spec (junk : ℚ) (dmem : Nat → TCDict) (tsbp : TaskSegBuck)
    (tsr : TaskSegRaw) (tasks : List TSRTask) (hrep : TSR_repr tsr tasks)
    (hkey : ∀ t ∈ tasks, ∃ key : Nat,
      TCDict_key_from_val (dmem (idx2 tsbp.dictp t.type)) t.req = some (key : Int) ∧
      key < 32768 ∧ 0 ≤ TCDict_val_from_key (dmem (idx2 tsbp.dictp t.type)) (key : Int))
    (hcnt : tsbp.seg.blk_cnt = tasks.length)
    (hl : tsbp.seg.blk_l = tasks.map (TSB_letter dmem tsbp.dictp))
    (hcounts : ∀ i, i < TSTT_enumsize →
      idx2 tsbp.task_cnt i = (tasks.filter (fun t => t.type = i)).length) :
    ∃ tsbp', TSB_eval junk dmem tsbp tsr = some tsbp' ∧
      tsbp'.seg.blk_l = tsbp.seg.blk_l ∧ tsbp'.seg.blk_cnt = tsbp.seg.blk_cnt ∧
      tsbp'.task_cnt = tsbp.task_cnt ∧ tsbp'.dictp = tsbp.dictp := by
  obtain ⟨seg', reql', idx', hloop, h1, h2, _, h4⟩ :=
    TaskSegBuck_to_reql_loop_spec dmem tsbp.dictp tasks hrep.2.1 hkey (tsbp.seg.blk_cnt + 1)
      (arll_rewind tsbp.seg)
      (realloc_cells junk [] (idx2 tsbp.task_cnt TSTT_calc),
        realloc_cells junk [] (idx2 tsbp.task_cnt TSTT_com))
      (0, 0)
      (by unfold arll_rewind; simp only; omega)
      (by unfold arll_rewind; simp only; omega)
      hcnt hl
      (by
        intro i hi
        unfold TSTT_enumsize at hi
        unfold arll_rewind
        simp only [List.take_zero, List.filter_nil, List.length_nil]
        rcases Nat.lt_or_ge i 1 with h0 | h0
        · have e : i = 0 := by omega
          subst e
          exact ⟨by rw [← hcounts 0 (by decide)]; exact length_realloc_cells _ _ _, rfl⟩
        · have e : i = 1 := by omega
          subst e
          exact ⟨by rw [← hcounts 1 (by decide)]; exact length_realloc_cells _ _ _, rfl⟩)
  have hto : TaskSegBuck_to_reql junk dmem tsbp false =
      some (reql', { tsbp with seg := seg' }) := by
    unfold TaskSegBuck_to_reql
    rw [hloop]
    simp only
    have e0 := h4 TSTT_calc (by decide)
    have e1 := h4 TSTT_com (by decide)
    rw [if_neg (by rw [e0.1, e0.2, e1.1, e1.2]; simp)]
    rfl
  obtain ⟨_, _, _, _, hi⟩ := hrep
  have r0 := hi TSTT_calc (by decide)
  have r1 := hi TSTT_com (by decide)
  have hraw : TaskSegRaw_to_reql tsr false =
      some ((idx2 tsr.treq_l TSTT_calc).req_l.take (idx2 tsr.treq_l TSTT_calc).task_cnt,
        (idx2 tsr.treq_l TSTT_com).req_l.take (idx2 tsr.treq_l TSTT_com).task_cnt) := by
    unfold TaskSegRaw_to_reql
    rw [if_neg (by rw [r0.1, r1.1]; have a := r0.2.2.2.1; have b := r1.2.2.2.1; omega)]
    rfl
  obtain ⟨s1, hs1⟩ := TSB_eval_body_some dmem tsbp.dictp tsbp.summary TSTT_calc
    (idx2 reql' TSTT_calc)
    ((idx2 tsr.treq_l TSTT_calc).req_l.take (idx2 tsr.treq_l TSTT_calc).task_cnt)
    (by rw [(h4 TSTT_calc (by decide)).1, r0.2.2.2.2.1, List.length_map])
  obtain ⟨s2, hs2⟩ := TSB_eval_body_some dmem tsbp.dictp s1 TSTT_com
    (idx2 reql' TSTT_com)
    ((idx2 tsr.treq_l TSTT_com).req_l.take (idx2 tsr.treq_l TSTT_com).task_cnt)
    (by rw [(h4 TSTT_com (by decide)).1, r1.2.2.2.2.1, List.length_map])
  refine ⟨{ tsbp with seg := seg', summary := s2 }, ?_, h1, h2, rfl, rfl⟩
  unfold TSB_eval
  rw [hto, hraw]
  simp only
  have hs1' : TSB_eval_body dmem tsbp.dictp tsbp.summary TSTT_calc (idx2 reql' TSTT_calc)
      (idx2 ((idx2 tsr.treq_l TSTT_calc).req_l.take (idx2 tsr.treq_l TSTT_calc).task_cnt,
        (idx2 tsr.treq_l TSTT_com).req_l.take (idx2 tsr.treq_l TSTT_com).task_cnt)
        TSTT_calc) = some s1 := hs1
  have hs2' : TSB_eval_body dmem tsbp.dictp s1 TSTT_com (idx2 reql' TSTT_com)
      (idx2 ((idx2 tsr.treq_l TSTT_calc).req_l.take (idx2 tsr.treq_l TSTT_calc).task_cnt,
        (idx2 tsr.treq_l TSTT_com).req_l.take (idx2 tsr.treq_l TSTT_com).task_cnt)
        TSTT_com) = some s2 := hs2
  rw [hs1']
  simp only
  rw [hs2']

theorem arll_realloc_cells_letters_length (junk : Nat) (n : Nat) (hn : n < 2147483648) :
    (arll_realloc_cells junk sizeof_TCLetter [] n).length = n := by
  unfold arll_realloc_cells sizeof_TCLetter
  rw [length_realloc_cells]
  omega

/-- `TSB_init` on a raw segment that holds the non-empty task list `tasks`,
every task with a key below 2^15 that decodes to a valid weight. -/
theorem TSB_init_spec (junk : Nat) (junkw : ℚ) (dmem : Nat → TCDict)
    (calc_dictp com_dictp : Nat) (r : TaskSegRaw) (tasks : List TSRTask)
    (hne : tasks ≠ []) (hrep : TSR_repr r tasks)
    (hkey : ∀ t ∈ tasks, ∃ key : Nat,
      TCDict_key_from_val (dmem (idx2 (calc_dictp, com_dictp) t.type)) t.req =
        some (key : Int) ∧
      key < 32768 ∧
      0 ≤ TCDict_val_from_key (dmem (idx2 (calc_dictp, com_dictp) t.type)) (key : Int)) :
    ∃ tsbp r', TSB_init junk junkw dmem calc_dictp com_dictp r = some (tsbp, r') ∧
      tsbp.seg.blk_cnt = tasks.length ∧
      tsbp.seg.blk_l = tasks.map (TSB_letter dmem (calc_dictp, com_dictp)) ∧
      ∀ i, i < TSTT_enumsize →
        idx2 tsbp.task_cnt i = (tasks.filter (fun t => t.type = i)).length := by
  have hb : tasks.length + 16 < 2147483648 := hrep.1
  have hpos : 0 < tasks.length := List.length_pos.mpr hne
  have e := filter_type_length_add tasks hrep.2.1
  have s0 : TSR_size r TSTT_calc = (tasks.filter (fun t => t.type = TSTT_calc)).length :=
    (hrep.2.2.2.2 TSTT_calc (by decide)).2.2.1
  have s1 : TSR_size r TSTT_com = (tasks.filter (fun t => t.type = TSTT_com)).length :=
    (hrep.2.2.2.2 TSTT_com (by decide)).2.2.1
  have hsum : TSR_size r TSTT_calc + TSR_size r TSTT_com = tasks.length := by
    rw [s0, s1]; exact e
  have hmod : tasks.length % 4294967296 = tasks.length := Nat.mod_eq_of_lt (by omega)
  have hcons : arll_construct junk sizeof_TCLetter tasks.length =
      some { blk_l := arll_realloc_cells junk sizeof_TCLetter [] tasks.length, blk_cnt := 0,
             blk_lsiz := tasks.length, blk_curi := 0 } := by
    unfold arll_construct
    rw [if_neg (by unfold sizeof_TCLetter; omega)]
  obtain ⟨tsb1, r1, hloop, hat1, hd1, _, hc1, _, hl1, hk1⟩ :=
    TSB_init_loop_spec junk dmem (calc_dictp, com_dictp) tasks
      (fun t ht => by obtain ⟨key, h, _⟩ := hkey t ht; exact ⟨key, h⟩)
      (tasks.length + 1)
      { dictp := (calc_dictp, com_dictp),
        seg := { blk_l := arll_realloc_cells junk sizeof_TCLetter [] tasks.length, blk_cnt := 0,
                 blk_lsiz := tasks.length, blk_curi := 0 },
        task_cnt := (0, 0),
        summary :=
          { devi_sum := (0, 0), devi_mean := (0, 0), dict_size := (0, 0), sum := (0, 0),
            avg := (0, 0) } }
      (TSR_rewind r) 0 (by omega) (TSR_rewind_at r tasks hrep) rfl rfl rfl
      (arll_realloc_cells_letters_length junk tasks.length (by omega))
      (by simp)
      (by
        intro i hi
        unfold TSTT_enumsize at hi
        simp only [List.take_zero, List.filter_nil, List.length_nil]
        rcases Nat.lt_or_ge i 1 with h0 | h0
        · have e : i = 0 := by omega
          subst e; rfl
        · have e : i = 1 := by omega
          subst e; rfl)
  obtain ⟨tsb2, heval, hl2, hc2, hk2, _⟩ :=
    TSB_eval_spec junkw dmem tsb1 r1 tasks hat1.1 (by rw [hd1]; exact hkey) hc1
      (by rw [hd1]; exact hl1) hk1
  refine ⟨tsb2, r1, ?_, by rw [hc2, hc1], by rw [hl2, hl1], ?_⟩
  · unfold TSB_init
    rw [hsum, hmod, hcons]
    simp only
    rw [hloop]
    simp only
    rw [heval]
  · intro i hi
    rw [hk2]
    exact hk1 i hi

theorem tsb_example_raw_repr : TSR_repr tsb_example_raw tsb_example_tasks := by
  obtain ⟨r, hput, hrep⟩ :=
    TSR_put_all_repr 0 0 tsb_example_tasks (TaskSegRaw_init 0 0) []
      (by decide) (by decide) (TaskSegRaw_init_repr 0 0)
  have e : tsb_example_raw = r := by
    unfold tsb_example_raw
    rw [hput]
    rfl
  rw [e]
  exact hrep

theorem tsb_example_keys : ∀ t ∈ tsb_example_tasks, ∃ key : Nat,
    TCDict_key_from_val (tsb_example_dmem (idx2 (1, 2) t.type)) t.req = some (key : Int) ∧
    key < 32768 ∧
    0 ≤ TCDict_val_from_key (tsb_example_dmem (idx2 (1, 2) t.type)) (key : Int) := by
  intro t ht
  unfold tsb_example_tasks at ht
  simp only [List.mem_cons, List.mem_singleton, List.not_mem_nil, or_false] at ht
  rcases ht with rfl | rfl | rfl
  · exact ⟨0, by decide!, by decide, by decide!⟩
  · exact ⟨0, by decide!, by decide, by decide!⟩
  · exact ⟨1, by decide!, by decide, by decide!⟩

/-- C11 (counterexample): on the fresh raw segment, which holds no task and so
no weight without a valid key, `TSB_init` does not produce a bucketed segment:
`arll_construct` is called with a length of 0 and its assertion fails. -/
theorem TSB_init_empty_fails :
    TSR_repr (TaskSegRaw_init 0 0) [] ∧
    TSB_init 0 0 tsb_example_dmem 1 2 (TaskSegRaw_init 0 0) = none :=
  ⟨TaskSegRaw_init_repr 0 0, by rfl⟩

/-- C11 (amended): for a raw segment `r` that holds at least one task and
dictionaries in which every weight of `r` has, in the dictionary of its type,
a valid key below 2^15 that decodes to a non-negative mean, `TSB_init`
returns a bucketed segment with exactly one letter per task of `r` in
iteration order, the letter of a task carrying its type and the key
`TCDict_key_from_val` gives its weight, and with per-type counts equal to
those of `r`. -/
theorem TSB_init_letters (junk : Nat) (junkw : ℚ) (dmem : Nat → TCDict)
    (calc_dictp com_dictp : Nat) (r : TaskSegRaw) (tasks : List TSRTask)
    (hne : tasks ≠ []) (hrep : TSR_repr r tasks)
    (hkey : ∀ t ∈ tasks, ∃ key : Nat,
      TCDict_key_from_val (dmem (idx2 (calc_dictp, com_dictp) t.type)) t.req =
        some (key : Int) ∧
      key < 32768 ∧
      0 ≤ TCDict_val_from_key (dmem (idx2 (calc_dictp, com_dictp) t.type)) (key : Int)) :
    ∃ tsbp r', TSB_init junk junkw dmem calc_dictp com_dictp r = some (tsbp, r') ∧
      arll_len tsbp.seg = tasks.length ∧
      (∀ (i : Nat) (hi : i < tasks.length), ∃ letter,
        tsbp.seg.blk_l[i]? = some letter ∧
        TCLetter_ttype letter = tasks[i].type ∧
        some (TCLetter_idx letter : Int) =
          TCDict_key_from_val (dmem (idx2 (calc_dictp, com_dictp) tasks[i].type))
            tasks[i].req) ∧
      ∀ i, i < TSTT_enumsize → idx2 tsbp.task_cnt i = TSR_size r i := by
  obtain ⟨tsbp, r', hinit, hcnt, hl, hk⟩ :=
    TSB_init_spec junk junkw dmem calc_dictp com_dictp r tasks hne hrep hkey
  refine ⟨tsbp, r', hinit, hcnt, ?_, ?_⟩
  · intro i hi
    obtain ⟨key, hkv, hk15, _⟩ := hkey tasks[i] (List.getElem_mem _)
    obtain ⟨h1, h2⟩ := TSB_letter_fields dmem (calc_dictp, com_dictp) tasks[i] key
      (hrep.2.1 _ (List.getElem_mem _)) hkv hk15
    refine ⟨TSB_letter dmem (calc_dictp, com_dictp) tasks[i], ?_, h1, ?_⟩
    · rw [hl, List.getElem?_map, List.getElem?_eq_getElem hi]
      rfl
    · rw [h2, hkv]
  · intro i hi
    rw [hk i hi]
    exact ((hrep.2.2.2.2 i hi).2.2.1).symm

theorem TSB_init_letters_witness :
    ∃ tsbp r', TSB_init 0 0 tsb_example_dmem 1 2 tsb_example_raw = some (tsbp, r') ∧
      arll_len tsbp.seg = tsb_example_tasks.length ∧
      (∀ (i : Nat) (hi : i < tsb_example_tasks.length), ∃ letter,
        tsbp.seg.blk_l[i]? = some letter ∧
        TCLetter_ttype letter = tsb_example_tasks[i].type ∧
        some (TCLetter_idx letter : Int) =
          TCDict_key_from_val (tsb_example_dmem (idx2 (1, 2) tsb_example_tasks[i].type))
            tsb_example_tasks[i].req) ∧
      ∀ i, i < TSTT_enumsize → idx2 tsbp.task_cnt i = TSR_size tsb_example_raw i :=
  TSB_init_letters 0 0 tsb_example_dmem 1 2 tsb_example_raw tsb_example_tasks (by decide)
    tsb_example_raw_repr tsb_example_keys


/-! ## Theorems: groups and merging -/

theorem pm_example_wrapped_fields :
    ((pm_example_wrapped.vm 1).pp, (pm_example_wrapped.vm 4).type, (pm_example_wrapped.vm 4).pp,
      (pm_example_wrapped.vm 4).np, (pm_example_wrapped.vm 4).hash,
      (pm_example_wrapped.vm 4).flags) = (4, PMV_wrap, 2, 0, 1, 1) ∧
    ((pm_example_wrapped.vm 2).prevnpp,
      (pm_example_wrapped.vm 4).prevnpp, (pm_example_wrapped.vm 4).gp) =
      (PMVSlot.pp 4, PMVSlot.pp 1, 14) ∧
    ((pm_example_wrapped.cm 1).gctx, (pm_example_wrapped.cm 1).pmvcnt) =
      ({ elem_dll := 14, size := 4, gid_curr := 4 }, [2, 1, 1]) ∧
    ((pm_example_wrapped.gm 14).vpl.blk_l, (pm_example_wrapped.gm 14).next_p,
      (pm_example_wrapped.gm 13).prev_next_pp) = ([4], 13, ElemSlot.next_p 14) := by
  decide!

theorem pm_example_flatten :
    PMV_flatten 12 pm_example.vm (pm_example.cm 1).headp = some [1, 2, 3] ∧
    PMV_flatten 12 pm_example_wrapped.vm (pm_example_wrapped.cm 1).headp = some [1, 2, 3] := by
  decide!

/-- C19 (failing input): `PMVG_merge(12, 13)` on two segment groups of the
example whose member lists were iterated before. The loop of `PMVG_merge`
starts at the cursor of `from->vpl`, which stands at the end: no member is
transferred, the member list of `to` stays `[2]`, the vertex 3 keeps
`gp = 13`, and the group 13 is removed from the context (2 groups are left,
the list of groups starts at 12). With the cursor at the start (second part)
the same call transfers the member: `[2, 3]` and `gp = 12`. -/
theorem PMVG_merge_starts_at_cursor :
    (PMVG_merge 0 pm_example_iterated 12 13).map
      (fun s => ((s.gm 12).vpl.blk_l.take (s.gm 12).vpl.blk_cnt, (s.vm 3).gp,
        (s.cm 1).gctx.size, (s.cm 1).gctx.elem_dll)) = some ([2], 13, 2, 12) ∧
    (PMVG_merge 0 pm_example 12 13).map
      (fun s => ((s.gm 12).vpl.blk_l.take (s.gm 12).vpl.blk_cnt, (s.vm 3).gp,
        (s.cm 1).gctx.size, (s.cm 1).gctx.elem_dll)) = some ([2, 3], 12, 2, 12) := by
  decide!

/-- C18 (failing input): the two segments 2 and 3 of the example are similar
(`PMV_is_similar` returns 1), and `PMV_merge_r(2, 3)`, called after the member
lists of their groups were iterated, returns with the vertex 3 still in the
group 13, which was destroyed, and not in the group 12 of the vertex 2. -/
theorem PMV_merge_r_after_iteration :
    (PMV_is_similar 12 pm_example_iterated.vm 2 3 true).map (fun r => r.2) = some 1 ∧
    (PMV_merge_r 0 5 15 12 pm_example_iterated 2 3).map
      (fun s => ((s.vm 2).gp, (s.vm 3).gp, (s.gm 12).vpl.blk_l.take (s.gm 12).vpl.blk_cnt,
        (s.cm 1).gctx.size)) = some (12, 13, [2], 2) := by
  decide!

theorem PMV_wrap_section_ne_zero (junk fuel : Nat) (s : PMState) (fromp untilp nvp ngp : Nat)
    (s' : PMState) (r : Nat)
    (h : PMV_wrap_section junk fuel s fromp untilp nvp ngp = some (s', r)) : r ≠ 0 := by
  unfold PMV_wrap_section at h
  split at h
  · exact absurd h (by simp)
  split at h
  · exact absurd h (by simp)
  split at h
  · exact absurd h (by simp)
  rename_i s1 nv _
  split at h
  · exact absurd h (by simp)
  rename_i hnv
  split at h
  · exact absurd h (by simp)
  split at h
  · exact absurd h (by simp)
  split at h
  · exact absurd h (by simp)
  split at h
  · exact absurd h (by simp)
  split at h
  · exact absurd h (by simp)
  simp only [Option.some.injEq, Prod.mk.injEq] at h
  rw [← h.2]
  exact hnv

theorem PMV_merge_r_wrap_ne_zero (junk nvp ngp fuel : Nat) (s : PMState) (vwrap vother : Nat)
    (s' : PMState) (r : Nat)
    (h : PMV_merge_r_wrap junk nvp ngp fuel s vwrap vother = some (s', r)) : r ≠ 0 := by
  unfold PMV_merge_r_wrap at h
  split at h
  · exact absurd h (by simp)
  split at h
  · exact absurd h (by simp)
  split at h
  · exact absurd h (by simp)
  exact PMV_wrap_section_ne_zero _ _ _ _ _ _ _ _ _ h

/-- C20 (failing input): `PMV_merge_r` never returns for two vertices of
different types. When one of them is a wrapper and the stems match, the
function reaches `assert(PMV_wrap_section(vother, votherend) == 0)`;
`PMV_wrap_section` returns the wrapper it created, which is not NULL, and the
assertion fails. In every other case an earlier assertion fails. -/
theorem PMV_merge_r_mixed_aborts (junk nvp ngp fuel : Nat) (s : PMState) (v1p v2p : Nat)
    (h1 : v1p ≠ 0) (ht : (s.vm v1p).type ≠ (s.vm v2p).type) :
    PMV_merge_r junk nvp ngp fuel s v1p v2p = none := by
  cases fuel with
  | zero => rfl
  | succ fuel =>
    unfold PMV_merge_r
    rw [if_neg h1]
    split
    · rfl
    split
    · rfl
    split
    · split
      · rfl
      · rename_i s1 r hw
        rw [if_pos (PMV_merge_r_wrap_ne_zero _ _ _ _ _ _ _ _ _ hw)]
    · split
      · split
        · rfl
        · rename_i s1 r hw
          rw [if_pos (PMV_merge_r_wrap_ne_zero _ _ _ _ _ _ _ _ _ hw)]
      · rfl

theorem PMV_merge_r_mixed_aborts_witness :
    (PMV_is_similar 12 pm_example_wrapped.vm 4 3 true).map (fun r => r.2) = some 1 ∧
    (PMV_merge_r_wrap 0 5 15 12 pm_example_wrapped 4 3).map (fun r => r.2) = some 5 ∧
    PMV_merge_r 0 5 15 13 pm_example_wrapped 4 3 = none :=
  ⟨by decide!, by decide!,
    PMV_merge_r_mixed_aborts 0 5 15 13 pm_example_wrapped 4 3 (by decide) (by decide!)⟩


/-! ## Theorems: the PPM tree -/

@[simp]
theorem store_same {α : Type} (m : Nat → α) (a : Nat) (v : α) : store m a v a = v := by
  unfold store
  rw [if_pos rfl]

theorem store_other {α : Type} (m : Nat → α) (a x : Nat) (v : α) (h : x ≠ a) :
    store m a v x = m x := by
  unfold store
  rw [if_neg h]

@[simp]
theorem PMV.with_summary_hash (v : PMV) (h d c : Nat) : (v.with_summary h d c).hash = h := rfl

@[simp]
theorem PMV.with_summary_depth (v : PMV) (h d c : Nat) : (v.with_summary h d c).depth = d := rfl

@[simp]
theorem PMV.with_summary_vcnt (v : PMV) (h d c : Nat) : (v.with_summary h d c).vcnt = c := rfl

@[simp]
theorem PMV.with_summary_flags (v : PMV) (h d c : Nat) :
    (v.with_summary h d c).flags = v.flags := rfl

@[simp]
theorem PMV.with_summary_type (v : PMV) (h d c : Nat) :
    (v.with_summary h d c).type = v.type := rfl

@[simp]
theorem PMV.with_summary_np (v : PMV) (h d c : Nat) : (v.with_summary h d c).np = v.np := rfl

@[simp]
theorem PMV.with_summary_pp (v : PMV) (h d c : Nat) : (v.with_summary h d c).pp = v.pp := rfl

@[simp]
theorem PMV.with_summary_cp (v : PMV) (h d c : Nat) : (v.with_summary h d c).cp = v.cp := rfl

@[simp]
theorem PMV.with_summary_wp (v : PMV) (h d c : Nat) : (v.with_summary h d c).wp = v.pp := rfl

@[simp]
theorem PMV.with_summary_skel (v : PMV) (h d c : Nat) :
    (v.with_summary h d c).skel = v.skel := rfl

@[simp]
theorem PMV.with_flags_hash (v : PMV) (f : Nat) : (v.with_flags f).hash = v.hash := rfl

@[simp]
theorem PMV.with_flags_depth (v : PMV) (f : Nat) : (v.with_flags f).depth = v.depth := rfl

@[simp]
theorem PMV.with_flags_vcnt (v : PMV) (f : Nat) : (v.with_flags f).vcnt = v.vcnt := rfl

@[simp]
theorem PMV.with_flags_flags (v : PMV) (f : Nat) : (v.with_flags f).flags = f := rfl

@[simp]
theorem PMV.with_flags_type (v : PMV) (f : Nat) : (v.with_flags f).type = v.type := rfl

@[simp]
theorem PMV.with_flags_np (v : PMV) (f : Nat) : (v.with_flags f).np = v.np := rfl

@[simp]
theorem PMV.with_flags_pp (v : PMV) (f : Nat) : (v.with_flags f).pp = v.pp := rfl

@[simp]
theorem PMV.with_flags_cp (v : PMV) (f : Nat) : (v.with_flags f).cp = v.cp := rfl

@[simp]
theorem PMV.with_flags_skel (v : PMV) (f : Nat) : (v.with_flags f).skel = v.skel := rfl

@[simp]
theorem PMV.with_flags_noflags (v : PMV) (f : Nat) : (v.with_flags f).noflags = v.noflags := rfl

@[simp]
theorem PMV.wp_eq (v : PMV) : v.wp = v.pp := rfl

theorem hp_pos : 0 < hp := by decide

theorem hfold_lt (h c : Nat) : hfold h c < hp := Nat.mod_lt _ hp_pos

theorem ufold_lt (d c : Nat) : ufold d c < 4294967296 := Nat.mod_lt _ (by decide)

theorem hfold_zero (h : Nat) (hh : h < hp) : hfold h 0 = h := by
  unfold hfold
  unfold hp at hh ⊢
  omega

theorem ufold_zero (d : Nat) (hd : d < 4294967296) : ufold d 0 = d := by
  unfold ufold
  omega

theorem VTree.hash_lt (t : VTree) : t.hash < hp := by
  cases t with
  | nil => exact hp_pos
  | seg a np => exact hfold_lt _ _
  | insc a pp cp np => exact hfold_lt _ _
  | wrap a wp np => exact hfold_lt _ _

theorem VTree.depth_lt (t : VTree) : t.depth < 4294967296 := by
  cases t with
  | nil => decide
  | seg a np => exact ufold_lt _ _
  | insc a pp cp np => exact ufold_lt _ _
  | wrap a wp np => exact ufold_lt _ _

theorem VTree.vcnt_lt (t : VTree) : t.vcnt < 4294967296 := by
  cases t with
  | nil => decide
  | seg a np => exact ufold_lt _ _
  | insc a pp cp np => exact ufold_lt _ _
  | wrap a wp np => exact ufold_lt _ _

theorem VTree.root_ne_zero {m : PMVMem} {t : VTree} (ht : t ≠ VTree.nil) (h : t.Rep m) :
    t.root ≠ 0 := by
  cases t with
  | nil => exact absurd rfl ht
  | seg a np => exact h.1
  | insc a pp cp np => exact h.1
  | wrap a wp np => exact h.1

theorem VTree.eq_nil_of_root {m : PMVMem} {t : VTree} (h : t.Rep m) (h0 : t.root = 0) :
    t = VTree.nil := by
  by_contra hne
  exact VTree.root_ne_zero hne h h0

theorem VTree.root_mem_nodes {t : VTree} (ht : t ≠ VTree.nil) : t.root ∈ t.nodes := by
  cases t with
  | nil => exact absurd rfl ht
  | seg a np => exact List.mem_cons_self _ _
  | insc a pp cp np => exact List.mem_cons_self _ _
  | wrap a wp np => exact List.mem_cons_self _ _

theorem VTree.size_pos {t : VTree} (ht : t ≠ VTree.nil) : 0 < t.size := by
  cases t with
  | nil => exact absurd rfl ht
  | seg a np => unfold VTree.size; omega
  | insc a pp cp np => unfold VTree.size; omega
  | wrap a wp np => unfold VTree.size; omega

theorem PMV.skel_fields {v w : PMV} (h : v.skel = w.skel) :
    v.type = w.type ∧ v.np = w.np ∧ v.pp = w.pp ∧ v.cp = w.cp := by
  unfold PMV.skel at h
  simp only [PMV.mk.injEq] at h
  exact ⟨h.1, h.2.1, h.2.2.2.2.2.2.2.2.2.1, h.2.2.2.2.2.2.2.2.2.2⟩

theorem PMV.skel_of_noflags {v w : PMV} (h : v.noflags = w.noflags) : v.skel = w.skel := by
  unfold PMV.noflags at h
  unfold PMV.skel
  simp only [PMV.mk.injEq] at h ⊢
  exact ⟨h.1, h.2.1, h.2.2.1, h.2.2.2.1, h.2.2.2.2.1, trivial, trivial, trivial, trivial,
    h.2.2.2.2.2.2.2.2.2.1, h.2.2.2.2.2.2.2.2.2.2⟩

theorem PMV.noflags_fields {v w : PMV} (h : v.noflags = w.noflags) :
    v.hash = w.hash ∧ v.depth = w.depth ∧ v.vcnt = w.vcnt := by
  unfold PMV.noflags at h
  simp only [PMV.mk.injEq] at h
  exact ⟨h.2.2.2.2.2.2.2.1, h.2.2.2.2.2.1, h.2.2.2.2.2.2.1⟩

theorem PMV.noflags_of_skel {v w : PMV} (h : v.skel = w.skel) (hh : v.hash = w.hash)
    (hd : v.depth = w.depth) (hc : v.vcnt = w.vcnt) : v.noflags = w.noflags := by
  unfold PMV.skel at h
  unfold PMV.noflags
  simp only [PMV.mk.injEq] at h ⊢
  exact ⟨h.1, h.2.1, h.2.2.1, h.2.2.2.1, h.2.2.2.2.1, hd, hc, hh, trivial,
    h.2.2.2.2.2.2.2.2.2.1, h.2.2.2.2.2.2.2.2.2.2⟩

theorem VTree.Rep_congr {m m' : PMVMem} : ∀ (t : VTree),
    (∀ a ∈ t.nodes, (m' a).skel = (m a).skel) → t.Rep m → t.Rep m' := by
  intro t
  induction t with
  | nil => intro _ _; trivial
  | seg a np ih =>
    intro h hr
    obtain ⟨h0, h1, h2, h3⟩ := hr
    obtain ⟨e1, e2, _, _⟩ := PMV.skel_fields (h a (List.mem_cons_self _ _))
    exact ⟨h0, by rw [e1]; exact h1, by rw [e2]; exact h2,
      ih (fun x hx => h x (List.mem_cons_of_mem _ hx)) h3⟩
  | insc a pp cp np ihp ihc ihn =>
    intro h hr
    obtain ⟨h0, h1, h2, h3, h4, h5, h6, h7⟩ := hr
    obtain ⟨e1, e2, e3, e4⟩ := PMV.skel_fields (h a (List.mem_cons_self _ _))
    refine ⟨h0, by rw [e1]; exact h1, by rw [e3]; exact h2, by rw [e4]; exact h3,
      by rw [e2]; exact h4, ihp (fun x hx => h x ?_) h5, ihc (fun x hx => h x ?_) h6,
      ihn (fun x hx => h x ?_) h7⟩
    · exact List.mem_cons_of_mem _ (List.mem_append_left _ (List.mem_append_left _ hx))
    · exact List.mem_cons_of_mem _ (List.mem_append_left _ (List.mem_append_right _ hx))
    · exact List.mem_cons_of_mem _ (List.mem_append_right _ hx)
  | wrap a wp np ihw ihn =>
    intro h hr
    obtain ⟨h0, h1, h2, h3, h4, h5⟩ := hr
    obtain ⟨e1, e2, e3, _⟩ := PMV.skel_fields (h a (List.mem_cons_self _ _))
    refine ⟨h0, by rw [e1]; exact h1, by rw [e3]; exact h2, by rw [e2]; exact h3,
      ihw (fun x hx => h x ?_) h4, ihn (fun x hx => h x ?_) h5⟩
    · exact List.mem_cons_of_mem _ (List.mem_append_left _ hx)
    · exact List.mem_cons_of_mem _ (List.mem_append_right _ hx)

theorem Stored_congr {m m' : PMVMem} {a : Nat} {t : VTree}
    (h : (m' a).hash = (m a).hash ∧ (m' a).depth = (m a).depth ∧ (m' a).vcnt = (m a).vcnt)
    (hs : Stored m a t) : Stored m' a t := by
  unfold Stored at hs ⊢
  rw [h.1, h.2.1, h.2.2]
  exact hs

theorem VTree.Corr_congr {m m' : PMVMem} : ∀ (t : VTree),
    (∀ a ∈ t.nodes,
      (m' a).hash = (m a).hash ∧ (m' a).depth = (m a).depth ∧ (m' a).vcnt = (m a).vcnt) →
    t.Corr m → t.Corr m' := by
  intro t
  induction t with
  | nil => intro _ _; trivial
  | seg a np ih =>
    intro h hc
    exact ⟨Stored_congr (h a (List.mem_cons_self _ _)) hc.1,
      ih (fun x hx => h x (List.mem_cons_of_mem _ hx)) hc.2⟩
  | insc a pp cp np ihp ihc ihn =>
    intro h hc
    refine ⟨Stored_congr (h a (List.mem_cons_self _ _)) hc.1, ihp (fun x hx => h x ?_) hc.2.1,
      ihc (fun x hx => h x ?_) hc.2.2.1, ihn (fun x hx => h x ?_) hc.2.2.2⟩
    · exact List.mem_cons_of_mem _ (List.mem_append_left _ (List.mem_append_left _ hx))
    · exact List.mem_cons_of_mem _ (List.mem_append_left _ (List.mem_append_right _ hx))
    · exact List.mem_cons_of_mem _ (List.mem_append_right _ hx)
  | wrap a wp np ihw ihn =>
    intro h hc
    refine ⟨Stored_congr (h a (List.mem_cons_self _ _)) hc.1, ihw (fun x hx => h x ?_) hc.2.1,
      ihn (fun x hx => h x ?_) hc.2.2⟩
    · exact List.mem_cons_of_mem _ (List.mem_append_left _ hx)
    · exact List.mem_cons_of_mem _ (List.mem_append_right _ hx)

theorem VTree.Corr_of_eq {m m' : PMVMem} (t : VTree) (h : ∀ a ∈ t.nodes, m' a = m a)
    (hc : t.Corr m) : t.Corr m' :=
  VTree.Corr_congr t (fun a ha => by rw [h a ha]; exact ⟨rfl, rfl, rfl⟩) hc

theorem VTree.Corr_of_noflags {m m' : PMVMem} (t : VTree)
    (h : ∀ a, (m' a).noflags = (m a).noflags) (hc : t.Corr m) : t.Corr m' :=
  VTree.Corr_congr t (fun a _ => PMV.noflags_fields (h a)) hc

theorem VTree.Rep_of_skel {m m' : PMVMem} (t : VTree)
    (h : ∀ a, (m' a).skel = (m a).skel) (hr : t.Rep m) : t.Rep m' :=
  VTree.Rep_congr t (fun a _ => h a) hr

/-- Two memories in which every vertex of the tree stores the summary of its
tree agree on the summaries of these vertices. -/
theorem VTree.Corr_unique {m m' : PMVMem} : ∀ (t : VTree), t.Corr m → t.Corr m' →
    ∀ a ∈ t.nodes,
      (m' a).hash = (m a).hash ∧ (m' a).depth = (m a).depth ∧ (m' a).vcnt = (m a).vcnt := by
  intro t
  induction t with
  | nil => intro _ _ a ha; exact absurd ha (List.not_mem_nil _)
  | seg r np ih =>
    intro h h' a ha
    rcases List.mem_cons.mp ha with e | e
    · subst e
      exact ⟨h'.1.1.trans h.1.1.symm, h'.1.2.1.trans h.1.2.1.symm,
        h'.1.2.2.trans h.1.2.2.symm⟩
    · exact ih h.2 h'.2 a e
  | insc r pp cp np ihp ihc ihn =>
    intro h h' a ha
    rcases List.mem_cons.mp ha with e | e
    · subst e
      exact ⟨h'.1.1.trans h.1.1.symm, h'.1.2.1.trans h.1.2.1.symm,
        h'.1.2.2.trans h.1.2.2.symm⟩
    · rcases List.mem_append.mp e with e | e
      · rcases List.mem_append.mp e with e | e
        · exact ihp h.2.1 h'.2.1 a e
        · exact ihc h.2.2.1 h'.2.2.1 a e
      · exact ihn h.2.2.2 h'.2.2.2 a e
  | wrap r wp np ihw ihn =>
    intro h h' a ha
    rcases List.mem_cons.mp ha with e | e
    · subst e
      exact ⟨h'.1.1.trans h.1.1.symm, h'.1.2.1.trans h.1.2.1.symm,
        h'.1.2.2.trans h.1.2.2.symm⟩
    · rcases List.mem_append.mp e with e | e
      · exact ihw h.2.1 h'.2.1 a e
      · exact ihn h.2.2 h'.2.2 a e

/-- A call that writes only summaries and flags inside the tree, and keeps
the summaries right, writes only flags. -/
theorem EvalPost.noflags {m m' : PMVMem} {t : VTree} {force : Bool}
    (h : EvalPost m m' t force) (hc : t.Corr m) : ∀ a, (m' a).noflags = (m a).noflags := by
  intro a
  by_cases ha : a ∈ t.nodes
  · obtain ⟨e1, e2, e3⟩ := VTree.Corr_unique t hc (h.2.2 (Or.inr hc)) a ha
    exact PMV.noflags_of_skel (h.1 a) e1 e2 e3
  · rw [h.2.1 a ha]

theorem VTree.Corr_root {m : PMVMem} {t : VTree} (ht : t ≠ VTree.nil) (h : t.Corr m) :
    Stored m t.root t := by
  cases t with
  | nil => exact absurd rfl ht
  | seg a np => exact h.1
  | insc a pp cp np => exact h.1
  | wrap a wp np => exact h.1

theorem PMV_eval_child_spec {eval : PMVMem → Nat → Bool → Option PMVMem} {n : Nat}
    (heval : EvalSpec eval n) (m : PMVMem) (c : VTree) (force : Bool) (hc : c ≠ VTree.nil)
    (hrep : c.Rep m) (hnd : c.nodes.Nodup) (hsz : 3 * c.size ≤ n) :
    ∃ m', PMV_eval_child eval m c.root force = some m' ∧ EvalPost m m' c force := by
  unfold PMV_eval_child
  by_cases hcond : force = true ∨ (m c.root).flags &&& PMV_SBIT_evaluated = 0
  · rw [if_pos hcond]
    exact heval m c force hc hrep hnd hsz
  · rw [if_neg hcond]
    refine ⟨m, rfl, fun _ => rfl, fun _ _ => rfl, ?_⟩
    intro h
    rcases h with h | h
    · exact absurd (Or.inl h) hcond
    · exact h


/-! ## Theorems: PMV_eval_r and the similarity functions -/

/-- The block `if (vp->np) { ... }` of `PMV_eval_r`. -/
theorem PMV_eval_r_np_spec {eval : PMVMem → Nat → Bool → Option PMVMem} {n : Nat}
    (heval : EvalSpec eval n) (m : PMVMem) (v : Nat) (npT : VTree) (force : Bool)
    (hnp : (m v).np = npT.root) (hrep : npT.Rep m) (hnd : npT.nodes.Nodup)
    (hv : v ∉ npT.nodes) (hsz : 3 * npT.size ≤ n) :
    ∃ m', PMV_eval_r_np eval m v force = some m' ∧
      (∀ a, (m' a).skel = (m a).skel) ∧
      (∀ a, a ≠ v → a ∉ npT.nodes → m' a = m a) ∧
      (m' v).flags = (m v).flags ∧
      ((force = true ∨ npT.Corr m) → (m v).hash < hp → (m v).depth < 4294967296 →
        (m v).vcnt < 4294967296 → npT.Corr m' ∧
        (m' v).hash = hfold (m v).hash npT.hash ∧
        (m' v).depth = ufold (m v).depth npT.depth ∧
        (m' v).vcnt = ufold (m v).vcnt npT.vcnt) := by
  unfold PMV_eval_r_np
  by_cases hnil : npT = VTree.nil
  · subst hnil
    have h0 : (m v).np = 0 := hnp
    rw [if_pos h0]
    refine ⟨m, rfl, fun _ => rfl, fun _ _ _ => rfl, rfl,
      fun _ hh hd hc => ⟨trivial, ?_, ?_, ?_⟩⟩
    · exact (hfold_zero _ hh).symm
    · exact (ufold_zero _ hd).symm
    · exact (ufold_zero _ hc).symm
  · have hr0 : npT.root ≠ 0 := VTree.root_ne_zero hnil hrep
    rw [if_neg (by rw [hnp]; exact hr0), hnp]
    obtain ⟨m2, h2, hs, hf, hcorr⟩ := PMV_eval_child_spec heval m npT force hnil hrep hnd hsz
    rw [h2]
    have hv2 : m2 v = m v := hf v hv
    refine ⟨_, rfl, ?_, ?_, ?_, ?_⟩
    · intro a
      by_cases ha : a = v
      · subst ha
        rw [store_same, PMV.with_summary_skel]
        exact hs a
      · rw [store_other _ _ _ _ ha]
        exact hs a
    · intro a ha hna
      rw [store_other _ _ _ _ ha]
      exact hf a hna
    · rw [store_same, PMV.with_summary_flags, hv2]
    · intro hsc _ _ _
      have hc2 := hcorr hsc
      have hst := VTree.Corr_root hnil hc2
      refine ⟨VTree.Corr_of_eq npT (fun a ha => store_other _ _ _ _ (fun e => hv (e ▸ ha))) hc2,
        ?_, ?_, ?_⟩
      · rw [store_same, PMV.with_summary_hash, hv2, hnp, hst.1]
        rfl
      · rw [store_same, PMV.with_summary_depth, hv2, hnp, hst.2.1]
        rfl
      · rw [store_same, PMV.with_summary_vcnt, hv2, hnp, hst.2.2]
        rfl

/-- The case `PMV_wrap` of the `switch` of `PMV_eval_r`. -/
theorem PMV_eval_r_wrap_spec {eval : PMVMem → Nat → Bool → Option PMVMem} {n : Nat}
    (heval : EvalSpec eval n) (m : PMVMem) (v : Nat) (wpT : VTree) (force : Bool)
    (hwp : (m v).pp = wpT.root) (hrep : wpT.Rep m) (hnd : wpT.nodes.Nodup)
    (hv : v ∉ wpT.nodes) (hsz : 3 * wpT.size ≤ n) :
    ∃ m', PMV_eval_r_wrap eval m v force = some m' ∧
      (∀ a, (m' a).skel = (m a).skel) ∧
      (∀ a, a ≠ v → a ∉ wpT.nodes → m' a = m a) ∧
      (m' v).flags = (m v).flags ∧
      ((force = true ∨ wpT.Corr m) → wpT.Corr m' ∧
        (m' v).hash = hfold 0 wpT.hash ∧
        (m' v).depth = ufold 0 wpT.depth ∧
        (m' v).vcnt = ufold 0 wpT.vcnt) := by
  unfold PMV_eval_r_wrap
  generalize hm1 : store m v ((m v).with_summary 0 0 0) = m1
  have hm1v : m1 v = (m v).with_summary 0 0 0 := by rw [← hm1, store_same]
  have hm1o : ∀ a, a ≠ v → m1 a = m a := fun a ha => by rw [← hm1, store_other _ _ _ _ ha]
  have hm1n : ∀ a ∈ wpT.nodes, m1 a = m a := fun a ha => hm1o a (fun e => hv (e ▸ ha))
  have hm1s : ∀ a, (m1 a).skel = (m a).skel := by
    intro a
    by_cases ha : a = v
    · subst ha; rw [hm1v]; rfl
    · rw [hm1o a ha]
  have hwp1 : (m1 v).wp = wpT.root := by rw [hm1v]; exact hwp
  dsimp only
  by_cases hnil : wpT = VTree.nil
  · subst hnil
    have h0 : (m1 v).wp = 0 := hwp1
    rw [if_pos h0]
    refine ⟨_, rfl, hm1s, fun a ha _ => hm1o a ha, by rw [hm1v]; rfl,
      fun _ => ⟨trivial, ?_, ?_, ?_⟩⟩
    · rw [hm1v]; rfl
    · rw [hm1v]; rfl
    · rw [hm1v]; rfl
  · have hr0 : wpT.root ≠ 0 := VTree.root_ne_zero hnil hrep
    rw [if_neg (by rw [hwp1]; exact hr0), hwp1]
    obtain ⟨m2, h2, hs, hf, hcorr⟩ := PMV_eval_child_spec heval m1 wpT force hnil
      (VTree.Rep_congr wpT (fun a ha => by rw [hm1n a ha]) hrep) hnd hsz
    rw [h2]
    have hv2 : m2 v = m1 v := hf v hv
    have hwp2 : (m2 v).wp = wpT.root := by rw [hv2]; exact hwp1
    refine ⟨_, rfl, ?_, ?_, ?_, ?_⟩
    · intro a
      by_cases ha : a = v
      · subst ha
        rw [store_same, PMV.with_summary_skel, hs a, hm1s a]
      · rw [store_other _ _ _ _ ha, hs a, hm1s a]
    · intro a ha hna
      rw [store_other _ _ _ _ ha, hf a hna, hm1o a ha]
    · rw [store_same, PMV.with_summary_flags, hv2, hm1v]
      rfl
    · intro hsc
      have hc2 := hcorr (hsc.imp id (VTree.Corr_of_eq wpT hm1n))
      have hst := VTree.Corr_root hnil hc2
      refine ⟨VTree.Corr_of_eq wpT (fun a ha => store_other _ _ _ _ (fun e => hv (e ▸ ha))) hc2,
        ?_, ?_, ?_⟩
      · rw [store_same, PMV.with_summary_hash, hwp2, hst.1, hv2, hm1v]
        rfl
      · rw [store_same, PMV.with_summary_depth, hwp2, hst.2.1, hv2, hm1v]
        rfl
      · rw [store_same, PMV.with_summary_vcnt, hwp2, hst.2.2, hv2, hm1v]
        rfl

/-- The block `if (vp->pp) { ... }` of the case `PMV_insc`. -/
theorem PMV_eval_r_insc_pp_spec {eval : PMVMem → Nat → Bool → Option PMVMem} {n : Nat}
    (heval : EvalSpec eval n) (m : PMVMem) (v : Nat) (ppT : VTree) (force : Bool)
    (hpp : (m v).pp = ppT.root) (hrep : ppT.Rep m) (hnd : ppT.nodes.Nodup)
    (hv : v ∉ ppT.nodes) (hsz : 3 * ppT.size ≤ n)
    (hh : (m v).hash < hp) (hc : (m v).vcnt < 4294967296) :
    ∃ m' md, PMV_eval_r_insc_pp eval m v force = some (m', md) ∧
      (∀ a, (m' a).skel = (m a).skel) ∧
      (∀ a, a ≠ v → a ∉ ppT.nodes → m' a = m a) ∧
      (m' v).flags = (m v).flags ∧ (m' v).depth = (m v).depth ∧
      (m' v).hash < hp ∧ (m' v).vcnt < 4294967296 ∧
      ((force = true ∨ ppT.Corr m) → ppT.Corr m' ∧
        (m' v).hash = hfold (m v).hash ppT.hash ∧
        (m' v).vcnt = ufold (m v).vcnt ppT.vcnt ∧ md = ppT.depth) := by
  unfold PMV_eval_r_insc_pp
  by_cases hnil : ppT = VTree.nil
  · subst hnil
    have h0 : (m v).pp = 0 := hpp
    rw [if_pos h0]
    refine ⟨m, 0, rfl, fun _ => rfl, fun _ _ _ => rfl, rfl, rfl, hh, hc,
      fun _ => ⟨trivial, ?_, ?_, rfl⟩⟩
    · exact (hfold_zero _ hh).symm
    · exact (ufold_zero _ hc).symm
  · have hr0 : ppT.root ≠ 0 := VTree.root_ne_zero hnil hrep
    rw [if_neg (by rw [hpp]; exact hr0), hpp]
    obtain ⟨m2, h2, hs, hf, hcorr⟩ := PMV_eval_child_spec heval m ppT force hnil hrep hnd hsz
    rw [h2]
    have hv2 : m2 v = m v := hf v hv
    have hpp2 : (m2 v).pp = ppT.root := by rw [hv2]; exact hpp
    refine ⟨_, _, rfl, ?_, ?_, ?_, ?_, ?_, ?_, ?_⟩
    · intro a
      by_cases ha : a = v
      · subst ha
        rw [store_same, PMV.with_summary_skel]
        exact hs a
      · rw [store_other _ _ _ _ ha]
        exact hs a
    · intro a ha hna
      rw [store_other _ _ _ _ ha]
      exact hf a hna
    · rw [store_same, PMV.with_summary_flags, hv2]
    · rw [store_same, PMV.with_summary_depth, hv2]
    · rw [store_same, PMV.with_summary_hash]
      exact Nat.mod_lt _ hp_pos
    · rw [store_same, PMV.with_summary_vcnt]
      exact Nat.mod_lt _ (by decide)
    · intro hsc
      have hc2 := hcorr hsc
      have hst := VTree.Corr_root hnil hc2
      refine ⟨VTree.Corr_of_eq ppT (fun a ha => store_other _ _ _ _ (fun e => hv (e ▸ ha))) hc2,
        ?_, ?_, ?_⟩
      · rw [store_same, PMV.with_summary_hash, hpp2, hst.1, hv2]
        rfl
      · rw [store_same, PMV.with_summary_vcnt, hpp2, hst.2.2, hv2]
        rfl
      · rw [hpp2, hst.2.1]

theorem ite_gt_eq_max (a b : Nat) : (if b > a then b else a) = max a b := by
  by_cases h : b > a
  · rw [if_pos h, max_eq_right (Nat.le_of_lt h)]
  · rw [if_neg h, max_eq_left (Nat.le_of_not_lt h)]

/-- The block `if (vp->cp) { ... }` of the case `PMV_insc`. -/
theorem PMV_eval_r_insc_cp_spec {eval : PMVMem → Nat → Bool → Option PMVMem} {n : Nat}
    (heval : EvalSpec eval n) (m : PMVMem) (v : Nat) (cpT : VTree) (force : Bool) (md0 : Nat)
    (hcp : (m v).cp = cpT.root) (hrep : cpT.Rep m) (hnd : cpT.nodes.Nodup)
    (hv : v ∉ cpT.nodes) (hsz : 3 * cpT.size ≤ n)
    (hh : (m v).hash < hp) (hc : (m v).vcnt < 4294967296) :
    ∃ m' md, PMV_eval_r_insc_cp eval m v force md0 = some (m', md) ∧
      (∀ a, (m' a).skel = (m a).skel) ∧
      (∀ a, a ≠ v → a ∉ cpT.nodes → m' a = m a) ∧
      (m' v).flags = (m v).flags ∧ (m' v).depth = (m v).depth ∧
      ((force = true ∨ cpT.Corr m) → cpT.Corr m' ∧
        (m' v).hash = hfold (m v).hash cpT.hash ∧
        (m' v).vcnt = ufold (m v).vcnt cpT.vcnt ∧ md = max md0 cpT.depth) := by
  unfold PMV_eval_r_insc_cp
  by_cases hnil : cpT = VTree.nil
  · subst hnil
    have h0 : (m v).cp = 0 := hcp
    rw [if_pos h0]
    refine ⟨m, md0, rfl, fun _ => rfl, fun _ _ _ => rfl, rfl, rfl,
      fun _ => ⟨trivial, ?_, ?_, ?_⟩⟩
    · exact (hfold_zero _ hh).symm
    · exact (ufold_zero _ hc).symm
    · exact (max_eq_left (Nat.zero_le _)).symm
  · have hr0 : cpT.root ≠ 0 := VTree.root_ne_zero hnil hrep
    rw [if_neg (by rw [hcp]; exact hr0), hcp]
    obtain ⟨m2, h2, hs, hf, hcorr⟩ := PMV_eval_child_spec heval m cpT force hnil hrep hnd hsz
    rw [h2]
    have hv2 : m2 v = m v := hf v hv
    have hcp2 : (m2 v).cp = cpT.root := by rw [hv2]; exact hcp
    refine ⟨_, _, rfl, ?_, ?_, ?_, ?_, ?_⟩
    · intro a
      by_cases ha : a = v
      · subst ha
        rw [store_same, PMV.with_summary_skel]
        exact hs a
      · rw [store_other _ _ _ _ ha]
        exact hs a
    · intro a ha hna
      rw [store_other _ _ _ _ ha]
      exact hf a hna
    · rw [store_same, PMV.with_summary_flags, hv2]
    · rw [store_same, PMV.with_summary_depth, hv2]
    · intro hsc
      have hc2 := hcorr hsc
      have hst := VTree.Corr_root hnil hc2
      refine ⟨VTree.Corr_of_eq cpT (fun a ha => store_other _ _ _ _ (fun e => hv (e ▸ ha))) hc2,
        ?_, ?_, ?_⟩
      · rw [store_same, PMV.with_summary_hash, hcp2, hst.1, hv2]
        rfl
      · rw [store_same, PMV.with_summary_vcnt, hcp2, hst.2.2, hv2]
        rfl
      · rw [hcp2, hst.2.1]
        exact ite_gt_eq_max _ _

/-- The case `PMV_insc` of the `switch` of `PMV_eval_r`. -/
theorem PMV_eval_r_insc_spec {eval : PMVMem → Nat → Bool → Option PMVMem}
    {sim : PMVMem → Nat → Nat → Bool → Option (PMVMem × Nat)} {n : Nat}
    (heval : EvalSpec eval n) (hsim : SimSpec sim n) (m : PMVMem) (v : Nat) (ppT cpT : VTree)
    (force : Bool) (hpp : (m v).pp = ppT.root) (hcp : (m v).cp = cpT.root)
    (hrepp : ppT.Rep m) (hrepc : cpT.Rep m) (hnd : (ppT.nodes ++ cpT.nodes).Nodup)
    (hv : v ∉ ppT.nodes ++ cpT.nodes) (hsz : 3 * (ppT.size + cpT.size) + 2 ≤ n) :
    ∃ m', PMV_eval_r_insc eval sim m v force = some m' ∧
      (∀ a, (m' a).skel = (m a).skel) ∧
      (∀ a, a ≠ v → a ∉ ppT.nodes ++ cpT.nodes → m' a = m a) ∧
      ((force = true ∨ (ppT.Corr m ∧ cpT.Corr m)) → ppT.Corr m' ∧ cpT.Corr m' ∧
        (m' v).hash = hfold (hfold 32768 ppT.hash) cpT.hash ∧
        (m' v).depth = ufold 1 (max ppT.depth cpT.depth) ∧
        (m' v).vcnt = ufold (ufold 1 ppT.vcnt) cpT.vcnt) := by
  obtain ⟨hndp, hndc, hdisj⟩ := List.nodup_append.mp hnd
  have hvp : v ∉ ppT.nodes := fun h => hv (List.mem_append_left _ h)
  have hvc : v ∉ cpT.nodes := fun h => hv (List.mem_append_right _ h)
  unfold PMV_eval_r_insc
  generalize hm1 : store m v ((m v).with_summary 32768 1 1) = m1
  have hm1v : m1 v = (m v).with_summary 32768 1 1 := by rw [← hm1, store_same]
  have hm1o : ∀ a, a ≠ v → m1 a = m a := fun a ha => by rw [← hm1, store_other _ _ _ _ ha]
  have hm1s : ∀ a, (m1 a).skel = (m a).skel := by
    intro a
    by_cases ha : a = v
    · subst ha; rw [hm1v]; rfl
    · rw [hm1o a ha]
  dsimp only
  -- the parent branch
  obtain ⟨m2, md, h2, hs2, hf2, _, hd2, hh2, hc2, hsc2⟩ :=
    PMV_eval_r_insc_pp_spec heval m1 v ppT force (by rw [hm1v]; exact hpp)
      (VTree.Rep_of_skel ppT hm1s hrepp) hndp hvp (by omega)
      (by rw [hm1v, PMV.with_summary_hash]; decide)
      (by rw [hm1v, PMV.with_summary_vcnt]; decide)
  rw [h2]
  dsimp only
  have hs2' : ∀ a, (m2 a).skel = (m a).skel := fun a => (hs2 a).trans (hm1s a)
  -- the child branch
  obtain ⟨m3, md', h3, hs3, hf3, _, hd3, hsc3⟩ :=
    PMV_eval_r_insc_cp_spec heval m2 v cpT force md
      (by rw [(PMV.skel_fields (hs2' v)).2.2.2]; exact hcp)
      (VTree.Rep_of_skel cpT hs2' hrepc) hndc hvc (by omega) hh2 hc2
  rw [h3]
  dsimp only
  have hs3' : ∀ a, (m3 a).skel = (m a).skel := fun a => (hs3 a).trans (hs2' a)
  generalize hm4 : store m3 v ((m3 v).with_summary (m3 v).hash
    (((m3 v).depth + md') % 4294967296) (m3 v).vcnt) = m4
  have hm4v : m4 v = (m3 v).with_summary (m3 v).hash
      (((m3 v).depth + md') % 4294967296) (m3 v).vcnt := by rw [← hm4, store_same]
  have hm4o : ∀ a, a ≠ v → m4 a = m3 a := fun a ha => by rw [← hm4, store_other _ _ _ _ ha]
  have hs4 : ∀ a, (m4 a).skel = (m a).skel := by
    intro a
    by_cases ha : a = v
    · subst ha; rw [hm4v, PMV.with_summary_skel]; exact hs3' a
    · rw [hm4o a ha]; exact hs3' a
  have hpp4 : (m4 v).pp = ppT.root := by rw [(PMV.skel_fields (hs4 v)).2.2.1]; exact hpp
  have hcp4 : (m4 v).cp = cpT.root := by rw [(PMV.skel_fields (hs4 v)).2.2.2]; exact hcp
  rw [hpp4, hcp4]
  obtain ⟨m5, r, h5, hs5, hf5, hn5⟩ := hsim m4 ppT cpT true (VTree.Rep_of_skel ppT hs4 hrepp)
    (VTree.Rep_of_skel cpT hs4 hrepc) hnd hsz
  rw [h5]
  dsimp only
  have hs5' : ∀ a, (m5 a).skel = (m a).skel := fun a => (hs5 a).trans (hs4 a)
  have hv5 : m5 v = m4 v := hf5 v hv
  -- the facts about the memory before the last store
  have hframe5 : ∀ a, a ≠ v → a ∉ ppT.nodes ++ cpT.nodes → m5 a = m a := by
    intro a ha hna
    have hnap : a ∉ ppT.nodes := fun h => hna (List.mem_append_left _ h)
    have hnac : a ∉ cpT.nodes := fun h => hna (List.mem_append_right _ h)
    rw [hf5 a hna, hm4o a ha, hf3 a ha hnac, hf2 a ha hnap, hm1o a ha]
  have hscen : (force = true ∨ (ppT.Corr m ∧ cpT.Corr m)) → ppT.Corr m5 ∧ cpT.Corr m5 ∧
      (m5 v).hash = hfold (hfold 32768 ppT.hash) cpT.hash ∧
      (m5 v).depth = ufold 1 (max ppT.depth cpT.depth) ∧
      (m5 v).vcnt = ufold (ufold 1 ppT.vcnt) cpT.vcnt := by
    intro hsc
    have hm1p : ∀ a ∈ ppT.nodes, m1 a = m a := fun a ha => hm1o a (fun e => hvp (e ▸ ha))
    have hm1c : ∀ a ∈ cpT.nodes, m1 a = m a := fun a ha => hm1o a (fun e => hvc (e ▸ ha))
    obtain ⟨cp2, hh2', hc2', hmd⟩ := hsc2 (hsc.imp id (fun h => VTree.Corr_of_eq ppT hm1p h.1))
    have hm2c : ∀ a ∈ cpT.nodes, m2 a = m1 a :=
      fun a ha => hf2 a (fun e => hvc (e ▸ ha)) (fun h => hdisj h ha)
    obtain ⟨cc3, hh3', hc3', hmd'⟩ := hsc3
      (hsc.imp id (fun h => VTree.Corr_of_eq cpT hm2c (VTree.Corr_of_eq cpT hm1c h.2)))
    have hm3p : ∀ a ∈ ppT.nodes, m3 a = m2 a :=
      fun a ha => hf3 a (fun e => hvp (e ▸ ha)) (fun h => hdisj ha h)
    have cp3 : ppT.Corr m3 := VTree.Corr_of_eq ppT hm3p cp2
    have cp4 : ppT.Corr m4 :=
      VTree.Corr_of_eq ppT (fun a ha => hm4o a (fun e => hvp (e ▸ ha))) cp3
    have cc4 : cpT.Corr m4 :=
      VTree.Corr_of_eq cpT (fun a ha => hm4o a (fun e => hvc (e ▸ ha))) cc3
    have hnf := hn5 ⟨cp4, cc4⟩
    refine ⟨VTree.Corr_of_noflags ppT hnf cp4, VTree.Corr_of_noflags cpT hnf cc4, ?_, ?_, ?_⟩
    · rw [hv5, hm4v, PMV.with_summary_hash, hh3', hh2', hm1v]
      rfl
    · rw [hv5, hm4v, PMV.with_summary_depth, hd3, hd2, hm1v, hmd', hmd]
      rfl
    · rw [hv5, hm4v, PMV.with_summary_vcnt, hc3', hc2', hm1v]
      rfl
  by_cases hr : r ≠ 0
  · rw [if_pos hr]
    refine ⟨_, rfl, ?_, ?_, ?_⟩
    · intro a
      by_cases ha : a = v
      · subst ha; rw [store_same, PMV.with_flags_skel]; exact hs5' a
      · rw [store_other _ _ _ _ ha]; exact hs5' a
    · intro a ha hna
      rw [store_other _ _ _ _ ha]
      exact hframe5 a ha hna
    · intro hsc
      obtain ⟨c1, c2, e1, e2, e3⟩ := hscen hsc
      refine ⟨VTree.Corr_of_eq ppT (fun a ha => store_other _ _ _ _ (fun e => hvp (e ▸ ha))) c1,
        VTree.Corr_of_eq cpT (fun a ha => store_other _ _ _ _ (fun e => hvc (e ▸ ha))) c2,
        ?_, ?_, ?_⟩
      · rw [store_same, PMV.with_flags_hash]; exact e1
      · rw [store_same, PMV.with_flags_depth]; exact e2
      · rw [store_same, PMV.with_flags_vcnt]; exact e3
  · rw [if_neg hr]
    exact ⟨_, rfl, hs5', hframe5, hscen⟩

theorem PMV_type_lt (ty : Nat) (h : ty = PMV_seg ∨ ty = PMV_insc ∨ ty = PMV_wrap) :
    ty < PMV_enumsize := by
  rcases h with h | h | h <;> rw [h] <;> decide

/-- The end of `PMV_eval_r`: the block for `np` and the flag
`PMV_SBIT_evaluated`, for a memory `m1` the `switch` has left. -/
theorem PMV_eval_r_tail_spec {eval : PMVMem → Nat → Bool → Option PMVMem} {n : Nat}
    (heval : EvalSpec eval n) (m1 : PMVMem) (v : Nat) (npT : VTree) (force : Bool)
    (hnp : (m1 v).np = npT.root) (hrep : npT.Rep m1) (hnd : npT.nodes.Nodup)
    (hv : v ∉ npT.nodes) (hsz : 3 * npT.size ≤ n) :
    ∃ m', (match PMV_eval_r_np eval m1 v force with
        | none => none
        | some m2 =>
          some (store m2 v ((m2 v).with_flags ((m2 v).flags ||| PMV_SBIT_evaluated)))) =
        some m' ∧
      (∀ a, (m' a).skel = (m1 a).skel) ∧
      (∀ a, a ≠ v → a ∉ npT.nodes → m' a = m1 a) ∧
      ((force = true ∨ npT.Corr m1) → (m1 v).hash < hp → (m1 v).depth < 4294967296 →
        (m1 v).vcnt < 4294967296 → npT.Corr m' ∧
        (m' v).hash = hfold (m1 v).hash npT.hash ∧
        (m' v).depth = ufold (m1 v).depth npT.depth ∧
        (m' v).vcnt = ufold (m1 v).vcnt npT.vcnt) := by
  obtain ⟨m2, h2, hs, hf, _, hsc⟩ := PMV_eval_r_np_spec heval m1 v npT force hnp hrep hnd hv hsz
  rw [h2]
  refine ⟨_, rfl, ?_, ?_, ?_⟩
  · intro a
    by_cases ha : a = v
    · subst ha; rw [store_same, PMV.with_flags_skel]; exact hs a
    · rw [store_other _ _ _ _ ha]; exact hs a
  · intro a ha hna
    rw [store_other _ _ _ _ ha]
    exact hf a ha hna
  · intro h hh hd hc
    obtain ⟨c, e1, e2, e3⟩ := hsc h hh hd hc
    refine ⟨VTree.Corr_of_eq npT (fun a ha => store_other _ _ _ _ (fun e => hv (e ▸ ha))) c,
      ?_, ?_, ?_⟩
    · rw [store_same, PMV.with_flags_hash]; exact e1
    · rw [store_same, PMV.with_flags_depth]; exact e2
    · rw [store_same, PMV.with_flags_vcnt]; exact e3

/-- The body of `PMV_eval_r` meets the specification of `PMV_eval_r` for a
stack bound of `n + 1` if its callees meet theirs for `n`. -/
theorem PMV_eval_r_body_spec {eval : PMVMem → Nat → Bool → Option PMVMem}
    {sim : PMVMem → Nat → Nat → Bool → Option (PMVMem × Nat)} {n : Nat}
    (heval : EvalSpec eval n) (hsim : SimSpec sim n) :
    EvalSpec (PMV_eval_r_body eval sim) (n + 1) := by
  intro m t force hnil hrep hnd hsz
  cases t with
  | nil => exact absurd rfl hnil
  | seg a np =>
    obtain ⟨ha0, hty, hnp, hrnp⟩ := hrep
    obtain ⟨hanp, hndnp⟩ := List.nodup_cons.mp hnd
    unfold VTree.size at hsz
    unfold PMV_eval_r_body
    simp only [VTree.root]
    rw [if_neg ha0, if_neg (not_not.mpr (PMV_type_lt _ (Or.inl hty)))]
    unfold PMV_eval_r_switch
    rw [if_neg (by rw [hty]; decide), if_neg (by rw [hty]; decide)]
    dsimp only
    generalize hm1 : store m a ((m a).with_summary 1 1 1) = m1
    have hm1v : m1 a = (m a).with_summary 1 1 1 := by rw [← hm1, store_same]
    have hm1o : ∀ x, x ≠ a → m1 x = m x := fun x hx => by rw [← hm1, store_other _ _ _ _ hx]
    have hm1s : ∀ x, (m1 x).skel = (m x).skel := by
      intro x
      by_cases hx : x = a
      · subst hx; rw [hm1v]; rfl
      · rw [hm1o x hx]
    obtain ⟨m', h', hs, hf, hsc⟩ := PMV_eval_r_tail_spec heval m1 a np force
      (by rw [hm1v]; exact hnp) (VTree.Rep_of_skel np hm1s hrnp) hndnp hanp (by omega)
    refine ⟨m', h', fun x => (hs x).trans (hm1s x), ?_, ?_⟩
    · intro x hx
      have hxa : x ≠ a := fun e => hx (e ▸ List.mem_cons_self _ _)
      have hxn : x ∉ np.nodes := fun h => hx (List.mem_cons_of_mem _ h)
      rw [hf x hxa hxn, hm1o x hxa]
    · intro h
      obtain ⟨c, e1, e2, e3⟩ := hsc
        (h.imp id (fun hc => VTree.Corr_of_eq np
          (fun x hx => hm1o x (fun e => hanp (e ▸ hx))) hc.2))
        (by rw [hm1v, PMV.with_summary_hash]; decide)
        (by rw [hm1v, PMV.with_summary_depth]; decide)
        (by rw [hm1v, PMV.with_summary_vcnt]; decide)
      refine ⟨⟨?_, ?_, ?_⟩, c⟩
      · rw [e1, hm1v]; rfl
      · rw [e2, hm1v]; rfl
      · rw [e3, hm1v]; rfl
  | insc a pp cp np =>
    obtain ⟨ha0, hty, hpp, hcp, hnp, hrpp, hrcp, hrnp⟩ := hrep
    obtain ⟨hain, hndall⟩ := List.nodup_cons.mp hnd
    obtain ⟨hndpc, hndnp, hdisj⟩ := List.nodup_append.mp hndall
    have hapc : a ∉ pp.nodes ++ cp.nodes := fun h => hain (List.mem_append_left _ h)
    have hanp : a ∉ np.nodes := fun h => hain (List.mem_append_right _ h)
    unfold VTree.size at hsz
    unfold PMV_eval_r_body
    simp only [VTree.root]
    rw [if_neg ha0, if_neg (not_not.mpr (PMV_type_lt _ (Or.inr (Or.inl hty))))]
    unfold PMV_eval_r_switch
    rw [if_neg (by rw [hty]; decide), if_pos hty]
    obtain ⟨m1, h1, hm1s, hm1f, hm1sc⟩ := PMV_eval_r_insc_spec heval hsim m a pp cp force hpp hcp
      hrpp hrcp hndpc hapc (by omega)
    rw [h1]
    dsimp only
    obtain ⟨m', h', hs, hf, hsc⟩ := PMV_eval_r_tail_spec heval m1 a np force
      (by rw [(PMV.skel_fields (hm1s a)).2.1]; exact hnp) (VTree.Rep_of_skel np hm1s hrnp)
      hndnp hanp (by omega)
    have hm1n : ∀ x ∈ np.nodes, m1 x = m x :=
      fun x hx => hm1f x (fun e => hanp (e ▸ hx)) (fun h => hdisj h hx)
    refine ⟨m', h', fun x => (hs x).trans (hm1s x), ?_, ?_⟩
    · intro x hx
      have hxa : x ≠ a := fun e => hx (e ▸ List.mem_cons_self _ _)
      have hxpc : x ∉ pp.nodes ++ cp.nodes :=
        fun h => hx (List.mem_cons_of_mem _ (List.mem_append_left _ h))
      have hxn : x ∉ np.nodes :=
        fun h => hx (List.mem_cons_of_mem _ (List.mem_append_right _ h))
      rw [hf x hxa hxn, hm1f x hxa hxpc]
    · intro h
      obtain ⟨c1, c2, e1, e2, e3⟩ := hm1sc (h.imp id (fun hc => ⟨hc.2.1, hc.2.2.1⟩))
      obtain ⟨c, f1, f2, f3⟩ := hsc
        (h.imp id (fun hc => VTree.Corr_of_eq np hm1n hc.2.2.2))
        (by rw [e1]; exact hfold_lt _ _) (by rw [e2]; exact ufold_lt _ _)
        (by rw [e3]; exact ufold_lt _ _)
      have hm'p : ∀ x ∈ pp.nodes, m' x = m1 x := fun x hx =>
        hf x (fun e => hapc (e ▸ List.mem_append_left _ hx))
          (fun h => hdisj (List.mem_append_left _ hx) h)
      have hm'c : ∀ x ∈ cp.nodes, m' x = m1 x := fun x hx =>
        hf x (fun e => hapc (e ▸ List.mem_append_right _ hx))
          (fun h => hdisj (List.mem_append_right _ hx) h)
      refine ⟨⟨?_, ?_, ?_⟩, VTree.Corr_of_eq pp hm'p c1, VTree.Corr_of_eq cp hm'c c2, c⟩
      · rw [f1, e1]; rfl
      · rw [f2, e2]; rfl
      · rw [f3, e3]; rfl
  | wrap a wp np =>
    obtain ⟨ha0, hty, hwp, hnp, hrwp, hrnp⟩ := hrep
    obtain ⟨hain, hndall⟩ := List.nodup_cons.mp hnd
    obtain ⟨hndwp, hndnp, hdisj⟩ := List.nodup_append.mp hndall
    have hawp : a ∉ wp.nodes := fun h => hain (List.mem_append_left _ h)
    have hanp : a ∉ np.nodes := fun h => hain (List.mem_append_right _ h)
    unfold VTree.size at hsz
    unfold PMV_eval_r_body
    simp only [VTree.root]
    rw [if_neg ha0, if_neg (not_not.mpr (PMV_type_lt _ (Or.inr (Or.inr hty))))]
    unfold PMV_eval_r_switch
    rw [if_pos hty]
    obtain ⟨m1, h1, hm1s, hm1f, _, hm1sc⟩ := PMV_eval_r_wrap_spec heval m a wp force hwp
      hrwp hndwp hawp (by omega)
    rw [h1]
    dsimp only
    obtain ⟨m', h', hs, hf, hsc⟩ := PMV_eval_r_tail_spec heval m1 a np force
      (by rw [(PMV.skel_fields (hm1s a)).2.1]; exact hnp) (VTree.Rep_of_skel np hm1s hrnp)
      hndnp hanp (by omega)
    have hm1n : ∀ x ∈ np.nodes, m1 x = m x :=
      fun x hx => hm1f x (fun e => hanp (e ▸ hx)) (fun h => hdisj h hx)
    refine ⟨m', h', fun x => (hs x).trans (hm1s x), ?_, ?_⟩
    · intro x hx
      have hxa : x ≠ a := fun e => hx (e ▸ List.mem_cons_self _ _)
      have hxw : x ∉ wp.nodes :=
        fun h => hx (List.mem_cons_of_mem _ (List.mem_append_left _ h))
      have hxn : x ∉ np.nodes :=
        fun h => hx (List.mem_cons_of_mem _ (List.mem_append_right _ h))
      rw [hf x hxa hxn, hm1f x hxa hxw]
    · intro h
      obtain ⟨c1, e1, e2, e3⟩ := hm1sc (h.imp id (fun hc => hc.2.1))
      obtain ⟨c, f1, f2, f3⟩ := hsc
        (h.imp id (fun hc => VTree.Corr_of_eq np hm1n hc.2.2))
        (by rw [e1]; exact hfold_lt _ _) (by rw [e2]; exact ufold_lt _ _)
        (by rw [e3]; exact ufold_lt _ _)
      have hm'w : ∀ x ∈ wp.nodes, m' x = m1 x := fun x hx =>
        hf x (fun e => hawp (e ▸ hx)) (fun h => hdisj hx h)
      refine ⟨⟨?_, ?_, ?_⟩, VTree.Corr_of_eq wp hm'w c1, c⟩
      · rw [f1, e1]; rfl
      · rw [f2, e2]; rfl
      · rw [f3, e3]; rfl


theorem VTree.npt_nodes_subset (t : VTree) : ∀ a ∈ t.npt.nodes, a ∈ t.nodes := by
  intro a ha
  cases t with
  | nil => exact ha
  | seg r np => exact List.mem_cons_of_mem _ ha
  | insc r pp cp np => exact List.mem_cons_of_mem _ (List.mem_append_right _ ha)
  | wrap r wp np => exact List.mem_cons_of_mem _ (List.mem_append_right _ ha)

theorem VTree.npt_size_le (t : VTree) : t.npt.size ≤ t.size := by
  cases t with
  | nil => exact Nat.le_refl _
  | seg r np => simp only [VTree.npt, VTree.size]; omega
  | insc r pp cp np => simp only [VTree.npt, VTree.size]; omega
  | wrap r wp np => simp only [VTree.npt, VTree.size]; omega

theorem VTree.npt_size_lt {t : VTree} (ht : t ≠ VTree.nil) : t.npt.size < t.size := by
  cases t with
  | nil => exact absurd rfl ht
  | seg r np => simp only [VTree.npt, VTree.size]; omega
  | insc r pp cp np => simp only [VTree.npt, VTree.size]; omega
  | wrap r wp np => simp only [VTree.npt, VTree.size]; omega

theorem VTree.npt_Rep {m : PMVMem} {t : VTree} (h : t.Rep m) : t.npt.Rep m := by
  cases t with
  | nil => exact h
  | seg r np => exact h.2.2.2
  | insc r pp cp np => exact h.2.2.2.2.2.2.2
  | wrap r wp np => exact h.2.2.2.2.2

theorem VTree.npt_Corr {m : PMVMem} {t : VTree} (h : t.Corr m) : t.npt.Corr m := by
  cases t with
  | nil => exact h
  | seg r np => exact h.2
  | insc r pp cp np => exact h.2.2.2
  | wrap r wp np => exact h.2.2

theorem VTree.npt_nodup {t : VTree} (h : t.nodes.Nodup) : t.npt.nodes.Nodup := by
  cases t with
  | nil => exact h
  | seg r np => exact (List.nodup_cons.mp h).2
  | insc r pp cp np => exact (List.nodup_append.mp (List.nodup_cons.mp h).2).2.1
  | wrap r wp np => exact (List.nodup_append.mp (List.nodup_cons.mp h).2).2.1

theorem VTree.np_eq_npt_root {m : PMVMem} {t : VTree} (ht : t ≠ VTree.nil) (h : t.Rep m) :
    (m t.root).np = t.npt.root := by
  cases t with
  | nil => exact absurd rfl ht
  | seg r np => exact h.2.2.1
  | insc r pp cp np => exact h.2.2.2.2.1
  | wrap r wp np => exact h.2.2.2.1

theorem StemOf_nodes_subset {t s : VTree} (h : StemOf t s) : ∀ a ∈ s.nodes, a ∈ t.nodes := by
  induction h with
  | refl t => exact fun a ha => ha
  | step t s _ ih => exact fun a ha => VTree.npt_nodes_subset t a (ih a ha)

theorem StemOf_size_le {t s : VTree} (h : StemOf t s) : s.size ≤ t.size := by
  induction h with
  | refl t => exact Nat.le_refl _
  | step t s _ ih => exact Nat.le_trans ih (VTree.npt_size_le t)

theorem StemOf_Rep {m : PMVMem} {t s : VTree} (h : StemOf t s) (hr : t.Rep m) : s.Rep m := by
  induction h with
  | refl t => exact hr
  | step t s _ ih => exact ih (VTree.npt_Rep hr)

theorem StemOf_Corr {m : PMVMem} {t s : VTree} (h : StemOf t s) (hr : t.Corr m) : s.Corr m := by
  induction h with
  | refl t => exact hr
  | step t s _ ih => exact ih (VTree.npt_Corr hr)

theorem StemOf_nodup {t s : VTree} (h : StemOf t s) (hr : t.nodes.Nodup) : s.nodes.Nodup := by
  induction h with
  | refl t => exact hr
  | step t s _ ih => exact ih (VTree.npt_nodup hr)

theorem StemOf_npt {t s : VTree} (h : StemOf t s) : StemOf t s.npt := by
  induction h with
  | refl t => exact StemOf.step t _ (StemOf.refl _)
  | step t s _ ih => exact StemOf.step t _ ih

theorem StemOf_trans {t s u : VTree} (h : StemOf t s) (h' : StemOf s u) : StemOf t u := by
  induction h with
  | refl t => exact h'
  | step t s _ ih => exact StemOf.step t _ (ih h')

theorem Eff_refl (m : PMVMem) (ns : List Nat) (C : Prop) : Eff m m ns C :=
  ⟨fun _ => rfl, fun _ _ => rfl, fun _ _ => rfl⟩

theorem Eff_trans {m m1 m2 : PMVMem} {ns1 ns2 ns : List Nat} {C1 C2 C : Prop}
    (h1 : Eff m m1 ns1 C1) (h2 : Eff m1 m2 ns2 C2)
    (hn1 : ∀ a, a ∈ ns1 → a ∈ ns) (hn2 : ∀ a, a ∈ ns2 → a ∈ ns)
    (hc1 : C → C1) (hc2 : C → (∀ a, (m1 a).noflags = (m a).noflags) → C2) :
    Eff m m2 ns C := by
  refine ⟨fun a => (h2.1 a).trans (h1.1 a), ?_, ?_⟩
  · intro a ha
    rw [h2.2.1 a (fun h => ha (hn2 a h)), h1.2.1 a (fun h => ha (hn1 a h))]
  · intro hc a
    have e1 := h1.2.2 (hc1 hc)
    exact (h2.2.2 (hc2 hc e1) a).trans (e1 a)

theorem Eff_mono {m m' : PMVMem} {ns ns' : List Nat} {C C' : Prop} (h : Eff m m' ns C)
    (hn : ∀ a, a ∈ ns → a ∈ ns') (hc : C' → C) : Eff m m' ns' C' :=
  ⟨h.1, fun a ha => h.2.1 a (fun h' => ha (hn a h')), fun c => h.2.2 (hc c)⟩

theorem Eff_store_flags (m : PMVMem) (v f : Nat) (ns : List Nat) (C : Prop) (hv : v ∈ ns) :
    Eff m (store m v ((m v).with_flags f)) ns C := by
  refine ⟨?_, ?_, fun _ => ?_⟩
  · intro a
    by_cases ha : a = v
    · subst ha; rw [store_same]; rfl
    · rw [store_other _ _ _ _ ha]
  · intro a ha
    rw [store_other _ _ _ _ (fun e => ha (by rw [e]; exact hv))]
  · intro a
    by_cases ha : a = v
    · subst ha; rw [store_same]; rfl
    · rw [store_other _ _ _ _ ha]

theorem Eff_of_EvalPost {m m' : PMVMem} {t : VTree} {force : Bool} (h : EvalPost m m' t force) :
    Eff m m' t.nodes (t.Corr m) :=
  ⟨h.1, h.2.1, fun hc => EvalPost.noflags h hc⟩

theorem VTree.type_inv {m : PMVMem} {t : VTree} (ht : t ≠ VTree.nil) (h : t.Rep m) :
    ((m t.root).type = PMV_seg ∧ ∃ a np, t = VTree.seg a np) ∨
    ((m t.root).type = PMV_insc ∧ ∃ a pp cp np, t = VTree.insc a pp cp np) ∨
    ((m t.root).type = PMV_wrap ∧ ∃ a wp np, t = VTree.wrap a wp np) := by
  cases t with
  | nil => exact absurd rfl ht
  | seg a np => exact Or.inl ⟨h.2.1, a, np, rfl⟩
  | insc a pp cp np => exact Or.inr (Or.inl ⟨h.2.1, a, pp, cp, np, rfl⟩)
  | wrap a wp np => exact Or.inr (Or.inr ⟨h.2.1, a, wp, np, rfl⟩)

theorem roots_ne_of_nodup {ta tb : VTree} (ha : ta ≠ VTree.nil) (hb : tb ≠ VTree.nil)
    (hnd : (ta.nodes ++ tb.nodes).Nodup) : ta.root ≠ tb.root := by
  intro e
  have h1 := VTree.root_mem_nodes ha
  have h2 := VTree.root_mem_nodes hb
  rw [e] at h1
  exact (List.nodup_append.mp hnd).2.2 h1 h2

/-- The body of `PMV_insc_is_symm`. -/
theorem PMV_insc_is_symm_body_spec {eval : PMVMem → Nat → Bool → Option PMVMem} {n : Nat}
    (heval : EvalSpec eval n) : SymSpec (PMV_insc_is_symm_body eval) (n + 1) := by
  intro m a pp cp np hrep hnd hsz
  unfold PMV_insc_is_symm_body
  rw [if_neg hrep.1, if_neg (not_not.mpr hrep.2.1)]
  by_cases hfl : (m a).flags &&& PMV_SBIT_evaluated = 0
  · rw [if_pos hfl]
    obtain ⟨m1, h1, hpost⟩ := heval m (VTree.insc a pp cp np) false (by simp) hrep hnd
      (by omega)
    have h1' : eval m a false = some m1 := h1
    rw [h1']
    exact ⟨m1, _, rfl, Eff_of_EvalPost hpost⟩
  · rw [if_neg hfl]
    exact ⟨m, _, rfl, Eff_refl _ _ _⟩

/-- The ends of a stem are both NULL or both vertices. -/
theorem Ends.ne_zero {m : PMVMem} {ta tb : VTree} {e1 e2 : Nat} (h : Ends ta tb e1 e2)
    (hb : tb.Rep m) (h1 : e1 ≠ 0) :
    e2 ≠ 0 ∧ ∃ sa sb, StemOf ta sa ∧ StemOf tb sb ∧ sa ≠ VTree.nil ∧ sb ≠ VTree.nil ∧
      e1 = sa.root ∧ e2 = sb.root := by
  rcases h with h | ⟨sa, sb, hsa, hsb, hna, hnb, e1', e2'⟩
  · exact absurd h.1 h1
  · exact ⟨by rw [e2']; exact VTree.root_ne_zero hnb (StemOf_Rep hsb hb),
      sa, sb, hsa, hsb, hna, hnb, e1', e2'⟩

/-- The body of `PMV_is_similar`. -/
theorem PMV_is_similar_body_spec
    {fss : PMVMem → Nat → Nat → Bool → Option (PMVMem × Nat × Nat)} {n : Nat}
    (hfss : FssSpec fss n) : SimSpec (PMV_is_similar_body fss) (n + 1) := by
  intro m ta tb cs hra hrb hnd hsz
  unfold PMV_is_similar_body
  by_cases h0 : ta.root = 0
  · rw [if_pos h0]
    exact ⟨m, _, rfl, Eff_refl _ _ _⟩
  · rw [if_neg h0]
    obtain ⟨m1, e1, e2, h1, hpost, hends⟩ := hfss m ta tb cs hra hrb hnd (by omega)
    rw [h1]
    dsimp only
    by_cases he1 : e1 = 0
    · rw [if_pos he1]
      exact ⟨m1, _, rfl, hpost⟩
    · rw [if_neg he1]
      have he2 := (hends.ne_zero hrb he1).1
      rw [if_neg he2]
      by_cases hnp : (m1 e1).np ≠ (m1 e2).np
      · rw [if_pos hnp]
        exact ⟨m1, _, rfl, hpost⟩
      · rw [if_neg hnp]
        exact ⟨m1, _, rfl, hpost⟩

/-- The body of `PMV_find_similar_stem`. -/
theorem PMV_find_similar_stem_body_spec
    {fcs : PMVMem → Nat → Nat → Bool → Option (PMVMem × Nat × Nat)} {n : Nat}
    (hfcs : FcsSpec fcs n) : FssSpec (PMV_find_similar_stem_body fcs) (n + 1) := by
  intro m ta tb cs hra hrb hnd hsz
  unfold PMV_find_similar_stem_body
  by_cases hnil : ta = VTree.nil ∨ tb = VTree.nil
  · have hcond : (ta.root = 0 ∧ tb.root ≠ 0) ∨ (ta.root ≠ 0 ∧ tb.root = 0) ∨
        ta.root = tb.root := by
      rcases hnil with h | h
      · subst h
        by_cases hb : tb.root = 0
        · exact Or.inr (Or.inr hb.symm)
        · exact Or.inl ⟨rfl, hb⟩
      · subst h
        by_cases ha : ta.root = 0
        · exact Or.inr (Or.inr ha)
        · exact Or.inr (Or.inl ⟨ha, rfl⟩)
    have hne : ¬ (ta.root ≠ 0 ∧ ta.root = tb.root) := by
      rintro ⟨h1, h2⟩
      rcases hnil with h | h
      · subst h; exact h1 rfl
      · subst h; exact h1 h2
    rw [if_neg hne, if_pos hcond]
    exact ⟨m, 0, 0, rfl, Eff_refl _ _ _, Or.inl ⟨rfl, rfl⟩⟩
  · have hta : ta ≠ VTree.nil := fun h => hnil (Or.inl h)
    have htb : tb ≠ VTree.nil := fun h => hnil (Or.inr h)
    have ha0 := VTree.root_ne_zero hta hra
    have hb0 := VTree.root_ne_zero htb hrb
    have hab := roots_ne_of_nodup hta htb hnd
    have hma : ta.root ∈ ta.nodes ++ tb.nodes :=
      List.mem_append_left _ (VTree.root_mem_nodes hta)
    have hmb : tb.root ∈ ta.nodes ++ tb.nodes :=
      List.mem_append_right _ (VTree.root_mem_nodes htb)
    rw [if_neg (fun h => hab h.2),
      if_neg (fun h => h.elim (fun h => ha0 h.1) (fun h => h.elim (fun h => hb0 h.2) hab))]
    dsimp only
    have he1 := Eff_store_flags m ta.root
      ((m ta.root).flags ||| PMV_SBIT_commonstem_start_1) (ta.nodes ++ tb.nodes)
      (ta.Corr m ∧ tb.Corr m) hma
    generalize store m ta.root
      ((m ta.root).with_flags ((m ta.root).flags ||| PMV_SBIT_commonstem_start_1)) = m1 at he1 ⊢
    have he2 := Eff_store_flags m1 tb.root
      ((m1 tb.root).flags ||| PMV_SBIT_commonstem_start_2) (ta.nodes ++ tb.nodes)
      (ta.Corr m1 ∧ tb.Corr m1) hmb
    generalize store m1 tb.root
      ((m1 tb.root).with_flags ((m1 tb.root).flags ||| PMV_SBIT_commonstem_start_2)) = m2
      at he2 ⊢
    have he12 : Eff m m2 (ta.nodes ++ tb.nodes) (ta.Corr m ∧ tb.Corr m) :=
      Eff_trans he1 he2 (fun _ h => h) (fun _ h => h) id
        (fun hc hn => ⟨VTree.Corr_of_noflags ta hn hc.1, VTree.Corr_of_noflags tb hn hc.2⟩)
    obtain ⟨m3, e1, e2, h3, hpost3, hends⟩ := hfcs m2 ta tb cs hta htb
      (VTree.Rep_of_skel ta he12.1 hra) (VTree.Rep_of_skel tb he12.1 hrb) hnd (by omega)
    rw [h3]
    dsimp only
    have he13 : Eff m m3 (ta.nodes ++ tb.nodes) (ta.Corr m ∧ tb.Corr m) :=
      Eff_trans he12 hpost3 (fun _ h => h) (fun _ h => h) id
        (fun hc hn => ⟨VTree.Corr_of_noflags ta hn hc.1, VTree.Corr_of_noflags tb hn hc.2⟩)
    have he4 := Eff_store_flags m3 ta.root
      ((m3 ta.root).flags &&& lnot PMV_SBIT_commonstem_start_1) (ta.nodes ++ tb.nodes)
      True hma
    generalize store m3 ta.root
      ((m3 ta.root).with_flags ((m3 ta.root).flags &&& lnot PMV_SBIT_commonstem_start_1)) = m4
      at he4 ⊢
    have he5 := Eff_store_flags m4 tb.root
      ((m4 tb.root).flags &&& lnot PMV_SBIT_commonstem_start_2) (ta.nodes ++ tb.nodes)
      True hmb
    generalize store m4 tb.root
      ((m4 tb.root).with_flags ((m4 tb.root).flags &&& lnot PMV_SBIT_commonstem_start_2)) = m5
      at he5 ⊢
    refine ⟨m5, e1, e2, rfl, ?_, hends⟩
    exact Eff_trans (Eff_trans he13 he4 (fun _ h => h) (fun _ h => h) id (fun _ _ => trivial))
      he5 (fun _ h => h) (fun _ h => h) id (fun _ _ => trivial)

theorem nodup_append_of_subset {A B A' B' : List Nat} (h : (A ++ B).Nodup) (ha : A'.Nodup)
    (hb : B'.Nodup) (hsa : ∀ x, x ∈ A' → x ∈ A) (hsb : ∀ x, x ∈ B' → x ∈ B) :
    (A' ++ B').Nodup :=
  List.nodup_append.mpr ⟨ha, hb, fun _ h1 h2 => (List.nodup_append.mp h).2.2 (hsa _ h1) (hsb _ h2)⟩

theorem SimPost_mono {m m' : PMVMem} {sa sb ta tb : VTree} (h : SimPost m m' sa sb)
    (hna : ∀ x, x ∈ sa.nodes → x ∈ ta.nodes) (hnb : ∀ x, x ∈ sb.nodes → x ∈ tb.nodes)
    (hca : ta.Corr m → sa.Corr m) (hcb : tb.Corr m → sb.Corr m) : SimPost m m' ta tb :=
  Eff_mono h
    (fun x hx => (List.mem_append.mp hx).elim (fun h => List.mem_append_left _ (hna x h))
      (fun h => List.mem_append_right _ (hnb x h)))
    (fun hc => ⟨hca hc.1, hcb hc.2⟩)

theorem SimPost_trans {m m1 m2 : PMVMem} {ta tb : VTree} (h1 : SimPost m m1 ta tb)
    (h2 : SimPost m1 m2 ta tb) : SimPost m m2 ta tb :=
  Eff_trans h1 h2 (fun _ h => h) (fun _ h => h) id
    (fun hc hn => ⟨VTree.Corr_of_noflags ta hn hc.1, VTree.Corr_of_noflags tb hn hc.2⟩)

theorem SimPost_symm {m m' : PMVMem} {ta tb : VTree} (h : SimPost m m' ta tb) :
    SimPost m m' tb ta :=
  Eff_mono h
    (fun _ hx => (List.mem_append.mp hx).elim (fun h => List.mem_append_right _ h)
      (fun h => List.mem_append_left _ h))
    (fun hc => ⟨hc.2, hc.1⟩)

theorem Ends_symm {ta tb : VTree} {e1 e2 : Nat} (h : Ends ta tb e1 e2) : Ends tb ta e2 e1 := by
  rcases h with h | ⟨sa, sb, h1, h2, h3, h4, h5, h6⟩
  · exact Or.inl ⟨h.2, h.1⟩
  · exact Or.inr ⟨sb, sa, h2, h1, h4, h3, h6, h5⟩

/-- One comparison of branches in `_PMV_find_common_stem`. -/
theorem PMV_find_common_stem_branch_spec
    {fss : PMVMem → Nat → Nat → Bool → Option (PMVMem × Nat × Nat)} {n : Nat}
    (hfss : FssSpec fss n) (m : PMVMem) (t1 t2 : VTree) (hr1 : t1.Rep m) (hr2 : t2.Rep m)
    (hnd : (t1.nodes ++ t2.nodes).Nodup) (hsz : 3 * (t1.size + t2.size) + 1 ≤ n) :
    ∃ m' b, PMV_find_common_stem_branch fss m t1.root t2.root = some (m', b) ∧
      SimPost m m' t1 t2 := by
  unfold PMV_find_common_stem_branch
  obtain ⟨m1, e1, e2, h1, hpost, hends⟩ := hfss m t1 t2 true hr1 hr2 hnd hsz
  rw [h1]
  dsimp only
  by_cases he1 : e1 = 0
  · rw [if_pos he1]
    exact ⟨m1, _, rfl, hpost⟩
  · rw [if_neg he1, if_neg (hends.ne_zero hr2 he1).1]
    by_cases hnp : (m1 e1).np ≠ (m1 e2).np
    · rw [if_pos hnp]
      exact ⟨m1, _, rfl, hpost⟩
    · rw [if_neg hnp]
      exact ⟨m1, _, rfl, hpost⟩

/-- The branch of `_PMV_find_common_stem` for a wrapper and a vertex of
another type. -/
theorem PMV_find_common_stem_wrap_spec
    {fss : PMVMem → Nat → Nat → Bool → Option (PMVMem × Nat × Nat)} {n : Nat}
    (hfss : FssSpec fss n) (m : PMVMem) (a : Nat) (wp np tother : VTree) (cs : Bool)
    (hrw : (VTree.wrap a wp np).Rep m) (hro : tother.Rep m)
    (hnd : ((VTree.wrap a wp np).nodes ++ tother.nodes).Nodup)
    (hsz : 3 * ((VTree.wrap a wp np).size + tother.size) ≤ n + 1) :
    ∃ m' r, PMV_find_common_stem_wrap fss m a tother.root cs = some (m', r) ∧
      SimPost m m' (VTree.wrap a wp np) tother ∧
      ∀ we oe, r = some (we, oe) → Ends (VTree.wrap a wp np) tother we oe := by
  obtain ⟨ha0, hty, hwp, hnp, hrwp, hrnp⟩ := hrw
  obtain ⟨hndw, hndo, hdisj⟩ := List.nodup_append.mp hnd
  obtain ⟨hain, hndwn⟩ := List.nodup_cons.mp hndw
  obtain ⟨hndwp, hndnp, _⟩ := List.nodup_append.mp hndwn
  have hsubw : ∀ x, x ∈ wp.nodes → x ∈ (VTree.wrap a wp np).nodes :=
    fun x hx => List.mem_cons_of_mem _ (List.mem_append_left _ hx)
  have hsubn : ∀ x, x ∈ np.nodes → x ∈ (VTree.wrap a wp np).nodes :=
    fun x hx => List.mem_cons_of_mem _ (List.mem_append_right _ hx)
  simp only [VTree.size] at hsz
  unfold PMV_find_common_stem_wrap
  rw [PMV.wp_eq, hwp]
  obtain ⟨m1, we, oe, h1, hpost1, hends1⟩ := hfss m wp tother false hrwp hro
    (nodup_append_of_subset hnd hndwp hndo hsubw (fun _ h => h)) (by omega)
  rw [h1]
  dsimp only
  have hpost1' : SimPost m m1 (VTree.wrap a wp np) tother :=
    SimPost_mono hpost1 hsubw (fun _ h => h) (fun hc => hc.2.1) id
  by_cases hwe : we = 0
  · rw [if_pos hwe]
    refine ⟨m1, _, rfl, hpost1', ?_⟩
    intro we' oe' h
    simp only [Option.some.injEq, Prod.mk.injEq] at h
    exact Or.inl ⟨h.1.symm, h.2.symm⟩
  · rw [if_neg hwe]
    by_cases hwnp : (m1 we).np ≠ 0
    · rw [if_pos hwnp]
      refine ⟨m1, _, rfl, hpost1', ?_⟩
      intro we' oe' h
      simp only [Option.some.injEq, Prod.mk.injEq] at h
      exact Or.inl ⟨h.1.symm, h.2.symm⟩
    · rw [if_neg hwnp]
      obtain ⟨hoe, sa, sb, hsa, hsb, hsan, hsbn, hwe', hoe'⟩ := hends1.ne_zero hro hwe
      rw [if_neg hoe]
      have hro1 : tother.Rep m1 := VTree.Rep_of_skel tother hpost1.1 hro
      have hrsb1 : sb.Rep m1 := StemOf_Rep hsb hro1
      have hnp1 : (m1 a).np = np.root := by
        rw [(PMV.skel_fields (hpost1.1 a)).2.1]; exact hnp
      have hoenp : (m1 oe).np = sb.npt.root := by
        rw [hoe']; exact VTree.np_eq_npt_root hsbn hrsb1
      rw [hnp1, hoenp]
      have hszb : sb.npt.size < tother.size :=
        Nat.lt_of_lt_of_le (VTree.npt_size_lt hsbn) (StemOf_size_le hsb)
      have hsubb : ∀ x, x ∈ sb.npt.nodes → x ∈ tother.nodes :=
        fun x hx => StemOf_nodes_subset hsb x (VTree.npt_nodes_subset sb x hx)
      obtain ⟨m2, we2, oe2, h2, hpost2, hends2⟩ := hfss m1 np sb.npt cs
        (VTree.Rep_of_skel np hpost1.1 hrnp) (VTree.npt_Rep hrsb1)
        (nodup_append_of_subset hnd hndnp (VTree.npt_nodup (StemOf_nodup hsb hndo)) hsubn hsubb)
        (by omega)
      rw [h2]
      dsimp only
      have hpost2' : SimPost m1 m2 (VTree.wrap a wp np) tother :=
        SimPost_mono hpost2 hsubn hsubb (fun hc => hc.2.2)
          (fun hc => VTree.npt_Corr (StemOf_Corr hsb hc))
      have hpost : SimPost m m2 (VTree.wrap a wp np) tother := SimPost_trans hpost1' hpost2'
      by_cases hwe2 : we2 = 0
      · rw [if_pos hwe2]
        refine ⟨m2, _, rfl, hpost, ?_⟩
        intro we' oe' h
        exact absurd h (by simp)
      · rw [if_neg hwe2]
        refine ⟨m2, _, rfl, hpost, ?_⟩
        intro we' oe' h
        simp only [Option.some.injEq, Prod.mk.injEq] at h
        rw [← h.1, ← h.2]
        rcases hends2 with h0 | ⟨ua, ub, hua, hub, huan, hubn, e1, e2⟩
        · exact absurd h0.1 hwe2
        · exact Or.inr ⟨ua, ub, StemOf.step _ _ hua, StemOf_trans (StemOf_npt hsb) hub, huan, hubn, e1, e2⟩

/-- The `switch` of `_PMV_find_common_stem` for two vertices of the same
type. -/
theorem PMV_find_common_stem_switch_spec
    {fss : PMVMem → Nat → Nat → Bool → Option (PMVMem × Nat × Nat)}
    {sym : PMVMem → Nat → Option (PMVMem × Nat)} {n : Nat}
    (hfss : FssSpec fss n) (hsym : SymSpec sym n) (m : PMVMem) (ta tb : VTree)
    (hta : ta ≠ VTree.nil) (htb : tb ≠ VTree.nil) (hra : ta.Rep m) (hrb : tb.Rep m)
    (hnd : (ta.nodes ++ tb.nodes).Nodup) (hty : (m ta.root).type = (m tb.root).type)
    (hsz : 3 * (ta.size + tb.size) ≤ n + 1) :
    ∃ m' b, PMV_find_common_stem_switch fss sym m ta.root tb.root = some (m', b) ∧
      SimPost m m' ta tb := by
  obtain ⟨hnda, hndb, hdisj⟩ := List.nodup_append.mp hnd
  unfold PMV_find_common_stem_switch
  rcases VTree.type_inv hta hra with ⟨hs, _⟩ | ⟨hi, a, pp, cp, np, rfl⟩ | ⟨hw, a, wp, np, rfl⟩
  · rw [if_pos hs]
    exact ⟨m, true, rfl, Eff_refl _ _ _⟩
  · rw [if_neg (by rw [hi]; decide), if_pos hi]
    have htyb : (m tb.root).type = PMV_insc := by rw [← hty]; exact hi
    rcases VTree.type_inv htb hrb with ⟨hs', _⟩ | ⟨_, b, pp', cp', np', rfl⟩ | ⟨hw', _⟩
    · rw [htyb] at hs'; exact absurd hs' (by decide)
    · simp only [VTree.root] at *
      simp only [VTree.size] at hsz
      have hsuba : ∀ (s : VTree), (∀ x, x ∈ s.nodes → x ∈ pp.nodes ++ cp.nodes ++ np.nodes) →
          ∀ x, x ∈ s.nodes → x ∈ (VTree.insc a pp cp np).nodes :=
        fun s h x hx => List.mem_cons_of_mem _ (h x hx)
      have hsubb : ∀ (s : VTree),
          (∀ x, x ∈ s.nodes → x ∈ pp'.nodes ++ cp'.nodes ++ np'.nodes) →
          ∀ x, x ∈ s.nodes → x ∈ (VTree.insc b pp' cp' np').nodes :=
        fun s h x hx => List.mem_cons_of_mem _ (h x hx)
      have hpa := hsuba pp (fun x hx => List.mem_append_left _ (List.mem_append_left _ hx))
      have hca := hsuba cp (fun x hx => List.mem_append_left _ (List.mem_append_right _ hx))
      have hpb := hsubb pp' (fun x hx => List.mem_append_left _ (List.mem_append_left _ hx))
      have hcb := hsubb cp' (fun x hx => List.mem_append_left _ (List.mem_append_right _ hx))
      have hndpa := (List.nodup_append.mp (List.nodup_append.mp (List.nodup_cons.mp hnda).2).1)
      have hndpb := (List.nodup_append.mp (List.nodup_append.mp (List.nodup_cons.mp hndb).2).1)
      -- the two calls of PMV_insc_is_symm
      obtain ⟨m1, s1, h1, he1⟩ := hsym m a pp cp np hra hnda (by simp only [VTree.size]; omega)
      rw [h1]
      dsimp only
      have hrb1 : (VTree.insc b pp' cp' np').Rep m1 := VTree.Rep_of_skel _ he1.1 hrb
      obtain ⟨m2, s2, h2, he2⟩ := hsym m1 b pp' cp' np' hrb1 hndb
        (by simp only [VTree.size]; omega)
      rw [h2]
      dsimp only
      have hpost2 : SimPost m m2 (VTree.insc a pp cp np) (VTree.insc b pp' cp' np') :=
        Eff_trans he1 he2 (fun _ h => List.mem_append_left _ h)
          (fun _ h => List.mem_append_right _ h) (fun hc => hc.1)
          (fun hc hn => VTree.Corr_of_noflags _ hn hc.2)
      by_cases hs12 : s1 ≠ s2
      · rw [if_pos hs12]
        exact ⟨m2, false, rfl, hpost2⟩
      · rw [if_neg hs12]
        have hra2 : (VTree.insc a pp cp np).Rep m2 := VTree.Rep_of_skel _ hpost2.1 hra
        have hrb2 : (VTree.insc b pp' cp' np').Rep m2 := VTree.Rep_of_skel _ hpost2.1 hrb
        rw [hra2.2.2.1, hrb2.2.2.1]
        obtain ⟨m3, b3, h3, he3⟩ := PMV_find_common_stem_branch_spec hfss m2 pp pp'
          hra2.2.2.2.2.2.1 hrb2.2.2.2.2.2.1
          (nodup_append_of_subset hnd hndpa.1 hndpb.1 hpa hpb) (by omega)
        rw [h3]
        have hpost3 : SimPost m m3 (VTree.insc a pp cp np) (VTree.insc b pp' cp' np') :=
          SimPost_trans hpost2 (SimPost_mono he3 hpa hpb (fun hc => hc.2.1) (fun hc => hc.2.1))
        cases b3 with
        | false => exact ⟨m3, false, rfl, hpost3⟩
        | true =>
          dsimp only
          have hra3 : (VTree.insc a pp cp np).Rep m3 := VTree.Rep_of_skel _ hpost3.1 hra
          have hrb3 : (VTree.insc b pp' cp' np').Rep m3 := VTree.Rep_of_skel _ hpost3.1 hrb
          rw [hra3.2.2.2.1, hrb3.2.2.2.1]
          obtain ⟨m4, b4, h4, he4⟩ := PMV_find_common_stem_branch_spec hfss m3 cp cp'
            hra3.2.2.2.2.2.2.1 hrb3.2.2.2.2.2.2.1
            (nodup_append_of_subset hnd hndpa.2.1 hndpb.2.1 hca hcb) (by omega)
          exact ⟨m4, b4, h4, SimPost_trans hpost3
            (SimPost_mono he4 hca hcb (fun hc => hc.2.2.1) (fun hc => hc.2.2.1))⟩
    · rw [htyb] at hw'; exact absurd hw' (by decide)
  · rw [if_neg (by rw [hw]; decide), if_neg (by rw [hw]; decide), if_pos hw]
    have htyb : (m tb.root).type = PMV_wrap := by rw [← hty]; exact hw
    rcases VTree.type_inv htb hrb with ⟨hs', _⟩ | ⟨hi', _⟩ | ⟨_, b, wp', np', rfl⟩
    · rw [htyb] at hs'; exact absurd hs' (by decide)
    · rw [htyb] at hi'; exact absurd hi' (by decide)
    · simp only [VTree.root] at *
      simp only [VTree.size] at hsz
      have hwa : ∀ x, x ∈ wp.nodes → x ∈ (VTree.wrap a wp np).nodes :=
        fun x hx => List.mem_cons_of_mem _ (List.mem_append_left _ hx)
      have hwb : ∀ x, x ∈ wp'.nodes → x ∈ (VTree.wrap b wp' np').nodes :=
        fun x hx => List.mem_cons_of_mem _ (List.mem_append_left _ hx)
      rw [PMV.wp_eq, PMV.wp_eq, hra.2.2.1, hrb.2.2.1]
      obtain ⟨m1, b1, h1, he1⟩ := PMV_find_common_stem_branch_spec hfss m wp wp'
        hra.2.2.2.2.1 hrb.2.2.2.2.1
        (nodup_append_of_subset hnd (List.nodup_append.mp (List.nodup_cons.mp hnda).2).1
          (List.nodup_append.mp (List.nodup_cons.mp hndb).2).1 hwa hwb) (by omega)
      exact ⟨m1, b1, h1, SimPost_mono he1 hwa hwb (fun hc => hc.2.1) (fun hc => hc.2.1)⟩

/-- The body of `_PMV_find_common_stem` meets the specification for a stack
bound of `n + 1` if its callees meet theirs for `n`. -/
theorem PMV_find_common_stem_body_spec
    {fss : PMVMem → Nat → Nat → Bool → Option (PMVMem × Nat × Nat)}
    {sym : PMVMem → Nat → Option (PMVMem × Nat)} {n : Nat}
    (hfss : FssSpec fss n) (hsym : SymSpec sym n) :
    FcsSpec (PMV_find_common_stem_body fss sym) (n + 1) := by
  intro m ta tb cs hta htb hra hrb hnd hsz
  have ha0 := VTree.root_ne_zero hta hra
  have hb0 := VTree.root_ne_zero htb hrb
  have hab := roots_ne_of_nodup hta htb hnd
  obtain ⟨hnda, hndb, hdisj⟩ := List.nodup_append.mp hnd
  have hends_here : Ends ta tb ta.root tb.root :=
    Or.inr ⟨ta, tb, StemOf.refl _, StemOf.refl _, hta, htb, rfl, rfl⟩
  unfold PMV_find_common_stem_body
  rw [if_neg (fun h => hab h.2),
    if_neg (fun h => h.elim (fun h => ha0 h.1) (fun h => h.elim (fun h => hb0 h.2) hab))]
  by_cases hfl : (m ta.root).flags &&& PMV_SBIT_commonstem_start_2 ≠ 0 ∨
      (m tb.root).flags &&& PMV_SBIT_commonstem_start_1 ≠ 0
  · rw [if_pos hfl]
    exact ⟨m, 0, 0, rfl, Eff_refl _ _ _, Or.inl ⟨rfl, rfl⟩⟩
  rw [if_neg hfl]
  by_cases hty : (m ta.root).type ≠ (m tb.root).type
  · rw [if_pos hty]
    by_cases hwa : (m ta.root).type = PMV_wrap
    · rw [if_pos hwa]
      rcases VTree.type_inv hta hra with ⟨hs, _⟩ | ⟨hi, _⟩ | ⟨_, a, wp, np, rfl⟩
      · rw [hwa] at hs; exact absurd hs (by decide)
      · rw [hwa] at hi; exact absurd hi (by decide)
      · obtain ⟨m1, r, h1, hpost, hends⟩ := PMV_find_common_stem_wrap_spec hfss m a wp np tb cs
          hra hrb hnd hsz
        have h1' : PMV_find_common_stem_wrap fss m (VTree.wrap a wp np).root tb.root cs =
            some (m1, r) := h1
        rw [h1']
        cases r with
        | none => exact ⟨m1, _, _, rfl, hpost, hends_here⟩
        | some p =>
          obtain ⟨we, oe⟩ := p
          exact ⟨m1, we, oe, rfl, hpost, hends we oe rfl⟩
    · rw [if_neg hwa]
      by_cases hwb : (m tb.root).type = PMV_wrap
      · rw [if_pos hwb]
        rcases VTree.type_inv htb hrb with ⟨hs, _⟩ | ⟨hi, _⟩ | ⟨_, b, wp, np, rfl⟩
        · rw [hwb] at hs; exact absurd hs (by decide)
        · rw [hwb] at hi; exact absurd hi (by decide)
        · obtain ⟨m1, r, h1, hpost, hends⟩ := PMV_find_common_stem_wrap_spec hfss m b wp np ta
            cs hrb hra (List.nodup_append_comm.mp hnd) (by rw [Nat.add_comm]; exact hsz)
          have h1' : PMV_find_common_stem_wrap fss m (VTree.wrap b wp np).root ta.root cs =
              some (m1, r) := h1
          rw [h1']
          cases r with
          | none => exact ⟨m1, _, _, rfl, SimPost_symm hpost, hends_here⟩
          | some p =>
            obtain ⟨we, oe⟩ := p
            exact ⟨m1, oe, we, rfl, SimPost_symm hpost, Ends_symm (hends we oe rfl)⟩
      · rw [if_neg hwb]
        exact ⟨m, 0, 0, rfl, Eff_refl _ _ _, Or.inl ⟨rfl, rfl⟩⟩
  rw [if_neg hty]
  have hty' : (m ta.root).type = (m tb.root).type := not_not.mp hty
  by_cases hsum : cs = true ∧
      ((m ta.root).hash ≠ (m tb.root).hash ∨ (m ta.root).depth ≠ (m tb.root).depth ∨
        (m ta.root).vcnt ≠ (m tb.root).vcnt)
  · rw [if_pos hsum]
    exact ⟨m, 0, 0, rfl, Eff_refl _ _ _, Or.inl ⟨rfl, rfl⟩⟩
  rw [if_neg hsum]
  obtain ⟨m1, b1, h1, hpost1⟩ := PMV_find_common_stem_switch_spec hfss hsym m ta tb hta htb
    hra hrb hnd hty' hsz
  rw [h1]
  cases b1 with
  | false => exact ⟨m1, 0, 0, rfl, hpost1, Or.inl ⟨rfl, rfl⟩⟩
  | true =>
    dsimp only
    have hra1 : ta.Rep m1 := VTree.Rep_of_skel ta hpost1.1 hra
    have hrb1 : tb.Rep m1 := VTree.Rep_of_skel tb hpost1.1 hrb
    rw [VTree.np_eq_npt_root hta hra1, VTree.np_eq_npt_root htb hrb1]
    have hsa := VTree.npt_size_lt hta
    have hsb := VTree.npt_size_lt htb
    obtain ⟨m2, e1, e2, h2, hpost2, hends2⟩ := hfss m1 ta.npt tb.npt cs (VTree.npt_Rep hra1)
      (VTree.npt_Rep hrb1)
      (nodup_append_of_subset hnd (VTree.npt_nodup hnda) (VTree.npt_nodup hndb)
        (VTree.npt_nodes_subset ta) (VTree.npt_nodes_subset tb)) (by omega)
    rw [h2]
    dsimp only
    have hpost : SimPost m m2 ta tb :=
      SimPost_trans hpost1 (SimPost_mono hpost2 (VTree.npt_nodes_subset ta)
        (VTree.npt_nodes_subset tb) VTree.npt_Corr VTree.npt_Corr)
    by_cases he1 : e1 = 0
    · rw [if_pos he1]
      exact ⟨m2, _, _, rfl, hpost, hends_here⟩
    · rw [if_neg he1]
      refine ⟨m2, e1, e2, rfl, hpost, ?_⟩
      rcases hends2 with h0 | ⟨ua, ub, hua, hub, huan, hubn, f1, f2⟩
      · exact absurd h0.1 he1
      · exact Or.inr ⟨ua, ub, StemOf.step _ _ hua, StemOf.step _ _ hub, huan, hubn, f1, f2⟩

/-- For every stack bound the five functions meet their specifications. -/
theorem PMV_specs : ∀ n : Nat,
    EvalSpec (PMV_eval_r n) n ∧ FssSpec (PMV_find_similar_stem n) n ∧
    FcsSpec (PMV_find_common_stem n) n ∧ SimSpec (PMV_is_similar n) n ∧
    SymSpec (PMV_insc_is_symm n) n := by
  intro n
  induction n with
  | zero =>
    refine ⟨?_, ?_, ?_, ?_, ?_⟩
    · intro m t force hnil _ _ hsz
      have := VTree.size_pos hnil
      omega
    · intro m ta tb cs _ _ _ hsz
      omega
    · intro m ta tb cs hta _ _ _ _ hsz
      have := VTree.size_pos hta
      omega
    · intro m ta tb cs _ _ _ hsz
      omega
    · intro m a pp cp np _ _ hsz
      omega
  | succ n ih =>
    obtain ⟨he, hs, hc, hi, hy⟩ := ih
    refine ⟨?_, ?_, ?_, ?_, ?_⟩
    · exact PMV_eval_r_body_spec he hi
    · exact PMV_find_similar_stem_body_spec hc
    · exact PMV_find_common_stem_body_spec hs hy
    · exact PMV_is_similar_body_spec hs
    · exact PMV_insc_is_symm_body_spec he



/-! ## Theorems: the summary PMV_eval_r computes -/

theorem ufold_le (d c : Nat) : ufold d c ≤ d + c := Nat.mod_le _ _

theorem VTree.depth_le_size (t : VTree) : t.depth ≤ t.size := by
  induction t with
  | nil => exact Nat.le_refl _
  | seg a np ih =>
    simp only [VTree.depth, VTree.size]
    exact Nat.le_trans (ufold_le _ _) (by omega)
  | insc a pp cp np ihp ihc ihn =>
    simp only [VTree.depth, VTree.size]
    have h1 := ufold_le (ufold 1 (max pp.depth cp.depth)) np.depth
    have h2 := ufold_le 1 (max pp.depth cp.depth)
    have h3 : max pp.depth cp.depth ≤ pp.size + cp.size := by
      rcases Nat.le_total pp.depth cp.depth with h | h
      · rw [max_eq_right h]; omega
      · rw [max_eq_left h]; omega
    omega
  | wrap a wp np ihw ihn =>
    simp only [VTree.depth, VTree.size]
    have h1 := ufold_le (ufold 0 wp.depth) np.depth
    have h2 := ufold_le 0 wp.depth
    omega

theorem VTree.vcnt_le_size (t : VTree) : t.vcnt ≤ t.size := by
  induction t with
  | nil => exact Nat.le_refl _
  | seg a np ih =>
    simp only [VTree.vcnt, VTree.size]
    exact Nat.le_trans (ufold_le _ _) (by omega)
  | insc a pp cp np ihp ihc ihn =>
    simp only [VTree.vcnt, VTree.size]
    have h1 := ufold_le (ufold (ufold 1 pp.vcnt) cp.vcnt) np.vcnt
    have h2 := ufold_le (ufold 1 pp.vcnt) cp.vcnt
    have h3 := ufold_le 1 pp.vcnt
    omega
  | wrap a wp np ihw ihn =>
    simp only [VTree.vcnt, VTree.size]
    have h1 := ufold_le (ufold 0 wp.vcnt) np.vcnt
    have h2 := ufold_le 0 wp.vcnt
    omega

theorem PMV_hash_of_root {m : PMVMem} {t : VTree} (hr : t.Rep m) (hc : t.Corr m) :
    PMV_hash_of m t.root = t.hash := by
  unfold PMV_hash_of
  by_cases ht : t = VTree.nil
  · subst ht; rfl
  · rw [if_neg (VTree.root_ne_zero ht hr)]
    exact (VTree.Corr_root ht hc).1

theorem PMV_depth_of_root {m : PMVMem} {t : VTree} (hr : t.Rep m) (hc : t.Corr m) :
    PMV_depth_of m t.root = t.depth := by
  unfold PMV_depth_of
  by_cases ht : t = VTree.nil
  · subst ht; rfl
  · rw [if_neg (VTree.root_ne_zero ht hr)]
    exact (VTree.Corr_root ht hc).2.1

theorem PMV_vcnt_of_root {m : PMVMem} {t : VTree} (hr : t.Rep m) (hc : t.Corr m) :
    PMV_vcnt_of m t.root = t.vcnt := by
  unfold PMV_vcnt_of
  by_cases ht : t = VTree.nil
  · subst ht; rfl
  · rw [if_neg (VTree.root_ne_zero ht hr)]
    exact (VTree.Corr_root ht hc).2.2

/-- In a tree of fewer than 2^32 vertices whose vertices store the summaries
of their trees, every vertex satisfies the equations of its variant. -/
theorem VTree.Corr_summary_eqs {m : PMVMem} : ∀ (t : VTree), t.Rep m → t.Corr m →
    t.size < 4294967296 → ∀ u ∈ t.nodes, PMV_summary_eqs m u := by
  intro t
  induction t with
  | nil => intro _ _ _ u hu; exact absurd hu (List.not_mem_nil _)
  | seg a np ih =>
    intro hr hc hs u hu
    simp only [VTree.size] at hs
    rcases List.mem_cons.mp hu with e | e
    · subst e
      obtain ⟨_, hty, hnp, hrn⟩ := hr
      obtain ⟨⟨e1, e2, e3⟩, hcn⟩ := hc
      have hh := np.hash_lt
      have hd := np.depth_le_size
      have hv := np.vcnt_le_size
      unfold PMV_summary_eqs
      refine ⟨fun _ => ?_, fun h => ?_, fun h => ?_⟩
      · rw [hnp, PMV_hash_of_root hrn hcn, PMV_depth_of_root hrn hcn, PMV_vcnt_of_root hrn hcn,
          e1, e2, e3]
        simp only [VTree.hash, VTree.depth, VTree.vcnt, hfold, ufold]
        unfold hp at hh ⊢
        omega
      · rw [hty] at h; exact absurd h (by decide)
      · rw [hty] at h; exact absurd h (by decide)
    · exact ih hr.2.2.2 hc.2 (by omega) u e
  | insc a pp cp np ihp ihc ihn =>
    intro hr hc hs u hu
    simp only [VTree.size] at hs
    rcases List.mem_cons.mp hu with e | e
    · subst e
      obtain ⟨_, hty, hpp, hcp, hnp, hrp, hrc, hrn⟩ := hr
      obtain ⟨⟨e1, e2, e3⟩, hcp', hcc, hcn⟩ := hc
      have hh1 := pp.hash_lt
      have hh2 := cp.hash_lt
      have hh3 := np.hash_lt
      have hd1 := pp.depth_le_size
      have hd2 := cp.depth_le_size
      have hd3 := np.depth_le_size
      have hv1 := pp.vcnt_le_size
      have hv2 := cp.vcnt_le_size
      have hv3 := np.vcnt_le_size
      unfold PMV_summary_eqs
      refine ⟨fun h => ?_, fun _ => ?_, fun h => ?_⟩
      · rw [hty] at h; exact absurd h (by decide)
      · rw [hnp, hpp, hcp, PMV_hash_of_root hrn hcn, PMV_depth_of_root hrn hcn,
          PMV_vcnt_of_root hrn hcn, PMV_hash_of_root hrp hcp', PMV_depth_of_root hrp hcp',
          PMV_vcnt_of_root hrp hcp', PMV_hash_of_root hrc hcc, PMV_depth_of_root hrc hcc,
          PMV_vcnt_of_root hrc hcc, e1, e2, e3]
        simp only [VTree.hash, VTree.depth, VTree.vcnt, hfold, ufold]
        have hmax : max pp.depth cp.depth ≤ pp.size + cp.size := by
          rcases Nat.le_total pp.depth cp.depth with h | h
          · rw [max_eq_right h]; omega
          · rw [max_eq_left h]; omega
        generalize max pp.depth cp.depth = mx at hmax ⊢
        unfold hp at hh1 hh2 hh3 ⊢
        refine ⟨by omega, by omega, by omega⟩
      · rw [hty] at h; exact absurd h (by decide)
    · rcases List.mem_append.mp e with e | e
      · rcases List.mem_append.mp e with e | e
        · exact ihp hr.2.2.2.2.2.1 hc.2.1 (by omega) u e
        · exact ihc hr.2.2.2.2.2.2.1 hc.2.2.1 (by omega) u e
      · exact ihn hr.2.2.2.2.2.2.2 hc.2.2.2 (by omega) u e
  | wrap a wp np ihw ihn =>
    intro hr hc hs u hu
    simp only [VTree.size] at hs
    rcases List.mem_cons.mp hu with e | e
    · subst e
      obtain ⟨_, hty, hwp, hnp, hrw, hrn⟩ := hr
      obtain ⟨⟨e1, e2, e3⟩, hcw, hcn⟩ := hc
      have hh1 := wp.hash_lt
      have hh3 := np.hash_lt
      have hd1 := wp.depth_le_size
      have hd3 := np.depth_le_size
      have hv1 := wp.vcnt_le_size
      have hv3 := np.vcnt_le_size
      unfold PMV_summary_eqs
      refine ⟨fun h => ?_, fun h => ?_, fun _ => ?_⟩
      · rw [hty] at h; exact absurd h (by decide)
      · rw [hty] at h; exact absurd h (by decide)
      · rw [hnp, PMV.wp_eq, hwp, PMV_hash_of_root hrn hcn, PMV_depth_of_root hrn hcn,
          PMV_vcnt_of_root hrn hcn, PMV_hash_of_root hrw hcw, PMV_depth_of_root hrw hcw,
          PMV_vcnt_of_root hrw hcw, e1, e2, e3]
        simp only [VTree.hash, VTree.depth, VTree.vcnt, hfold, ufold]
        unfold hp at hh1 hh3 ⊢
        refine ⟨by omega, by omega, by omega⟩
    · rcases List.mem_append.mp e with e | e
      · exact ihw hr.2.2.2.2.1 hc.2.1 (by omega) u e
      · exact ihn hr.2.2.2.2.2 hc.2.2 (by omega) u e

theorem pm_example_tree_Rep : pm_example_tree.Rep pm_example_built.vm := by
  unfold pm_example_tree
  simp only [VTree.Rep, VTree.root]
  decide

/-- C13: after `PMV_eval_r(v, 1)` every vertex `u` of the tree under `v`
satisfies the equations of its variant, with a null pointer contributing 0:
S: h = (1 + h(np)) mod P, depth = 1 + depth(np), vcnt = 1 + vcnt(np); I: h =
(2^15 + h(pp) + h(cp) + h(np)) mod P, depth = 1 + max(depth(pp), depth(cp)) +
depth(np), vcnt = 1 + vcnt(pp) + vcnt(cp) + vcnt(np); W: h = (h(wp) + h(np))
mod P, depth = depth(wp) + depth(np), vcnt = vcnt(wp) + vcnt(np). The call
returns for every stack bound of at least three times the number of
vertices, and it changes no pointer and no type. The tree has fewer than 2^32
vertices, so that the 32-bit counters do not wrap. -/
theorem PMV_eval_r_force_summary (m : PMVMem) (t : VTree) (fuel : Nat) (ht : t ≠ VTree.nil)
    (hrep : t.Rep m) (hnd : t.nodes.Nodup) (hsize : t.size < 4294967296)
    (hfuel : 3 * t.size ≤ fuel) :
    ∃ m', PMV_eval_r fuel m t.root true = some m' ∧
      (∀ a, (m' a).skel = (m a).skel) ∧ ∀ u ∈ t.nodes, PMV_summary_eqs m' u := by
  obtain ⟨m', h, hs, _, hc⟩ := (PMV_specs fuel).1 m t true ht hrep hnd hfuel
  exact ⟨m', h, hs, VTree.Corr_summary_eqs t (VTree.Rep_of_skel t hs hrep) (hc (Or.inl rfl))
    hsize⟩

theorem PMV_eval_r_force_summary_witness :
    ∃ m', PMV_eval_r 9 pm_example_built.vm pm_example_tree.root true = some m' ∧
      (∀ a, (m' a).skel = (pm_example_built.vm a).skel) ∧
      ∀ u ∈ pm_example_tree.nodes, PMV_summary_eqs m' u :=
  PMV_eval_r_force_summary pm_example_built.vm pm_example_tree 9 (by decide)
    pm_example_tree_Rep (by decide) (by decide) (by decide)

theorem SubtreeOf_Rep {m : PMVMem} {T t : VTree} (h : SubtreeOf T t) (hr : T.Rep m) :
    t.Rep m := by
  induction h with
  | refl t => exact hr
  | seg_np a np s _ ih => exact ih hr.2.2.2
  | insc_pp a pp cp np s _ ih => exact ih hr.2.2.2.2.2.1
  | insc_cp a pp cp np s _ ih => exact ih hr.2.2.2.2.2.2.1
  | insc_np a pp cp np s _ ih => exact ih hr.2.2.2.2.2.2.2
  | wrap_wp a wp np s _ ih => exact ih hr.2.2.2.2.1
  | wrap_np a wp np s _ ih => exact ih hr.2.2.2.2.2

theorem SubtreeOf_Corr {m : PMVMem} {T t : VTree} (h : SubtreeOf T t) (hr : T.Corr m) :
    t.Corr m := by
  induction h with
  | refl t => exact hr
  | seg_np a np s _ ih => exact ih hr.2
  | insc_pp a pp cp np s _ ih => exact ih hr.2.1
  | insc_cp a pp cp np s _ ih => exact ih hr.2.2.1
  | insc_np a pp cp np s _ ih => exact ih hr.2.2.2
  | wrap_wp a wp np s _ ih => exact ih hr.2.1
  | wrap_np a wp np s _ ih => exact ih hr.2.2

theorem SubtreeOf_nodup {T t : VTree} (h : SubtreeOf T t) (hr : T.nodes.Nodup) :
    t.nodes.Nodup := by
  induction h with
  | refl t => exact hr
  | seg_np a np s _ ih => exact ih (List.nodup_cons.mp hr).2
  | insc_pp a pp cp np s _ ih =>
    exact ih (List.nodup_append.mp (List.nodup_append.mp (List.nodup_cons.mp hr).2).1).1
  | insc_cp a pp cp np s _ ih =>
    exact ih (List.nodup_append.mp (List.nodup_append.mp (List.nodup_cons.mp hr).2).1).2.1
  | insc_np a pp cp np s _ ih =>
    exact ih (List.nodup_append.mp (List.nodup_cons.mp hr).2).2.1
  | wrap_wp a wp np s _ ih => exact ih (List.nodup_append.mp (List.nodup_cons.mp hr).2).1
  | wrap_np a wp np s _ ih => exact ih (List.nodup_append.mp (List.nodup_cons.mp hr).2).2.1

/-- C14: in an IR that has been evaluated once (`m1` is the memory after
`PMV_eval_r(head, 1)` on the tree `T`), a call `PMV_eval_r(v, force)` for a
vertex `v` of the IR, with `force` 0 or 1, returns for every stack bound of at
least three times the number of vertices under `v`, leaves `hash`, `depth` and
`vcnt` of every vertex unchanged, and every vertex under `v` stores the
summary that the bottom-up recomputation from the shape of its tree gives
(`VTree.hash`, `VTree.depth`, `VTree.vcnt`). -/
theorem PMV_eval_r_stable (m0 m1 : PMVMem) (T t : VTree) (fuel0 fuel : Nat) (force : Bool)
    (hrep : T.Rep m0) (hnd : T.nodes.Nodup) (hfuel0 : 3 * T.size ≤ fuel0)
    (heval : PMV_eval_r fuel0 m0 T.root true = some m1)
    (hsub : SubtreeOf T t) (ht : t ≠ VTree.nil) (hfuel : 3 * t.size ≤ fuel) :
    ∃ m2, PMV_eval_r fuel m1 t.root force = some m2 ∧
      (∀ a, (m2 a).hash = (m1 a).hash ∧ (m2 a).depth = (m1 a).depth ∧
        (m2 a).vcnt = (m1 a).vcnt) ∧
      t.Corr m2 := by
  have hT : T ≠ VTree.nil := by
    intro h
    subst h
    cases hsub
    exact ht rfl
  obtain ⟨m1', h1, hs1, _, hc1⟩ := (PMV_specs fuel0).1 m0 T true hT hrep hnd hfuel0
  rw [heval] at h1
  simp only [Option.some.injEq] at h1
  subst h1
  have hc1' := hc1 (Or.inl rfl)
  have hrt : t.Rep m1 := SubtreeOf_Rep hsub (VTree.Rep_of_skel T hs1 hrep)
  have hct : t.Corr m1 := SubtreeOf_Corr hsub hc1'
  obtain ⟨m2, h2, hpost⟩ := (PMV_specs fuel).1 m1 t force ht hrt (SubtreeOf_nodup hsub hnd) hfuel
  exact ⟨m2, h2, fun a => PMV.noflags_fields (EvalPost.noflags hpost hct a),
    hpost.2.2 (Or.inr hct)⟩

theorem PMV_eval_r_stable_witness :
    ∃ m2, PMV_eval_r 9 pm_example.vm pm_example_tree.root false = some m2 ∧
      (∀ a, (m2 a).hash = (pm_example.vm a).hash ∧ (m2 a).depth = (pm_example.vm a).depth ∧
        (m2 a).vcnt = (pm_example.vm a).vcnt) ∧
      pm_example_tree.Corr m2 :=
  PMV_eval_r_stable pm_example_built.vm pm_example.vm pm_example_tree pm_example_tree 12 9 false
    pm_example_tree_Rep (by decide) (by decide) (by
      obtain ⟨m', h, _⟩ := (PMV_specs 12).1 pm_example_built.vm pm_example_tree true (by decide)
        pm_example_tree_Rep (by decide) (by decide)
      have h' : PMV_eval_r 12 pm_example_built.vm 1 true = some m' := h
      show PMV_eval_r 12 pm_example_built.vm 1 true = some pm_example.vm
      unfold pm_example
      simp only [h', Option.getD_some])
    (SubtreeOf.refl _) (by decide) (by decide)


/-! ### `PMV_wrap_section` -/

theorem Elem_init_spec (s : PMState) (ctx ep : Nat) (hc : ctx ≠ 0) (he : ep ≠ 0) :
    ∃ s', Elem_init s ctx ep = some s' ∧ s'.vm = s.vm ∧
      (∀ c, (s'.cm c).headp = (s.cm c).headp) ∧
      (s'.cm ctx).gctx.gid_curr = (s.cm ctx).gctx.gid_curr := by
  unfold Elem_init
  rw [if_neg (by simp [hc, he])]
  refine ⟨_, rfl, ?_, ?_, ?_⟩
  · dsimp only
    split <;> rfl
  · intro c
    dsimp only
    by_cases h : c = ctx
    · subst h
      rw [store_same]
      split <;> rfl
    · rw [store_other _ _ _ _ h]
      split <;> rfl
  · dsimp only
    rw [store_same]
    split <;> rfl

theorem PMVG_init_spec (junk : Nat) (s : PMState) (ctx gp type : Nat) (hc : ctx ≠ 0)
    (hg : gp ≠ 0) (ht : type < PMV_enumsize) :
    ∃ s', PMVG_init junk s ctx gp type = some s' ∧ s'.vm = s.vm ∧
      (∀ c, (s'.cm c).headp = (s.cm c).headp) ∧ (s'.gm gp).cpmv.type = type ∧
      (s'.gm gp).vpl.blk_cnt = 0 ∧ (s'.gm gp).vpl.blk_l.length = 1 ∧
      (s'.gm gp).vpl.blk_lsiz = 1 := by
  obtain ⟨s1, h1, hvm, hhead, -⟩ := Elem_init_spec s ctx gp hc hg
  unfold PMVG_init
  rw [if_neg (by simp [hc, hg]), h1]
  dsimp only
  rw [if_neg (by simpa using ht)]
  have hcons : arll_construct junk sizeof_PMVp 1 =
      some { blk_l := arll_realloc_cells junk sizeof_PMVp [] 1, blk_cnt := 0,
             blk_lsiz := 1, blk_curi := 0 } := by
    unfold arll_construct
    rw [if_neg (by decide)]
  rw [hcons]
  refine ⟨_, rfl, hvm, ?_, ?_, ?_, ?_, ?_⟩
  · intro c
    dsimp only
    by_cases h : c = ctx
    · subst h
      rw [store_same]
      exact hhead c
    · rw [store_other _ _ _ _ h]
      exact hhead c
  · dsimp only
    rw [store_same]
  · dsimp only
    rw [store_same, store_same]
  · dsimp only
    rw [store_same, store_same]
    simp [arll_realloc_cells, realloc_cells, sizeof_PMVp]
  · dsimp only
    rw [store_same, store_same]

theorem arll_push_fresh {α : Type} (junk : α) (blk_siz : Nat) (l : arll α) (blk : α)
    (hcnt : l.blk_cnt = 0) (hlsiz : l.blk_lsiz = 1) (hlen : l.blk_l.length = 1) :
    ∃ r l', arll_push junk blk_siz l blk = some (r, l') ∧ r = 0 := by
  obtain ⟨bl, cnt, lsiz, curi⟩ := l
  simp only at hcnt hlsiz hlen
  subst hcnt hlsiz
  unfold arll_push
  simp only [show ¬ (0 : Nat) = 1 by decide, if_false, hlen]
  exact ⟨_, _, rfl, rfl⟩

theorem PMV_create_spec (junk : Nat) (s : PMState) (ctx type : Nat) (prevnpp : PMVSlot)
    (nvp ngp : Nat) (ht : type < PMV_enumsize) (hc : ctx ≠ 0) (hv : nvp ≠ 0) (hg : ngp ≠ 0) :
    ∃ s', PMV_create junk s ctx type prevnpp nvp ngp = some (s', nvp) ∧
      s'.vm = store s.vm nvp
        { pmv_zero with type := type, prevnpp := prevnpp, gp := ngp, ctxp := ctx } ∧
      (∀ c, (s'.cm c).headp = (s.cm c).headp) := by
  unfold PMV_create
  rw [if_neg (by simpa using ht), if_neg hc, if_neg hv]
  dsimp only
  generalize hs1 : ({ s with
        vm := store s.vm nvp { pmv_zero with type := type, prevnpp := prevnpp, gp := ngp }
        gm := store s.gm ngp pmvg_zero } : PMState) = s1
  obtain ⟨s2, h2, hvm2, hhead2, hty2, hcnt2, hlen2, hlsiz2⟩ :=
    PMVG_init_spec junk s1 ctx ngp type hc hg ht
  rw [h2]
  dsimp only
  have hvm1 : s1.vm = store s.vm nvp
      { pmv_zero with type := type, prevnpp := prevnpp, gp := ngp } := by
    rw [← hs1]
  have hcm1 : s1.cm = s.cm := by rw [← hs1]
  rw [store_same, hvm2, hvm1, store_same]
  dsimp only
  rw [if_neg hg]
  unfold PMVG_addv
  dsimp only
  rw [if_neg (by simp [hg, hv]), store_same]
  dsimp only
  rw [if_neg (by rw [hty2]; exact fun h => h rfl)]
  obtain ⟨r, l', hpush, hr⟩ := arll_push_fresh junk sizeof_PMVp (s2.gm ngp).vpl nvp hcnt2 hlsiz2 hlen2
  rw [hpush]
  dsimp only
  subst hr
  simp only [show ¬ ((0 : Int) = -1) by decide, if_false, ne_eq, not_true_eq_false]
  refine ⟨_, rfl, ?_, ?_⟩
  · dsimp only
    funext a
    by_cases h : a = nvp
    · subst h
      rw [store_same, store_same]
    · rw [store_other _ _ _ _ h, store_other _ _ _ _ h, store_other _ _ _ _ h]
  · intro c
    dsimp only
    by_cases h : c = ctx
    · subst h
      rw [store_same]
      dsimp only
      rw [hhead2, hcm1]
    · rw [store_other _ _ _ _ h, hhead2, hcm1]

theorem VTree.stem_eq {t : VTree} (ht : t ≠ VTree.nil) : t.stem = t.root :: t.npt.stem := by
  cases t with
  | nil => exact absurd rfl ht
  | seg a np => rfl
  | insc a pp cp np => rfl
  | wrap a wp np => rfl

theorem VTree.stem_subset : ∀ (t : VTree), ∀ a ∈ t.stem, a ∈ t.nodes := by
  intro t
  induction t with
  | nil => intro a h; exact h
  | seg r np ih =>
    intro a h
    rcases List.mem_cons.mp h with h | h
    · exact h ▸ List.mem_cons_self _ _
    · exact List.mem_cons_of_mem _ (ih a h)
  | insc r pp cp np _ _ ih =>
    intro a h
    rcases List.mem_cons.mp h with h | h
    · exact h ▸ List.mem_cons_self _ _
    · exact List.mem_cons_of_mem _ (List.mem_append_right _ (ih a h))
  | wrap r wp np _ ih =>
    intro a h
    rcases List.mem_cons.mp h with h | h
    · exact h ▸ List.mem_cons_self _ _
    · exact List.mem_cons_of_mem _ (List.mem_append_right _ (ih a h))

/-- The loop of `PMV_wrap_section` stops at `untilp` if it is on the stem. -/
theorem PMV_wrap_section_loop_spec (m : PMVMem) (untilp : Nat) : ∀ (fuel : Nat) (t : VTree),
    t.Rep m → untilp ∈ t.stem → t.size ≤ fuel →
    PMV_wrap_section_loop fuel m t.root untilp = some untilp := by
  intro fuel
  induction fuel with
  | zero =>
    intro t _ hu hs
    cases t with
    | nil => exact absurd hu (List.not_mem_nil _)
    | seg a np => simp only [VTree.size] at hs; omega
    | insc a pp cp np => simp only [VTree.size] at hs; omega
    | wrap a wp np => simp only [VTree.size] at hs; omega
  | succ n ih =>
    intro t hrep hu hs
    have ht : t ≠ VTree.nil := by
      intro e
      rw [e] at hu
      exact absurd hu (List.not_mem_nil _)
    unfold PMV_wrap_section_loop
    rw [if_neg (VTree.root_ne_zero ht hrep)]
    by_cases hr : t.root = untilp
    · rw [if_pos hr, hr]
    · rw [if_neg hr, VTree.np_eq_npt_root ht hrep]
      rw [VTree.stem_eq ht] at hu
      rcases List.mem_cons.mp hu with h | h
      · exact absurd h.symm hr
      · exact ih t.npt (VTree.npt_Rep hrep) h (by have := VTree.npt_size_lt ht; omega)

/-- The representation of a tree depends only on the types and the pointers
`np`, `pp`, `cp` of its vertices. -/
theorem VTree.Rep_congr_edges {m m' : PMVMem} : ∀ (t : VTree),
    (∀ a ∈ t.nodes, (m' a).type = (m a).type ∧ (m' a).np = (m a).np ∧
      (m' a).pp = (m a).pp ∧ (m' a).cp = (m a).cp) → t.Rep m → t.Rep m' := by
  intro t
  induction t with
  | nil => intro _ _; trivial
  | seg a np ih =>
    intro h hr
    obtain ⟨h0, h1, h2, h3⟩ := hr
    obtain ⟨e1, e2, _, _⟩ := h a (List.mem_cons_self _ _)
    exact ⟨h0, e1.trans h1, e2.trans h2, ih (fun x hx => h x (List.mem_cons_of_mem _ hx)) h3⟩
  | insc a pp cp np ihp ihc ihn =>
    intro h hr
    obtain ⟨h0, h1, h2, h3, h4, h5, h6, h7⟩ := hr
    obtain ⟨e1, e2, e3, e4⟩ := h a (List.mem_cons_self _ _)
    refine ⟨h0, e1.trans h1, e3.trans h2, e4.trans h3, e2.trans h4, ?_, ?_, ?_⟩
    · exact ihp (fun x hx => h x (List.mem_cons_of_mem _
        (List.mem_append_left _ (List.mem_append_left _ hx)))) h5
    · exact ihc (fun x hx => h x (List.mem_cons_of_mem _
        (List.mem_append_left _ (List.mem_append_right _ hx)))) h6
    · exact ihn (fun x hx => h x (List.mem_cons_of_mem _ (List.mem_append_right _ hx))) h7
  | wrap a wp np ihw ihn =>
    intro h hr
    obtain ⟨h0, h1, h2, h3, h4, h5⟩ := hr
    obtain ⟨e1, e2, e3, _⟩ := h a (List.mem_cons_self _ _)
    refine ⟨h0, e1.trans h1, e3.trans h2, e2.trans h3, ?_, ?_⟩
    · exact ihw (fun x hx => h x (List.mem_cons_of_mem _ (List.mem_append_left _ hx))) h4
    · exact ihn (fun x hx => h x (List.mem_cons_of_mem _ (List.mem_append_right _ hx))) h5

theorem VTree.upto_nodes_subset (u : Nat) : ∀ (t : VTree), ∀ a ∈ (t.upto u).nodes, a ∈ t.nodes := by
  intro t
  induction t with
  | nil => intro a h; exact h
  | seg r np ih =>
    intro a h
    unfold VTree.upto at h
    split at h
    · simp only [VTree.nodes, List.mem_cons, List.not_mem_nil, or_false] at h
      exact h ▸ List.mem_cons_self _ _
    · rcases List.mem_cons.mp h with h | h
      · exact h ▸ List.mem_cons_self _ _
      · exact List.mem_cons_of_mem _ (ih a h)
  | insc r pp cp np _ _ ih =>
    intro a h
    unfold VTree.upto at h
    split at h
    · simp only [VTree.nodes, List.append_nil, List.mem_cons, List.mem_append] at h
      simp only [VTree.nodes, List.mem_cons, List.mem_append]
      tauto
    · simp only [VTree.nodes, List.mem_cons, List.mem_append] at h
      simp only [VTree.nodes, List.mem_cons, List.mem_append]
      rcases h with h | h | h
      · exact Or.inl h
      · exact Or.inr (Or.inl h)
      · exact Or.inr (Or.inr (ih a h))
  | wrap r wp np _ ih =>
    intro a h
    unfold VTree.upto at h
    split at h
    · simp only [VTree.nodes, List.append_nil, List.mem_cons] at h
      simp only [VTree.nodes, List.mem_cons, List.mem_append]
      tauto
    · simp only [VTree.nodes, List.mem_cons, List.mem_append] at h
      simp only [VTree.nodes, List.mem_cons, List.mem_append]
      rcases h with h | h | h
      · exact Or.inl h
      · exact Or.inr (Or.inl h)
      · exact Or.inr (Or.inr (ih a h))

theorem VTree.after_nodes_subset (u : Nat) : ∀ (t : VTree), ∀ a ∈ (t.after u).nodes, a ∈ t.nodes := by
  intro t
  induction t with
  | nil => intro a h; exact h
  | seg r np ih =>
    intro a h
    unfold VTree.after at h
    split at h
    · exact List.mem_cons_of_mem _ h
    · exact List.mem_cons_of_mem _ (ih a h)
  | insc r pp cp np _ _ ih =>
    intro a h
    unfold VTree.after at h
    split at h
    · exact List.mem_cons_of_mem _ (List.mem_append_right _ h)
    · exact List.mem_cons_of_mem _ (List.mem_append_right _ (ih a h))
  | wrap r wp np _ ih =>
    intro a h
    unfold VTree.after at h
    split at h
    · exact List.mem_cons_of_mem _ (List.mem_append_right _ h)
    · exact List.mem_cons_of_mem _ (List.mem_append_right _ (ih a h))

theorem VTree.upto_root (u : Nat) (t : VTree) : (t.upto u).root = t.root := by
  cases t with
  | nil => rfl
  | seg a np => unfold VTree.upto; split <;> rfl
  | insc a pp cp np => unfold VTree.upto; split <;> rfl
  | wrap a wp np => unfold VTree.upto; split <;> rfl

theorem VTree.upto_ne_nil (u : Nat) {t : VTree} (ht : t ≠ VTree.nil) : t.upto u ≠ VTree.nil := by
  cases t with
  | nil => exact absurd rfl ht
  | seg a np => unfold VTree.upto; split <;> exact fun h => VTree.noConfusion h
  | insc a pp cp np => unfold VTree.upto; split <;> exact fun h => VTree.noConfusion h
  | wrap a wp np => unfold VTree.upto; split <;> exact fun h => VTree.noConfusion h

theorem VTree.upto_append_after (u : Nat) : ∀ (t : VTree), u ∈ t.stem →
    (t.upto u).nodes ++ (t.after u).nodes = t.nodes := by
  intro t
  induction t with
  | nil => intro h; exact absurd h (List.not_mem_nil _)
  | seg a np ih =>
    intro h
    unfold VTree.upto VTree.after
    by_cases e : a = u
    · rw [if_pos e, if_pos e]; rfl
    · rw [if_neg e, if_neg e]
      have h2 : u ∈ np.stem := by
        rcases List.mem_cons.mp h with h | h
        · exact absurd h.symm e
        · exact h
      simp only [VTree.nodes, List.cons_append]
      rw [ih h2]
  | insc a pp cp np _ _ ih =>
    intro h
    unfold VTree.upto VTree.after
    by_cases e : a = u
    · rw [if_pos e, if_pos e]; simp only [VTree.nodes, List.append_nil, List.cons_append]
    · rw [if_neg e, if_neg e]
      have h2 : u ∈ np.stem := by
        rcases List.mem_cons.mp h with h | h
        · exact absurd h.symm e
        · exact h
      simp only [VTree.nodes, List.cons_append, List.append_assoc]
      rw [ih h2]
  | wrap a wp np _ ih =>
    intro h
    unfold VTree.upto VTree.after
    by_cases e : a = u
    · rw [if_pos e, if_pos e]; simp only [VTree.nodes, List.append_nil, List.cons_append]
    · rw [if_neg e, if_neg e]
      have h2 : u ∈ np.stem := by
        rcases List.mem_cons.mp h with h | h
        · exact absurd h.symm e
        · exact h
      simp only [VTree.nodes, List.cons_append, List.append_assoc]
      rw [ih h2]

theorem VTree.upto_size_add_after (u : Nat) : ∀ (t : VTree), u ∈ t.stem →
    (t.upto u).size + (t.after u).size = t.size := by
  intro t
  induction t with
  | nil => intro h; exact absurd h (List.not_mem_nil _)
  | seg a np ih =>
    intro h
    unfold VTree.upto VTree.after
    by_cases e : a = u
    · rw [if_pos e, if_pos e]; simp only [VTree.size]
    · rw [if_neg e, if_neg e]
      have h2 : u ∈ np.stem := by
        rcases List.mem_cons.mp h with h | h
        · exact absurd h.symm e
        · exact h
      have := ih h2
      simp only [VTree.size]; omega
  | insc a pp cp np _ _ ih =>
    intro h
    unfold VTree.upto VTree.after
    by_cases e : a = u
    · rw [if_pos e, if_pos e]; simp only [VTree.size]; omega
    · rw [if_neg e, if_neg e]
      have h2 : u ∈ np.stem := by
        rcases List.mem_cons.mp h with h | h
        · exact absurd h.symm e
        · exact h
      have := ih h2
      simp only [VTree.size]; omega
  | wrap a wp np _ ih =>
    intro h
    unfold VTree.upto VTree.after
    by_cases e : a = u
    · rw [if_pos e, if_pos e]; simp only [VTree.size]; omega
    · rw [if_neg e, if_neg e]
      have h2 : u ∈ np.stem := by
        rcases List.mem_cons.mp h with h | h
        · exact absurd h.symm e
        · exact h
      have := ih h2
      simp only [VTree.size]; omega

theorem VTree.mem_upto (u : Nat) : ∀ (t : VTree), u ∈ t.stem → u ∈ (t.upto u).nodes := by
  intro t
  induction t with
  | nil => intro h; exact absurd h (List.not_mem_nil _)
  | seg a np ih =>
    intro h
    unfold VTree.upto
    by_cases e : a = u
    · rw [if_pos e]; exact e ▸ List.mem_cons_self _ _
    · rw [if_neg e]
      rcases List.mem_cons.mp h with h | h
      · exact absurd h.symm e
      · exact List.mem_cons_of_mem _ (ih h)
  | insc a pp cp np _ _ ih =>
    intro h
    unfold VTree.upto
    by_cases e : a = u
    · rw [if_pos e]; exact e ▸ List.mem_cons_self _ _
    · rw [if_neg e]
      rcases List.mem_cons.mp h with h | h
      · exact absurd h.symm e
      · exact List.mem_cons_of_mem _ (List.mem_append_right _ (ih h))
  | wrap a wp np _ ih =>
    intro h
    unfold VTree.upto
    by_cases e : a = u
    · rw [if_pos e]; exact e ▸ List.mem_cons_self _ _
    · rw [if_neg e]
      rcases List.mem_cons.mp h with h | h
      · exact absurd h.symm e
      · exact List.mem_cons_of_mem _ (List.mem_append_right _ (ih h))

theorem VTree.after_Rep {m : PMVMem} (u : Nat) : ∀ (t : VTree), t.Rep m → (t.after u).Rep m := by
  intro t
  induction t with
  | nil => intro h; exact h
  | seg a np ih =>
    intro h
    unfold VTree.after
    split
    · exact h.2.2.2
    · exact ih h.2.2.2
  | insc a pp cp np _ _ ih =>
    intro h
    unfold VTree.after
    split
    · exact h.2.2.2.2.2.2.2
    · exact ih h.2.2.2.2.2.2.2
  | wrap a wp np _ ih =>
    intro h
    unfold VTree.after
    split
    · exact h.2.2.2.2.2
    · exact ih h.2.2.2.2.2

theorem VTree.after_root {m : PMVMem} (u : Nat) : ∀ (t : VTree), t.Rep m → u ∈ t.stem →
    (t.after u).root = (m u).np := by
  intro t
  induction t with
  | nil => intro _ h; exact absurd h (List.not_mem_nil _)
  | seg a np ih =>
    intro hr h
    unfold VTree.after
    by_cases e : a = u
    · rw [if_pos e, ← e]; exact hr.2.2.1.symm
    · rw [if_neg e]
      rcases List.mem_cons.mp h with h | h
      · exact absurd h.symm e
      · exact ih hr.2.2.2 h
  | insc a pp cp np _ _ ih =>
    intro hr h
    unfold VTree.after
    by_cases e : a = u
    · rw [if_pos e, ← e]; exact hr.2.2.2.2.1.symm
    · rw [if_neg e]
      rcases List.mem_cons.mp h with h | h
      · exact absurd h.symm e
      · exact ih hr.2.2.2.2.2.2.2 h
  | wrap a wp np _ ih =>
    intro hr h
    unfold VTree.after
    by_cases e : a = u
    · rw [if_pos e, ← e]; exact hr.2.2.2.1.symm
    · rw [if_neg e]
      rcases List.mem_cons.mp h with h | h
      · exact absurd h.symm e
      · exact ih hr.2.2.2.2.2 h

/-- The vertex `u` of the stem is not below its own `np` pointer. -/
theorem VTree.not_mem_after (u : Nat) (t : VTree) (hnd : t.nodes.Nodup) (hu : u ∈ t.stem) :
    u ∉ (t.after u).nodes := by
  intro h
  have h1 := VTree.mem_upto u t hu
  rw [← VTree.upto_append_after u t hu] at hnd
  exact (List.nodup_append.mp hnd).2.2 h1 h

/-- The section of the stem up to `u` is held by a memory that differs from
`m` in the `np` pointer of `u`, which is NULL. -/
theorem VTree.upto_Rep {m m' : PMVMem} (u : Nat) (hu0 : (m' u).np = 0) : ∀ (t : VTree),
    t.Rep m → t.nodes.Nodup → u ∈ t.stem →
    (∀ a ∈ t.nodes, (m' a).type = (m a).type ∧ (a ≠ u → (m' a).np = (m a).np) ∧
      (m' a).pp = (m a).pp ∧ (m' a).cp = (m a).cp) →
    (t.upto u).Rep m' := by
  intro t
  induction t with
  | nil => intro _ _ h; exact absurd h (List.not_mem_nil _)
  | seg a np ih =>
    intro hr hnd h hm
    obtain ⟨h0, h1, h2, h3⟩ := hr
    obtain ⟨e1, e2, _, _⟩ := hm a (List.mem_cons_self _ _)
    unfold VTree.upto
    by_cases e : a = u
    · rw [if_pos e]
      exact ⟨h0, e1.trans h1, by rw [e]; exact hu0, trivial⟩
    · rw [if_neg e]
      have h' : u ∈ np.stem := by
        rcases List.mem_cons.mp h with h | h
        · exact absurd h.symm e
        · exact h
      refine ⟨h0, e1.trans h1, ?_, ?_⟩
      · rw [VTree.upto_root, e2 e]; exact h2
      · exact ih h3 (List.nodup_cons.mp hnd).2 h' (fun x hx => hm x (List.mem_cons_of_mem _ hx))
  | insc a pp cp np _ _ ih =>
    intro hr hnd h hm
    obtain ⟨h0, h1, h2, h3, h4, h5, h6, h7⟩ := hr
    obtain ⟨e1, e2, e3, e4⟩ := hm a (List.mem_cons_self _ _)
    have hnd' := List.nodup_cons.mp hnd
    have hndp := List.nodup_append.mp hnd'.2
    have hndpc := List.nodup_append.mp hndp.1
    have hpp : pp.Rep m' := by
      refine VTree.Rep_congr_edges pp (fun x hx => ?_) h5
      have hx' : x ∈ (VTree.insc a pp cp np).nodes :=
        List.mem_cons_of_mem _ (List.mem_append_left _ (List.mem_append_left _ hx))
      obtain ⟨f1, f2, f3, f4⟩ := hm x hx'
      refine ⟨f1, f2 ?_, f3, f4⟩
      intro exu
      rcases List.mem_cons.mp h with h | h
      · rw [exu, h] at hx'
        exact hnd'.1 (List.mem_append_left _ (List.mem_append_left _ (by rw [← h, ← exu]; exact hx)))
      · exact hndp.2.2 (List.mem_append_left _ hx) (exu ▸ VTree.stem_subset np u h)
    have hcp : cp.Rep m' := by
      refine VTree.Rep_congr_edges cp (fun x hx => ?_) h6
      have hx' : x ∈ (VTree.insc a pp cp np).nodes :=
        List.mem_cons_of_mem _ (List.mem_append_left _ (List.mem_append_right _ hx))
      obtain ⟨f1, f2, f3, f4⟩ := hm x hx'
      refine ⟨f1, f2 ?_, f3, f4⟩
      intro exu
      rcases List.mem_cons.mp h with h | h
      · exact hnd'.1 (List.mem_append_left _ (List.mem_append_right _ (by rw [← h, ← exu]; exact hx)))
      · exact hndp.2.2 (List.mem_append_right _ hx) (exu ▸ VTree.stem_subset np u h)
    unfold VTree.upto
    by_cases e : a = u
    · rw [if_pos e]
      exact ⟨h0, e1.trans h1, e3.trans h2, e4.trans h3, by rw [e]; exact hu0, hpp, hcp, trivial⟩
    · rw [if_neg e]
      have h' : u ∈ np.stem := by
        rcases List.mem_cons.mp h with h | h
        · exact absurd h.symm e
        · exact h
      refine ⟨h0, e1.trans h1, e3.trans h2, e4.trans h3, ?_, hpp, hcp, ?_⟩
      · rw [VTree.upto_root, e2 e]; exact h4
      · exact ih h7 hndp.2.1 h'
          (fun x hx => hm x (List.mem_cons_of_mem _ (List.mem_append_right _ hx)))
  | wrap a wp np _ ih =>
    intro hr hnd h hm
    obtain ⟨h0, h1, h2, h3, h4, h5⟩ := hr
    obtain ⟨e1, e2, e3, _⟩ := hm a (List.mem_cons_self _ _)
    have hnd' := List.nodup_cons.mp hnd
    have hndp := List.nodup_append.mp hnd'.2
    have hwp : wp.Rep m' := by
      refine VTree.Rep_congr_edges wp (fun x hx => ?_) h4
      have hx' : x ∈ (VTree.wrap a wp np).nodes :=
        List.mem_cons_of_mem _ (List.mem_append_left _ hx)
      obtain ⟨f1, f2, f3, f4⟩ := hm x hx'
      refine ⟨f1, f2 ?_, f3, f4⟩
      intro exu
      rcases List.mem_cons.mp h with h | h
      · exact hnd'.1 (List.mem_append_left _ (by rw [← h, ← exu]; exact hx))
      · exact hndp.2.2 hx (exu ▸ VTree.stem_subset np u h)
    unfold VTree.upto
    by_cases e : a = u
    · rw [if_pos e]
      exact ⟨h0, e1.trans h1, e3.trans h2, by rw [e]; exact hu0, hwp, trivial⟩
    · rw [if_neg e]
      have h' : u ∈ np.stem := by
        rcases List.mem_cons.mp h with h | h
        · exact absurd h.symm e
        · exact h
      refine ⟨h0, e1.trans h1, e3.trans h2, ?_, hwp, ?_⟩
      · rw [VTree.upto_root, e2 e]; exact h3
      · exact ih h5 hndp.2.1 h'
          (fun x hx => hm x (List.mem_cons_of_mem _ (List.mem_append_right _ hx)))

@[simp]
theorem PMV.with_np_type (v : PMV) (p : Nat) : (v.with_np p).type = v.type := rfl

@[simp]
theorem PMV.with_np_np (v : PMV) (p : Nat) : (v.with_np p).np = p := rfl

@[simp]
theorem PMV.with_np_prevnpp (v : PMV) (p : Nat) : (v.with_np p).prevnpp = v.prevnpp := rfl

@[simp]
theorem PMV.with_np_gp (v : PMV) (p : Nat) : (v.with_np p).gp = v.gp := rfl

@[simp]
theorem PMV.with_np_ctxp (v : PMV) (p : Nat) : (v.with_np p).ctxp = v.ctxp := rfl

@[simp]
theorem PMV.with_np_depth (v : PMV) (p : Nat) : (v.with_np p).depth = v.depth := rfl

@[simp]
theorem PMV.with_np_vcnt (v : PMV) (p : Nat) : (v.with_np p).vcnt = v.vcnt := rfl

@[simp]
theorem PMV.with_np_hash (v : PMV) (p : Nat) : (v.with_np p).hash = v.hash := rfl

@[simp]
theorem PMV.with_np_flags (v : PMV) (p : Nat) : (v.with_np p).flags = v.flags := rfl

@[simp]
theorem PMV.with_np_pp (v : PMV) (p : Nat) : (v.with_np p).pp = v.pp := rfl

@[simp]
theorem PMV.with_np_cp (v : PMV) (p : Nat) : (v.with_np p).cp = v.cp := rfl

@[simp]
theorem PMV.with_pp_type (v : PMV) (p : Nat) : (v.with_pp p).type = v.type := rfl

@[simp]
theorem PMV.with_pp_np (v : PMV) (p : Nat) : (v.with_pp p).np = v.np := rfl

@[simp]
theorem PMV.with_pp_prevnpp (v : PMV) (p : Nat) : (v.with_pp p).prevnpp = v.prevnpp := rfl

@[simp]
theorem PMV.with_pp_gp (v : PMV) (p : Nat) : (v.with_pp p).gp = v.gp := rfl

@[simp]
theorem PMV.with_pp_ctxp (v : PMV) (p : Nat) : (v.with_pp p).ctxp = v.ctxp := rfl

@[simp]
theorem PMV.with_pp_depth (v : PMV) (p : Nat) : (v.with_pp p).depth = v.depth := rfl

@[simp]
theorem PMV.with_pp_vcnt (v : PMV) (p : Nat) : (v.with_pp p).vcnt = v.vcnt := rfl

@[simp]
theorem PMV.with_pp_hash (v : PMV) (p : Nat) : (v.with_pp p).hash = v.hash := rfl

@[simp]
theorem PMV.with_pp_flags (v : PMV) (p : Nat) : (v.with_pp p).flags = v.flags := rfl

@[simp]
theorem PMV.with_pp_pp (v : PMV) (p : Nat) : (v.with_pp p).pp = p := rfl

@[simp]
theorem PMV.with_pp_cp (v : PMV) (p : Nat) : (v.with_pp p).cp = v.cp := rfl

@[simp]
theorem PMV.with_cp_type (v : PMV) (p : Nat) : (v.with_cp p).type = v.type := rfl

@[simp]
theorem PMV.with_cp_np (v : PMV) (p : Nat) : (v.with_cp p).np = v.np := rfl

@[simp]
theorem PMV.with_cp_prevnpp (v : PMV) (p : Nat) : (v.with_cp p).prevnpp = v.prevnpp := rfl

@[simp]
theorem PMV.with_cp_gp (v : PMV) (p : Nat) : (v.with_cp p).gp = v.gp := rfl

@[simp]
theorem PMV.with_cp_ctxp (v : PMV) (p : Nat) : (v.with_cp p).ctxp = v.ctxp := rfl

@[simp]
theorem PMV.with_cp_depth (v : PMV) (p : Nat) : (v.with_cp p).depth = v.depth := rfl

@[simp]
theorem PMV.with_cp_vcnt (v : PMV) (p : Nat) : (v.with_cp p).vcnt = v.vcnt := rfl

@[simp]
theorem PMV.with_cp_hash (v : PMV) (p : Nat) : (v.with_cp p).hash = v.hash := rfl

@[simp]
theorem PMV.with_cp_flags (v : PMV) (p : Nat) : (v.with_cp p).flags = v.flags := rfl

@[simp]
theorem PMV.with_cp_pp (v : PMV) (p : Nat) : (v.with_cp p).pp = v.pp := rfl

@[simp]
theorem PMV.with_cp_cp (v : PMV) (p : Nat) : (v.with_cp p).cp = p := rfl

@[simp]
theorem PMV.with_prevnpp_type (v : PMV) (p : PMVSlot) : (v.with_prevnpp p).type = v.type := rfl

@[simp]
theorem PMV.with_prevnpp_np (v : PMV) (p : PMVSlot) : (v.with_prevnpp p).np = v.np := rfl

@[simp]
theorem PMV.with_prevnpp_prevnpp (v : PMV) (p : PMVSlot) : (v.with_prevnpp p).prevnpp = p := rfl

@[simp]
theorem PMV.with_prevnpp_gp (v : PMV) (p : PMVSlot) : (v.with_prevnpp p).gp = v.gp := rfl

@[simp]
theorem PMV.with_prevnpp_ctxp (v : PMV) (p : PMVSlot) : (v.with_prevnpp p).ctxp = v.ctxp := rfl

@[simp]
theorem PMV.with_prevnpp_depth (v : PMV) (p : PMVSlot) : (v.with_prevnpp p).depth = v.depth := rfl

@[simp]
theorem PMV.with_prevnpp_vcnt (v : PMV) (p : PMVSlot) : (v.with_prevnpp p).vcnt = v.vcnt := rfl

@[simp]
theorem PMV.with_prevnpp_hash (v : PMV) (p : PMVSlot) : (v.with_prevnpp p).hash = v.hash := rfl

@[simp]
theorem PMV.with_prevnpp_flags (v : PMV) (p : PMVSlot) : (v.with_prevnpp p).flags = v.flags := rfl

@[simp]
theorem PMV.with_prevnpp_pp (v : PMV) (p : PMVSlot) : (v.with_prevnpp p).pp = v.pp := rfl

@[simp]
theorem PMV.with_prevnpp_cp (v : PMV) (p : PMVSlot) : (v.with_prevnpp p).cp = v.cp := rfl

/-- The fields of a memory after a store, read at any address. -/
theorem store_apply {α : Type} (m : Nat → α) (a b : Nat) (v : α) :
    store m a v b = if b = a then v else m b := rfl

/-- The store through a slot that is not NULL writes one pointer. -/
theorem PMVSlot_store_spec (s : PMState) (slot : PMVSlot) (p : Nat) (h : slot ≠ PMVSlot.null) :
    ∃ s', PMVSlot_store s slot p = some s' ∧
      (∀ b, (s'.vm b).type = (s.vm b).type ∧
        (s'.vm b).np = (if slot = PMVSlot.np b then p else (s.vm b).np) ∧
        (s'.vm b).pp = (if slot = PMVSlot.pp b then p else (s.vm b).pp) ∧
        (s'.vm b).cp = (if slot = PMVSlot.cp b then p else (s.vm b).cp) ∧
        (s'.vm b).prevnpp = (s.vm b).prevnpp) ∧
      (∀ c, (s'.cm c).headp = if slot = PMVSlot.headp c then p else (s.cm c).headp) := by
  cases slot with
  | null => exact absurd rfl h
  | headp c =>
    refine ⟨_, rfl, fun b => ⟨rfl, ?_, ?_, ?_, rfl⟩, fun c' => ?_⟩
    · rw [if_neg (fun e => PMVSlot.noConfusion e)]
    · rw [if_neg (fun e => PMVSlot.noConfusion e)]
    · rw [if_neg (fun e => PMVSlot.noConfusion e)]
    · simp only [store_apply, PMVSlot.headp.injEq]
      by_cases e : c' = c
      · rw [if_pos e, if_pos e.symm]
      · rw [if_neg e, if_neg (fun e' => e e'.symm)]
  | np v =>
    refine ⟨_, rfl, fun b => ?_, fun c' => ?_⟩
    · by_cases e : b = v
      · subst e
        simp [PMVSlot_store, store_apply]
      · have e' : ¬ v = b := fun h => e h.symm
        simp [PMVSlot_store, store_apply, e, e']
    · rw [if_neg (fun e => PMVSlot.noConfusion e)]
  | pp v =>
    refine ⟨_, rfl, fun b => ?_, fun c' => ?_⟩
    · by_cases e : b = v
      · subst e
        simp [PMVSlot_store, store_apply]
      · have e' : ¬ v = b := fun h => e h.symm
        simp [PMVSlot_store, store_apply, e, e']
    · rw [if_neg (fun e => PMVSlot.noConfusion e)]
  | cp v =>
    refine ⟨_, rfl, fun b => ?_, fun c' => ?_⟩
    · by_cases e : b = v
      · subst e
        simp [PMVSlot_store, store_apply]
      · have e' : ¬ v = b := fun h => e h.symm
        simp [PMVSlot_store, store_apply, e, e']
    · rw [if_neg (fun e => PMVSlot.noConfusion e)]

theorem store_with_np_fields (m : PMVMem) (a p b : Nat) :
    (store m a ((m a).with_np p) b).type = (m b).type ∧
    (store m a ((m a).with_np p) b).np = (if b = a then p else (m b).np) ∧
    (store m a ((m a).with_np p) b).pp = (m b).pp ∧
    (store m a ((m a).with_np p) b).cp = (m b).cp ∧
    (store m a ((m a).with_np p) b).prevnpp = (m b).prevnpp := by
  by_cases e : b = a
  · subst e
    simp [store_apply]
  · simp [store_apply, e]

theorem store_with_pp_fields (m : PMVMem) (a p b : Nat) :
    (store m a ((m a).with_pp p) b).type = (m b).type ∧
    (store m a ((m a).with_pp p) b).np = (m b).np ∧
    (store m a ((m a).with_pp p) b).pp = (if b = a then p else (m b).pp) ∧
    (store m a ((m a).with_pp p) b).cp = (m b).cp ∧
    (store m a ((m a).with_pp p) b).prevnpp = (m b).prevnpp := by
  by_cases e : b = a
  · subst e
    simp [store_apply]
  · simp [store_apply, e]

theorem store_with_prevnpp_fields (m : PMVMem) (a : Nat) (p : PMVSlot) (b : Nat) :
    (store m a ((m a).with_prevnpp p) b).type = (m b).type ∧
    (store m a ((m a).with_prevnpp p) b).np = (m b).np ∧
    (store m a ((m a).with_prevnpp p) b).pp = (m b).pp ∧
    (store m a ((m a).with_prevnpp p) b).cp = (m b).cp ∧
    (store m a ((m a).with_prevnpp p) b).prevnpp = (if b = a then p else (m b).prevnpp) := by
  by_cases e : b = a
  · subst e
    simp [store_apply]
  · simp [store_apply, e]

theorem PMV_wrap_section_relink_spec (s s1 : PMState) (slot : PMVSlot)
    (fromp untilp nvp ngp ctx : Nat)
    (hvm : s1.vm = store s.vm nvp
      { pmv_zero with type := PMV_wrap, prevnpp := slot, gp := ngp, ctxp := ctx })
    (hhead : ∀ c, (s1.cm c).headp = (s.cm c).headp)
    (hslot : slot ≠ PMVSlot.null) (hown : slot.owner ≠ nvp) (hownu : slot.owner ≠ untilp)
    (hf : fromp ≠ nvp) (hu : untilp ≠ nvp) (hx : (s.vm untilp).np ≠ nvp)
    (hxf : (s.vm untilp).np ≠ fromp) :
    ∃ s7, PMV_wrap_section_relink s1 fromp untilp nvp = some s7 ∧
      WrapEdges s s7 slot fromp untilp nvp := by
  unfold PMV_wrap_section_relink
  dsimp only
  have G1 : ∀ b, (s1.vm b).type = (if b = nvp then PMV_wrap else (s.vm b).type) ∧
      (s1.vm b).np = (if b = nvp then 0 else (s.vm b).np) ∧
      (s1.vm b).pp = (if b = nvp then 0 else (s.vm b).pp) ∧
      (s1.vm b).cp = (if b = nvp then 0 else (s.vm b).cp) ∧
      (s1.vm b).prevnpp = (if b = nvp then slot else (s.vm b).prevnpp) := by
    intro b
    rw [hvm]
    by_cases e : b = nvp
    · subst e
      simp [store_apply, pmv_zero]
    · simp [store_apply, e]
  generalize hm2 : store s1.vm nvp ((s1.vm nvp).with_pp fromp) = m2
  have G2 := fun b => store_with_pp_fields s1.vm nvp fromp b
  rw [hm2] at G2
  have hsl : (m2 nvp).prevnpp = slot := by
    rw [(G2 nvp).2.2.2.2, (G1 nvp).2.2.2.2, if_pos rfl]
  rw [hsl]
  obtain ⟨s3, h3, G3, H3⟩ := PMVSlot_store_spec { s1 with vm := m2 } slot nvp hslot
  rw [h3]
  dsimp only
  dsimp only at G3 H3
  generalize hm4 : store s3.vm fromp ((s3.vm fromp).with_prevnpp (PMVSlot.pp nvp)) = m4
  have G4 := fun b => store_with_prevnpp_fields s3.vm fromp (PMVSlot.pp nvp) b
  rw [hm4] at G4
  generalize hm5 : store m4 nvp ((m4 nvp).with_np (m4 untilp).np) = m5
  have G5 := fun b => store_with_np_fields m4 nvp (m4 untilp).np b
  rw [hm5] at G5
  generalize hm6 : store m5 untilp ((m5 untilp).with_np 0) = m6
  have G6 := fun b => store_with_np_fields m5 untilp 0 b
  rw [hm6] at G6
  have hsn : ∀ b, slot = PMVSlot.np b → slot.owner = b := fun b e => by rw [e]; rfl
  have hsp : ∀ b, slot = PMVSlot.pp b → slot.owner = b := fun b e => by rw [e]; rfl
  have hsc : ∀ b, slot = PMVSlot.cp b → slot.owner = b := fun b e => by rw [e]; rfl
  have hX : (m4 untilp).np = (s.vm untilp).np := by
    rw [(G4 untilp).2.1, (G3 untilp).2.1, (G2 untilp).2.1, (G1 untilp).2.1,
      if_neg (fun e => hownu (hsn _ e)), if_neg hu]
  rw [hX] at G5
  have TY6 : ∀ b, (m6 b).type = if b = nvp then PMV_wrap else (s.vm b).type := by
    intro b
    rw [(G6 b).1, (G5 b).1, (G4 b).1, (G3 b).1, (G2 b).1, (G1 b).1]
  have NP6 : ∀ b, (m6 b).np = if b = untilp then 0 else if b = nvp then (s.vm untilp).np
      else if slot = PMVSlot.np b then nvp else (s.vm b).np := by
    intro b
    rw [(G6 b).2.1, (G5 b).2.1, (G4 b).2.1, (G3 b).2.1, (G2 b).2.1, (G1 b).2.1]
    by_cases e1 : b = untilp
    · rw [if_pos e1, if_pos e1]
    · rw [if_neg e1, if_neg e1]
      by_cases e2 : b = nvp
      · rw [if_pos e2, if_pos e2]
      · rw [if_neg e2, if_neg e2, if_neg e2]
  have PP6 : ∀ b, (m6 b).pp = if slot = PMVSlot.pp b then nvp else if b = nvp then fromp
      else (s.vm b).pp := by
    intro b
    rw [(G6 b).2.2.1, (G5 b).2.2.1, (G4 b).2.2.1, (G3 b).2.2.1, (G2 b).2.2.1, (G1 b).2.2.1]
    by_cases e2 : b = nvp
    · rw [if_pos e2, if_pos e2]
    · rw [if_neg e2, if_neg e2, if_neg e2]
  have CP6 : ∀ b, (m6 b).cp = if slot = PMVSlot.cp b then nvp else if b = nvp then 0
      else (s.vm b).cp := by
    intro b
    rw [(G6 b).2.2.2.1, (G5 b).2.2.2.1, (G4 b).2.2.2.1, (G3 b).2.2.2.1, (G2 b).2.2.2.1,
      (G1 b).2.2.2.1]
  have PV6 : ∀ b, (m6 b).prevnpp = if b = fromp then PMVSlot.pp nvp else if b = nvp then slot
      else (s.vm b).prevnpp := by
    intro b
    rw [(G6 b).2.2.2.2, (G5 b).2.2.2.2, (G4 b).2.2.2.2, (G3 b).2.2.2.2, (G2 b).2.2.2.2,
      (G1 b).2.2.2.2]
  have hnv6 : (m6 nvp).np = (s.vm untilp).np := by
    rw [NP6 nvp, if_neg (fun e => hu e.symm), if_pos rfl]
  rw [hnv6]
  have hget : ∀ m7 : PMVMem, (∀ b, (m7 b).np = (m6 b).np ∧ (m7 b).pp = (m6 b).pp ∧
      (m7 b).cp = (m6 b).cp) →
      PMVSlot_get { s3 with vm := m7 } slot = nvp := by
    intro m7 h7
    cases slot with
    | null => exact absurd rfl hslot
    | headp c => exact (H3 c).trans (if_pos rfl)
    | np p =>
      show (m7 p).np = nvp
      rw [(h7 p).1, NP6 p, if_neg (show ¬ p = untilp from hownu),
        if_neg (show ¬ p = nvp from hown), if_pos rfl]
    | pp p =>
      show (m7 p).pp = nvp
      rw [(h7 p).2.1, PP6 p, if_pos rfl]
    | cp p =>
      show (m7 p).cp = nvp
      rw [(h7 p).2.2, CP6 p, if_pos rfl]
  have hfin : ∀ m7 : PMVMem, (∀ b, (m7 b).type = (m6 b).type ∧ (m7 b).np = (m6 b).np ∧
      (m7 b).pp = (m6 b).pp ∧ (m7 b).cp = (m6 b).cp ∧
      (m7 b).prevnpp = if (s.vm untilp).np ≠ 0 ∧ b = (s.vm untilp).np then PMVSlot.np nvp
        else (m6 b).prevnpp) →
      WrapEdges s { s3 with vm := m7 } slot fromp untilp nvp := by
    intro m7 h7
    refine ⟨hget m7 (fun b => ⟨(h7 b).2.1, (h7 b).2.2.1, (h7 b).2.2.2.1⟩), ?_, ?_, ?_, ?_, ?_, ?_,
      ?_, ?_⟩
    · show (m7 nvp).type = PMV_wrap
      rw [(h7 nvp).1, TY6, if_pos rfl]
    · show (m7 nvp).pp = fromp
      rw [(h7 nvp).2.2.1, PP6, if_neg (fun e => hown (hsp _ e)), if_pos rfl]
    · show (m7 fromp).prevnpp = PMVSlot.pp nvp
      rw [(h7 fromp).2.2.2.2, if_neg (fun e => hxf e.2.symm), PV6, if_pos rfl]
    · show (m7 nvp).np = (s.vm untilp).np
      rw [(h7 nvp).2.1, hnv6]
    · intro hx0
      show (m7 (s.vm untilp).np).prevnpp = PMVSlot.np nvp
      rw [(h7 _).2.2.2.2, if_pos ⟨hx0, rfl⟩]
    · show (m7 untilp).np = 0
      rw [(h7 untilp).2.1, NP6, if_pos rfl]
    · intro a ha
      refine ⟨?_, ?_, ?_, ?_, ?_⟩
      · show (m7 a).type = _
        rw [(h7 a).1, TY6, if_neg ha]
      · intro h1 h2
        show (m7 a).np = _
        rw [(h7 a).2.1, NP6, if_neg h1, if_neg ha, if_neg h2]
      · intro h2
        show (m7 a).pp = _
        rw [(h7 a).2.2.1, PP6, if_neg h2, if_neg ha]
      · intro h2
        show (m7 a).cp = _
        rw [(h7 a).2.2.2.1, CP6, if_neg h2, if_neg ha]
      · intro h1 h2
        show (m7 a).prevnpp = _
        rw [(h7 a).2.2.2.2, if_neg (fun e => h2 e.2), PV6, if_neg h1, if_neg ha]
    · intro c hc
      show (s3.cm c).headp = _
      rw [H3 c, if_neg hc]
      exact hhead c
  by_cases hx0 : (s.vm untilp).np = 0
  · rw [if_neg (not_not.mpr hx0)]
    refine ⟨_, rfl, hfin m6 (fun b => ⟨rfl, rfl, rfl, rfl, ?_⟩)⟩
    rw [if_neg (fun e => e.1 hx0)]
  · rw [if_pos hx0]
    refine ⟨_, rfl, hfin _ (fun b => ?_)⟩
    obtain ⟨e1, e2, e3, e4, e5⟩ :=
      store_with_prevnpp_fields m6 (s.vm untilp).np (PMVSlot.np nvp) b
    refine ⟨e1, e2, e3, e4, ?_⟩
    rw [e5]
    by_cases e : b = (s.vm untilp).np
    · rw [if_pos e, if_pos ⟨hx0, e⟩]
    · rw [if_neg e, if_neg (fun h => e h.2)]

theorem PMV.skel_prevnpp {v w : PMV} (h : v.skel = w.skel) : v.prevnpp = w.prevnpp := by
  unfold PMV.skel at h
  simp only [PMV.mk.injEq] at h
  exact h.2.2.1

theorem WrapEdges_of_skel {s s7 : PMState} {slot : PMVSlot} {fromp untilp nvp : Nat}
    {m9 : PMVMem} (h : WrapEdges s s7 slot fromp untilp nvp)
    (hs : ∀ a, (m9 a).skel = (s7.vm a).skel) :
    WrapEdges s { s7 with vm := m9 } slot fromp untilp nvp := by
  have ht : ∀ a, (m9 a).type = (s7.vm a).type := fun a => (PMV.skel_fields (hs a)).1
  have hn : ∀ a, (m9 a).np = (s7.vm a).np := fun a => (PMV.skel_fields (hs a)).2.1
  have hp : ∀ a, (m9 a).pp = (s7.vm a).pp := fun a => (PMV.skel_fields (hs a)).2.2.1
  have hc : ∀ a, (m9 a).cp = (s7.vm a).cp := fun a => (PMV.skel_fields (hs a)).2.2.2
  have hv : ∀ a, (m9 a).prevnpp = (s7.vm a).prevnpp := fun a => PMV.skel_prevnpp (hs a)
  obtain ⟨h1, h2, h3, h4, h5, h6, h7, h8, h9⟩ := h
  refine ⟨?_, (ht _).trans h2, (hp _).trans h3, (hv _).trans h4, (hn _).trans h5,
    fun h0 => (hv _).trans (h6 h0), (hn _).trans h7, fun a ha => ?_, h9⟩
  · cases slot with
    | null => exact h1
    | headp c => exact h1
    | np p => exact (hn p).trans h1
    | pp p => exact (hp p).trans h1
    | cp p => exact (hc p).trans h1
  · obtain ⟨g1, g2, g3, g4, g5⟩ := h8 a ha
    exact ⟨(ht a).trans g1, fun x y => (hn a).trans (g2 x y), fun x => (hp a).trans (g3 x),
      fun x => (hc a).trans (g4 x), fun x y => (hv a).trans (g5 x y)⟩

/-- A state with the edges `PMV_wrap_section` leaves holds the wrapped tree. -/
theorem WrapEdges.Rep_wrapped {s s' : PMState} {t : VTree} {untilp nvp : Nat}
    (h : WrapEdges s s' (s.vm t.root).prevnpp t.root untilp nvp)
    (hrep : t.Rep s.vm) (hnd : t.nodes.Nodup) (hu : untilp ∈ t.stem)
    (hown : (s.vm t.root).prevnpp.owner ∉ t.nodes) (hnv : nvp ≠ 0) (hfresh : nvp ∉ t.nodes) :
    (t.wrapped untilp nvp).Rep s'.vm := by
  obtain ⟨_, h2, h3, _, h5, _, h7, h8, _⟩ := h
  have hedge : ∀ a ∈ t.nodes, (s'.vm a).type = (s.vm a).type ∧
      (a ≠ untilp → (s'.vm a).np = (s.vm a).np) ∧
      (s'.vm a).pp = (s.vm a).pp ∧ (s'.vm a).cp = (s.vm a).cp := by
    intro a ha
    have hane : a ≠ nvp := fun e => hfresh (e ▸ ha)
    obtain ⟨g1, g2, g3, g4, _⟩ := h8 a hane
    refine ⟨g1, fun hau => g2 hau ?_, g3 ?_, g4 ?_⟩
    · intro e; apply hown; rw [e]; exact ha
    · intro e; apply hown; rw [e]; exact ha
    · intro e; apply hown; rw [e]; exact ha
  refine ⟨hnv, h2, ?_, ?_, ?_, ?_⟩
  · rw [VTree.upto_root]; exact h3
  · rw [VTree.after_root untilp t hrep hu]; exact h5
  · exact VTree.upto_Rep untilp h7 t hrep hnd hu hedge
  · refine VTree.Rep_congr_edges (t.after untilp) (fun a ha => ?_) (VTree.after_Rep untilp t hrep)
    obtain ⟨g1, g2, g3, g4⟩ := hedge a (VTree.after_nodes_subset untilp t a ha)
    refine ⟨g1, g2 ?_, g3, g4⟩
    intro e
    exact VTree.not_mem_after untilp t hnd hu (e ▸ ha)

theorem VTree.wrapped_nodup {t : VTree} {untilp nvp : Nat} (hnd : t.nodes.Nodup)
    (hu : untilp ∈ t.stem) (hfresh : nvp ∉ t.nodes) : (t.wrapped untilp nvp).nodes.Nodup := by
  unfold VTree.wrapped
  simp only [VTree.nodes]
  rw [VTree.upto_append_after untilp t hu]
  exact List.nodup_cons.mpr ⟨hfresh, hnd⟩

theorem VTree.wrapped_size {t : VTree} {untilp nvp : Nat} (hu : untilp ∈ t.stem) :
    (t.wrapped untilp nvp).size = 1 + t.size := by
  unfold VTree.wrapped
  simp only [VTree.size]
  have := VTree.upto_size_add_after untilp t hu
  omega

theorem VTree.nodes_ne_zero {m : PMVMem} : ∀ (t : VTree), t.Rep m → ∀ a ∈ t.nodes, a ≠ 0 := by
  intro t
  induction t with
  | nil => intro _ a h; exact absurd h (List.not_mem_nil _)
  | seg r np ih =>
    intro hr a h
    rcases List.mem_cons.mp h with h | h
    · rw [h]; exact hr.1
    · exact ih hr.2.2.2 a h
  | insc r pp cp np ihp ihc ihn =>
    intro hr a h
    simp only [VTree.nodes, List.mem_cons, List.mem_append] at h
    rcases h with h | (h | h) | h
    · rw [h]; exact hr.1
    · exact ihp hr.2.2.2.2.2.1 a h
    · exact ihc hr.2.2.2.2.2.2.1 a h
    · exact ihn hr.2.2.2.2.2.2.2 a h
  | wrap r wp np ihw ihn =>
    intro hr a h
    simp only [VTree.nodes, List.mem_cons, List.mem_append] at h
    rcases h with h | h | h
    · rw [h]; exact hr.1
    · exact ihw hr.2.2.2.2.1 a h
    · exact ihn hr.2.2.2.2.2 a h

/-- The call `PMV_wrap_section(fromp, untilp)` returns for a tree `t` under
`fromp` with `untilp` on its stem, and leaves the edges of `WrapEdges`. -/
theorem PMV_wrap_section_spec (junk fuel : Nat) (s : PMState) (t : VTree) (untilp nvp ngp : Nat)
    (hrep : t.Rep s.vm) (hnd : t.nodes.Nodup) (hu : untilp ∈ t.stem)
    (hctx : (s.vm t.root).ctxp = (s.vm untilp).ctxp) (hctx0 : (s.vm t.root).ctxp ≠ 0)
    (hslot : (s.vm t.root).prevnpp ≠ PMVSlot.null)
    (hown : (s.vm t.root).prevnpp.owner ∉ nvp :: t.nodes)
    (hnv : nvp ≠ 0) (hng : ngp ≠ 0) (hfresh : nvp ∉ t.nodes)
    (hfuel : 3 * t.size + 3 ≤ fuel) :
    ∃ s', PMV_wrap_section junk fuel s t.root untilp nvp ngp = some (s', nvp) ∧
      WrapEdges s s' (s.vm t.root).prevnpp t.root untilp nvp := by
  have ht : t ≠ VTree.nil := by
    intro e
    rw [e] at hu
    exact absurd hu (List.not_mem_nil _)
  have hf0 : t.root ≠ 0 := VTree.root_ne_zero ht hrep
  have hfm : t.root ∈ t.nodes := VTree.root_mem_nodes ht
  have hum : untilp ∈ t.nodes := VTree.stem_subset t untilp hu
  have hu0 : untilp ≠ 0 := VTree.nodes_ne_zero t hrep untilp hum
  have hfn : t.root ≠ nvp := fun e => hfresh (e ▸ hfm)
  have hun : untilp ≠ nvp := fun e => hfresh (e ▸ hum)
  have hxr : (s.vm untilp).np = (t.after untilp).root := (VTree.after_root untilp t hrep hu).symm
  have hxm : (s.vm untilp).np ≠ 0 → (s.vm untilp).np ∈ (t.after untilp).nodes := by
    intro h0
    rw [hxr]
    refine VTree.root_mem_nodes ?_
    intro e
    rw [hxr, e] at h0
    exact h0 rfl
  have hxn : (s.vm untilp).np ≠ nvp := by
    intro e
    have h0 : (s.vm untilp).np ≠ 0 := by rw [e]; exact hnv
    exact hfresh (e ▸ VTree.after_nodes_subset untilp t _ (hxm h0))
  have hxf : (s.vm untilp).np ≠ t.root := by
    intro e
    have h0 : (s.vm untilp).np ≠ 0 := by rw [e]; exact hf0
    have h1 := hxm h0
    have h2 : t.root ∈ (t.upto untilp).nodes := by
      rw [← VTree.upto_root untilp t]
      exact VTree.root_mem_nodes (VTree.upto_ne_nil untilp ht)
    have h3 := hnd
    rw [← VTree.upto_append_after untilp t hu] at h3
    exact (List.nodup_append.mp h3).2.2 h2 (e ▸ h1)
  have hownn : (s.vm t.root).prevnpp.owner ≠ nvp := fun e => hown (e ▸ List.mem_cons_self _ _)
  have hownt : (s.vm t.root).prevnpp.owner ∉ t.nodes := fun h => hown (List.mem_cons_of_mem _ h)
  have hownu : (s.vm t.root).prevnpp.owner ≠ untilp := fun e => hownt (e ▸ hum)
  unfold PMV_wrap_section
  rw [if_neg (by simp [hf0, hu0]), if_neg (not_not.mpr hctx)]
  obtain ⟨s1, h1, hvm1, hhead1⟩ := PMV_create_spec junk s (s.vm t.root).ctxp PMV_wrap
    (s.vm t.root).prevnpp nvp ngp (by decide) hctx0 hnv hng
  rw [h1]
  dsimp only
  rw [if_neg hnv]
  have hrep1 : t.Rep s1.vm := by
    refine VTree.Rep_congr t (fun a ha => ?_) hrep
    have hane : a ≠ nvp := fun e => hfresh (e ▸ ha)
    rw [hvm1, store_other _ _ _ _ hane]
  rw [PMV_wrap_section_loop_spec s1.vm untilp fuel t hrep1 hu (by omega)]
  dsimp only
  rw [if_neg hu0]
  obtain ⟨s7, h7, hW⟩ := PMV_wrap_section_relink_spec s s1 (s.vm t.root).prevnpp t.root untilp
    nvp ngp (s.vm t.root).ctxp hvm1 hhead1 hslot hownn hownu hfn hun hxn hxf
  rw [h7]
  dsimp only
  have hrepW := WrapEdges.Rep_wrapped hW hrep hnd hu hownt hnv hfresh
  have hndW : (t.wrapped untilp nvp).nodes.Nodup := VTree.wrapped_nodup hnd hu hfresh
  have hsizeW : (t.wrapped untilp nvp).size = 1 + t.size := VTree.wrapped_size hu
  have hwp : (s7.vm nvp).wp = (t.upto untilp).root := by
    rw [VTree.upto_root]; exact hW.2.2.1
  have hndU : (t.upto untilp).nodes.Nodup := by
    have h3 := hnd
    rw [← VTree.upto_append_after untilp t hu] at h3
    exact (List.nodup_append.mp h3).1
  have hsizeU : (t.upto untilp).size ≤ t.size := by
    have := VTree.upto_size_add_after untilp t hu
    omega
  obtain ⟨m8, h8, hp8⟩ := (PMV_specs fuel).1 s7.vm (t.upto untilp) true
    (VTree.upto_ne_nil untilp ht) hrepW.2.2.2.2.1 hndU (by omega)
  rw [hwp, h8]
  dsimp only
  have hrepW8 : (t.wrapped untilp nvp).Rep m8 := VTree.Rep_of_skel _ hp8.1 hrepW
  obtain ⟨m9, h9, hp9⟩ := (PMV_specs fuel).1 m8 (t.wrapped untilp nvp) false
    (fun e => VTree.noConfusion e) hrepW8 hndW (by omega)
  have hroot : (t.wrapped untilp nvp).root = nvp := rfl
  rw [hroot] at h9
  rw [h9]
  refine ⟨_, rfl, WrapEdges_of_skel hW (fun a => ?_)⟩
  rw [hp9.1 a, hp8.1 a]

/-- C16: for a tree `t` held by the memory, with root `from = t.root`, and a
vertex `until` on its stem (both non-null), `PMV_wrap_section(from, until)`
returns the new wrapper `W = nvp`, and afterwards: the slot `from->prevnpp`
pointed to before holds `W`; `W` is a wrapper with `W.wp = from`; the slot
reference of `from` is `&W->wp`; `W.np` is the previous `until.np`, whose slot
reference is `&W->np` if it is not null; `until.np` is null; and no other edge
changes: every vertex but `W` keeps its type, its `np` (unless it is `until` or
holds the slot), its `pp` and `cp` (unless it holds the slot) and its slot
reference (unless it is `from` or the previous `until.np`), and every context
keeps its head pointer unless that is the slot. Preconditions: the two
vertices have the same non-null context, the slot reference of `from` is not
null and lies outside the tree, the allocated addresses are not null and
`nvp` is not a vertex of the tree, and the stack bound is at least
`3 * t.size + 3`. -/
theorem PMV_wrap_section_edges (junk fuel : Nat) (s : PMState) (t : VTree)
    (untilp nvp ngp : Nat)
    (hrep : t.Rep s.vm) (hnd : t.nodes.Nodup) (hu : untilp ∈ t.stem)
    (hctx : (s.vm t.root).ctxp = (s.vm untilp).ctxp) (hctx0 : (s.vm t.root).ctxp ≠ 0)
    (hslot : (s.vm t.root).prevnpp ≠ PMVSlot.null)
    (hown : (s.vm t.root).prevnpp.owner ∉ nvp :: t.nodes)
    (hnv : nvp ≠ 0) (hng : ngp ≠ 0) (hfresh : nvp ∉ t.nodes)
    (hfuel : 3 * t.size + 3 ≤ fuel) :
    ∃ s', PMV_wrap_section junk fuel s t.root untilp nvp ngp = some (s', nvp) ∧
      PMVSlot_get s' (s.vm t.root).prevnpp = nvp ∧
      (s'.vm nvp).type = PMV_wrap ∧ (s'.vm nvp).wp = t.root ∧
      (s'.vm t.root).prevnpp = PMVSlot.pp nvp ∧
      (s'.vm nvp).np = (s.vm untilp).np ∧
      ((s.vm untilp).np ≠ 0 → (s'.vm (s.vm untilp).np).prevnpp = PMVSlot.np nvp) ∧
      (s'.vm untilp).np = 0 ∧
      (∀ a, a ≠ nvp →
        (s'.vm a).type = (s.vm a).type ∧
        (a ≠ untilp → (s.vm t.root).prevnpp ≠ PMVSlot.np a → (s'.vm a).np = (s.vm a).np) ∧
        ((s.vm t.root).prevnpp ≠ PMVSlot.pp a → (s'.vm a).pp = (s.vm a).pp) ∧
        ((s.vm t.root).prevnpp ≠ PMVSlot.cp a → (s'.vm a).cp = (s.vm a).cp) ∧
        (a ≠ t.root → a ≠ (s.vm untilp).np → (s'.vm a).prevnpp = (s.vm a).prevnpp)) ∧
      (∀ c, (s.vm t.root).prevnpp ≠ PMVSlot.headp c → (s'.cm c).headp = (s.cm c).headp) := by
  obtain ⟨s', h, hW⟩ := PMV_wrap_section_spec junk fuel s t untilp nvp ngp hrep hnd hu hctx hctx0
    hslot hown hnv hng hfresh hfuel
  exact ⟨s', h, hW⟩

theorem PMV_wrap_section_edges_witness :
    ∃ s', PMV_wrap_section 0 12 pm_example_built 1 1 4 14 = some (s', 4) ∧
      PMVSlot_get s' (PMVSlot.headp 1) = 4 ∧
      (s'.vm 4).type = PMV_wrap ∧ (s'.vm 4).wp = 1 ∧
      (s'.vm 1).prevnpp = PMVSlot.pp 4 ∧
      (s'.vm 4).np = 0 ∧
      ((0 : Nat) ≠ 0 → (s'.vm 0).prevnpp = PMVSlot.np 4) ∧
      (s'.vm 1).np = 0 ∧
      (∀ a, a ≠ 4 →
        (s'.vm a).type = (pm_example_built.vm a).type ∧
        (a ≠ 1 → PMVSlot.headp 1 ≠ PMVSlot.np a → (s'.vm a).np = (pm_example_built.vm a).np) ∧
        (PMVSlot.headp 1 ≠ PMVSlot.pp a → (s'.vm a).pp = (pm_example_built.vm a).pp) ∧
        (PMVSlot.headp 1 ≠ PMVSlot.cp a → (s'.vm a).cp = (pm_example_built.vm a).cp) ∧
        (a ≠ 1 → a ≠ 0 → (s'.vm a).prevnpp = (pm_example_built.vm a).prevnpp)) ∧
      (∀ c, PMVSlot.headp 1 ≠ PMVSlot.headp c →
        (s'.cm c).headp = (pm_example_built.cm c).headp) :=
  PMV_wrap_section_edges 0 12 pm_example_built pm_example_tree 1 4 14 pm_example_tree_Rep
    (by decide) (by decide) (by decide) (by decide) (by decide) (by decide) (by decide)
    (by decide) (by decide) (by decide)


/-! ### The flattening of the tree and `PMV_wrap_section` -/

theorem PMV_flatten_spec (m : PMVMem) : ∀ (fuel : Nat) (t : VTree), t.Rep m → t.size < fuel →
    PMV_flatten fuel m t.root = some t.flat := by
  intro fuel
  induction fuel with
  | zero => intro t _ h; omega
  | succ n ih =>
    intro t hr hs
    cases t with
    | nil =>
      unfold PMV_flatten
      rw [if_pos (show VTree.nil.root = 0 from rfl)]
      rfl
    | seg a np =>
      obtain ⟨h0, h1, h2, h3⟩ := hr
      simp only [VTree.size] at hs
      unfold PMV_flatten
      simp only [VTree.root]
      rw [if_neg h0, if_pos h1, h2, ih np h3 (by omega)]
      rfl
    | insc a pp cp np =>
      obtain ⟨h0, h1, h2, h3, h4, h5, h6, h7⟩ := hr
      simp only [VTree.size] at hs
      unfold PMV_flatten
      simp only [VTree.root]
      rw [if_neg h0, if_neg (by rw [h1]; decide), if_pos h1, h2, h3, h4, ih pp h5 (by omega),
        ih cp h6 (by omega), ih np h7 (by omega)]
      rfl
    | wrap a wp np =>
      obtain ⟨h0, h1, h2, h3, h4, h5⟩ := hr
      simp only [VTree.size] at hs
      unfold PMV_flatten
      simp only [VTree.root]
      rw [if_neg h0, if_neg (by rw [h1]; decide), if_neg (by rw [h1]; decide), if_pos h1]
      unfold PMV.wp
      rw [h2, h3, ih wp h4 (by omega), ih np h5 (by omega)]
      rfl

theorem VTree.flat_upto_after (u : Nat) : ∀ (t : VTree), u ∈ t.stem →
    (t.upto u).flat ++ (t.after u).flat = t.flat := by
  intro t
  induction t with
  | nil => intro h; exact absurd h (List.not_mem_nil _)
  | seg a np ih =>
    intro h
    unfold VTree.upto VTree.after
    by_cases e : a = u
    · rw [if_pos e, if_pos e]; rfl
    · rw [if_neg e, if_neg e]
      have h2 : u ∈ np.stem := by
        rcases List.mem_cons.mp h with h | h
        · exact absurd h.symm e
        · exact h
      simp only [VTree.flat, List.cons_append]
      rw [ih h2]
  | insc a pp cp np _ _ ih =>
    intro h
    unfold VTree.upto VTree.after
    by_cases e : a = u
    · rw [if_pos e, if_pos e]; simp only [VTree.flat, List.append_nil, List.cons_append]
    · rw [if_neg e, if_neg e]
      have h2 : u ∈ np.stem := by
        rcases List.mem_cons.mp h with h | h
        · exact absurd h.symm e
        · exact h
      simp only [VTree.flat, List.cons_append, List.append_assoc]
      rw [ih h2]
  | wrap a wp np _ ih =>
    intro h
    unfold VTree.upto VTree.after
    by_cases e : a = u
    · rw [if_pos e, if_pos e]; simp only [VTree.flat, List.append_nil]
    · rw [if_neg e, if_neg e]
      have h2 : u ∈ np.stem := by
        rcases List.mem_cons.mp h with h | h
        · exact absurd h.symm e
        · exact h
      simp only [VTree.flat, List.append_assoc]
      rw [ih h2]

theorem VTree.wrapped_flat {t : VTree} {untilp nvp : Nat} (hu : untilp ∈ t.stem) :
    (t.wrapped untilp nvp).flat = t.flat := by
  unfold VTree.wrapped
  simp only [VTree.flat]
  exact VTree.flat_upto_after untilp t hu

theorem SubtreeOf_nodes {T t : VTree} (h : SubtreeOf T t) : ∀ a ∈ t.nodes, a ∈ T.nodes := by
  induction h with
  | refl t => exact fun a h => h
  | seg_np a np s _ ih => exact fun x hx => List.mem_cons_of_mem _ (ih x hx)
  | insc_pp a pp cp np s _ ih =>
    exact fun x hx => List.mem_cons_of_mem _
      (List.mem_append_left _ (List.mem_append_left _ (ih x hx)))
  | insc_cp a pp cp np s _ ih =>
    exact fun x hx => List.mem_cons_of_mem _
      (List.mem_append_left _ (List.mem_append_right _ (ih x hx)))
  | insc_np a pp cp np s _ ih =>
    exact fun x hx => List.mem_cons_of_mem _ (List.mem_append_right _ (ih x hx))
  | wrap_wp a wp np s _ ih =>
    exact fun x hx => List.mem_cons_of_mem _ (List.mem_append_left _ (ih x hx))
  | wrap_np a wp np s _ ih =>
    exact fun x hx => List.mem_cons_of_mem _ (List.mem_append_right _ (ih x hx))

theorem SubtreeOf_size {T t : VTree} (h : SubtreeOf T t) : t.size ≤ T.size := by
  induction h with
  | refl t => exact le_refl _
  | seg_np a np s _ ih => simp only [VTree.size]; omega
  | insc_pp a pp cp np s _ ih => simp only [VTree.size]; omega
  | insc_cp a pp cp np s _ ih => simp only [VTree.size]; omega
  | insc_np a pp cp np s _ ih => simp only [VTree.size]; omega
  | wrap_wp a wp np s _ ih => simp only [VTree.size]; omega
  | wrap_np a wp np s _ ih => simp only [VTree.size]; omega

theorem VTree.Linked_root {m : PMVMem} {slot : PMVSlot} {t : VTree} (ht : t ≠ VTree.nil)
    (h : t.Linked m slot) : (m t.root).prevnpp = slot := by
  cases t with
  | nil => exact absurd rfl ht
  | seg a np => exact h.1
  | insc a pp cp np => exact h.1
  | wrap a wp np => exact h.1

/-- In a tree with the slot references of the builder, the slot reference of
the root of a subtree is the slot of the whole tree, or a slot of a vertex of
the tree outside the subtree. -/
theorem SubtreeOf_slot {m : PMVMem} {T t : VTree} (h : SubtreeOf T t) (ht : t ≠ VTree.nil) :
    ∀ slot, T.Linked m slot → T.nodes.Nodup →
    (m t.root).prevnpp = slot ∨
      ((m t.root).prevnpp ≠ PMVSlot.null ∧ (m t.root).prevnpp.owner ∈ T.nodes ∧
        (m t.root).prevnpp.owner ∉ t.nodes) := by
  induction h with
  | refl t => exact fun slot hl _ => Or.inl (VTree.Linked_root ht hl)
  | seg_np a np s hs ih =>
    intro slot hl hnd
    have hnd' := List.nodup_cons.mp hnd
    right
    rcases ih ht _ hl.2 hnd'.2 with h | ⟨h1, h2, h3⟩
    · rw [h]
      exact ⟨fun e => PMVSlot.noConfusion e, List.mem_cons_self _ _,
        fun hx => hnd'.1 (SubtreeOf_nodes hs _ hx)⟩
    · exact ⟨h1, List.mem_cons_of_mem _ h2, h3⟩
  | insc_pp a pp cp np s hs ih =>
    intro slot hl hnd
    have hnd' := List.nodup_cons.mp hnd
    have hndp := List.nodup_append.mp hnd'.2
    have hndpc := List.nodup_append.mp hndp.1
    right
    rcases ih ht _ hl.2.1 hndpc.1 with h | ⟨h1, h2, h3⟩
    · rw [h]
      exact ⟨fun e => PMVSlot.noConfusion e, List.mem_cons_self _ _,
        fun hx => hnd'.1 (List.mem_append_left _ (List.mem_append_left _ (SubtreeOf_nodes hs _ hx)))⟩
    · exact ⟨h1, List.mem_cons_of_mem _ (List.mem_append_left _ (List.mem_append_left _ h2)), h3⟩
  | insc_cp a pp cp np s hs ih =>
    intro slot hl hnd
    have hnd' := List.nodup_cons.mp hnd
    have hndp := List.nodup_append.mp hnd'.2
    have hndpc := List.nodup_append.mp hndp.1
    right
    rcases ih ht _ hl.2.2.1 hndpc.2.1 with h | ⟨h1, h2, h3⟩
    · rw [h]
      exact ⟨fun e => PMVSlot.noConfusion e, List.mem_cons_self _ _,
        fun hx => hnd'.1 (List.mem_append_left _ (List.mem_append_right _ (SubtreeOf_nodes hs _ hx)))⟩
    · exact ⟨h1, List.mem_cons_of_mem _ (List.mem_append_left _ (List.mem_append_right _ h2)), h3⟩
  | insc_np a pp cp np s hs ih =>
    intro slot hl hnd
    have hnd' := List.nodup_cons.mp hnd
    have hndp := List.nodup_append.mp hnd'.2
    right
    rcases ih ht _ hl.2.2.2 hndp.2.1 with h | ⟨h1, h2, h3⟩
    · rw [h]
      exact ⟨fun e => PMVSlot.noConfusion e, List.mem_cons_self _ _,
        fun hx => hnd'.1 (List.mem_append_right _ (SubtreeOf_nodes hs _ hx))⟩
    · exact ⟨h1, List.mem_cons_of_mem _ (List.mem_append_right _ h2), h3⟩
  | wrap_wp a wp np s hs ih =>
    intro slot hl hnd
    have hnd' := List.nodup_cons.mp hnd
    have hndp := List.nodup_append.mp hnd'.2
    right
    rcases ih ht _ hl.2.1 hndp.1 with h | ⟨h1, h2, h3⟩
    · rw [h]
      exact ⟨fun e => PMVSlot.noConfusion e, List.mem_cons_self _ _,
        fun hx => hnd'.1 (List.mem_append_left _ (SubtreeOf_nodes hs _ hx))⟩
    · exact ⟨h1, List.mem_cons_of_mem _ (List.mem_append_left _ h2), h3⟩
  | wrap_np a wp np s hs ih =>
    intro slot hl hnd
    have hnd' := List.nodup_cons.mp hnd
    have hndp := List.nodup_append.mp hnd'.2
    right
    rcases ih ht _ hl.2.2 hndp.2.1 with h | ⟨h1, h2, h3⟩
    · rw [h]
      exact ⟨fun e => PMVSlot.noConfusion e, List.mem_cons_self _ _,
        fun hx => hnd'.1 (List.mem_append_right _ (SubtreeOf_nodes hs _ hx))⟩
    · exact ⟨h1, List.mem_cons_of_mem _ (List.mem_append_right _ h2), h3⟩

/-- The edges of a vertex that `PMV_wrap_section` does not touch. -/
theorem WrapEdges.frame {s s' : PMState} {slot : PMVSlot} {fromp untilp nvp : Nat}
    (h : WrapEdges s s' slot fromp untilp nvp) {a : Nat} (h1 : a ≠ nvp) (h2 : a ≠ untilp)
    (h3 : slot.owner ≠ a) :
    (s'.vm a).type = (s.vm a).type ∧ (s'.vm a).np = (s.vm a).np ∧
      (s'.vm a).pp = (s.vm a).pp ∧ (s'.vm a).cp = (s.vm a).cp := by
  obtain ⟨g1, g2, g3, g4, _⟩ := h.2.2.2.2.2.2.2.1 a h1
  refine ⟨g1, g2 h2 ?_, g3 ?_, g4 ?_⟩
  · intro e; apply h3; rw [e]; rfl
  · intro e; apply h3; rw [e]; rfl
  · intro e; apply h3; rw [e]; rfl

/-- A tree that `PMV_wrap_section` does not touch is held by the memory
afterwards. -/
theorem WrapEdges.frame_Rep {s s' : PMState} {slot : PMVSlot} {fromp untilp nvp : Nat}
    (h : WrapEdges s s' slot fromp untilp nvp) (c : VTree) (hr : c.Rep s.vm)
    (hc : ∀ b ∈ c.nodes, b ≠ nvp ∧ b ≠ untilp ∧ slot.owner ≠ b) : c.Rep s'.vm :=
  VTree.Rep_congr_edges c (fun b hb => h.frame (hc b hb).1 (hc b hb).2.1 (hc b hb).2.2) hr

/-- The vertex `a` above the subtree `child` that holds the wrapped section,
after `PMV_wrap_section`: its type is kept, the slot `cslot` of `a` that held
`child` holds the new subtree `child'`, and its other pointers are kept. -/
theorem WrapEdges.step {s s' : PMState} {slot : PMVSlot} {fromp untilp nvp : Nat}
    (h : WrapEdges s s' slot fromp untilp nvp) (a : Nat) {cslot : PMVSlot}
    (hcs : cslot.owner = a) {child child' : VTree}
    (hd : (slot = cslot ∧ child'.root = nvp) ∨
      (child'.root = child.root ∧ slot.owner ∈ child.nodes))
    (ha : a ∉ child.nodes) (hanv : a ≠ nvp) (hu : untilp ∈ child.nodes)
    (hget : PMVSlot_get s cslot = child.root) (hc0 : cslot ≠ PMVSlot.null)
    (hch : ∀ c, cslot ≠ PMVSlot.headp c) :
    (s'.vm a).type = (s.vm a).type ∧ PMVSlot_get s' cslot = child'.root ∧
      (cslot ≠ PMVSlot.np a → (s'.vm a).np = (s.vm a).np) ∧
      (cslot ≠ PMVSlot.pp a → (s'.vm a).pp = (s.vm a).pp) ∧
      (cslot ≠ PMVSlot.cp a → (s'.vm a).cp = (s.vm a).cp) ∧
      (slot.owner = a ∨ slot.owner ∈ child.nodes) := by
  have hau : a ≠ untilp := fun e => ha (e ▸ hu)
  obtain ⟨g1, g2, g3, g4, _⟩ := h.2.2.2.2.2.2.2.1 a hanv
  rcases hd with ⟨e, r⟩ | ⟨r, o⟩
  · refine ⟨g1, ?_, fun hne => g2 hau (e ▸ hne), fun hne => g3 (e ▸ hne),
      fun hne => g4 (e ▸ hne), Or.inl (e ▸ hcs)⟩
    rw [← e, r]
    exact h.1
  · have hoa : slot.owner ≠ a := fun e => ha (e ▸ o)
    obtain ⟨_, f2, f3, f4⟩ := h.frame hanv hau hoa
    refine ⟨g1, ?_, fun _ => f2, fun _ => f3, fun _ => f4, Or.inr o⟩
    rw [r, ← hget]
    cases cslot with
    | null => exact absurd rfl hc0
    | headp c => exact absurd rfl (hch c)
    | np v =>
      have hv : v = a := hcs
      rw [hv]
      exact f2
    | pp v =>
      have hv : v = a := hcs
      rw [hv]
      exact f3
    | cp v =>
      have hv : v = a := hcs
      rw [hv]
      exact f4

/-- A sibling of the subtree that holds the wrapped section is held by the
memory after `PMV_wrap_section`. -/
theorem WrapEdges.sibling {s s' : PMState} {slot : PMVSlot} {fromp untilp nvp : Nat}
    (h : WrapEdges s s' slot fromp untilp nvp) (a : Nat) {child sib : VTree}
    (ho : slot.owner = a ∨ slot.owner ∈ child.nodes) (hu : untilp ∈ child.nodes)
    (hr : sib.Rep s.vm) (hd : ∀ b ∈ sib.nodes, b ≠ a ∧ b ∉ child.nodes ∧ b ≠ nvp) :
    sib.Rep s'.vm := by
  refine h.frame_Rep sib hr (fun b hb => ?_)
  obtain ⟨d1, d2, d3⟩ := hd b hb
  refine ⟨d3, fun e => d2 (e ▸ hu), fun e => ?_⟩
  rcases ho with ho | ho
  · exact d1 (e.symm.trans ho)
  · exact d2 (e ▸ ho)

/-- The tree `T` that holds the wrapped section `t` becomes a tree with the
same flattening. -/
theorem WrapEdges.subst {s s' : PMState} {slot : PMVSlot} {t W : VTree} {untilp nvp : Nat}
    (h : WrapEdges s s' slot t.root untilp nvp) (hsl : (s.vm t.root).prevnpp = slot)
    (ht : t ≠ VTree.nil) (hum : untilp ∈ t.nodes)
    (hWrep : W.Rep s'.vm) (hWroot : W.root = nvp) (hWflat : W.flat = t.flat)
    (hWsize : W.size = 1 + t.size)
    {T : VTree} (hsub : SubtreeOf T t) :
    ∀ tslot, T.Rep s.vm → T.nodes.Nodup → T.Linked s.vm tslot → nvp ∉ T.nodes →
      ∃ T' : VTree, T'.Rep s'.vm ∧ T'.flat = T.flat ∧ T'.size = 1 + T.size ∧
        ((slot = tslot ∧ T'.root = nvp) ∨ (T'.root = T.root ∧ slot.owner ∈ T.nodes)) := by
  induction hsub with
  | refl t =>
    intro tslot _ _ hl _
    exact ⟨W, hWrep, hWflat, hWsize, Or.inl ⟨hsl.symm.trans (VTree.Linked_root ht hl), hWroot⟩⟩
  | seg_np a np t hs ih =>
    intro tslot hr hnd hl hnv
    obtain ⟨h0, h1, h2, h3⟩ := hr
    have hnd' := List.nodup_cons.mp hnd
    have hanv : a ≠ nvp := fun e => hnv (e ▸ List.mem_cons_self _ _)
    have hu := SubtreeOf_nodes hs _ hum
    obtain ⟨N, hNr, hNf, hNs, hd⟩ := ih h hsl ht hum hWflat hWsize (PMVSlot.np a) h3 hnd'.2 hl.2
      (fun x => hnv (List.mem_cons_of_mem _ x))
    obtain ⟨f1, f2, _, _, _, ho⟩ := h.step a (rfl : (PMVSlot.np a).owner = a) hd hnd'.1 hanv hu h2
      (fun e => PMVSlot.noConfusion e) (fun c e => PMVSlot.noConfusion e)
    refine ⟨VTree.seg a N, ⟨h0, f1.trans h1, f2, hNr⟩, ?_, ?_, Or.inr ⟨rfl, ?_⟩⟩
    · simp only [VTree.flat, hNf]
    · simp only [VTree.size, hNs]
      try omega
    · rcases ho with ho | ho
      · rw [ho]; exact List.mem_cons_self _ _
      · exact List.mem_cons_of_mem _ ho
  | insc_pp a pp cp np t hs ih =>
    intro tslot hr hnd hl hnv
    obtain ⟨h0, h1, h2, h3, h4, h5, h6, h7⟩ := hr
    have hnd' := List.nodup_cons.mp hnd
    have hndp := List.nodup_append.mp hnd'.2
    have hndpc := List.nodup_append.mp hndp.1
    have hanv : a ≠ nvp := fun e => hnv (e ▸ List.mem_cons_self _ _)
    have hu := SubtreeOf_nodes hs _ hum
    have hac : a ∉ pp.nodes :=
      fun x => hnd'.1 (List.mem_append_left _ (List.mem_append_left _ x))
    obtain ⟨N, hNr, hNf, hNs, hd⟩ := ih h hsl ht hum hWflat hWsize (PMVSlot.pp a) h5 hndpc.1 hl.2.1
      (fun x => hnv (List.mem_cons_of_mem _ (List.mem_append_left _ (List.mem_append_left _ x))))
    obtain ⟨f1, f2, f3, _, f5, ho⟩ := h.step a (rfl : (PMVSlot.pp a).owner = a) hd hac hanv hu h2
      (fun e => PMVSlot.noConfusion e) (fun c e => PMVSlot.noConfusion e)
    have hcp : cp.Rep s'.vm := h.sibling a ho hu h6 (fun b hb =>
      ⟨fun e => hnd'.1 (e ▸ List.mem_append_left _ (List.mem_append_right _ hb)),
        fun x => hndpc.2.2 x hb,
        fun e => hnv (e ▸ List.mem_cons_of_mem _
          (List.mem_append_left _ (List.mem_append_right _ hb)))⟩)
    have hnp : np.Rep s'.vm := h.sibling a ho hu h7 (fun b hb =>
      ⟨fun e => hnd'.1 (e ▸ List.mem_append_right _ hb),
        fun x => hndp.2.2 (List.mem_append_left _ x) hb,
        fun e => hnv (e ▸ List.mem_cons_of_mem _ (List.mem_append_right _ hb))⟩)
    refine ⟨VTree.insc a N cp np, ⟨h0, f1.trans h1, f2,
      (f5 (fun e => PMVSlot.noConfusion e)).trans h3,
      (f3 (fun e => PMVSlot.noConfusion e)).trans h4, hNr, hcp, hnp⟩, ?_, ?_, Or.inr ⟨rfl, ?_⟩⟩
    · simp only [VTree.flat, hNf]
    · simp only [VTree.size, hNs]
      try omega
    · rcases ho with ho | ho
      · rw [ho]; exact List.mem_cons_self _ _
      · exact List.mem_cons_of_mem _ (List.mem_append_left _ (List.mem_append_left _ ho))
  | insc_cp a pp cp np t hs ih =>
    intro tslot hr hnd hl hnv
    obtain ⟨h0, h1, h2, h3, h4, h5, h6, h7⟩ := hr
    have hnd' := List.nodup_cons.mp hnd
    have hndp := List.nodup_append.mp hnd'.2
    have hndpc := List.nodup_append.mp hndp.1
    have hanv : a ≠ nvp := fun e => hnv (e ▸ List.mem_cons_self _ _)
    have hu := SubtreeOf_nodes hs _ hum
    have hac : a ∉ cp.nodes :=
      fun x => hnd'.1 (List.mem_append_left _ (List.mem_append_right _ x))
    obtain ⟨N, hNr, hNf, hNs, hd⟩ := ih h hsl ht hum hWflat hWsize (PMVSlot.cp a) h6 hndpc.2.1 hl.2.2.1
      (fun x => hnv (List.mem_cons_of_mem _ (List.mem_append_left _ (List.mem_append_right _ x))))
    obtain ⟨f1, f2, f3, f4, _, ho⟩ := h.step a (rfl : (PMVSlot.cp a).owner = a) hd hac hanv hu h3
      (fun e => PMVSlot.noConfusion e) (fun c e => PMVSlot.noConfusion e)
    have hpp : pp.Rep s'.vm := h.sibling a ho hu h5 (fun b hb =>
      ⟨fun e => hnd'.1 (e ▸ List.mem_append_left _ (List.mem_append_left _ hb)),
        fun x => hndpc.2.2 hb x,
        fun e => hnv (e ▸ List.mem_cons_of_mem _
          (List.mem_append_left _ (List.mem_append_left _ hb)))⟩)
    have hnp : np.Rep s'.vm := h.sibling a ho hu h7 (fun b hb =>
      ⟨fun e => hnd'.1 (e ▸ List.mem_append_right _ hb),
        fun x => hndp.2.2 (List.mem_append_right _ x) hb,
        fun e => hnv (e ▸ List.mem_cons_of_mem _ (List.mem_append_right _ hb))⟩)
    refine ⟨VTree.insc a pp N np, ⟨h0, f1.trans h1,
      (f4 (fun e => PMVSlot.noConfusion e)).trans h2, f2,
      (f3 (fun e => PMVSlot.noConfusion e)).trans h4, hpp, hNr, hnp⟩, ?_, ?_, Or.inr ⟨rfl, ?_⟩⟩
    · simp only [VTree.flat, hNf]
    · simp only [VTree.size, hNs]
      try omega
    · rcases ho with ho | ho
      · rw [ho]; exact List.mem_cons_self _ _
      · exact List.mem_cons_of_mem _ (List.mem_append_left _ (List.mem_append_right _ ho))
  | insc_np a pp cp np t hs ih =>
    intro tslot hr hnd hl hnv
    obtain ⟨h0, h1, h2, h3, h4, h5, h6, h7⟩ := hr
    have hnd' := List.nodup_cons.mp hnd
    have hndp := List.nodup_append.mp hnd'.2
    have hndpc := List.nodup_append.mp hndp.1
    have hanv : a ≠ nvp := fun e => hnv (e ▸ List.mem_cons_self _ _)
    have hu := SubtreeOf_nodes hs _ hum
    have hac : a ∉ np.nodes := fun x => hnd'.1 (List.mem_append_right _ x)
    obtain ⟨N, hNr, hNf, hNs, hd⟩ := ih h hsl ht hum hWflat hWsize (PMVSlot.np a) h7 hndp.2.1 hl.2.2.2
      (fun x => hnv (List.mem_cons_of_mem _ (List.mem_append_right _ x)))
    obtain ⟨f1, f2, _, f4, f5, ho⟩ := h.step a (rfl : (PMVSlot.np a).owner = a) hd hac hanv hu h4
      (fun e => PMVSlot.noConfusion e) (fun c e => PMVSlot.noConfusion e)
    have hpp : pp.Rep s'.vm := h.sibling a ho hu h5 (fun b hb =>
      ⟨fun e => hnd'.1 (e ▸ List.mem_append_left _ (List.mem_append_left _ hb)),
        fun x => hndp.2.2 (List.mem_append_left _ hb) x,
        fun e => hnv (e ▸ List.mem_cons_of_mem _
          (List.mem_append_left _ (List.mem_append_left _ hb)))⟩)
    have hcp : cp.Rep s'.vm := h.sibling a ho hu h6 (fun b hb =>
      ⟨fun e => hnd'.1 (e ▸ List.mem_append_left _ (List.mem_append_right _ hb)),
        fun x => hndp.2.2 (List.mem_append_right _ hb) x,
        fun e => hnv (e ▸ List.mem_cons_of_mem _
          (List.mem_append_left _ (List.mem_append_right _ hb)))⟩)
    refine ⟨VTree.insc a pp cp N, ⟨h0, f1.trans h1,
      (f4 (fun e => PMVSlot.noConfusion e)).trans h2,
      (f5 (fun e => PMVSlot.noConfusion e)).trans h3, f2, hpp, hcp, hNr⟩, ?_, ?_, Or.inr ⟨rfl, ?_⟩⟩
    · simp only [VTree.flat, hNf]
    · simp only [VTree.size, hNs]
      try omega
    · rcases ho with ho | ho
      · rw [ho]; exact List.mem_cons_self _ _
      · exact List.mem_cons_of_mem _ (List.mem_append_right _ ho)
  | wrap_wp a wp np t hs ih =>
    intro tslot hr hnd hl hnv
    obtain ⟨h0, h1, h2, h3, h4, h5⟩ := hr
    have hnd' := List.nodup_cons.mp hnd
    have hndp := List.nodup_append.mp hnd'.2
    have hanv : a ≠ nvp := fun e => hnv (e ▸ List.mem_cons_self _ _)
    have hu := SubtreeOf_nodes hs _ hum
    have hac : a ∉ wp.nodes := fun x => hnd'.1 (List.mem_append_left _ x)
    obtain ⟨N, hNr, hNf, hNs, hd⟩ := ih h hsl ht hum hWflat hWsize (PMVSlot.pp a) h4 hndp.1 hl.2.1
      (fun x => hnv (List.mem_cons_of_mem _ (List.mem_append_left _ x)))
    obtain ⟨f1, f2, f3, _, _, ho⟩ := h.step a (rfl : (PMVSlot.pp a).owner = a) hd hac hanv hu h2
      (fun e => PMVSlot.noConfusion e) (fun c e => PMVSlot.noConfusion e)
    have hnp : np.Rep s'.vm := h.sibling a ho hu h5 (fun b hb =>
      ⟨fun e => hnd'.1 (e ▸ List.mem_append_right _ hb),
        fun x => hndp.2.2 x hb,
        fun e => hnv (e ▸ List.mem_cons_of_mem _ (List.mem_append_right _ hb))⟩)
    refine ⟨VTree.wrap a N np, ⟨h0, f1.trans h1, f2,
      (f3 (fun e => PMVSlot.noConfusion e)).trans h3, hNr, hnp⟩, ?_, ?_, Or.inr ⟨rfl, ?_⟩⟩
    · simp only [VTree.flat, hNf]
    · simp only [VTree.size, hNs]
      try omega
    · rcases ho with ho | ho
      · rw [ho]; exact List.mem_cons_self _ _
      · exact List.mem_cons_of_mem _ (List.mem_append_left _ ho)
  | wrap_np a wp np t hs ih =>
    intro tslot hr hnd hl hnv
    obtain ⟨h0, h1, h2, h3, h4, h5⟩ := hr
    have hnd' := List.nodup_cons.mp hnd
    have hndp := List.nodup_append.mp hnd'.2
    have hanv : a ≠ nvp := fun e => hnv (e ▸ List.mem_cons_self _ _)
    have hu := SubtreeOf_nodes hs _ hum
    have hac : a ∉ np.nodes := fun x => hnd'.1 (List.mem_append_right _ x)
    obtain ⟨N, hNr, hNf, hNs, hd⟩ := ih h hsl ht hum hWflat hWsize (PMVSlot.np a) h5 hndp.2.1 hl.2.2
      (fun x => hnv (List.mem_cons_of_mem _ (List.mem_append_right _ x)))
    obtain ⟨f1, f2, _, f4, _, ho⟩ := h.step a (rfl : (PMVSlot.np a).owner = a) hd hac hanv hu h3
      (fun e => PMVSlot.noConfusion e) (fun c e => PMVSlot.noConfusion e)
    have hwp : wp.Rep s'.vm := h.sibling a ho hu h4 (fun b hb =>
      ⟨fun e => hnd'.1 (e ▸ List.mem_append_left _ hb),
        fun x => hndp.2.2 hb x,
        fun e => hnv (e ▸ List.mem_cons_of_mem _ (List.mem_append_left _ hb))⟩)
    refine ⟨VTree.wrap a wp N, ⟨h0, f1.trans h1,
      (f4 (fun e => PMVSlot.noConfusion e)).trans h2, f2, hwp, hNr⟩, ?_, ?_, Or.inr ⟨rfl, ?_⟩⟩
    · simp only [VTree.flat, hNf]
    · simp only [VTree.size, hNs]
      try omega
    · rcases ho with ho | ho
      · rw [ho]; exact List.mem_cons_self _ _
      · exact List.mem_cons_of_mem _ (List.mem_append_right _ ho)

/-- C17: for an IR `T` of the context `c` (the tree under `c->headp`, with
the slot references of the builder) and vertices `from` and `until` on one
stem of it (`t` is the tree under `from`, `until` is on the stem of `t`),
`PMV_wrap_section(from, until)` returns, and the in-order flattening of the
IR, read from the memory under the head pointer of the context with wrappers
transparent, is the same list of vertices before and after the call. -/
theorem PMV_wrap_section_flatten (junk fuel : Nat) (s : PMState) (c : Nat) (T t : VTree)
    (untilp nvp ngp : Nat)
    (hhead : (s.cm c).headp = T.root) (hrep : T.Rep s.vm) (hnd : T.nodes.Nodup)
    (hlink : T.Linked s.vm (PMVSlot.headp c)) (hsub : SubtreeOf T t) (hu : untilp ∈ t.stem)
    (hctx : (s.vm t.root).ctxp = (s.vm untilp).ctxp) (hctx0 : (s.vm t.root).ctxp ≠ 0)
    (hnv : nvp ≠ 0) (hng : ngp ≠ 0) (hfresh : nvp ∉ T.nodes)
    (hfuel : 3 * T.size + 3 ≤ fuel) :
    ∃ s' l, PMV_wrap_section junk fuel s t.root untilp nvp ngp = some (s', nvp) ∧
      PMV_flatten fuel s.vm (s.cm c).headp = some l ∧
      PMV_flatten fuel s'.vm (s'.cm c).headp = some l := by
  have ht : t ≠ VTree.nil := by
    intro e
    rw [e] at hu
    exact absurd hu (List.not_mem_nil _)
  have hrept := SubtreeOf_Rep hsub hrep
  have hndt := SubtreeOf_nodup hsub hnd
  have hfresht : nvp ∉ t.nodes := fun x => hfresh (SubtreeOf_nodes hsub _ x)
  have hum : untilp ∈ t.nodes := VTree.stem_subset t untilp hu
  have hsize := SubtreeOf_size hsub
  have hslot : (s.vm t.root).prevnpp ≠ PMVSlot.null ∧
      (s.vm t.root).prevnpp.owner ∉ nvp :: t.nodes := by
    rcases SubtreeOf_slot hsub ht _ hlink hnd with e | ⟨n1, n2, n3⟩
    · rw [e]
      refine ⟨fun x => PMVSlot.noConfusion x, fun x => ?_⟩
      rcases List.mem_cons.mp x with x | x
      · exact hnv x.symm
      · exact VTree.nodes_ne_zero t hrept _ x rfl
    · refine ⟨n1, fun x => ?_⟩
      rcases List.mem_cons.mp x with x | x
      · exact hfresh (x ▸ n2)
      · exact n3 x
  obtain ⟨s', hs', hW⟩ := PMV_wrap_section_spec junk fuel s t untilp nvp ngp hrept hndt hu hctx
    hctx0 hslot.1 hslot.2 hnv hng hfresht (by omega)
  have hWrep := hW.Rep_wrapped hrept hndt hu (fun x => hslot.2 (List.mem_cons_of_mem _ x)) hnv
    hfresht
  obtain ⟨T', hTr, hTf, hTs, hd⟩ := hW.subst rfl ht hum hWrep rfl (VTree.wrapped_flat hu)
    (VTree.wrapped_size hu) hsub (PMVSlot.headp c) hrep hnd hlink hfresh
  refine ⟨s', T.flat, hs', ?_, ?_⟩
  · rw [hhead]
    exact PMV_flatten_spec s.vm fuel T hrep (by omega)
  · have hroot : (s'.cm c).headp = T'.root := by
      rcases hd with ⟨e, r⟩ | ⟨r, o⟩
      · have h1 := hW.1
        rw [e] at h1
        exact h1.trans r.symm
      · rw [r, ← hhead]
        refine hW.2.2.2.2.2.2.2.2 c (fun e => ?_)
        rw [e] at o
        exact VTree.nodes_ne_zero T hrep _ o rfl
    rw [hroot, ← hTf]
    exact PMV_flatten_spec s'.vm fuel T' hTr (by omega)

theorem PMV_wrap_section_flatten_witness :
    ∃ s' l, PMV_wrap_section 0 12 pm_example_built 2 2 4 14 = some (s', 4) ∧
      PMV_flatten 12 pm_example_built.vm (pm_example_built.cm 1).headp = some l ∧
      PMV_flatten 12 s'.vm (s'.cm 1).headp = some l :=
  PMV_wrap_section_flatten 0 12 pm_example_built 1 pm_example_tree (VTree.seg 2 VTree.nil) 2 4 14
    (by decide) pm_example_tree_Rep (by decide)
    ⟨by decide, ⟨by decide, trivial⟩, ⟨by decide, trivial⟩, trivial⟩
    (SubtreeOf.insc_pp 1 _ _ _ _ (SubtreeOf.refl _)) (by decide) (by decide) (by decide)
    (by decide) (by decide) (by decide) (by decide)


/-! ## `PMV_is_similar` on an evaluated IR -/

theorem Gd_refl (m : PMVMem) (ns : List Nat) : Gd m m ns := ⟨fun _ => rfl, fun _ _ => rfl⟩

theorem Gd_trans {m m1 m2 : PMVMem} {ns1 ns2 ns : List Nat} (h1 : Gd m m1 ns1)
    (h2 : Gd m1 m2 ns2) (hn1 : ∀ a, a ∈ ns1 → a ∈ ns) (hn2 : ∀ a, a ∈ ns2 → a ∈ ns) :
    Gd m m2 ns := by
  refine ⟨fun a => (h2.1 a).trans (h1.1 a), fun a ha => ?_⟩
  rw [h2.2 a (fun h => ha (hn2 a h)), h1.2 a (fun h => ha (hn1 a h))]

theorem Gd_mono {m m' : PMVMem} {ns ns' : List Nat} (h : Gd m m' ns)
    (hn : ∀ a, a ∈ ns → a ∈ ns') : Gd m m' ns' :=
  ⟨h.1, fun a ha => h.2 a (fun h' => ha (hn a h'))⟩

theorem Gd_store_flags (m : PMVMem) (v f : Nat) (ns : List Nat) (hv : v ∈ ns) :
    Gd m (store m v ((m v).with_flags f)) ns := by
  refine ⟨?_, ?_⟩
  · intro a
    by_cases ha : a = v
    · subst ha; rw [store_same]; rfl
    · rw [store_other _ _ _ _ ha]
  · intro a ha
    rw [store_other _ _ _ _ (fun e => ha (by rw [e]; exact hv))]

theorem VTree.Held_of_noflags {m m' : PMVMem} {t : VTree}
    (h : ∀ a, (m' a).noflags = (m a).noflags) (ht : t.Held m) : t.Held m' :=
  ⟨ht.1, VTree.Rep_of_skel t (fun a => PMV.skel_of_noflags (h a)) ht.2.1,
    VTree.Corr_of_noflags t h ht.2.2⟩

theorem VTree.Held_npt {m : PMVMem} {t : VTree} (h : t.Held m) : t.npt.Held m := by
  cases t with
  | nil => exact h
  | seg a np => exact ⟨h.1, h.2.1.2.2.2, h.2.2.2⟩
  | insc a pp cp np => exact ⟨h.1.2.2.2.2, h.2.1.2.2.2.2.2.2.2, h.2.2.2.2.2⟩
  | wrap a wp np => exact absurd h.1 (fun x => x)

theorem VTree.Held_pp {m : PMVMem} {a : Nat} {pp cp np : VTree}
    (h : (VTree.insc a pp cp np).Held m) : pp.Held m :=
  ⟨h.1.2.2.1, h.2.1.2.2.2.2.2.1, h.2.2.2.1⟩

theorem VTree.Held_cp {m : PMVMem} {a : Nat} {pp cp np : VTree}
    (h : (VTree.insc a pp cp np).Held m) : cp.Held m :=
  ⟨h.1.2.2.2.1, h.2.1.2.2.2.2.2.2.1, h.2.2.2.2.1⟩

theorem VTree.FlagsOK_congr {m m' : PMVMem} : ∀ (t : VTree),
    (∀ a ∈ t.nodes, (m' a).flags = (m a).flags) → t.FlagsOK m → t.FlagsOK m' := by
  intro t
  induction t with
  | nil => intro _ _; trivial
  | seg a np ih =>
    intro h hf
    refine ⟨?_, ih (fun x hx => h x (List.mem_cons_of_mem _ hx)) hf.2⟩
    rw [h a (List.mem_cons_self _ _)]
    exact hf.1
  | insc a pp cp np ihp ihc ihn =>
    intro h hf
    refine ⟨?_, ?_, ?_, ?_⟩
    · rw [h a (List.mem_cons_self _ _)]
      exact hf.1
    · exact ihp (fun x hx => h x (List.mem_cons_of_mem _
        (List.mem_append_left _ (List.mem_append_left _ hx)))) hf.2.1
    · exact ihc (fun x hx => h x (List.mem_cons_of_mem _
        (List.mem_append_left _ (List.mem_append_right _ hx)))) hf.2.2.1
    · exact ihn (fun x hx => h x (List.mem_cons_of_mem _ (List.mem_append_right _ hx))) hf.2.2.2
  | wrap a wp np ihw ihn =>
    intro h hf
    refine ⟨?_, ?_, ?_⟩
    · rw [h a (List.mem_cons_self _ _)]
      exact hf.1
    · exact ihw (fun x hx => h x (List.mem_cons_of_mem _ (List.mem_append_left _ hx))) hf.2.1
    · exact ihn (fun x hx => h x (List.mem_cons_of_mem _ (List.mem_append_right _ hx))) hf.2.2

/-- A call that does not write to the tree keeps its flags. -/
theorem VTree.FlagsOK_frame {m m' : PMVMem} {ns : List Nat} (t : VTree) (h : Gd m m' ns)
    (hd : ∀ a ∈ t.nodes, a ∉ ns) (hf : t.FlagsOK m) : t.FlagsOK m' :=
  VTree.FlagsOK_congr t (fun a ha => by rw [h.2 a (hd a ha)]) hf

theorem VTree.FlagsOK_iff {m : PMVMem} {t : VTree} (ht : t ≠ VTree.nil) :
    t.FlagsOK m ↔
      ((m t.root).flags = 0 ∨ (m t.root).flags = t.eflags) ∧ t.FlagsBelow m := by
  cases t with
  | nil => exact absurd rfl ht
  | seg a np => exact Iff.rfl
  | insc a pp cp np => exact Iff.rfl
  | wrap a wp np => exact Iff.rfl

theorem VTree.FlagsBelow_of_OK {m : PMVMem} {t : VTree} (h : t.FlagsOK m) : t.FlagsBelow m := by
  cases t with
  | nil => trivial
  | seg a np => exact h.2
  | insc a pp cp np => exact h.2
  | wrap a wp np => exact h.2

theorem VTree.FlagsBelow_congr {m m' : PMVMem} (t : VTree)
    (h : ∀ a ∈ t.nodes, a ≠ t.root → (m' a).flags = (m a).flags) (hnd : t.nodes.Nodup)
    (hf : t.FlagsBelow m) : t.FlagsBelow m' := by
  cases t with
  | nil => trivial
  | seg a np =>
    have hnd' := List.nodup_cons.mp hnd
    exact VTree.FlagsOK_congr np (fun x hx => h x (List.mem_cons_of_mem _ hx)
      (fun (e : x = a) => hnd'.1 (e ▸ hx))) hf
  | insc a pp cp np =>
    have hnd' := List.nodup_cons.mp hnd
    refine ⟨?_, ?_, ?_⟩
    · exact VTree.FlagsOK_congr pp (fun x hx =>
        have hx' : x ∈ pp.nodes ++ cp.nodes ++ np.nodes :=
          List.mem_append_left _ (List.mem_append_left _ hx)
        h x (List.mem_cons_of_mem _ hx') (fun (e : x = a) => hnd'.1 (e ▸ hx'))) hf.1
    · exact VTree.FlagsOK_congr cp (fun x hx =>
        have hx' : x ∈ pp.nodes ++ cp.nodes ++ np.nodes :=
          List.mem_append_left _ (List.mem_append_right _ hx)
        h x (List.mem_cons_of_mem _ hx') (fun (e : x = a) => hnd'.1 (e ▸ hx'))) hf.2.1
    · exact VTree.FlagsOK_congr np (fun x hx =>
        have hx' : x ∈ pp.nodes ++ cp.nodes ++ np.nodes := List.mem_append_right _ hx
        h x (List.mem_cons_of_mem _ hx') (fun (e : x = a) => hnd'.1 (e ▸ hx'))) hf.2.2
  | wrap a wp np =>
    have hnd' := List.nodup_cons.mp hnd
    refine ⟨?_, ?_⟩
    · exact VTree.FlagsOK_congr wp (fun x hx =>
        have hx' : x ∈ wp.nodes ++ np.nodes := List.mem_append_left _ hx
        h x (List.mem_cons_of_mem _ hx') (fun (e : x = a) => hnd'.1 (e ▸ hx'))) hf.1
    · exact VTree.FlagsOK_congr np (fun x hx =>
        have hx' : x ∈ wp.nodes ++ np.nodes := List.mem_append_right _ hx
        h x (List.mem_cons_of_mem _ hx') (fun (e : x = a) => hnd'.1 (e ▸ hx'))) hf.2

theorem VTree.shape_eq_nil {t : VTree} (h : t.shape = PShape.nil) : t = VTree.nil := by
  cases t with
  | nil => rfl
  | seg a np => exact PShape.noConfusion h
  | insc a pp cp np => exact PShape.noConfusion h
  | wrap a wp np => exact PShape.noConfusion h

/-- The summary and the flags of an evaluated tree depend only on its shape. -/
theorem VTree.summary_of_shape : ∀ (ta tb : VTree), ta.shape = tb.shape →
    ta.hash = tb.hash ∧ ta.depth = tb.depth ∧ ta.vcnt = tb.vcnt ∧ ta.eflags = tb.eflags := by
  intro ta
  induction ta with
  | nil =>
    intro tb h
    rw [VTree.shape_eq_nil h.symm]
    exact ⟨rfl, rfl, rfl, rfl⟩
  | seg a np ih =>
    intro tb h
    cases tb with
    | nil => exact PShape.noConfusion h
    | seg b nq =>
      simp only [VTree.shape, PShape.seg.injEq] at h
      obtain ⟨e1, e2, e3, _⟩ := ih nq h
      simp only [VTree.hash, VTree.depth, VTree.vcnt, VTree.eflags, e1, e2, e3, and_self]
    | insc b pq cq nq => exact PShape.noConfusion h
    | wrap b wq nq => exact PShape.noConfusion h
  | insc a pp cp np ihp ihc ihn =>
    intro tb h
    cases tb with
    | nil => exact PShape.noConfusion h
    | seg b nq => exact PShape.noConfusion h
    | insc b pq cq nq =>
      simp only [VTree.shape, PShape.insc.injEq] at h
      obtain ⟨p1, p2, p3, _⟩ := ihp pq h.1
      obtain ⟨c1, c2, c3, _⟩ := ihc cq h.2.1
      obtain ⟨n1, n2, n3, _⟩ := ihn nq h.2.2
      simp only [VTree.hash, VTree.depth, VTree.vcnt, VTree.eflags, p1, p2, p3, c1, c2, c3, n1,
        n2, n3, h.1, h.2.1, and_self]
    | wrap b wq nq => exact PShape.noConfusion h
  | wrap a wp np ihw ihn =>
    intro tb h
    cases tb with
    | nil => exact PShape.noConfusion h
    | seg b nq => exact PShape.noConfusion h
    | insc b pq cq nq => exact PShape.noConfusion h
    | wrap b wq nq =>
      simp only [VTree.shape, PShape.wrap.injEq] at h
      obtain ⟨w1, w2, w3, _⟩ := ihw wq h.1
      obtain ⟨n1, n2, n3, _⟩ := ihn nq h.2
      simp only [VTree.hash, VTree.depth, VTree.vcnt, VTree.eflags, w1, w2, w3, n1, n2, n3,
        and_self]

theorem VTree.eflags_cases {t : VTree} (ht : t ≠ VTree.nil) : t.eflags = 1 ∨ t.eflags = 513 := by
  cases t with
  | nil => exact absurd rfl ht
  | seg a np => exact Or.inl rfl
  | insc a pp cp np =>
    by_cases h : pp.shape = cp.shape
    · right
      simp only [VTree.eflags, if_pos h]
      rfl
    · left
      simp only [VTree.eflags, if_neg h]
      rfl
  | wrap a wp np => exact Or.inl rfl

/-- What the tests after a call of `PMV_find_similar_stem` see. -/
theorem EndsG.decode {m : PMVMem} {ta tb : VTree} {e1 e2 : Nat} (h : EndsG ta tb e1 e2)
    (hta : ta ≠ VTree.nil) (htb : tb ≠ VTree.nil) (hra : ta.Rep m) (hrb : tb.Rep m)
    (hnd : (ta.nodes ++ tb.nodes).Nodup) :
    (ta.shape = tb.shape → e1 ≠ 0 ∧ e2 ≠ 0 ∧ (m e1).np = (m e2).np) ∧
    (ta.shape ≠ tb.shape → e1 = 0 ∨ (e2 ≠ 0 ∧ (m e1).np ≠ (m e2).np)) := by
  refine ⟨fun hs => ?_, fun hs => ?_⟩
  · obtain ⟨sa, sb, hsa, hsb, hna, hnb, h1, h2, n1, n2⟩ := h.2.1 hta htb hs
    have hrsa := StemOf_Rep hsa hra
    have hrsb := StemOf_Rep hsb hrb
    refine ⟨?_, ?_, ?_⟩
    · rw [h1]; exact VTree.root_ne_zero hna hrsa
    · rw [h2]; exact VTree.root_ne_zero hnb hrsb
    · rw [h1, h2, VTree.np_eq_npt_root hna hrsa, VTree.np_eq_npt_root hnb hrsb, n1, n2]
  · rcases h.2.2 hta htb hs with h0 | ⟨sa, sb, hsa, hsb, hna, hnb, h1, h2, hn⟩
    · exact Or.inl h0.1
    · have hrsa := StemOf_Rep hsa hra
      have hrsb := StemOf_Rep hsb hrb
      right
      refine ⟨by rw [h2]; exact VTree.root_ne_zero hnb hrsb, ?_⟩
      rw [h1, h2, VTree.np_eq_npt_root hna hrsa, VTree.np_eq_npt_root hnb hrsb]
      intro e
      by_cases ha : sa.npt = VTree.nil
      · have hb : sb.npt ≠ VTree.nil := fun hb => hn ⟨ha, hb⟩
        rw [ha] at e
        exact VTree.root_ne_zero hb (VTree.npt_Rep hrsb) e.symm
      · by_cases hb : sb.npt = VTree.nil
        · rw [hb] at e
          exact VTree.root_ne_zero ha (VTree.npt_Rep hrsa) e
        · have m1 : sa.npt.root ∈ ta.nodes :=
            StemOf_nodes_subset hsa _ (VTree.npt_nodes_subset sa _ (VTree.root_mem_nodes ha))
          have m2 : sb.npt.root ∈ tb.nodes :=
            StemOf_nodes_subset hsb _ (VTree.npt_nodes_subset sb _ (VTree.root_mem_nodes hb))
          rw [e] at m1
          exact (List.nodup_append.mp hnd).2.2 m1 m2

theorem EndsG_nil {ta tb : VTree} (h : ta = VTree.nil ∨ tb = VTree.nil) : EndsG ta tb 0 0 :=
  ⟨fun _ => ⟨rfl, rfl⟩, fun h1 h2 _ => (h.elim (fun x => absurd x h1) (fun x => absurd x h2)),
    fun _ _ _ => Or.inl ⟨rfl, rfl⟩⟩

/-- The ends for two trees of different shapes, both NULL. -/
theorem EndsG_zero {ta tb : VTree} (h : ta.shape ≠ tb.shape) : EndsG ta tb 0 0 :=
  ⟨fun _ => ⟨rfl, rfl⟩, fun _ _ hs => absurd hs h, fun _ _ _ => Or.inl ⟨rfl, rfl⟩⟩

theorem lnot_start_1 : lnot PMV_SBIT_commonstem_start_1 = 0 := rfl

theorem lnot_start_2 : lnot PMV_SBIT_commonstem_start_2 = 0 := rfl

/-- The body of `PMV_find_similar_stem` on an evaluated IR. -/
theorem PMV_find_similar_stem_body_good
    {fcs : PMVMem → Nat → Nat → Bool → Option (PMVMem × Nat × Nat)} {n : Nat}
    (hfcs : FcsG fcs n) : FssG (PMV_find_similar_stem_body fcs) (n + 1) := by
  intro m ta tb cs hha hhb hnd hfa hfb hsz
  have hra := hha.2.1
  have hrb := hhb.2.1
  unfold PMV_find_similar_stem_body
  by_cases hnil : ta = VTree.nil ∨ tb = VTree.nil
  · have hcond : (ta.root = 0 ∧ tb.root ≠ 0) ∨ (ta.root ≠ 0 ∧ tb.root = 0) ∨
        ta.root = tb.root := by
      rcases hnil with h | h
      · subst h
        by_cases hb : tb.root = 0
        · exact Or.inr (Or.inr hb.symm)
        · exact Or.inl ⟨rfl, hb⟩
      · subst h
        by_cases ha : ta.root = 0
        · exact Or.inr (Or.inr ha)
        · exact Or.inr (Or.inl ⟨ha, rfl⟩)
    have hne : ¬ (ta.root ≠ 0 ∧ ta.root = tb.root) := by
      rintro ⟨h1, h2⟩
      rcases hnil with h | h
      · subst h; exact h1 rfl
      · subst h; exact h1 h2
    rw [if_neg hne, if_pos hcond]
    exact ⟨m, 0, 0, rfl, Gd_refl _ _, hfa, hfb, EndsG_nil hnil⟩
  · have hta : ta ≠ VTree.nil := fun h => hnil (Or.inl h)
    have htb : tb ≠ VTree.nil := fun h => hnil (Or.inr h)
    have ha0 := VTree.root_ne_zero hta hra
    have hb0 := VTree.root_ne_zero htb hrb
    have hab := roots_ne_of_nodup hta htb hnd
    have hma : ta.root ∈ ta.nodes ++ tb.nodes :=
      List.mem_append_left _ (VTree.root_mem_nodes hta)
    have hmb : tb.root ∈ ta.nodes ++ tb.nodes :=
      List.mem_append_right _ (VTree.root_mem_nodes htb)
    obtain ⟨hnda, hndb, hdisj⟩ := List.nodup_append.mp hnd
    rw [if_neg (fun h => hab h.2),
      if_neg (fun h => h.elim (fun h => ha0 h.1) (fun h => h.elim (fun h => hb0 h.2) hab))]
    dsimp only
    have hfa' := (VTree.FlagsOK_iff hta).mp hfa
    have hfb' := (VTree.FlagsOK_iff htb).mp hfb
    -- the two starts are marked
    have he1 := Gd_store_flags m ta.root
      ((m ta.root).flags ||| PMV_SBIT_commonstem_start_1) (ta.nodes ++ tb.nodes) hma
    have hm1a : (store m ta.root ((m ta.root).with_flags
        ((m ta.root).flags ||| PMV_SBIT_commonstem_start_1)) ta.root).flags =
        (m ta.root).flags ||| 2 := by
      rw [store_same]; rfl
    have hm1o : ∀ a, a ≠ ta.root → store m ta.root ((m ta.root).with_flags
        ((m ta.root).flags ||| PMV_SBIT_commonstem_start_1)) a = m a :=
      fun a ha => store_other _ _ _ _ ha
    generalize store m ta.root
      ((m ta.root).with_flags ((m ta.root).flags ||| PMV_SBIT_commonstem_start_1)) = m1
      at he1 hm1a hm1o ⊢
    have he2 := Gd_store_flags m1 tb.root
      ((m1 tb.root).flags ||| PMV_SBIT_commonstem_start_2) (ta.nodes ++ tb.nodes) hmb
    have hm2b : (store m1 tb.root ((m1 tb.root).with_flags
        ((m1 tb.root).flags ||| PMV_SBIT_commonstem_start_2)) tb.root).flags =
        (m tb.root).flags ||| 4 := by
      rw [store_same, ← hm1o tb.root (fun e => hab e.symm)]; rfl
    have hm2o : ∀ a, a ≠ tb.root → store m1 tb.root ((m1 tb.root).with_flags
        ((m1 tb.root).flags ||| PMV_SBIT_commonstem_start_2)) a = m1 a :=
      fun a ha => store_other _ _ _ _ ha
    generalize store m1 tb.root
      ((m1 tb.root).with_flags ((m1 tb.root).flags ||| PMV_SBIT_commonstem_start_2)) = m2
      at he2 hm2b hm2o ⊢
    have he12 : Gd m m2 (ta.nodes ++ tb.nodes) :=
      Gd_trans he1 he2 (fun _ h => h) (fun _ h => h)
    have hm2a : (m2 ta.root).flags = (m ta.root).flags ||| 2 := by
      rw [hm2o ta.root hab, hm1a]
    have hkeep : ∀ a, a ≠ ta.root → a ≠ tb.root → m2 a = m a :=
      fun a h1 h2 => by rw [hm2o a h2, hm1o a h1]
    have hfa2 : ta.FlagsBelow m2 := by
      refine VTree.FlagsBelow_congr ta (fun a ha hne => ?_) hnda hfa'.2
      rw [hkeep a hne (fun e => hdisj ha (e ▸ VTree.root_mem_nodes htb))]
    have hfb2 : tb.FlagsBelow m2 := by
      refine VTree.FlagsBelow_congr tb (fun a ha hne => ?_) hndb hfb'.2
      rw [hkeep a (fun e => hdisj (e ▸ VTree.root_mem_nodes hta) ha) hne]
    have hroot_a : (m2 ta.root).flags = 2 ∨ (m2 ta.root).flags = ta.eflags ||| 2 := by
      rw [hm2a]
      rcases hfa'.1 with h | h
      · left; rw [h]; rfl
      · right; rw [h]
    have hroot_b : (m2 tb.root).flags = 4 ∨ (m2 tb.root).flags = tb.eflags ||| 4 := by
      rw [hm2b]
      rcases hfb'.1 with h | h
      · left; rw [h]; rfl
      · right; rw [h]
    obtain ⟨m3, e1, e2, h3, hpost3, hfa3, hfb3, hends⟩ := hfcs m2 ta tb cs hta htb
      (VTree.Held_of_noflags he12.1 hha) (VTree.Held_of_noflags he12.1 hhb) hnd hfa2 hfb2
      hroot_a hroot_b (by omega)
    rw [h3]
    dsimp only
    have he13 : Gd m m3 (ta.nodes ++ tb.nodes) :=
      Gd_trans he12 hpost3 (fun _ h => h) (fun _ h => h)
    -- the marks are removed, with every other flag
    have he4 := Gd_store_flags m3 ta.root
      ((m3 ta.root).flags &&& lnot PMV_SBIT_commonstem_start_1) (ta.nodes ++ tb.nodes) hma
    have hm4a : (store m3 ta.root ((m3 ta.root).with_flags
        ((m3 ta.root).flags &&& lnot PMV_SBIT_commonstem_start_1)) ta.root).flags = 0 := by
      rw [store_same, lnot_start_1]
      exact Nat.and_zero _
    have hm4o : ∀ a, a ≠ ta.root → store m3 ta.root ((m3 ta.root).with_flags
        ((m3 ta.root).flags &&& lnot PMV_SBIT_commonstem_start_1)) a = m3 a :=
      fun a ha => store_other _ _ _ _ ha
    generalize store m3 ta.root
      ((m3 ta.root).with_flags ((m3 ta.root).flags &&& lnot PMV_SBIT_commonstem_start_1)) = m4
      at he4 hm4a hm4o ⊢
    have he5 := Gd_store_flags m4 tb.root
      ((m4 tb.root).flags &&& lnot PMV_SBIT_commonstem_start_2) (ta.nodes ++ tb.nodes) hmb
    have hm5b : (store m4 tb.root ((m4 tb.root).with_flags
        ((m4 tb.root).flags &&& lnot PMV_SBIT_commonstem_start_2)) tb.root).flags = 0 := by
      rw [store_same, lnot_start_2]
      exact Nat.and_zero _
    have hm5o : ∀ a, a ≠ tb.root → store m4 tb.root ((m4 tb.root).with_flags
        ((m4 tb.root).flags &&& lnot PMV_SBIT_commonstem_start_2)) a = m4 a :=
      fun a ha => store_other _ _ _ _ ha
    generalize store m4 tb.root
      ((m4 tb.root).with_flags ((m4 tb.root).flags &&& lnot PMV_SBIT_commonstem_start_2)) = m5
      at he5 hm5b hm5o ⊢
    have hkeep5 : ∀ a, a ≠ ta.root → a ≠ tb.root → m5 a = m3 a :=
      fun a h1 h2 => by rw [hm5o a h2, hm4o a h1]
    refine ⟨m5, e1, e2, rfl, ?_, ?_, ?_, hends⟩
    · exact Gd_trans (Gd_trans he13 he4 (fun _ h => h) (fun _ h => h)) he5 (fun _ h => h)
        (fun _ h => h)
    · refine (VTree.FlagsOK_iff hta).mpr ⟨Or.inl ?_, ?_⟩
      · rw [hm5o ta.root hab, hm4a]
      · refine VTree.FlagsBelow_congr ta (fun a ha hne => ?_) hnda hfa3
        rw [hkeep5 a hne (fun e => hdisj ha (e ▸ VTree.root_mem_nodes htb))]
    · refine (VTree.FlagsOK_iff htb).mpr ⟨Or.inl hm5b, ?_⟩
      refine VTree.FlagsBelow_congr tb (fun a ha hne => ?_) hndb hfb3
      rw [hkeep5 a (fun e => hdisj (e ▸ VTree.root_mem_nodes hta) ha) hne]

/-- The body of `PMV_is_similar` on an evaluated IR. -/
theorem PMV_is_similar_body_good
    {fss : PMVMem → Nat → Nat → Bool → Option (PMVMem × Nat × Nat)} {n : Nat}
    (hfss : FssG fss n) : SimG (PMV_is_similar_body fss) (n + 1) := by
  intro m ta tb cs hta htb hha hhb hnd hfa hfb hsz
  unfold PMV_is_similar_body
  rw [if_neg (VTree.root_ne_zero hta hha.2.1)]
  obtain ⟨m1, e1, e2, h1, hpost, hfa1, hfb1, hends⟩ := hfss m ta tb cs hha hhb hnd hfa hfb
    (by omega)
  rw [h1]
  dsimp only
  have hha1 := VTree.Held_of_noflags hpost.1 hha
  have hhb1 := VTree.Held_of_noflags hpost.1 hhb
  obtain ⟨d1, d2⟩ := hends.decode hta htb hha1.2.1 hhb1.2.1 hnd
  by_cases hs : ta.shape = tb.shape
  · obtain ⟨x1, x2, x3⟩ := d1 hs
    rw [if_neg x1, if_neg x2, if_neg (not_not.mpr x3), if_pos hs]
    exact ⟨m1, rfl, hpost, hfa1, hfb1⟩
  · rw [if_neg hs]
    rcases d2 hs with x1 | ⟨x2, x3⟩
    · rw [if_pos x1]
      exact ⟨m1, rfl, hpost, hfa1, hfb1⟩
    · by_cases x1 : e1 = 0
      · rw [if_pos x1]
        exact ⟨m1, rfl, hpost, hfa1, hfb1⟩
      · rw [if_neg x1, if_neg x2, if_pos x3]
        exact ⟨m1, rfl, hpost, hfa1, hfb1⟩

/-- The body of `PMV_insc_is_symm` on an evaluated IR. -/
theorem PMV_insc_is_symm_body_good {eval : PMVMem → Nat → Bool → Option PMVMem} {n : Nat}
    (heval : EvalG eval n) : SymG (PMV_insc_is_symm_body eval) (n + 1) := by
  intro m a pp cp np s hh hnd hfb hfl hs hsz
  have hrep := hh.2.1
  unfold PMV_insc_is_symm_body
  rw [if_neg hrep.1, if_neg (not_not.mpr hrep.2.1)]
  have hef := VTree.eflags_cases (fun e => VTree.noConfusion e :
    VTree.insc a pp cp np ≠ VTree.nil)
  rcases hfl with hfl | hfl
  · have h0 : (m a).flags &&& PMV_SBIT_evaluated = 0 := by
      rw [hfl]
      rcases hs with hs | hs <;> rw [hs] <;> rfl
    rw [if_pos h0]
    obtain ⟨m1, h1, hpost, hfb1, hr1⟩ := heval m (VTree.insc a pp cp np) s
      (fun e => VTree.noConfusion e) hh hnd hfb hfl (hs.elim (fun h => Or.inr (Or.inl h))
        (fun h => Or.inr (Or.inr h))) (by omega)
    have h1' : eval m a false = some m1 := h1
    rw [h1']
    dsimp only
    have hr1' : (m1 a).flags = (VTree.insc a pp cp np).eflags ||| s := hr1
    refine ⟨m1, ?_, hpost, hfb1⟩
    rw [hr1']
    have : ((VTree.insc a pp cp np).eflags ||| s) &&& PMV_SBIT_INSC_is_sym =
        (VTree.insc a pp cp np).eflags &&& PMV_SBIT_INSC_is_sym := by
      rcases hef with e | e <;> rcases hs with hs | hs <;> rw [e, hs] <;> rfl
    rw [this]
  · have h0 : ¬ (m a).flags &&& PMV_SBIT_evaluated = 0 := by
      rw [hfl]
      rcases hef with e | e <;> rcases hs with hs | hs <;> rw [e, hs] <;> decide
    rw [if_neg h0]
    dsimp only
    refine ⟨m, ?_, Gd_refl _ _, hfb⟩
    rw [hfl]
    have : ((VTree.insc a pp cp np).eflags ||| s) &&& PMV_SBIT_INSC_is_sym =
        (VTree.insc a pp cp np).eflags &&& PMV_SBIT_INSC_is_sym := by
      rcases hef with e | e <;> rcases hs with hs | hs <;> rw [e, hs] <;> rfl
    rw [this]

/-- One comparison of branches in `_PMV_find_common_stem` on an evaluated IR:
no jump is made if and only if the branches have the same shape. -/
theorem PMV_find_common_stem_branch_good
    {fss : PMVMem → Nat → Nat → Bool → Option (PMVMem × Nat × Nat)} {n : Nat}
    (hfss : FssG fss n) (m : PMVMem) (t1 t2 : VTree) (h1 : t1 ≠ VTree.nil)
    (h2 : t2 ≠ VTree.nil) (hh1 : t1.Held m) (hh2 : t2.Held m)
    (hnd : (t1.nodes ++ t2.nodes).Nodup) (hf1 : t1.FlagsOK m) (hf2 : t2.FlagsOK m)
    (hsz : 3 * (t1.size + t2.size) + 1 ≤ n) :
    ∃ m', PMV_find_common_stem_branch fss m t1.root t2.root =
        some (m', decide (t1.shape = t2.shape)) ∧
      Gd m m' (t1.nodes ++ t2.nodes) ∧ t1.FlagsOK m' ∧ t2.FlagsOK m' := by
  unfold PMV_find_common_stem_branch
  obtain ⟨m1, e1, e2, hc, hpost, hfa1, hfb1, hends⟩ := hfss m t1 t2 true hh1 hh2 hnd hf1 hf2 hsz
  rw [hc]
  dsimp only
  have hha1 := VTree.Held_of_noflags hpost.1 hh1
  have hhb1 := VTree.Held_of_noflags hpost.1 hh2
  obtain ⟨d1, d2⟩ := hends.decode h1 h2 hha1.2.1 hhb1.2.1 hnd
  by_cases hs : t1.shape = t2.shape
  · obtain ⟨x1, x2, x3⟩ := d1 hs
    rw [if_neg x1, if_neg x2, if_neg (not_not.mpr x3), decide_eq_true hs]
    exact ⟨m1, rfl, hpost, hfa1, hfb1⟩
  · rw [decide_eq_false hs]
    rcases d2 hs with x1 | ⟨x2, x3⟩
    · rw [if_pos x1]
      exact ⟨m1, rfl, hpost, hfa1, hfb1⟩
    · by_cases x1 : e1 = 0
      · rw [if_pos x1]
        exact ⟨m1, rfl, hpost, hfa1, hfb1⟩
      · rw [if_neg x1, if_neg x2, if_pos x3]
        exact ⟨m1, rfl, hpost, hfa1, hfb1⟩

theorem VTree.FlagsOK_npt {m : PMVMem} {t : VTree} (h : t.FlagsBelow m) : t.npt.FlagsOK m := by
  cases t with
  | nil => trivial
  | seg a np => exact h
  | insc a pp cp np => exact h.2.2
  | wrap a wp np => exact h.2

/-- The flags below the root after a call that wrote only below `np`. -/
theorem VTree.FlagsBelow_npt_update {m1 m2 : PMVMem} {ns : List Nat} (t : VTree)
    (hnd : t.nodes.Nodup) (hf : t.FlagsBelow m1) (hg : Gd m1 m2 ns)
    (hns : ∀ a ∈ t.nodes, a ∈ ns → a ∈ t.npt.nodes) (hn : t.npt.FlagsOK m2) :
    t.FlagsBelow m2 := by
  cases t with
  | nil => trivial
  | seg a np => exact hn
  | insc a pp cp np =>
    have hnd' := List.nodup_cons.mp hnd
    have hndp := List.nodup_append.mp hnd'.2
    refine ⟨?_, ?_, hn⟩
    · refine VTree.FlagsOK_frame pp hg (fun x hx hxn => ?_) hf.1
      exact hndp.2.2 (List.mem_append_left _ hx)
        (hns x (List.mem_cons_of_mem _ (List.mem_append_left _ (List.mem_append_left _ hx))) hxn)
    · refine VTree.FlagsOK_frame cp hg (fun x hx hxn => ?_) hf.2.1
      exact hndp.2.2 (List.mem_append_right _ hx)
        (hns x (List.mem_cons_of_mem _ (List.mem_append_left _ (List.mem_append_right _ hx))) hxn)
  | wrap a wp np =>
    have hnd' := List.nodup_cons.mp hnd
    have hndp := List.nodup_append.mp hnd'.2
    refine ⟨?_, hn⟩
    refine VTree.FlagsOK_frame wp hg (fun x hx hxn => ?_) hf.1
    exact hndp.2.2 hx (hns x (List.mem_cons_of_mem _ (List.mem_append_left _ hx)) hxn)

/-- The parts of an inosculation without a vertex twice are disjoint. -/
theorem VTree.insc_nodup {a : Nat} {pp cp np : VTree}
    (h : (VTree.insc a pp cp np).nodes.Nodup) :
    pp.nodes.Nodup ∧ cp.nodes.Nodup ∧ np.nodes.Nodup ∧
    a ∉ pp.nodes ∧ a ∉ cp.nodes ∧ a ∉ np.nodes ∧
    (∀ x ∈ pp.nodes, x ∉ cp.nodes) ∧ (∀ x ∈ pp.nodes, x ∉ np.nodes) ∧
    (∀ x ∈ cp.nodes, x ∉ np.nodes) := by
  have hnd' := List.nodup_cons.mp h
  have hndp := List.nodup_append.mp hnd'.2
  have hndpc := List.nodup_append.mp hndp.1
  refine ⟨hndpc.1, hndpc.2.1, hndp.2.1, ?_, ?_, ?_, ?_, ?_, ?_⟩
  · exact fun x => hnd'.1 (List.mem_append_left _ (List.mem_append_left _ x))
  · exact fun x => hnd'.1 (List.mem_append_left _ (List.mem_append_right _ x))
  · exact fun x => hnd'.1 (List.mem_append_right _ x)
  · exact fun x hx hy => hndpc.2.2 hx hy
  · exact fun x hx hy => hndp.2.2 (List.mem_append_left _ hx) hy
  · exact fun x hx hy => hndp.2.2 (List.mem_append_right _ hx) hy

theorem VTree.mem_insc_pp {a : Nat} {pp cp np : VTree} {x : Nat} (h : x ∈ pp.nodes) :
    x ∈ (VTree.insc a pp cp np).nodes :=
  List.mem_cons_of_mem _ (List.mem_append_left _ (List.mem_append_left _ h))

theorem VTree.mem_insc_cp {a : Nat} {pp cp np : VTree} {x : Nat} (h : x ∈ cp.nodes) :
    x ∈ (VTree.insc a pp cp np).nodes :=
  List.mem_cons_of_mem _ (List.mem_append_left _ (List.mem_append_right _ h))

theorem VTree.mem_insc_np {a : Nat} {pp cp np : VTree} {x : Nat} (h : x ∈ np.nodes) :
    x ∈ (VTree.insc a pp cp np).nodes :=
  List.mem_cons_of_mem _ (List.mem_append_right _ h)

/-- The case `PMV_insc` of the `switch` of `_PMV_find_common_stem` on an
evaluated IR: no jump is made if and only if the two inosculations agree in
symmetry and their branches have the same shapes. -/
theorem PMV_find_common_stem_switch_insc_good
    {fss : PMVMem → Nat → Nat → Bool → Option (PMVMem × Nat × Nat)}
    {sym : PMVMem → Nat → Option (PMVMem × Nat)} {n : Nat}
    (hfss : FssG fss n) (hsym : SymG sym n) (m : PMVMem) (a b : Nat)
    (pp cp np pq cq nq : VTree)
    (hha : (VTree.insc a pp cp np).Held m) (hhb : (VTree.insc b pq cq nq).Held m)
    (hnd : ((VTree.insc a pp cp np).nodes ++ (VTree.insc b pq cq nq).nodes).Nodup)
    (hfa : (VTree.insc a pp cp np).FlagsBelow m) (hfb : (VTree.insc b pq cq nq).FlagsBelow m)
    (hroota : (m a).flags = 2 ∨ (m a).flags = (VTree.insc a pp cp np).eflags ||| 2)
    (hrootb : (m b).flags = 4 ∨ (m b).flags = (VTree.insc b pq cq nq).eflags ||| 4)
    (hsz : 3 * ((VTree.insc a pp cp np).size + (VTree.insc b pq cq nq).size) ≤ n + 1) :
    ∃ m' c, PMV_find_common_stem_switch fss sym m a b = some (m', c) ∧
      Gd m m' ((VTree.insc a pp cp np).nodes ++ (VTree.insc b pq cq nq).nodes) ∧
      (VTree.insc a pp cp np).FlagsBelow m' ∧ (VTree.insc b pq cq nq).FlagsBelow m' ∧
      (c = false → (VTree.insc a pp cp np).shape ≠ (VTree.insc b pq cq nq).shape) ∧
      (c = true → ((VTree.insc a pp cp np).shape = (VTree.insc b pq cq nq).shape ↔
        np.shape = nq.shape)) := by
  obtain ⟨hnda, hndb, hdisj⟩ := List.nodup_append.mp hnd
  obtain ⟨ndp, ndc, ndn, ap, ac, an, dpc, dpn, dcn⟩ := VTree.insc_nodup hnda
  obtain ⟨ndq, ndcq, ndnq, bp, bc, bn, dpcq, dpnq, dcnq⟩ := VTree.insc_nodup hndb
  have hsa : (VTree.insc a pp cp np).size = 1 + pp.size + cp.size + np.size := rfl
  have hsb : (VTree.insc b pq cq nq).size = 1 + pq.size + cq.size + nq.size := rfl
  have hL : ∀ x, x ∈ (VTree.insc a pp cp np).nodes →
      x ∈ (VTree.insc a pp cp np).nodes ++ (VTree.insc b pq cq nq).nodes :=
    fun x h => List.mem_append_left _ h
  have hR : ∀ x, x ∈ (VTree.insc b pq cq nq).nodes →
      x ∈ (VTree.insc a pp cp np).nodes ++ (VTree.insc b pq cq nq).nodes :=
    fun x h => List.mem_append_right _ h
  unfold PMV_find_common_stem_switch
  rw [if_neg (by rw [hha.2.1.2.1]; decide), if_pos hha.2.1.2.1]
  -- the symmetry of the first inosculation
  obtain ⟨m1, h1, g1, fa1⟩ := hsym m a pp cp np 2 hha hnda hfa hroota (Or.inl rfl) (by omega)
  rw [h1]
  dsimp only
  have hhb1 := VTree.Held_of_noflags g1.1 hhb
  have hha1 := VTree.Held_of_noflags g1.1 hha
  have fb1 : (VTree.insc b pq cq nq).FlagsBelow m1 :=
    VTree.FlagsBelow_congr _ (fun x hx _ => by rw [g1.2 x (fun h => hdisj h hx)]) hndb hfb
  have hrootb1 : (m1 b).flags = 4 ∨ (m1 b).flags = (VTree.insc b pq cq nq).eflags ||| 4 := by
    rw [g1.2 b (fun h => hdisj h (List.mem_cons_self _ _))]
    exact hrootb
  -- the symmetry of the second inosculation
  obtain ⟨m2, h2, g2, fb2⟩ := hsym m1 b pq cq nq 4 hhb1 hndb fb1 hrootb1 (Or.inr rfl)
    (by omega)
  rw [h2]
  dsimp only
  have g12 : Gd m m2 ((VTree.insc a pp cp np).nodes ++ (VTree.insc b pq cq nq).nodes) :=
    Gd_trans g1 g2 hL hR
  have hha2 := VTree.Held_of_noflags g2.1 hha1
  have hhb2 := VTree.Held_of_noflags g2.1 hhb1
  have fa2 : (VTree.insc a pp cp np).FlagsBelow m2 :=
    VTree.FlagsBelow_congr _ (fun x hx _ => by rw [g2.2 x (fun h => hdisj hx h)]) hnda fa1
  by_cases hr : (VTree.insc a pp cp np).eflags &&& PMV_SBIT_INSC_is_sym ≠
      (VTree.insc b pq cq nq).eflags &&& PMV_SBIT_INSC_is_sym
  · rw [if_pos hr]
    refine ⟨m2, false, rfl, g12, fa2, fb2, fun _ hs => ?_, fun h => Bool.noConfusion h⟩
    exact hr (by rw [(VTree.summary_of_shape _ _ hs).2.2.2])
  · rw [if_neg hr]
    -- the parent branches
    have hpp2 : (m2 a).pp = pp.root := hha2.2.1.2.2.1
    have hpq2 : (m2 b).pp = pq.root := hhb2.2.1.2.2.1
    rw [hpp2, hpq2]
    obtain ⟨m3, h3, g3, fp3, fq3⟩ := PMV_find_common_stem_branch_good hfss m2 pp pq hha.1.1
      hhb.1.1 (VTree.Held_pp hha2) (VTree.Held_pp hhb2)
      (nodup_append_of_subset hnd ndp ndq (fun _ h => VTree.mem_insc_pp h)
        (fun _ h => VTree.mem_insc_pp h)) fa2.1 fb2.1 (by omega)
    rw [h3]
    have g13 : Gd m m3 ((VTree.insc a pp cp np).nodes ++ (VTree.insc b pq cq nq).nodes) :=
      Gd_trans g12 g3 (fun _ h => h) (fun x h => (List.mem_append.mp h).elim
        (fun h => hL x (VTree.mem_insc_pp h)) (fun h => hR x (VTree.mem_insc_pp h)))
    have hha3 := VTree.Held_of_noflags g3.1 hha2
    have hhb3 := VTree.Held_of_noflags g3.1 hhb2
    -- what the comparison of the parent branches did not touch
    have hout3 : ∀ (t : VTree), (∀ x ∈ t.nodes, x ∉ pp.nodes ∧ x ∉ pq.nodes) →
        t.FlagsOK m2 → t.FlagsOK m3 := fun t ht hf =>
      VTree.FlagsOK_frame t g3 (fun x hx h => (List.mem_append.mp h).elim (ht x hx).1
        (ht x hx).2) hf
    have fc3 : cp.FlagsOK m3 := hout3 cp (fun x hx =>
      ⟨fun h => dpc x h hx, fun h => hdisj (VTree.mem_insc_cp hx) (VTree.mem_insc_pp h)⟩) fa2.2.1
    have fn3 : np.FlagsOK m3 := hout3 np (fun x hx =>
      ⟨fun h => dpn x h hx, fun h => hdisj (VTree.mem_insc_np hx) (VTree.mem_insc_pp h)⟩) fa2.2.2
    have fcq3 : cq.FlagsOK m3 := hout3 cq (fun x hx =>
      ⟨fun h => hdisj (VTree.mem_insc_pp h) (VTree.mem_insc_cp hx), fun h => dpcq x h hx⟩)
      fb2.2.1
    have fnq3 : nq.FlagsOK m3 := hout3 nq (fun x hx =>
      ⟨fun h => hdisj (VTree.mem_insc_pp h) (VTree.mem_insc_np hx), fun h => dpnq x h hx⟩)
      fb2.2.2
    by_cases hsp : pp.shape = pq.shape
    · rw [decide_eq_true hsp]
      dsimp only
      -- the child branches
      have hcp3 : (m3 a).cp = cp.root := hha3.2.1.2.2.2.1
      have hcq3 : (m3 b).cp = cq.root := hhb3.2.1.2.2.2.1
      rw [hcp3, hcq3]
      obtain ⟨m4, h4, g4, fc4, fcq4⟩ := PMV_find_common_stem_branch_good hfss m3 cp cq
        hha.1.2.1 hhb.1.2.1 (VTree.Held_cp hha3) (VTree.Held_cp hhb3)
        (nodup_append_of_subset hnd ndc ndcq (fun _ h => VTree.mem_insc_cp h)
          (fun _ h => VTree.mem_insc_cp h)) fc3 fcq3 (by omega)
      rw [h4]
      have g14 : Gd m m4 ((VTree.insc a pp cp np).nodes ++ (VTree.insc b pq cq nq).nodes) :=
        Gd_trans g13 g4 (fun _ h => h) (fun x h => (List.mem_append.mp h).elim
          (fun h => hL x (VTree.mem_insc_cp h)) (fun h => hR x (VTree.mem_insc_cp h)))
      have hout4 : ∀ (t : VTree), (∀ x ∈ t.nodes, x ∉ cp.nodes ∧ x ∉ cq.nodes) →
          t.FlagsOK m3 → t.FlagsOK m4 := fun t ht hf =>
        VTree.FlagsOK_frame t g4 (fun x hx h => (List.mem_append.mp h).elim (ht x hx).1
          (ht x hx).2) hf
      have fp4 : pp.FlagsOK m4 := hout4 pp (fun x hx =>
        ⟨fun h => dpc x hx h, fun h => hdisj (VTree.mem_insc_pp hx) (VTree.mem_insc_cp h)⟩) fp3
      have fn4 : np.FlagsOK m4 := hout4 np (fun x hx =>
        ⟨fun h => dcn x h hx, fun h => hdisj (VTree.mem_insc_np hx) (VTree.mem_insc_cp h)⟩) fn3
      have fq4 : pq.FlagsOK m4 := hout4 pq (fun x hx =>
        ⟨fun h => hdisj (VTree.mem_insc_cp h) (VTree.mem_insc_pp hx), fun h => dpcq x hx h⟩)
        fq3
      have fnq4 : nq.FlagsOK m4 := hout4 nq (fun x hx =>
        ⟨fun h => hdisj (VTree.mem_insc_cp h) (VTree.mem_insc_np hx), fun h => dcnq x h hx⟩)
        fnq3
      refine ⟨m4, decide (cp.shape = cq.shape), rfl, g14, ⟨fp4, fc4, fn4⟩, ⟨fq4, fcq4, fnq4⟩,
        fun hc hs => ?_, fun hc => ?_⟩
      · simp only [VTree.shape, PShape.insc.injEq] at hs
        exact (of_decide_eq_false hc) hs.2.1
      · simp only [VTree.shape, PShape.insc.injEq]
        exact ⟨fun h => h.2.2, fun h => ⟨hsp, of_decide_eq_true hc, h⟩⟩
    · rw [decide_eq_false hsp]
      dsimp only
      refine ⟨m3, false, rfl, g13, ⟨fp3, fc3, fn3⟩, ⟨fq3, fcq3, fnq3⟩, fun _ hs => ?_,
        fun h => Bool.noConfusion h⟩
      simp only [VTree.shape, PShape.insc.injEq] at hs
      exact hsp hs.1

/-- The end of `_PMV_find_common_stem` on an evaluated IR: the comparison of
what follows the two vertices, which agree. -/
theorem PMV_find_common_stem_tail_good
    {fss : PMVMem → Nat → Nat → Bool → Option (PMVMem × Nat × Nat)} {n : Nat}
    (hfss : FssG fss n) (m1 : PMVMem) (ta tb : VTree) (cs : Bool)
    (hta : ta ≠ VTree.nil) (htb : tb ≠ VTree.nil)
    (hha : ta.Held m1) (hhb : tb.Held m1) (hnd : (ta.nodes ++ tb.nodes).Nodup)
    (hfa : ta.FlagsBelow m1) (hfb : tb.FlagsBelow m1)
    (hiff : ta.shape = tb.shape ↔ ta.npt.shape = tb.npt.shape)
    (hsz : 3 * (ta.size + tb.size) ≤ n + 1) :
    ∃ m2 e1 e2,
      (match fss m1 (m1 ta.root).np (m1 tb.root).np cs with
        | none => none
        | some (m2, v1end, v2end) =>
          if v1end = 0 then some (m2, ta.root, tb.root) else some (m2, v1end, v2end)) =
        some (m2, e1, e2) ∧
      Gd m1 m2 (ta.nodes ++ tb.nodes) ∧ ta.FlagsBelow m2 ∧ tb.FlagsBelow m2 ∧
      EndsG ta tb e1 e2 := by
  obtain ⟨hnda, hndb, hdisj⟩ := List.nodup_append.mp hnd
  have hsa := VTree.npt_size_lt hta
  have hsb := VTree.npt_size_lt htb
  rw [VTree.np_eq_npt_root hta hha.2.1, VTree.np_eq_npt_root htb hhb.2.1]
  have hndn : (ta.npt.nodes ++ tb.npt.nodes).Nodup :=
    nodup_append_of_subset hnd (VTree.npt_nodup hnda) (VTree.npt_nodup hndb)
      (VTree.npt_nodes_subset ta) (VTree.npt_nodes_subset tb)
  obtain ⟨m2, e1, e2, h2, g2, fa2, fb2, hends⟩ := hfss m1 ta.npt tb.npt cs (VTree.Held_npt hha)
    (VTree.Held_npt hhb) hndn (VTree.FlagsOK_npt hfa) (VTree.FlagsOK_npt hfb) (by omega)
  rw [h2]
  dsimp only
  have g2' : Gd m1 m2 (ta.nodes ++ tb.nodes) :=
    Gd_mono g2 (fun x h => (List.mem_append.mp h).elim
      (fun h => List.mem_append_left _ (VTree.npt_nodes_subset ta x h))
      (fun h => List.mem_append_right _ (VTree.npt_nodes_subset tb x h)))
  have hfa2 : ta.FlagsBelow m2 :=
    VTree.FlagsBelow_npt_update ta hnda hfa g2 (fun x hx h => (List.mem_append.mp h).elim id
      (fun h => absurd (VTree.npt_nodes_subset tb x h) (hdisj hx))) fa2
  have hfb2 : tb.FlagsBelow m2 :=
    VTree.FlagsBelow_npt_update tb hndb hfb g2 (fun x hx h => (List.mem_append.mp h).elim
      (fun h => absurd hx (hdisj (VTree.npt_nodes_subset ta x h))) id) fb2
  have hha2 := VTree.Held_of_noflags g2.1 hha
  have hhb2 := VTree.Held_of_noflags g2.1 hhb
  -- the ends if the comparison of what follows found nothing
  have hhere : (ta.npt.shape = tb.npt.shape → ta.npt = VTree.nil ∧ tb.npt = VTree.nil) →
      EndsG ta tb ta.root tb.root := by
    intro hn
    refine ⟨fun h => h.elim (fun x => absurd x hta) (fun x => absurd x htb), fun _ _ hs => ?_,
      fun _ _ hs => ?_⟩
    · obtain ⟨n1, n2⟩ := hn (hiff.mp hs)
      exact ⟨ta, tb, StemOf.refl _, StemOf.refl _, hta, htb, rfl, rfl, n1, n2⟩
    · right
      refine ⟨ta, tb, StemOf.refl _, StemOf.refl _, hta, htb, rfl, rfl, fun hb => hs ?_⟩
      apply hiff.mpr
      rw [hb.1, hb.2]
  by_cases hnil : ta.npt = VTree.nil ∨ tb.npt = VTree.nil
  · obtain ⟨z1, z2⟩ := hends.1 hnil
    rw [if_pos z1]
    refine ⟨m2, _, _, rfl, g2', hfa2, hfb2, hhere (fun hs => ?_)⟩
    rcases hnil with h | h
    · refine ⟨h, VTree.shape_eq_nil ?_⟩
      rw [← hs, h]
      rfl
    · refine ⟨VTree.shape_eq_nil ?_, h⟩
      rw [hs, h]
      rfl
  · have hna : ta.npt ≠ VTree.nil := fun h => hnil (Or.inl h)
    have hnb : tb.npt ≠ VTree.nil := fun h => hnil (Or.inr h)
    by_cases hs : ta.npt.shape = tb.npt.shape
    · obtain ⟨sa, sb, s1, s2, s3, s4, s5, s6, s7, s8⟩ := hends.2.1 hna hnb hs
      have he1 : e1 ≠ 0 := by
        rw [s5]
        exact VTree.root_ne_zero s3 (StemOf_Rep s1 (VTree.npt_Rep hha.2.1))
      rw [if_neg he1]
      refine ⟨m2, _, _, rfl, g2', hfa2, hfb2,
        fun h => h.elim (fun x => absurd x hta) (fun x => absurd x htb), fun _ _ _ => ?_,
        fun _ _ hne => absurd (hiff.mpr hs) hne⟩
      exact ⟨sa, sb, StemOf.step _ _ s1, StemOf.step _ _ s2, s3, s4, s5, s6, s7, s8⟩
    · by_cases he1 : e1 = 0
      · rw [if_pos he1]
        exact ⟨m2, _, _, rfl, g2', hfa2, hfb2, hhere (fun h => absurd h hs)⟩
      · rw [if_neg he1]
        refine ⟨m2, _, _, rfl, g2', hfa2, hfb2,
          fun h => h.elim (fun x => absurd x hta) (fun x => absurd x htb),
          fun _ _ h => absurd (hiff.mp h) hs, fun _ _ _ => ?_⟩
        rcases hends.2.2 hna hnb hs with z | ⟨sa, sb, s1, s2, s3, s4, s5, s6, s7⟩
        · exact absurd z.1 he1
        · exact Or.inr ⟨sa, sb, StemOf.step _ _ s1, StemOf.step _ _ s2, s3, s4, s5, s6, s7⟩

theorem VTree.Stored_root {m : PMVMem} {t : VTree} (ht : t ≠ VTree.nil) (h : t.Corr m) :
    (m t.root).hash = t.hash ∧ (m t.root).depth = t.depth ∧ (m t.root).vcnt = t.vcnt :=
  VTree.Corr_root ht h

/-- The start flags do not trigger the overlap test on an evaluated IR. -/
theorem no_overlap {m : PMVMem} {ta tb : VTree} (hta : ta ≠ VTree.nil) (htb : tb ≠ VTree.nil)
    (hroota : (m ta.root).flags = 2 ∨ (m ta.root).flags = ta.eflags ||| 2)
    (hrootb : (m tb.root).flags = 4 ∨ (m tb.root).flags = tb.eflags ||| 4) :
    ¬ ((m ta.root).flags &&& PMV_SBIT_commonstem_start_2 ≠ 0 ∨
      (m tb.root).flags &&& PMV_SBIT_commonstem_start_1 ≠ 0) := by
  have ea := VTree.eflags_cases hta
  have eb := VTree.eflags_cases htb
  intro h
  rcases h with h | h
  · apply h
    rcases hroota with r | r
    · rw [r]; rfl
    · rw [r]
      rcases ea with e | e <;> rw [e] <;> rfl
  · apply h
    rcases hrootb with r | r
    · rw [r]; rfl
    · rw [r]
      rcases eb with e | e <;> rw [e] <;> rfl

/-- The body of `_PMV_find_common_stem` on an evaluated IR. -/
theorem PMV_find_common_stem_body_good
    {fss : PMVMem → Nat → Nat → Bool → Option (PMVMem × Nat × Nat)}
    {sym : PMVMem → Nat → Option (PMVMem × Nat)} {n : Nat}
    (hfss : FssG fss n) (hsym : SymG sym n) :
    FcsG (PMV_find_common_stem_body fss sym) (n + 1) := by
  intro m ta tb cs hta htb hha hhb hnd hfa hfb hroota hrootb hsz
  have ha0 := VTree.root_ne_zero hta hha.2.1
  have hb0 := VTree.root_ne_zero htb hhb.2.1
  have hab := roots_ne_of_nodup hta htb hnd
  have hsta := VTree.Stored_root hta hha.2.2
  have hstb := VTree.Stored_root htb hhb.2.2
  unfold PMV_find_common_stem_body
  rw [if_neg (fun h => hab h.2),
    if_neg (fun h => h.elim (fun h => ha0 h.1) (fun h => h.elim (fun h => hb0 h.2) hab)),
    if_neg (no_overlap hta htb hroota hrootb)]
  -- the test of the summaries
  have hsum : (cs = true ∧ ((m ta.root).hash ≠ (m tb.root).hash ∨
      (m ta.root).depth ≠ (m tb.root).depth ∨ (m ta.root).vcnt ≠ (m tb.root).vcnt)) →
      ta.shape ≠ tb.shape := by
    intro h hs
    obtain ⟨e1, e2, e3, _⟩ := VTree.summary_of_shape ta tb hs
    rw [hsta.1, hsta.2.1, hsta.2.2, hstb.1, hstb.2.1, hstb.2.2] at h
    rcases h.2 with h | h | h
    · exact h e1
    · exact h e2
    · exact h e3
  cases ta with
  | nil => exact absurd rfl hta
  | wrap a wp np => exact absurd hha.1 (fun x => x)
  | seg a np =>
    cases tb with
    | nil => exact absurd rfl htb
    | wrap b wq nq => exact absurd hhb.1 (fun x => x)
    | seg b nq =>
      have t1 : (m a).type = PMV_seg := hha.2.1.2.1
      have t2 : (m b).type = PMV_seg := hhb.2.1.2.1
      simp only [VTree.root] at hsum ⊢
      rw [if_neg (not_not.mpr (t1.trans t2.symm))]
      by_cases hc : cs = true ∧ ((m a).hash ≠ (m b).hash ∨ (m a).depth ≠ (m b).depth ∨
          (m a).vcnt ≠ (m b).vcnt)
      · rw [if_pos hc]
        exact ⟨m, 0, 0, rfl, Gd_refl _ _, hfa, hfb, EndsG_zero (hsum hc)⟩
      · rw [if_neg hc]
        unfold PMV_find_common_stem_switch
        rw [if_pos t1]
        dsimp only
        obtain ⟨m2, e1, e2, h2, g2, fa2, fb2, hends⟩ := PMV_find_common_stem_tail_good hfss m
          (VTree.seg a np) (VTree.seg b nq) cs hta htb hha hhb hnd hfa hfb
          (by simp only [VTree.shape, PShape.seg.injEq, VTree.npt]) hsz
        exact ⟨m2, e1, e2, h2, g2, fa2, fb2, hends⟩
    | insc b pq cq nq =>
      have t1 : (m a).type = PMV_seg := hha.2.1.2.1
      have t2 : (m b).type = PMV_insc := hhb.2.1.2.1
      simp only [VTree.root]
      rw [if_pos (by rw [t1, t2]; decide), if_neg (by rw [t1]; decide),
        if_neg (by rw [t2]; decide)]
      exact ⟨m, 0, 0, rfl, Gd_refl _ _, hfa, hfb,
        EndsG_zero (fun h => PShape.noConfusion h)⟩
  | insc a pp cp np =>
    cases tb with
    | nil => exact absurd rfl htb
    | wrap b wq nq => exact absurd hhb.1 (fun x => x)
    | seg b nq =>
      have t1 : (m a).type = PMV_insc := hha.2.1.2.1
      have t2 : (m b).type = PMV_seg := hhb.2.1.2.1
      simp only [VTree.root]
      rw [if_pos (by rw [t1, t2]; decide), if_neg (by rw [t1]; decide),
        if_neg (by rw [t2]; decide)]
      exact ⟨m, 0, 0, rfl, Gd_refl _ _, hfa, hfb,
        EndsG_zero (fun h => PShape.noConfusion h)⟩
    | insc b pq cq nq =>
      have t1 : (m a).type = PMV_insc := hha.2.1.2.1
      have t2 : (m b).type = PMV_insc := hhb.2.1.2.1
      simp only [VTree.root] at hsum hroota hrootb ⊢
      rw [if_neg (not_not.mpr (t1.trans t2.symm))]
      by_cases hc : cs = true ∧ ((m a).hash ≠ (m b).hash ∨ (m a).depth ≠ (m b).depth ∨
          (m a).vcnt ≠ (m b).vcnt)
      · rw [if_pos hc]
        exact ⟨m, 0, 0, rfl, Gd_refl _ _, hfa, hfb, EndsG_zero (hsum hc)⟩
      · rw [if_neg hc]
        obtain ⟨m1, c, h1, g1, fa1, fb1, hcf, hct⟩ := PMV_find_common_stem_switch_insc_good
          hfss hsym m a b pp cp np pq cq nq hha hhb hnd hfa hfb hroota hrootb hsz
        rw [h1]
        cases c with
        | false =>
          dsimp only
          exact ⟨m1, 0, 0, rfl, g1, fa1, fb1, EndsG_zero (hcf rfl)⟩
        | true =>
          dsimp only
          obtain ⟨m2, e1, e2, h2, g2, fa2, fb2, hends⟩ := PMV_find_common_stem_tail_good hfss m1
            (VTree.insc a pp cp np) (VTree.insc b pq cq nq) cs hta htb
            (VTree.Held_of_noflags g1.1 hha) (VTree.Held_of_noflags g1.1 hhb) hnd fa1 fb1
            (hct rfl) hsz
          exact ⟨m2, e1, e2, h2, Gd_trans g1 g2 (fun _ h => h) (fun _ h => h), fa2, fb2, hends⟩

theorem MidEval.Held {m mi : PMVMem} {v : Nat} (h : MidEval m mi v) {c : VTree}
    (hc : c.Held m) (hv : v ∉ c.nodes) : c.Held mi := by
  refine ⟨hc.1, ?_, ?_⟩
  · refine VTree.Rep_congr c (fun a ha => ?_) hc.2.1
    exact PMV.skel_of_noflags (h.1 a (fun e => hv (e ▸ ha)))
  · refine VTree.Corr_congr c (fun a ha => ?_) hc.2.2
    exact PMV.noflags_fields (h.1 a (fun e => hv (e ▸ ha)))

theorem MidEval.store_summary {m mi : PMVMem} {v : Nat} (h : MidEval m mi v) (x y z : Nat) :
    MidEval m (store mi v ((mi v).with_summary x y z)) v := by
  refine ⟨fun a ha => ?_, ?_⟩
  · rw [store_other _ _ _ _ ha]
    exact h.1 a ha
  · rw [store_same, PMV.with_summary_skel]
    exact h.2

theorem MidEval.store_flags {m mi : PMVMem} {v : Nat} (h : MidEval m mi v) (f : Nat) :
    MidEval m (store mi v ((mi v).with_flags f)) v := by
  refine ⟨fun a ha => ?_, ?_⟩
  · rw [store_other _ _ _ _ ha]
    exact h.1 a ha
  · rw [store_same, PMV.with_flags_skel]
    exact h.2

theorem MidEval.advance {m mi m' : PMVMem} {v : Nat} {ns : List Nat} (h : MidEval m mi v)
    (g : Gd mi m' ns) (hv : v ∉ ns) : MidEval m m' v := by
  refine ⟨fun a ha => (g.1 a).trans (h.1 a ha), ?_⟩
  rw [g.2 v hv]
  exact h.2

/-- A store to `v` keeps the flags of a tree without `v`. -/
theorem VTree.FlagsOK_store {mi : PMVMem} {v : Nat} (c : VTree) (hv : v ∉ c.nodes) (w : PMV)
    (hf : c.FlagsOK mi) : c.FlagsOK (store mi v w) :=
  VTree.FlagsOK_congr c (fun a ha => by
    have hne : a ≠ v := fun e => hv (e ▸ ha)
    rw [store_other _ _ _ _ hne]) hf

/-- The statement `if (!(cp->flags & PMV_SBIT_evaluated)) PMV_eval_r(cp, 0);`
on an evaluated IR. -/
theorem PMV_eval_child_good {eval : PMVMem → Nat → Bool → Option PMVMem} {n : Nat}
    (heval : EvalG eval n) (mi : PMVMem) (c : VTree) (hc : c ≠ VTree.nil) (hh : c.Held mi)
    (hnd : c.nodes.Nodup) (hf : c.FlagsOK mi) (hsz : 3 * c.size ≤ n) :
    ∃ m', PMV_eval_child eval mi c.root false = some m' ∧ Gd mi m' c.nodes ∧ c.FlagsOK m' := by
  unfold PMV_eval_child
  obtain ⟨hroot, hbelow⟩ := (VTree.FlagsOK_iff hc).mp hf
  rcases hroot with h0 | h1
  · have hcond : false = true ∨ (mi c.root).flags &&& PMV_SBIT_evaluated = 0 := by
      right
      rw [h0]
      rfl
    rw [if_pos hcond]
    obtain ⟨m', h, g, fb, fr⟩ := heval mi c 0 hc hh hnd hbelow h0 (Or.inl rfl) hsz
    rw [Nat.or_zero] at fr
    exact ⟨m', h, g, (VTree.FlagsOK_iff hc).mpr ⟨Or.inr fr, fb⟩⟩
  · have hcond : ¬ (false = true ∨ (mi c.root).flags &&& PMV_SBIT_evaluated = 0) := by
      intro h
      rcases h with h | h
      · exact Bool.noConfusion h
      · rw [h1] at h
        rcases VTree.eflags_cases hc with e | e <;> rw [e] at h <;> exact absurd h (by decide)
    rw [if_neg hcond]
    exact ⟨mi, rfl, Gd_refl _ _, hf⟩

/-- The block `if (vp->np) { ... }` of `PMV_eval_r(v, 0)` on an evaluated
IR. -/
theorem PMV_eval_r_np_good {eval : PMVMem → Nat → Bool → Option PMVMem} {n : Nat}
    (heval : EvalG eval n) (m mi : PMVMem) (v : Nat) (npT : VTree) (hmid : MidEval m mi v)
    (hnp : (m v).np = npT.root) (hh : npT.Held m) (hnd : npT.nodes.Nodup)
    (hv : v ∉ npT.nodes) (hf : npT.FlagsOK mi) (hsz : 3 * npT.size ≤ n) :
    ∃ m', PMV_eval_r_np eval mi v false = some m' ∧ MidEval m m' v ∧
      (m' v).flags = (mi v).flags ∧ npT.FlagsOK m' ∧
      (∀ a, a ≠ v → a ∉ npT.nodes → m' a = mi a) := by
  unfold PMV_eval_r_np
  have hnpi : (mi v).np = npT.root := by
    rw [(PMV.skel_fields hmid.2).2.1]
    exact hnp
  by_cases hnil : npT = VTree.nil
  · subst hnil
    have h0 : (mi v).np = 0 := hnpi
    rw [if_pos h0]
    exact ⟨mi, rfl, hmid, rfl, trivial, fun _ _ _ => rfl⟩
  · have hr0 : npT.root ≠ 0 := VTree.root_ne_zero hnil hh.2.1
    rw [if_neg (by rw [hnpi]; exact hr0), hnpi]
    obtain ⟨m2, h2, g2, f2⟩ := PMV_eval_child_good heval mi npT hnil (hmid.Held hh hv) hnd hf hsz
    rw [h2]
    dsimp only
    have hv2 : m2 v = mi v := g2.2 v hv
    refine ⟨_, rfl, (hmid.advance g2 hv).store_summary _ _ _, ?_, VTree.FlagsOK_store npT hv _ f2,
      ?_⟩
    · rw [store_same, PMV.with_summary_flags, hv2]
    · intro a ha hna
      rw [store_other _ _ _ _ ha]
      exact g2.2 a hna

theorem MidEval.refl (m : PMVMem) (v : Nat) : MidEval m m v := ⟨fun _ _ => rfl, rfl⟩

/-- The case `PMV_insc` of the `switch` of `PMV_eval_r(v, 0)` on an evaluated
IR: the flag `PMV_SBIT_INSC_is_sym` is set if the two branches have the same
shape. -/
theorem PMV_eval_r_insc_good {eval : PMVMem → Nat → Bool → Option PMVMem}
    {sim : PMVMem → Nat → Nat → Bool → Option (PMVMem × Nat)} {n : Nat}
    (heval : EvalG eval n) (hsim : SimG sim n) (m : PMVMem) (a : Nat) (pp cp np : VTree)
    (hh : (VTree.insc a pp cp np).Held m) (hnd : (VTree.insc a pp cp np).nodes.Nodup)
    (hfb : (VTree.insc a pp cp np).FlagsBelow m)
    (hsz : 3 * (VTree.insc a pp cp np).size ≤ n + 1) :
    ∃ m', PMV_eval_r_insc eval sim m a false = some m' ∧ MidEval m m' a ∧
      (m' a).flags =
        (if pp.shape = cp.shape then (m a).flags ||| PMV_SBIT_INSC_is_sym else (m a).flags) ∧
      (VTree.insc a pp cp np).FlagsBelow m' := by
  obtain ⟨ndp, ndc, ndn, ap, ac, an, dpc, dpn, dcn⟩ := VTree.insc_nodup hnd
  have hsa : (VTree.insc a pp cp np).size = 1 + pp.size + cp.size + np.size := rfl
  have hpn : pp ≠ VTree.nil := hh.1.1
  have hcn : cp ≠ VTree.nil := hh.1.2.1
  have hhp := VTree.Held_pp hh
  have hhc := VTree.Held_cp hh
  have hppm : (m a).pp = pp.root := hh.2.1.2.2.1
  have hcpm : (m a).cp = cp.root := hh.2.1.2.2.2.1
  unfold PMV_eval_r_insc
  have k1 := (MidEval.refl m a).store_summary 32768 1 1
  have f1 : (store m a ((m a).with_summary 32768 1 1) a).flags = (m a).flags := by
    rw [store_same, PMV.with_summary_flags]
  have fp1 := VTree.FlagsOK_store pp ap ((m a).with_summary 32768 1 1) hfb.1
  have fc1 := VTree.FlagsOK_store cp ac ((m a).with_summary 32768 1 1) hfb.2.1
  have fn1 := VTree.FlagsOK_store np an ((m a).with_summary 32768 1 1) hfb.2.2
  generalize store m a ((m a).with_summary 32768 1 1) = m1 at k1 f1 fp1 fc1 fn1 ⊢
  dsimp only
  -- the parent branch
  unfold PMV_eval_r_insc_pp
  have hpp1 : (m1 a).pp = pp.root := by rw [(PMV.skel_fields k1.2).2.2.1]; exact hppm
  rw [if_neg (by rw [hpp1]; exact VTree.root_ne_zero hpn hhp.2.1), hpp1]
  obtain ⟨m2, h2, g2, fp2⟩ := PMV_eval_child_good heval m1 pp hpn (k1.Held hhp ap) ndp fp1
    (by omega)
  rw [h2]
  dsimp only
  have k2 := (k1.advance g2 ap).store_summary
    (((m2 a).hash + (m2 (m2 a).pp).hash) % 4294967296 % hp) (m2 a).depth
    (((m2 a).vcnt + (m2 (m2 a).pp).vcnt) % 4294967296)
  have f2 : (store m2 a ((m2 a).with_summary
      (((m2 a).hash + (m2 (m2 a).pp).hash) % 4294967296 % hp) (m2 a).depth
      (((m2 a).vcnt + (m2 (m2 a).pp).vcnt) % 4294967296)) a).flags = (m a).flags := by
    rw [store_same, PMV.with_summary_flags, g2.2 a ap, f1]
  have fp2' := VTree.FlagsOK_store pp ap ((m2 a).with_summary
      (((m2 a).hash + (m2 (m2 a).pp).hash) % 4294967296 % hp) (m2 a).depth
      (((m2 a).vcnt + (m2 (m2 a).pp).vcnt) % 4294967296)) fp2
  have fc2 := VTree.FlagsOK_store cp ac ((m2 a).with_summary
      (((m2 a).hash + (m2 (m2 a).pp).hash) % 4294967296 % hp) (m2 a).depth
      (((m2 a).vcnt + (m2 (m2 a).pp).vcnt) % 4294967296))
    (VTree.FlagsOK_frame cp g2 (fun x hx h => dpc x h hx) fc1)
  have fn2 := VTree.FlagsOK_store np an ((m2 a).with_summary
      (((m2 a).hash + (m2 (m2 a).pp).hash) % 4294967296 % hp) (m2 a).depth
      (((m2 a).vcnt + (m2 (m2 a).pp).vcnt) % 4294967296))
    (VTree.FlagsOK_frame np g2 (fun x hx h => dpn x h hx) fn1)
  generalize store m2 a ((m2 a).with_summary
      (((m2 a).hash + (m2 (m2 a).pp).hash) % 4294967296 % hp) (m2 a).depth
      (((m2 a).vcnt + (m2 (m2 a).pp).vcnt) % 4294967296)) = m2' at k2 f2 fp2' fc2 fn2 ⊢
  generalize (m2 (m2 a).pp).depth = md
  -- the child branch
  unfold PMV_eval_r_insc_cp
  have hcp2 : (m2' a).cp = cp.root := by rw [(PMV.skel_fields k2.2).2.2.2]; exact hcpm
  rw [if_neg (by rw [hcp2]; exact VTree.root_ne_zero hcn hhc.2.1), hcp2]
  obtain ⟨m3, h3, g3, fc3⟩ := PMV_eval_child_good heval m2' cp hcn (k2.Held hhc ac) ndc fc2
    (by omega)
  rw [h3]
  dsimp only
  have k3 := (k2.advance g3 ac).store_summary
    (((m3 a).hash + (m3 (m3 a).cp).hash) % 4294967296 % hp) (m3 a).depth
    (((m3 a).vcnt + (m3 (m3 a).cp).vcnt) % 4294967296)
  have f3 : (store m3 a ((m3 a).with_summary
      (((m3 a).hash + (m3 (m3 a).cp).hash) % 4294967296 % hp) (m3 a).depth
      (((m3 a).vcnt + (m3 (m3 a).cp).vcnt) % 4294967296)) a).flags = (m a).flags := by
    rw [store_same, PMV.with_summary_flags, g3.2 a ac, f2]
  have fp3 := VTree.FlagsOK_store pp ap ((m3 a).with_summary
      (((m3 a).hash + (m3 (m3 a).cp).hash) % 4294967296 % hp) (m3 a).depth
      (((m3 a).vcnt + (m3 (m3 a).cp).vcnt) % 4294967296))
    (VTree.FlagsOK_frame pp g3 (fun x hx h => dpc x hx h) fp2')
  have fc3' := VTree.FlagsOK_store cp ac ((m3 a).with_summary
      (((m3 a).hash + (m3 (m3 a).cp).hash) % 4294967296 % hp) (m3 a).depth
      (((m3 a).vcnt + (m3 (m3 a).cp).vcnt) % 4294967296)) fc3
  have fn3 := VTree.FlagsOK_store np an ((m3 a).with_summary
      (((m3 a).hash + (m3 (m3 a).cp).hash) % 4294967296 % hp) (m3 a).depth
      (((m3 a).vcnt + (m3 (m3 a).cp).vcnt) % 4294967296))
    (VTree.FlagsOK_frame np g3 (fun x hx h => dcn x h hx) fn2)
  generalize store m3 a ((m3 a).with_summary
      (((m3 a).hash + (m3 (m3 a).cp).hash) % 4294967296 % hp) (m3 a).depth
      (((m3 a).vcnt + (m3 (m3 a).cp).vcnt) % 4294967296)) = m3' at k3 f3 fp3 fc3' fn3 ⊢
  generalize (if (m3 (m3 a).cp).depth > md then (m3 (m3 a).cp).depth else md) = md'
  -- the depth
  have k4 := k3.store_summary (m3' a).hash (((m3' a).depth + md') % 4294967296) (m3' a).vcnt
  have f4 : (store m3' a ((m3' a).with_summary (m3' a).hash
      (((m3' a).depth + md') % 4294967296) (m3' a).vcnt) a).flags = (m a).flags := by
    rw [store_same, PMV.with_summary_flags, f3]
  have fp4 := VTree.FlagsOK_store pp ap ((m3' a).with_summary (m3' a).hash
      (((m3' a).depth + md') % 4294967296) (m3' a).vcnt) fp3
  have fc4 := VTree.FlagsOK_store cp ac ((m3' a).with_summary (m3' a).hash
      (((m3' a).depth + md') % 4294967296) (m3' a).vcnt) fc3'
  have fn4 := VTree.FlagsOK_store np an ((m3' a).with_summary (m3' a).hash
      (((m3' a).depth + md') % 4294967296) (m3' a).vcnt) fn3
  generalize store m3' a ((m3' a).with_summary (m3' a).hash
      (((m3' a).depth + md') % 4294967296) (m3' a).vcnt) = m4 at k4 f4 fp4 fc4 fn4 ⊢
  -- the comparison of the two branches
  have hpp4 : (m4 a).pp = pp.root := by rw [(PMV.skel_fields k4.2).2.2.1]; exact hppm
  have hcp4 : (m4 a).cp = cp.root := by rw [(PMV.skel_fields k4.2).2.2.2]; exact hcpm
  rw [hpp4, hcp4]
  have hndpc : (pp.nodes ++ cp.nodes).Nodup :=
    List.nodup_append.mpr ⟨ndp, ndc, fun _ h1 h2 => dpc _ h1 h2⟩
  have hapc : a ∉ pp.nodes ++ cp.nodes :=
    fun h => (List.mem_append.mp h).elim ap ac
  obtain ⟨m5, h5, g5, fp5, fc5⟩ := hsim m4 pp cp true hpn hcn (k4.Held hhp ap)
    (k4.Held hhc ac) hndpc fp4 fc4 (by omega)
  rw [h5]
  dsimp only
  have k5 := k4.advance g5 hapc
  have f5 : (m5 a).flags = (m a).flags := by rw [g5.2 a hapc, f4]
  have fn5 : np.FlagsOK m5 :=
    VTree.FlagsOK_frame np g5 (fun x hx h => (List.mem_append.mp h).elim
      (fun h => dpn x h hx) (fun h => dcn x h hx)) fn4
  by_cases hs : pp.shape = cp.shape
  · rw [if_pos hs, if_pos (by decide : (1 : Nat) ≠ 0), if_pos hs]
    refine ⟨_, rfl, k5.store_flags _, ?_, VTree.FlagsOK_store pp ap _ fp5,
      VTree.FlagsOK_store cp ac _ fc5, VTree.FlagsOK_store np an _ fn5⟩
    rw [store_same, PMV.with_flags_flags, f5]
  · rw [if_neg hs, if_neg (by decide : ¬ (0 : Nat) ≠ 0), if_neg hs]
    exact ⟨m5, rfl, k5, f5, fp5, fc5, fn5⟩

/-- The body of `PMV_eval_r(v, 0)` on an evaluated IR, for a vertex whose
flags do not say evaluated. -/
theorem PMV_eval_r_body_good {eval : PMVMem → Nat → Bool → Option PMVMem}
    {sim : PMVMem → Nat → Nat → Bool → Option (PMVMem × Nat)} {n : Nat}
    (ho1 : EvalSpec eval n) (ho2 : SimSpec sim n) (heval : EvalG eval n) (hsim : SimG sim n) :
    EvalG (PMV_eval_r_body eval sim) (n + 1) := by
  intro m t s ht hh hnd hfb hfl hs hsz
  obtain ⟨mo, ho, hpo⟩ := PMV_eval_r_body_spec ho1 ho2 m t false ht hh.2.1 hnd hsz
  have hgd : Gd m mo t.nodes := ⟨EvalPost.noflags hpo hh.2.2, hpo.2.1⟩
  suffices hx : ∃ m', PMV_eval_r_body eval sim m t.root false = some m' ∧ t.FlagsBelow m' ∧
      (m' t.root).flags = t.eflags ||| s by
    obtain ⟨m', h', fb, fr⟩ := hx
    have e : mo = m' := Option.some.inj (ho.symm.trans h')
    rw [← e] at fb fr
    exact ⟨mo, ho, hgd, fb, fr⟩
  cases t with
  | nil => exact absurd rfl ht
  | wrap a wp np => exact absurd hh.1 (fun x => x)
  | seg a np =>
    have hrep := hh.2.1
    have hnd' := List.nodup_cons.mp hnd
    have hsa : (VTree.seg a np).size = 1 + np.size := rfl
    have hfl' : (m a).flags = s := hfl
    simp only [VTree.root]
    unfold PMV_eval_r_body
    rw [if_neg hrep.1, if_neg (not_not.mpr (by rw [hrep.2.1]; decide))]
    unfold PMV_eval_r_switch
    rw [if_neg (by rw [hrep.2.1]; decide), if_neg (by rw [hrep.2.1]; decide)]
    dsimp only
    have k1 := (MidEval.refl m a).store_summary 1 1 1
    have f1 : (store m a ((m a).with_summary 1 1 1) a).flags = s := by
      rw [store_same, PMV.with_summary_flags, hfl']
    have fn1 := VTree.FlagsOK_store np hnd'.1 ((m a).with_summary 1 1 1) hfb
    generalize store m a ((m a).with_summary 1 1 1) = m1 at k1 f1 fn1 ⊢
    obtain ⟨m2, h2, k2, f2, fn2, _⟩ := PMV_eval_r_np_good heval m m1 a np k1 hrep.2.2.1
      (VTree.Held_npt hh) hnd'.2 hnd'.1 fn1 (by omega)
    rw [h2]
    dsimp only
    refine ⟨_, rfl, VTree.FlagsOK_store np hnd'.1 _ fn2, ?_⟩
    rw [store_same, PMV.with_flags_flags, f2, f1]
    exact Nat.lor_comm _ _
  | insc a pp cp np =>
    have hrep := hh.2.1
    obtain ⟨ndp, ndc, ndn, ap, ac, an, dpc, dpn, dcn⟩ := VTree.insc_nodup hnd
    have hsa : (VTree.insc a pp cp np).size = 1 + pp.size + cp.size + np.size := rfl
    have hfl' : (m a).flags = s := hfl
    simp only [VTree.root]
    unfold PMV_eval_r_body
    rw [if_neg hrep.1, if_neg (not_not.mpr (by rw [hrep.2.1]; decide))]
    unfold PMV_eval_r_switch
    rw [if_neg (by rw [hrep.2.1]; decide), if_pos hrep.2.1]
    obtain ⟨m1, h1, k1, f1, fb1⟩ := PMV_eval_r_insc_good heval hsim m a pp cp np hh hnd hfb hsz
    rw [h1]
    dsimp only
    obtain ⟨m2, h2, k2, f2, fn2, hfr2⟩ := PMV_eval_r_np_good heval m m1 a np k1
      hrep.2.2.2.2.1 (VTree.Held_npt hh) ndn an fb1.2.2 (by omega)
    rw [h2]
    dsimp only
    have fp2 : pp.FlagsOK m2 := VTree.FlagsOK_congr pp (fun x hx => by
      rw [hfr2 x (fun e => ap (e ▸ hx)) (dpn x hx)]) fb1.1
    have fc2 : cp.FlagsOK m2 := VTree.FlagsOK_congr cp (fun x hx => by
      rw [hfr2 x (fun e => ac (e ▸ hx)) (dcn x hx)]) fb1.2.1
    refine ⟨_, rfl, ⟨VTree.FlagsOK_store pp ap _ fp2, VTree.FlagsOK_store cp ac _ fc2,
      VTree.FlagsOK_store np an _ fn2⟩, ?_⟩
    rw [store_same, PMV.with_flags_flags, f2, f1, hfl']
    by_cases hsh : pp.shape = cp.shape
    · simp only [VTree.eflags, if_pos hsh]
      rcases hs with e | e | e <;> rw [e] <;> rfl
    · simp only [VTree.eflags, if_neg hsh]
      rcases hs with e | e | e <;> rw [e] <;> rfl

/-- On an evaluated IR the five functions meet their specifications, for
every stack bound. -/
theorem PMV_good_specs : ∀ n : Nat,
    EvalG (PMV_eval_r n) n ∧ FssG (PMV_find_similar_stem n) n ∧
    FcsG (PMV_find_common_stem n) n ∧ SimG (PMV_is_similar n) n ∧
    SymG (PMV_insc_is_symm n) n := by
  intro n
  induction n with
  | zero =>
    refine ⟨?_, ?_, ?_, ?_, ?_⟩
    · intro m t s ht _ _ _ _ _ hsz
      have := VTree.size_pos ht
      omega
    · intro m ta tb cs _ _ _ _ _ hsz
      omega
    · intro m ta tb cs hta _ _ _ _ _ _ _ _ hsz
      have := VTree.size_pos hta
      omega
    · intro m ta tb cs _ _ _ _ _ _ _ hsz
      omega
    · intro m a pp cp np s _ _ _ _ _ hsz
      omega
  | succ n ih =>
    obtain ⟨ih1, ih2, ih3, ih4, ih5⟩ := ih
    obtain ⟨o1, _, _, o4, _⟩ := PMV_specs n
    exact ⟨PMV_eval_r_body_good o1 o4 ih1 ih4, PMV_find_similar_stem_body_good ih3,
      PMV_find_common_stem_body_good ih2 ih5, PMV_is_similar_body_good ih2,
      PMV_insc_is_symm_body_good ih1⟩

theorem skel_store_summary (mi : PMVMem) (v x y z : Nat) :
    ∀ a, (store mi v ((mi v).with_summary x y z) a).skel = (mi a).skel := by
  intro a
  by_cases ha : a = v
  · subst ha
    rw [store_same, PMV.with_summary_skel]
  · rw [store_other _ _ _ _ ha]

theorem skel_store_flags (mi : PMVMem) (v f : Nat) :
    ∀ a, (store mi v ((mi v).with_flags f) a).skel = (mi a).skel := by
  intro a
  by_cases ha : a = v
  · subst ha
    rw [store_same, PMV.with_flags_skel]
  · rw [store_other _ _ _ _ ha]

/-- A store to `v` keeps a tree of an evaluated IR without `v`. -/
theorem VTree.Held_store {mi : PMVMem} {v : Nat} {c : VTree} (hv : v ∉ c.nodes) (w : PMV)
    (h : c.Held mi) : c.Held (store mi v w) := by
  have he : ∀ a ∈ c.nodes, store mi v w a = mi a := fun a ha => by
    have hne : a ≠ v := fun e => hv (e ▸ ha)
    rw [store_other _ _ _ _ hne]
  exact ⟨h.1, VTree.Rep_congr c (fun a ha => by rw [he a ha]) h.2.1, VTree.Corr_of_eq c he h.2.2⟩

theorem VTree.Held_frame {mi m' : PMVMem} {c : VTree} (he : ∀ a ∈ c.nodes, m' a = mi a)
    (h : c.Held mi) : c.Held m' :=
  ⟨h.1, VTree.Rep_congr c (fun a ha => by rw [he a ha]) h.2.1, VTree.Corr_of_eq c he h.2.2⟩

/-- The block `if (vp->np) { ... }` of `PMV_eval_r(v, 1)` for a tree with all
flags clear. -/
theorem PMV_eval_r_np_forced {eval : PMVMem → Nat → Bool → Option PMVMem} {n : Nat}
    (hF : EvalF eval n) (mi : PMVMem) (v : Nat) (npT : VTree) (hnp : (mi v).np = npT.root)
    (hp : npT.Plain) (hr : npT.Rep mi) (hnd : npT.nodes.Nodup) (hv : v ∉ npT.nodes)
    (hz : ∀ a ∈ npT.nodes, (mi a).flags = 0) (hsz : 3 * npT.size ≤ n) :
    ∃ m', PMV_eval_r_np eval mi v true = some m' ∧ (∀ a, (m' a).skel = (mi a).skel) ∧
      (m' v).flags = (mi v).flags ∧ npT.FlagsOK m' ∧
      (∀ a, a ≠ v → a ∉ npT.nodes → m' a = mi a) := by
  unfold PMV_eval_r_np
  by_cases hnil : npT = VTree.nil
  · subst hnil
    have h0 : (mi v).np = 0 := hnp
    rw [if_pos h0]
    exact ⟨mi, rfl, fun _ => rfl, rfl, trivial, fun _ _ _ => rfl⟩
  · have hr0 : npT.root ≠ 0 := VTree.root_ne_zero hnil hr
    rw [if_neg (by rw [hnp]; exact hr0), hnp]
    unfold PMV_eval_child
    rw [if_pos (Or.inl rfl)]
    obtain ⟨m2, h2, s2, g2, _, f2⟩ := hF mi npT hnil hp hr hnd hz hsz
    rw [h2]
    dsimp only
    have hv2 : m2 v = mi v := g2 v hv
    refine ⟨_, rfl, fun a => (skel_store_summary m2 v _ _ _ a).trans (s2 a), ?_,
      VTree.FlagsOK_store npT hv _ f2, ?_⟩
    · rw [store_same, PMV.with_summary_flags, hv2]
    · intro a ha hna
      rw [store_other _ _ _ _ ha]
      exact g2 a hna

/-- The case `PMV_insc` of the `switch` of `PMV_eval_r(v, 1)` for a tree with
all flags clear. -/
theorem PMV_eval_r_insc_forced {eval : PMVMem → Nat → Bool → Option PMVMem}
    {sim : PMVMem → Nat → Nat → Bool → Option (PMVMem × Nat)} {n : Nat}
    (hF : EvalF eval n) (hsim : SimG sim n) (m : PMVMem) (a : Nat) (pp cp np : VTree)
    (hpl : (VTree.insc a pp cp np).Plain) (hrep : (VTree.insc a pp cp np).Rep m)
    (hnd : (VTree.insc a pp cp np).nodes.Nodup)
    (hz : ∀ x ∈ (VTree.insc a pp cp np).nodes, (m x).flags = 0)
    (hsz : 3 * (VTree.insc a pp cp np).size ≤ n + 1) :
    ∃ m', PMV_eval_r_insc eval sim m a true = some m' ∧ (∀ x, (m' x).skel = (m x).skel) ∧
      (m' a).flags = (if pp.shape = cp.shape then PMV_SBIT_INSC_is_sym else 0) ∧
      pp.FlagsOK m' ∧ cp.FlagsOK m' ∧ (∀ x ∈ np.nodes, m' x = m x) := by
  obtain ⟨ndp, ndc, ndn, ap, ac, an, dpc, dpn, dcn⟩ := VTree.insc_nodup hnd
  have hsa : (VTree.insc a pp cp np).size = 1 + pp.size + cp.size + np.size := rfl
  have hpn : pp ≠ VTree.nil := hpl.1
  have hcn : cp ≠ VTree.nil := hpl.2.1
  have hppm : (m a).pp = pp.root := hrep.2.2.1
  have hcpm : (m a).cp = cp.root := hrep.2.2.2.1
  have hrp : pp.Rep m := hrep.2.2.2.2.2.1
  have hrc : cp.Rep m := hrep.2.2.2.2.2.2.1
  have hfa : (m a).flags = 0 := hz a (List.mem_cons_self _ _)
  unfold PMV_eval_r_insc
  have s1 := skel_store_summary m a 32768 1 1
  have f1 : (store m a ((m a).with_summary 32768 1 1) a).flags = 0 := by
    rw [store_same, PMV.with_summary_flags, hfa]
  have o1 : ∀ x, x ≠ a → store m a ((m a).with_summary 32768 1 1) x = m x :=
    fun x hx => store_other _ _ _ _ hx
  generalize store m a ((m a).with_summary 32768 1 1) = m1 at s1 f1 o1 ⊢
  dsimp only
  -- the parent branch
  unfold PMV_eval_r_insc_pp
  have hpp1 : (m1 a).pp = pp.root := by rw [(PMV.skel_fields (s1 a)).2.2.1]; exact hppm
  rw [if_neg (by rw [hpp1]; exact VTree.root_ne_zero hpn hrp), hpp1]
  unfold PMV_eval_child
  rw [if_pos (Or.inl rfl)]
  obtain ⟨m2, h2, s2, g2, c2, fp2⟩ := hF m1 pp hpn hpl.2.2.1 (VTree.Rep_of_skel pp s1 hrp) ndp
    (fun x hx => by
      have hxa : x ≠ a := fun e => ap (e ▸ hx)
      rw [o1 x hxa]
      exact hz x (VTree.mem_insc_pp hx)) (by omega)
  rw [h2]
  dsimp only
  have hhp2 : pp.Held m2 := ⟨hpl.2.2.1, VTree.Rep_of_skel pp (fun x => (s2 x).trans (s1 x)) hrp,
    c2⟩
  have s2' : ∀ x, (store m2 a ((m2 a).with_summary
      (((m2 a).hash + (m2 (m2 a).pp).hash) % 4294967296 % hp) (m2 a).depth
      (((m2 a).vcnt + (m2 (m2 a).pp).vcnt) % 4294967296)) x).skel = (m x).skel :=
    fun x => (skel_store_summary m2 a _ _ _ x).trans ((s2 x).trans (s1 x))
  have f2 : (store m2 a ((m2 a).with_summary
      (((m2 a).hash + (m2 (m2 a).pp).hash) % 4294967296 % hp) (m2 a).depth
      (((m2 a).vcnt + (m2 (m2 a).pp).vcnt) % 4294967296)) a).flags = 0 := by
    rw [store_same, PMV.with_summary_flags, g2 a ap, f1]
  have o2 : ∀ x, x ≠ a → x ∉ pp.nodes → store m2 a ((m2 a).with_summary
      (((m2 a).hash + (m2 (m2 a).pp).hash) % 4294967296 % hp) (m2 a).depth
      (((m2 a).vcnt + (m2 (m2 a).pp).vcnt) % 4294967296)) x = m x :=
    fun x hx hxp => by rw [store_other _ _ _ _ hx, g2 x hxp, o1 x hx]
  have hhp2' := VTree.Held_store ap ((m2 a).with_summary
      (((m2 a).hash + (m2 (m2 a).pp).hash) % 4294967296 % hp) (m2 a).depth
      (((m2 a).vcnt + (m2 (m2 a).pp).vcnt) % 4294967296)) hhp2
  have fp2' := VTree.FlagsOK_store pp ap ((m2 a).with_summary
      (((m2 a).hash + (m2 (m2 a).pp).hash) % 4294967296 % hp) (m2 a).depth
      (((m2 a).vcnt + (m2 (m2 a).pp).vcnt) % 4294967296)) fp2
  generalize store m2 a ((m2 a).with_summary
      (((m2 a).hash + (m2 (m2 a).pp).hash) % 4294967296 % hp) (m2 a).depth
      (((m2 a).vcnt + (m2 (m2 a).pp).vcnt) % 4294967296)) = m2' at s2' f2 o2 hhp2' fp2' ⊢
  generalize (m2 (m2 a).pp).depth = md
  -- the child branch
  unfold PMV_eval_r_insc_cp
  have hcp2 : (m2' a).cp = cp.root := by rw [(PMV.skel_fields (s2' a)).2.2.2]; exact hcpm
  rw [if_neg (by rw [hcp2]; exact VTree.root_ne_zero hcn hrc), hcp2]
  unfold PMV_eval_child
  rw [if_pos (Or.inl rfl)]
  obtain ⟨m3, h3, s3, g3, c3, fc3⟩ := hF m2' cp hcn hpl.2.2.2.1
    (VTree.Rep_of_skel cp s2' hrc) ndc
    (fun x hx => by
      have hxa : x ≠ a := fun e => ac (e ▸ hx)
      rw [o2 x hxa (fun h => dpc x h hx)]
      exact hz x (VTree.mem_insc_cp hx)) (by omega)
  rw [h3]
  dsimp only
  have hhc3 : cp.Held m3 :=
    ⟨hpl.2.2.2.1, VTree.Rep_of_skel cp (fun x => (s3 x).trans (s2' x)) hrc, c3⟩
  have hhp3 : pp.Held m3 := VTree.Held_frame (fun x hx => g3 x (dpc x hx)) hhp2'
  have fp3 : pp.FlagsOK m3 :=
    VTree.FlagsOK_congr pp (fun x hx => by rw [g3 x (dpc x hx)]) fp2'
  have s3' : ∀ x, (store m3 a ((m3 a).with_summary
      (((m3 a).hash + (m3 (m3 a).cp).hash) % 4294967296 % hp) (m3 a).depth
      (((m3 a).vcnt + (m3 (m3 a).cp).vcnt) % 4294967296)) x).skel = (m x).skel :=
    fun x => (skel_store_summary m3 a _ _ _ x).trans ((s3 x).trans (s2' x))
  have f3 : (store m3 a ((m3 a).with_summary
      (((m3 a).hash + (m3 (m3 a).cp).hash) % 4294967296 % hp) (m3 a).depth
      (((m3 a).vcnt + (m3 (m3 a).cp).vcnt) % 4294967296)) a).flags = 0 := by
    rw [store_same, PMV.with_summary_flags, g3 a ac, f2]
  have o3 : ∀ x ∈ np.nodes, store m3 a ((m3 a).with_summary
      (((m3 a).hash + (m3 (m3 a).cp).hash) % 4294967296 % hp) (m3 a).depth
      (((m3 a).vcnt + (m3 (m3 a).cp).vcnt) % 4294967296)) x = m x :=
    fun x hx => by
      have hxa : x ≠ a := fun e => an (e ▸ hx)
      rw [store_other _ _ _ _ hxa, g3 x (fun h => dcn x h hx), o2 x hxa (fun h => dpn x h hx)]
  have hhp3' := VTree.Held_store ap ((m3 a).with_summary
      (((m3 a).hash + (m3 (m3 a).cp).hash) % 4294967296 % hp) (m3 a).depth
      (((m3 a).vcnt + (m3 (m3 a).cp).vcnt) % 4294967296)) hhp3
  have hhc3' := VTree.Held_store ac ((m3 a).with_summary
      (((m3 a).hash + (m3 (m3 a).cp).hash) % 4294967296 % hp) (m3 a).depth
      (((m3 a).vcnt + (m3 (m3 a).cp).vcnt) % 4294967296)) hhc3
  have fp3' := VTree.FlagsOK_store pp ap ((m3 a).with_summary
      (((m3 a).hash + (m3 (m3 a).cp).hash) % 4294967296 % hp) (m3 a).depth
      (((m3 a).vcnt + (m3 (m3 a).cp).vcnt) % 4294967296)) fp3
  have fc3' := VTree.FlagsOK_store cp ac ((m3 a).with_summary
      (((m3 a).hash + (m3 (m3 a).cp).hash) % 4294967296 % hp) (m3 a).depth
      (((m3 a).vcnt + (m3 (m3 a).cp).vcnt) % 4294967296)) fc3
  generalize store m3 a ((m3 a).with_summary
      (((m3 a).hash + (m3 (m3 a).cp).hash) % 4294967296 % hp) (m3 a).depth
      (((m3 a).vcnt + (m3 (m3 a).cp).vcnt) % 4294967296)) = m3'
    at s3' f3 o3 hhp3' hhc3' fp3' fc3' ⊢
  generalize (if (m3 (m3 a).cp).depth > md then (m3 (m3 a).cp).depth else md) = md'
  -- the depth
  have s4 : ∀ x, (store m3' a ((m3' a).with_summary (m3' a).hash
      (((m3' a).depth + md') % 4294967296) (m3' a).vcnt) x).skel = (m x).skel :=
    fun x => (skel_store_summary m3' a _ _ _ x).trans (s3' x)
  have f4 : (store m3' a ((m3' a).with_summary (m3' a).hash
      (((m3' a).depth + md') % 4294967296) (m3' a).vcnt) a).flags = 0 := by
    rw [store_same, PMV.with_summary_flags, f3]
  have o4 : ∀ x ∈ np.nodes, store m3' a ((m3' a).with_summary (m3' a).hash
      (((m3' a).depth + md') % 4294967296) (m3' a).vcnt) x = m x :=
    fun x hx => by
      have hxa : x ≠ a := fun e => an (e ▸ hx)
      rw [store_other _ _ _ _ hxa, o3 x hx]
  have hhp4 := VTree.Held_store ap ((m3' a).with_summary (m3' a).hash
      (((m3' a).depth + md') % 4294967296) (m3' a).vcnt) hhp3'
  have hhc4 := VTree.Held_store ac ((m3' a).with_summary (m3' a).hash
      (((m3' a).depth + md') % 4294967296) (m3' a).vcnt) hhc3'
  have fp4 := VTree.FlagsOK_store pp ap ((m3' a).with_summary (m3' a).hash
      (((m3' a).depth + md') % 4294967296) (m3' a).vcnt) fp3'
  have fc4 := VTree.FlagsOK_store cp ac ((m3' a).with_summary (m3' a).hash
      (((m3' a).depth + md') % 4294967296) (m3' a).vcnt) fc3'
  generalize store m3' a ((m3' a).with_summary (m3' a).hash
      (((m3' a).depth + md') % 4294967296) (m3' a).vcnt) = m4 at s4 f4 o4 hhp4 hhc4 fp4 fc4 ⊢
  -- the comparison of the two branches
  have hpp4 : (m4 a).pp = pp.root := by rw [(PMV.skel_fields (s4 a)).2.2.1]; exact hppm
  have hcp4 : (m4 a).cp = cp.root := by rw [(PMV.skel_fields (s4 a)).2.2.2]; exact hcpm
  rw [hpp4, hcp4]
  have hndpc : (pp.nodes ++ cp.nodes).Nodup :=
    List.nodup_append.mpr ⟨ndp, ndc, fun _ h1 h2 => dpc _ h1 h2⟩
  have hapc : a ∉ pp.nodes ++ cp.nodes :=
    fun h => (List.mem_append.mp h).elim ap ac
  obtain ⟨m5, h5, g5, fp5, fc5⟩ := hsim m4 pp cp true hpn hcn hhp4 hhc4 hndpc fp4 fc4
    (by omega)
  rw [h5]
  dsimp only
  have s5 : ∀ x, (m5 x).skel = (m x).skel :=
    fun x => (PMV.skel_of_noflags (g5.1 x)).trans (s4 x)
  have f5 : (m5 a).flags = 0 := by rw [g5.2 a hapc, f4]
  have o5 : ∀ x ∈ np.nodes, m5 x = m x := fun x hx => by
    rw [g5.2 x (fun h => (List.mem_append.mp h).elim (fun h => dpn x h hx)
      (fun h => dcn x h hx)), o4 x hx]
  by_cases hs : pp.shape = cp.shape
  · rw [if_pos hs, if_pos (by decide : (1 : Nat) ≠ 0), if_pos hs]
    refine ⟨_, rfl, fun x => (skel_store_flags m5 a _ x).trans (s5 x), ?_,
      VTree.FlagsOK_store pp ap _ fp5, VTree.FlagsOK_store cp ac _ fc5, fun x hx => ?_⟩
    · rw [store_same, PMV.with_flags_flags, f5]
      rfl
    · have hxa : x ≠ a := fun e => an (e ▸ hx)
      rw [store_other _ _ _ _ hxa, o5 x hx]
  · rw [if_neg hs, if_neg (by decide : ¬ (0 : Nat) ≠ 0), if_neg hs]
    exact ⟨m5, rfl, s5, f5, fp5, fc5, o5⟩

/-- The body of `PMV_eval_r(v, 1)` for a tree with all flags clear. -/
theorem PMV_eval_r_body_forced {eval : PMVMem → Nat → Bool → Option PMVMem}
    {sim : PMVMem → Nat → Nat → Bool → Option (PMVMem × Nat)} {n : Nat}
    (ho1 : EvalSpec eval n) (ho2 : SimSpec sim n) (hF : EvalF eval n) (hsim : SimG sim n) :
    EvalF (PMV_eval_r_body eval sim) (n + 1) := by
  intro m t ht hpl hrep hnd hz hsz
  obtain ⟨mo, ho, hpo⟩ := PMV_eval_r_body_spec ho1 ho2 m t true ht hrep hnd hsz
  suffices hx : ∃ m', PMV_eval_r_body eval sim m t.root true = some m' ∧ t.FlagsOK m' by
    obtain ⟨m', h', fo⟩ := hx
    have e : mo = m' := Option.some.inj (ho.symm.trans h')
    rw [← e] at fo
    exact ⟨mo, ho, hpo.1, hpo.2.1, hpo.2.2 (Or.inl rfl), fo⟩
  cases t with
  | nil => exact absurd rfl ht
  | wrap a wp np => exact absurd hpl (fun x => x)
  | seg a np =>
    have hnd' := List.nodup_cons.mp hnd
    have hsa : (VTree.seg a np).size = 1 + np.size := rfl
    have hfa : (m a).flags = 0 := hz a (List.mem_cons_self _ _)
    simp only [VTree.root]
    unfold PMV_eval_r_body
    rw [if_neg hrep.1, if_neg (not_not.mpr (by rw [hrep.2.1]; decide))]
    unfold PMV_eval_r_switch
    rw [if_neg (by rw [hrep.2.1]; decide), if_neg (by rw [hrep.2.1]; decide)]
    dsimp only
    have s1 := skel_store_summary m a 1 1 1
    have f1 : (store m a ((m a).with_summary 1 1 1) a).flags = 0 := by
      rw [store_same, PMV.with_summary_flags, hfa]
    have o1 : ∀ x, x ≠ a → store m a ((m a).with_summary 1 1 1) x = m x :=
      fun x hx => store_other _ _ _ _ hx
    generalize store m a ((m a).with_summary 1 1 1) = m1 at s1 f1 o1 ⊢
    obtain ⟨m2, h2, s2, f2, fn2, _⟩ := PMV_eval_r_np_forced hF m1 a np
      (by rw [(PMV.skel_fields (s1 a)).2.1]; exact hrep.2.2.1) hpl
      (VTree.Rep_of_skel np s1 hrep.2.2.2) hnd'.2 hnd'.1
      (fun x hx => by
        have hxa : x ≠ a := fun e => hnd'.1 (e ▸ hx)
        rw [o1 x hxa]
        exact hz x (List.mem_cons_of_mem _ hx)) (by omega)
    rw [h2]
    dsimp only
    refine ⟨_, rfl, Or.inr ?_, VTree.FlagsOK_store np hnd'.1 _ fn2⟩
    rw [store_same, PMV.with_flags_flags, f2, f1]
    rfl
  | insc a pp cp np =>
    obtain ⟨ndp, ndc, ndn, ap, ac, an, dpc, dpn, dcn⟩ := VTree.insc_nodup hnd
    have hsa : (VTree.insc a pp cp np).size = 1 + pp.size + cp.size + np.size := rfl
    simp only [VTree.root]
    unfold PMV_eval_r_body
    rw [if_neg hrep.1, if_neg (not_not.mpr (by rw [hrep.2.1]; decide))]
    unfold PMV_eval_r_switch
    rw [if_neg (by rw [hrep.2.1]; decide), if_pos hrep.2.1]
    obtain ⟨m1, h1, s1, f1, fp1, fc1, o1⟩ := PMV_eval_r_insc_forced hF hsim m a pp cp np hpl
      hrep hnd hz hsz
    rw [h1]
    dsimp only
    obtain ⟨m2, h2, s2, f2, fn2, hfr2⟩ := PMV_eval_r_np_forced hF m1 a np
      (by rw [(PMV.skel_fields (s1 a)).2.1]; exact hrep.2.2.2.2.1) hpl.2.2.2.2
      (VTree.Rep_of_skel np s1 hrep.2.2.2.2.2.2.2) ndn an
      (fun x hx => by
        rw [o1 x hx]
        exact hz x (VTree.mem_insc_np hx)) (by omega)
    rw [h2]
    dsimp only
    have fp2 : pp.FlagsOK m2 := VTree.FlagsOK_congr pp (fun x hx => by
      rw [hfr2 x (fun e => ap (e ▸ hx)) (dpn x hx)]) fp1
    have fc2 : cp.FlagsOK m2 := VTree.FlagsOK_congr cp (fun x hx => by
      rw [hfr2 x (fun e => ac (e ▸ hx)) (dcn x hx)]) fc1
    refine ⟨_, rfl, Or.inr ?_, VTree.FlagsOK_store pp ap _ fp2, VTree.FlagsOK_store cp ac _ fc2,
      VTree.FlagsOK_store np an _ fn2⟩
    rw [store_same, PMV.with_flags_flags, f2, f1]
    by_cases hsh : pp.shape = cp.shape
    · simp only [VTree.eflags, if_pos hsh]
      rfl
    · simp only [VTree.eflags, if_neg hsh]
      rfl

/-- For every stack bound `PMV_eval_r(v, 1)` makes a tree with all flags
clear a tree of an evaluated IR. -/
theorem PMV_eval_r_forced : ∀ n : Nat, EvalF (PMV_eval_r n) n := by
  intro n
  induction n with
  | zero =>
    intro m t ht _ _ _ _ hsz
    have := VTree.size_pos ht
    omega
  | succ n ih =>
    obtain ⟨o1, _, _, o4, _⟩ := PMV_specs n
    exact PMV_eval_r_body_forced o1 o4 ih (PMV_good_specs n).2.2.2.1

theorem SubtreeOf_Plain {T t : VTree} (h : SubtreeOf T t) (hp : T.Plain) : t.Plain := by
  induction h with
  | refl t => exact hp
  | seg_np a np s _ ih => exact ih hp
  | insc_pp a pp cp np s _ ih => exact ih hp.2.2.1
  | insc_cp a pp cp np s _ ih => exact ih hp.2.2.2.1
  | insc_np a pp cp np s _ ih => exact ih hp.2.2.2.2
  | wrap_wp a wp np s _ ih => exact absurd hp (fun x => x)
  | wrap_np a wp np s _ ih => exact absurd hp (fun x => x)

theorem SubtreeOf_FlagsOK {m : PMVMem} {T t : VTree} (h : SubtreeOf T t) (hf : T.FlagsOK m) :
    t.FlagsOK m := by
  induction h with
  | refl t => exact hf
  | seg_np a np s _ ih => exact ih hf.2
  | insc_pp a pp cp np s _ ih => exact ih hf.2.1
  | insc_cp a pp cp np s _ ih => exact ih hf.2.2.1
  | insc_np a pp cp np s _ ih => exact ih hf.2.2.2
  | wrap_wp a wp np s _ ih => exact ih hf.2.1
  | wrap_np a wp np s _ ih => exact ih hf.2.2

/-- The trees of an IR as the builder leaves it, with all flags clear, are
trees of an evaluated IR after `PMV_eval_r(head, 1)`. -/
theorem PMV_eval_r_establishes (m0 m : PMVMem) (T t : VTree) (fuel0 : Nat) (hT : T ≠ VTree.nil)
    (hpl : T.Plain) (hrep : T.Rep m0) (hnd : T.nodes.Nodup)
    (hz : ∀ a ∈ T.nodes, (m0 a).flags = 0) (hfuel0 : 3 * T.size ≤ fuel0)
    (heval : PMV_eval_r fuel0 m0 T.root true = some m) (hsub : SubtreeOf T t) :
    t.Plain ∧ t.Rep m ∧ t.Corr m ∧ t.FlagsOK m := by
  obtain ⟨m', h', s', _, c', f'⟩ := PMV_eval_r_forced fuel0 m0 T hT hpl hrep hnd hz hfuel0
  have e : m' = m := Option.some.inj (h'.symm.trans heval)
  rw [e] at s' c' f'
  exact ⟨SubtreeOf_Plain hsub hpl, SubtreeOf_Rep hsub (VTree.Rep_of_skel T s' hrep),
    SubtreeOf_Corr hsub c', SubtreeOf_FlagsOK hsub f'⟩

theorem pm_example_eval : PMV_eval_r 12 pm_example_built.vm 1 true = some pm_example.vm := by
  obtain ⟨m', h, _⟩ := (PMV_specs 12).1 pm_example_built.vm pm_example_tree true (by decide)
    pm_example_tree_Rep (by decide) (by decide)
  have h' : PMV_eval_r 12 pm_example_built.vm 1 true = some m' := h
  unfold pm_example
  simp only [h', Option.getD_some]

theorem pm_example_tree_Plain : pm_example_tree.Plain :=
  ⟨by decide, by decide, trivial, trivial, trivial⟩

/-- The subtrees of the example are trees of an evaluated IR. -/
theorem pm_example_established (t : VTree) (h : SubtreeOf pm_example_tree t) :
    t.Plain ∧ t.Rep pm_example.vm ∧ t.Corr pm_example.vm ∧ t.FlagsOK pm_example.vm :=
  PMV_eval_r_establishes pm_example_built.vm pm_example.vm pm_example_tree t 12 (by decide)
    pm_example_tree_Plain pm_example_tree_Rep (by decide) (by decide) (by decide)
    pm_example_eval h

/-- C15: for two non-empty trees `t1`, `t2` of an evaluated IR (the memory
holds them, they have no wrapper and no inosculation with an empty branch,
every vertex stores the summary of its tree, and the flags of every vertex are
clear or those of an evaluated vertex) that share no vertex,
`PMV_is_similar(v1, v2, 1)` for their roots returns, with 1 if the trees have
the same shape (the same sequence of variants along `np`, and the same shapes
of `pp` and `cp` at every inosculation) and with 0 otherwise. The shape does
not hold the content of the segments, which the function does not read. The
call leaves the two trees trees of an evaluated IR. -/
theorem PMV_is_similar_iff_shape (m : PMVMem) (t1 t2 : VTree) (fuel : Nat)
    (h1 : t1 ≠ VTree.nil) (h2 : t2 ≠ VTree.nil) (hp1 : t1.Plain) (hp2 : t2.Plain)
    (hr1 : t1.Rep m) (hr2 : t2.Rep m) (hnd : (t1.nodes ++ t2.nodes).Nodup)
    (hc1 : t1.Corr m) (hc2 : t2.Corr m) (hf1 : t1.FlagsOK m) (hf2 : t2.FlagsOK m)
    (hfuel : 3 * (t1.size + t2.size) + 2 ≤ fuel) :
    ∃ m' r, PMV_is_similar fuel m t1.root t2.root true = some (m', r) ∧
      (r = 1 ↔ t1.shape = t2.shape) ∧ (r = 0 ∨ r = 1) ∧
      t1.Rep m' ∧ t2.Rep m' ∧ t1.Corr m' ∧ t2.Corr m' ∧ t1.FlagsOK m' ∧ t2.FlagsOK m' := by
  obtain ⟨m', h, g, f1, f2⟩ := (PMV_good_specs fuel).2.2.2.1 m t1 t2 true h1 h2 ⟨hp1, hr1, hc1⟩
    ⟨hp2, hr2, hc2⟩ hnd hf1 hf2 hfuel
  have hh1 := VTree.Held_of_noflags g.1 (⟨hp1, hr1, hc1⟩ : t1.Held m)
  have hh2 := VTree.Held_of_noflags g.1 (⟨hp2, hr2, hc2⟩ : t2.Held m)
  refine ⟨m', _, h, ?_, ?_, hh1.2.1, hh2.2.1, hh1.2.2, hh2.2.2, f1, f2⟩
  · by_cases hs : t1.shape = t2.shape
    · rw [if_pos hs]
      exact ⟨fun _ => hs, fun _ => rfl⟩
    · rw [if_neg hs]
      exact ⟨fun h => absurd h (by decide), fun h => absurd h hs⟩
  · by_cases hs : t1.shape = t2.shape
    · rw [if_pos hs]
      exact Or.inr rfl
    · rw [if_neg hs]
      exact Or.inl rfl

theorem PMV_is_similar_iff_shape_witness :
    ∃ m' r, PMV_is_similar 8 pm_example.vm (VTree.seg 2 VTree.nil).root
        (VTree.seg 3 VTree.nil).root true = some (m', r) ∧
      (r = 1 ↔ (VTree.seg 2 VTree.nil).shape = (VTree.seg 3 VTree.nil).shape) ∧
      (r = 0 ∨ r = 1) ∧
      (VTree.seg 2 VTree.nil).Rep m' ∧ (VTree.seg 3 VTree.nil).Rep m' ∧
      (VTree.seg 2 VTree.nil).Corr m' ∧ (VTree.seg 3 VTree.nil).Corr m' ∧
      (VTree.seg 2 VTree.nil).FlagsOK m' ∧ (VTree.seg 3 VTree.nil).FlagsOK m' :=
  PMV_is_similar_iff_shape pm_example.vm (VTree.seg 2 VTree.nil) (VTree.seg 3 VTree.nil) 8
    (by decide) (by decide)
    (pm_example_established _ (SubtreeOf.insc_pp 1 _ _ _ _ (SubtreeOf.refl _))).1
    (pm_example_established _ (SubtreeOf.insc_cp 1 _ _ _ _ (SubtreeOf.refl _))).1
    (pm_example_established _ (SubtreeOf.insc_pp 1 _ _ _ _ (SubtreeOf.refl _))).2.1
    (pm_example_established _ (SubtreeOf.insc_cp 1 _ _ _ _ (SubtreeOf.refl _))).2.1
    (by decide)
    (pm_example_established _ (SubtreeOf.insc_pp 1 _ _ _ _ (SubtreeOf.refl _))).2.2.1
    (pm_example_established _ (SubtreeOf.insc_cp 1 _ _ _ _ (SubtreeOf.refl _))).2.2.1
    (pm_example_established _ (SubtreeOf.insc_pp 1 _ _ _ _ (SubtreeOf.refl _))).2.2.2
    (pm_example_established _ (SubtreeOf.insc_cp 1 _ _ _ _ (SubtreeOf.refl _))).2.2.2
    (by decide)

/-! ## Linking the groups and writing them to a file -/

theorem PMV_gp_of_zero (m : PMVMem) : PMV_gp_of m 0 = 0 := rfl

theorem PMV_gp_of_ne {m : PMVMem} {p : Nat} (h : p ≠ 0) : PMV_gp_of m p = (m p).gp := by
  unfold PMV_gp_of
  rw [if_neg h]

theorem PMV_gp_of_root {m : PMVMem} {t : VTree} (ht : t ≠ VTree.nil) (hr : t.Rep m) :
    PMV_gp_of m t.root = (m t.root).gp :=
  PMV_gp_of_ne (VTree.root_ne_zero ht hr)

@[simp]
theorem PMVG.with_cnp_np (g : PMVG) (p : Nat) : (g.with_cnp p).cpmv.np = p := rfl

@[simp]
theorem PMVG.with_cnp_pp (g : PMVG) (p : Nat) : (g.with_cnp p).cpmv.pp = g.cpmv.pp := rfl

@[simp]
theorem PMVG.with_cnp_cp (g : PMVG) (p : Nat) : (g.with_cnp p).cpmv.cp = g.cpmv.cp := rfl

@[simp]
theorem PMVG.with_cpp_np (g : PMVG) (p : Nat) : (g.with_cpp p).cpmv.np = g.cpmv.np := rfl

@[simp]
theorem PMVG.with_cpp_pp (g : PMVG) (p : Nat) : (g.with_cpp p).cpmv.pp = p := rfl

@[simp]
theorem PMVG.with_cpp_cp (g : PMVG) (p : Nat) : (g.with_cpp p).cpmv.cp = g.cpmv.cp := rfl

@[simp]
theorem PMVG.with_ccp_np (g : PMVG) (p : Nat) : (g.with_ccp p).cpmv.np = g.cpmv.np := rfl

@[simp]
theorem PMVG.with_ccp_pp (g : PMVG) (p : Nat) : (g.with_ccp p).cpmv.pp = g.cpmv.pp := rfl

@[simp]
theorem PMVG.with_ccp_cp (g : PMVG) (p : Nat) : (g.with_ccp p).cpmv.cp = p := rfl

@[simp]
theorem PMVG.with_cnp_noedge (g : PMVG) (p : Nat) : (g.with_cnp p).noedge = g.noedge := rfl

@[simp]
theorem PMVG.with_cpp_noedge (g : PMVG) (p : Nat) : (g.with_cpp p).noedge = g.noedge := rfl

@[simp]
theorem PMVG.with_ccp_noedge (g : PMVG) (p : Nat) : (g.with_ccp p).noedge = g.noedge := rfl

theorem PMVG.with_cnp_self (g : PMVG) : g.with_cnp g.cpmv.np = g := rfl

theorem PMVG.with_cpp_self (g : PMVG) : g.with_cpp g.cpmv.pp = g := rfl

theorem PMVG.with_ccp_self (g : PMVG) : g.with_ccp g.cpmv.cp = g := rfl

theorem store_self {α : Type} (m : Nat → α) (a : Nat) : store m a (m a) = m := by
  funext x
  unfold store
  split
  · next h => rw [h]
  · rfl

/-- The fields of a group that `_link_groups` does not write. -/
theorem PMVG.noedge_fields {g h : PMVG} (e : g.noedge = h.noedge) :
    g.next_p = h.next_p ∧ g.prev_next_pp = h.prev_next_pp ∧ g.ctxp = h.ctxp ∧ g.idx = h.idx ∧
    g.vpl = h.vpl ∧ g.cpmv.type = h.cpmv.type ∧ g.id = h.id := by
  have h1 := congrArg PMVG.next_p e
  have h2 := congrArg PMVG.prev_next_pp e
  have h3 := congrArg PMVG.ctxp e
  have h4 := congrArg PMVG.idx e
  have h5 := congrArg PMVG.vpl e
  have h6 := congrArg (fun x => x.cpmv.type) e
  have h7 := congrArg PMVG.id e
  exact ⟨h1, h2, h3, h4, h5, h6, h7⟩

/-- The statement `if (!gp->cpmv.x) gp->cpmv.x = _link_groups(p);` for an
empty edge of the group `gp` and a tree whose groups are other groups. -/
theorem link_groups_edge_fresh (link : PMState → Nat → Option (PMState × Nat))
    (get : CPMV → Nat) (set : PMVG → Nat → PMVG) {s : PMState} {c : VTree} {gp : Nat}
    (hsn : ∀ g r, (set g r).noedge = g.noedge)
    (hlink : ∃ s1, link s c.root = some (s1, PMV_gp_of s.vm c.root) ∧ LinkPost s s1 c)
    (hget : get (s.gm gp).cpmv = 0) (hgp : ∀ v ∈ c.nodes, (s.vm v).gp ≠ gp) :
    ∃ s', link_groups_edge link get set s gp c.root = some s' ∧ s'.vm = s.vm ∧ s'.cm = s.cm ∧
      (∀ g, g ≠ gp → (∀ v ∈ c.nodes, (s.vm v).gp ≠ g) → s'.gm g = s.gm g) ∧
      s'.gm gp = set (s.gm gp) (PMV_gp_of s.vm c.root) ∧
      (∀ g, (s'.gm g).noedge = (s.gm g).noedge) ∧ ∀ v ∈ c.nodes, LinkedAt s' v := by
  obtain ⟨s1, h1, p1, p2, p3, p4, p5⟩ := hlink
  have hg1 : s1.gm gp = s.gm gp := p3 gp hgp
  refine ⟨{ s1 with gm := store s1.gm gp (set (s1.gm gp) (PMV_gp_of s.vm c.root)) }, ?_, p1, p2,
    ?_, ?_, ?_, ?_⟩
  · unfold link_groups_edge
    rw [if_pos hget, h1]
  · intro g hg hv
    show store s1.gm gp _ g = s.gm g
    rw [store_other _ _ _ _ hg]
    exact p3 g hv
  · show store s1.gm gp _ gp = _
    rw [store_same, hg1]
  · intro g
    show (store s1.gm gp _ g).noedge = _
    by_cases hg : g = gp
    · subst hg
      rw [store_same, hsn]
      exact p4 g
    · rw [store_other _ _ _ _ hg]
      exact p4 g
  · intro v hv
    have hvg : (s1.vm v).gp ≠ gp := by rw [p1]; exact hgp v hv
    have hL := p5 v hv
    unfold LinkedAt at hL ⊢
    show (store s1.gm gp _ (s1.vm v).gp).cpmv.np = PMV_gp_of s1.vm (s1.vm v).np ∧
      ((s1.vm v).type = PMV_insc →
        (store s1.gm gp _ (s1.vm v).gp).cpmv.pp = PMV_gp_of s1.vm (s1.vm v).pp ∧
        (store s1.gm gp _ (s1.vm v).gp).cpmv.cp = PMV_gp_of s1.vm (s1.vm v).cp) ∧
      ((s1.vm v).type = PMV_wrap →
        (store s1.gm gp _ (s1.vm v).gp).cpmv.pp = PMV_gp_of s1.vm (s1.vm v).wp)
    rw [store_other _ _ _ _ hvg]
    exact hL

/-- The same statement for an edge that is linked already. -/
theorem link_groups_edge_linked (link : PMState → Nat → Option (PMState × Nat))
    (get : CPMV → Nat) (set : PMVG → Nat → PMVG) {s : PMState} {gp p : Nat}
    (hself : ∀ g, set g (get g.cpmv) = g)
    (hlink : link s 0 = some (s, 0))
    (hget : get (s.gm gp).cpmv = PMV_gp_of s.vm p) (hp : p ≠ 0 → (s.vm p).gp ≠ 0) :
    link_groups_edge link get set s gp p = some s := by
  unfold link_groups_edge
  by_cases h0 : p = 0
  · subst h0
    rw [PMV_gp_of_zero] at hget
    rw [if_pos hget, hlink]
    have e : set (s.gm gp) 0 = s.gm gp := by
      have := hself (s.gm gp)
      rw [hget] at this
      exact this
    show some ({ s with gm := store s.gm gp (set (s.gm gp) 0) } : PMState) = some s
    rw [e, store_self]
  · rw [PMV_gp_of_ne h0] at hget
    rw [if_neg (by rw [hget]; exact hp h0)]

theorem LinkedAt_congr {s s' : PMState} {v : Nat} (hv : s'.vm = s.vm)
    (hg : s'.gm (s.vm v).gp = s.gm (s.vm v).gp) (h : LinkedAt s v) : LinkedAt s' v := by
  unfold LinkedAt at h ⊢
  rw [hv, hg]
  exact h

theorem LinkPre_congr {s s' : PMState} {t : VTree} (hv : s'.vm = s.vm)
    (hg : ∀ v ∈ t.nodes, s'.gm (s.vm v).gp = s.gm (s.vm v).gp) (h : LinkPre s t) :
    LinkPre s' t := by
  obtain ⟨h1, h2, h3, h4, h5⟩ := h
  refine ⟨by rw [hv]; exact h1, h2, by rw [hv]; exact h3, by rw [hv]; exact h4, ?_⟩
  intro v hvm
  rw [hv, hg v hvm]
  exact h5 v hvm

theorem LinkPre_sub {s : PMState} {t c : VTree} (hsub : ∀ x ∈ c.nodes, x ∈ t.nodes)
    (hr : c.Rep s.vm) (hnd : c.nodes.Nodup) (h : LinkPre s t) : LinkPre s c :=
  ⟨hr, hnd, fun v hv => h.2.2.1 v (hsub v hv),
    fun v hv w hw => h.2.2.2.1 v (hsub v hv) w (hsub w hw),
    fun v hv => h.2.2.2.2 v (hsub v hv)⟩

theorem link_groups_zero (fuel : Nat) (s : PMState) :
    link_groups (fuel + 1) s 0 = some (s, 0) := by
  show link_groups_body _ s 0 = _
  unfold link_groups_body
  rw [if_pos rfl]

theorem PMV_type_seg_lt : PMV_seg < PMV_enumsize := by decide

theorem PMV_type_insc_lt : PMV_insc < PMV_enumsize := by decide

theorem PMV_type_wrap_lt : PMV_wrap < PMV_enumsize := by decide

/-- The call `_link_groups(v)` on a freshly built tree. -/
theorem link_groups_fresh : ∀ (t : VTree) (fuel : Nat) (s : PMState), LinkPre s t →
    t.size + 1 ≤ fuel →
    ∃ s', link_groups fuel s t.root = some (s', PMV_gp_of s.vm t.root) ∧ LinkPost s s' t := by
  intro t
  induction t with
  | nil =>
    intro fuel s _ hf
    obtain ⟨f, rfl⟩ : ∃ f, fuel = f + 1 := ⟨fuel - 1, by omega⟩
    exact ⟨s, link_groups_zero f s, rfl, rfl, fun _ _ => rfl, fun _ => rfl,
      fun v hv => absurd hv (List.not_mem_nil _)⟩
  | seg a np ih =>
    intro fuel s hpre hf
    obtain ⟨f, rfl⟩ : ∃ f, fuel = f + 1 := ⟨fuel - 1, by omega⟩
    have hsz : np.size + 1 ≤ f := by simp only [VTree.size] at hf; omega
    obtain ⟨hr, hnd, hgp, hinj, hemp⟩ := hpre
    obtain ⟨ha0, hty, hnp, hrn⟩ := hr
    have hnd' := List.nodup_cons.mp hnd
    have hain : a ∈ (VTree.seg a np).nodes := List.mem_cons_self _ _
    have hsubn : ∀ x ∈ np.nodes, x ∈ (VTree.seg a np).nodes := fun x hx => List.mem_cons_of_mem _ hx
    have hpre : LinkPre s (VTree.seg a np) := ⟨⟨ha0, hty, hnp, hrn⟩, hnd, hgp, hinj, hemp⟩
    have hpn : LinkPre s np := LinkPre_sub hsubn hrn hnd'.2 hpre
    have hgn : ∀ v ∈ np.nodes, (s.vm v).gp ≠ (s.vm a).gp := by
      intro v hv e
      have := hinj v (hsubn v hv) a hain e
      rw [this] at hv
      exact hnd'.1 hv
    obtain ⟨s', h', q1, q2, q3, q4, q5, q6⟩ :=
      link_groups_edge_fresh (fun s1 p => link_groups f s1 p) CPMV.np PMVG.with_cnp (fun _ _ => rfl) (ih f s hpn hsz) (hemp a hain).1 hgn
    refine ⟨s', ?_, q1, q2, ?_, q5, ?_⟩
    · show link_groups_body _ s a = _
      unfold link_groups_body
      rw [if_neg ha0, hty, if_neg (not_not.mpr PMV_type_seg_lt), if_neg (hgp a hain)]
      simp only [show ¬ PMV_seg = PMV_insc by decide, show ¬ PMV_seg = PMV_wrap by decide,
        if_false]
      rw [hnp, h', show PMV_gp_of s.vm (VTree.seg a np).root = (s.vm a).gp from PMV_gp_of_ne ha0]
    · intro g hg
      exact q3 g (fun e => hg a hain e.symm) (fun v hv => hg v (hsubn v hv))
    · intro v hv
      rcases List.mem_cons.mp hv with e | hv
      · subst e
        unfold LinkedAt
        rw [q1, q4, hty]
        refine ⟨?_, fun e => absurd e (by decide), fun e => absurd e (by decide)⟩
        rw [PMVG.with_cnp_np, hnp]
      · exact q6 v hv
  | insc a pp cp np ihp ihc ihn =>
    intro fuel s hpre hf
    obtain ⟨f, rfl⟩ : ∃ f, fuel = f + 1 := ⟨fuel - 1, by omega⟩
    have hszp : pp.size + 1 ≤ f := by simp only [VTree.size] at hf; omega
    have hszc : cp.size + 1 ≤ f := by simp only [VTree.size] at hf; omega
    have hszn : np.size + 1 ≤ f := by simp only [VTree.size] at hf; omega
    have hpre0 := hpre
    obtain ⟨hr, hnd, hgp, hinj, hemp⟩ := hpre
    obtain ⟨ha0, hty, hpp, hcp, hnp, hrp, hrc, hrn⟩ := hr
    obtain ⟨ndp, ndc, ndn, ap, ac, an, dpc, dpn, dcn⟩ := VTree.insc_nodup hnd
    have hain : a ∈ (VTree.insc a pp cp np).nodes := List.mem_cons_self _ _
    have hsubp : ∀ x ∈ pp.nodes, x ∈ (VTree.insc a pp cp np).nodes :=
      fun x hx => VTree.mem_insc_pp hx
    have hsubc : ∀ x ∈ cp.nodes, x ∈ (VTree.insc a pp cp np).nodes :=
      fun x hx => VTree.mem_insc_cp hx
    have hsubn : ∀ x ∈ np.nodes, x ∈ (VTree.insc a pp cp np).nodes :=
      fun x hx => VTree.mem_insc_np hx
    have hgne : ∀ (c : VTree), (∀ x ∈ c.nodes, x ∈ (VTree.insc a pp cp np).nodes) →
        a ∉ c.nodes → ∀ v ∈ c.nodes, (s.vm v).gp ≠ (s.vm a).gp := by
      intro c hsub hac v hv e
      have := hinj v (hsub v hv) a hain e
      rw [this] at hv
      exact hac hv
    have hdis : ∀ (c d : VTree), (∀ x ∈ c.nodes, x ∈ (VTree.insc a pp cp np).nodes) →
        (∀ x ∈ d.nodes, x ∈ (VTree.insc a pp cp np).nodes) → (∀ x ∈ c.nodes, x ∉ d.nodes) →
        ∀ v ∈ c.nodes, ∀ w ∈ d.nodes, (s.vm w).gp ≠ (s.vm v).gp := by
      intro c d hc hd hcd v hv w hw e
      have := hinj w (hd w hw) v (hc v hv) e
      rw [this] at hw
      exact hcd v hv hw
    -- pp
    obtain ⟨s2, h2, q1, q2, q3, q4, q5, q6⟩ :=
      link_groups_edge_fresh (fun s1 p => link_groups f s1 p) CPMV.pp PMVG.with_cpp (fun _ _ => rfl)
        (ihp f s (LinkPre_sub hsubp hrp ndp hpre0) hszp) (hemp a hain).2.1 (hgne pp hsubp ap)
    -- cp
    have hprec : LinkPre s2 cp := by
      refine LinkPre_congr q1 (fun v hv => ?_) (LinkPre_sub hsubc hrc ndc hpre0)
      exact q3 _ (hgne cp hsubc ac v hv) (fun w hw => hdis cp pp hsubc hsubp
        (fun x hx hx' => dpc x hx' hx) v hv w hw)
    have hget2 : CPMV.cp (s2.gm (s.vm a).gp).cpmv = 0 := by
      rw [q4, PMVG.with_cpp_cp]
      exact (hemp a hain).2.2
    have hgn2 : ∀ v ∈ cp.nodes, (s2.vm v).gp ≠ (s.vm a).gp := by
      rw [q1]; exact hgne cp hsubc ac
    obtain ⟨s3, h3, r1, r2, r3, r4, r5, r6⟩ :=
      link_groups_edge_fresh (fun s1 p => link_groups f s1 p) CPMV.cp PMVG.with_ccp (fun _ _ => rfl) (ihc f s2 hprec hszc) hget2 hgn2
    rw [q1] at r1 r3 r4
    -- np
    have hpren : LinkPre s3 np := by
      refine LinkPre_congr r1 (fun v hv => ?_) (LinkPre_sub hsubn hrn ndn hpre0)
      have hne := hgne np hsubn an v hv
      rw [r3 _ hne (fun w hw => hdis np cp hsubn hsubc (fun x hx hx' => dcn x hx' hx) v hv w hw)]
      exact q3 _ hne (fun w hw => hdis np pp hsubn hsubp (fun x hx hx' => dpn x hx' hx) v hv w hw)
    have hget3 : CPMV.np (s3.gm (s.vm a).gp).cpmv = 0 := by
      rw [r4, PMVG.with_ccp_np, q4, PMVG.with_cpp_np]
      exact (hemp a hain).1
    have hgn3 : ∀ v ∈ np.nodes, (s3.vm v).gp ≠ (s.vm a).gp := by
      rw [r1]; exact hgne np hsubn an
    obtain ⟨s4, h4, t1, t2, t3, t4, t5, t6⟩ :=
      link_groups_edge_fresh (fun s1 p => link_groups f s1 p) CPMV.np PMVG.with_cnp (fun _ _ => rfl) (ihn f s3 hpren hszn) hget3 hgn3
    rw [r1] at t1 t3 t4
    refine ⟨s4, ?_, t1, t2.trans (r2.trans q2), ?_, fun g => (t5 g).trans ((r5 g).trans (q5 g)),
      ?_⟩
    · show link_groups_body _ s a = _
      unfold link_groups_body
      rw [if_neg ha0, hty, if_neg (not_not.mpr PMV_type_insc_lt), if_neg (hgp a hain)]
      simp only [if_true]
      rw [hpp, h2]
      simp only []
      rw [q1, hcp, h3]
      simp only []
      rw [r1, hnp, h4,
        show PMV_gp_of s.vm (VTree.insc a pp cp np).root = (s.vm a).gp from PMV_gp_of_ne ha0]
    · intro g hg
      have hga : g ≠ (s.vm a).gp := fun e => hg a hain e.symm
      rw [t3 g hga (fun v hv => hg v (hsubn v hv)), r3 g hga (fun v hv => hg v (hsubc v hv)),
        q3 g hga (fun v hv => hg v (hsubp v hv))]
    · intro v hv
      rcases List.mem_cons.mp hv with e | hv
      · subst e
        unfold LinkedAt
        rw [t1, t4, r4, q4, hty]
        refine ⟨?_, fun _ => ⟨?_, ?_⟩, fun e => absurd e (by decide)⟩
        · rw [PMVG.with_cnp_np, hnp]
        · rw [PMVG.with_cnp_pp, PMVG.with_ccp_pp, PMVG.with_cpp_pp, hpp]
        · rw [PMVG.with_cnp_cp, PMVG.with_ccp_cp, hcp]
      · rcases List.mem_append.mp hv with hv | hv
        · rcases List.mem_append.mp hv with hv | hv
          · -- v in pp
            have hne := hgne pp hsubp ap v hv
            have e3 : s3.gm (s.vm v).gp = s2.gm (s.vm v).gp :=
              r3 _ hne (fun w hw => hdis pp cp hsubp hsubc dpc v hv w hw)
            have e4 : s4.gm (s.vm v).gp = s3.gm (s.vm v).gp :=
              t3 _ hne (fun w hw => hdis pp np hsubp hsubn dpn v hv w hw)
            have L2 := q6 v hv
            have L3 : LinkedAt s3 v := LinkedAt_congr (r1.trans q1.symm) (by rw [q1]; exact e3) L2
            exact LinkedAt_congr (t1.trans r1.symm) (by rw [r1]; exact e4) L3
          · have hne := hgne cp hsubc ac v hv
            have e4 : s4.gm (s.vm v).gp = s3.gm (s.vm v).gp :=
              t3 _ hne (fun w hw => hdis cp np hsubc hsubn dcn v hv w hw)
            exact LinkedAt_congr (t1.trans r1.symm) (by rw [r1]; exact e4) (r6 v hv)
        · exact t6 v hv
  | wrap a wp np ihw ihn =>
    intro fuel s hpre hf
    obtain ⟨f, rfl⟩ : ∃ f, fuel = f + 1 := ⟨fuel - 1, by omega⟩
    have hszw : wp.size + 1 ≤ f := by simp only [VTree.size] at hf; omega
    have hszn : np.size + 1 ≤ f := by simp only [VTree.size] at hf; omega
    have hpre0 := hpre
    obtain ⟨hr, hnd, hgp, hinj, hemp⟩ := hpre
    obtain ⟨ha0, hty, hwp, hnp, hrw, hrn⟩ := hr
    have hnd' := List.nodup_cons.mp hnd
    have hnda := List.nodup_append.mp hnd'.2
    have aw : a ∉ wp.nodes := fun h => hnd'.1 (List.mem_append_left _ h)
    have an : a ∉ np.nodes := fun h => hnd'.1 (List.mem_append_right _ h)
    have dwn : ∀ x ∈ wp.nodes, x ∉ np.nodes := fun x hx hx' => hnda.2.2 hx hx'
    have hain : a ∈ (VTree.wrap a wp np).nodes := List.mem_cons_self _ _
    have hsubw : ∀ x ∈ wp.nodes, x ∈ (VTree.wrap a wp np).nodes :=
      fun x hx => List.mem_cons_of_mem _ (List.mem_append_left _ hx)
    have hsubn : ∀ x ∈ np.nodes, x ∈ (VTree.wrap a wp np).nodes :=
      fun x hx => List.mem_cons_of_mem _ (List.mem_append_right _ hx)
    have hgne : ∀ (c : VTree), (∀ x ∈ c.nodes, x ∈ (VTree.wrap a wp np).nodes) →
        a ∉ c.nodes → ∀ v ∈ c.nodes, (s.vm v).gp ≠ (s.vm a).gp := by
      intro c hsub hac v hv e
      have := hinj v (hsub v hv) a hain e
      rw [this] at hv
      exact hac hv
    obtain ⟨s2, h2, q1, q2, q3, q4, q5, q6⟩ :=
      link_groups_edge_fresh (fun s1 p => link_groups f s1 p) CPMV.pp PMVG.with_cpp (fun _ _ => rfl)
        (ihw f s (LinkPre_sub hsubw hrw hnda.1 hpre0) hszw) (hemp a hain).2.1 (hgne wp hsubw aw)
    have hpren : LinkPre s2 np := by
      refine LinkPre_congr q1 (fun v hv => ?_) (LinkPre_sub hsubn hrn hnda.2.1 hpre0)
      refine q3 _ (hgne np hsubn an v hv) (fun w hw e => ?_)
      have := hinj w (hsubw w hw) v (hsubn v hv) e
      rw [this] at hw
      exact dwn v hw hv
    have hget3 : CPMV.np (s2.gm (s.vm a).gp).cpmv = 0 := by
      rw [q4, PMVG.with_cpp_np]
      exact (hemp a hain).1
    have hgn3 : ∀ v ∈ np.nodes, (s2.vm v).gp ≠ (s.vm a).gp := by
      rw [q1]; exact hgne np hsubn an
    obtain ⟨s4, h4, t1, t2, t3, t4, t5, t6⟩ :=
      link_groups_edge_fresh (fun s1 p => link_groups f s1 p) CPMV.np PMVG.with_cnp (fun _ _ => rfl) (ihn f s2 hpren hszn) hget3 hgn3
    rw [q1] at t1 t3 t4
    refine ⟨s4, ?_, t1, t2.trans q2, ?_, fun g => (t5 g).trans (q5 g), ?_⟩
    · show link_groups_body _ s a = _
      unfold link_groups_body
      rw [if_neg ha0, hty, if_neg (not_not.mpr PMV_type_wrap_lt), if_neg (hgp a hain)]
      simp only [show ¬ PMV_wrap = PMV_insc by decide, if_false, if_true]
      rw [show (s.vm a).wp = wp.root from hwp, h2]
      simp only []
      rw [q1, hnp, h4,
        show PMV_gp_of s.vm (VTree.wrap a wp np).root = (s.vm a).gp from PMV_gp_of_ne ha0]
    · intro g hg
      have hga : g ≠ (s.vm a).gp := fun e => hg a hain e.symm
      rw [t3 g hga (fun v hv => hg v (hsubn v hv)), q3 g hga (fun v hv => hg v (hsubw v hv))]
    · intro v hv
      rcases List.mem_cons.mp hv with e | hv
      · subst e
        unfold LinkedAt
        rw [t1, t4, q4, hty]
        refine ⟨?_, fun e => absurd e (by decide), fun _ => ?_⟩
        · rw [PMVG.with_cnp_np, hnp]
        · rw [PMVG.with_cnp_pp, PMVG.with_cpp_pp]
          exact congrArg _ hwp.symm
      · rcases List.mem_append.mp hv with hv | hv
        · have hne := hgne wp hsubw aw v hv
          have e4 : s4.gm (s.vm v).gp = s2.gm (s.vm v).gp := by
            refine t3 _ hne (fun w hw e => ?_)
            have := hinj w (hsubn w hw) v (hsubw v hv) e
            rw [this] at hw
            exact dwn v hv hw
          exact LinkedAt_congr (t1.trans q1.symm) (by rw [q1]; exact e4) (q6 v hv)
        · exact t6 v hv

theorem VTree.root_gp_ne {s : PMState} {c : VTree} {ns : List Nat}
    (hsub : ∀ x ∈ c.nodes, x ∈ ns) (hgp : ∀ v ∈ ns, (s.vm v).gp ≠ 0) :
    c.root ≠ 0 → (s.vm c.root).gp ≠ 0 := by
  intro h0
  have hc : c ≠ VTree.nil := fun e => h0 (by rw [e]; rfl)
  exact hgp _ (hsub _ (VTree.root_mem_nodes hc))

/-- The call `_link_groups(v)` on the root of a tree whose vertices are
linked changes nothing. -/
theorem link_groups_linked (t : VTree) (f : Nat) (s : PMState) (ht : t ≠ VTree.nil)
    (hr : t.Rep s.vm) (hgp : ∀ v ∈ t.nodes, (s.vm v).gp ≠ 0) (hl : LinkedAt s t.root) :
    link_groups (f + 2) s t.root = some (s, (s.vm t.root).gp) := by
  have hz : (fun s1 p => link_groups (f + 1) s1 p) s 0 = some (s, 0) := link_groups_zero f s
  cases t with
  | nil => exact absurd rfl ht
  | seg a np =>
    obtain ⟨ha0, hty, hnp, hrn⟩ := hr
    have hl : LinkedAt s a := hl
    have hain : a ∈ (VTree.seg a np).nodes := List.mem_cons_self _ _
    show link_groups_body _ s a = _
    unfold link_groups_body
    rw [if_neg ha0, hty, if_neg (not_not.mpr PMV_type_seg_lt), if_neg (hgp a hain)]
    simp only [show ¬ PMV_seg = PMV_insc by decide, show ¬ PMV_seg = PMV_wrap by decide,
      if_false]
    rw [link_groups_edge_linked (fun s1 p => link_groups (f + 1) s1 p) CPMV.np PMVG.with_cnp PMVG.with_cnp_self hz
      hl.1 (by
        rw [hnp]
        exact VTree.root_gp_ne (fun x hx => List.mem_cons_of_mem _ hx) hgp)]
    rfl
  | insc a pp cp np =>
    obtain ⟨ha0, hty, hpp, hcp, hnp, hrp, hrc, hrn⟩ := hr
    have hain : a ∈ (VTree.insc a pp cp np).nodes := List.mem_cons_self _ _
    have hl : LinkedAt s a := hl
    have hl2 := hl.2.1 hty
    show link_groups_body _ s a = _
    unfold link_groups_body
    rw [if_neg ha0, hty, if_neg (not_not.mpr PMV_type_insc_lt), if_neg (hgp a hain)]
    simp only [if_true]
    rw [link_groups_edge_linked (fun s1 p => link_groups (f + 1) s1 p) CPMV.pp PMVG.with_cpp PMVG.with_cpp_self hz
      hl2.1 (by
        rw [hpp]
        exact VTree.root_gp_ne (fun x hx => VTree.mem_insc_pp hx) hgp)]
    simp only []
    rw [link_groups_edge_linked (fun s1 p => link_groups (f + 1) s1 p) CPMV.cp PMVG.with_ccp PMVG.with_ccp_self hz
      hl2.2 (by
        rw [hcp]
        exact VTree.root_gp_ne (fun x hx => VTree.mem_insc_cp hx) hgp)]
    simp only []
    rw [link_groups_edge_linked (fun s1 p => link_groups (f + 1) s1 p) CPMV.np PMVG.with_cnp PMVG.with_cnp_self hz
      hl.1 (by
        rw [hnp]
        exact VTree.root_gp_ne (fun x hx => VTree.mem_insc_np hx) hgp)]
    rfl
  | wrap a wp np =>
    obtain ⟨ha0, hty, hwp, hnp, hrw, hrn⟩ := hr
    have hain : a ∈ (VTree.wrap a wp np).nodes := List.mem_cons_self _ _
    have hl : LinkedAt s a := hl
    have hl2 := hl.2.2 hty
    show link_groups_body _ s a = _
    unfold link_groups_body
    rw [if_neg ha0, hty, if_neg (not_not.mpr PMV_type_wrap_lt), if_neg (hgp a hain)]
    simp only [show ¬ PMV_wrap = PMV_insc by decide, if_false, if_true]
    rw [link_groups_edge_linked (fun s1 p => link_groups (f + 1) s1 p) CPMV.pp PMVG.with_cpp PMVG.with_cpp_self hz
      hl2 (by
        rw [show (s.vm a).wp = wp.root from hwp]
        exact VTree.root_gp_ne
          (fun x hx => List.mem_cons_of_mem _ (List.mem_append_left _ hx)) hgp)]
    simp only []
    rw [link_groups_edge_linked (fun s1 p => link_groups (f + 1) s1 p) CPMV.np PMVG.with_cnp PMVG.with_cnp_self hz
      hl.1 (by
        rw [hnp]
        exact VTree.root_gp_ne
          (fun x hx => List.mem_cons_of_mem _ (List.mem_append_right _ hx)) hgp)]
    rfl

/-- C21: on a freshly built IR (the memory holds the tree `T` under the head
pointer of the context, every vertex is alone in its group, and the edges of
every compressed vertex are empty) `PM_link_groups` returns, changes no
vertex, and leaves for every vertex `v` of the tree
`group(v).cpmv.np = group(v.np)`, for an inosculation also
`group(v).cpmv.pp = group(v.pp)` and `group(v).cpmv.cp = group(v.cp)`, and for
a wrapper `group(v).cpmv.wp = group(v.wp)`, the group of a NULL pointer being
NULL; a second call of `PM_link_groups` returns the same state. -/
theorem PM_link_groups_links (fuel : Nat) (s : PMState) (c : Nat) (T : VTree) (hc : c ≠ 0)
    (hT : T ≠ VTree.nil) (hhead : (s.cm c).headp = T.root) (hrep : T.Rep s.vm)
    (hnd : T.nodes.Nodup) (hgp : ∀ v ∈ T.nodes, (s.vm v).gp ≠ 0)
    (hinj : ∀ v ∈ T.nodes, ∀ w ∈ T.nodes, (s.vm v).gp = (s.vm w).gp → v = w)
    (hemp : ∀ v ∈ T.nodes, (s.gm (s.vm v).gp).cpmv.np = 0 ∧
      (s.gm (s.vm v).gp).cpmv.pp = 0 ∧ (s.gm (s.vm v).gp).cpmv.cp = 0)
    (hfuel : T.size + 1 ≤ fuel) :
    ∃ s', PM_link_groups fuel s c = some s' ∧ s'.vm = s.vm ∧
      (∀ v ∈ T.nodes,
        (s'.gm (s.vm v).gp).cpmv.np = PMV_gp_of s.vm (s.vm v).np ∧
        ((s.vm v).type = PMV_insc →
          (s'.gm (s.vm v).gp).cpmv.pp = PMV_gp_of s.vm (s.vm v).pp ∧
          (s'.gm (s.vm v).gp).cpmv.cp = PMV_gp_of s.vm (s.vm v).cp) ∧
        ((s.vm v).type = PMV_wrap →
          (s'.gm (s.vm v).gp).cpmv.pp = PMV_gp_of s.vm (s.vm v).wp)) ∧
      PM_link_groups fuel s' c = some s' := by
  obtain ⟨s', h, p1, p2, p3, p4, p5⟩ :=
    link_groups_fresh T fuel s ⟨hrep, hnd, hgp, hinj, hemp⟩ hfuel
  refine ⟨s', ?_, p1, ?_, ?_⟩
  · unfold PM_link_groups
    rw [if_neg hc, hhead, h]
    rfl
  · intro v hv
    have := p5 v hv
    unfold LinkedAt at this
    rw [p1] at this
    exact this
  · have hsz := VTree.size_pos hT
    obtain ⟨f, rfl⟩ : ∃ f, fuel = f + 2 := ⟨fuel - 2, by omega⟩
    unfold PM_link_groups
    rw [if_neg hc, p2, hhead,
      link_groups_linked T f s' hT (by rw [p1]; exact hrep) (by rw [p1]; exact hgp)
        (p5 _ (VTree.root_mem_nodes hT))]
    rfl

theorem pm_example_tree_nodes : pm_example_tree.nodes = [1, 2, 3] := rfl

theorem PM_link_groups_links_witness :
    ∃ s', PM_link_groups 4 pm_example_built 1 = some s' ∧ s'.vm = pm_example_built.vm ∧
      (∀ v ∈ pm_example_tree.nodes,
        (s'.gm (pm_example_built.vm v).gp).cpmv.np =
          PMV_gp_of pm_example_built.vm (pm_example_built.vm v).np ∧
        ((pm_example_built.vm v).type = PMV_insc →
          (s'.gm (pm_example_built.vm v).gp).cpmv.pp =
            PMV_gp_of pm_example_built.vm (pm_example_built.vm v).pp ∧
          (s'.gm (pm_example_built.vm v).gp).cpmv.cp =
            PMV_gp_of pm_example_built.vm (pm_example_built.vm v).cp) ∧
        ((pm_example_built.vm v).type = PMV_wrap →
          (s'.gm (pm_example_built.vm v).gp).cpmv.pp =
            PMV_gp_of pm_example_built.vm (pm_example_built.vm v).wp)) ∧
      PM_link_groups 4 s' 1 = some s' :=
  PM_link_groups_links 4 pm_example_built 1 pm_example_tree (by decide) (by decide) rfl
    pm_example_tree_Rep (by decide) (by decide) (by decide) (by decide) (by decide)

/-- The statement `if (!gp->cpmv.x) gp->cpmv.x = _link_groups(p);` writes
edges of compressed vertices only. -/
theorem link_groups_edge_frame (link : PMState → Nat → Option (PMState × Nat))
    (get : CPMV → Nat) (set : PMVG → Nat → PMVG) {s s' : PMState} {gp p : Nat}
    (hsn : ∀ g r, (set g r).noedge = g.noedge)
    (hlink : ∀ s1 r, link s p = some (s1, r) →
      s1.vm = s.vm ∧ s1.cm = s.cm ∧ ∀ g, (s1.gm g).noedge = (s.gm g).noedge)
    (h : link_groups_edge link get set s gp p = some s') :
    s'.vm = s.vm ∧ s'.cm = s.cm ∧ ∀ g, (s'.gm g).noedge = (s.gm g).noedge := by
  unfold link_groups_edge at h
  split at h
  · split at h
    · exact absurd h (by simp)
    · next s1 r h1 =>
      obtain ⟨p1, p2, p3⟩ := hlink s1 r h1
      simp only [Option.some.injEq] at h
      subst h
      refine ⟨p1, p2, fun g => ?_⟩
      show (store s1.gm gp _ g).noedge = _
      by_cases hg : g = gp
      · subst hg
        rw [store_same, hsn]
        exact p3 g
      · rw [store_other _ _ _ _ hg]
        exact p3 g
  · simp only [Option.some.injEq] at h
    subst h
    exact ⟨rfl, rfl, fun _ => rfl⟩

/-- The function `_link_groups` writes edges of compressed vertices only. -/
theorem link_groups_frame : ∀ (fuel : Nat) (s s' : PMState) (vp r : Nat),
    link_groups fuel s vp = some (s', r) →
    s'.vm = s.vm ∧ s'.cm = s.cm ∧ ∀ g, (s'.gm g).noedge = (s.gm g).noedge := by
  intro fuel
  induction fuel with
  | zero => intro s s' vp r h; exact absurd h (by simp [link_groups])
  | succ f ih =>
    intro s s' vp r h
    have hl : ∀ (s0 : PMState) (p : Nat) (s1 : PMState) (r1 : Nat),
        (fun s1 p => link_groups f s1 p) s0 p = some (s1, r1) →
        s1.vm = s0.vm ∧ s1.cm = s0.cm ∧ ∀ g, (s1.gm g).noedge = (s0.gm g).noedge :=
      fun s0 p s1 r1 h1 => ih s0 s1 p r1 h1
    change link_groups_body (fun s1 p => link_groups f s1 p) s vp = some (s', r) at h
    unfold link_groups_body at h
    split at h
    · simp only [Option.some.injEq, Prod.mk.injEq] at h
      obtain ⟨h, _⟩ := h
      subst h
      exact ⟨rfl, rfl, fun _ => rfl⟩
    split at h
    · exact absurd h (by simp)
    split at h
    · exact absurd h (by simp)
    simp only [] at h
    split at h
    · exact absurd h (by simp)
    next s4 hsw =>
    have hs4 : s4.vm = s.vm ∧ s4.cm = s.cm ∧ ∀ g, (s4.gm g).noedge = (s.gm g).noedge := by
      split at hsw
      · split at hsw
        · exact absurd hsw (by simp)
        · next s2 h2 =>
          obtain ⟨a1, a2, a3⟩ := link_groups_edge_frame _ CPMV.pp PMVG.with_cpp (fun _ _ => rfl) (hl s _) h2
          obtain ⟨b1, b2, b3⟩ := link_groups_edge_frame _ CPMV.cp PMVG.with_ccp (fun _ _ => rfl) (hl s2 _) hsw
          exact ⟨b1.trans a1, b2.trans a2, fun g => (b3 g).trans (a3 g)⟩
      · split at hsw
        · exact link_groups_edge_frame _ CPMV.pp PMVG.with_cpp (fun _ _ => rfl) (hl s _) hsw
        · simp only [Option.some.injEq] at hsw
          subst hsw
          exact ⟨rfl, rfl, fun _ => rfl⟩
    split at h
    · exact absurd h (by simp)
    next s5 h5 =>
    obtain ⟨b1, b2, b3⟩ := link_groups_edge_frame _ CPMV.np PMVG.with_cnp (fun _ _ => rfl) (hl s4 _) h5
    simp only [Option.some.injEq, Prod.mk.injEq] at h
    obtain ⟨h, _⟩ := h
    subst h
    exact ⟨b1.trans hs4.1, b2.trans hs4.2.1, fun g => (b3 g).trans (hs4.2.2 g)⟩

/-- The loop of `ElemCtx_assign_idx` writes indices only. -/
theorem ElemCtx_assign_idx_loop_frame : ∀ (fuel : Nat) (gm gm' : Nat → PMVG) (ep : Nat)
    (idx : Int), ElemCtx_assign_idx_loop fuel gm ep idx = some gm' →
    ∀ g, (gm' g).cpmv = (gm g).cpmv ∧ (gm' g).next_p = (gm g).next_p := by
  intro fuel
  induction fuel with
  | zero => intro gm gm' ep idx h; exact absurd h (by simp [ElemCtx_assign_idx_loop])
  | succ f ih =>
    intro gm gm' ep idx h g
    unfold ElemCtx_assign_idx_loop at h
    split at h
    · simp only [Option.some.injEq] at h
      subst h
      exact ⟨rfl, rfl⟩
    · have := ih _ _ _ _ h g
      by_cases hg : g = ep
      · subst hg
        rw [store_same] at this
        exact this
      · rw [store_other _ _ _ _ hg] at this
        exact this

/-- The loop that fills the array `pmvgl` from the index `i` on leaves the
records in front of `i` as they are. -/
theorem pmvg_ctx_to_file_loop_frame (gm : Nat → PMVG) : ∀ (fuel ep i : Nat)
    (l l' : List PMVG_pckd), pmvg_ctx_to_file_loop gm fuel ep i l = some l' →
    ∀ j, j < i → l'[j]? = l[j]? := by
  intro fuel
  induction fuel with
  | zero => intro ep i l l' h; exact absurd h (by simp [pmvg_ctx_to_file_loop])
  | succ f ih =>
    intro ep i l l' h j hj
    unfold pmvg_ctx_to_file_loop at h
    split at h
    · simp only [Option.some.injEq] at h
      subst h
      rfl
    split at h
    · exact absurd h (by simp)
    simp only [] at h
    split at h
    · exact absurd h (by simp)
    · rw [ih _ _ _ _ h j (by omega)]
      rw [List.getElem?_set_ne (by omega)]

theorem le_bytes_length : ∀ (n x : Nat), (le_bytes n x).length = n := by
  intro n
  induction n with
  | zero => intro x; rfl
  | succ k ih => intro x; simp only [le_bytes, List.length_cons, ih]

/-- The bytes 9 to 16 of the file that `_pmvg_ctx_to_file` writes, for a
context whose first group is a segment group: they are the bytes that
`malloc` left in the members `pi` and `ci` of the first record. -/
theorem pmvg_ctx_to_file_first {junk : Nat → PMVG_pckd} {fuel : Nat} {s s' : PMState}
    {ctx : Nat} {out : List Nat}
    (h : pmvg_ctx_to_file junk fuel s ctx = some (s', out))
    (hne : (s.cm ctx).gctx.elem_dll ≠ 0)
    (hseg : (s.gm (s.cm ctx).gctx.elem_dll).cpmv.type = PMV_seg) :
    (out.drop 9).take 8 =
      le_bytes 4 (unsigned_of_int (junk 0).pi) ++ le_bytes 4 (unsigned_of_int (junk 0).ci) := by
  unfold pmvg_ctx_to_file at h
  split at h
  · exact absurd h (by simp)
  next s1 h1 =>
  split at h
  · exact absurd h (by simp)
  next s2 h2 =>
  simp only [] at h
  split at h
  · exact absurd h (by simp)
  next pmvgl h3 =>
  simp only [Option.some.injEq, Prod.mk.injEq] at h
  obtain ⟨_, hout⟩ := h
  -- the state after the two passes
  have hc0 : ctx ≠ 0 := by
    intro e
    unfold ElemCtx_assign_idx at h1
    rw [if_pos e] at h1
    exact absurd h1 (by simp)
  have f1 : s1.cm = s.cm ∧ ∀ g, (s1.gm g).cpmv = (s.gm g).cpmv ∧
      (s1.gm g).next_p = (s.gm g).next_p := by
    unfold ElemCtx_assign_idx at h1
    rw [if_neg hc0] at h1
    split at h1
    · exact absurd h1 (by simp)
    · next gm hg =>
      simp only [Option.some.injEq] at h1
      subst h1
      exact ⟨rfl, ElemCtx_assign_idx_loop_frame _ _ _ _ _ hg⟩
  have f2 : s2.cm = s1.cm ∧ ∀ g, (s2.gm g).noedge = (s1.gm g).noedge := by
    unfold PM_link_groups at h2
    rw [if_neg hc0] at h2
    cases hl : link_groups fuel s1 (s1.cm ctx).headp with
    | none => rw [hl] at h2; exact absurd h2 (by simp)
    | some r =>
      rw [hl] at h2
      simp only [Option.map_some', Option.some.injEq] at h2
      subst h2
      obtain ⟨_, b2, b3⟩ := link_groups_frame _ _ _ _ _ hl
      exact ⟨b2, b3⟩
  have hcm : s2.cm = s.cm := f2.1.trans f1.1
  have hty : (s2.gm (s.cm ctx).gctx.elem_dll).cpmv.type = PMV_seg := by
    rw [(PMVG.noedge_fields (f2.2 _)).2.2.2.2.2.1, (f1.2 _).1, hseg]
  rw [hcm] at h3
  -- the first run of the loop
  cases fuel with
  | zero => exact absurd h3 (by simp [pmvg_ctx_to_file_loop])
  | succ f =>
    unfold pmvg_ctx_to_file_loop at h3
    rw [if_neg hne] at h3
    split at h3
    · exact absurd h3 (by simp)
    next r0 hr0 =>
    simp only [hty, if_true] at h3
    have hsz : 0 < (s.cm ctx).gctx.size := by
      by_contra hz
      have : (s.cm ctx).gctx.size = 0 := by omega
      rw [this] at hr0
      exact absurd hr0 (by simp)
    have e0 : r0 = junk 0 := by
      rw [List.getElem?_map, List.getElem?_range hsz] at hr0
      simp only [Option.map_some', Option.some.injEq] at hr0
      exact hr0.symm
    have hfirst := pmvg_ctx_to_file_loop_frame _ _ _ _ _ _ h3 0 (by omega)
    rw [List.getElem?_set_self (by
      rw [List.length_map, List.length_range]; exact hsz)] at hfirst
    cases pmvgl with
    | nil => exact absurd hfirst (by simp)
    | cons x tl =>
      simp only [List.getElem?_cons_zero, Option.some.injEq] at hfirst
      rw [← hout, hfirst, e0]
      simp only [List.map_cons, List.flatten_cons, PMVG_pckd.bytes, le_bytes, List.cons_append,
        List.nil_append, List.append_assoc, List.drop_succ_cons, List.drop_zero,
        List.take_succ_cons, List.take_zero]


/-! ## The builder and the miner on example models -/

/-- C28 (code defect): the bytes 9 to 16 of the block of the groups that
`_pmvg_ctx_to_file` writes, which `au_export_model` puts into the file through
`PMContext_to_file`, are not a function of the model. For every context whose
first group is a segment group they are the bytes that `malloc` left in the
members `pi` and `ci` of the first record of the array `pmvgl`: the case
`PMV_seg` of the `switch` writes none of the 8 type-specific bytes (and the
case `PMV_wrap` only the first 4). -/
theorem pmvg_ctx_to_file_writes_malloc_bytes (junk : Nat → PMVG_pckd) (fuel : Nat)
    (s s' : PMState) (ctx : Nat) (out : List Nat)
    (h : pmvg_ctx_to_file junk fuel s ctx = some (s', out))
    (hne : (s.cm ctx).gctx.elem_dll ≠ 0)
    (hseg : (s.gm (s.cm ctx).gctx.elem_dll).cpmv.type = PMV_seg) :
    (out.drop 9).take 8 =
      le_bytes 4 (unsigned_of_int (junk 0).pi) ++ le_bytes 4 (unsigned_of_int (junk 0).ci) :=
  pmvg_ctx_to_file_first h hne hseg

theorem pmvg_ctx_to_file_writes_malloc_bytes_witness :
    (∃ s' out,
      pmvg_ctx_to_file (fun _ => { type := 0, ni := 0, pi := 5, ci := 7 }) 5 pm_example 1 =
        some (s', out) ∧
      (out.drop 9).take 8 = [5, 0, 0, 0, 7, 0, 0, 0]) ∧
    (pmvg_ctx_to_file (fun _ => { type := 0, ni := 0, pi := 0, ci := 0 }) 5 pm_example 1).map
        (fun r => r.2) ≠
      (pmvg_ctx_to_file (fun _ => { type := 0, ni := 0, pi := 5, ci := 7 }) 5 pm_example 1).map
        (fun r => r.2) := by
  refine ⟨?_, by decide!⟩
  have h : (pmvg_ctx_to_file (fun _ => { type := 0, ni := 0, pi := 5, ci := 7 }) 5 pm_example
      1).isSome = true := by decide!
  obtain ⟨⟨s', out⟩, hr⟩ := Option.isSome_iff_exists.mp h
  exact ⟨s', out, hr,
    pmvg_ctx_to_file_writes_malloc_bytes _ 5 pm_example s' 1 out hr (by decide) (by decide)⟩

/-- C30 (code defect): a call of `PMV_find_similar_stem` on two distinct
non-null vertices that returns leaves no flag at all on `v1` and `v2`: the two
statements `flags &= !PMV_SBIT_commonstem_start_x` use the logical negation,
whose value is 0, so `evaluated` and the cached `is_symmetric` are cleared
with the two stem-start bits. -/
theorem PMV_find_similar_stem_clears_flags (fuel : Nat) (m m' : PMVMem) (v1 v2 e1 e2 : Nat)
    (cs : Bool) (h1 : v1 ≠ 0) (h2 : v2 ≠ 0) (hne : v1 ≠ v2)
    (h : PMV_find_similar_stem fuel m v1 v2 cs = some (m', e1, e2)) :
    (m' v1).flags = 0 ∧ (m' v2).flags = 0 := by
  cases fuel with
  | zero => exact absurd h (by simp [PMV_find_similar_stem])
  | succ f =>
    change PMV_find_similar_stem_body _ m v1 v2 cs = some (m', e1, e2) at h
    unfold PMV_find_similar_stem_body at h
    rw [if_neg (fun hh => hne hh.2),
      if_neg (by
        intro hh
        rcases hh with hh | hh | hh
        · exact h1 hh.1
        · exact h2 hh.2
        · exact hne hh)] at h
    simp only [] at h
    split at h
    · exact absurd h (by simp)
    · simp only [Option.some.injEq, Prod.mk.injEq] at h
      obtain ⟨hm, _, _⟩ := h
      subst hm
      rw [lnot_start_1, lnot_start_2]
      constructor
      · rw [store_other _ _ _ _ hne, store_same]
        exact Nat.and_zero _
      · rw [store_same]
        exact Nat.and_zero _

theorem PMV_find_similar_stem_clears_flags_witness :
    (pm_stem3.vm 1).flags = PMV_SBIT_evaluated ∧ (pm_stem3.vm 2).flags = PMV_SBIT_evaluated ∧
    ∃ m' e1 e2, PMV_find_similar_stem 12 pm_stem3.vm 1 2 false = some (m', e1, e2) ∧
      (m' 1).flags = 0 ∧ (m' 2).flags = 0 := by
  refine ⟨by decide!, by decide!, ?_⟩
  have h : (PMV_find_similar_stem 12 pm_stem3.vm 1 2 false).isSome = true := by decide!
  obtain ⟨⟨m', e1, e2⟩, hr⟩ := Option.isSome_iff_exists.mp h
  exact ⟨m', e1, e2, hr,
    PMV_find_similar_stem_clears_flags 12 pm_stem3.vm m' 1 2 e1 e2 false (by decide) (by decide)
      (by decide) hr⟩

/-- C29 (code defect): on a model with an empty fork the builder does not
produce the IR of the tasks that follow the matching `fork_end`. For start,
empty fork, `fork_end`, calc, end it aborts, while `_build_graph` from the
task after the `fork_end` returns the segment vertex 1 with `np == NULL` and
stops at the task 4, the end. With a join and one more calc behind the first
calc the builder returns, but the vertex 1 has got the second segment 2 as
`np`: behind the stem that `_build_graph` returns for the task after the
`fork_end` (the vertex 1 with `np == NULL`, stopping at the join 4) the branch
of the empty fork steps over the terminating task and overwrites `nv->np`
with the result of one more call of `_build_graph`. -/
theorem create_insc_empty_fork_skips :
    (pm_build mp_empty_fork).isNone = true ∧
    (pm_build_from mp_empty_fork 3).map
      (fun r => [r.2, (r.1.s.vm 1).type, (r.1.s.vm 1).np, r.1.cti, r.1.cnt]) =
      some [1, PMV_seg, 0, 4, 1] ∧
    (pm_build mp_empty_fork_join).map
      (fun r => [(r.1.s.cm 1).headp, (r.1.s.vm 1).type, (r.1.s.vm 1).np, (r.1.s.vm 2).type,
        (r.1.s.vm 2).np, r.1.cti, r.1.cnt]) = some [1, PMV_seg, 2, PMV_seg, 0, 6, 2] ∧
    (pm_build_from mp_empty_fork_join 3).map
      (fun r => [r.2, (r.1.s.vm 1).type, (r.1.s.vm 1).np, r.1.cti, r.1.cnt]) =
      some [1, PMV_seg, 0, 4, 1] := by
  decide!

/-- C25 (counterexample): the inosculation of the model with the parent
branch calc(1), calc(1) and the child branch calc(2), calc(2), calc(1), calc(1)
is symmetric. Each branch is one segment vertex, and `PMV_is_similar` does not
look into a segment. -/
theorem PMV_insc_is_symm_of_asymm_model :
    (PMV_insc_is_symm 20 pm_asymm.s.vm 1).map (fun r => r.2) = some PMV_SBIT_INSC_is_sym ∧
    PMV_SBIT_INSC_is_sym ≠ 0 := by
  decide!

/-- C25 (corrected): for the model of a fork whose parent branch is calc(1),
calc(1) and whose child branch is calc(2), calc(2), calc(1), calc(1) the
builder returns 0 and makes three vertices: the inosculation 1 with the
segment vertex 2 (a raw segment of 2 tasks) as `pp` and the segment vertex 3
(a raw segment of 4 tasks) as `cp`, both without `np`. The inosculation is
symmetric: `PMV_insc_is_symm` returns `PMV_SBIT_INSC_is_sym`. So
`GM_mine_for_asymm` merges nothing: it returns, the three vertices keep their
three groups 11, 12, 13 with one member each, and the context keeps 3
groups. -/
theorem GM_mine_for_asymm_symmetric :
    (pm_build mp_asymm).map
      (fun r => (r.2, [(r.1.s.cm 1).headp, (r.1.s.vm 1).type, (r.1.s.vm 1).pp, (r.1.s.vm 1).cp,
        (r.1.s.vm 1).np, (r.1.s.vm 2).type, (r.1.s.vm 2).np, (r.1.s.vm 3).type,
        (r.1.s.vm 3).np, task_cnt_tot (r.1.segm 22), task_cnt_tot (r.1.segm 23), r.1.cnt])) =
      some (0, [1, PMV_insc, 2, 3, 0, PMV_seg, 0, PMV_seg, 0, 2, 4, 3]) ∧
    (PMV_insc_is_symm 20 pm_asymm.s.vm 1).map (fun r => r.2) = some PMV_SBIT_INSC_is_sym ∧
    (GM_mine_for_asymm 0 4 14 20 pm_asymm.s 1).map
      (fun s => [(s.vm 1).gp, (s.vm 2).gp, (s.vm 3).gp, (s.cm 1).gctx.size,
        (s.gm 11).vpl.blk_cnt, (s.gm 12).vpl.blk_cnt, (s.gm 13).vpl.blk_cnt]) =
      some [11, 12, 13, 3, 1, 1, 1] := by
  decide!

/-- C24 (counterexample): after `GM_mine_recurrence` on the stem of three
segments the three wrappers 4, 5, 6 belong to three different groups. -/
theorem GM_mine_recurrence_stem3_wrapper_groups :
    (GM_mine_recurrence 0 (fun k => 4 + k) (fun k => 14 + k) 12 pm_stem3 1).map
      (fun g => [(g.s.vm 4).type, (g.s.vm 5).type, (g.s.vm 6).type, (g.s.vm 4).gp,
        (g.s.vm 5).gp, (g.s.vm 6).gp]) =
      some [PMV_wrap, PMV_wrap, PMV_wrap, 14, 15, 16] := by
  decide!

/-- C24 (corrected): for the stem of three segments 1, 2, 3 (groups 11, 12,
13) `GM_mine_recurrence` returns after three calls of `PMV_create`.
Afterwards the stem is the three new wrappers 4, 5, 6 (the head pointer is 4,
`4->np == 5`, `5->np == 6`, `6->np == NULL`), each wrapper wraps one segment
(`wp` is 1, 2, 3, and the `np` of every segment is NULL) and is marked
`GM_RECURRING_ADDED`, and the three segments belong to the one group 11, whose
member list is 1, 2, 3. The three wrappers belong to three groups, 14, 15 and
16: `PMV_merge_r(vp, np)` is called for the wrapped segments, never for the
wrappers. The context has 4 groups. -/
theorem GM_mine_recurrence_stem3 :
    (GM_mine_recurrence 0 (fun k => 4 + k) (fun k => 14 + k) 12 pm_stem3 1).map
      (fun g => [(g.s.cm 1).headp, (g.s.vm 4).type, (g.s.vm 4).wp, (g.s.vm 4).np,
        (g.s.vm 5).type, (g.s.vm 5).wp, (g.s.vm 5).np,
        (g.s.vm 6).type, (g.s.vm 6).wp, (g.s.vm 6).np,
        (g.s.vm 1).np, (g.s.vm 2).np, (g.s.vm 3).np,
        (g.s.vm 1).gp, (g.s.vm 2).gp, (g.s.vm 3).gp,
        (g.s.vm 4).gp, (g.s.vm 5).gp, (g.s.vm 6).gp, (g.s.cm 1).gctx.size,
        g.ext 4, g.ext 5, g.ext 6, g.cnt] ++
        (g.s.gm 11).vpl.blk_l.take (g.s.gm 11).vpl.blk_cnt) =
      some [4, PMV_wrap, 1, 5, PMV_wrap, 2, 6, PMV_wrap, 3, 0, 0, 0, 0, 11, 11, 11, 14, 15, 16, 4,
        GM_RECURRING_ADDED, GM_RECURRING_ADDED, GM_RECURRING_ADDED, 3, 1, 2, 3] := by
  decide!


/-! ## The clusters of first fit (seg_cluster.c) -/

theorem ArllRep.cnt_le {α : Type} {a : arll α} {xs : List α} (h : ArllRep a xs) :
    a.blk_cnt ≤ a.blk_l.length := by
  obtain ⟨h1, h2, _, _, _⟩ := h
  have := congrArg List.length h1
  unfold arll.members at this
  rw [List.length_take, ← h2] at this
  omega

theorem ArllRep.getElem? {α : Type} {a : arll α} {xs : List α} (h : ArllRep a xs) (i : Nat)
    (hi : i < xs.length) : a.blk_l[i]? = xs[i]? := by
  obtain ⟨h1, h2, _, _, _⟩ := h
  rw [← h1]
  unfold arll.members
  rw [List.getElem?_take_of_lt (by omega)]

theorem ArllRep_curi {α : Type} {a : arll α} {xs : List α} (k : Nat) (h : ArllRep a xs) :
    ArllRep { a with blk_curi := k } xs := h

theorem ArllRep_rewind {α : Type} {a : arll α} {xs : List α} (h : ArllRep a xs) :
    ArllRep (arll_rewind a) xs := h

/-- `arll_next` in front of the end of the list. -/
theorem arll_next_lt {α : Type} {a : arll α} {xs : List α} (h : ArllRep a xs)
    (hi : a.blk_curi < xs.length) :
    arll_next a = (xs[a.blk_curi]?, { a with blk_curi := a.blk_curi + 1 }) := by
  unfold arll_next
  rw [if_neg (by rw [h.2.1]; omega), h.getElem? _ hi]

/-- `arll_next` at the end of the list. -/
theorem arll_next_end {α : Type} {a : arll α} {xs : List α} (h : ArllRep a xs)
    (hi : a.blk_curi = xs.length) : arll_next a = (none, a) := by
  unfold arll_next
  rw [if_pos (by rw [h.2.1]; exact hi)]

/-- `arll_push` on a list that holds fewer than 2^25 blocks of at most 16
bytes: the block is appended, the cursor stays. -/
theorem arll_push_rep {α : Type} (junk : α) (blk_siz : Nat) {a : arll α} {xs : List α} (x : α)
    (h0 : 0 < blk_siz) (h16 : blk_siz ≤ 16) (h : ArllRep a xs) (hlen : xs.length < 33554432) :
    ∃ a', arll_push junk blk_siz a x = some ((xs.length : Int), a') ∧ ArllRep a' (xs ++ [x]) ∧
      a'.blk_curi = a.blk_curi := by
  have hle := h.cnt_le
  obtain ⟨h1, h2, h3, h4, h5⟩ := h
  have hio : int_of_unsigned a.blk_cnt = (xs.length : Int) := by
    unfold int_of_unsigned
    rw [h2, Nat.mod_eq_of_lt (by omega), if_pos (by omega)]
  unfold arll_push
  by_cases hc : a.blk_cnt = a.blk_lsiz
  · rw [if_pos hc]
    have e2 : a.blk_lsiz * 2 % 4294967296 = a.blk_lsiz * 2 := Nat.mod_eq_of_lt (by omega)
    have hcells : arll_realloc_cells junk blk_siz a.blk_l (a.blk_lsiz * 2) =
        realloc_cells junk a.blk_l (a.blk_lsiz * 2) := by
      unfold arll_realloc_cells
      rw [Nat.mod_eq_of_lt (by
        have : a.blk_lsiz * 2 * blk_siz ≤ a.blk_lsiz * 2 * 16 := Nat.mul_le_mul_left _ h16
        omega), Nat.mul_div_cancel _ h0]
    rw [e2, hcells]
    dsimp only
    rw [if_neg (by rw [length_realloc_cells]; omega), hio, Nat.mod_eq_of_lt (by omega)]
    refine ⟨_, rfl, ⟨?_, ?_, ?_, ?_, ?_⟩, rfl⟩
    · show List.take (a.blk_cnt + 1) _ = _
      rw [take_set_succ _ _ _ (by
        rw [length_realloc_cells]; omega), take_realloc_cells _ _ _ _ hle (by omega)]
      exact congrArg (· ++ [x]) h1
    · show a.blk_cnt + 1 = _
      rw [List.length_append, h2]
      rfl
    · show (List.set _ _ _).length = _
      rw [List.length_set, length_realloc_cells]
    · show 0 < a.blk_lsiz * 2
      omega
    · show a.blk_lsiz * 2 ≤ 2 * (a.blk_cnt + 1) + 1
      omega
  · rw [if_neg hc, if_neg (by omega), hio, Nat.mod_eq_of_lt (by omega)]
    refine ⟨_, rfl, ⟨?_, ?_, ?_, h4, ?_⟩, rfl⟩
    · show List.take (a.blk_cnt + 1) _ = _
      rw [take_set_succ _ _ _ (by omega)]
      exact congrArg (· ++ [x]) h1
    · show a.blk_cnt + 1 = _
      rw [List.length_append, h2]
      rfl
    · show (List.set _ _ _).length = _
      rw [List.length_set, h3]
    · show a.blk_lsiz ≤ 2 * (a.blk_cnt + 1) + 1
      omega

/-- `arll_construct(blk_siz, 1)`: an empty list with one cell. -/
theorem arll_construct_rep {α : Type} (junk : α) (blk_siz : Nat) (h0 : 0 < blk_siz)
    (h16 : blk_siz ≤ 16) :
    ∃ a, arll_construct junk blk_siz 1 = some a ∧ ArllRep a ([] : List α) ∧ a.blk_curi = 0 := by
  unfold arll_construct
  rw [if_neg (by omega)]
  refine ⟨_, rfl, ⟨rfl, rfl, ?_, Nat.one_pos, Nat.le_refl _⟩, rfl⟩
  show (arll_realloc_cells junk blk_siz [] 1).length = 1
  unfold arll_realloc_cells
  rw [length_realloc_cells, Nat.one_mul, Nat.mod_eq_of_lt (by omega), Nat.div_self h0]


/-! ### First fit, as a function on lists -/

theorem first_fit_add_ne_nil (fits : Nat → Nat → Bool) (v : Nat) : ∀ (cs : List (List Nat)),
    (∀ c ∈ cs, c ≠ []) → ∀ c ∈ first_fit_add fits cs v, c ≠ [] := by
  intro cs
  induction cs with
  | nil =>
    intro _ c hc
    simp only [first_fit_add, List.mem_singleton] at hc
    rw [hc]; exact List.cons_ne_nil _ _
  | cons d ds ih =>
    intro h c hc
    unfold first_fit_add at hc
    split at hc
    · rcases List.mem_cons.mp hc with e | hc
      · rw [e]; exact fun e' => List.cons_ne_nil _ _ (List.append_eq_nil.mp e').2
      · exact h c (List.mem_cons_of_mem _ hc)
    · rcases List.mem_cons.mp hc with e | hc
      · rw [e]; exact h d (List.mem_cons_self _ _)
      · exact ih (fun c hc => h c (List.mem_cons_of_mem _ hc)) c hc

theorem first_fit_add_perm (fits : Nat → Nat → Bool) (v : Nat) : ∀ (cs : List (List Nat)),
    List.Perm (first_fit_add fits cs v).flatten (cs.flatten ++ [v]) := by
  intro cs
  induction cs with
  | nil => simp [first_fit_add]
  | cons d ds ih =>
    unfold first_fit_add
    split
    · simp only [List.flatten_cons, List.append_assoc]
      exact List.Perm.append_left d List.perm_append_comm
    · simp only [List.flatten_cons, List.append_assoc]
      exact List.Perm.append_left d ih

theorem first_fit_add_length (fits : Nat → Nat → Bool) (v : Nat) : ∀ (cs : List (List Nat)),
    (first_fit_add fits cs v).length ≤ cs.length + 1 := by
  intro cs
  induction cs with
  | nil => simp [first_fit_add]
  | cons d ds ih =>
    unfold first_fit_add
    split
    · simp
    · simp only [List.length_cons]; omega

/-- A property of clusters that holds for the clusters before the insertion,
for a cluster with `v` appended and for the cluster of `v` alone holds for
the clusters after the insertion. -/
theorem first_fit_add_forall (fits : Nat → Nat → Bool) (v : Nat) (Q R : List Nat → Prop)
    (hQR : ∀ c, Q c → R c) (hQa : ∀ c, Q c → R (c ++ [v])) (hQv : R [v]) :
    ∀ (cs : List (List Nat)), (∀ c ∈ cs, Q c) → ∀ c ∈ first_fit_add fits cs v, R c := by
  intro cs
  induction cs with
  | nil =>
    intro _ c hc
    simp only [first_fit_add, List.mem_singleton] at hc
    rw [hc]; exact hQv
  | cons d ds ih =>
    intro h c hc
    unfold first_fit_add at hc
    split at hc
    · rcases List.mem_cons.mp hc with e | hc
      · rw [e]; exact hQa d (h d (List.mem_cons_self _ _))
      · exact hQR c (h c (List.mem_cons_of_mem _ hc))
    · rcases List.mem_cons.mp hc with e | hc
      · rw [e]; exact hQR d (h d (List.mem_cons_self _ _))
      · exact ih (fun c hc => h c (List.mem_cons_of_mem _ hc)) c hc

theorem headD_append_of_ne_nil {c : List Nat} (hc : c ≠ []) (v : Nat) :
    (c ++ [v]).headD 0 = c.headD 0 := by
  cases c with
  | nil => exact absurd rfl hc
  | cons x xs => rfl

/-- The heads of the clusters that were there before are the heads of the
clusters after the insertion, in the same order and at the front. -/
theorem first_fit_add_within (fits : Nat → Nat → Bool) (v : Nat) : ∀ (cs : List (List Nat)),
    (∀ c ∈ cs, c ≠ []) → (∀ c ∈ cs, ∀ m ∈ c.tail, fits (c.headD 0) m = true) →
    ∀ c ∈ first_fit_add fits cs v, ∀ m ∈ c.tail, fits (c.headD 0) m = true := by
  intro cs
  induction cs with
  | nil =>
    intro _ _ c hc m hm
    simp only [first_fit_add, List.mem_singleton] at hc
    rw [hc] at hm
    exact absurd hm (List.not_mem_nil _)
  | cons d ds ih =>
    intro hne h c hc m hm
    have hd := hne d (List.mem_cons_self _ _)
    unfold first_fit_add at hc
    split at hc
    · next hf =>
      rcases List.mem_cons.mp hc with e | hc
      · rw [e] at hm ⊢
        rw [headD_append_of_ne_nil hd]
        cases d with
        | nil => exact absurd rfl hd
        | cons x xs =>
          rcases List.mem_append.mp hm with hm | hm
          · exact h _ (List.mem_cons_self _ _) m hm
          · rw [List.mem_singleton.mp hm]; exact hf
      · exact h c (List.mem_cons_of_mem _ hc) m hm
    · rcases List.mem_cons.mp hc with e | hc
      · rw [e] at hm ⊢; exact h d (List.mem_cons_self _ _) m hm
      · exact ih (fun c hc => hne c (List.mem_cons_of_mem _ hc))
          (fun c hc => h c (List.mem_cons_of_mem _ hc)) c hc m hm

/-- No member of a cluster is equal to the first member of an earlier
cluster: the insertion keeps this. -/
theorem first_fit_add_pairwise (fits : Nat → Nat → Bool) (v : Nat) : ∀ (cs : List (List Nat)),
    (∀ c ∈ cs, c ≠ []) →
    cs.Pairwise (fun c d => ∀ m ∈ d, fits (c.headD 0) m = false) →
    (first_fit_add fits cs v).Pairwise (fun c d => ∀ m ∈ d, fits (c.headD 0) m = false) := by
  intro cs
  induction cs with
  | nil => intro _ _; simp [first_fit_add]
  | cons d ds ih =>
    intro hne h
    have hd := hne d (List.mem_cons_self _ _)
    obtain ⟨h1, h2⟩ := List.pairwise_cons.mp h
    unfold first_fit_add
    split
    · refine List.pairwise_cons.mpr ⟨?_, h2⟩
      intro e he m hm
      rw [headD_append_of_ne_nil hd]
      exact h1 e he m hm
    · next hf =>
      refine List.pairwise_cons.mpr ⟨?_, ih (fun c hc => hne c (List.mem_cons_of_mem _ hc)) h2⟩
      refine first_fit_add_forall fits v (fun e => ∀ m ∈ e, fits (d.headD 0) m = false)
        (fun e => ∀ m ∈ e, fits (d.headD 0) m = false) (fun _ h => h) ?_ ?_ ds h1
      · intro c hc m hm
        rcases List.mem_append.mp hm with hm | hm
        · exact hc m hm
        · rw [List.mem_singleton.mp hm]
          exact Bool.eq_false_iff.mpr hf
      · intro m hm
        rw [List.mem_singleton.mp hm]
        exact Bool.eq_false_iff.mpr hf

/-- The invariant of first fit for the members `l` processed so far. -/
theorem first_fit_props (fits : Nat → Nat → Bool) : ∀ (l : List Nat),
    List.Perm (first_fit fits l).flatten l ∧
    (∀ c ∈ first_fit fits l, c ≠ [] ∧ List.Sublist c l) ∧
    (∀ c ∈ first_fit fits l, ∀ m ∈ c.tail, fits (c.headD 0) m = true) ∧
    (first_fit fits l).Pairwise (fun c d => ∀ m ∈ d, fits (c.headD 0) m = false) := by
  intro l
  induction l using List.reverseRecOn with
  | nil =>
    refine ⟨List.Perm.refl _, ?_, ?_, List.Pairwise.nil⟩
    · intro c hc; exact absurd hc (List.not_mem_nil _)
    · intro c hc; exact absurd hc (List.not_mem_nil _)
  | append_singleton l v ih =>
    obtain ⟨p1, p2, p3, p4⟩ := ih
    have e : first_fit fits (l ++ [v]) = first_fit_add fits (first_fit fits l) v := by
      unfold first_fit
      rw [List.foldl_append]
      rfl
    rw [e]
    have hne : ∀ c ∈ first_fit fits l, c ≠ [] := fun c hc => (p2 c hc).1
    refine ⟨(first_fit_add_perm fits v _).trans (List.Perm.append_right _ p1), ?_,
      first_fit_add_within fits v _ hne p3, first_fit_add_pairwise fits v _ hne p4⟩
    intro c hc
    refine ⟨first_fit_add_ne_nil fits v _ hne c hc, ?_⟩
    refine first_fit_add_forall fits v (fun c => List.Sublist c l)
      (fun c => List.Sublist c (l ++ [v])) ?_ ?_ ?_ _ (fun c hc => (p2 c hc).2) c hc
    · intro c hc
      exact hc.trans (List.sublist_append_left _ _)
    · intro c hc
      exact List.Sublist.append hc (List.Sublist.refl _)
    · exact List.sublist_append_right _ _


/-- A store into a block in use keeps the list a list. -/
theorem ArllRep_set_mid {α : Type} {cl : arll α} {pre post : List α} {a : α} (a' : α) (k : Nat)
    (h : ArllRep cl (pre ++ a :: post)) :
    ArllRep { cl with blk_l := cl.blk_l.set pre.length a', blk_curi := k }
      (pre ++ a' :: post) := by
  obtain ⟨h1, h2, h3, h4, h5⟩ := h
  refine ⟨?_, ?_, ?_, h4, h5⟩
  · show List.take cl.blk_cnt (cl.blk_l.set pre.length a') = _
    rw [List.set_take]
    have h1' : List.take cl.blk_cnt cl.blk_l = pre ++ a :: post := h1
    rw [h1', List.set_append_right _ _ (Nat.le_refl _), Nat.sub_self]
    rfl
  · show cl.blk_cnt = _
    rw [h2]
    simp only [List.length_append, List.length_cons]
  · show (cl.blk_l.set pre.length a').length = _
    rw [List.length_set, h3]

theorem PMV_segp_of_some {st : SCState} {v : Nat} {c : Segcont} (h : PMV_getseg st v = some c) :
    PMV_segp_of st v = c.segp := by
  unfold PMV_segp_of
  rw [h]

/-- The loop of `SegClusterCtx_add` from the cluster under the cursor on: it
is the insertion of first fit into the clusters `csPost` that are left. -/
theorem SegClusterCtx_add_loop_spec (junk : Nat) (compar : Nat → Nat → Option Int)
    (st : SCState) (v : Nat) (hv : ∃ cc, PMV_getseg st v = some cc ∧ cc.segp ≠ 0) :
    ∀ (csPost : List (List Nat)) (asPost asPre : List (arll Nat)) (cl : arll (arll Nat))
      (fuel : Nat),
    ArllRep cl (asPre ++ asPost) → cl.blk_curi = asPre.length →
    List.Forall₂ ArllRep asPost csPost →
    (∀ c ∈ csPost, c ≠ [] ∧ c.length < 33554432 ∧
      ∀ m ∈ c, (∃ mc, PMV_getseg st m = some mc ∧ mc.segp ≠ 0) ∧
        ∃ r, compar (PMV_segp_of st m) (PMV_segp_of st v) = some r) →
    csPost.length + 1 ≤ fuel →
    ∃ cl' b asPost' csPost', SegClusterCtx_add_loop junk compar st v fuel cl = some (cl', b) ∧
      ArllRep cl' (asPre ++ asPost') ∧ List.Forall₂ ArllRep asPost' csPost' ∧
      ((b = true ∧ csPost' = first_fit_add (SegCluster_fits compar st) csPost v) ∨
       (b = false ∧ csPost' = csPost ∧
         first_fit_add (SegCluster_fits compar st) csPost v = csPost ++ [[v]])) := by
  obtain ⟨cc, hcc, hcc0⟩ := hv
  intro csPost
  induction csPost with
  | nil =>
    intro asPost asPre cl fuel hcl hcur hf2 _ hfuel
    cases hf2
    obtain ⟨f, rfl⟩ : ∃ f, fuel = f + 1 := ⟨fuel - 1, by omega⟩
    refine ⟨cl, false, [], [], ?_, hcl, List.Forall₂.nil, Or.inr ⟨rfl, rfl, rfl⟩⟩
    unfold SegClusterCtx_add_loop
    rw [arll_next_end hcl (by rw [hcur, List.append_nil])]
  | cons c cs ih =>
    intro asPost asPre cl fuel hcl hcur hf2 hval hfuel
    obtain ⟨f, rfl⟩ : ∃ f, fuel = f + 1 := ⟨fuel - 1, by simp only [List.length_cons] at hfuel; omega⟩
    cases hf2 with
    | cons ha hrest =>
    rename_i a asRest
    obtain ⟨hcne, hclen, hcm⟩ := hval c (List.mem_cons_self _ _)
    obtain ⟨x, xs, rfl⟩ : ∃ x xs, c = x :: xs := by
      cases c with
      | nil => exact absurd rfl hcne
      | cons x xs => exact ⟨x, xs, rfl⟩
    obtain ⟨⟨mc, hmc, hmc0⟩, r, hr⟩ := hcm x (List.mem_cons_self _ _)
    obtain ⟨sv1, hsv1e⟩ : ∃ sv1 : arll Nat,
        sv1 = { blk_l := a.blk_l, blk_cnt := a.blk_cnt, blk_lsiz := a.blk_lsiz, blk_curi := 1 } :=
      ⟨_, rfl⟩
    have hnext : arll_next cl = (some a, { cl with blk_curi := asPre.length + 1 }) := by
      rw [arll_next_lt hcl (by rw [hcur]; simp), hcur,
        List.getElem?_append_right (Nat.le_refl _), Nat.sub_self, List.getElem?_cons_zero]
    have hnext2 : arll_next (arll_rewind a) = (some x, sv1) := by
      rw [arll_next_lt (ArllRep_rewind ha) (by show 0 < (x :: xs).length; simp), hsv1e]
      simp [arll_rewind]
    have hsv1 : ArllRep sv1 (x :: xs) := by rw [hsv1e]; exact ha
    rw [PMV_segp_of_some hmc, PMV_segp_of_some hcc] at hr
    unfold SegClusterCtx_add_loop
    rw [hnext]
    simp only []
    rw [hnext2]
    simp only []
    rw [hmc]
    simp only []
    rw [if_neg hmc0, hcc]
    simp only []
    rw [if_neg hcc0, hr]
    simp only []
    have hfits : SegCluster_fits compar st x v = decide (r ≠ 0) := by
      unfold SegCluster_fits
      rw [PMV_segp_of_some hmc, PMV_segp_of_some hcc, hr]
    rw [hcur]
    by_cases hr0 : r ≠ 0
    · rw [if_pos hr0]
      obtain ⟨sv2, hp, hsv2, _⟩ :=
        arll_push_rep junk sizeof_PMVp v (by decide) (by decide) hsv1 hclen
      rw [hp]
      simp only []
      refine ⟨_, true, sv2 :: asRest, (x :: xs ++ [v]) :: cs, rfl, ?_,
        List.Forall₂.cons hsv2 hrest, Or.inl ⟨rfl, ?_⟩⟩
      · exact ArllRep_set_mid sv2 _ hcl
      · unfold first_fit_add
        rw [show (x :: xs).headD 0 = x from rfl, hfits, if_pos (by simpa using hr0)]
    · rw [if_neg hr0]
      have hcl1 := ArllRep_set_mid sv1 (asPre.length + 1) hcl
      rw [show asPre ++ sv1 :: asRest = (asPre ++ [sv1]) ++ asRest by
        rw [List.append_assoc]; rfl] at hcl1
      obtain ⟨cl', b, asPost', csPost', h', q1, q2, q3⟩ :=
        ih asRest (asPre ++ [sv1]) _ f hcl1
          (by show asPre.length + 1 = _; rw [List.length_append]; rfl) hrest
          (fun c hc => hval c (List.mem_cons_of_mem _ hc))
          (by simp only [List.length_cons] at hfuel; omega)
      refine ⟨cl', b, sv1 :: asPost', (x :: xs) :: csPost', h', ?_,
        List.Forall₂.cons hsv1 q2, ?_⟩
      · rw [List.append_assoc] at q1
        exact q1
      · have hff : first_fit_add (SegCluster_fits compar st) ((x :: xs) :: cs) v =
            (x :: xs) :: first_fit_add (SegCluster_fits compar st) cs v := by
          rw [first_fit_add, show (x :: xs).headD 0 = x from rfl, hfits,
            if_neg (by simpa using hr0)]
        rcases q3 with ⟨e1, e2⟩ | ⟨e1, e2, e3⟩
        · exact Or.inl ⟨e1, by rw [hff, e2]⟩
        · exact Or.inr ⟨e1, by rw [e2], by rw [hff, e3]; rfl⟩


theorem PMV_getseg_ne_zero {st : SCState} {v : Nat} {c : Segcont} (h : PMV_getseg st v = some c) :
    v ≠ 0 := by
  intro e
  unfold PMV_getseg at h
  rw [if_pos e] at h
  exact absurd h (by simp)

/-- `SegClusterCtx_add` is the insertion of first fit. -/
theorem SegClusterCtx_add_spec (junk : Nat) (junkc : arll Nat) (compar : Nat → Nat → Option Int)
    (st : SCState) (v : Nat) (cl : arll (arll Nat)) (cs : List (List Nat))
    (hv : ∃ cc, PMV_getseg st v = some cc ∧ cc.segp ≠ 0) (hcl : ClRep cl cs)
    (hval : ∀ c ∈ cs, c ≠ [] ∧ c.length < 33554432 ∧
      ∀ m ∈ c, (∃ mc, PMV_getseg st m = some mc ∧ mc.segp ≠ 0) ∧
        ∃ r, compar (PMV_segp_of st m) (PMV_segp_of st v) = some r)
    (hlen : cs.length < 33554432) :
    ∃ cl', SegClusterCtx_add junk junkc compar st cl v = some cl' ∧
      ClRep cl' (first_fit_add (SegCluster_fits compar st) cs v) := by
  obtain ⟨as, hcl, hf2⟩ := hcl
  have hv0 : v ≠ 0 := by
    obtain ⟨cc, hcc, _⟩ := hv
    exact PMV_getseg_ne_zero hcc
  have hlen2 := hf2.length_eq
  obtain ⟨cl1, b, as1, cs1, h1, q1, q2, q3⟩ :=
    SegClusterCtx_add_loop_spec junk compar st v hv cs as [] (arll_rewind cl) (cl.blk_cnt + 1)
      (ArllRep_rewind hcl) rfl hf2 hval (by rw [hcl.2.1, hlen2])
  rw [List.nil_append] at q1
  unfold SegClusterCtx_add
  rw [if_neg hv0, h1]
  rcases q3 with ⟨e1, e2⟩ | ⟨e1, e2, e3⟩
  · subst e1
    simp only []
    exact ⟨cl1, rfl, as1, q1, by rw [← e2]; exact q2⟩
  · subst e1
    simp only []
    obtain ⟨sv, hsv, rsv, _⟩ := arll_construct_rep junk sizeof_PMVp (by decide) (by decide)
    obtain ⟨sv1, hp, rsv1, _⟩ :=
      arll_push_rep junk sizeof_PMVp v (by decide) (by decide) rsv (by decide)
    have hlen1 : as1.length < 33554432 := by rw [q2.length_eq, e2]; exact hlen
    obtain ⟨cl2, hp2, rcl2, _⟩ :=
      arll_push_rep junkc sizeof_SegCluster sv1 (by decide) (by decide) q1 hlen1
    rw [hsv]
    simp only []
    rw [hp]
    simp only []
    rw [if_neg (by simp), hp2]
    simp only []
    rw [if_neg (by
      intro e
      have : (0 : Int) ≤ (as1.length : Int) := Int.natCast_nonneg _
      omega)]
    refine ⟨cl2, rfl, as1 ++ [sv1], rcl2, ?_⟩
    rw [e3]
    exact List.rel_append (by rw [← e2]; exact q2) (List.Forall₂.cons rsv1 List.Forall₂.nil)

/-- The loop of `SegClusterCtx_create` over the members that are left. -/
theorem SegClusterCtx_create_loop_spec (junk : Nat) (junkc : arll Nat)
    (compar : Nat → Nat → Option Int) (st : SCState) (l : List Nat)
    (hl : l.length < 33554432)
    (hval : ∀ m ∈ l, ∃ mc, PMV_getseg st m = some mc ∧ mc.segp ≠ 0)
    (hcmp : ∀ a ∈ l, ∀ b ∈ l, ∃ r, compar (PMV_segp_of st a) (PMV_segp_of st b) = some r) :
    ∀ (post pre : List Nat) (vpl : arll Nat) (cl : arll (arll Nat)) (fuel : Nat),
    pre ++ post = l → vpl.members = l → vpl.blk_cnt = l.length → vpl.blk_curi = pre.length →
    ClRep cl (first_fit (SegCluster_fits compar st) pre) → post.length + 1 ≤ fuel →
    ∃ vpl' cl', SegClusterCtx_create_loop junk junkc compar st fuel vpl cl = some (vpl', cl') ∧
      ClRep cl' (first_fit (SegCluster_fits compar st) l) ∧ vpl'.members = l ∧
      vpl'.blk_curi = l.length := by
  intro post
  induction post with
  | nil =>
    intro pre vpl cl fuel hpp hm hc hcur hcl hfuel
    rw [List.append_nil] at hpp
    subst hpp
    obtain ⟨f, rfl⟩ : ∃ f, fuel = f + 1 := ⟨fuel - 1, by omega⟩
    unfold SegClusterCtx_create_loop
    have hn : arll_next vpl = (none, vpl) := by
      unfold arll_next
      rw [if_pos (by rw [hc, hcur])]
    rw [hn]
    exact ⟨vpl, cl, rfl, hcl, hm, hcur⟩
  | cons v post ih =>
    intro pre vpl cl fuel hpp hm hc hcur hcl hfuel
    obtain ⟨f, rfl⟩ : ∃ f, fuel = f + 1 :=
      ⟨fuel - 1, by simp only [List.length_cons] at hfuel; omega⟩
    have hvl : v ∈ l := by rw [← hpp]; simp
    have hprel : ∀ m ∈ pre, m ∈ l := fun m hm => by rw [← hpp]; simp [hm]
    have hlen : pre.length < l.length := by rw [← hpp]; simp
    have hn : arll_next vpl = (some v, { vpl with blk_curi := pre.length + 1 }) := by
      unfold arll_next
      rw [if_neg (by rw [hc, hcur]; omega), hcur]
      have : vpl.blk_l[pre.length]? = l[pre.length]? := by
        rw [← hm]
        unfold arll.members
        rw [List.getElem?_take_of_lt (by rw [hc]; exact hlen)]
      rw [this, ← hpp, List.getElem?_append_right (Nat.le_refl _), Nat.sub_self,
        List.getElem?_cons_zero]
    obtain ⟨p1, p2, _, _⟩ := first_fit_props (SegCluster_fits compar st) pre
    have hmem : ∀ c ∈ first_fit (SegCluster_fits compar st) pre, ∀ m ∈ c, m ∈ pre := by
      intro c hc m hm
      exact (p2 c hc).2.subset hm
    obtain ⟨cl1, h1, r1⟩ := SegClusterCtx_add_spec junk junkc compar st v cl _ (hval v hvl) hcl
      (by
        intro c hc
        refine ⟨(p2 c hc).1, ?_, fun m hm => ⟨hval m (hprel m (hmem c hc m hm)),
          hcmp m (hprel m (hmem c hc m hm)) v hvl⟩⟩
        have := (p2 c hc).2.length_le
        omega)
      (by
        have h1 : (first_fit (SegCluster_fits compar st) pre).length ≤
            (first_fit (SegCluster_fits compar st) pre).flatten.length := by
          rw [List.length_flatten]
          have : ∀ (cs : List (List Nat)), (∀ c ∈ cs, c ≠ []) →
              cs.length ≤ (cs.map List.length).sum := by
            intro cs
            induction cs with
            | nil => intro _; simp
            | cons d ds ihd =>
              intro h
              have hd := h d (List.mem_cons_self _ _)
              have := ihd (fun c hc => h c (List.mem_cons_of_mem _ hc))
              have hpos : 0 < d.length := List.length_pos.mpr hd
              simp only [List.length_cons, List.map_cons, List.sum_cons]
              omega
          exact this _ (fun c hc => (p2 c hc).1)
        have h2 := p1.length_eq
        omega)
    have e : first_fit (SegCluster_fits compar st) (pre ++ [v]) =
        first_fit_add (SegCluster_fits compar st) (first_fit (SegCluster_fits compar st) pre)
          v := by
      unfold first_fit
      rw [List.foldl_append]
      rfl
    unfold SegClusterCtx_create_loop
    rw [hn]
    simp only []
    rw [h1]
    simp only []
    exact ih (pre ++ [v]) _ cl1 f (by rw [List.append_assoc]; exact hpp) hm hc
      (by show pre.length + 1 = _; rw [List.length_append]; rfl) (by rw [e]; exact r1)
      (by simp only [List.length_cons] at hfuel; omega)


theorem ClRep_clusters {cl : arll (arll Nat)} {cs : List (List Nat)} (h : ClRep cl cs) :
    cl.members.map arll.members = cs := by
  obtain ⟨as, hcl, hf2⟩ := h
  rw [hcl.1]
  clear hcl
  induction hf2 with
  | nil => rfl
  | cons h _ ih => rw [List.map_cons, ih, h.1]

theorem PMV_segp_of_ne_zero {st : SCState} {v : Nat} (h : PMV_segp_of st v ≠ 0) :
    ∃ c, PMV_getseg st v = some c ∧ c.segp ≠ 0 := by
  unfold PMV_segp_of at h
  cases e : PMV_getseg st v with
  | none => rw [e] at h; exact absurd rfl h
  | some c => rw [e] at h; exact ⟨c, rfl, h⟩

/-- `SegClusterCtx_create` makes the clusters of first fit. -/
theorem SegClusterCtx_create_spec (junk : Nat) (junkc : arll Nat)
    (compar : Nat → Nat → Option Int) (st : SCState) (segv_grp : Nat) (vpl : arll Nat)
    (hg : segv_grp ≠ 0) (hwf : vpl.blk_cnt ≤ vpl.blk_l.length) (hlen : vpl.blk_cnt < 33554432)
    (hval : ∀ m ∈ vpl.members, PMV_segp_of st m ≠ 0)
    (hcmp : ∀ a ∈ vpl.members, ∀ b ∈ vpl.members,
      ∃ r, compar (PMV_segp_of st a) (PMV_segp_of st b) = some r) :
    ∃ vpl' ctx, SegClusterCtx_create junk junkc compar st segv_grp vpl = some (vpl', ctx) ∧
      vpl'.members = vpl.members ∧ ctx.segv_grp = segv_grp ∧
      ctx.clusters = first_fit (SegCluster_fits compar st) vpl.members := by
  have hc : vpl.blk_cnt = vpl.members.length := by
    unfold arll.members
    rw [List.length_take, Nat.min_eq_left hwf]
  obtain ⟨cl, hcl, rcl, _⟩ := arll_construct_rep junkc sizeof_SegCluster (by decide) (by decide)
  obtain ⟨vpl1, cl1, h1, r1, hm1, _⟩ :=
    SegClusterCtx_create_loop_spec junk junkc compar st vpl.members (by rw [← hc]; exact hlen)
      (fun m hm => PMV_segp_of_ne_zero (hval m hm)) hcmp vpl.members [] (arll_rewind vpl) cl
      (vpl.blk_cnt + 1) rfl rfl hc rfl ⟨[], rcl, List.Forall₂.nil⟩ (by rw [← hc])
  unfold SegClusterCtx_create
  rw [if_neg hg, hcl]
  simp only []
  rw [h1]
  exact ⟨vpl1, _, rfl, hm1, rfl, ClRep_clusters r1⟩

/-- Claim C26. For a segment group whose member list holds the vertices
`vpl.members` (fewer than 2^25), each with a segment, and a method
`TaskSeg_compar` that returns 1 or 0 on their segments,
`SegClusterCtx_create` returns, leaves the members of the group as they are,
and makes the clusters of first fit in member order: the clusters together
hold every member once (their concatenation is a permutation of the member
list), no cluster is empty, the members of a cluster stand in it in their
order in the member list, `TaskSeg_compar(representative, m) = 1` for every
member `m` of a cluster after its first member, the representative, and
`TaskSeg_compar(r', m) = 0` for every member `m` of a cluster, the first one
included, and the first member `r'` of every earlier cluster. -/
theorem SegClusterCtx_create_first_fit (junk : Nat) (junkc : arll Nat)
    (compar : Nat → Nat → Option Int) (st : SCState) (segv_grp : Nat) (vpl : arll Nat)
    (hg : segv_grp ≠ 0) (hwf : vpl.blk_cnt ≤ vpl.blk_l.length) (hlen : vpl.blk_cnt < 33554432)
    (hval : ∀ m ∈ vpl.members, PMV_segp_of st m ≠ 0)
    (hcmp : ∀ a ∈ vpl.members, ∀ b ∈ vpl.members,
      compar (PMV_segp_of st a) (PMV_segp_of st b) = some 0 ∨
      compar (PMV_segp_of st a) (PMV_segp_of st b) = some 1) :
    ∃ vpl' ctx, SegClusterCtx_create junk junkc compar st segv_grp vpl = some (vpl', ctx) ∧
      vpl'.members = vpl.members ∧ ctx.segv_grp = segv_grp ∧
      ctx.clusters = first_fit (SegCluster_fits compar st) vpl.members ∧
      List.Perm ctx.clusters.flatten vpl.members ∧
      (∀ c ∈ ctx.clusters, c ≠ [] ∧ List.Sublist c vpl.members ∧
        ∀ m ∈ c.tail, compar (PMV_segp_of st (c.headD 0)) (PMV_segp_of st m) = some 1) ∧
      ctx.clusters.Pairwise (fun c d =>
        ∀ m ∈ d, compar (PMV_segp_of st (c.headD 0)) (PMV_segp_of st m) = some 0) := by
  obtain ⟨vpl1, ctx, h, q1, q2, q3⟩ :=
    SegClusterCtx_create_spec junk junkc compar st segv_grp vpl hg hwf hlen hval
      (fun a ha b hb => by
        rcases hcmp a ha b hb with e | e
        · exact ⟨_, e⟩
        · exact ⟨_, e⟩)
  obtain ⟨p1, p2, p3, p4⟩ := first_fit_props (SegCluster_fits compar st) vpl.members
  have hhead : ∀ c ∈ first_fit (SegCluster_fits compar st) vpl.members,
      c.headD 0 ∈ vpl.members := by
    intro c hc
    apply (p2 c hc).2.subset
    cases c with
    | nil => exact absurd rfl (p2 _ hc).1
    | cons x xs => exact List.mem_cons_self _ _
  refine ⟨vpl1, ctx, h, q1, q2, q3, ?_, ?_, ?_⟩
  · rw [q3]; exact p1
  · rw [q3]
    intro c hc
    refine ⟨(p2 c hc).1, (p2 c hc).2, fun m hm => ?_⟩
    have hf := p3 c hc m hm
    have hml : m ∈ vpl.members := (p2 c hc).2.subset (List.mem_of_mem_tail hm)
    unfold SegCluster_fits at hf
    rcases hcmp _ (hhead c hc) m hml with e | e
    · rw [e] at hf; exact absurd hf (by decide)
    · exact e
  · rw [q3]
    have hsub : ∀ c ∈ first_fit (SegCluster_fits compar st) vpl.members, ∀ m ∈ c,
        m ∈ vpl.members := fun c hc m hm => (p2 c hc).2.subset hm
    have key : ∀ (cs : List (List Nat)),
        (∀ c ∈ cs, c.headD 0 ∈ vpl.members ∧ ∀ m ∈ c, m ∈ vpl.members) →
        cs.Pairwise (fun c d => ∀ m ∈ d, SegCluster_fits compar st (c.headD 0) m = false) →
        cs.Pairwise (fun c d =>
          ∀ m ∈ d, compar (PMV_segp_of st (c.headD 0)) (PMV_segp_of st m) = some 0) := by
      intro cs hcs hp
      induction hp with
      | nil => exact List.Pairwise.nil
      | cons hd _ ih =>
        refine List.Pairwise.cons ?_ (ih (fun c hc => hcs c (List.mem_cons_of_mem _ hc)))
        intro d hdm m hm
        have hf := hd d hdm m hm
        unfold SegCluster_fits at hf
        rcases hcmp _ (hcs _ (List.mem_cons_self _ _)).1 m
          ((hcs d (List.mem_cons_of_mem _ hdm)).2 m hm) with e | e
        · exact e
        · rw [e] at hf; exact absurd hf (by decide)
    exact key _ (fun c hc => ⟨hhead c hc, hsub c hc⟩) p4

theorem SegClusterCtx_create_first_fit_witness :
    ∃ vpl' ctx, SegClusterCtx_create 0 sc_example_vpl sc_example_compar sc_example 12
        sc_example_vpl = some (vpl', ctx) ∧
      vpl'.members = sc_example_vpl.members ∧ ctx.segv_grp = 12 ∧
      ctx.clusters = first_fit (SegCluster_fits sc_example_compar sc_example)
        sc_example_vpl.members ∧
      List.Perm ctx.clusters.flatten sc_example_vpl.members ∧
      (∀ c ∈ ctx.clusters, c ≠ [] ∧ List.Sublist c sc_example_vpl.members ∧
        ∀ m ∈ c.tail, sc_example_compar (PMV_segp_of sc_example (c.headD 0))
          (PMV_segp_of sc_example m) = some 1) ∧
      ctx.clusters.Pairwise (fun c d =>
        ∀ m ∈ d, sc_example_compar (PMV_segp_of sc_example (c.headD 0))
          (PMV_segp_of sc_example m) = some 0) :=
  SegClusterCtx_create_first_fit 0 sc_example_vpl sc_example_compar sc_example 12 sc_example_vpl
    (by decide) (by decide) (by decide) (by decide) (by decide)

theorem sc_example_clusters :
    ((SegClusterCtx_create 0 sc_example_vpl sc_example_compar sc_example 12
        sc_example_vpl).map (fun r => r.2.clusters)) = some [[1, 3], [2]] := by
  decide



/-! ## The removal of the duplicates (seg_cluster.c) -/

theorem SegChainFrom_frame {em em' : Nat → SegElem} {C : Nat} :
    ∀ (es : List Nat) (slot : ElemSlot) (p : Nat), (∀ x ∈ es, em' x = em x) →
    SegChainFrom em C slot p es → SegChainFrom em' C slot p es := by
  intro es
  induction es with
  | nil => intro slot p _ h; exact h
  | cons e es ih =>
    intro slot p hf h
    obtain ⟨h1, h2, h3, h4, h5⟩ := h
    have he := hf e (List.mem_cons_self _ _)
    refine ⟨h1, h2, by rw [he]; exact h3, by rw [he]; exact h4, ?_⟩
    rw [he]
    exact ih _ _ (fun x hx => hf x (List.mem_cons_of_mem _ hx)) h5

theorem SegChainFrom_mem {em : Nat → SegElem} {C : Nat} :
    ∀ (es : List Nat) (slot : ElemSlot) (p : Nat), SegChainFrom em C slot p es →
    ∀ x ∈ es, x ≠ 0 ∧ (em x).ctxp = C := by
  intro es
  induction es with
  | nil => intro _ _ _ x hx; exact absurd hx (List.not_mem_nil _)
  | cons e es ih =>
    intro slot p h x hx
    obtain ⟨h1, h2, h3, h4, h5⟩ := h
    rcases List.mem_cons.mp hx with rfl | hx
    · exact ⟨h2, h4⟩
    · exact ih _ _ h5 x hx

/-- The list behind a removed element hangs at the cell `slot`. -/
theorem SegChainFrom_relink {em em' : Nat → SegElem} {C next : Nat} {slot slot0 : ElemSlot}
    {post : List Nat} (h : SegChainFrom em C slot0 next post) (hnd : post.Nodup)
    (hn : next ≠ 0 → em' next = { em next with prev_next_pp := slot })
    (hframe : ∀ x ∈ post, x ≠ next → em' x = em x) :
    SegChainFrom em' C slot next post := by
  cases post with
  | nil => exact h
  | cons n post =>
    obtain ⟨h1, h2, h3, h4, h5⟩ := h
    subst h1
    have hn := hn h2
    have hnp : next ∉ post := (List.nodup_cons.mp hnd).1
    refine ⟨rfl, h2, by rw [hn], by rw [hn]; exact h4, ?_⟩
    rw [hn]
    refine SegChainFrom_frame post _ _ (fun x hx => ?_) h5
    exact hframe x (List.mem_cons_of_mem _ hx) (fun e => hnp (e ▸ hx))

/-- The list of a context without the element `e` that follows `y`. -/
theorem SegChainFrom_unlink {em em' : Nat → SegElem} {C e y : Nat} {post : List Nat}
    (hy : em' y = { em y with next_p := (em e).next_p })
    (hn : (em e).next_p ≠ 0 →
      em' (em e).next_p = { em (em e).next_p with prev_next_pp := ElemSlot.next_p y })
    (hframe : ∀ x, x ≠ y → x ≠ (em e).next_p → em' x = em x) :
    ∀ (pre : List Nat) (slot : ElemSlot) (p : Nat),
    SegChainFrom em C slot p (pre ++ y :: e :: post) → (pre ++ y :: e :: post).Nodup →
    SegChainFrom em' C slot p (pre ++ y :: post) ∧ (em e).prev_next_pp = ElemSlot.next_p y := by
  intro pre
  induction pre with
  | nil =>
    intro slot p h hnd
    obtain ⟨h1, h2, h3, h4, g1, g2, g3, g4, g5⟩ := h
    rw [List.nil_append] at hnd
    obtain ⟨hy1, hnd1⟩ := List.nodup_cons.mp hnd
    obtain ⟨he1, hnd2⟩ := List.nodup_cons.mp hnd1
    have hypost : y ∉ post := fun hm => hy1 (List.mem_cons_of_mem _ hm)
    have hynext : (em e).next_p ≠ 0 → y ≠ (em e).next_p := by
      intro h0 e1
      cases post with
      | nil => exact h0 g5
      | cons n post =>
        obtain ⟨k1, _⟩ := g5
        exact hypost (by rw [e1, k1]; exact List.mem_cons_self _ _)
    refine ⟨⟨h1, h2, by rw [hy]; exact h3, by rw [hy]; exact h4, ?_⟩, g3⟩
    rw [hy]
    show SegChainFrom em' C (ElemSlot.next_p y) (em e).next_p post
    refine SegChainFrom_relink g5 hnd2 hn (fun x hx hxn => hframe x (fun e1 => hypost (e1 ▸ hx)) hxn)
  | cons z pre ih =>
    intro slot p h hnd
    obtain ⟨h1, h2, h3, h4, h5⟩ := h
    obtain ⟨hz, hnd1⟩ := List.nodup_cons.mp hnd
    obtain ⟨q1, q2⟩ := ih _ _ h5 hnd1
    have hzy : z ≠ y := fun e1 => hz (by rw [e1]; simp)
    have hzn : z ≠ (em e).next_p := by
      intro e1
      have hnd2 : (y :: e :: post).Nodup := (List.nodup_append.mp hnd1).2.1
      have hnd3 : (e :: post).Nodup := (List.nodup_cons.mp hnd2).2
      have hc : SegChainFrom em C (ElemSlot.next_p y) (em y).next_p (e :: post) := by
        have : ∀ (pre : List Nat) (slot : ElemSlot) (p : Nat),
            SegChainFrom em C slot p (pre ++ y :: e :: post) →
            SegChainFrom em C (ElemSlot.next_p y) (em y).next_p (e :: post) := by
          intro pre
          induction pre with
          | nil => intro slot p h; exact h.2.2.2.2
          | cons w pre ihp => intro slot p h; exact ihp _ _ h.2.2.2.2
        exact this pre _ _ h5
      obtain ⟨_, _, _, _, g5⟩ := hc
      cases post with
      | nil =>
        have : (em e).next_p = 0 := g5
        exact h2 (by rw [e1, this])
      | cons n post =>
        obtain ⟨k1, _⟩ := g5
        exact hz (by rw [e1, k1]; simp)
    have hzz := hframe z hzy hzn
    refine ⟨⟨h1, h2, by rw [hzz]; exact h3, by rw [hzz]; exact h4, ?_⟩, q2⟩
    rw [hzz]
    exact q1

theorem SegChainFrom_split {em : Nat → SegElem} {C e y : Nat} {post : List Nat} :
    ∀ (pre : List Nat) (slot : ElemSlot) (p : Nat),
    SegChainFrom em C slot p (pre ++ y :: e :: post) →
    (em e).prev_next_pp = ElemSlot.next_p y ∧
    SegChainFrom em C (ElemSlot.next_p e) (em e).next_p post := by
  intro pre
  induction pre with
  | nil => intro slot p h; exact ⟨h.2.2.2.2.2.2.1, h.2.2.2.2.2.2.2.2⟩
  | cons w pre ihp => intro slot p h; exact ihp _ _ h.2.2.2.2

/-- `Object_deinit` of a segment of the context `C` takes it out of the list of
the context and changes nothing that `PMV_getseg` reads. -/
theorem TaskSeg_deinit_chain {st : SCState} {C e : Nat} {ch : List Nat}
    (h : SegCtxRep st C ch) (he : e ∈ ch) :
    ∃ st', TaskSeg_deinit st e = some st' ∧ SegCtxRep st' C (ch.erase e) ∧
      st'.vm = st.vm ∧ st'.segconti = st.segconti ∧ st'.segcontl = st.segcontl := by
  obtain ⟨hC, hch, hnd, hsz⟩ := h
  obtain ⟨he0, hectx⟩ := SegChainFrom_mem ch _ _ hch e he
  obtain ⟨pre, post, rfl⟩ := List.append_of_mem he
  have hepre : e ∉ pre := by
    intro hm
    exact (List.nodup_append.mp hnd).2.2 hm (List.mem_cons_self _ _)
  have hnd1 : (e :: post).Nodup := (List.nodup_append.mp hnd).2.1
  have hepost : e ∉ post := (List.nodup_cons.mp hnd1).1
  have hndpost : post.Nodup := (List.nodup_cons.mp hnd1).2
  have herase : (pre ++ e :: post).erase e = pre ++ post := by
    rw [List.erase_append_right _ hepre, List.erase_cons_head]
  have hnd2 : (pre ++ post).Nodup := by
    rw [← herase]; exact hnd.erase e
  have hlen : (pre ++ e :: post).length = (pre ++ post).length + 1 := by
    simp only [List.length_append, List.length_cons]; omega
  have hsz0 : (st.ectx C).size ≠ 0 := by rw [hsz, hlen]; omega
  rw [herase]
  unfold TaskSeg_deinit
  rw [if_neg he0, hectx, if_neg hC, if_neg hsz0]
  simp only []
  rcases List.eq_nil_or_concat pre with rfl | ⟨pre1, y, rfl⟩
  · rw [List.nil_append] at hch
    obtain ⟨h1, _, h3, _, h5⟩ := hch
    by_cases hn : (st.em e).next_p = 0
    · rw [if_neg (by rw [hn]; exact fun h => h rfl)]
      dsimp only
      rw [h3]
      refine ⟨_, rfl, ⟨hC, ?_, hnd2, ?_⟩, rfl, rfl, rfl⟩
      · dsimp only
        rw [store_same]
        exact SegChainFrom_relink h5 hndpost (fun h => absurd hn h) (fun _ _ _ => rfl)
      · dsimp only
        rw [store_same]
        dsimp only
        rw [store_same]
        dsimp only
        rw [hsz, hlen]
        rfl
    · rw [if_pos hn]
      dsimp only
      have hne : e ≠ (st.em e).next_p := by
        intro e1
        cases post with
        | nil => exact hn h5
        | cons n post => exact hepost (by rw [e1, h5.1]; exact List.mem_cons_self _ _)
      rw [store_other _ _ _ _ hne, h3]
      refine ⟨_, rfl, ⟨hC, ?_, hnd2, ?_⟩, rfl, rfl, rfl⟩
      · dsimp only
        rw [store_same]
        exact SegChainFrom_relink h5 hndpost (fun _ => store_same _ _ _)
          (fun x _ hx => store_other _ _ _ _ hx)
      · dsimp only
        rw [store_same]
        dsimp only
        rw [store_same]
        dsimp only
        rw [hsz, hlen]
        rfl
  · rw [List.concat_eq_append] at hch hnd hepre hnd2 hlen hsz ⊢
    rw [List.append_assoc, List.singleton_append] at hch hnd
    obtain ⟨h3, h5⟩ := SegChainFrom_split pre1 _ _ hch
    have hypost : y ∉ post := by
      intro hm
      have := (List.nodup_append.mp hnd).2.1
      exact (List.nodup_cons.mp this).1 (List.mem_cons_of_mem _ hm)
    have hye : y ≠ e := by
      intro e1
      exact hepre (by rw [← e1]; simp)
    by_cases hn : (st.em e).next_p = 0
    · rw [if_neg (by rw [hn]; exact fun h => h rfl)]
      dsimp only
      rw [h3]
      refine ⟨_, rfl, ⟨hC, ?_, hnd2, ?_⟩, rfl, rfl, rfl⟩
      · dsimp only
        rw [store_same]
        dsimp only
        rw [List.append_assoc, List.singleton_append]
        exact (SegChainFrom_unlink (store_same _ _ _) (fun h => absurd hn h)
          (fun x hx _ => store_other _ _ _ _ hx) pre1 _ _ hch hnd).1
      · dsimp only
        rw [store_same]
        dsimp only
        rw [hsz, hlen]
        rfl
    · rw [if_pos hn]
      dsimp only
      have hne : e ≠ (st.em e).next_p := by
        intro e1
        cases post with
        | nil => exact hn h5
        | cons n post => exact hepost (by rw [e1, h5.1]; exact List.mem_cons_self _ _)
      have hyn : y ≠ (st.em e).next_p := by
        intro e1
        cases post with
        | nil => exact hn h5
        | cons n post => exact hypost (by rw [e1, h5.1]; exact List.mem_cons_self _ _)
      rw [store_other _ _ _ _ hne, h3]
      refine ⟨_, rfl, ⟨hC, ?_, hnd2, ?_⟩, rfl, rfl, rfl⟩
      · dsimp only
        rw [store_same]
        dsimp only
        rw [List.append_assoc, List.singleton_append]
        refine (SegChainFrom_unlink ?_ ?_ ?_ pre1 _ _ hch hnd).1
        · rw [store_same, store_other _ _ _ _ hyn]
        · intro _
          rw [store_other _ _ _ _ (Ne.symm hyn), store_same]
        · intro x hx hxn
          rw [store_other _ _ _ _ hx, store_other _ _ _ _ hxn]
      · dsimp only
        rw [store_same]
        dsimp only
        rw [hsz, hlen]
        rfl


theorem arll_members_length {α : Type} {a : arll α} (hwf : a.blk_cnt ≤ a.blk_l.length) :
    a.members.length = a.blk_cnt := by
  unfold arll.members
  rw [List.length_take, Nat.min_eq_left hwf]

theorem arll_next_members_lt {α : Type} {a : arll α} {pre post : List α} {x : α}
    (hwf : a.blk_cnt ≤ a.blk_l.length) (hm : a.members = pre ++ x :: post)
    (hcur : a.blk_curi = pre.length) :
    arll_next a = (some x, { a with blk_curi := a.blk_curi + 1 }) := by
  have hlen := arll_members_length hwf
  rw [hm] at hlen
  simp only [List.length_append, List.length_cons] at hlen
  unfold arll_next
  rw [if_neg (by omega)]
  have : a.blk_l[a.blk_curi]? = a.members[a.blk_curi]? := by
    unfold arll.members
    rw [List.getElem?_take_of_lt (by omega)]
  rw [this, hm, hcur, List.getElem?_append_right (Nat.le_refl _), Nat.sub_self,
    List.getElem?_cons_zero]

theorem arll_next_members_end {α : Type} {a : arll α}
    (hwf : a.blk_cnt ≤ a.blk_l.length) (hcur : a.blk_curi = a.members.length) :
    arll_next a = (none, a) := by
  unfold arll_next
  rw [if_pos (by rw [hcur, arll_members_length hwf])]

theorem PMV_getseg_congr {st st' : SCState} (h1 : st'.vm = st.vm)
    (h2 : st'.segconti = st.segconti) (h3 : st'.segcontl = st.segcontl) (w : Nat) :
    PMV_getseg st' w = PMV_getseg st w := by
  unfold PMV_getseg
  rw [h1, h2, h3]

theorem PMV_segcont_of_congr {st st' : SCState} (h1 : st'.vm = st.vm)
    (h2 : st'.segconti = st.segconti) (w : Nat) :
    PMV_segcont_of st' w = PMV_segcont_of st w := by
  unfold PMV_segcont_of
  rw [h1, h2]

theorem PMV_getseg_some {st : SCState} {v : Nat} {k : Segcont} (h : PMV_getseg st v = some k) :
    v ≠ 0 ∧ (st.vm v).type = PMV_seg ∧ (st.vm v).ctxp ≠ 0 ∧
    unsigned_of_int (st.segconti v) ≤ (st.segcontl (st.vm v).ctxp).blk_cnt ∧
    (st.segcontl (st.vm v).ctxp).blk_l[unsigned_of_int (st.segconti v)]? = some k := by
  unfold PMV_getseg at h
  by_cases h1 : v = 0
  · rw [if_pos h1] at h; exact absurd h (by simp)
  rw [if_neg h1] at h
  by_cases h2 : (st.vm v).type ≠ PMV_seg
  · rw [if_pos h2] at h; exact absurd h (by simp)
  rw [if_neg h2] at h
  by_cases h3 : (st.vm v).ctxp = 0
  · rw [if_pos h3] at h; exact absurd h (by simp)
  rw [if_neg h3] at h
  unfold arll_geti at h
  by_cases h4 : unsigned_of_int (st.segconti v) > (st.segcontl (st.vm v).ctxp).blk_cnt
  · rw [if_pos h4] at h; exact absurd h (by simp)
  rw [if_neg h4] at h
  exact ⟨h1, not_not.mp h2, h3, Nat.le_of_not_gt h4, h⟩

theorem PMV_getseg_of {st : SCState} {v : Nat} {k : Segcont} (h1 : v ≠ 0)
    (h2 : (st.vm v).type = PMV_seg) (h3 : (st.vm v).ctxp ≠ 0)
    (h4 : unsigned_of_int (st.segconti v) ≤ (st.segcontl (st.vm v).ctxp).blk_cnt)
    (h5 : (st.segcontl (st.vm v).ctxp).blk_l[unsigned_of_int (st.segconti v)]? = some k) :
    PMV_getseg st v = some k := by
  unfold PMV_getseg
  rw [if_neg h1, if_neg (not_not.mpr h2), if_neg h3]
  unfold arll_geti
  rw [if_neg (Nat.not_lt.mpr h4), h5]

/-- Two vertices with a segment and the same container have the same
segment. -/
theorem PMV_getseg_same_cont {st : SCState} {v w : Nat} {kv kw : Segcont}
    (hv : PMV_getseg st v = some kv) (hw : PMV_getseg st w = some kw)
    (h : PMV_segcont_of st v = PMV_segcont_of st w) : kv = kw := by
  obtain ⟨_, _, _, _, e1⟩ := PMV_getseg_some hv
  obtain ⟨_, _, _, _, e2⟩ := PMV_getseg_some hw
  unfold PMV_segcont_of at h
  have h1 := (Prod.mk.inj h).1
  have h2 := (Prod.mk.inj h).2
  rw [h1, h2, e2] at e1
  exact (Option.some.inj e1).symm

/-- `PMV_setseg(vp, segp)` followed by the reads of `PMV_getseg`. -/
theorem PMV_setseg_spec {st : SCState} {v : Nat} {kv : Segcont} (s : Nat)
    (hv : PMV_getseg st v = some kv) :
    ∃ st', PMV_setseg st v s = some st' ∧ st'.vm = st.vm ∧ st'.segconti = st.segconti ∧
      st'.em = st.em ∧ st'.ectx = st.ectx ∧
      PMV_getseg st' v = some { kv with segp := s } ∧
      (∀ w, PMV_segcont_of st w ≠ PMV_segcont_of st v → PMV_getseg st' w = PMV_getseg st w) ∧
      (∀ c, (st'.segcontl c).blk_l.map Segcont.pid = (st.segcontl c).blk_l.map Segcont.pid) := by
  obtain ⟨h1, h2, h3, h4, h5⟩ := PMV_getseg_some hv
  have hlt : unsigned_of_int (st.segconti v) < (st.segcontl (st.vm v).ctxp).blk_l.length := by
    by_contra hc
    rw [List.getElem?_eq_none (Nat.le_of_not_lt hc)] at h5
    exact absurd h5 (by simp)
  have hg : arll_geti (st.segcontl (st.vm v).ctxp) (unsigned_of_int (st.segconti v)) =
      some kv := by
    unfold arll_geti
    rw [if_neg (Nat.not_lt.mpr h4), h5]
  unfold PMV_setseg
  rw [if_neg h1, if_neg h3]
  dsimp only
  rw [hg]
  refine ⟨_, rfl, rfl, rfl, rfl, rfl, ?_, ?_, ?_⟩
  · unfold PMV_getseg
    dsimp only
    rw [if_neg h1, if_neg (not_not.mpr h2), if_neg h3, store_same]
    unfold arll_geti
    dsimp only
    rw [if_neg (Nat.not_lt.mpr h4), List.getElem?_set_self hlt]
  · intro w hw
    unfold PMV_getseg
    dsimp only
    by_cases g1 : w = 0
    · rw [if_pos g1, if_pos g1]
    rw [if_neg g1, if_neg g1]
    by_cases g2 : (st.vm w).type ≠ PMV_seg
    · rw [if_pos g2, if_pos g2]
    rw [if_neg g2, if_neg g2]
    by_cases g3 : (st.vm w).ctxp = 0
    · rw [if_pos g3, if_pos g3]
    rw [if_neg g3, if_neg g3]
    by_cases g4 : (st.vm w).ctxp = (st.vm v).ctxp
    · rw [g4, store_same]
      unfold arll_geti
      dsimp only
      have hi : unsigned_of_int (st.segconti v) ≠ unsigned_of_int (st.segconti w) := by
        intro e
        apply hw
        unfold PMV_segcont_of
        rw [g4, e]
      rw [List.getElem?_set_ne hi]
    · rw [store_other _ _ _ _ g4]
  · intro c
    dsimp only
    by_cases g : c = (st.vm v).ctxp
    · rw [g, store_same]
      dsimp only
      rw [List.map_set]
      apply List.ext_getElem?
      intro n
      rw [List.getElem?_set]
      by_cases gn : unsigned_of_int (st.segconti v) = n
      · rw [if_pos gn, List.length_map, ← gn, if_pos hlt, List.getElem?_map, h5]
        rfl
      · rw [if_neg gn]
    · rw [store_other _ _ _ _ g]


theorem PMV_segp_of_mem_chain {st : SCState} {C v : Nat} {ch : List Nat}
    (hrep : SegCtxRep st C ch) (h : PMV_segp_of st v ∈ ch) :
    ∃ k, PMV_getseg st v = some k ∧ k.segp = PMV_segp_of st v ∧ k.segp ≠ 0 := by
  have h0 := (SegChainFrom_mem ch _ _ hrep.2.1 _ h).1
  obtain ⟨k, hk, _⟩ := PMV_segp_of_ne_zero h0
  have e : PMV_segp_of st v = k.segp := by
    unfold PMV_segp_of
    rw [hk]
  exact ⟨k, hk, e.symm, by rw [← e]; exact h0⟩

theorem PMV_segp_of_congr {st st' : SCState} {w : Nat}
    (h : PMV_getseg st' w = PMV_getseg st w) : PMV_segp_of st' w = PMV_segp_of st w := by
  unfold PMV_segp_of
  rw [h]

/-- The loop over the members of a cluster after the first one. -/
theorem SegClusterCtx_remdupl_inner_spec (C r : Nat) (kr : Segcont) :
    ∀ (post pre : List Nat) (st : SCState) (sv : arll Nat) (ch : List Nat) (fuel : Nat),
    sv.blk_cnt ≤ sv.blk_l.length → sv.members = pre ++ post → sv.blk_curi = pre.length →
    SegCtxRep st C ch → PMV_getseg st r = some kr → kr.segp ≠ 0 →
    (∀ v ∈ post, PMV_segp_of st v ∈ ch) → (post.map (PMV_segp_of st)).Nodup →
    (∀ v ∈ post, PMV_segcont_of st v ≠ PMV_segcont_of st r) →
    (post.map (PMV_segcont_of st)).Nodup →
    post.length + 1 ≤ fuel →
    ∃ st' sv', SegClusterCtx_remdupl_inner r fuel st sv = some (st', sv') ∧
      sv'.blk_l = sv.blk_l ∧ sv'.blk_cnt = sv.blk_cnt ∧
      st'.vm = st.vm ∧ st'.segconti = st.segconti ∧
      SegCtxRep st' C (ch.diff (post.map (PMV_segp_of st))) ∧
      (∀ w, PMV_segcont_of st w ∉ post.map (PMV_segcont_of st) →
        PMV_getseg st' w = PMV_getseg st w) ∧
      (∀ v ∈ post, ∀ k, PMV_getseg st v = some k →
        PMV_getseg st' v = some { k with segp := kr.segp }) ∧
      (∀ c, (st'.segcontl c).blk_l.map Segcont.pid =
        (st.segcontl c).blk_l.map Segcont.pid) := by
  intro post
  induction post with
  | nil =>
    intro pre st sv ch fuel hwf hm hcur hrep hr hr0 _ _ _ _ hfuel
    obtain ⟨f, rfl⟩ : ∃ f, fuel = f + 1 := ⟨fuel - 1, by omega⟩
    rw [List.append_nil] at hm
    unfold SegClusterCtx_remdupl_inner
    rw [arll_next_members_end hwf (by rw [hcur, hm])]
    exact ⟨st, sv, rfl, rfl, rfl, rfl, rfl, hrep, fun _ _ => rfl,
      fun v hv => absurd hv (List.not_mem_nil _), fun _ => rfl⟩
  | cons v post ih =>
    intro pre st sv ch fuel hwf hm hcur hrep hr hr0 hch hnd hkr hknd hfuel
    obtain ⟨f, rfl⟩ : ∃ f, fuel = f + 1 :=
      ⟨fuel - 1, by simp only [List.length_cons] at hfuel; omega⟩
    obtain ⟨kv, hkv, ekv, _⟩ := PMV_segp_of_mem_chain hrep (hch v (List.mem_cons_self _ _))
    obtain ⟨st1, hd, rep1, d1, d2, d3⟩ :=
      TaskSeg_deinit_chain hrep
        (show kv.segp ∈ ch by rw [ekv]; exact hch v (List.mem_cons_self _ _))
    have g1 : ∀ w, PMV_getseg st1 w = PMV_getseg st w := PMV_getseg_congr d1 d2 d3
    have hkv1 : PMV_getseg st1 v = some kv := by rw [g1]; exact hkv
    obtain ⟨st2, hs, s1, s2, s3, s4, s5, s6, s7⟩ := PMV_setseg_spec kr.segp hkv1
    have rep2 : SegCtxRep st2 C (ch.erase kv.segp) := by
      unfold SegCtxRep
      rw [s3, s4]
      exact rep1
    have hvm : st2.vm = st.vm := by rw [s1, d1]
    have hsi : st2.segconti = st.segconti := by rw [s2, d2]
    have hkey : ∀ w, PMV_segcont_of st2 w = PMV_segcont_of st w :=
      PMV_segcont_of_congr hvm hsi
    have hkey1 : ∀ w, PMV_segcont_of st1 w = PMV_segcont_of st w :=
      PMV_segcont_of_congr d1 d2
    have hother : ∀ w, PMV_segcont_of st w ≠ PMV_segcont_of st v →
        PMV_getseg st2 w = PMV_getseg st w := by
      intro w hw
      rw [s6 w (by rw [hkey1, hkey1]; exact hw), g1]
    simp only [List.map_cons, List.nodup_cons] at hnd hknd
    have hpost : ∀ w ∈ post, PMV_getseg st2 w = PMV_getseg st w := by
      intro w hw
      apply hother
      intro e
      exact hknd.1 (by rw [← e]; exact List.mem_map_of_mem _ hw)
    have hmap : post.map (PMV_segp_of st2) = post.map (PMV_segp_of st) :=
      List.map_congr_left (fun w hw => PMV_segp_of_congr (hpost w hw))
    have hmapk : post.map (PMV_segcont_of st2) = post.map (PMV_segcont_of st) :=
      List.map_congr_left (fun w _ => hkey w)
    have hr2 : PMV_getseg st2 r = some kr := by
      rw [hother r (Ne.symm (hkr v (List.mem_cons_self _ _)))]
      exact hr
    obtain ⟨st3, sv3, h3, q1, q2, q3, q4, q5, q6, q7, q8⟩ :=
      ih (pre ++ [v]) st2 { sv with blk_curi := sv.blk_curi + 1 } (ch.erase kv.segp) f hwf
        (by rw [List.append_assoc]; exact hm) (by rw [List.length_append, hcur]; rfl) rep2 hr2 hr0
        (by
          intro w hw
          rw [PMV_segp_of_congr (hpost w hw)]
          refine (List.mem_erase_of_ne ?_).mpr (hch w (List.mem_cons_of_mem _ hw))
          intro e
          exact hnd.1 (by rw [← ekv, ← e]; exact List.mem_map_of_mem _ hw))
        (by rw [hmap]; exact hnd.2)
        (by
          intro w hw
          rw [hkey, hkey]
          exact hkr w (List.mem_cons_of_mem _ hw))
        (by rw [hmapk]; exact hknd.2)
        (by simp only [List.length_cons] at hfuel; omega)
    unfold SegClusterCtx_remdupl_inner
    rw [arll_next_members_lt hwf hm hcur]
    dsimp only
    rw [hkv]
    dsimp only
    rw [hd]
    dsimp only
    rw [hkv1]
    dsimp only
    rw [g1 r, hr]
    dsimp only
    rw [hs]
    dsimp only
    rw [s5]
    dsimp only
    rw [if_neg hr0, h3]
    refine ⟨st3, sv3, rfl, q1, q2, by rw [q3, hvm], by rw [q4, hsi], ?_, ?_, ?_, ?_⟩
    · rw [List.map_cons, List.diff_cons, ← ekv, ← hmap]
      exact q5
    · intro w hw
      simp only [List.map_cons, List.mem_cons, not_or] at hw
      rw [q6 w (by rw [hkey, hmapk]; exact hw.2), hother w hw.1]
    · intro w hw k hk
      rcases List.mem_cons.mp hw with rfl | hw
      · rw [q6 w (by rw [hkey, hmapk]; exact hknd.1), s5]
        rw [hkv] at hk
        rw [Option.some.inj hk]
      · exact q7 w hw k (by rw [hpost w hw]; exact hk)
    · intro c
      rw [q8 c, s7 c, d3]


theorem arll_set_members {α : Type} {cl : arll α} {pre post : List α} {a : α} (a' : α)
    (k : Nat) (hm : cl.members = pre ++ a :: post) :
    arll.members { cl with blk_l := cl.blk_l.set pre.length a', blk_curi := k } =
      pre ++ a' :: post := by
  show List.take cl.blk_cnt (cl.blk_l.set pre.length a') = _
  rw [List.set_take]
  have h1 : List.take cl.blk_cnt cl.blk_l = pre ++ a :: post := hm
  rw [h1, List.set_append_right _ _ (Nat.le_refl _), Nat.sub_self]
  rfl

/-- The loop of `SegClusterCtx_remdupl` over the clusters that are left. -/
theorem SegClusterCtx_remdupl_loop_spec (C : Nat) :
    ∀ (asPost asPre : List (arll Nat)) (st : SCState) (cl : arll (arll Nat)) (ch : List Nat)
      (fuel : Nat),
    cl.blk_cnt ≤ cl.blk_l.length → cl.members = asPre ++ asPost → cl.blk_curi = asPre.length →
    (∀ a ∈ asPost, a.blk_cnt ≤ a.blk_l.length ∧ a.members ≠ []) →
    SegCtxRep st C ch →
    (∀ v ∈ (asPost.map arll.members).flatten, PMV_segp_of st v ∈ ch) →
    ((asPost.map arll.members).flatten.map (PMV_segp_of st)).Nodup →
    ((asPost.map arll.members).flatten.map (PMV_segcont_of st)).Nodup →
    asPost.length + 1 ≤ fuel →
    ∃ st' cl', SegClusterCtx_remdupl_loop fuel st cl = some (st', cl') ∧
      cl'.members.map arll.members = cl.members.map arll.members ∧
      st'.vm = st.vm ∧ st'.segconti = st.segconti ∧
      SegCtxRep st' C
        (ch.diff (asPost.map (fun a => a.members.tail.map (PMV_segp_of st))).flatten) ∧
      (∀ w, PMV_segcont_of st w ∉
          (asPost.map (fun a => a.members.tail.map (PMV_segcont_of st))).flatten →
        PMV_getseg st' w = PMV_getseg st w) ∧
      (∀ a ∈ asPost, ∀ v ∈ a.members.tail, ∀ k, PMV_getseg st v = some k →
        PMV_getseg st' v = some { k with segp := PMV_segp_of st (a.members.headD 0) }) ∧
      (∀ c, (st'.segcontl c).blk_l.map Segcont.pid =
        (st.segcontl c).blk_l.map Segcont.pid) := by
  intro asPost
  induction asPost with
  | nil =>
    intro asPre st cl ch fuel hwf hm hcur _ hrep _ _ _ hfuel
    obtain ⟨f, rfl⟩ : ∃ f, fuel = f + 1 := ⟨fuel - 1, by omega⟩
    rw [List.append_nil] at hm
    unfold SegClusterCtx_remdupl_loop
    rw [arll_next_members_end hwf (by rw [hcur, hm])]
    exact ⟨st, cl, rfl, rfl, rfl, rfl, hrep, fun _ _ => rfl,
      fun a ha => absurd ha (List.not_mem_nil _), fun _ => rfl⟩
  | cons a asPost ih =>
    intro asPre st cl ch fuel hwf hm hcur hcls hrep hch hnd hknd hfuel
    obtain ⟨f, rfl⟩ : ∃ f, fuel = f + 1 :=
      ⟨fuel - 1, by simp only [List.length_cons] at hfuel; omega⟩
    obtain ⟨hwfa, hane⟩ := hcls a (List.mem_cons_self _ _)
    obtain ⟨r, post, hma⟩ : ∃ r post, a.members = r :: post := by
      cases e : a.members with
      | nil => exact absurd e hane
      | cons r post => exact ⟨r, post, rfl⟩
    simp only [List.map_cons, List.flatten_cons, hma, List.cons_append, List.map_append,
      List.nodup_cons, List.mem_cons, List.mem_append, List.mem_map, List.tail_cons,
      List.headD_cons] at hch hnd hknd ⊢
    obtain ⟨kr, hkr, ekr, hkr0⟩ := PMV_segp_of_mem_chain hrep (hch r (Or.inl rfl))
    have hnd1 := List.nodup_append.mp hnd.2
    have hknd1 := List.nodup_append.mp hknd.2
    have hlena : a.blk_cnt = post.length + 1 := by
      rw [← arll_members_length hwfa, hma]; rfl
    obtain ⟨st1, sv2, h1, p1, p2, p3, p4, p5, p6, p7, p8⟩ :=
      SegClusterCtx_remdupl_inner_spec C r kr post [r] st
        { arll_rewind a with blk_curi := (arll_rewind a).blk_curi + 1 } ch (a.blk_cnt + 1) hwfa
        hma rfl hrep hkr hkr0 (fun v hv => hch v (Or.inr (Or.inl hv))) hnd1.1
        (by
          intro v hv e
          exact hknd.1 (Or.inl ⟨v, hv, e⟩))
        hknd1.1 (by omega)
    have hsv2 : sv2.members = a.members := by
      unfold arll.members
      rw [p1, p2]
      rfl
    have hwf2 : sv2.blk_cnt ≤ sv2.blk_l.length := by
      rw [p1, p2]; exact hwfa
    have hkey : ∀ w, PMV_segcont_of st1 w = PMV_segcont_of st w :=
      PMV_segcont_of_congr p3 p4
    have hrest : ∀ w ∈ (asPost.map arll.members).flatten,
        PMV_getseg st1 w = PMV_getseg st w := by
      intro w hw
      apply p6
      intro hm1
      exact hknd1.2.2 hm1 (List.mem_map_of_mem _ hw)
    have hmap : (asPost.map arll.members).flatten.map (PMV_segp_of st1) =
        (asPost.map arll.members).flatten.map (PMV_segp_of st) :=
      List.map_congr_left (fun w hw => PMV_segp_of_congr (hrest w hw))
    have hmapk : ∀ l : List Nat, l.map (PMV_segcont_of st1) = l.map (PMV_segcont_of st) :=
      fun l => List.map_congr_left (fun w _ => hkey w)
    have hsub : ∀ b ∈ asPost, ∀ v ∈ b.members, v ∈ (asPost.map arll.members).flatten := by
      intro b hb v hv
      exact List.mem_flatten.mpr ⟨_, List.mem_map_of_mem _ hb, hv⟩
    have hmapt : (asPost.map (fun b => b.members.tail.map (PMV_segp_of st1))).flatten =
        (asPost.map (fun b => b.members.tail.map (PMV_segp_of st))).flatten := by
      congr 1
      apply List.map_congr_left
      intro b hb
      exact List.map_congr_left
        (fun w hw => PMV_segp_of_congr (hrest w (hsub b hb w (List.mem_of_mem_tail hw))))
    have hmaptk : (asPost.map (fun b => b.members.tail.map (PMV_segcont_of st1))).flatten =
        (asPost.map (fun b => b.members.tail.map (PMV_segcont_of st))).flatten := by
      congr 1
      apply List.map_congr_left
      intro b _
      exact hmapk _
    have hm2 :
        arll.members { cl with blk_l := cl.blk_l.set asPre.length sv2, blk_curi := cl.blk_curi + 1 } =
          (asPre ++ [sv2]) ++ asPost := by
      rw [arll_set_members sv2 _ hm, List.append_assoc]
      rfl
    obtain ⟨st3, cl3, h3, q1, q2, q3, q4, q5, q6, q7⟩ :=
      ih (asPre ++ [sv2]) st1
        { cl with blk_l := cl.blk_l.set asPre.length sv2, blk_curi := cl.blk_curi + 1 }
        (ch.diff (post.map (PMV_segp_of st))) f
        (by show cl.blk_cnt ≤ (cl.blk_l.set asPre.length sv2).length
            rw [List.length_set]; exact hwf)
        hm2 (by rw [List.length_append, hcur]; rfl)
        (fun b hb => hcls b (List.mem_cons_of_mem _ hb)) p5
        (by
          intro w hw
          rw [PMV_segp_of_congr (hrest w hw)]
          refine List.mem_diff_of_mem (hch w (Or.inr (Or.inr hw))) ?_
          intro hm1
          exact hnd1.2.2 hm1 (List.mem_map_of_mem _ hw))
        (by rw [hmap]; exact hnd1.2.1)
        (by rw [hmapk]; exact hknd1.2.1)
        (by simp only [List.length_cons] at hfuel; omega)
    unfold SegClusterCtx_remdupl_loop
    rw [arll_next_members_lt hwf hm hcur]
    dsimp only
    rw [@arll_next_members_lt _ (arll_rewind a) [] post r hwfa hma rfl]
    dsimp only [arll_rewind] at h1 ⊢
    rw [h1]
    dsimp only
    rw [hcur]
    rw [hcur] at h3
    rw [h3]
    refine ⟨st3, cl3, rfl, ?_, by rw [q2, p3], by rw [q3, p4], ?_, ?_, ?_, ?_⟩
    · rw [q1, hm2, hm]
      simp only [List.map_append, List.map_cons, List.map_nil, hsv2, List.append_assoc,
        List.singleton_append]
    · rw [List.diff_append, ← hmapt]
      exact q4
    · intro w hw
      rw [not_or] at hw
      rw [q5 w (by rw [hkey, hmaptk]; exact hw.2)]
      exact p6 w (by
        intro hm1
        obtain ⟨x, hx, ex⟩ := List.mem_map.mp hm1
        exact hw.1 ⟨x, hx, ex⟩)
    · intro b hb v hv k hk
      rcases hb with rfl | hb
      · rw [hma] at hv ⊢
        simp only [List.tail_cons, List.headD_cons] at hv ⊢
        rw [q5 v (by
          rw [hkey, hmaptk]
          intro hm1
          obtain ⟨l, hl, hvl⟩ := List.mem_flatten.mp hm1
          obtain ⟨b, hb, rfl⟩ := List.mem_map.mp hl
          obtain ⟨x, hx, ex⟩ := List.mem_map.mp hvl
          refine hknd1.2.2 (List.mem_map_of_mem _ hv) ?_
          rw [← ex]
          exact List.mem_map_of_mem _ (hsub b hb x (List.mem_of_mem_tail hx)))]
        rw [p7 v hv k hk, ekr]
      · have hv1 := hsub b hb v (List.mem_of_mem_tail hv)
        rw [q6 b hb v hv k (by rw [hrest v hv1]; exact hk)]
        have hh : b.members.headD 0 ∈ (asPost.map arll.members).flatten := by
          apply hsub b hb
          cases e : b.members with
          | nil => rw [e] at hv; exact absurd hv (List.not_mem_nil _)
          | cons x xs => exact List.mem_cons_self _ _
        rw [PMV_segp_of_congr (hrest _ hh)]
    · intro c
      rw [q7 c, p8 c]


theorem PMV_segcont_of_nodup {st : SCState} {l : List Nat}
    (hval : ∀ v ∈ l, ∃ k, PMV_getseg st v = some k)
    (hnd : (l.map (PMV_segp_of st)).Nodup) : (l.map (PMV_segcont_of st)).Nodup := by
  unfold List.Nodup at hnd ⊢
  rw [List.pairwise_map] at hnd ⊢
  refine List.Pairwise.imp_of_mem ?_ hnd
  intro a b ha hb hab e
  apply hab
  obtain ⟨ka, hka⟩ := hval a ha
  obtain ⟨kb, hkb⟩ := hval b hb
  have := PMV_getseg_same_cont hka hkb e
  unfold PMV_segp_of
  rw [hka, hkb, this]

theorem length_diff_add {d : List Nat} : ∀ (ch : List Nat), d.Nodup → (∀ x ∈ d, x ∈ ch) →
    (ch.diff d).length + d.length = ch.length := by
  induction d with
  | nil => intro ch _ _; rfl
  | cons x d ih =>
    intro ch hnd hsub
    obtain ⟨hx, hnd1⟩ := List.nodup_cons.mp hnd
    have hxc := hsub x (List.mem_cons_self _ _)
    rw [List.diff_cons, List.length_cons, ← Nat.add_assoc,
      ih (ch.erase x) hnd1 (fun y hy =>
        (List.mem_erase_of_ne (fun (e : y = x) => hx (by rw [← e]; exact hy))).mpr
          (hsub y (List.mem_cons_of_mem _ hy))),
      List.length_erase_of_mem hxc]
    have := List.length_pos_of_mem hxc
    omega

theorem tails_sublist_flatten {β : Type} (f : Nat → β) : ∀ (cs : List (List Nat)),
    List.Sublist (cs.map (fun c => c.tail.map f)).flatten (cs.flatten.map f) := by
  intro cs
  induction cs with
  | nil => exact List.Sublist.refl _
  | cons c cs ih =>
    rw [List.map_cons, List.flatten_cons, List.flatten_cons, List.map_append]
    exact List.Sublist.append (List.Sublist.map f (List.tail_sublist c)) ih

theorem tails_length : ∀ (cs : List (List Nat)) (f : Nat → Nat),
    (cs.map (fun c => c.tail.map f)).flatten.length = (cs.map (fun c => c.length - 1)).sum := by
  intro cs f
  induction cs with
  | nil => rfl
  | cons c cs ih =>
    rw [List.map_cons, List.flatten_cons, List.length_append, ih, List.map_cons, List.sum_cons,
      List.length_map, List.length_tail]

/-- A vertex is not the first member of a cluster and a later member of a
cluster, if no vertex stands in the clusters twice. -/
theorem head_not_mem_tails {cs : List (List Nat)} (hnd : cs.flatten.Nodup) {c b : List Nat}
    (hc : c ∈ cs) (hb : b ∈ cs) (hne : c ≠ []) : c.headD 0 ∉ b.tail := by
  obtain ⟨h1, h2⟩ := List.nodup_flatten.mp hnd
  intro hm
  have hhead : c.headD 0 ∈ c := by
    cases c with
    | nil => exact absurd rfl hne
    | cons x xs => exact List.mem_cons_self _ _
  by_cases e : c = b
  · subst e
    cases c with
    | nil => exact absurd rfl hne
    | cons x xs =>
      exact (List.nodup_cons.mp (h1 _ hc)).1 hm
  · have hd : List.Disjoint c b :=
      List.Pairwise.forall (fun _ _ h => List.Disjoint.symm h) h2 hc hb e
    exact hd hhead (List.mem_of_mem_tail hm)


/-- Claim C27. For a cluster context whose clusters are not empty, over
vertices whose segments are pairwise different segments of the segment context
`C` with the list `ch`, `SegClusterCtx_remdupl` returns and keeps the clusters,
the vertices and their container indices; afterwards the container of every
member of a cluster holds the segment that the first member of the cluster had
(and still has) and the pid it had before, every container of every PM context
has kept its pid, the list of the segment context is the list `ch` without the
segments of the members after the first one of every cluster, and the counter
`size` of the segment context has gone down by (cluster size - 1) for every
cluster. -/
theorem SegClusterCtx_remdupl_dedup (st : SCState) (ctx : SegClusterCtx) (C : Nat)
    (ch : List Nat)
    (hwf : ctx.cluster_arll.blk_cnt ≤ ctx.cluster_arll.blk_l.length)
    (hcls : ∀ a ∈ ctx.cluster_arll.members, a.blk_cnt ≤ a.blk_l.length ∧ a.members ≠ [])
    (hrep : SegCtxRep st C ch)
    (hseg : ∀ v ∈ ctx.clusters.flatten, PMV_segp_of st v ∈ ch)
    (hnd : (ctx.clusters.flatten.map (PMV_segp_of st)).Nodup) :
    ∃ st' ctx', SegClusterCtx_remdupl st ctx = some (st', ctx') ∧
      ctx'.clusters = ctx.clusters ∧ ctx'.segv_grp = ctx.segv_grp ∧
      st'.vm = st.vm ∧ st'.segconti = st.segconti ∧
      (∀ c ∈ ctx.clusters, ∀ v ∈ c, ∃ k k', PMV_getseg st v = some k ∧
        PMV_getseg st' v = some k' ∧ k'.segp = PMV_segp_of st (c.headD 0) ∧ k'.pid = k.pid) ∧
      (∀ c, (st'.segcontl c).blk_l.map Segcont.pid = (st.segcontl c).blk_l.map Segcont.pid) ∧
      SegCtxRep st' C (ch.diff (ctx.duplicates st)) ∧
      (st'.ectx C).size + (ctx.clusters.map (fun c => c.length - 1)).sum = (st.ectx C).size := by
  have hval : ∀ v ∈ ctx.clusters.flatten, ∃ k, PMV_getseg st v = some k := by
    intro v hv
    obtain ⟨k, hk, _⟩ := PMV_segp_of_mem_chain hrep (hseg v hv)
    exact ⟨k, hk⟩
  have hknd := PMV_segcont_of_nodup hval hnd
  have hMnd : ctx.clusters.flatten.Nodup := List.Nodup.of_map _ hnd
  obtain ⟨st1, cl1, h1, q1, q2, q3, q4, q5, q6, q7⟩ :=
    SegClusterCtx_remdupl_loop_spec C ctx.cluster_arll.members [] st
      (arll_rewind ctx.cluster_arll) ch (ctx.cluster_arll.blk_cnt + 1) hwf rfl rfl hcls hrep
      hseg hnd hknd (by rw [arll_members_length hwf])
  have hdup : (ctx.cluster_arll.members.map
      (fun a => a.members.tail.map (PMV_segp_of st))).flatten = ctx.duplicates st := by
    unfold SegClusterCtx.duplicates SegClusterCtx.clusters
    rw [List.map_map]
    rfl
  have hdupk : (ctx.cluster_arll.members.map
      (fun a => a.members.tail.map (PMV_segcont_of st))).flatten =
      (ctx.clusters.map (fun c => c.tail.map (PMV_segcont_of st))).flatten := by
    unfold SegClusterCtx.clusters
    rw [List.map_map]
    rfl
  rw [hdup] at q4
  rw [hdupk] at q5
  have hcne : ∀ c ∈ ctx.clusters, c ≠ [] := by
    intro c hc
    obtain ⟨a, ha, rfl⟩ := List.mem_map.mp hc
    exact (hcls a ha).2
  unfold SegClusterCtx_remdupl
  rw [h1]
  refine ⟨st1, _, rfl, q1, rfl, q2, q3, ?_, q7, q4, ?_⟩
  · intro c hc v hv
    obtain ⟨k, hk⟩ := hval v (List.mem_flatten.mpr ⟨c, hc, hv⟩)
    obtain ⟨a, ha, rfl⟩ := List.mem_map.mp hc
    cases e : a.members with
    | nil => exact absurd e (hcls a ha).2
    | cons r post =>
      rw [e] at hv
      rcases List.mem_cons.mp hv with rfl | hv
      · refine ⟨k, k, hk, ?_, ?_, rfl⟩
        · rw [q5, hk]
          intro hm
          obtain ⟨l, hl, hvl⟩ := List.mem_flatten.mp hm
          obtain ⟨b, hb, rfl⟩ := List.mem_map.mp hl
          obtain ⟨x, hx, ex⟩ := List.mem_map.mp hvl
          have hxM : x ∈ ctx.clusters.flatten :=
            List.mem_flatten.mpr ⟨b, hb, List.mem_of_mem_tail hx⟩
          have hvM : v ∈ ctx.clusters.flatten :=
            List.mem_flatten.mpr ⟨a.members, hc, by rw [e]; exact List.mem_cons_self _ _⟩
          have := List.inj_on_of_nodup_map hknd hxM hvM ex
          subst this
          refine head_not_mem_tails hMnd hc hb (hcne _ hc) ?_
          rw [e]
          exact hx
        · unfold PMV_segp_of
          simp only [List.headD_cons]
          rw [hk]
      · refine ⟨k, _, hk, q6 a ha v (by rw [e]; exact hv) k hk, ?_, rfl⟩
        rw [e]
  · rw [q4.2.2.2, hrep.2.2.2, ← length_diff_add ch
      ((hnd.sublist (tails_sublist_flatten (PMV_segp_of st) ctx.clusters)))
      (fun x hx => by
        obtain ⟨v, hv, rfl⟩ := List.mem_map.mp
          ((tails_sublist_flatten (PMV_segp_of st) ctx.clusters).subset hx)
        exact hseg v hv)]
    unfold SegClusterCtx.duplicates
    rw [tails_length]

theorem sc_example_SegCtxRep : SegCtxRep sc_example 7 [103, 102, 101] :=
  ⟨by decide, ⟨rfl, by decide, rfl, rfl, rfl, by decide, rfl, rfl, rfl, by decide, rfl, rfl,
    rfl⟩, by decide, rfl⟩

theorem SegClusterCtx_remdupl_dedup_witness :
    ∃ st' ctx', SegClusterCtx_remdupl sc_example sc_example_ctx = some (st', ctx') ∧
      ctx'.clusters = sc_example_ctx.clusters ∧ ctx'.segv_grp = sc_example_ctx.segv_grp ∧
      st'.vm = sc_example.vm ∧ st'.segconti = sc_example.segconti ∧
      (∀ c ∈ sc_example_ctx.clusters, ∀ v ∈ c, ∃ k k', PMV_getseg sc_example v = some k ∧
        PMV_getseg st' v = some k' ∧ k'.segp = PMV_segp_of sc_example (c.headD 0) ∧
        k'.pid = k.pid) ∧
      (∀ c, (st'.segcontl c).blk_l.map Segcont.pid =
        (sc_example.segcontl c).blk_l.map Segcont.pid) ∧
      SegCtxRep st' 7 ([103, 102, 101].diff (sc_example_ctx.duplicates sc_example)) ∧
      (st'.ectx 7).size + (sc_example_ctx.clusters.map (fun c => c.length - 1)).sum =
        (sc_example.ectx 7).size :=
  SegClusterCtx_remdupl_dedup sc_example sc_example_ctx 7 [103, 102, 101] (by decide)
    (by decide) sc_example_SegCtxRep (by decide) (by decide)

theorem sc_example_remdupl :
    sc_example_ctx.clusters = [[1, 3], [2]] ∧ sc_example_ctx.duplicates sc_example = [103] ∧
    ((SegClusterCtx_remdupl sc_example sc_example_ctx).map (fun r =>
      ([1, 2, 3].map (PMV_getseg r.1), (r.1.ectx 7).elem_dll, (r.1.ectx 7).size,
        (r.1.em 102).prev_next_pp))) =
      some ([some { segp := 101, pid := 0 }, some { segp := 102, pid := 0 },
        some { segp := 101, pid := 1 }], 102, 2, ElemSlot.elem_dll 7) := by
  decide



/-! ## The search of terminating subtrees (graph_miner.c) -/

/-- The search `GM_find_terminating` on an evaluated IR without wrappers: it
records roots of subtrees of the haystack that have the shape of the needle
and share no vertex. -/
theorem GM_find_terminating_spec (junk : Nat) (N : VTree) (hN : N ≠ VTree.nil) :
    ∀ (H : VTree) (fuel : Nat) (m : PMVMem) (l : arll Nat) (xs : List Nat),
    H.Held m → N.Held m → (H.nodes ++ N.nodes).Nodup → H.FlagsOK m → N.FlagsOK m →
    ArllRep l xs → xs.length + H.size < 33554432 → 3 * (H.size + N.size) + 3 ≤ fuel →
    ∃ m' l', ∃ ts : List VTree,
      GM_find_terminating junk fuel m H.root N.root l = some (m', l') ∧
      ArllRep l' (xs ++ ts.map VTree.root) ∧ l'.blk_curi = l.blk_curi ∧
      Gd m m' (H.nodes ++ N.nodes) ∧ H.FlagsOK m' ∧ N.FlagsOK m' ∧ ts.length ≤ H.size ∧
      (∀ t ∈ ts, SubtreeOf H t ∧ t ≠ VTree.nil ∧ t.shape = N.shape) ∧
      ts.Pairwise (fun t u => ∀ a ∈ t.nodes, a ∉ u.nodes) := by
  intro H
  induction H with
  | nil =>
    intro fuel m l xs _ _ _ _ hfN hl _ hfuel
    obtain ⟨f, rfl⟩ : ∃ f, fuel = f + 1 := ⟨fuel - 1, by omega⟩
    refine ⟨m, l, [], ?_, by rw [List.map_nil, List.append_nil]; exact hl, rfl, Gd_refl _ _,
      trivial, hfN, Nat.le_refl _, fun t ht => absurd ht (List.not_mem_nil _),
      List.Pairwise.nil⟩
    unfold GM_find_terminating
    rw [if_pos (show VTree.nil.root = 0 from rfl)]
  | wrap a wp np _ _ =>
    intro fuel m l xs hH
    exact absurd hH.1 (fun x => x)
  | seg a np ih =>
    intro fuel m l xs hH hNh hnd hfH hfN hl hlen hfuel
    obtain ⟨f, rfl⟩ : ∃ f, fuel = f + 1 := ⟨fuel - 1, by omega⟩
    have hsz : (VTree.seg a np).size = 1 + np.size := rfl
    obtain ⟨m1, h1, g1, f1, f2⟩ := (PMV_good_specs f).2.2.2.1 m (VTree.seg a np) N true
      (fun h => VTree.noConfusion h) hN hH hNh hnd hfH hfN (by omega)
    have hH1 := VTree.Held_of_noflags g1.1 hH
    have hN1 := VTree.Held_of_noflags g1.1 hNh
    have ha0 : a ≠ 0 := hH.2.1.1
    have hn0 : N.root ≠ 0 := VTree.root_ne_zero hN hNh.2.1
    rw [show (VTree.seg a np).root = a from rfl]
    unfold GM_find_terminating
    rw [if_neg ha0]
    have h1' : PMV_is_similar f m a N.root true =
        some (m1, if (VTree.seg a np).shape = N.shape then 1 else 0) := h1
    rw [h1']
    dsimp only
    by_cases hs : (VTree.seg a np).shape = N.shape
    · rw [if_pos hs, if_pos (by decide)]
      obtain ⟨l1, hp, rl1, hc1⟩ :=
        arll_push_rep junk sizeof_PMVp a (by decide) (by decide) hl (by omega)
      rw [hp]
      refine ⟨m1, l1, [VTree.seg a np], rfl, rl1, hc1, g1, f1, f2, by rw [hsz]; simp, ?_,
        List.pairwise_singleton _ _⟩
      intro t ht
      rw [List.mem_singleton] at ht
      subst ht
      exact ⟨SubtreeOf.refl _, fun h => VTree.noConfusion h, hs⟩
    · rw [if_neg hs, if_neg (by decide), if_neg hn0]
      by_cases hd : (m1 a).depth < (m1 N.root).depth
      · rw [if_pos hd]
        exact ⟨m1, l, [], rfl, by rw [List.map_nil, List.append_nil]; exact hl, rfl, g1, f1, f2,
          Nat.zero_le _, fun t ht => absurd ht (List.not_mem_nil _), List.Pairwise.nil⟩
      rw [if_neg hd]
      by_cases hv : (m1 a).vcnt < (m1 N.root).vcnt
      · rw [if_pos hv]
        exact ⟨m1, l, [], rfl, by rw [List.map_nil, List.append_nil]; exact hl, rfl, g1, f1, f2,
          Nat.zero_le _, fun t ht => absurd ht (List.not_mem_nil _), List.Pairwise.nil⟩
      rw [if_neg hv, if_pos hH1.2.1.2.1]
      dsimp only
      rw [hH1.2.1.2.2.1]
      have hndnp : (np.nodes ++ N.nodes).Nodup :=
        nodup_append_of_subset hnd (List.nodup_cons.mp (List.nodup_append.mp hnd).1).2
          (List.nodup_append.mp hnd).2.1 (fun x hx => List.mem_cons_of_mem _ hx) (fun x hx => hx)
      obtain ⟨m2, l2, ts, h2, rl2, hc2, g2, q1, q2, q3, q4, q5⟩ :=
        ih f m1 l xs (VTree.Held_npt hH1) hN1 hndnp f1.2 f2 hl (by omega) (by omega)
      rw [h2]
      have ham : m2 a = m1 a := by
        apply g2.2
        intro hm
        rcases List.mem_append.mp hm with hm | hm
        · exact (List.nodup_cons.mp (List.nodup_append.mp hnd).1).1 hm
        · exact (List.nodup_append.mp hnd).2.2 (List.mem_cons_self _ _) hm
      refine ⟨m2, l2, ts, rfl, rl2, hc2, ?_, ⟨?_, q1⟩, q2, by omega, ?_, q5⟩
      · exact Gd_trans g1 g2 (fun _ h => h) (fun x hx => by
          rcases List.mem_append.mp hx with hx | hx
          · exact List.mem_append_left _ (List.mem_cons_of_mem _ hx)
          · exact List.mem_append_right _ hx)
      · rw [ham]; exact f1.1
      · intro t ht
        exact ⟨SubtreeOf.seg_np _ _ _ (q4 t ht).1, (q4 t ht).2⟩
  | insc a pp cp np ihp ihc ihn =>
    intro fuel m l xs hH hNh hnd hfH hfN hl hlen hfuel
    obtain ⟨f, rfl⟩ : ∃ f, fuel = f + 1 := ⟨fuel - 1, by omega⟩
    have hsz : (VTree.insc a pp cp np).size = 1 + pp.size + cp.size + np.size := rfl
    obtain ⟨m1, h1, g1, f1, f2⟩ := (PMV_good_specs f).2.2.2.1 m (VTree.insc a pp cp np) N true
      (fun h => VTree.noConfusion h) hN hH hNh hnd hfH hfN (by omega)
    have hH1 := VTree.Held_of_noflags g1.1 hH
    have hN1 := VTree.Held_of_noflags g1.1 hNh
    have ha0 : a ≠ 0 := hH.2.1.1
    have hn0 : N.root ≠ 0 := VTree.root_ne_zero hN hNh.2.1
    obtain ⟨hndH, hndN, hdis⟩ := List.nodup_append.mp hnd
    obtain ⟨dp, dc, dn, ap, ac, an, pc, pn, cn⟩ := VTree.insc_nodup hndH
    have haN : a ∉ N.nodes := fun hm => hdis (List.mem_cons_self _ _) hm
    have hpN : ∀ x ∈ pp.nodes, x ∉ N.nodes := fun x hx hm => hdis (VTree.mem_insc_pp hx) hm
    have hcN : ∀ x ∈ cp.nodes, x ∉ N.nodes := fun x hx hm => hdis (VTree.mem_insc_cp hx) hm
    have hnN : ∀ x ∈ np.nodes, x ∉ N.nodes := fun x hx hm => hdis (VTree.mem_insc_np hx) hm
    rw [show (VTree.insc a pp cp np).root = a from rfl]
    unfold GM_find_terminating
    rw [if_neg ha0]
    have h1' : PMV_is_similar f m a N.root true =
        some (m1, if (VTree.insc a pp cp np).shape = N.shape then 1 else 0) := h1
    rw [h1']
    dsimp only
    by_cases hs : (VTree.insc a pp cp np).shape = N.shape
    · rw [if_pos hs, if_pos (by decide)]
      obtain ⟨l1, hp, rl1, hc1⟩ :=
        arll_push_rep junk sizeof_PMVp a (by decide) (by decide) hl (by omega)
      rw [hp]
      refine ⟨m1, l1, [VTree.insc a pp cp np], rfl, rl1, hc1, g1, f1, f2, by rw [hsz]; simp; omega,
        ?_, List.pairwise_singleton _ _⟩
      intro t ht
      rw [List.mem_singleton] at ht
      subst ht
      exact ⟨SubtreeOf.refl _, fun h => VTree.noConfusion h, hs⟩
    · rw [if_neg hs, if_neg (by decide), if_neg hn0]
      by_cases hd : (m1 a).depth < (m1 N.root).depth
      · rw [if_pos hd]
        exact ⟨m1, l, [], rfl, by rw [List.map_nil, List.append_nil]; exact hl, rfl, g1, f1, f2,
          Nat.zero_le _, fun t ht => absurd ht (List.not_mem_nil _), List.Pairwise.nil⟩
      rw [if_neg hd]
      by_cases hv : (m1 a).vcnt < (m1 N.root).vcnt
      · rw [if_pos hv]
        exact ⟨m1, l, [], rfl, by rw [List.map_nil, List.append_nil]; exact hl, rfl, g1, f1, f2,
          Nat.zero_le _, fun t ht => absurd ht (List.not_mem_nil _), List.Pairwise.nil⟩
      rw [if_neg hv, if_neg (by rw [hH1.2.1.2.1]; decide), if_pos hH1.2.1.2.1]
      rw [hH1.2.1.2.2.1]
      -- the parent branch
      obtain ⟨m2, l2, tsp, h2, rl2, hc2, g2, p1, p2, p3, p4, p5⟩ :=
        ihp f m1 l xs (VTree.Held_pp hH1) hN1
          (List.nodup_append.mpr ⟨dp, hndN, fun _ hx hm => hpN _ hx hm⟩) f1.2.1 f2 hl (by omega)
          (by omega)
      rw [h2]
      dsimp only
      have ham2 : m2 a = m1 a :=
        g2.2 a (fun hm => (List.mem_append.mp hm).elim ap haN)
      rw [ham2, hH1.2.1.2.2.2.1]
      -- the child branch
      have hH2 := VTree.Held_of_noflags g2.1 hH1
      obtain ⟨m3, l3, tsc, h3, rl3, hc3, g3, c1, c2, c3, c4, c5⟩ :=
        ihc f m2 l2 (xs ++ tsp.map VTree.root) (VTree.Held_cp hH2)
          (VTree.Held_of_noflags g2.1 hN1)
          (List.nodup_append.mpr ⟨dc, hndN, fun _ hx hm => hcN _ hx hm⟩)
          (VTree.FlagsOK_frame cp g2
            (fun x hx hm => (List.mem_append.mp hm).elim (fun h => pc x h hx) (hcN x hx))
            f1.2.2.1)
          p2 rl2 (by rw [List.length_append, List.length_map]; omega) (by omega)
      rw [h3]
      dsimp only
      have ham3 : m3 a = m1 a := by
        rw [g3.2 a (fun hm => (List.mem_append.mp hm).elim ac haN), ham2]
      rw [ham3, hH1.2.1.2.2.2.2.1]
      -- what follows the inosculation
      have hH3 := VTree.Held_of_noflags g3.1 hH2
      obtain ⟨m4, l4, tsn, h4, rl4, hc4, g4, n1, n2, n3, n4, n5⟩ :=
        ihn f m3 l3 (xs ++ tsp.map VTree.root ++ tsc.map VTree.root) (VTree.Held_npt hH3)
          (VTree.Held_of_noflags g3.1 (VTree.Held_of_noflags g2.1 hN1))
          (List.nodup_append.mpr ⟨dn, hndN, fun _ hx hm => hnN _ hx hm⟩)
          (VTree.FlagsOK_frame np g3
            (fun x hx hm => (List.mem_append.mp hm).elim (fun h => cn x h hx) (hnN x hx))
            (VTree.FlagsOK_frame np g2
              (fun x hx hm => (List.mem_append.mp hm).elim (fun h => pn x h hx) (hnN x hx))
              f1.2.2.2))
          c2 rl3 (by simp only [List.length_append, List.length_map]; omega) (by omega)
      rw [h4]
      have ham4 : m4 a = m1 a := by
        rw [g4.2 a (fun hm => (List.mem_append.mp hm).elim an haN), ham3]
      refine ⟨m4, l4, tsp ++ tsc ++ tsn, rfl, ?_, by rw [hc4, hc3, hc2], ?_, ⟨?_, ?_, ?_, n1⟩, n2,
        ?_, ?_, ?_⟩
      · rw [List.map_append, List.map_append, ← List.append_assoc, ← List.append_assoc]
        exact rl4
      · refine Gd_trans (Gd_trans (Gd_trans g1 g2 (fun _ h => h) ?_) g3 (fun _ h => h) ?_) g4
          (fun _ h => h) ?_
        · intro x hx
          exact (List.mem_append.mp hx).elim
            (fun h => List.mem_append_left _ (VTree.mem_insc_pp h))
            (fun h => List.mem_append_right _ h)
        · intro x hx
          exact (List.mem_append.mp hx).elim
            (fun h => List.mem_append_left _ (VTree.mem_insc_cp h))
            (fun h => List.mem_append_right _ h)
        · intro x hx
          exact (List.mem_append.mp hx).elim
            (fun h => List.mem_append_left _ (VTree.mem_insc_np h))
            (fun h => List.mem_append_right _ h)
      · rw [ham4]; exact f1.1
      · exact VTree.FlagsOK_frame pp g4
          (fun x hx hm => (List.mem_append.mp hm).elim (pn x hx) (hpN x hx))
          (VTree.FlagsOK_frame pp g3
            (fun x hx hm => (List.mem_append.mp hm).elim (pc x hx) (hpN x hx)) p1)
      · exact VTree.FlagsOK_frame cp g4
          (fun x hx hm => (List.mem_append.mp hm).elim (cn x hx) (hcN x hx)) c1
      · simp only [List.length_append]; omega
      · intro t ht
        rcases List.mem_append.mp ht with ht | ht
        · rcases List.mem_append.mp ht with ht | ht
          · exact ⟨SubtreeOf.insc_pp _ _ _ _ _ (p4 t ht).1, (p4 t ht).2⟩
          · exact ⟨SubtreeOf.insc_cp _ _ _ _ _ (c4 t ht).1, (c4 t ht).2⟩
        · exact ⟨SubtreeOf.insc_np _ _ _ _ _ (n4 t ht).1, (n4 t ht).2⟩
      · refine List.pairwise_append.mpr ⟨List.pairwise_append.mpr ⟨p5, c5, ?_⟩, n5, ?_⟩
        · intro t ht u hu x hx hxu
          exact pc x (SubtreeOf_nodes (p4 t ht).1 x hx) (SubtreeOf_nodes (c4 u hu).1 x hxu)
        · intro t ht u hu x hx hxu
          have hxn := SubtreeOf_nodes (n4 u hu).1 x hxu
          rcases List.mem_append.mp ht with ht | ht
          · exact pn x (SubtreeOf_nodes (p4 t ht).1 x hx) hxn
          · exact cn x (SubtreeOf_nodes (c4 t ht).1 x hx) hxn


/-- The search on an IR without wrappers. For a haystack `H` and a needle
`N`, not NULL, that are trees of an evaluated IR without wrappers and share no
vertex, `GM_find_terminating(haystack, needle, similarl)` returns and appends to the
list the roots of trees `ts` under pointers of the haystack; for each of them
`PMV_is_similar(m, needle, 1)` returns 1 in the memory after the call, and no
two of them share a vertex: no recorded match is a vertex of the tree under
another recorded match, that is, reached from it through pp, cp or np. -/
theorem GM_find_terminating_matches (junk fuel : Nat) (m : PMVMem) (H N : VTree)
    (l : arll Nat) (xs : List Nat) (hN : N ≠ VTree.nil) (hpH : H.Plain) (hpN : N.Plain)
    (hrH : H.Rep m) (hrN : N.Rep m) (hcH : H.Corr m) (hcN : N.Corr m) (hfH : H.FlagsOK m)
    (hfN : N.FlagsOK m) (hnd : (H.nodes ++ N.nodes).Nodup) (hl : ArllRep l xs)
    (hlen : xs.length + H.size < 33554432) (hfuel : 3 * (H.size + N.size) + 3 ≤ fuel) :
    ∃ m' l', ∃ ts : List VTree,
      GM_find_terminating junk fuel m H.root N.root l = some (m', l') ∧
      l'.members = xs ++ ts.map VTree.root ∧ l'.blk_cnt = xs.length + ts.length ∧
      (∀ t ∈ ts, SubtreeOf H t ∧ t ≠ VTree.nil ∧ t.Rep m' ∧
        ∃ m'', PMV_is_similar fuel m' t.root N.root true = some (m'', 1)) ∧
      ts.Pairwise (fun t u => u.root ∉ t.nodes ∧ t.root ∉ u.nodes) ∧
      ts.Pairwise (fun t u => ∀ a ∈ t.nodes, a ∉ u.nodes) := by
  obtain ⟨m', l', ts, h, rl, _, g, f1, f2, _, q1, q2⟩ :=
    GM_find_terminating_spec junk N hN H fuel m l xs ⟨hpH, hrH, hcH⟩ ⟨hpN, hrN, hcN⟩ hnd hfH hfN
      hl hlen hfuel
  have hH' := VTree.Held_of_noflags g.1 (⟨hpH, hrH, hcH⟩ : H.Held m)
  have hN' := VTree.Held_of_noflags g.1 (⟨hpN, hrN, hcN⟩ : N.Held m)
  refine ⟨m', l', ts, h, rl.1, by rw [rl.2.1, List.length_append, List.length_map], ?_, ?_, q2⟩
  · intro t ht
    obtain ⟨hsub, htn, hsh⟩ := q1 t ht
    refine ⟨hsub, htn, SubtreeOf_Rep hsub hH'.2.1, ?_⟩
    obtain ⟨m'', h2, _⟩ := (PMV_good_specs fuel).2.2.2.1 m' t N true htn hN
      ⟨SubtreeOf_Plain hsub hpH, SubtreeOf_Rep hsub hH'.2.1, SubtreeOf_Corr hsub hH'.2.2⟩ hN'
      (nodup_append_of_subset hnd (SubtreeOf_nodup hsub (List.nodup_append.mp hnd).1)
        (List.nodup_append.mp hnd).2.1 (SubtreeOf_nodes hsub) (fun _ hx => hx))
      (SubtreeOf_FlagsOK hsub f1) f2 (by have := SubtreeOf_size hsub; omega)
    rw [if_pos hsh] at h2
    exact ⟨m'', h2⟩
  · refine List.Pairwise.imp_of_mem ?_ q2
    intro t u ht hu hd
    exact ⟨fun hm => hd _ hm (VTree.root_mem_nodes (q1 u hu).2.1),
      fun hm => hd _ (VTree.root_mem_nodes (q1 t ht).2.1) hm⟩

theorem pm_tail_tree_Rep : pm_tail_tree.Rep pm_tail_built := by
  unfold pm_tail_tree
  simp only [VTree.Rep, VTree.root]
  decide

theorem pm_tail_eval : PMV_eval_r 12 pm_tail_built 1 true = some pm_tail := by
  obtain ⟨m', h, _⟩ := (PMV_specs 12).1 pm_tail_built pm_tail_tree true (by decide)
    pm_tail_tree_Rep (by decide) (by decide)
  have h' : PMV_eval_r 12 pm_tail_built 1 true = some m' := h
  unfold pm_tail
  simp only [h', Option.getD_some]

/-- The subtrees of the example are trees of an evaluated IR. -/
theorem pm_tail_established (t : VTree) (h : SubtreeOf pm_tail_tree t) :
    t.Plain ∧ t.Rep pm_tail ∧ t.Corr pm_tail ∧ t.FlagsOK pm_tail :=
  PMV_eval_r_establishes pm_tail_built pm_tail pm_tail_tree t 12 (by decide)
    ⟨by decide, by decide, trivial, trivial, trivial⟩ pm_tail_tree_Rep (by decide) (by decide)
    (by decide) pm_tail_eval h

theorem arll_example_empty_rep : ArllRep arll_example_empty ([] : List Nat) :=
  ⟨rfl, rfl, rfl, by decide, by decide⟩

theorem GM_find_terminating_matches_witness :
    ∃ m' l', ∃ ts : List VTree,
      GM_find_terminating 0 15 pm_tail (VTree.seg 2 (VTree.seg 4 VTree.nil)).root
        (VTree.seg 3 VTree.nil).root arll_example_empty = some (m', l') ∧
      l'.members = [] ++ ts.map VTree.root ∧ l'.blk_cnt = ([] : List Nat).length + ts.length ∧
      (∀ t ∈ ts, SubtreeOf (VTree.seg 2 (VTree.seg 4 VTree.nil)) t ∧ t ≠ VTree.nil ∧ t.Rep m' ∧
        ∃ m'', PMV_is_similar 15 m' t.root (VTree.seg 3 VTree.nil).root true = some (m'', 1)) ∧
      ts.Pairwise (fun t u => u.root ∉ t.nodes ∧ t.root ∉ u.nodes) ∧
      ts.Pairwise (fun t u => ∀ a ∈ t.nodes, a ∉ u.nodes) :=
  GM_find_terminating_matches 0 15 pm_tail (VTree.seg 2 (VTree.seg 4 VTree.nil))
    (VTree.seg 3 VTree.nil) arll_example_empty [] (by decide)
    (pm_tail_established _ (SubtreeOf.insc_pp 1 _ _ _ _ (SubtreeOf.refl _))).1
    (pm_tail_established _ (SubtreeOf.insc_cp 1 _ _ _ _ (SubtreeOf.refl _))).1
    (pm_tail_established _ (SubtreeOf.insc_pp 1 _ _ _ _ (SubtreeOf.refl _))).2.1
    (pm_tail_established _ (SubtreeOf.insc_cp 1 _ _ _ _ (SubtreeOf.refl _))).2.1
    (pm_tail_established _ (SubtreeOf.insc_pp 1 _ _ _ _ (SubtreeOf.refl _))).2.2.1
    (pm_tail_established _ (SubtreeOf.insc_cp 1 _ _ _ _ (SubtreeOf.refl _))).2.2.1
    (pm_tail_established _ (SubtreeOf.insc_pp 1 _ _ _ _ (SubtreeOf.refl _))).2.2.2
    (pm_tail_established _ (SubtreeOf.insc_cp 1 _ _ _ _ (SubtreeOf.refl _))).2.2.2
    (by decide) arll_example_empty_rep (by decide) (by decide)

/-- In the example the search finds the tail of the parent branch. -/
theorem pm_tail_found :
    (GM_find_terminating 0 15 pm_tail 2 3 arll_example_empty).map (fun r => r.2.members) =
      some [4] := by
  decide!



/-! ## The symmetric pass (graph_miner.c) -/

theorem PMV.nogp_fields {v w : PMV} (h : v.nogp = w.nogp) :
    v.type = w.type ∧ v.np = w.np ∧ v.pp = w.pp ∧ v.cp = w.cp ∧ v.hash = w.hash ∧
    v.depth = w.depth ∧ v.vcnt = w.vcnt ∧ v.flags = w.flags ∧ v.ctxp = w.ctxp ∧
    v.prevnpp = w.prevnpp := by
  unfold PMV.nogp at h
  injection h with h1 h2 h3 h4 h5 h6 h7 h8 h9 h10 h11
  exact ⟨h1, h2, h10, h11, h8, h6, h7, h9, h5, h3⟩

theorem PMVG.novpl_fields {g h : PMVG} (e : g.novpl = h.novpl) :
    g.next_p = h.next_p ∧ g.prev_next_pp = h.prev_next_pp ∧ g.ctxp = h.ctxp ∧
    g.cpmv = h.cpmv := by
  unfold PMVG.novpl at e
  injection e with h1 h2 h3 h4 h5 h6 h7
  exact ⟨h1, h2, h3, h6⟩

theorem PMVG.nolink_fields {g h : PMVG} (e : g.nolink = h.nolink) :
    g.vpl = h.vpl ∧ g.ctxp = h.ctxp ∧ g.cpmv = h.cpmv := by
  unfold PMVG.nolink at e
  injection e with h1 h2 h3 h4 h5 h6 h7
  exact ⟨h5, h3, h6⟩

/-- The loop of `PMVG_merge` moves the members of `from` behind the cursor to
the group `to`. -/
theorem PMVG_merge_loop_spec (junk to_ from_ : Nat) (hto : to_ ≠ 0) (hne : to_ ≠ from_) :
    ∀ (post pre : List Nat) (s : PMState) (mt : List Nat) (fuel : Nat),
    ArllRep (s.gm to_).vpl (mt ++ pre) →
    (s.gm from_).vpl.blk_cnt ≤ (s.gm from_).vpl.blk_l.length →
    (s.gm from_).vpl.members = pre ++ post → (s.gm from_).vpl.blk_curi = pre.length →
    (∀ v ∈ post, v ≠ 0 ∧ (s.vm v).type = (s.gm to_).cpmv.type) →
    (mt ++ pre ++ post).length < 33554432 → post.length + 1 ≤ fuel →
    ∃ s', PMVG_merge_loop junk fuel s to_ from_ = some s' ∧
      ArllRep (s'.gm to_).vpl (mt ++ pre ++ post) ∧
      (s'.gm to_).vpl.blk_curi = (s.gm to_).vpl.blk_curi ∧
      (∀ g, g ≠ to_ → g ≠ from_ → s'.gm g = s.gm g) ∧
      (∀ g, (s'.gm g).novpl = (s.gm g).novpl) ∧ s'.cm = s.cm ∧
      (∀ v, s'.vm v = if v ∈ post then { s.vm v with gp := to_ } else s.vm v) := by
  intro post
  induction post with
  | nil =>
    intro pre s mt fuel hrt hwf hm hcur _ _ hfuel
    obtain ⟨f, rfl⟩ : ∃ f, fuel = f + 1 := ⟨fuel - 1, by omega⟩
    rw [List.append_nil] at hm
    unfold PMVG_merge_loop
    rw [arll_next_members_end hwf (by rw [hcur, hm])]
    dsimp only
    refine ⟨_, rfl, ?_, ?_, ?_, ?_, rfl, fun v => ?_⟩
    · dsimp only
      rw [store_other _ _ _ _ hne, List.append_nil]
      exact hrt
    · dsimp only
      rw [store_other _ _ _ _ hne]
    · intro g _ hg
      dsimp only
      rw [store_other _ _ _ _ hg]
    · intro g
      dsimp only
      by_cases hg : g = from_
      · rw [hg, store_same]
      · rw [store_other _ _ _ _ hg]
    · rw [if_neg (List.not_mem_nil _)]
  | cons v post ih =>
    intro pre s mt fuel hrt hwf hm hcur hty hlen hfuel
    obtain ⟨f, rfl⟩ : ∃ f, fuel = f + 1 :=
      ⟨fuel - 1, by simp only [List.length_cons] at hfuel; omega⟩
    obtain ⟨hv0, hvt⟩ := hty v (List.mem_cons_self _ _)
    obtain ⟨l1, hp, rl1, hc1⟩ := arll_push_rep junk sizeof_PMVp v (by decide) (by decide) hrt
      (by simp only [List.length_append, List.length_cons] at hlen ⊢; omega)
    have hstep : PMVG_merge_loop junk (f + 1) s to_ from_ =
        PMVG_merge_loop junk f
          { vm := store s.vm v { s.vm v with gp := to_ },
            gm := store (store s.gm from_ { s.gm from_ with vpl := { (s.gm from_).vpl with blk_curi := (s.gm from_).vpl.blk_curi + 1 } }) to_ { s.gm to_ with vpl := l1 },
            cm := s.cm } to_ from_ := by
      rw [PMVG_merge_loop]
      rw [arll_next_members_lt hwf hm hcur]
      dsimp only
      rw [if_neg hv0]
      unfold PMVG_addv
      dsimp only
      rw [if_neg (by rw [not_or]; exact ⟨hto, hv0⟩), store_same, store_other _ _ _ _ hne]
      dsimp only
      rw [if_neg (not_not.mpr hvt), hp]
      dsimp only
      rw [if_neg (by
        rw [if_neg (by
          intro e
          have : (0 : Int) ≤ ((mt ++ pre).length : Int) := Int.natCast_nonneg _
          omega)]
        decide)]
    obtain ⟨s3, hs3⟩ : ∃ s3 : PMState, s3 =
        { vm := store s.vm v { s.vm v with gp := to_ },
          gm := store (store s.gm from_ { s.gm from_ with vpl := { (s.gm from_).vpl with blk_curi := (s.gm from_).vpl.blk_curi + 1 } }) to_ { s.gm to_ with vpl := l1 },
          cm := s.cm } := ⟨_, rfl⟩
    have e1 : s3.vm = store s.vm v { s.vm v with gp := to_ } := by rw [hs3]
    have e2 : s3.gm = store (store s.gm from_ { s.gm from_ with vpl := { (s.gm from_).vpl with blk_curi := (s.gm from_).vpl.blk_curi + 1 } }) to_ { s.gm to_ with vpl := l1 } := by
      rw [hs3]
    have e3 : s3.cm = s.cm := by rw [hs3]
    rw [hstep, ← hs3]
    obtain ⟨s', h', q1, q2, q3, q4, q5, q6⟩ := ih (pre ++ [v]) s3 mt f
      (by
        rw [e2, store_same, ← List.append_assoc]
        exact rl1)
      (by
        rw [e2, store_other _ _ _ _ (Ne.symm hne), store_same]
        exact hwf)
      (by
        rw [e2, store_other _ _ _ _ (Ne.symm hne), store_same, List.append_assoc]
        exact hm)
      (by
        rw [e2, store_other _ _ _ _ (Ne.symm hne), store_same, List.length_append]
        show (s.gm from_).vpl.blk_curi + 1 = _
        rw [hcur]
        rfl)
      (by
        intro w hw
        rw [e1, e2, store_same]
        refine ⟨(hty w (List.mem_cons_of_mem _ hw)).1, ?_⟩
        by_cases e : w = v
        · rw [e, store_same]
          exact hvt
        · rw [store_other _ _ _ _ e]
          exact (hty w (List.mem_cons_of_mem _ hw)).2)
      (by
        simp only [List.length_append, List.length_cons, List.length_nil] at hlen ⊢
        omega)
      (by simp only [List.length_cons] at hfuel; omega)
    refine ⟨s', h', ?_, ?_, ?_, ?_, by rw [q5, e3], ?_⟩
    · have e : mt ++ pre ++ v :: post = mt ++ (pre ++ [v]) ++ post := by
        simp only [List.append_assoc, List.singleton_append]
      rw [e]
      exact q1
    · rw [q2, e2, store_same]
      exact hc1
    · intro g hg1 hg2
      rw [q3 g hg1 hg2, e2, store_other _ _ _ _ hg1, store_other _ _ _ _ hg2]
    · intro g
      rw [q4 g, e2]
      by_cases hg1 : g = to_
      · rw [hg1, store_same]
        rfl
      · rw [store_other _ _ _ _ hg1]
        by_cases hg2 : g = from_
        · rw [hg2, store_same]
          rfl
        · rw [store_other _ _ _ _ hg2]
    · intro x
      rw [q6 x, e1]
      by_cases hx : x ∈ post
      · rw [if_pos hx, if_pos (List.mem_cons_of_mem _ hx)]
        by_cases e : x = v
        · rw [e, store_same]
        · rw [store_other _ _ _ _ e]
      · rw [if_neg hx]
        by_cases e : x = v
        · rw [e, store_same, if_pos (List.mem_cons_self _ _)]
        · rw [store_other _ _ _ _ e, if_neg (by
            intro hm1
            rcases List.mem_cons.mp hm1 with h | h
            · exact e h
            · exact hx h)]


/-- `_Elem_deinit` of a registered group: the context counts one group less;
the vertices, the lists of members and the compressed vertices stay. -/
theorem Elem_deinit_spec {s : PMState} {c ep : Nat} (hc : (s.gm ep).ctxp = c) (hc0 : c ≠ 0)
    (hsz : (s.cm c).gctx.size ≠ 0) (hp : (s.gm ep).prev_next_pp ≠ ElemSlot.null) :
    ∃ s', Elem_deinit s ep = some s' ∧ s'.vm = s.vm ∧
      (∀ g, (s'.gm g).nolink = (s.gm g).nolink) ∧
      (∀ g, (s.gm g).prev_next_pp ≠ ElemSlot.null → (s'.gm g).prev_next_pp ≠ ElemSlot.null) ∧
      (s'.cm c).gctx.size = (s.cm c).gctx.size - 1 ∧
      (∀ c', (s'.cm c').headp = (s.cm c').headp ∧ (s'.cm c').pmvcnt = (s.cm c').pmvcnt) := by
  unfold Elem_deinit
  rw [hc, if_neg hc0, if_neg hsz]
  dsimp only
  by_cases hn : (s.gm ep).next_p = 0
  · rw [if_neg (by rw [hn]; exact fun h => h rfl)]
    dsimp only
    cases hslot : (s.gm ep).prev_next_pp with
    | null => exact absurd hslot hp
    | elem_dll c1 =>
      refine ⟨_, rfl, rfl, fun g => rfl, fun g hg => hg, ?_, fun c' => ?_⟩
      · dsimp only [ElemSlot_store]
        by_cases e : c = c1
        · rw [← e, store_same]
          dsimp only
          rw [store_same]
        · rw [store_other _ _ _ _ e, store_same]
      · dsimp only [ElemSlot_store]
        by_cases e : c' = c1
        · rw [e, store_same]
          dsimp only
          by_cases e2 : c1 = c
          · rw [e2, store_same]
            exact ⟨rfl, rfl⟩
          · rw [store_other _ _ _ _ e2]
            exact ⟨rfl, rfl⟩
        · rw [store_other _ _ _ _ e]
          by_cases e2 : c' = c
          · rw [e2, store_same]
            exact ⟨rfl, rfl⟩
          · rw [store_other _ _ _ _ e2]
            exact ⟨rfl, rfl⟩
    | next_p e1 =>
      refine ⟨_, rfl, rfl, fun g => ?_, fun g hg => ?_, ?_, fun c' => ?_⟩
      · dsimp only [ElemSlot_store]
        by_cases e : g = e1
        · rw [e, store_same]
          rfl
        · rw [store_other _ _ _ _ e]
      · dsimp only [ElemSlot_store]
        by_cases e : g = e1
        · rw [e, store_same]
          rw [e] at hg
          exact hg
        · rw [store_other _ _ _ _ e]
          exact hg
      · dsimp only [ElemSlot_store]
        rw [store_same]
      · dsimp only [ElemSlot_store]
        by_cases e2 : c' = c
        · rw [e2, store_same]
          exact ⟨rfl, rfl⟩
        · rw [store_other _ _ _ _ e2]
          exact ⟨rfl, rfl⟩
  · rw [if_pos hn]
    dsimp only
    have k1 : (store s.gm (s.gm ep).next_p
        { s.gm (s.gm ep).next_p with prev_next_pp := (s.gm ep).prev_next_pp } ep).prev_next_pp =
        (s.gm ep).prev_next_pp := by
      by_cases e : ep = (s.gm ep).next_p
      · rw [← e, store_same]
      · rw [store_other _ _ _ _ e]
    have k2 : (store s.gm (s.gm ep).next_p
        { s.gm (s.gm ep).next_p with prev_next_pp := (s.gm ep).prev_next_pp } ep).next_p =
        (s.gm ep).next_p := by
      by_cases e : ep = (s.gm ep).next_p
      · rw [← e, store_same]
        exact e.symm
      · rw [store_other _ _ _ _ e]
    rw [k1, k2]
    have k3 : ∀ g, (store s.gm (s.gm ep).next_p
        { s.gm (s.gm ep).next_p with prev_next_pp := (s.gm ep).prev_next_pp } g).nolink =
        (s.gm g).nolink := by
      intro g
      by_cases e : g = (s.gm ep).next_p
      · rw [e, store_same]
        rfl
      · rw [store_other _ _ _ _ e]
    have k4 : ∀ g, (s.gm g).prev_next_pp ≠ ElemSlot.null → (store s.gm (s.gm ep).next_p
        { s.gm (s.gm ep).next_p with prev_next_pp := (s.gm ep).prev_next_pp } g).prev_next_pp ≠
        ElemSlot.null := by
      intro g hg
      by_cases e : g = (s.gm ep).next_p
      · rw [e, store_same]
        exact hp
      · rw [store_other _ _ _ _ e]
        exact hg
    cases hslot : (s.gm ep).prev_next_pp with
    | null => exact absurd hslot hp
    | elem_dll c1 =>
      rw [hslot] at k3 k4
      refine ⟨_, rfl, rfl, k3, k4, ?_, fun c' => ?_⟩
      · dsimp only [ElemSlot_store]
        by_cases e : c = c1
        · rw [← e, store_same]
          dsimp only
          rw [store_same]
        · rw [store_other _ _ _ _ e, store_same]
      · dsimp only [ElemSlot_store]
        by_cases e : c' = c1
        · rw [e, store_same]
          dsimp only
          by_cases e2 : c1 = c
          · rw [e2, store_same]
            exact ⟨rfl, rfl⟩
          · rw [store_other _ _ _ _ e2]
            exact ⟨rfl, rfl⟩
        · rw [store_other _ _ _ _ e]
          by_cases e2 : c' = c
          · rw [e2, store_same]
            exact ⟨rfl, rfl⟩
          · rw [store_other _ _ _ _ e2]
            exact ⟨rfl, rfl⟩
    | next_p e1 =>
      rw [hslot] at k3 k4
      refine ⟨_, rfl, rfl, fun g => ?_, fun g hg => ?_, ?_, fun c' => ?_⟩
      · dsimp only [ElemSlot_store]
        by_cases e : g = e1
        · rw [e, store_same, ← k3 e1]
          rfl
        · rw [store_other _ _ _ _ e]
          exact k3 g
      · dsimp only [ElemSlot_store]
        by_cases e : g = e1
        · rw [e, store_same]
          rw [e] at hg
          exact k4 e1 hg
        · rw [store_other _ _ _ _ e]
          exact k4 g hg
      · dsimp only [ElemSlot_store]
        rw [store_same]
      · dsimp only [ElemSlot_store]
        by_cases e2 : c' = c
        · rw [e2, store_same]
          exact ⟨rfl, rfl⟩
        · rw [store_other _ _ _ _ e2]
          exact ⟨rfl, rfl⟩


theorem length_le_of_nodup_subset {l V : List Nat} (hnd : l.Nodup) (hsub : ∀ x ∈ l, x ∈ V) :
    l.length ≤ V.length :=
  (List.subperm_of_subset hnd hsub).length_le

/-- `PMVG_merge(to, from)` for two live groups of the same type: the members of
`from` now belong to `to`, and the context has lost the group `from`. -/
theorem PMVG_merge_spec (junk : Nat) {s : PMState} {c to_ from_ : Nat} {V live : List Nat}
    (hok : GroupsOK s c V live) (hto : to_ ∈ live) (hfrom : from_ ∈ live)
    (hty : (s.gm to_).cpmv.type = (s.gm from_).cpmv.type) :
    ∃ s' live', PMVG_merge junk s to_ from_ = some s' ∧ GroupsOK s' c V live' ∧
      (∀ g ∈ live', g ∈ live) ∧
      (live.length = live'.length + if to_ = from_ then 0 else 1) ∧
      (∀ v, (s'.vm v).nogp = (s.vm v).nogp) ∧
      (∀ v, (s'.vm v).gp = if v ∈ V ∧ (s.vm v).gp = from_ then to_ else (s.vm v).gp) ∧
      (∀ c', (s'.cm c').headp = (s.cm c').headp) := by
  obtain ⟨hc0, hVnd, hVlen, hlnd, hsize, hg, hv⟩ := hok
  obtain ⟨ht0, htc, htp, mt, rt, ct, ndt, net, memt⟩ := hg to_ hto
  obtain ⟨hf0, hfc, hfp, mf, rf, cf, ndf, nef, memf⟩ := hg from_ hfrom
  unfold PMVG_merge
  rw [if_neg (by rw [not_or]; exact ⟨ht0, hf0⟩)]
  by_cases hne : to_ = from_
  · rw [if_pos hne, if_pos hne]
    refine ⟨s, live, rfl, ⟨hc0, hVnd, hVlen, hlnd, hsize, hg, hv⟩, fun g h => h, rfl,
      fun v => rfl, fun v => ?_, fun _ => rfl⟩
    by_cases h : v ∈ V ∧ (s.vm v).gp = from_
    · rw [if_pos h, hne, h.2]
    · rw [if_neg h]
  rw [if_neg hne, if_neg hne, if_neg (not_not.mpr hty)]
  have hdisj : ∀ w ∈ mt, w ∉ mf := by
    intro w h1 h2
    exact hne (((memt w).mp h1).2.symm.trans ((memf w).mp h2).2)
  have hndtf : (mt ++ mf).Nodup := List.nodup_append.mpr ⟨ndt, ndf, fun _ h1 h2 => hdisj _ h1 h2⟩
  have hlen : (mt ++ mf).length ≤ V.length :=
    length_le_of_nodup_subset hndtf (fun x hx => by
      rcases List.mem_append.mp hx with h | h
      · exact ((memt x).mp h).1
      · exact ((memf x).mp h).1)
  obtain ⟨s1, h1, q1, q2, q3, q4, q5, q6⟩ :=
    PMVG_merge_loop_spec junk to_ from_ ht0 hne mf [] s mt ((s.gm from_).vpl.blk_cnt + 1)
      (by rw [List.append_nil]; exact rt) (ArllRep.cnt_le rf) rf.1 cf
      (by
        intro w hw
        obtain ⟨hwV, hwg⟩ := (memf w).mp hw
        refine ⟨(hv w hwV).1, ?_⟩
        rw [(hv w hwV).2.2.2, hwg, hty])
      (by rw [List.append_nil]; omega) (by rw [rf.2.1])
  rw [List.append_nil] at q1
  rw [h1]
  dsimp only
  have hlive0 : 0 < live.length := List.length_pos_of_mem hfrom
  obtain ⟨s2, h2, p1, p2, p3, p4, p5⟩ :=
    @Elem_deinit_spec s1 c from_
      (by rw [(PMVG.novpl_fields (q4 from_)).2.2.1]; exact hfc) hc0
      (by rw [q5, hsize]; omega)
      (by rw [(PMVG.novpl_fields (q4 from_)).2.1]; exact hfp)
  rw [h2]
  have hgp : ∀ v, (s2.vm v).gp = if v ∈ V ∧ (s.vm v).gp = from_ then to_ else (s.vm v).gp := by
    intro v
    rw [p1, q6 v]
    by_cases h : v ∈ mf
    · rw [if_pos h, if_pos ((memf v).mp h)]
    · rw [if_neg h, if_neg (fun h' => h ((memf v).mpr h'))]
  have hnogp : ∀ v, (s2.vm v).nogp = (s.vm v).nogp := by
    intro v
    rw [p1, q6 v]
    by_cases h : v ∈ mf
    · rw [if_pos h]
      rfl
    · rw [if_neg h]
  have hcpmv : ∀ g, (s2.gm g).cpmv = (s.gm g).cpmv := by
    intro g
    rw [(PMVG.nolink_fields (p2 g)).2.2, (PMVG.novpl_fields (q4 g)).2.2.2]
  have hctx : ∀ g, (s2.gm g).ctxp = (s.gm g).ctxp := by
    intro g
    rw [(PMVG.nolink_fields (p2 g)).2.1, (PMVG.novpl_fields (q4 g)).2.2.1]
  have hvpl : ∀ g, (s2.gm g).vpl = (s1.gm g).vpl := fun g => (PMVG.nolink_fields (p2 g)).1
  refine ⟨s2, live.erase from_, rfl, ⟨hc0, hVnd, hVlen, hlnd.erase _, ?_, ?_, ?_⟩,
    fun g h => List.mem_of_mem_erase h, ?_, hnogp, hgp, fun c' => ?_⟩
  · rw [p4, q5, hsize, List.length_erase_of_mem hfrom]
  · intro g hgm
    obtain ⟨hgne, hgl⟩ := (List.Nodup.mem_erase_iff hlnd).mp hgm
    obtain ⟨hg0, hgc, hgp', mg, rg, cg, ndg, neg, memg⟩ := hg g hgl
    refine ⟨hg0, by rw [hctx]; exact hgc, p3 g (by
      rw [(PMVG.novpl_fields (q4 g)).2.1]; exact hgp'), ?_⟩
    by_cases e : g = to_
    · subst e
      refine ⟨mt ++ mf, by rw [hvpl]; exact q1, by rw [hvpl, q2]; exact ct, hndtf,
        fun h => net (List.append_eq_nil.mp h).1, fun w => ?_⟩
      rw [hgp w, List.mem_append, memt w, memf w]
      constructor
      · rintro (h | h)
        · exact ⟨h.1, by rw [if_neg (fun h' => hne (h.2.symm.trans h'.2))]; exact h.2⟩
        · exact ⟨h.1, by rw [if_pos h]⟩
      · rintro ⟨hV, h⟩
        by_cases h' : w ∈ V ∧ (s.vm w).gp = from_
        · exact Or.inr h'
        · rw [if_neg h'] at h
          exact Or.inl ⟨hV, h⟩
    · refine ⟨mg, by rw [hvpl, q3 g e hgne]; exact rg, by rw [hvpl, q3 g e hgne]; exact cg, ndg,
        neg, fun w => ?_⟩
      rw [hgp w, memg w]
      constructor
      · rintro ⟨hV, h⟩
        exact ⟨hV, by rw [if_neg (fun h' => hgne (h.symm.trans h'.2))]; exact h⟩
      · rintro ⟨hV, h⟩
        by_cases h' : w ∈ V ∧ (s.vm w).gp = from_
        · rw [if_pos h'] at h
          exact absurd h.symm e
        · rw [if_neg h'] at h
          exact ⟨hV, h⟩
  · intro v hvV
    obtain ⟨h0, hcx, hgl, htyv⟩ := hv v hvV
    refine ⟨h0, by rw [(PMV.nogp_fields (hnogp v)).2.2.2.2.2.2.2.2.1]; exact hcx, ?_, ?_⟩
    · rw [hgp v]
      by_cases h' : v ∈ V ∧ (s.vm v).gp = from_
      · rw [if_pos h']
        exact (List.Nodup.mem_erase_iff hlnd).mpr ⟨hne, hto⟩
      · rw [if_neg h']
        exact (List.Nodup.mem_erase_iff hlnd).mpr ⟨fun e => h' ⟨hvV, e⟩, hgl⟩
    · rw [(PMV.nogp_fields (hnogp v)).1, hcpmv, hgp v, htyv]
      by_cases h' : v ∈ V ∧ (s.vm v).gp = from_
      · rw [if_pos h', h'.2, hty]
      · rw [if_neg h']
  · rw [List.length_erase_of_mem hfrom]
    omega
  · rw [(p5 c').1, q5]


theorem PMV.nofg_fields {v w : PMV} (h : v.noflags.nogp = w.noflags.nogp) :
    v.type = w.type ∧ v.np = w.np ∧ v.pp = w.pp ∧ v.cp = w.cp ∧ v.hash = w.hash ∧
    v.depth = w.depth ∧ v.vcnt = w.vcnt ∧ v.ctxp = w.ctxp := by
  unfold PMV.nogp PMV.noflags at h
  injection h with h1 h2 h3 h4 h5 h6 h7 h8 h9 h10 h11
  exact ⟨h1, h2, h10, h11, h8, h6, h7, h5⟩

theorem PMV.nofg_of_nogp {v w : PMV} (h : v.nogp = w.nogp) :
    v.noflags.nogp = w.noflags.nogp := by
  obtain ⟨h1, h2, h3, h4, h5, h6, h7, h8, h9, h10⟩ := PMV.nogp_fields h
  unfold PMV.nogp PMV.noflags
  rw [h1, h2, h3, h4, h5, h6, h7, h9, h10]

theorem PMV.nofg_of_noflags {v w : PMV} (h : v.noflags = w.noflags) :
    v.noflags.nogp = w.noflags.nogp := by
  rw [h]

theorem VTree.Rep_of_nofg {m m' : PMVMem} (t : VTree)
    (h : ∀ a, (m' a).noflags.nogp = (m a).noflags.nogp) (hr : t.Rep m) : t.Rep m' :=
  VTree.Rep_congr_edges t (fun a _ =>
    ⟨(PMV.nofg_fields (h a)).1, (PMV.nofg_fields (h a)).2.1, (PMV.nofg_fields (h a)).2.2.1,
      (PMV.nofg_fields (h a)).2.2.2.1⟩) hr

theorem VTree.Corr_of_nofg {m m' : PMVMem} (t : VTree)
    (h : ∀ a, (m' a).noflags.nogp = (m a).noflags.nogp) (hr : t.Corr m) : t.Corr m' :=
  VTree.Corr_congr t (fun a _ =>
    ⟨(PMV.nofg_fields (h a)).2.2.2.2.1, (PMV.nofg_fields (h a)).2.2.2.2.2.1,
      (PMV.nofg_fields (h a)).2.2.2.2.2.2.1⟩) hr

theorem VTree.Held_of_nofg {m m' : PMVMem} {t : VTree}
    (h : ∀ a, (m' a).noflags.nogp = (m a).noflags.nogp) (ht : t.Held m) : t.Held m' :=
  ⟨ht.1, VTree.Rep_of_nofg t h ht.2.1, VTree.Corr_of_nofg t h ht.2.2⟩

theorem VTree.shape_seg_inv {a : Nat} {np tb : VTree} (h : (VTree.seg a np).shape = tb.shape) :
    ∃ b np', tb = VTree.seg b np' ∧ np.shape = np'.shape := by
  cases tb with
  | nil => exact PShape.noConfusion h
  | seg b np' => exact ⟨b, np', rfl, by injection h⟩
  | insc b pp' cp' np' => exact PShape.noConfusion h
  | wrap b wp' np' => exact PShape.noConfusion h

theorem VTree.shape_insc_inv {a : Nat} {pp cp np tb : VTree}
    (h : (VTree.insc a pp cp np).shape = tb.shape) :
    ∃ b pp' cp' np', tb = VTree.insc b pp' cp' np' ∧ pp.shape = pp'.shape ∧
      cp.shape = cp'.shape ∧ np.shape = np'.shape := by
  cases tb with
  | nil => exact PShape.noConfusion h
  | seg b np' => exact PShape.noConfusion h
  | insc b pp' cp' np' =>
    injection h with h1 h2 h3
    exact ⟨b, pp', cp', np', rfl, h1, h2, h3⟩
  | wrap b wp' np' => exact PShape.noConfusion h

theorem GpStep_refl {s : PMState} {c : Nat} {V live : List Nat} (F : List Nat)
    (h : GroupsOK s c V live) : GpStep s s c V live live F :=
  ⟨h, fun _ h => h, fun _ => rfl, fun _ _ => rfl, fun _ _ _ _ e => e, fun _ => rfl⟩

theorem GpStep_trans {s s1 s2 : PMState} {c : Nat} {V live live1 live2 F1 F2 F : List Nat}
    (h1 : GpStep s s1 c V live live1 F1) (h2 : GpStep s1 s2 c V live1 live2 F2)
    (hF1 : ∀ a, a ∈ F1 → a ∈ F) (hF2 : ∀ a, a ∈ F2 → a ∈ F) :
    GpStep s s2 c V live live2 F :=
  ⟨h2.1, fun g hg => h1.2.1 g (h2.2.1 g hg), fun v => (h2.2.2.1 v).trans (h1.2.2.1 v),
    fun v hv => (h2.2.2.2.1 v (fun h => hv (hF2 v h))).trans
      (h1.2.2.2.1 v (fun h => hv (hF1 v h))),
    fun v hv w hw e => h2.2.2.2.2.1 v hv w hw (h1.2.2.2.2.1 v hv w hw e),
    fun c' => (h2.2.2.2.2.2 c').trans (h1.2.2.2.2.2 c')⟩

/-- The last step of `PMV_merge_r`: the groups of the two roots are merged. -/
theorem PMV_merge_r_last (junk : Nat) {s : PMState} {c a b : Nat} {V live : List Nat}
    (hok : GroupsOK s c V live) (ha : a ∈ V) (hb : b ∈ V)
    (hty : (s.vm a).type = (s.vm b).type) :
    ∃ s' live', PMVG_merge junk s (s.vm a).gp (s.vm b).gp = some s' ∧
      GpStep s s' c V live live' [] ∧ (s'.vm a).gp = (s'.vm b).gp := by
  have hva := hok.2.2.2.2.2.2 a ha
  have hvb := hok.2.2.2.2.2.2 b hb
  obtain ⟨s', live', h, ok', l', _, n', g', h'⟩ := PMVG_merge_spec junk hok hva.2.2.1 hvb.2.2.1
    (by rw [← hva.2.2.2, ← hvb.2.2.2, hty])
  refine ⟨s', live', h, ⟨ok', l', fun v => PMV.nofg_of_nogp (n' v),
    fun v _ => (PMV.nogp_fields (n' v)).2.2.2.2.2.2.2.1, ?_, h'⟩, ?_⟩
  · intro v hv w hw e3
    rw [g' v, g' w]
    by_cases k : (s.vm w).gp = (s.vm b).gp
    · rw [if_pos ⟨hv, e3.trans k⟩, if_pos ⟨hw, k⟩]
    · rw [if_neg (fun h => k (e3.symm.trans h.2)), if_neg (fun h => k h.2)]
      exact e3
  · have eb : (s'.vm b).gp = (s.vm a).gp := by rw [g' b, if_pos ⟨hb, rfl⟩]
    rw [eb, g' a]
    by_cases k : (s.vm a).gp = (s.vm b).gp
    · rw [if_pos ⟨ha, k⟩]
    · rw [if_neg (fun h => k h.2)]

/-- `PMV_merge_r` for two trees of the same shape without wrappers: it returns
and leaves the two roots in one group. -/
theorem PMV_merge_r_spec (junk nvp ngp c : Nat) (V : List Nat) :
    ∀ (ta tb : VTree) (fuel : Nat) (s : PMState) (live : List Nat),
    ta.Plain → ta.shape = tb.shape → ta.Rep s.vm → tb.Rep s.vm →
    (∀ a ∈ ta.nodes, a ∈ V) → (∀ a ∈ tb.nodes, a ∈ V) → GroupsOK s c V live →
    ta.size + 1 ≤ fuel →
    ∃ s' live', PMV_merge_r junk nvp ngp fuel s ta.root tb.root = some s' ∧
      GpStep s s' c V live live' [] ∧ (s'.vm ta.root).gp = (s'.vm tb.root).gp := by
  intro ta
  induction ta with
  | nil =>
    intro tb fuel s live _ hsh _ _ _ _ hok hfuel
    obtain ⟨f, rfl⟩ : ∃ f, fuel = f + 1 := ⟨fuel - 1, by omega⟩
    have htb : tb = VTree.nil := VTree.shape_eq_nil hsh.symm
    subst htb
    refine ⟨s, live, ?_, GpStep_refl [] hok, rfl⟩
    unfold PMV_merge_r
    rw [if_pos (show VTree.nil.root = 0 from rfl), if_pos rfl]
  | wrap a wp np _ _ =>
    intro tb fuel s live hp
    exact absurd hp (fun x => x)
  | seg a np ih =>
    intro tb fuel s live hp hsh hra hrb hVa hVb hok hfuel
    obtain ⟨f, rfl⟩ : ∃ f, fuel = f + 1 := ⟨fuel - 1, by omega⟩
    obtain ⟨b, np', rfl, hshn⟩ := VTree.shape_seg_inv hsh
    have haV : a ∈ V := hVa a (List.mem_cons_self _ _)
    have hbV : b ∈ V := hVb b (List.mem_cons_self _ _)
    have hsz : (VTree.seg a np).size = 1 + np.size := rfl
    obtain ⟨s3, live3, h3, st3, _⟩ := ih np' f s live hp hshn hra.2.2.2 hrb.2.2.2
      (fun x hx => hVa x (List.mem_cons_of_mem _ hx))
      (fun x hx => hVb x (List.mem_cons_of_mem _ hx)) hok (by omega)
    have hty3 : (s3.vm a).type = (s3.vm b).type := by
      rw [(PMV.nofg_fields (st3.2.2.1 a)).1, (PMV.nofg_fields (st3.2.2.1 b)).1, hra.2.1, hrb.2.1]
    obtain ⟨s4, live4, h4, st4, e4⟩ := PMV_merge_r_last junk st3.1 haV hbV hty3
    refine ⟨s4, live4, ?_, GpStep_trans st3 st4 (fun _ h => h) (fun _ h => h), e4⟩
    rw [show (VTree.seg a np).root = a from rfl, show (VTree.seg b np').root = b from rfl]
    unfold PMV_merge_r
    rw [if_neg hra.1, if_neg hrb.1,
      if_neg (not_not.mpr (by rw [(hok.2.2.2.2.2.2 a haV).2.1, (hok.2.2.2.2.2.2 b hbV).2.1])),
      if_neg (not_not.mpr (by rw [hra.2.1, hrb.2.1])), if_pos hra.2.1]
    dsimp only
    rw [hra.2.2.1, hrb.2.2.1, h3]
    exact h4
  | insc a pp cp np ihp ihc ihn =>
    intro tb fuel s live hp hsh hra hrb hVa hVb hok hfuel
    obtain ⟨f, rfl⟩ : ∃ f, fuel = f + 1 := ⟨fuel - 1, by omega⟩
    obtain ⟨b, pp', cp', np', rfl, hshp, hshc, hshn⟩ := VTree.shape_insc_inv hsh
    have haV : a ∈ V := hVa a (List.mem_cons_self _ _)
    have hbV : b ∈ V := hVb b (List.mem_cons_self _ _)
    have hsz : (VTree.insc a pp cp np).size = 1 + pp.size + cp.size + np.size := rfl
    obtain ⟨ha0, hat, hap, hac, han, hrp, hrc, hrn⟩ := hra
    obtain ⟨hb0, hbt, hbp, hbc, hbn, hrp', hrc', hrn'⟩ := hrb
    obtain ⟨s1, live1, h1, st1, _⟩ := ihp pp' f s live hp.2.2.1 hshp hrp hrp'
      (fun x hx => hVa x (VTree.mem_insc_pp hx)) (fun x hx => hVb x (VTree.mem_insc_pp hx)) hok
      (by omega)
    obtain ⟨s2, live2, h2, st2, _⟩ := ihc cp' f s1 live1 hp.2.2.2.1 hshc
      (VTree.Rep_of_nofg cp st1.2.2.1 hrc) (VTree.Rep_of_nofg cp' st1.2.2.1 hrc')
      (fun x hx => hVa x (VTree.mem_insc_cp hx)) (fun x hx => hVb x (VTree.mem_insc_cp hx))
      st1.1 (by omega)
    have st12 := GpStep_trans st1 st2 (fun _ h => h) (fun _ h => h)
    obtain ⟨s3, live3, h3, st3, _⟩ := ihn np' f s2 live2 hp.2.2.2.2 hshn
      (VTree.Rep_of_nofg np st12.2.2.1 hrn) (VTree.Rep_of_nofg np' st12.2.2.1 hrn')
      (fun x hx => hVa x (VTree.mem_insc_np hx)) (fun x hx => hVb x (VTree.mem_insc_np hx))
      st2.1 (by omega)
    have st123 := GpStep_trans st12 st3 (fun _ h => h) (fun _ h => h)
    have hty3 : (s3.vm a).type = (s3.vm b).type := by
      rw [(PMV.nofg_fields (st123.2.2.1 a)).1, (PMV.nofg_fields (st123.2.2.1 b)).1, hat, hbt]
    obtain ⟨s4, live4, h4, st4, e4⟩ := PMV_merge_r_last junk st3.1 haV hbV hty3
    refine ⟨s4, live4, ?_, GpStep_trans st123 st4 (fun _ h => h) (fun _ h => h), e4⟩
    rw [show (VTree.insc a pp cp np).root = a from rfl,
      show (VTree.insc b pp' cp' np').root = b from rfl]
    unfold PMV_merge_r
    rw [if_neg ha0, if_neg hb0,
      if_neg (not_not.mpr (by rw [(hok.2.2.2.2.2.2 a haV).2.1, (hok.2.2.2.2.2.2 b hbV).2.1])),
      if_neg (not_not.mpr (by rw [hat, hbt])), if_neg (by rw [hat]; decide), if_pos hat]
    dsimp only
    rw [hap, hbp, h1]
    dsimp only
    rw [(PMV.nofg_fields (st1.2.2.1 a)).2.2.2.1, (PMV.nofg_fields (st1.2.2.1 b)).2.2.2.1, hac, hbc,
      h2]
    dsimp only
    rw [(PMV.nofg_fields (st12.2.2.1 a)).2.1, (PMV.nofg_fields (st12.2.2.1 b)).2.1, han, hbn, h3]
    exact h4


/-- `PMV_insc_is_symm` for an inosculation of an evaluated IR: it returns the
flag `PMV_SBIT_INSC_is_sym` if the two branches have the same shape and 0
otherwise, and leaves the tree a tree of an evaluated IR. -/
theorem PMV_insc_is_symm_top (fuel : Nat) (m : PMVMem) (a : Nat) (pp cp np : VTree)
    (hh : (VTree.insc a pp cp np).Held m) (hnd : (VTree.insc a pp cp np).nodes.Nodup)
    (hf : (VTree.insc a pp cp np).FlagsOK m)
    (hfuel : 3 * (VTree.insc a pp cp np).size + 1 ≤ fuel) :
    ∃ m', PMV_insc_is_symm fuel m a =
        some (m', if pp.shape = cp.shape then PMV_SBIT_INSC_is_sym else 0) ∧
      Gd m m' (VTree.insc a pp cp np).nodes ∧ (VTree.insc a pp cp np).FlagsOK m' := by
  obtain ⟨f, rfl⟩ : ∃ f, fuel = f + 1 := ⟨fuel - 1, by omega⟩
  show ∃ m', PMV_insc_is_symm_body (fun m' v fo => PMV_eval_r f m' v fo) m a = _ ∧ _
  have hrep := hh.2.1
  have hres : ∀ x, x = (VTree.insc a pp cp np).eflags →
      x &&& PMV_SBIT_INSC_is_sym = if pp.shape = cp.shape then PMV_SBIT_INSC_is_sym else 0 := by
    intro x hx
    rw [hx]
    by_cases h : pp.shape = cp.shape
    · simp only [VTree.eflags, if_pos h]
      rfl
    · simp only [VTree.eflags, if_neg h]
      rfl
  unfold PMV_insc_is_symm_body
  rw [if_neg hrep.1, if_neg (not_not.mpr hrep.2.1)]
  rcases hf.1 with hfl | hfl
  · have h0 : (m a).flags &&& PMV_SBIT_evaluated = 0 := by rw [hfl]; rfl
    rw [if_pos h0]
    obtain ⟨m1, h1, hpost, hfb1, hr1⟩ := (PMV_good_specs f).1 m (VTree.insc a pp cp np) 0
      (fun e => VTree.noConfusion e) hh hnd hf.2 hfl (Or.inl rfl) (by omega)
    have h1' : PMV_eval_r f m a false = some m1 := h1
    dsimp only
    rw [h1']
    dsimp only
    have hr1' : (m1 a).flags = (VTree.insc a pp cp np).eflags := by
      have : (m1 a).flags = (VTree.insc a pp cp np).eflags ||| 0 := hr1
      rw [this, Nat.or_zero]
    exact ⟨m1, by rw [hres _ hr1'], hpost, Or.inr hr1', hfb1⟩
  · have h0 : ¬ (m a).flags &&& PMV_SBIT_evaluated = 0 := by
      rw [hfl]
      rcases VTree.eflags_cases (fun e => VTree.noConfusion e :
        VTree.insc a pp cp np ≠ VTree.nil) with e | e <;> rw [e] <;> decide
    rw [if_neg h0]
    dsimp only
    exact ⟨m, by rw [hres _ hfl], Gd_refl _ _, hf⟩


/-- A call that writes only flags keeps the groups in order. -/
theorem GpStep_of_Gd {s : PMState} {m' : PMVMem} {c : Nat} {V live ns : List Nat}
    (hok : GroupsOK s c V live) (g : Gd s.vm m' ns) :
    GpStep s { s with vm := m' } c V live live ns := by
  have hgp : ∀ v, (m' v).gp = (s.vm v).gp := fun v =>
    (congrArg PMV.gp (g.1 v) : (m' v).noflags.gp = (s.vm v).noflags.gp)
  have hcx : ∀ v, (m' v).ctxp = (s.vm v).ctxp := fun v =>
    (congrArg PMV.ctxp (g.1 v) : (m' v).noflags.ctxp = (s.vm v).noflags.ctxp)
  have hty : ∀ v, (m' v).type = (s.vm v).type := fun v =>
    (congrArg PMV.type (g.1 v) : (m' v).noflags.type = (s.vm v).noflags.type)
  obtain ⟨h1, h2, h3, h4, h5, h6, h7⟩ := hok
  refine ⟨⟨h1, h2, h3, h4, h5, ?_, ?_⟩, fun _ h => h, fun v => PMV.nofg_of_noflags (g.1 v),
    fun v hv => by rw [show ({ s with vm := m' } : PMState).vm v = m' v from rfl, g.2 v hv], ?_,
    fun _ => rfl⟩
  · intro gr hgr
    obtain ⟨k1, k2, k3, ms, k4, k5, k6, k7, k8⟩ := h6 gr hgr
    refine ⟨k1, k2, k3, ms, k4, k5, k6, k7, fun w => ?_⟩
    rw [k8 w]
    show _ ↔ w ∈ V ∧ (m' w).gp = gr
    rw [hgp w]
  · intro v hv
    obtain ⟨k1, k2, k3, k4⟩ := h7 v hv
    show v ≠ 0 ∧ (m' v).ctxp = c ∧ (m' v).gp ∈ live ∧ (m' v).type = (s.gm (m' v).gp).cpmv.type
    rw [hgp v, hcx v, hty v]
    exact ⟨k1, k2, k3, k4⟩
  · intro v _ w _ e
    show (m' v).gp = (m' w).gp
    rw [hgp v, hgp w]
    exact e

theorem VTree.FlagsOK_of_frame {m m' : PMVMem} {F : List Nat} (t : VTree)
    (h : ∀ v, v ∉ F → (m' v).flags = (m v).flags) (hd : ∀ a ∈ t.nodes, a ∉ F)
    (hf : t.FlagsOK m) : t.FlagsOK m' :=
  VTree.FlagsOK_congr t (fun a ha => h a (hd a ha)) hf

/-- The inosculations of a tree under whose root the groups of the two
branches are the same whenever the branches have the same shape. -/
theorem mine_for_symm_spec (junk nvp ngp c : Nat) (V : List Nat) :
    ∀ (t : VTree) (fuel : Nat) (s : PMState) (live : List Nat),
    t.Held s.vm → t.FlagsOK s.vm → t.nodes.Nodup → (∀ a ∈ t.nodes, a ∈ V) →
    GroupsOK s c V live → 3 * t.size + 2 ≤ fuel →
    ∃ s' live', mine_for_symm junk nvp ngp fuel s t.root = some s' ∧
      GpStep s s' c V live live' t.nodes ∧ t.FlagsOK s'.vm ∧
      (∀ a pp cp np, SubtreeOf t (VTree.insc a pp cp np) → pp.shape = cp.shape →
        (s'.vm pp.root).gp = (s'.vm cp.root).gp) := by
  intro t
  induction t with
  | nil =>
    intro fuel s live _ _ _ _ hok hfuel
    obtain ⟨f, rfl⟩ : ∃ f, fuel = f + 1 := ⟨fuel - 1, by omega⟩
    refine ⟨s, live, ?_, GpStep_refl _ hok, trivial, ?_⟩
    · unfold mine_for_symm
      rw [if_pos (show VTree.nil.root = 0 from rfl)]
    · intro a pp cp np h
      cases h
  | wrap a wp np _ _ =>
    intro fuel s live hh
    exact absurd hh.1 (fun x => x)
  | seg a np ih =>
    intro fuel s live hh hf hnd hV hok hfuel
    obtain ⟨f, rfl⟩ : ∃ f, fuel = f + 1 := ⟨fuel - 1, by omega⟩
    have hsz : (VTree.seg a np).size = 1 + np.size := rfl
    obtain ⟨s1, live1, h1, st1, f1, p1⟩ := ih f s live (VTree.Held_npt hh) hf.2
      (List.nodup_cons.mp hnd).2 (fun x hx => hV x (List.mem_cons_of_mem _ hx)) hok (by omega)
    refine ⟨s1, live1, ?_, ?_, ⟨?_, f1⟩, ?_⟩
    · rw [show (VTree.seg a np).root = a from rfl]
      unfold mine_for_symm
      rw [if_neg hh.2.1.1, if_pos hh.2.1.2.1]
      dsimp only
      rw [hh.2.1.2.2.1]
      exact h1
    · exact ⟨st1.1, st1.2.1, st1.2.2.1,
        fun v hv => st1.2.2.2.1 v (fun h => hv (List.mem_cons_of_mem _ h)), st1.2.2.2.2⟩
    · rw [st1.2.2.2.1 a (List.nodup_cons.mp hnd).1]
      exact hf.1
    · intro a' pp cp np' h
      cases h with
      | seg_np _ _ _ h' => exact p1 a' pp cp np' h'
  | insc a pp cp np ihp ihc ihn =>
    intro fuel s live hh hf hnd hV hok hfuel
    obtain ⟨f, rfl⟩ : ∃ f, fuel = f + 1 := ⟨fuel - 1, by omega⟩
    have hsz : (VTree.insc a pp cp np).size = 1 + pp.size + cp.size + np.size := rfl
    obtain ⟨dp, dc, dn, ap, ac, an, pc, pn, cn⟩ := VTree.insc_nodup hnd
    obtain ⟨ha0, hat, hap, hac, han, hrp, hrc, hrn⟩ := hh.2.1
    have hVp : ∀ x ∈ pp.nodes, x ∈ V := fun x hx => hV x (VTree.mem_insc_pp hx)
    have hVc : ∀ x ∈ cp.nodes, x ∈ V := fun x hx => hV x (VTree.mem_insc_cp hx)
    have hVn : ∀ x ∈ np.nodes, x ∈ V := fun x hx => hV x (VTree.mem_insc_np hx)
    have hTp : ∀ x, x ∈ pp.nodes → x ∈ (VTree.insc a pp cp np).nodes :=
      fun x hx => VTree.mem_insc_pp hx
    have hTc : ∀ x, x ∈ cp.nodes → x ∈ (VTree.insc a pp cp np).nodes :=
      fun x hx => VTree.mem_insc_cp hx
    have hTn : ∀ x, x ∈ np.nodes → x ∈ (VTree.insc a pp cp np).nodes :=
      fun x hx => VTree.mem_insc_np hx
    -- the parent branch
    obtain ⟨s1, live1, h1, st1, f1, p1⟩ := ihp f s live (VTree.Held_pp hh) hf.2.1 dp hVp hok
      (by omega)
    -- the child branch
    obtain ⟨s2, live2, h2, st2, f2, p2⟩ := ihc f s1 live1
      (VTree.Held_of_nofg st1.2.2.1 (VTree.Held_cp hh))
      (VTree.FlagsOK_of_frame cp st1.2.2.2.1 (fun x hx h => pc x h hx) hf.2.2.1) dc hVc st1.1
      (by omega)
    have st12 := GpStep_trans st1 st2 hTp hTc
    -- the test
    have hh2 := VTree.Held_of_nofg st12.2.2.1 hh
    have hf2 : (VTree.insc a pp cp np).FlagsOK s2.vm := by
      refine ⟨?_, VTree.FlagsOK_of_frame pp st2.2.2.2.1 (fun x hx h => pc x hx h) f1, f2,
        VTree.FlagsOK_of_frame np st2.2.2.2.1 (fun x hx h => cn x h hx)
          (VTree.FlagsOK_of_frame np st1.2.2.2.1 (fun x hx h => pn x h hx) hf.2.2.2)⟩
      rw [st2.2.2.2.1 a ac, st1.2.2.2.1 a ap]
      exact hf.1
    obtain ⟨m3, h3, g3, f3⟩ := PMV_insc_is_symm_top f s2.vm a pp cp np hh2 hnd hf2 (by omega)
    have st3 := GpStep_of_Gd st2.1 g3
    have st123 := GpStep_trans st12 st3 (fun _ h => h) (fun _ h => h)
    have hh3 : (VTree.insc a pp cp np).Held m3 := VTree.Held_of_noflags g3.1 hh2
    obtain ⟨_, _, hap3, hac3, han3, hrp3, hrc3, hrn3⟩ := hh3.2.1
    -- the merge
    have hmid : ∃ s4 live4,
        (if (if pp.shape = cp.shape then PMV_SBIT_INSC_is_sym else 0) ≠ 0 then
          PMV_merge_r junk nvp ngp f { s2 with vm := m3 } pp.root cp.root
        else some { s2 with vm := m3 }) = some s4 ∧
        GpStep s s4 c V live live4 (VTree.insc a pp cp np).nodes ∧
        (∀ v, (s4.vm v).flags = (m3 v).flags) ∧
        (∀ v ∈ V, ∀ w ∈ V, (m3 v).gp = (m3 w).gp → (s4.vm v).gp = (s4.vm w).gp) ∧
        (pp.shape = cp.shape → (s4.vm pp.root).gp = (s4.vm cp.root).gp) := by
      by_cases hs : pp.shape = cp.shape
      · rw [if_pos hs, if_pos (by decide)]
        obtain ⟨s4, live4, h4, st4, e4⟩ := PMV_merge_r_spec junk nvp ngp c V pp cp f
          { s2 with vm := m3 } live2 hh.1.2.2.1 hs hrp3 hrc3 hVp hVc st3.1 (by omega)
        exact ⟨s4, live4, h4, GpStep_trans st123 st4 (fun _ h => h)
          (fun _ h => absurd h (List.not_mem_nil _)),
          fun v => st4.2.2.2.1 v (List.not_mem_nil _), st4.2.2.2.2.1, fun _ => e4⟩
      · rw [if_neg hs, if_neg (by decide)]
        exact ⟨_, live2, rfl, st123, fun _ => rfl, fun _ _ _ _ e => e, fun h => absurd h hs⟩
    obtain ⟨s4, live4, h4, st4, fl4, co4, e4⟩ := hmid
    have hf4 : (VTree.insc a pp cp np).FlagsOK s4.vm :=
      VTree.FlagsOK_congr _ (fun x _ => fl4 x) f3
    -- what follows the inosculation
    obtain ⟨s5, live5, h5, st5, f5, p5⟩ := ihn f s4 live4
      (VTree.Held_of_nofg st4.2.2.1 (VTree.Held_npt hh)) hf4.2.2.2 dn hVn st4.1 (by omega)
    have hppV : pp.root ∈ V := hVp _ (VTree.root_mem_nodes hh.1.1)
    have hcpV : cp.root ∈ V := hVc _ (VTree.root_mem_nodes hh.1.2.1)
    have hsubV : ∀ (t : VTree) a' pp' cp' np', SubtreeOf t (VTree.insc a' pp' cp' np') →
        t.Plain → (∀ x ∈ t.nodes, x ∈ V) → pp'.root ∈ V ∧ cp'.root ∈ V := by
      intro t a' pp' cp' np' hsub hpl hVt
      have hpl' := SubtreeOf_Plain hsub hpl
      exact ⟨hVt _ (SubtreeOf_nodes hsub _ (VTree.mem_insc_pp (VTree.root_mem_nodes hpl'.1))),
        hVt _ (SubtreeOf_nodes hsub _ (VTree.mem_insc_cp (VTree.root_mem_nodes hpl'.2.1)))⟩
    refine ⟨s5, live5, ?_, GpStep_trans st4 st5 (fun _ h => h) hTn, ?_, ?_⟩
    · rw [show (VTree.insc a pp cp np).root = a from rfl]
      unfold mine_for_symm
      rw [if_neg ha0, if_neg (by rw [hat]; decide), if_pos hat]
      dsimp only
      rw [hap, h1]
      dsimp only
      rw [(PMV.nofg_fields (st1.2.2.1 a)).2.2.2.1, hac, h2]
      dsimp only
      rw [h3]
      dsimp only
      rw [hap3, hac3, h4]
      dsimp only
      rw [(PMV.nofg_fields (st4.2.2.1 a)).2.1, han, h5]
    · refine ⟨?_, VTree.FlagsOK_of_frame pp st5.2.2.2.1 (fun x hx h => pn x hx h) hf4.2.1,
        VTree.FlagsOK_of_frame cp st5.2.2.2.1 (fun x hx h => cn x hx h) hf4.2.2.1, f5⟩
      rw [st5.2.2.2.1 a an]
      exact hf4.1
    · intro a' pp' cp' np' hsub hsh
      cases hsub with
      | refl _ => exact st5.2.2.2.2.1 _ hppV _ hcpV (e4 hsh)
      | insc_pp _ _ _ _ _ h' =>
        obtain ⟨k1, k2⟩ := hsubV pp a' pp' cp' np' h' hh.1.2.2.1 hVp
        refine st5.2.2.2.2.1 _ k1 _ k2 (co4 _ k1 _ k2 ?_)
        exact st3.2.2.2.2.1 _ k1 _ k2 (st2.2.2.2.2.1 _ k1 _ k2 (p1 a' pp' cp' np' h' hsh))
      | insc_cp _ _ _ _ _ h' =>
        obtain ⟨k1, k2⟩ := hsubV cp a' pp' cp' np' h' hh.1.2.2.2.1 hVc
        refine st5.2.2.2.2.1 _ k1 _ k2 (co4 _ k1 _ k2 ?_)
        exact st3.2.2.2.2.1 _ k1 _ k2 (p2 a' pp' cp' np' h' hsh)
      | insc_np _ _ _ _ _ h' => exact p5 a' pp' cp' np' h' hsh


theorem VTree.is_sym_of_flags {m : PMVMem} {a : Nat} {pp cp np : VTree}
    (hf : (VTree.insc a pp cp np).FlagsOK m)
    (h : (m a).flags &&& PMV_SBIT_INSC_is_sym ≠ 0) : pp.shape = cp.shape := by
  rcases hf.1 with e | e
  · rw [e] at h
    exact absurd rfl h
  · by_contra hs
    rw [e] at h
    simp only [VTree.eflags, if_neg hs] at h
    exact h rfl

theorem GroupsOK_size {s : PMState} {c : Nat} {V live : List Nat} (h : GroupsOK s c V live) :
    (s.cm c).gctx.size = (V.map (fun v => (s.vm v).gp)).dedup.length := by
  obtain ⟨_, _, _, hnd, hsz, hg, hv⟩ := h
  rw [hsz]
  apply List.Perm.length_eq
  rw [List.perm_ext_iff_of_nodup hnd (List.nodup_dedup _)]
  intro g
  rw [List.mem_dedup, List.mem_map]
  constructor
  · intro hgl
    obtain ⟨_, _, _, ms, _, _, _, hne, hmem⟩ := hg g hgl
    cases ms with
    | nil => exact absurd rfl hne
    | cons w ws =>
      obtain ⟨hw, hwg⟩ := (hmem w).mp (List.mem_cons_self _ _)
      exact ⟨w, hw, hwg⟩
  · rintro ⟨v, hvV, rfl⟩
    exact (hv v hvV).2.2.1

/-- Claim C22. For the IR under the head pointer of the context `c`, a tree
`T` without wrappers that the memory holds evaluated (every vertex stores the
summary of its tree, flags clear or those of an evaluated vertex), with the
groups as the builder leaves them (`GroupsOK`: every vertex in the list of
its live group, lists with the cursor at the start), `GM_mine_for_symm`
returns and keeps the tree; afterwards `group(pp) = group(cp)` for every
inosculation of the tree whose flag `PMV_SBIT_INSC_is_sym` is set, before or
after the call, and for every inosculation whose branches have the same
shape; the context counts as many groups as the vertices have different
groups, and no more than before. -/
theorem GM_mine_for_symm_merges (junk nvp ngp fuel : Nat) (s : PMState) (c : Nat) (T : VTree)
    (live : List Nat) (hhead : (s.cm c).headp = T.root) (hP : T.Plain) (hR : T.Rep s.vm)
    (hC : T.Corr s.vm) (hF : T.FlagsOK s.vm) (hnd : T.nodes.Nodup)
    (hok : GroupsOK s c T.nodes live) (hfuel : 3 * T.size + 2 ≤ fuel) :
    ∃ s', GM_mine_for_symm junk nvp ngp fuel s c = some s' ∧ T.Rep s'.vm ∧
      (∀ a pp cp np, SubtreeOf T (VTree.insc a pp cp np) →
        ((s.vm a).flags &&& PMV_SBIT_INSC_is_sym ≠ 0 ∨
          (s'.vm a).flags &&& PMV_SBIT_INSC_is_sym ≠ 0 ∨ pp.shape = cp.shape) →
        (s'.vm pp.root).gp = (s'.vm cp.root).gp) ∧
      (s'.cm c).gctx.size = (T.nodes.map (fun v => (s'.vm v).gp)).dedup.length ∧
      (s'.cm c).gctx.size ≤ (s.cm c).gctx.size := by
  obtain ⟨s', live', h, st, f', p⟩ := mine_for_symm_spec junk nvp ngp c T.nodes T fuel s live
    ⟨hP, hR, hC⟩ hF hnd (fun _ h => h) hok hfuel
  refine ⟨s', ?_, VTree.Rep_of_nofg T st.2.2.1 hR, ?_, GroupsOK_size st.1, ?_⟩
  · unfold GM_mine_for_symm
    rw [if_neg hok.1, hhead]
    exact h
  · intro a pp cp np hsub hsym
    apply p a pp cp np hsub
    rcases hsym with h1 | h1 | h1
    · exact VTree.is_sym_of_flags (SubtreeOf_FlagsOK hsub hF) h1
    · exact VTree.is_sym_of_flags (SubtreeOf_FlagsOK hsub f') h1
    · exact h1
  · rw [st.1.2.2.2.2.1, hok.2.2.2.2.1]
    exact length_le_of_nodup_subset st.1.2.2.2.1 st.2.1

theorem pm_symm_GroupsOK : GroupsOK pm_symm 1 pm_example_tree.nodes [11, 12, 13] := by
  refine ⟨by decide, by decide, by decide, by decide, by decide!, ?_, ?_⟩
  · intro g hg
    simp only [List.mem_cons, List.mem_singleton, List.not_mem_nil, or_false] at hg
    rcases hg with rfl | rfl | rfl
    · refine ⟨by decide, by decide!, by decide!, [1], ?_, by decide!, by decide, by decide, ?_⟩
      · unfold ArllRep
        decide!
      · intro w
        constructor
        · intro h
          rw [List.mem_singleton] at h
          subst h
          exact ⟨by decide, by decide!⟩
        · rintro ⟨hV, hgp⟩
          simp only [pm_example_tree, VTree.nodes, List.append_nil, List.nil_append,
            List.cons_append, List.mem_cons, List.mem_singleton, List.not_mem_nil,
            or_false] at hV
          rcases hV with rfl | rfl | rfl
          · exact List.mem_singleton.mpr rfl
          · exact absurd hgp (by decide!)
          · exact absurd hgp (by decide!)
    · refine ⟨by decide, by decide!, by decide!, [2], ?_, by decide!, by decide, by decide, ?_⟩
      · unfold ArllRep
        decide!
      · intro w
        constructor
        · intro h
          rw [List.mem_singleton] at h
          subst h
          exact ⟨by decide, by decide!⟩
        · rintro ⟨hV, hgp⟩
          simp only [pm_example_tree, VTree.nodes, List.append_nil, List.nil_append,
            List.cons_append, List.mem_cons, List.mem_singleton, List.not_mem_nil,
            or_false] at hV
          rcases hV with rfl | rfl | rfl
          · exact absurd hgp (by decide!)
          · exact List.mem_singleton.mpr rfl
          · exact absurd hgp (by decide!)
    · refine ⟨by decide, by decide!, by decide!, [3], ?_, by decide!, by decide, by decide, ?_⟩
      · unfold ArllRep
        decide!
      · intro w
        constructor
        · intro h
          rw [List.mem_singleton] at h
          subst h
          exact ⟨by decide, by decide!⟩
        · rintro ⟨hV, hgp⟩
          simp only [pm_example_tree, VTree.nodes, List.append_nil, List.nil_append,
            List.cons_append, List.mem_cons, List.mem_singleton, List.not_mem_nil,
            or_false] at hV
          rcases hV with rfl | rfl | rfl
          · exact absurd hgp (by decide!)
          · exact absurd hgp (by decide!)
          · exact List.mem_singleton.mpr rfl
  · intro v hV
    simp only [pm_example_tree, VTree.nodes, List.append_nil, List.nil_append,
      List.cons_append, List.mem_cons, List.mem_singleton, List.not_mem_nil, or_false] at hV
    rcases hV with rfl | rfl | rfl
    · exact ⟨by decide, by decide!, by decide!, by decide!⟩
    · exact ⟨by decide, by decide!, by decide!, by decide!⟩
    · exact ⟨by decide, by decide!, by decide!, by decide!⟩

theorem pm_symm_Rep : pm_example_tree.Rep pm_symm.vm := by
  unfold pm_example_tree
  simp only [VTree.Rep, VTree.root]
  decide!

theorem pm_symm_Corr : pm_example_tree.Corr pm_symm.vm := by
  unfold pm_example_tree
  simp only [VTree.Corr, Stored]
  decide!

theorem pm_symm_FlagsOK : pm_example_tree.FlagsOK pm_symm.vm := by
  unfold pm_example_tree
  simp only [VTree.FlagsOK]
  decide!


theorem GM_mine_for_symm_merges_witness :
    (∃ s', GM_mine_for_symm 0 4 14 12 pm_symm 1 = some s' ∧ pm_example_tree.Rep s'.vm ∧
      (∀ a pp cp np, SubtreeOf pm_example_tree (VTree.insc a pp cp np) →
        ((pm_symm.vm a).flags &&& PMV_SBIT_INSC_is_sym ≠ 0 ∨
          (s'.vm a).flags &&& PMV_SBIT_INSC_is_sym ≠ 0 ∨ pp.shape = cp.shape) →
        (s'.vm pp.root).gp = (s'.vm cp.root).gp) ∧
      (s'.cm 1).gctx.size = (pm_example_tree.nodes.map (fun v => (s'.vm v).gp)).dedup.length ∧
      (s'.cm 1).gctx.size ≤ (pm_symm.cm 1).gctx.size) ∧
    (pm_symm.cm 1).gctx.size = 3 ∧
    (GM_mine_for_symm 0 4 14 12 pm_symm 1).map (fun s => (s.cm 1).gctx.size) = some 2 :=
  ⟨GM_mine_for_symm_merges 0 4 14 12 pm_symm 1 pm_example_tree [11, 12, 13] (by decide!)
    pm_example_tree_Plain pm_symm_Rep pm_symm_Corr pm_symm_FlagsOK (by decide) pm_symm_GroupsOK
    (by decide), by decide!, by decide!⟩

/-- The builder makes of the fork with two branches calc(1), calc(1) the
inosculation 1 with the segment vertices 2 and 3 (raw segments of 2 tasks),
in the three groups 11, 12, 13; the inosculation is flagged symmetric. -/
theorem pm_symm_built :
    (pm_build mp_symm).map
      (fun r => (r.2, [(r.1.s.cm 1).headp, (r.1.s.vm 1).type, (r.1.s.vm 1).pp, (r.1.s.vm 1).cp,
        (r.1.s.vm 1).np, (r.1.s.vm 2).type, (r.1.s.vm 2).np, (r.1.s.vm 3).type,
        (r.1.s.vm 3).np, task_cnt_tot (r.1.segm 22), task_cnt_tot (r.1.segm 23), r.1.cnt,
        (r.1.s.vm 1).gp, (r.1.s.vm 2).gp, (r.1.s.vm 3).gp, (r.1.s.cm 1).gctx.size,
        (r.1.s.vm 1).flags])) =
      some (0, [1, PMV_insc, 2, 3, 0, PMV_seg, 0, PMV_seg, 0, 2, 2, 3, 11, 12, 13, 3, 513]) := by
  decide!

/-- After `GM_mine_for_symm` the two segment vertices of the fork share the
group 12, which has two members, and the context counts 2 groups. -/
theorem pm_symm_mined :
    (GM_mine_for_symm 0 4 14 12 pm_symm 1).map
      (fun s => [(s.vm 1).gp, (s.vm 2).gp, (s.vm 3).gp, (s.cm 1).gctx.size,
        (s.gm 11).vpl.blk_cnt, (s.gm 12).vpl.blk_cnt]) =
      some [11, 12, 12, 2, 1, 2] := by
  decide!



/-! ### The hash as a count of vertices, reflexive merges, the modulus -/

theorem hfold_reduced (h c : Nat) (hh : h < hp) (hc : c < hp) : hfold h c = (h + c) % hp := by
  unfold hfold
  unfold hp at hh hc
  rw [Nat.mod_eq_of_lt (by omega : h + c < 4294967296)]

theorem VTree.segs_inscs_size (t : VTree) : t.segs + t.inscs ≤ t.size := by
  induction t with
  | nil => exact Nat.le_refl _
  | seg a np ih => simp only [VTree.segs, VTree.inscs, VTree.size]; omega
  | insc a pp cp np ihp ihc ihn => simp only [VTree.segs, VTree.inscs, VTree.size]; omega
  | wrap a wp np ihw ihn => simp only [VTree.segs, VTree.inscs, VTree.size]; omega

theorem VTree.hash_counts (t : VTree) : t.hash = (t.segs + 32768 * t.inscs) % hp := by
  induction t with
  | nil => rfl
  | seg a np ih =>
    simp only [VTree.hash, VTree.segs, VTree.inscs]
    rw [hfold_reduced 1 _ (by decide) (VTree.hash_lt np), ih, Nat.add_mod_mod]
    congr 1
    omega
  | insc a pp cp np ihp ihc ihn =>
    simp only [VTree.hash, VTree.segs, VTree.inscs]
    rw [hfold_reduced 32768 _ (by decide) (VTree.hash_lt pp),
      hfold_reduced _ _ (Nat.mod_lt _ hp_pos) (VTree.hash_lt cp),
      hfold_reduced _ _ (Nat.mod_lt _ hp_pos) (VTree.hash_lt np), ihp, ihc, ihn]
    simp only [Nat.add_mod_mod, Nat.mod_add_mod]
    congr 1
    omega
  | wrap a wp np ihw ihn =>
    simp only [VTree.hash, VTree.segs, VTree.inscs]
    rw [hfold_reduced 0 _ hp_pos (VTree.hash_lt wp),
      hfold_reduced _ _ (Nat.mod_lt _ hp_pos) (VTree.hash_lt np), ihw, ihn]
    simp only [Nat.add_mod_mod, Nat.mod_add_mod, Nat.zero_add]
    congr 1
    omega

theorem VTree.vcnt_counts (t : VTree) (h : t.size < 4294967296) :
    t.vcnt = t.segs + t.inscs := by
  induction t with
  | nil => rfl
  | seg a np ih =>
    simp only [VTree.size] at h
    simp only [VTree.vcnt, VTree.segs, VTree.inscs, ufold]
    have := VTree.segs_inscs_size np
    rw [ih (by omega), Nat.mod_eq_of_lt (by omega)]
    omega
  | insc a pp cp np ihp ihc ihn =>
    simp only [VTree.size] at h
    simp only [VTree.vcnt, VTree.segs, VTree.inscs, ufold]
    have := VTree.segs_inscs_size np
    have := VTree.segs_inscs_size pp
    have := VTree.segs_inscs_size cp
    rw [ihp (by omega), ihc (by omega), ihn (by omega), Nat.mod_eq_of_lt (by omega),
      Nat.mod_eq_of_lt (by omega), Nat.mod_eq_of_lt (by omega)]
    omega
  | wrap a wp np ihw ihn =>
    simp only [VTree.size] at h
    simp only [VTree.vcnt, VTree.segs, VTree.inscs, ufold]
    have := VTree.segs_inscs_size np
    have := VTree.segs_inscs_size wp
    rw [ihw (by omega), ihn (by omega), Nat.mod_eq_of_lt (by omega),
      Nat.mod_eq_of_lt (by omega)]
    omega

theorem VTree.NoWrap_of_size (t : VTree) (h : t.size < 4294967296) : t.NoWrap := by
  induction t with
  | nil => trivial
  | seg a np ih =>
    simp only [VTree.size] at h
    have h1 := VTree.hash_lt np
    have h2 := VTree.depth_le_size np
    have h3 := VTree.vcnt_le_size np
    unfold hp at h1
    exact ⟨by omega, by omega, by omega, ih (by omega)⟩
  | insc a pp cp np ihp ihc ihn =>
    simp only [VTree.size] at h
    have h1 := VTree.hash_lt np
    have h2 := VTree.depth_le_size np
    have h3 := VTree.vcnt_le_size np
    have h4 := VTree.hash_lt pp
    have h5 := VTree.depth_le_size pp
    have h6 := VTree.vcnt_le_size pp
    have h7 := VTree.hash_lt cp
    have h8 := VTree.depth_le_size cp
    have h9 := VTree.vcnt_le_size cp
    have g1 := hfold_lt 32768 pp.hash
    have g2 := hfold_lt (hfold 32768 pp.hash) cp.hash
    have g3 := ufold_le 1 (max pp.depth cp.depth)
    have g4 := ufold_le 1 pp.vcnt
    have g5 := ufold_le (ufold 1 pp.vcnt) cp.vcnt
    have g6 : max pp.depth cp.depth ≤ pp.size + cp.size := by
      rcases Nat.le_total pp.depth cp.depth with e | e
      · rw [max_eq_right e]; omega
      · rw [max_eq_left e]; omega
    unfold hp at h1 h4 h7 g1 g2
    exact ⟨by omega, by omega, by omega, by omega, by omega, by omega, by omega, by omega,
      ihp (by omega), ihc (by omega), ihn (by omega)⟩
  | wrap a wp np ihw ihn =>
    simp only [VTree.size] at h
    have h1 := VTree.hash_lt np
    have h2 := VTree.depth_le_size np
    have h3 := VTree.vcnt_le_size np
    have h4 := VTree.hash_lt wp
    have h5 := VTree.depth_le_size wp
    have h6 := VTree.vcnt_le_size wp
    have g1 := hfold_lt 0 wp.hash
    have g3 := ufold_le 0 wp.depth
    have g4 := ufold_le 0 wp.vcnt
    unfold hp at h1 h4 g1
    exact ⟨by omega, by omega, by omega, by omega, by omega, by omega,
      ihw (by omega), ihn (by omega)⟩

/-- C36: for every IR tree `t` of fewer than 2^32 vertices held by the memory,
`PMV_eval_r(v, 1)` on its root `v` returns, and afterwards the hash of `v` is
`(s + 2^15 * i) mod (2^31 - 1)` and its vcnt is `s + i`, where `s` and `i` are
the numbers of segments and of inosculations of the tree (branches, wrapped
stems and `np` successors included); no unsigned 32-bit addition of the
computation wraps around. -/
theorem PMV_eval_r_hash_counts (m : PMVMem) (t : VTree) (fuel : Nat) (ht : t ≠ VTree.nil)
    (hrep : t.Rep m) (hnd : t.nodes.Nodup) (hsize : t.size < 4294967296)
    (hfuel : 3 * t.size ≤ fuel) :
    ∃ m', PMV_eval_r fuel m t.root true = some m' ∧
      (m' t.root).hash = (t.segs + 2 ^ 15 * t.inscs) % (2 ^ 31 - 1) ∧
      (m' t.root).vcnt = t.segs + t.inscs ∧ t.NoWrap := by
  obtain ⟨m', h, _, _, hc⟩ := (PMV_specs fuel).1 m t true ht hrep hnd hfuel
  have hs := VTree.Corr_root ht (hc (Or.inl rfl))
  refine ⟨m', h, ?_, ?_, VTree.NoWrap_of_size t hsize⟩
  · rw [hs.1, VTree.hash_counts]
    rfl
  · rw [hs.2.2, VTree.vcnt_counts t hsize]

theorem PMV_eval_r_hash_counts_witness :
    ∃ m', PMV_eval_r 9 pm_example_built.vm pm_example_tree.root true = some m' ∧
      (m' pm_example_tree.root).hash
        = (pm_example_tree.segs + 2 ^ 15 * pm_example_tree.inscs) % (2 ^ 31 - 1) ∧
      (m' pm_example_tree.root).vcnt = pm_example_tree.segs + pm_example_tree.inscs ∧
      pm_example_tree.NoWrap :=
  PMV_eval_r_hash_counts pm_example_built.vm pm_example_tree 9 (by decide)
    pm_example_tree_Rep (by decide) (by decide) (by decide)

theorem pm_example_hash_counts :
    pm_example_tree.segs = 2 ∧ pm_example_tree.inscs = 1 ∧ (pm_example.vm 1).hash = 32770 ∧
      (pm_example.vm 1).vcnt = 3 := by decide!

theorem PMVG_merge_same (junk : Nat) (s : PMState) (g : Nat) (hg : g ≠ 0) :
    PMVG_merge junk s g g = some s := by
  unfold PMVG_merge
  rw [if_neg (by simp [hg]), if_pos rfl]

theorem PMV_merge_r_same (junk nvp ngp : Nat) : ∀ (t : VTree) (fuel : Nat) (s : PMState),
    t.Rep s.vm → (∀ a ∈ t.nodes, (s.vm a).gp ≠ 0) → t.size < fuel →
    PMV_merge_r junk nvp ngp fuel s t.root t.root = some s := by
  intro t
  induction t with
  | nil =>
    intro fuel s _ _ hf
    obtain ⟨f, rfl⟩ := Nat.exists_eq_succ_of_ne_zero (by omega : fuel ≠ 0)
    unfold PMV_merge_r
    rw [if_pos (show VTree.nil.root = 0 from rfl), if_pos rfl]
  | seg a np ih =>
    intro fuel s hrep hgp hf
    obtain ⟨f, rfl⟩ := Nat.exists_eq_succ_of_ne_zero (by omega : fuel ≠ 0)
    simp only [VTree.size] at hf
    obtain ⟨ha, hty, hnp, hrn⟩ := hrep
    rw [show (VTree.seg a np).root = a from rfl]
    unfold PMV_merge_r
    rw [if_neg ha, if_neg ha, if_neg (fun h => h rfl), if_neg (fun h => h rfl)]
    dsimp only
    rw [if_pos hty]
    dsimp only
    rw [hnp, ih f s hrn (fun b hb => hgp b (List.mem_cons_of_mem _ hb)) (by omega)]
    dsimp only
    exact PMVG_merge_same junk s _ (hgp a (List.mem_cons_self _ _))
  | insc a pp cp np ihp ihc ihn =>
    intro fuel s hrep hgp hf
    obtain ⟨f, rfl⟩ := Nat.exists_eq_succ_of_ne_zero (by omega : fuel ≠ 0)
    simp only [VTree.size] at hf
    obtain ⟨ha, hty, hpp, hcp, hnp, hrp, hrc, hrn⟩ := hrep
    have hmem : ∀ b, b ∈ pp.nodes ∨ b ∈ cp.nodes ∨ b ∈ np.nodes →
        b ∈ (VTree.insc a pp cp np).nodes := by
      intro b hb
      simp only [VTree.nodes, List.mem_cons, List.mem_append]
      tauto
    rw [show (VTree.insc a pp cp np).root = a from rfl]
    unfold PMV_merge_r
    rw [if_neg ha, if_neg ha, if_neg (fun h => h rfl), if_neg (fun h => h rfl)]
    dsimp only
    rw [if_neg (by rw [hty]; decide), if_pos hty, hpp,
      ihp f s hrp (fun b hb => hgp b (hmem b (Or.inl hb))) (by omega)]
    dsimp only
    rw [hcp, ihc f s hrc (fun b hb => hgp b (hmem b (Or.inr (Or.inl hb)))) (by omega)]
    dsimp only
    rw [hnp, ihn f s hrn (fun b hb => hgp b (hmem b (Or.inr (Or.inr hb)))) (by omega)]
    dsimp only
    exact PMVG_merge_same junk s _ (hgp a (List.mem_cons_self _ _))
  | wrap a wp np ihw ihn =>
    intro fuel s hrep hgp hf
    obtain ⟨f, rfl⟩ := Nat.exists_eq_succ_of_ne_zero (by omega : fuel ≠ 0)
    simp only [VTree.size] at hf
    obtain ⟨ha, hty, hwp, hnp, hrw, hrn⟩ := hrep
    have hmem : ∀ b, b ∈ wp.nodes ∨ b ∈ np.nodes →
        b ∈ (VTree.wrap a wp np).nodes := by
      intro b hb
      simp only [VTree.nodes, List.mem_cons, List.mem_append]
      tauto
    rw [show (VTree.wrap a wp np).root = a from rfl]
    unfold PMV_merge_r
    rw [if_neg ha, if_neg ha, if_neg (fun h => h rfl), if_neg (fun h => h rfl)]
    dsimp only
    rw [if_neg (by rw [hty]; decide), if_neg (by rw [hty]; decide), if_pos hty]
    rw [show (s.vm a).wp = wp.root from hwp,
      ihw f s hrw (fun b hb => hgp b (hmem b (Or.inl hb))) (by omega)]
    dsimp only
    rw [hnp, ihn f s hrn (fun b hb => hgp b (hmem b (Or.inr hb))) (by omega)]
    dsimp only
    exact PMVG_merge_same junk s _ (hgp a (List.mem_cons_self _ _))

theorem pm_example_gp_ne (a : Nat) (h : a ∈ pm_example_tree.nodes) :
    (pm_example.vm a).gp ≠ 0 := by
  have h1 : ∀ b ∈ pm_example_tree.nodes, (pm_example.vm b).gp ≠ 0 := by decide!
  exact h1 a h

/-- C32 (as stated, refuted on the example): the reflexive calls
`PMVG_merge(g, g)` for the group 12 and `PMV_merge_r(v, v)` for the vertex 1
of the example IR return normally, and they leave the state as it was. -/
theorem reflexive_merge_returns :
    PMVG_merge 0 pm_example 12 12 = some pm_example ∧
      PMV_merge_r 0 4 14 4 pm_example 1 1 = some pm_example :=
  ⟨PMVG_merge_same 0 pm_example 12 (by decide),
    PMV_merge_r_same 0 4 14 pm_example_tree 4 pm_example
      (pm_example_established pm_example_tree (SubtreeOf.refl _)).2.1 pm_example_gp_ne
      (by decide)⟩

/-- C32 (amended): a reflexive merge is no error. `PMVG_merge(g, g)` for a
non-null group returns 0 at once (`if (to == from) return 0`), and
`PMV_merge_r(v, v)` for the root `v` of a tree whose vertices have a group
returns normally for every stack bound above the number of vertices; both
leave the state unchanged. -/
theorem PMV_merge_r_reflexive (junk nvp ngp : Nat) (s : PMState) (t : VTree) (fuel g : Nat)
    (hrep : t.Rep s.vm) (hgp : ∀ a ∈ t.nodes, (s.vm a).gp ≠ 0) (hfuel : t.size < fuel)
    (hg : g ≠ 0) :
    PMV_merge_r junk nvp ngp fuel s t.root t.root = some s ∧
      PMVG_merge junk s g g = some s :=
  ⟨PMV_merge_r_same junk nvp ngp t fuel s hrep hgp hfuel, PMVG_merge_same junk s g hg⟩

theorem PMV_merge_r_reflexive_witness :
    PMV_merge_r 7 4 14 9 pm_example pm_example_tree.root pm_example_tree.root
        = some pm_example ∧
      PMVG_merge 7 pm_example 13 13 = some pm_example :=
  PMV_merge_r_reflexive 7 4 14 pm_example pm_example_tree 9 13
    (pm_example_established pm_example_tree (SubtreeOf.refl _)).2.1 pm_example_gp_ne
    (by decide) (by decide)

theorem hp_prime : Nat.Prime hp := by
  have h : (mersenne 31).Prime :=
    lucas_lehmer_sufficiency _ (by norm_num) (by norm_num)
  have e : mersenne 31 = hp := by
    unfold hp mersenne
    norm_num
  rw [← e]
  exact h

theorem fork_chain_counts (n : Nat) :
    (fork_chain n).segs = 2 * n ∧ (fork_chain n).inscs = n ∧ (fork_chain n).Plain := by
  induction n with
  | zero => exact ⟨rfl, rfl, trivial⟩
  | succ n ih =>
    obtain ⟨h1, h2, h3⟩ := ih
    refine ⟨?_, ?_, ?_⟩
    · simp only [fork_chain, VTree.segs, h1]
      omega
    · simp only [fork_chain, VTree.inscs, h2]
      omega
    · simp only [fork_chain, VTree.Plain]
      exact ⟨by simp, by simp, trivial, trivial, h3⟩

theorem fork_chain_hash : (fork_chain 32767).hash = 1073774590 := by
  rw [VTree.hash_counts, (fork_chain_counts 32767).1, (fork_chain_counts 32767).2.1]
  decide

/-- C31 (failing input): the comment above the constant in `PMV_eval_r` reads
"biggest prime leq (2^31 - 1) / 2", but the value `hp = 0x7FffFFff` is
`2^31 - 1` itself, greater than `(2^31 - 1) / 2`. With it the sum of two
reduced hashes reaches `2^31`: the stem of 32767 forks with one segment in
each branch has the hash 1073774590, below `hp`, and the hashes of two such
stems add up to more than `2^31`. -/
theorem hp_exceeds_half :
    ¬ hp ≤ (2 ^ 31 - 1) / 2 ∧ (fork_chain 32767).hash < hp ∧
      ¬ (fork_chain 32767).hash + (fork_chain 32767).hash < 2 ^ 31 := by
  rw [fork_chain_hash]
  decide

/-- The value of `hp` is the prime `2^31 - 1`; the sum of two reduced hashes
stays below `2^32`, so the unsigned 32-bit addition `hash += c` of
`PMV_eval_r` does not wrap with the constant as it is. -/
theorem hp_addition_safe (a b : Nat) (ha : a < hp) (hb : b < hp) :
    hp = 2 ^ 31 - 1 ∧ Nat.Prime hp ∧ a + b < 2 ^ 32 ∧ hfold a b = (a + b) % hp := by
  refine ⟨by decide, hp_prime, ?_, hfold_reduced a b ha hb⟩
  unfold hp at ha hb
  omega

theorem hp_addition_safe_witness :
    hp = 2 ^ 31 - 1 ∧ Nat.Prime hp ∧ 2147483646 + 2147483646 < 2 ^ 32 ∧
      hfold 2147483646 2147483646 = (2147483646 + 2147483646) % hp :=
  hp_addition_safe 2147483646 2147483646 (by decide) (by decide)


/-! ### `arll_geti`, `TSR_eval` and the termination of `Buck_create` -/

theorem arll_example_pushed_eq :
    arll_example_pushed = some arll_example3 := by
  rfl

theorem arll_example_pushed_rep : ArllRep arll_example3 [7, 8, 9] := by
  unfold ArllRep arll.members arll_example3
  decide

/-- C34: `arll_geti` returns the i-th element for every `i` below the length
`n` of the list and nothing for `i > n`, but for `i = n` the guard
`i > blk_cnt` lets the call pass: it returns the pointer to the block number
`n`, and while the array has a spare cell (`n < blk_lsiz`) that block is the
unused cell behind the last element. -/
theorem arll_geti_at_length {α : Type} (a : arll α) (xs : List α) (h : ArllRep a xs) :
    (∀ i, i < xs.length → arll_geti a i = xs[i]?) ∧
      (∀ i, xs.length < i → arll_geti a i = none ∧ arll_geti_index a i = none) ∧
      arll_geti_index a xs.length = some xs.length ∧
      (xs.length < a.blk_lsiz →
        arll_geti a xs.length = a.blk_l[xs.length]? ∧ (arll_geti a xs.length).isSome = true) := by
  obtain ⟨h1, h2, h3, h4, h5⟩ := h
  refine ⟨?_, ?_, ?_, ?_⟩
  · intro i hi
    unfold arll_geti
    rw [if_neg (by omega), ← h1]
    unfold arll.members
    rw [List.getElem?_take_of_lt (by omega)]
  · intro i hi
    unfold arll_geti arll_geti_index
    rw [if_pos (by omega), if_pos (by omega)]
    exact ⟨rfl, rfl⟩
  · unfold arll_geti_index
    rw [if_neg (by omega)]
  · intro hl
    unfold arll_geti
    rw [if_neg (by omega)]
    refine ⟨rfl, ?_⟩
    rw [List.getElem?_eq_getElem (by omega)]
    rfl

theorem arll_geti_at_length_witness :
    (∀ i, i < [7, 8, 9].length → arll_geti arll_example3 i = [7, 8, 9][i]?) ∧
      (∀ i, [7, 8, 9].length < i →
        arll_geti arll_example3 i = none ∧ arll_geti_index arll_example3 i = none) ∧
      arll_geti_index arll_example3 [7, 8, 9].length = some [7, 8, 9].length ∧
      ([7, 8, 9].length < arll_example3.blk_lsiz →
        arll_geti arll_example3 [7, 8, 9].length = arll_example3.blk_l[[7, 8, 9].length]? ∧
        (arll_geti arll_example3 [7, 8, 9].length).isSome = true) :=
  arll_geti_at_length _ _ arll_example_pushed_rep

theorem arll_geti_example :
    arll_geti arll_example3 3 = some 99 ∧ arll_geti arll_example3 2 = some 9 ∧
      arll_geti arll_example3 4 = none ∧ arll_geti_index arll_example3 3 = some 3 := by
  decide

theorem foldl_add_eq_sum (l : List ℚ) : l.foldl (fun s x => s + x) 0 = l.sum := by
  rw [List.sum_eq_foldl]

theorem TSR_eval_type_spec (sqrt : ℚ → ℚ) (r : TReql) (ws : List ℚ)
    (hlen : r.req_l.length = r.req_l_siz) (hcnt : r.task_cnt = ws.length)
    (hle : r.task_cnt ≤ r.req_l_siz) (htake : r.req_l.take r.task_cnt = ws) :
    ∃ r', TSR_eval_type sqrt r = some r' ∧ r'.avg = gsl_stats_mean ws ∧
      r'.stddev = (if ws.length > 1 then sqrt (gsl_stats_variance_m ws (gsl_stats_mean ws))
        else 0) ∧
      r'.sum = ws.sum + (r.req_l.drop ws.length).sum := by
  unfold TSR_eval_type
  rw [if_neg (by omega), if_neg (by omega)]
  refine ⟨_, rfl, ?_, ?_, ?_⟩
  · show gsl_stats_mean (r.req_l.take r.task_cnt) = _
    rw [htake]
  · show (if r.task_cnt > 1 then _ else _) = _
    rw [htake, hcnt]
  · show (r.req_l.take r.req_l_siz).foldl (fun s x => s + x) 0 = _
    rw [foldl_add_eq_sum, ← hlen, List.take_length, ← hcnt, ← htake,
      List.sum_take_add_sum_drop]

/-- C33: for the segment that `TaskSegRaw_init` and the calls of `TSR_put`
make of the tasks `tasks`, `TSR_eval` returns, and for each task type the
cached mean is the mean of the weights put for the type and the cached stddev
is their sample standard deviation (0 for fewer than two); but the cached sum
is the sum of ALL `req_l_siz` cells of the weight array: the weights put plus
the content of the cells behind them, which `malloc` and `realloc` left
uninitialised. -/
theorem TSR_eval_sums_capacity (sqrt : ℚ → ℚ) (junk : ℚ) (junkt : Nat) (tasks : List TSRTask)
    (hty : ∀ t ∈ tasks, t.type < TSTT_enumsize) (hn : tasks.length + 16 < 2147483648) :
    ∃ tsrp tsrp', TSR_put_all junk junkt (TaskSegRaw_init junk junkt) tasks = some tsrp ∧
      TSR_eval sqrt tsrp = some tsrp' ∧
      ∀ i, i < TSTT_enumsize →
        (idx2 tsrp'.treq_l i).avg
          = gsl_stats_mean ((tasks.filter (fun t => t.type = i)).map (fun t => t.req)) ∧
        (idx2 tsrp'.treq_l i).stddev
          = (if ((tasks.filter (fun t => t.type = i)).map (fun t => t.req)).length > 1 then
              sqrt (gsl_stats_variance_m ((tasks.filter (fun t => t.type = i)).map (fun t => t.req))
                (gsl_stats_mean ((tasks.filter (fun t => t.type = i)).map (fun t => t.req))))
            else 0) ∧
        (idx2 tsrp'.treq_l i).sum
          = ((tasks.filter (fun t => t.type = i)).map (fun t => t.req)).sum +
            ((idx2 tsrp.treq_l i).req_l.drop
              ((tasks.filter (fun t => t.type = i)).map (fun t => t.req)).length).sum := by
  obtain ⟨tsrp, hput, hrep⟩ :=
    TSR_put_all_repr junk junkt tasks (TaskSegRaw_init junk junkt) [] hty
      (by simpa using hn) (TaskSegRaw_init_repr junk junkt)
  rw [List.nil_append] at hrep
  obtain ⟨_, _, _, _, hi⟩ := hrep
  obtain ⟨a1, a2, a3, a4, a5, a6⟩ := hi 0 (by decide)
  obtain ⟨b1, b2, b3, b4, b5, b6⟩ := hi 1 (by decide)
  obtain ⟨r0, e0, p0⟩ := TSR_eval_type_spec sqrt (idx2 tsrp.treq_l 0) _ a1
    (by rw [a3, List.length_map]) a4 a5
  obtain ⟨r1, e1, p1⟩ := TSR_eval_type_spec sqrt (idx2 tsrp.treq_l 1) _ b1
    (by rw [b3, List.length_map]) b4 b5
  refine ⟨tsrp, { tsrp with treq_l := (r0, r1) }, hput, ?_, ?_⟩
  · unfold TSR_eval
    rw [show tsrp.treq_l.1 = idx2 tsrp.treq_l 0 from rfl, e0]
    dsimp only
    rw [show tsrp.treq_l.2 = idx2 tsrp.treq_l 1 from rfl, e1]
  · intro i hi2
    have hcases : i = 0 ∨ i = 1 := by
      unfold TSTT_enumsize at hi2
      omega
    rcases hcases with rfl | rfl
    · exact p0
    · exact p1

theorem TSR_eval_sums_capacity_witness :
    ∃ tsrp tsrp', TSR_put_all 1 0 (TaskSegRaw_init 1 0) tsr_eval_tasks = some tsrp ∧
      TSR_eval sqrt_example tsrp = some tsrp' ∧
      ∀ i, i < TSTT_enumsize →
        (idx2 tsrp'.treq_l i).avg
          = gsl_stats_mean ((tsr_eval_tasks.filter (fun t => t.type = i)).map (fun t => t.req)) ∧
        (idx2 tsrp'.treq_l i).stddev
          = (if ((tsr_eval_tasks.filter (fun t => t.type = i)).map (fun t => t.req)).length > 1
            then
              sqrt_example
                (gsl_stats_variance_m
                  ((tsr_eval_tasks.filter (fun t => t.type = i)).map (fun t => t.req))
                  (gsl_stats_mean
                    ((tsr_eval_tasks.filter (fun t => t.type = i)).map (fun t => t.req))))
            else 0) ∧
        (idx2 tsrp'.treq_l i).sum
          = ((tsr_eval_tasks.filter (fun t => t.type = i)).map (fun t => t.req)).sum +
            ((idx2 tsrp.treq_l i).req_l.drop
              ((tsr_eval_tasks.filter (fun t => t.type = i)).map (fun t => t.req)).length).sum :=
  TSR_eval_sums_capacity sqrt_example 1 0 tsr_eval_tasks (by decide) (by decide)

theorem tsr_eval_example_junk1 :
    (TSR_eval sqrt_example (tsr_eval_example 1)).map
        (fun r => ((idx2 r.treq_l TSTT_calc).task_cnt, (idx2 r.treq_l TSTT_calc).req_l_siz,
          (idx2 r.treq_l TSTT_calc).avg, (idx2 r.treq_l TSTT_calc).stddev,
          (idx2 r.treq_l TSTT_calc).sum, (idx2 r.treq_l TSTT_com).sum))
      = some (3, 16, 4, 4, 25, 16) := by decide!

theorem tsr_eval_example_junk0 :
    (TSR_eval sqrt_example (tsr_eval_example 0)).map
        (fun r => ((idx2 r.treq_l TSTT_calc).task_cnt, (idx2 r.treq_l TSTT_calc).req_l_siz,
          (idx2 r.treq_l TSTT_calc).avg, (idx2 r.treq_l TSTT_calc).stddev,
          (idx2 r.treq_l TSTT_calc).sum, (idx2 r.treq_l TSTT_com).sum))
      = some (3, 16, 4, 4, 12, 0) := by decide!

theorem all_eq_of_le_of_sum (m : ℚ) : ∀ l : List ℚ, (∀ x ∈ l, x ≤ m) →
    l.sum = (l.length : ℚ) * m → ∀ x ∈ l, x = m := by
  intro l
  induction l with
  | nil => intro _ _ x hx; exact absurd hx (List.not_mem_nil _)
  | cons c t ih =>
    intro hle hsum x hx
    have hc := hle c (List.mem_cons_self _ _)
    have ht : ∀ y ∈ t, y ≤ m := fun y hy => hle y (List.mem_cons_of_mem _ hy)
    have h1 := sum_le_length_mul t m ht
    simp only [List.sum_cons, List.length_cons, Nat.cast_add, Nat.cast_one] at hsum
    have hcm : c = m := by linarith
    have hts : t.sum = (t.length : ℚ) * m := by linarith
    rcases List.mem_cons.mp hx with rfl | hx
    · exact hcm
    · exact ih ht hts x hx

theorem variance_zero_of_all_eq (l : List ℚ) (m : ℚ) (h : ∀ x ∈ l, x = m) :
    gsl_stats_variance_m l m = 0 := by
  unfold gsl_stats_variance_m
  have : (l.map fun x => (x - m) ^ 2).sum = 0 := by
    apply List.sum_eq_zero
    intro y hy
    obtain ⟨x, hx, rfl⟩ := List.mem_map.mp hy
    rw [h x hx]
    ring
  rw [this, zero_div]

theorem bad_gt_spread (l : List ℚ) (k : ℚ) (hne : l ≠ [])
    (hbad : bad_gt (Buck_stddev l) (gsl_stats_mean l) k = true) :
    0 < gsl_stats_mean l ∧ 1 < l.length ∧ ¬ ∀ x ∈ l, x ≤ gsl_stats_mean l := by
  unfold bad_gt at hbad
  rw [decide_eq_true_eq] at hbad
  obtain ⟨hm, hv⟩ := hbad
  have hv0 : 0 < Buck_stddev l := lt_of_le_of_lt (sq_nonneg _) hv
  unfold Buck_stddev at hv0
  by_cases h1 : l.length > 1
  · rw [if_pos h1] at hv0
    refine ⟨hm, h1, ?_⟩
    intro hall
    have hsum : l.sum = (l.length : ℚ) * gsl_stats_mean l := by
      unfold gsl_stats_mean
      rw [mul_div_cancel₀ _ (ne_of_gt (length_pos_rat hne))]
    have := variance_zero_of_all_eq l _ (all_eq_of_le_of_sum _ l hall hsum)
    rw [this] at hv0
    exact lt_irrefl _ hv0
  · rw [if_neg h1] at hv0
    exact absurd hv0 (lt_irrefl _)

/-- The split index of `Buck_create` is inside the list. -/
theorem Buck_create_split (l : List ℚ) (k : ℚ) (hs : l.Sorted (· ≤ ·)) (hne : l ≠ [])
    (hbad : bad_gt (Buck_stddev l) (gsl_stats_mean l) k = true) :
    ∃ u, bsearch_upbound (gsl_stats_mean l) l = some u ∧ 0 < u ∧ u < l.length ∧
      (∀ x ∈ l.take u, x ≤ gsl_stats_mean l) ∧ (∀ x ∈ l.drop u, gsl_stats_mean l < x) := by
  obtain ⟨hm, h1, hnall⟩ := bad_gt_spread l k hne hbad
  obtain ⟨u, hu, hle, hlow, hhigh⟩ := bsearch_upbound_sorted (gsl_stats_mean l) l hs hne
  refine ⟨u, hu, ?_, ?_, hlow, hhigh⟩
  · rcases Nat.eq_zero_or_pos u with h0 | h0
    · exfalso
      rw [h0, List.drop_zero] at hhigh
      obtain ⟨a, ha, hmin⟩ := sorted_head_le l hs hne
      have := le_gsl_stats_mean l a hne hmin
      exact absurd (hhigh a ha) (not_lt.mpr this)
    · exact h0
  · rcases Nat.lt_or_ge u l.length with h | h
    · exact h
    · exfalso
      have e : u = l.length := Nat.le_antisymm hle h
      rw [e, List.take_length] at hlow
      exact hnall hlow

theorem Buck_create_aux_total (k : ℚ) (hk : 0 < k) : ∀ (fuel : Nat) (reql : List ℚ),
    reql.length ≤ fuel → reql ≠ [] → reql.Sorted (· ≤ ·) →
    ∃ b, Buck_create_aux fuel reql k = some b ∧ ((∀ x ∈ reql, 0 < x) → b ≠ .NULL) := by
  intro fuel
  induction fuel with
  | zero =>
    intro reql h hne _
    exact absurd (List.length_eq_zero.mp (Nat.le_zero.mp h)) hne
  | succ fuel ih =>
    intro reql hlen hne hs
    have hl0 : reql.length ≠ 0 := fun h => hne (List.length_eq_zero.mp h)
    rw [Buck_create_aux_succ, if_neg (not_not.mpr hk), if_neg hl0]
    by_cases hm0 : gsl_stats_mean reql = 0
    · rw [if_pos hm0]
      refine ⟨_, rfl, ?_⟩
      intro hpos
      exfalso
      obtain ⟨a, ha, hmin⟩ := sorted_head_le reql hs hne
      have := le_gsl_stats_mean reql a hne hmin
      have := hpos a ha
      linarith
    · rw [if_neg hm0]
      by_cases hbad : bad_gt (Buck_stddev reql) (gsl_stats_mean reql) k = true
      · rw [if_pos hbad]
        obtain ⟨hm, h1, _⟩ := bad_gt_spread reql k hne hbad
        obtain ⟨u, hu, hu0, hul, hlow, hhigh⟩ := Buck_create_split reql k hs hne hbad
        rw [if_neg (not_not.mpr h1), hu]
        dsimp only
        rw [if_neg (not_not.mpr hul)]
        have hlt : (reql.take u).length = u := by
          rw [List.length_take]
          omega
        have hld : (reql.drop u).length = reql.length - u := List.length_drop _ _
        obtain ⟨bl, hbl, hbln⟩ := ih (reql.take u) (by omega)
          (fun h => by rw [h] at hlt; simp at hlt; omega)
          (List.Pairwise.sublist (List.take_sublist _ _) hs)
        obtain ⟨bh, hbh, hbhn⟩ := ih (reql.drop u) (by omega)
          (fun h => by rw [h] at hld; simp at hld; omega)
          (List.Pairwise.sublist (List.drop_sublist _ _) hs)
        have hbh' := hbhn (fun x hx => lt_trans hm (hhigh x hx))
        rw [hbl]
        cases bl with
        | NULL =>
          refine ⟨_, rfl, ?_⟩
          intro hpos
          exact absurd rfl (hbln (fun x hx => hpos x (List.mem_of_mem_take hx)))
        | node lm ls ld lsize ll lh =>
          dsimp only
          rw [hbh]
          cases bh with
          | NULL => exact absurd rfl hbh'
          | node hm2 hs2 hd2 hsize hl hh =>
            exact ⟨_, rfl, fun _ h => Bucket.noConfusion h⟩
      · rw [if_neg hbad]
        exact ⟨_, rfl, fun _ h => Bucket.noConfusion h⟩

/-- In exact arithmetic (the rational model `Buck_create`): on every non-empty
ascending list and for every `k > 0`, the function returns (a tree, or NULL
for a sublist of mean 0) within the
recursion depth `size`; and whenever the badness exceeds `k`, the split index
`u` that `bsearch_upbound(mean)` returns satisfies `0 < u < size`, so that
`assert(upbound < size)` holds and the two recursive calls get the non-empty,
strictly shorter lists of the first `u` and of the other `size - u`
weights. -/
theorem Buck_create_terminates (reql : List ℚ) (k : ℚ) (hne : reql ≠ [])
    (hs : reql.Sorted (· ≤ ·)) (hk : 0 < k) :
    (∃ b, Buck_create reql k = some b) ∧
      (bad_gt (Buck_stddev reql) (gsl_stats_mean reql) k = true →
        ∃ u, bsearch_upbound (gsl_stats_mean reql) reql = some u ∧ 0 < u ∧ u < reql.length ∧
          (reql.take u).length = u ∧ (reql.drop u).length = reql.length - u ∧
          (reql.take u).Sorted (· ≤ ·) ∧ (reql.drop u).Sorted (· ≤ ·)) := by
  constructor
  · obtain ⟨b, hb, _⟩ := Buck_create_aux_total k hk reql.length reql (Nat.le_refl _) hne hs
    exact ⟨b, hb⟩
  · intro hbad
    obtain ⟨u, hu, hu0, hul, _, _⟩ := Buck_create_split reql k hs hne hbad
    refine ⟨u, hu, hu0, hul, ?_, List.length_drop _ _,
      List.Pairwise.sublist (List.take_sublist _ _) hs,
      List.Pairwise.sublist (List.drop_sublist _ _) hs⟩
    rw [List.length_take]
    omega

theorem Buck_create_terminates_witness :
    (∃ b, Buck_create [1, 1, 1, 10, 10, 10] (1 / 10) = some b) ∧
      (bad_gt (Buck_stddev [1, 1, 1, 10, 10, 10]) (gsl_stats_mean [1, 1, 1, 10, 10, 10]) (1 / 10)
          = true →
        ∃ u, bsearch_upbound (gsl_stats_mean [1, 1, 1, 10, 10, 10]) [1, 1, 1, 10, 10, 10]
            = some u ∧ 0 < u ∧ u < [1, 1, 1, 10, 10, 10].length ∧
          (([1, 1, 1, 10, 10, 10] : List ℚ).take u).length = u ∧
          (([1, 1, 1, 10, 10, 10] : List ℚ).drop u).length
            = [1, 1, 1, 10, 10, 10].length - u ∧
          (([1, 1, 1, 10, 10, 10] : List ℚ).take u).Sorted (· ≤ ·) ∧
          (([1, 1, 1, 10, 10, 10] : List ℚ).drop u).Sorted (· ≤ ·)) :=
  Buck_create_terminates [1, 1, 1, 10, 10, 10] (1 / 10) (by decide) (by decide!) (by decide!)

theorem Buck_create_split_example :
    bad_gt (Buck_stddev [1, 1, 1, 10, 10, 10]) (gsl_stats_mean [1, 1, 1, 10, 10, 10]) (1 / 10)
        = true ∧
      bsearch_upbound (gsl_stats_mean [1, 1, 1, 10, 10, 10]) [1, 1, 1, 10, 10, 10] = some 3 := by
  decide!


/-! ### `PM_link_groups` keeps the edges that are set -/

theorem CPMV.kept_refl (a : CPMV) : CPMV.kept a a := ⟨fun _ => rfl, fun _ => rfl, fun _ => rfl⟩

theorem CPMV.kept_trans {a b c : CPMV} (h1 : CPMV.kept a b) (h2 : CPMV.kept b c) :
    CPMV.kept a c := by
  obtain ⟨a1, a2, a3⟩ := h1
  obtain ⟨b1, b2, b3⟩ := h2
  refine ⟨fun h => ?_, fun h => ?_, fun h => ?_⟩
  · have e := a1 h
    rw [b1 (by rw [e]; exact h), e]
  · have e := a2 h
    rw [b2 (by rw [e]; exact h), e]
  · have e := a3 h
    rw [b3 (by rw [e]; exact h), e]

theorem EdgesKept_refl (s : PMState) : EdgesKept s s := fun _ => CPMV.kept_refl _

theorem EdgesKept_trans {s s1 s2 : PMState} (h1 : EdgesKept s s1) (h2 : EdgesKept s1 s2) :
    EdgesKept s s2 := fun g => CPMV.kept_trans (h1 g) (h2 g)

theorem CPMV.kept_with_cnp (c0 : CPMV) (g : PMVG) (r : Nat) (h0 : CPMV.np c0 = 0)
    (h : CPMV.kept c0 g.cpmv) : CPMV.kept c0 (g.with_cnp r).cpmv :=
  ⟨fun hn => absurd h0 hn, h.2.1, h.2.2⟩

theorem CPMV.kept_with_cpp (c0 : CPMV) (g : PMVG) (r : Nat) (h0 : CPMV.pp c0 = 0)
    (h : CPMV.kept c0 g.cpmv) : CPMV.kept c0 (g.with_cpp r).cpmv :=
  ⟨h.1, fun hn => absurd h0 hn, h.2.2⟩

theorem CPMV.kept_with_ccp (c0 : CPMV) (g : PMVG) (r : Nat) (h0 : CPMV.cp c0 = 0)
    (h : CPMV.kept c0 g.cpmv) : CPMV.kept c0 (g.with_ccp r).cpmv :=
  ⟨h.1, h.2.1, fun hn => absurd h0 hn⟩

/-- The statement `if (!gp->cpmv.x) gp->cpmv.x = _link_groups(p);` changes no
edge that is not NULL. -/
theorem link_groups_edge_kept (link : PMState → Nat → Option (PMState × Nat))
    (get : CPMV → Nat) (set : PMVG → Nat → PMVG) {s s' : PMState} {gp p : Nat}
    (hset : ∀ (c0 : CPMV) (g : PMVG) (r : Nat), get c0 = 0 → CPMV.kept c0 g.cpmv →
      CPMV.kept c0 (set g r).cpmv)
    (hlink : ∀ s1 r, link s p = some (s1, r) → EdgesKept s s1)
    (h : link_groups_edge link get set s gp p = some s') : EdgesKept s s' := by
  unfold link_groups_edge at h
  split at h
  · next hget =>
    split at h
    · exact absurd h (by simp)
    · next s1 r h1 =>
      have hk := hlink s1 r h1
      simp only [Option.some.injEq] at h
      subst h
      intro g
      show CPMV.kept (s.gm g).cpmv (store s1.gm gp _ g).cpmv
      by_cases hg : g = gp
      · subst hg
        rw [store_same]
        exact hset _ _ _ hget (hk g)
      · rw [store_other _ _ _ _ hg]
        exact hk g
  · simp only [Option.some.injEq] at h
    subst h
    exact EdgesKept_refl _

/-- The function `_link_groups` changes no edge that is not NULL. -/
theorem link_groups_kept : ∀ (fuel : Nat) (s s' : PMState) (vp r : Nat),
    link_groups fuel s vp = some (s', r) → EdgesKept s s' := by
  intro fuel
  induction fuel with
  | zero => intro s s' vp r h; exact absurd h (by simp [link_groups])
  | succ f ih =>
    intro s s' vp r h
    have hl : ∀ (s0 : PMState) (p : Nat) (s1 : PMState) (r1 : Nat),
        (fun s1 p => link_groups f s1 p) s0 p = some (s1, r1) → EdgesKept s0 s1 :=
      fun s0 p s1 r1 h1 => ih s0 s1 p r1 h1
    change link_groups_body (fun s1 p => link_groups f s1 p) s vp = some (s', r) at h
    unfold link_groups_body at h
    split at h
    · simp only [Option.some.injEq, Prod.mk.injEq] at h
      obtain ⟨h, _⟩ := h
      subst h
      exact EdgesKept_refl _
    split at h
    · exact absurd h (by simp)
    split at h
    · exact absurd h (by simp)
    simp only [] at h
    split at h
    · exact absurd h (by simp)
    next s4 hsw =>
    have hs4 : EdgesKept s s4 := by
      split at hsw
      · split at hsw
        · exact absurd hsw (by simp)
        · next s2 h2 =>
          exact EdgesKept_trans
            (link_groups_edge_kept _ CPMV.pp PMVG.with_cpp CPMV.kept_with_cpp (hl s _) h2)
            (link_groups_edge_kept _ CPMV.cp PMVG.with_ccp CPMV.kept_with_ccp (hl s2 _) hsw)
      · split at hsw
        · exact link_groups_edge_kept _ CPMV.pp PMVG.with_cpp CPMV.kept_with_cpp (hl s _) hsw
        · simp only [Option.some.injEq] at hsw
          subst hsw
          exact EdgesKept_refl _
    split at h
    · exact absurd h (by simp)
    next s5 h5 =>
    have hs5 := link_groups_edge_kept _ CPMV.np PMVG.with_cnp CPMV.kept_with_cnp (hl s4 _) h5
    simp only [Option.some.injEq, Prod.mk.injEq] at h
    obtain ⟨h, _⟩ := h
    subst h
    exact EdgesKept_trans hs4 hs5

theorem link_groups_edge_total (link : PMState → Nat → Option (PMState × Nat))
    (get : CPMV → Nat) (set : PMVG → Nat → PMVG) (s : PMState) (gp p : Nat)
    (hlink : ∃ s1 r, link s p = some (s1, r)) :
    ∃ s', link_groups_edge link get set s gp p = some s' := by
  unfold link_groups_edge
  by_cases hget : get (s.gm gp).cpmv = 0
  · obtain ⟨s1, r, h1⟩ := hlink
    rw [if_pos hget, h1]
    exact ⟨_, rfl⟩
  · rw [if_neg hget]
    exact ⟨_, rfl⟩

/-- The call `_link_groups(v)` returns for every tree whose vertices have a
group, whatever the edges of the compressed vertices are. -/
theorem link_groups_total : ∀ (t : VTree) (fuel : Nat) (s : PMState), t.Rep s.vm →
    (∀ v ∈ t.nodes, (s.vm v).gp ≠ 0) → t.size + 1 ≤ fuel →
    ∃ s' r, link_groups fuel s t.root = some (s', r) := by
  intro t
  induction t with
  | nil =>
    intro fuel s _ _ hf
    obtain ⟨f, rfl⟩ : ∃ f, fuel = f + 1 := ⟨fuel - 1, by omega⟩
    exact ⟨s, 0, link_groups_zero f s⟩
  | seg a np ih =>
    intro fuel s hr hgp hf
    obtain ⟨f, rfl⟩ : ∃ f, fuel = f + 1 := ⟨fuel - 1, by omega⟩
    have hsz : np.size + 1 ≤ f := by simp only [VTree.size] at hf; omega
    obtain ⟨ha0, hty, hnp, hrn⟩ := hr
    have hain : a ∈ (VTree.seg a np).nodes := List.mem_cons_self _ _
    show ∃ s' r, link_groups_body _ s a = some (s', r)
    unfold link_groups_body
    rw [if_neg ha0, hty, if_neg (not_not.mpr PMV_type_seg_lt), if_neg (hgp a hain)]
    simp only [show ¬ PMV_seg = PMV_insc by decide, show ¬ PMV_seg = PMV_wrap by decide,
      if_false]
    obtain ⟨s5, h5⟩ := link_groups_edge_total (fun s1 p => link_groups f s1 p) CPMV.np
      PMVG.with_cnp s (s.vm a).gp (s.vm a).np (by
        rw [hnp]
        exact ih f s hrn (fun v hv => hgp v (List.mem_cons_of_mem _ hv)) hsz)
    rw [h5]
    exact ⟨_, _, rfl⟩
  | insc a pp cp np ihp ihc ihn =>
    intro fuel s hr hgp hf
    obtain ⟨f, rfl⟩ : ∃ f, fuel = f + 1 := ⟨fuel - 1, by omega⟩
    simp only [VTree.size] at hf
    obtain ⟨ha0, hty, hpp, hcp, hnp, hrp, hrc, hrn⟩ := hr
    have hain : a ∈ (VTree.insc a pp cp np).nodes := List.mem_cons_self _ _
    have hmem : ∀ b, b ∈ pp.nodes ∨ b ∈ cp.nodes ∨ b ∈ np.nodes →
        b ∈ (VTree.insc a pp cp np).nodes := by
      intro b hb
      simp only [VTree.nodes, List.mem_cons, List.mem_append]
      tauto
    have hl : ∀ (s0 : PMState) (p : Nat) (s1 : PMState) (r1 : Nat),
        (fun s1 p => link_groups f s1 p) s0 p = some (s1, r1) →
        s1.vm = s0.vm ∧ s1.cm = s0.cm ∧ ∀ g, (s1.gm g).noedge = (s0.gm g).noedge :=
      fun s0 p s1 r1 h1 => link_groups_frame f s0 s1 p r1 h1
    show ∃ s' r, link_groups_body _ s a = some (s', r)
    unfold link_groups_body
    rw [if_neg ha0, hty, if_neg (not_not.mpr PMV_type_insc_lt), if_neg (hgp a hain)]
    simp only [if_true]
    obtain ⟨s2, h2⟩ := link_groups_edge_total (fun s1 p => link_groups f s1 p) CPMV.pp
      PMVG.with_cpp s (s.vm a).gp (s.vm a).pp (by
        rw [hpp]
        exact ihp f s hrp (fun v hv => hgp v (hmem v (Or.inl hv))) (by omega))
    have e2 := (link_groups_edge_frame _ CPMV.pp PMVG.with_cpp (fun _ _ => rfl) (hl s _) h2).1
    rw [h2]
    dsimp only
    obtain ⟨s3, h3⟩ := link_groups_edge_total (fun s1 p => link_groups f s1 p) CPMV.cp
      PMVG.with_ccp s2 (s.vm a).gp (s2.vm a).cp (by
        rw [e2, hcp]
        exact ihc f s2 (by rw [e2]; exact hrc)
          (fun v hv => by rw [e2]; exact hgp v (hmem v (Or.inr (Or.inl hv)))) (by omega))
    have e3 := (link_groups_edge_frame _ CPMV.cp PMVG.with_ccp (fun _ _ => rfl) (hl s2 _) h3).1
    rw [h3]
    dsimp only
    obtain ⟨s5, h5⟩ := link_groups_edge_total (fun s1 p => link_groups f s1 p) CPMV.np
      PMVG.with_cnp s3 (s.vm a).gp (s3.vm a).np (by
        rw [e3, e2, hnp]
        exact ihn f s3 (by rw [e3, e2]; exact hrn)
          (fun v hv => by rw [e3, e2]; exact hgp v (hmem v (Or.inr (Or.inr hv)))) (by omega))
    rw [h5]
    exact ⟨_, _, rfl⟩
  | wrap a wp np ihw ihn =>
    intro fuel s hr hgp hf
    obtain ⟨f, rfl⟩ : ∃ f, fuel = f + 1 := ⟨fuel - 1, by omega⟩
    simp only [VTree.size] at hf
    obtain ⟨ha0, hty, hwp, hnp, hrw, hrn⟩ := hr
    have hain : a ∈ (VTree.wrap a wp np).nodes := List.mem_cons_self _ _
    have hmem : ∀ b, b ∈ wp.nodes ∨ b ∈ np.nodes → b ∈ (VTree.wrap a wp np).nodes := by
      intro b hb
      simp only [VTree.nodes, List.mem_cons, List.mem_append]
      tauto
    have hl : ∀ (s0 : PMState) (p : Nat) (s1 : PMState) (r1 : Nat),
        (fun s1 p => link_groups f s1 p) s0 p = some (s1, r1) →
        s1.vm = s0.vm ∧ s1.cm = s0.cm ∧ ∀ g, (s1.gm g).noedge = (s0.gm g).noedge :=
      fun s0 p s1 r1 h1 => link_groups_frame f s0 s1 p r1 h1
    show ∃ s' r, link_groups_body _ s a = some (s', r)
    unfold link_groups_body
    rw [if_neg ha0, hty, if_neg (not_not.mpr PMV_type_wrap_lt), if_neg (hgp a hain)]
    simp only [show ¬ PMV_wrap = PMV_insc by decide, if_false, if_true]
    obtain ⟨s2, h2⟩ := link_groups_edge_total (fun s1 p => link_groups f s1 p) CPMV.pp
      PMVG.with_cpp s (s.vm a).gp (s.vm a).wp (by
        rw [show (s.vm a).wp = wp.root from hwp]
        exact ihw f s hrw (fun v hv => hgp v (hmem v (Or.inl hv))) (by omega))
    have e2 := (link_groups_edge_frame _ CPMV.pp PMVG.with_cpp (fun _ _ => rfl) (hl s _) h2).1
    rw [h2]
    dsimp only
    obtain ⟨s5, h5⟩ := link_groups_edge_total (fun s1 p => link_groups f s1 p) CPMV.np
      PMVG.with_cnp s2 (s.vm a).gp (s2.vm a).np (by
        rw [e2, hnp]
        exact ihn f s2 (by rw [e2]; exact hrn)
          (fun v hv => by rw [e2]; exact hgp v (hmem v (Or.inr hv))) (by omega))
    rw [h5]
    exact ⟨_, _, rfl⟩

/-- C39: for every state whose context `c` heads a tree of vertices with a
group, `PM_link_groups` returns (for every stack bound above the number of
vertices), changes no vertex, and changes no edge of a compressed vertex that
is not NULL: for every group `g`, each of `g.cpmv.np`, `g.cpmv.pp` (which is
also the storage of `g.cpmv.wp`) and `g.cpmv.cp` that is non-null before the
call is the same group reference after it. Nothing is assumed about the group
the edge names, so this covers edges to groups that were merged away. -/
theorem PM_link_groups_keeps_edges (fuel : Nat) (s : PMState) (c : Nat) (T : VTree)
    (hc : c ≠ 0) (hhead : (s.cm c).headp = T.root) (hrep : T.Rep s.vm)
    (hgp : ∀ v ∈ T.nodes, (s.vm v).gp ≠ 0) (hfuel : T.size + 1 ≤ fuel) :
    ∃ s', PM_link_groups fuel s c = some s' ∧ s'.vm = s.vm ∧
      ∀ g, ((s.gm g).cpmv.np ≠ 0 → (s'.gm g).cpmv.np = (s.gm g).cpmv.np) ∧
        ((s.gm g).cpmv.pp ≠ 0 → (s'.gm g).cpmv.pp = (s.gm g).cpmv.pp) ∧
        ((s.gm g).cpmv.cp ≠ 0 → (s'.gm g).cpmv.cp = (s.gm g).cpmv.cp) := by
  obtain ⟨s', r, h⟩ := link_groups_total T fuel s hrep hgp hfuel
  refine ⟨s', ?_, (link_groups_frame fuel s s' _ r h).1, link_groups_kept fuel s s' _ r h⟩
  unfold PM_link_groups
  rw [if_neg hc, hhead, h]
  rfl

theorem PM_link_groups_keeps_edges_witness :
    ∃ s', PM_link_groups 4 pm_example_built 1 = some s' ∧ s'.vm = pm_example_built.vm ∧
      ∀ g, ((pm_example_built.gm g).cpmv.np ≠ 0 →
          (s'.gm g).cpmv.np = (pm_example_built.gm g).cpmv.np) ∧
        ((pm_example_built.gm g).cpmv.pp ≠ 0 →
          (s'.gm g).cpmv.pp = (pm_example_built.gm g).cpmv.pp) ∧
        ((pm_example_built.gm g).cpmv.cp ≠ 0 →
          (s'.gm g).cpmv.cp = (pm_example_built.gm g).cpmv.cp) :=
  PM_link_groups_keeps_edges 4 pm_example_built 1 pm_example_tree (by decide) rfl
    pm_example_tree_Rep (by decide) (by decide)

/-- The symmetric fork linked before and after `GM_mine_for_symm`: the first
`PM_link_groups` sets the edges of the group 11 of the inosculation to the
groups 12 and 13 of the two branches; the mining moves the vertex 3 to the
group 12 and frees the group 13; the second `PM_link_groups` leaves the edge
`cp` of the group 11 at 13. -/
theorem pm_symm_relinked_edges :
    pm_symm_relinked.map
        (fun s => [(s.gm 11).cpmv.pp, (s.gm 11).cpmv.cp, (s.vm 2).gp, (s.vm 3).gp,
          (s.cm 1).gctx.size]) =
      some [12, 13, 12, 12, 2] := by
  decide!


/-! ### `PMV_wrap_section` keeps the summaries -/

theorem ufold_assoc (a b c : Nat) : ufold (ufold a b) c = ufold a (ufold b c) := by
  unfold ufold
  omega

theorem hfold_assoc (a b c : Nat) (ha : a < hp) (hb : b < hp) (hc : c < hp) :
    hfold (hfold a b) c = hfold a (hfold b c) := by
  unfold hfold hp at *
  omega

theorem hfold_zero_left (h : Nat) (hh : h < hp) : hfold 0 h = h := by
  unfold hfold hp at *
  omega

theorem ufold_zero_left (d : Nat) (hd : d < 4294967296) : ufold 0 d = d := by
  unfold ufold
  omega

/-- The summary of a tree is the sum of the summaries of the section of its
stem up to `u` and of what follows `u`. -/
theorem VTree.upto_after_summary (u : Nat) : ∀ (t : VTree), u ∈ t.stem →
    hfold (t.upto u).hash (t.after u).hash = t.hash ∧
      ufold (t.upto u).depth (t.after u).depth = t.depth ∧
      ufold (t.upto u).vcnt (t.after u).vcnt = t.vcnt := by
  intro t
  induction t with
  | nil => intro h; exact absurd h (List.not_mem_nil _)
  | seg a np ih =>
    intro h
    unfold VTree.upto VTree.after
    by_cases e : a = u
    · rw [if_pos e, if_pos e]
      simp only [VTree.hash, VTree.depth, VTree.vcnt]
      rw [hfold_zero 1 (by decide), ufold_zero 1 (by decide)]
      exact ⟨rfl, rfl, rfl⟩
    · rw [if_neg e, if_neg e]
      have hu : u ∈ np.stem := by
        rcases List.mem_cons.mp h with h | h
        · exact absurd h.symm e
        · exact h
      obtain ⟨i1, i2, i3⟩ := ih hu
      simp only [VTree.hash, VTree.depth, VTree.vcnt]
      rw [hfold_assoc _ _ _ (by decide) (VTree.hash_lt _) (VTree.hash_lt _), i1, ufold_assoc, i2,
        ufold_assoc, i3]
      exact ⟨rfl, rfl, rfl⟩
  | insc a pp cp np ihp ihc ih =>
    intro h
    unfold VTree.upto VTree.after
    by_cases e : a = u
    · rw [if_pos e, if_pos e]
      simp only [VTree.hash, VTree.depth, VTree.vcnt]
      rw [hfold_zero _ (hfold_lt _ _), ufold_zero _ (ufold_lt _ _), ufold_zero _ (ufold_lt _ _)]
      exact ⟨rfl, rfl, rfl⟩
    · rw [if_neg e, if_neg e]
      have hu : u ∈ np.stem := by
        rcases List.mem_cons.mp h with h | h
        · exact absurd h.symm e
        · exact h
      obtain ⟨i1, i2, i3⟩ := ih hu
      simp only [VTree.hash, VTree.depth, VTree.vcnt]
      rw [hfold_assoc _ _ _ (hfold_lt _ _) (VTree.hash_lt _) (VTree.hash_lt _), i1, ufold_assoc,
        i2, ufold_assoc _ (np.upto u).vcnt, i3]
      exact ⟨rfl, rfl, rfl⟩
  | wrap a wp np ihw ih =>
    intro h
    unfold VTree.upto VTree.after
    by_cases e : a = u
    · rw [if_pos e, if_pos e]
      simp only [VTree.hash, VTree.depth, VTree.vcnt]
      rw [hfold_zero _ (hfold_lt _ _), ufold_zero _ (ufold_lt _ _), ufold_zero _ (ufold_lt _ _)]
      exact ⟨rfl, rfl, rfl⟩
    · rw [if_neg e, if_neg e]
      have hu : u ∈ np.stem := by
        rcases List.mem_cons.mp h with h | h
        · exact absurd h.symm e
        · exact h
      obtain ⟨i1, i2, i3⟩ := ih hu
      simp only [VTree.hash, VTree.depth, VTree.vcnt]
      rw [hfold_assoc _ _ _ (hfold_lt _ _) (VTree.hash_lt _) (VTree.hash_lt _), i1, ufold_assoc,
        i2, ufold_assoc _ (np.upto u).vcnt, i3]
      exact ⟨rfl, rfl, rfl⟩

/-- The wrapper around a section of the stem of `t` has the summary of
`t`. -/
theorem VTree.wrapped_summary {t : VTree} {untilp : Nat} (nvp : Nat) (hu : untilp ∈ t.stem) :
    (t.wrapped untilp nvp).hash = t.hash ∧ (t.wrapped untilp nvp).depth = t.depth ∧
      (t.wrapped untilp nvp).vcnt = t.vcnt := by
  obtain ⟨i1, i2, i3⟩ := VTree.upto_after_summary untilp t hu
  unfold VTree.wrapped
  simp only [VTree.hash, VTree.depth, VTree.vcnt]
  rw [hfold_zero_left _ (VTree.hash_lt _), ufold_zero_left _ (VTree.depth_lt _),
    ufold_zero_left _ (VTree.vcnt_lt _)]
  exact ⟨i1, i2, i3⟩

theorem PMV.summ_fields {v w : PMV} (h : v.summ = w.summ) :
    v.hash = w.hash ∧ v.depth = w.depth ∧ v.vcnt = w.vcnt ∧ v.flags = w.flags := by
  unfold PMV.summ at h
  simp only [Prod.mk.injEq] at h
  exact h

theorem summ_store {m : PMVMem} {a : Nat} {v : PMV} (h : v.summ = (m a).summ) (b : Nat) :
    (store m a v b).summ = (m b).summ := by
  by_cases e : b = a
  · subst e
    rw [store_same]
    exact h
  · rw [store_other _ _ _ _ e]

theorem summ_store_with_np (m : PMVMem) (a p b : Nat) :
    (store m a ((m a).with_np p) b).summ = (m b).summ :=
  summ_store (show ((m a).with_np p).summ = (m a).summ from rfl) b

theorem summ_store_with_pp (m : PMVMem) (a p b : Nat) :
    (store m a ((m a).with_pp p) b).summ = (m b).summ :=
  summ_store (show ((m a).with_pp p).summ = (m a).summ from rfl) b

theorem summ_store_with_cp (m : PMVMem) (a p b : Nat) :
    (store m a ((m a).with_cp p) b).summ = (m b).summ :=
  summ_store (show ((m a).with_cp p).summ = (m a).summ from rfl) b

theorem summ_store_with_prevnpp (m : PMVMem) (a : Nat) (p : PMVSlot) (b : Nat) :
    (store m a ((m a).with_prevnpp p) b).summ = (m b).summ :=
  summ_store (show ((m a).with_prevnpp p).summ = (m a).summ from rfl) b

theorem PMVSlot_store_summ {s s' : PMState} {slot : PMVSlot} {p : Nat}
    (h : PMVSlot_store s slot p = some s') : ∀ b, (s'.vm b).summ = (s.vm b).summ := by
  intro b
  cases slot with
  | null => exact absurd h (by simp [PMVSlot_store])
  | headp c =>
    simp only [PMVSlot_store, Option.some.injEq] at h
    subst h
    rfl
  | np v =>
    simp only [PMVSlot_store, Option.some.injEq] at h
    subst h
    exact summ_store_with_np _ _ _ _
  | pp v =>
    simp only [PMVSlot_store, Option.some.injEq] at h
    subst h
    exact summ_store_with_pp _ _ _ _
  | cp v =>
    simp only [PMVSlot_store, Option.some.injEq] at h
    subst h
    exact summ_store_with_cp _ _ _ _

/-- The statements of `PMV_wrap_section` that relink the vertices write no
summary and no flags. -/
theorem PMV_wrap_section_relink_summ {s1 s7 : PMState} {fromp untilp nv : Nat}
    (h : PMV_wrap_section_relink s1 fromp untilp nv = some s7) :
    ∀ b, (s7.vm b).summ = (s1.vm b).summ := by
  unfold PMV_wrap_section_relink at h
  dsimp only at h
  split at h
  · exact absurd h (by simp)
  · next s3 h3 =>
    have e3 : ∀ b, (s3.vm b).summ = (s1.vm b).summ := by
      intro b
      rw [PMVSlot_store_summ h3 b]
      exact summ_store_with_pp _ _ _ _
    simp only [Option.some.injEq] at h
    subst h
    intro b
    split
    · dsimp only
      rw [summ_store_with_prevnpp, summ_store_with_np, summ_store_with_np,
        summ_store_with_prevnpp, e3 b]
    · dsimp only
      rw [summ_store_with_np, summ_store_with_np, summ_store_with_prevnpp, e3 b]

theorem VTree.after_Corr {m : PMVMem} (u : Nat) : ∀ (t : VTree), t.Corr m →
    (t.after u).Corr m := by
  intro t
  induction t with
  | nil => intro h; exact h
  | seg a np ih =>
    intro h
    unfold VTree.after
    split
    · exact h.2
    · exact ih h.2
  | insc a pp cp np ihp ihc ih =>
    intro h
    unfold VTree.after
    split
    · exact h.2.2.2
    · exact ih h.2.2.2
  | wrap a wp np ihw ih =>
    intro h
    unfold VTree.after
    split
    · exact h.2.2
    · exact ih h.2.2

/-- The call `PMV_eval_r(v, force)` for a wrapper whose wrapped stem and whose
`np` successors store their summaries: afterwards the wrapper stores its
own. -/
theorem PMV_eval_r_wrap_children (n : Nat) (m : PMVMem) (a : Nat) (wp np : VTree)
    (force : Bool) (hrep : (VTree.wrap a wp np).Rep m) (hnd : (VTree.wrap a wp np).nodes.Nodup)
    (hcw : wp.Corr m) (hcn : np.Corr m) (hsz : 3 * (VTree.wrap a wp np).size ≤ n + 1) :
    ∃ m', PMV_eval_r (n + 1) m a force = some m' ∧ (∀ x, (m' x).skel = (m x).skel) ∧
      (∀ x, x ∉ (VTree.wrap a wp np).nodes → m' x = m x) ∧ (VTree.wrap a wp np).Corr m' := by
  have heval : EvalSpec (fun m' v f => PMV_eval_r n m' v f) n := (PMV_specs n).1
  show ∃ m', PMV_eval_r_body (fun m' v f => PMV_eval_r n m' v f)
      (fun m' a b c => PMV_is_similar n m' a b c) m a force = some m' ∧ _
  obtain ⟨ha0, hty, hwp, hnp, hrwp, hrnp⟩ := hrep
  obtain ⟨hain, hndall⟩ := List.nodup_cons.mp hnd
  obtain ⟨hndwp, hndnp, hdisj⟩ := List.nodup_append.mp hndall
  have hawp : a ∉ wp.nodes := fun h => hain (List.mem_append_left _ h)
  have hanp : a ∉ np.nodes := fun h => hain (List.mem_append_right _ h)
  unfold VTree.size at hsz
  unfold PMV_eval_r_body
  rw [if_neg ha0, if_neg (not_not.mpr (PMV_type_lt _ (Or.inr (Or.inr hty))))]
  unfold PMV_eval_r_switch
  rw [if_pos hty]
  obtain ⟨m1, h1, hm1s, hm1f, _, hm1sc⟩ := PMV_eval_r_wrap_spec heval m a wp force hwp
    hrwp hndwp hawp (by omega)
  rw [h1]
  dsimp only
  obtain ⟨m', h', hs, hf, hsc⟩ := PMV_eval_r_tail_spec heval m1 a np force
    (by rw [(PMV.skel_fields (hm1s a)).2.1]; exact hnp) (VTree.Rep_of_skel np hm1s hrnp)
    hndnp hanp (by omega)
  have hm1n : ∀ x ∈ np.nodes, m1 x = m x :=
    fun x hx => hm1f x (fun e => hanp (e ▸ hx)) (fun h => hdisj h hx)
  refine ⟨m', h', fun x => (hs x).trans (hm1s x), ?_, ?_⟩
  · intro x hx
    have hxa : x ≠ a := fun e => hx (e ▸ List.mem_cons_self _ _)
    have hxw : x ∉ wp.nodes :=
      fun h => hx (List.mem_cons_of_mem _ (List.mem_append_left _ h))
    have hxn : x ∉ np.nodes :=
      fun h => hx (List.mem_cons_of_mem _ (List.mem_append_right _ h))
    rw [hf x hxa hxn, hm1f x hxa hxw]
  · obtain ⟨c1, e1, e2, e3⟩ := hm1sc (Or.inr hcw)
    obtain ⟨c, f1, f2, f3⟩ := hsc (Or.inr (VTree.Corr_of_eq np hm1n hcn))
      (by rw [e1]; exact hfold_lt _ _) (by rw [e2]; exact ufold_lt _ _)
      (by rw [e3]; exact ufold_lt _ _)
    have hm'w : ∀ x ∈ wp.nodes, m' x = m1 x := fun x hx =>
      hf x (fun e => hawp (e ▸ hx)) (fun h => hdisj hx h)
    refine ⟨⟨?_, ?_, ?_⟩, VTree.Corr_of_eq wp hm'w c1, c⟩
    · rw [f1, e1]; rfl
    · rw [f2, e2]; rfl
    · rw [f3, e3]; rfl

/-- The call `PMV_wrap_section(fromp, untilp)` for a tree `t` under `fromp`
whose vertices store their summaries: afterwards the vertices of the wrapped
tree store theirs, and no other summary has changed. -/
theorem PMV_wrap_section_summ_spec (junk fuel : Nat) (s : PMState) (t : VTree) (untilp nvp ngp : Nat)
    (hrep : t.Rep s.vm) (hnd : t.nodes.Nodup) (hu : untilp ∈ t.stem)
    (hctx : (s.vm t.root).ctxp = (s.vm untilp).ctxp) (hctx0 : (s.vm t.root).ctxp ≠ 0)
    (hslot : (s.vm t.root).prevnpp ≠ PMVSlot.null)
    (hown : (s.vm t.root).prevnpp.owner ∉ nvp :: t.nodes)
    (hnv : nvp ≠ 0) (hng : ngp ≠ 0) (hfresh : nvp ∉ t.nodes)
    (hfuel : 3 * t.size + 3 ≤ fuel) (hcorr : t.Corr s.vm) :
    ∃ s', PMV_wrap_section junk fuel s t.root untilp nvp ngp = some (s', nvp) ∧
      WrapEdges s s' (s.vm t.root).prevnpp t.root untilp nvp ∧
      (t.wrapped untilp nvp).Rep s'.vm ∧ (t.wrapped untilp nvp).Corr s'.vm ∧
      ∀ a, a ∉ nvp :: t.nodes → (s'.vm a).summ = (s.vm a).summ := by
  have ht : t ≠ VTree.nil := by
    intro e
    rw [e] at hu
    exact absurd hu (List.not_mem_nil _)
  have hf0 : t.root ≠ 0 := VTree.root_ne_zero ht hrep
  have hfm : t.root ∈ t.nodes := VTree.root_mem_nodes ht
  have hum : untilp ∈ t.nodes := VTree.stem_subset t untilp hu
  have hu0 : untilp ≠ 0 := VTree.nodes_ne_zero t hrep untilp hum
  have hfn : t.root ≠ nvp := fun e => hfresh (e ▸ hfm)
  have hun : untilp ≠ nvp := fun e => hfresh (e ▸ hum)
  have hxr : (s.vm untilp).np = (t.after untilp).root := (VTree.after_root untilp t hrep hu).symm
  have hxm : (s.vm untilp).np ≠ 0 → (s.vm untilp).np ∈ (t.after untilp).nodes := by
    intro h0
    rw [hxr]
    refine VTree.root_mem_nodes ?_
    intro e
    rw [hxr, e] at h0
    exact h0 rfl
  have hxn : (s.vm untilp).np ≠ nvp := by
    intro e
    have h0 : (s.vm untilp).np ≠ 0 := by rw [e]; exact hnv
    exact hfresh (e ▸ VTree.after_nodes_subset untilp t _ (hxm h0))
  have hxf : (s.vm untilp).np ≠ t.root := by
    intro e
    have h0 : (s.vm untilp).np ≠ 0 := by rw [e]; exact hf0
    have h1 := hxm h0
    have h2 : t.root ∈ (t.upto untilp).nodes := by
      rw [← VTree.upto_root untilp t]
      exact VTree.root_mem_nodes (VTree.upto_ne_nil untilp ht)
    have h3 := hnd
    rw [← VTree.upto_append_after untilp t hu] at h3
    exact (List.nodup_append.mp h3).2.2 h2 (e ▸ h1)
  have hownn : (s.vm t.root).prevnpp.owner ≠ nvp := fun e => hown (e ▸ List.mem_cons_self _ _)
  have hownt : (s.vm t.root).prevnpp.owner ∉ t.nodes := fun h => hown (List.mem_cons_of_mem _ h)
  have hownu : (s.vm t.root).prevnpp.owner ≠ untilp := fun e => hownt (e ▸ hum)
  unfold PMV_wrap_section
  rw [if_neg (by simp [hf0, hu0]), if_neg (not_not.mpr hctx)]
  obtain ⟨s1, h1, hvm1, hhead1⟩ := PMV_create_spec junk s (s.vm t.root).ctxp PMV_wrap
    (s.vm t.root).prevnpp nvp ngp (by decide) hctx0 hnv hng
  rw [h1]
  dsimp only
  rw [if_neg hnv]
  have hrep1 : t.Rep s1.vm := by
    refine VTree.Rep_congr t (fun a ha => ?_) hrep
    have hane : a ≠ nvp := fun e => hfresh (e ▸ ha)
    rw [hvm1, store_other _ _ _ _ hane]
  rw [PMV_wrap_section_loop_spec s1.vm untilp fuel t hrep1 hu (by omega)]
  dsimp only
  rw [if_neg hu0]
  obtain ⟨s7, h7, hW⟩ := PMV_wrap_section_relink_spec s s1 (s.vm t.root).prevnpp t.root untilp
    nvp ngp (s.vm t.root).ctxp hvm1 hhead1 hslot hownn hownu hfn hun hxn hxf
  rw [h7]
  dsimp only
  have hrepW := WrapEdges.Rep_wrapped hW hrep hnd hu hownt hnv hfresh
  have hndW : (t.wrapped untilp nvp).nodes.Nodup := VTree.wrapped_nodup hnd hu hfresh
  have hsizeW : (t.wrapped untilp nvp).size = 1 + t.size := VTree.wrapped_size hu
  have hwp : (s7.vm nvp).wp = (t.upto untilp).root := by
    rw [VTree.upto_root]; exact hW.2.2.1
  have hndU : (t.upto untilp).nodes.Nodup := by
    have h3 := hnd
    rw [← VTree.upto_append_after untilp t hu] at h3
    exact (List.nodup_append.mp h3).1
  have hsizeU : (t.upto untilp).size ≤ t.size := by
    have := VTree.upto_size_add_after untilp t hu
    omega
  obtain ⟨m8, h8, hp8⟩ := (PMV_specs fuel).1 s7.vm (t.upto untilp) true
    (VTree.upto_ne_nil untilp ht) hrepW.2.2.2.2.1 hndU (by omega)
  rw [hwp, h8]
  dsimp only
  have hrepW8 : (t.wrapped untilp nvp).Rep m8 := VTree.Rep_of_skel _ hp8.1 hrepW
  have hsumm7 : ∀ a, a ≠ nvp → (s7.vm a).summ = (s.vm a).summ := by
    intro a ha
    rw [PMV_wrap_section_relink_summ h7 a, hvm1, store_other _ _ _ _ ha]
  have hdisjUA : ∀ a ∈ (t.after untilp).nodes, a ∉ (t.upto untilp).nodes := by
    intro a ha hx
    have h3 := hnd
    rw [← VTree.upto_append_after untilp t hu] at h3
    exact (List.nodup_append.mp h3).2.2 hx ha
  have hcA7 : (t.after untilp).Corr s7.vm := by
    refine VTree.Corr_congr (t.after untilp) (fun a ha => ?_) (VTree.after_Corr untilp t hcorr)
    have hane : a ≠ nvp := fun e => hfresh (e ▸ VTree.after_nodes_subset untilp t a ha)
    obtain ⟨q1, q2, q3, _⟩ := PMV.summ_fields (hsumm7 a hane)
    exact ⟨q1, q2, q3⟩
  have hcU8 : (t.upto untilp).Corr m8 := hp8.2.2 (Or.inl rfl)
  have hcA8 : (t.after untilp).Corr m8 :=
    VTree.Corr_of_eq _ (fun a ha => hp8.2.1 a (hdisjUA a ha)) hcA7
  obtain ⟨n, rfl⟩ : ∃ n, fuel = n + 1 := ⟨fuel - 1, by omega⟩
  obtain ⟨m9, h9, hs9, hf9, hc9⟩ := PMV_eval_r_wrap_children n m8 nvp (t.upto untilp)
    (t.after untilp) false hrepW8 hndW hcU8 hcA8 (by
      have : (VTree.wrap nvp (t.upto untilp) (t.after untilp)).size = 1 + t.size := hsizeW
      omega)
  rw [h9]
  have hs97 : ∀ a, (m9 a).skel = (s7.vm a).skel := fun a => by rw [hs9 a, hp8.1 a]
  refine ⟨_, rfl, WrapEdges_of_skel hW hs97, VTree.Rep_of_skel _ hs97 hrepW, hc9, ?_⟩
  intro a ha
  have hane : a ≠ nvp := fun e => ha (e ▸ List.mem_cons_self _ _)
  have hat : a ∉ t.nodes := fun h => ha (List.mem_cons_of_mem _ h)
  have haW : a ∉ (VTree.wrap nvp (t.upto untilp) (t.after untilp)).nodes := by
    intro h
    simp only [VTree.nodes, List.mem_cons] at h
    rcases h with h | h
    · exact hane h
    · rw [VTree.upto_append_after untilp t hu] at h
      exact hat h
  have haU : a ∉ (t.upto untilp).nodes := fun h => hat (VTree.upto_nodes_subset untilp t a h)
  show (m9 a).summ = _
  rw [hf9 a haW, hp8.2.1 a haU]
  exact hsumm7 a hane

/-- The tree `T` that holds the wrapped section `t` becomes the tree `T` with
`t` replaced by the wrapped tree. -/
theorem WrapEdges.splice {s s' : PMState} {slot : PMVSlot} {t W : VTree} {untilp nvp : Nat}
    (h : WrapEdges s s' slot t.root untilp nvp) (hsl : (s.vm t.root).prevnpp = slot)
    (ht : t ≠ VTree.nil) (hum : untilp ∈ t.nodes)
    (hWrep : W.Rep s'.vm) (hWroot : W.root = nvp)
    {T : VTree} (hsub : SubtreeOf T t) :
    ∀ tslot, T.Rep s.vm → T.nodes.Nodup → T.Linked s.vm tslot → nvp ∉ T.nodes →
      ∃ T' : VTree, T'.Rep s'.vm ∧ Splice t W T T' ∧
        ((slot = tslot ∧ T'.root = nvp) ∨ (T'.root = T.root ∧ slot.owner ∈ T.nodes)) := by
  induction hsub with
  | refl t =>
    intro tslot _ _ hl _
    exact ⟨W, hWrep, Splice.here, Or.inl ⟨hsl.symm.trans (VTree.Linked_root ht hl), hWroot⟩⟩
  | seg_np a np t hs ih =>
    intro tslot hr hnd hl hnv
    obtain ⟨h0, h1, h2, h3⟩ := hr
    have hnd' := List.nodup_cons.mp hnd
    have hanv : a ≠ nvp := fun e => hnv (e ▸ List.mem_cons_self _ _)
    have hu := SubtreeOf_nodes hs _ hum
    obtain ⟨N, hNr, hNs, hd⟩ := ih h hsl ht hum (PMVSlot.np a) h3 hnd'.2 hl.2
      (fun x => hnv (List.mem_cons_of_mem _ x))
    obtain ⟨f1, f2, _, _, _, ho⟩ := h.step a (rfl : (PMVSlot.np a).owner = a) hd hnd'.1 hanv hu h2
      (fun e => PMVSlot.noConfusion e) (fun c e => PMVSlot.noConfusion e)
    refine ⟨VTree.seg a N, ⟨h0, f1.trans h1, f2, hNr⟩, Splice.seg_np a np N hNs, Or.inr ⟨rfl, ?_⟩⟩
    · rcases ho with ho | ho
      · rw [ho]; exact List.mem_cons_self _ _
      · exact List.mem_cons_of_mem _ ho
  | insc_pp a pp cp np t hs ih =>
    intro tslot hr hnd hl hnv
    obtain ⟨h0, h1, h2, h3, h4, h5, h6, h7⟩ := hr
    have hnd' := List.nodup_cons.mp hnd
    have hndp := List.nodup_append.mp hnd'.2
    have hndpc := List.nodup_append.mp hndp.1
    have hanv : a ≠ nvp := fun e => hnv (e ▸ List.mem_cons_self _ _)
    have hu := SubtreeOf_nodes hs _ hum
    have hac : a ∉ pp.nodes :=
      fun x => hnd'.1 (List.mem_append_left _ (List.mem_append_left _ x))
    obtain ⟨N, hNr, hNs, hd⟩ := ih h hsl ht hum (PMVSlot.pp a) h5 hndpc.1 hl.2.1
      (fun x => hnv (List.mem_cons_of_mem _ (List.mem_append_left _ (List.mem_append_left _ x))))
    obtain ⟨f1, f2, f3, _, f5, ho⟩ := h.step a (rfl : (PMVSlot.pp a).owner = a) hd hac hanv hu h2
      (fun e => PMVSlot.noConfusion e) (fun c e => PMVSlot.noConfusion e)
    have hcp : cp.Rep s'.vm := h.sibling a ho hu h6 (fun b hb =>
      ⟨fun e => hnd'.1 (e ▸ List.mem_append_left _ (List.mem_append_right _ hb)),
        fun x => hndpc.2.2 x hb,
        fun e => hnv (e ▸ List.mem_cons_of_mem _
          (List.mem_append_left _ (List.mem_append_right _ hb)))⟩)
    have hnp : np.Rep s'.vm := h.sibling a ho hu h7 (fun b hb =>
      ⟨fun e => hnd'.1 (e ▸ List.mem_append_right _ hb),
        fun x => hndp.2.2 (List.mem_append_left _ x) hb,
        fun e => hnv (e ▸ List.mem_cons_of_mem _ (List.mem_append_right _ hb))⟩)
    refine ⟨VTree.insc a N cp np, ⟨h0, f1.trans h1, f2,
      (f5 (fun e => PMVSlot.noConfusion e)).trans h3,
      (f3 (fun e => PMVSlot.noConfusion e)).trans h4, hNr, hcp, hnp⟩, Splice.insc_pp a pp cp np N hNs, Or.inr ⟨rfl, ?_⟩⟩
    · rcases ho with ho | ho
      · rw [ho]; exact List.mem_cons_self _ _
      · exact List.mem_cons_of_mem _ (List.mem_append_left _ (List.mem_append_left _ ho))
  | insc_cp a pp cp np t hs ih =>
    intro tslot hr hnd hl hnv
    obtain ⟨h0, h1, h2, h3, h4, h5, h6, h7⟩ := hr
    have hnd' := List.nodup_cons.mp hnd
    have hndp := List.nodup_append.mp hnd'.2
    have hndpc := List.nodup_append.mp hndp.1
    have hanv : a ≠ nvp := fun e => hnv (e ▸ List.mem_cons_self _ _)
    have hu := SubtreeOf_nodes hs _ hum
    have hac : a ∉ cp.nodes :=
      fun x => hnd'.1 (List.mem_append_left _ (List.mem_append_right _ x))
    obtain ⟨N, hNr, hNs, hd⟩ := ih h hsl ht hum (PMVSlot.cp a) h6 hndpc.2.1 hl.2.2.1
      (fun x => hnv (List.mem_cons_of_mem _ (List.mem_append_left _ (List.mem_append_right _ x))))
    obtain ⟨f1, f2, f3, f4, _, ho⟩ := h.step a (rfl : (PMVSlot.cp a).owner = a) hd hac hanv hu h3
      (fun e => PMVSlot.noConfusion e) (fun c e => PMVSlot.noConfusion e)
    have hpp : pp.Rep s'.vm := h.sibling a ho hu h5 (fun b hb =>
      ⟨fun e => hnd'.1 (e ▸ List.mem_append_left _ (List.mem_append_left _ hb)),
        fun x => hndpc.2.2 hb x,
        fun e => hnv (e ▸ List.mem_cons_of_mem _
          (List.mem_append_left _ (List.mem_append_left _ hb)))⟩)
    have hnp : np.Rep s'.vm := h.sibling a ho hu h7 (fun b hb =>
      ⟨fun e => hnd'.1 (e ▸ List.mem_append_right _ hb),
        fun x => hndp.2.2 (List.mem_append_right _ x) hb,
        fun e => hnv (e ▸ List.mem_cons_of_mem _ (List.mem_append_right _ hb))⟩)
    refine ⟨VTree.insc a pp N np, ⟨h0, f1.trans h1,
      (f4 (fun e => PMVSlot.noConfusion e)).trans h2, f2,
      (f3 (fun e => PMVSlot.noConfusion e)).trans h4, hpp, hNr, hnp⟩, Splice.insc_cp a pp cp np N hNs, Or.inr ⟨rfl, ?_⟩⟩
    · rcases ho with ho | ho
      · rw [ho]; exact List.mem_cons_self _ _
      · exact List.mem_cons_of_mem _ (List.mem_append_left _ (List.mem_append_right _ ho))
  | insc_np a pp cp np t hs ih =>
    intro tslot hr hnd hl hnv
    obtain ⟨h0, h1, h2, h3, h4, h5, h6, h7⟩ := hr
    have hnd' := List.nodup_cons.mp hnd
    have hndp := List.nodup_append.mp hnd'.2
    have hndpc := List.nodup_append.mp hndp.1
    have hanv : a ≠ nvp := fun e => hnv (e ▸ List.mem_cons_self _ _)
    have hu := SubtreeOf_nodes hs _ hum
    have hac : a ∉ np.nodes := fun x => hnd'.1 (List.mem_append_right _ x)
    obtain ⟨N, hNr, hNs, hd⟩ := ih h hsl ht hum (PMVSlot.np a) h7 hndp.2.1 hl.2.2.2
      (fun x => hnv (List.mem_cons_of_mem _ (List.mem_append_right _ x)))
    obtain ⟨f1, f2, _, f4, f5, ho⟩ := h.step a (rfl : (PMVSlot.np a).owner = a) hd hac hanv hu h4
      (fun e => PMVSlot.noConfusion e) (fun c e => PMVSlot.noConfusion e)
    have hpp : pp.Rep s'.vm := h.sibling a ho hu h5 (fun b hb =>
      ⟨fun e => hnd'.1 (e ▸ List.mem_append_left _ (List.mem_append_left _ hb)),
        fun x => hndp.2.2 (List.mem_append_left _ hb) x,
        fun e => hnv (e ▸ List.mem_cons_of_mem _
          (List.mem_append_left _ (List.mem_append_left _ hb)))⟩)
    have hcp : cp.Rep s'.vm := h.sibling a ho hu h6 (fun b hb =>
      ⟨fun e => hnd'.1 (e ▸ List.mem_append_left _ (List.mem_append_right _ hb)),
        fun x => hndp.2.2 (List.mem_append_right _ hb) x,
        fun e => hnv (e ▸ List.mem_cons_of_mem _
          (List.mem_append_left _ (List.mem_append_right _ hb)))⟩)
    refine ⟨VTree.insc a pp cp N, ⟨h0, f1.trans h1,
      (f4 (fun e => PMVSlot.noConfusion e)).trans h2,
      (f5 (fun e => PMVSlot.noConfusion e)).trans h3, f2, hpp, hcp, hNr⟩, Splice.insc_np a pp cp np N hNs, Or.inr ⟨rfl, ?_⟩⟩
    · rcases ho with ho | ho
      · rw [ho]; exact List.mem_cons_self _ _
      · exact List.mem_cons_of_mem _ (List.mem_append_right _ ho)
  | wrap_wp a wp np t hs ih =>
    intro tslot hr hnd hl hnv
    obtain ⟨h0, h1, h2, h3, h4, h5⟩ := hr
    have hnd' := List.nodup_cons.mp hnd
    have hndp := List.nodup_append.mp hnd'.2
    have hanv : a ≠ nvp := fun e => hnv (e ▸ List.mem_cons_self _ _)
    have hu := SubtreeOf_nodes hs _ hum
    have hac : a ∉ wp.nodes := fun x => hnd'.1 (List.mem_append_left _ x)
    obtain ⟨N, hNr, hNs, hd⟩ := ih h hsl ht hum (PMVSlot.pp a) h4 hndp.1 hl.2.1
      (fun x => hnv (List.mem_cons_of_mem _ (List.mem_append_left _ x)))
    obtain ⟨f1, f2, f3, _, _, ho⟩ := h.step a (rfl : (PMVSlot.pp a).owner = a) hd hac hanv hu h2
      (fun e => PMVSlot.noConfusion e) (fun c e => PMVSlot.noConfusion e)
    have hnp : np.Rep s'.vm := h.sibling a ho hu h5 (fun b hb =>
      ⟨fun e => hnd'.1 (e ▸ List.mem_append_right _ hb),
        fun x => hndp.2.2 x hb,
        fun e => hnv (e ▸ List.mem_cons_of_mem _ (List.mem_append_right _ hb))⟩)
    refine ⟨VTree.wrap a N np, ⟨h0, f1.trans h1, f2,
      (f3 (fun e => PMVSlot.noConfusion e)).trans h3, hNr, hnp⟩, Splice.wrap_wp a wp np N hNs, Or.inr ⟨rfl, ?_⟩⟩
    · rcases ho with ho | ho
      · rw [ho]; exact List.mem_cons_self _ _
      · exact List.mem_cons_of_mem _ (List.mem_append_left _ ho)
  | wrap_np a wp np t hs ih =>
    intro tslot hr hnd hl hnv
    obtain ⟨h0, h1, h2, h3, h4, h5⟩ := hr
    have hnd' := List.nodup_cons.mp hnd
    have hndp := List.nodup_append.mp hnd'.2
    have hanv : a ≠ nvp := fun e => hnv (e ▸ List.mem_cons_self _ _)
    have hu := SubtreeOf_nodes hs _ hum
    have hac : a ∉ np.nodes := fun x => hnd'.1 (List.mem_append_right _ x)
    obtain ⟨N, hNr, hNs, hd⟩ := ih h hsl ht hum (PMVSlot.np a) h5 hndp.2.1 hl.2.2
      (fun x => hnv (List.mem_cons_of_mem _ (List.mem_append_right _ x)))
    obtain ⟨f1, f2, _, f4, _, ho⟩ := h.step a (rfl : (PMVSlot.np a).owner = a) hd hac hanv hu h3
      (fun e => PMVSlot.noConfusion e) (fun c e => PMVSlot.noConfusion e)
    have hwp : wp.Rep s'.vm := h.sibling a ho hu h4 (fun b hb =>
      ⟨fun e => hnd'.1 (e ▸ List.mem_append_left _ hb),
        fun x => hndp.2.2 hb x,
        fun e => hnv (e ▸ List.mem_cons_of_mem _ (List.mem_append_left _ hb))⟩)
    refine ⟨VTree.wrap a wp N, ⟨h0, f1.trans h1,
      (f4 (fun e => PMVSlot.noConfusion e)).trans h2, f2, hwp, hNr⟩, Splice.wrap_np a wp np N hNs, Or.inr ⟨rfl, ?_⟩⟩
    · rcases ho with ho | ho
      · rw [ho]; exact List.mem_cons_self _ _
      · exact List.mem_cons_of_mem _ (List.mem_append_right _ ho)

theorem Splice.nodes_subset {t W T T' : VTree} (h : Splice t W T T') :
    ∀ a ∈ t.nodes, a ∈ T.nodes := by
  induction h with
  | here => exact fun a ha => ha
  | seg_np a np N _ ih => exact fun b hb => List.mem_cons_of_mem _ (ih b hb)
  | insc_pp a pp cp np N _ ih =>
    exact fun b hb =>
      List.mem_cons_of_mem _ (List.mem_append_left _ (List.mem_append_left _ (ih b hb)))
  | insc_cp a pp cp np N _ ih =>
    exact fun b hb =>
      List.mem_cons_of_mem _ (List.mem_append_left _ (List.mem_append_right _ (ih b hb)))
  | insc_np a pp cp np N _ ih =>
    exact fun b hb => List.mem_cons_of_mem _ (List.mem_append_right _ (ih b hb))
  | wrap_wp a wp np N _ ih =>
    exact fun b hb => List.mem_cons_of_mem _ (List.mem_append_left _ (ih b hb))
  | wrap_np a wp np N _ ih =>
    exact fun b hb => List.mem_cons_of_mem _ (List.mem_append_right _ (ih b hb))

/-- Replacing a subtree by a tree with the same summary keeps the summary. -/
theorem Splice.summary {t W T T' : VTree} (h : Splice t W T T') (e1 : W.hash = t.hash)
    (e2 : W.depth = t.depth) (e3 : W.vcnt = t.vcnt) :
    T'.hash = T.hash ∧ T'.depth = T.depth ∧ T'.vcnt = T.vcnt := by
  induction h with
  | here => exact ⟨e1, e2, e3⟩
  | seg_np a np N _ ih =>
    obtain ⟨i1, i2, i3⟩ := ih
    exact ⟨by simp only [VTree.hash, i1], by simp only [VTree.depth, i2],
      by simp only [VTree.vcnt, i3]⟩
  | insc_pp a pp cp np N _ ih =>
    obtain ⟨i1, i2, i3⟩ := ih
    exact ⟨by simp only [VTree.hash, i1], by simp only [VTree.depth, i2],
      by simp only [VTree.vcnt, i3]⟩
  | insc_cp a pp cp np N _ ih =>
    obtain ⟨i1, i2, i3⟩ := ih
    exact ⟨by simp only [VTree.hash, i1], by simp only [VTree.depth, i2],
      by simp only [VTree.vcnt, i3]⟩
  | insc_np a pp cp np N _ ih =>
    obtain ⟨i1, i2, i3⟩ := ih
    exact ⟨by simp only [VTree.hash, i1], by simp only [VTree.depth, i2],
      by simp only [VTree.vcnt, i3]⟩
  | wrap_wp a wp np N _ ih =>
    obtain ⟨i1, i2, i3⟩ := ih
    exact ⟨by simp only [VTree.hash, i1], by simp only [VTree.depth, i2],
      by simp only [VTree.vcnt, i3]⟩
  | wrap_np a wp np N _ ih =>
    obtain ⟨i1, i2, i3⟩ := ih
    exact ⟨by simp only [VTree.hash, i1], by simp only [VTree.depth, i2],
      by simp only [VTree.vcnt, i3]⟩

theorem Stored_splice {m m' : PMVMem} {a : Nat} {X X' : VTree}
    (hx : X'.hash = X.hash ∧ X'.depth = X.depth ∧ X'.vcnt = X.vcnt)
    (hf : (m' a).hash = (m a).hash ∧ (m' a).depth = (m a).depth ∧ (m' a).vcnt = (m a).vcnt)
    (hs : Stored m a X) : Stored m' a X' := by
  unfold Stored at hs ⊢
  rw [hf.1, hf.2.1, hf.2.2, hx.1, hx.2.1, hx.2.2]
  exact hs

/-- If the vertices of `T` store their summaries, the subtree `t` is replaced
by a tree `W` of the same summary whose vertices store theirs, and the
summaries outside `t` are kept, then the vertices of the new tree store their
summaries. -/
theorem Splice.Corr {m m' : PMVMem} {t W T T' : VTree} (h : Splice t W T T')
    (e1 : W.hash = t.hash) (e2 : W.depth = t.depth) (e3 : W.vcnt = t.vcnt)
    (hW : W.Corr m') :
    T.nodes.Nodup → T.Corr m →
    (∀ a ∈ T.nodes, a ∉ t.nodes →
      (m' a).hash = (m a).hash ∧ (m' a).depth = (m a).depth ∧ (m' a).vcnt = (m a).vcnt) →
    T'.Corr m' := by
  induction h with
  | here => exact fun _ _ _ => hW
  | seg_np a np N hs ih =>
    intro hnd hT hfr
    have hnd' := List.nodup_cons.mp hnd
    have hsub := hs.nodes_subset
    have hat : a ∉ t.nodes := fun x => hnd'.1 (hsub a x)
    exact ⟨Stored_splice (Splice.summary (Splice.seg_np a np N hs) e1 e2 e3)
        (hfr a (List.mem_cons_self _ _) hat) hT.1,
      ih hnd'.2 hT.2 (fun b hb => hfr b (List.mem_cons_of_mem _ hb))⟩
  | insc_pp a pp cp np N hs ih =>
    intro hnd hT hfr
    have hnd' := List.nodup_cons.mp hnd
    have hndp := List.nodup_append.mp hnd'.2
    have hndpc := List.nodup_append.mp hndp.1
    have hsub := hs.nodes_subset
    have hat : a ∉ t.nodes :=
      fun x => hnd'.1 (List.mem_append_left _ (List.mem_append_left _ (hsub a x)))
    refine ⟨Stored_splice (Splice.summary (Splice.insc_pp a pp cp np N hs) e1 e2 e3)
        (hfr a (List.mem_cons_self _ _) hat) hT.1,
      ih hndpc.1 hT.2.1 (fun b hb => hfr b
        (List.mem_cons_of_mem _ (List.mem_append_left _ (List.mem_append_left _ hb)))),
      VTree.Corr_congr cp (fun b hb => hfr b
        (List.mem_cons_of_mem _ (List.mem_append_left _ (List.mem_append_right _ hb)))
        (fun x => hndpc.2.2 (hsub b x) hb)) hT.2.2.1,
      VTree.Corr_congr np (fun b hb => hfr b
        (List.mem_cons_of_mem _ (List.mem_append_right _ hb))
        (fun x => hndp.2.2 (List.mem_append_left _ (hsub b x)) hb)) hT.2.2.2⟩
  | insc_cp a pp cp np N hs ih =>
    intro hnd hT hfr
    have hnd' := List.nodup_cons.mp hnd
    have hndp := List.nodup_append.mp hnd'.2
    have hndpc := List.nodup_append.mp hndp.1
    have hsub := hs.nodes_subset
    have hat : a ∉ t.nodes :=
      fun x => hnd'.1 (List.mem_append_left _ (List.mem_append_right _ (hsub a x)))
    refine ⟨Stored_splice (Splice.summary (Splice.insc_cp a pp cp np N hs) e1 e2 e3)
        (hfr a (List.mem_cons_self _ _) hat) hT.1,
      VTree.Corr_congr pp (fun b hb => hfr b
        (List.mem_cons_of_mem _ (List.mem_append_left _ (List.mem_append_left _ hb)))
        (fun x => hndpc.2.2 hb (hsub b x))) hT.2.1,
      ih hndpc.2.1 hT.2.2.1 (fun b hb => hfr b
        (List.mem_cons_of_mem _ (List.mem_append_left _ (List.mem_append_right _ hb)))),
      VTree.Corr_congr np (fun b hb => hfr b
        (List.mem_cons_of_mem _ (List.mem_append_right _ hb))
        (fun x => hndp.2.2 (List.mem_append_right _ (hsub b x)) hb)) hT.2.2.2⟩
  | insc_np a pp cp np N hs ih =>
    intro hnd hT hfr
    have hnd' := List.nodup_cons.mp hnd
    have hndp := List.nodup_append.mp hnd'.2
    have hndpc := List.nodup_append.mp hndp.1
    have hsub := hs.nodes_subset
    have hat : a ∉ t.nodes := fun x => hnd'.1 (List.mem_append_right _ (hsub a x))
    refine ⟨Stored_splice (Splice.summary (Splice.insc_np a pp cp np N hs) e1 e2 e3)
        (hfr a (List.mem_cons_self _ _) hat) hT.1,
      VTree.Corr_congr pp (fun b hb => hfr b
        (List.mem_cons_of_mem _ (List.mem_append_left _ (List.mem_append_left _ hb)))
        (fun x => hndp.2.2 (List.mem_append_left _ hb) (hsub b x))) hT.2.1,
      VTree.Corr_congr cp (fun b hb => hfr b
        (List.mem_cons_of_mem _ (List.mem_append_left _ (List.mem_append_right _ hb)))
        (fun x => hndp.2.2 (List.mem_append_right _ hb) (hsub b x))) hT.2.2.1,
      ih hndp.2.1 hT.2.2.2 (fun b hb => hfr b
        (List.mem_cons_of_mem _ (List.mem_append_right _ hb)))⟩
  | wrap_wp a wp np N hs ih =>
    intro hnd hT hfr
    have hnd' := List.nodup_cons.mp hnd
    have hndp := List.nodup_append.mp hnd'.2
    have hsub := hs.nodes_subset
    have hat : a ∉ t.nodes := fun x => hnd'.1 (List.mem_append_left _ (hsub a x))
    refine ⟨Stored_splice (Splice.summary (Splice.wrap_wp a wp np N hs) e1 e2 e3)
        (hfr a (List.mem_cons_self _ _) hat) hT.1,
      ih hndp.1 hT.2.1 (fun b hb => hfr b
        (List.mem_cons_of_mem _ (List.mem_append_left _ hb))),
      VTree.Corr_congr np (fun b hb => hfr b
        (List.mem_cons_of_mem _ (List.mem_append_right _ hb))
        (fun x => hndp.2.2 (hsub b x) hb)) hT.2.2⟩
  | wrap_np a wp np N hs ih =>
    intro hnd hT hfr
    have hnd' := List.nodup_cons.mp hnd
    have hndp := List.nodup_append.mp hnd'.2
    have hsub := hs.nodes_subset
    have hat : a ∉ t.nodes := fun x => hnd'.1 (List.mem_append_right _ (hsub a x))
    refine ⟨Stored_splice (Splice.summary (Splice.wrap_np a wp np N hs) e1 e2 e3)
        (hfr a (List.mem_cons_self _ _) hat) hT.1,
      VTree.Corr_congr wp (fun b hb => hfr b
        (List.mem_cons_of_mem _ (List.mem_append_left _ hb))
        (fun x => hndp.2.2 hb (hsub b x))) hT.2.1,
      ih hndp.2.1 hT.2.2 (fun b hb => hfr b
        (List.mem_cons_of_mem _ (List.mem_append_right _ hb)))⟩

/-- C35: for an evaluated IR `T` of the context `c` (every vertex stores the
summary of the tree under it) and vertices `from` and `until` on one stem of
it (`t` is the tree under `from`, `until` is on the stem of `t`),
`PMV_wrap_section(from, until)` returns the new wrapper `W`, whose cached
(hash, depth, vcnt) are those `from` had before the call; the cached summary
of every vertex outside the wrapped tree is unchanged, and the IR after the
call, which is `T` with `t` replaced by the wrapper around the section, is
again evaluated: every vertex of it, the ancestors of the splice point
included, stores the summary a fresh computation over the new tree gives. -/
theorem PMV_wrap_section_keeps_summary (junk fuel : Nat) (s : PMState) (c : Nat) (T t : VTree)
    (untilp nvp ngp : Nat)
    (hhead : (s.cm c).headp = T.root) (hrep : T.Rep s.vm) (hnd : T.nodes.Nodup)
    (hlink : T.Linked s.vm (PMVSlot.headp c)) (hcorr : T.Corr s.vm) (hsub : SubtreeOf T t)
    (hu : untilp ∈ t.stem)
    (hctx : (s.vm t.root).ctxp = (s.vm untilp).ctxp) (hctx0 : (s.vm t.root).ctxp ≠ 0)
    (hnv : nvp ≠ 0) (hng : ngp ≠ 0) (hfresh : nvp ∉ T.nodes)
    (hfuel : 3 * T.size + 3 ≤ fuel) :
    ∃ s' T', PMV_wrap_section junk fuel s t.root untilp nvp ngp = some (s', nvp) ∧
      ((s'.vm nvp).hash = (s.vm t.root).hash ∧ (s'.vm nvp).depth = (s.vm t.root).depth ∧
        (s'.vm nvp).vcnt = (s.vm t.root).vcnt) ∧
      (∀ a ∈ T.nodes, a ∉ t.nodes →
        (s'.vm a).hash = (s.vm a).hash ∧ (s'.vm a).depth = (s.vm a).depth ∧
          (s'.vm a).vcnt = (s.vm a).vcnt) ∧
      Splice t (t.wrapped untilp nvp) T T' ∧ (s'.cm c).headp = T'.root ∧ T'.Rep s'.vm ∧
      T'.Corr s'.vm ∧ T'.hash = T.hash ∧ T'.depth = T.depth ∧ T'.vcnt = T.vcnt := by
  have ht : t ≠ VTree.nil := by
    intro e
    rw [e] at hu
    exact absurd hu (List.not_mem_nil _)
  have hrept := SubtreeOf_Rep hsub hrep
  have hndt := SubtreeOf_nodup hsub hnd
  have hcorrt := SubtreeOf_Corr hsub hcorr
  have hfresht : nvp ∉ t.nodes := fun x => hfresh (SubtreeOf_nodes hsub _ x)
  have hum : untilp ∈ t.nodes := VTree.stem_subset t untilp hu
  have hsize := SubtreeOf_size hsub
  have hslot : (s.vm t.root).prevnpp ≠ PMVSlot.null ∧
      (s.vm t.root).prevnpp.owner ∉ nvp :: t.nodes := by
    rcases SubtreeOf_slot hsub ht _ hlink hnd with e | ⟨n1, n2, n3⟩
    · rw [e]
      refine ⟨fun x => PMVSlot.noConfusion x, fun x => ?_⟩
      rcases List.mem_cons.mp x with x | x
      · exact hnv x.symm
      · exact VTree.nodes_ne_zero t hrept _ x rfl
    · refine ⟨n1, fun x => ?_⟩
      rcases List.mem_cons.mp x with x | x
      · exact hfresh (x ▸ n2)
      · exact n3 x
  obtain ⟨s', hs', hW, hWrep, hWcorr, hfr⟩ := PMV_wrap_section_summ_spec junk fuel s t untilp
    nvp ngp hrept hndt hu hctx hctx0 hslot.1 hslot.2 hnv hng hfresht (by omega) hcorrt
  obtain ⟨w1, w2, w3⟩ := VTree.wrapped_summary nvp hu
  obtain ⟨T', hTr, hTs, hd⟩ := hW.splice rfl ht hum hWrep rfl hsub (PMVSlot.headp c) hrep hnd
    hlink hfresh
  have hframe : ∀ a ∈ T.nodes, a ∉ t.nodes →
      (s'.vm a).hash = (s.vm a).hash ∧ (s'.vm a).depth = (s.vm a).depth ∧
        (s'.vm a).vcnt = (s.vm a).vcnt := by
    intro a ha hat
    have hane : a ≠ nvp := fun e => hfresh (e ▸ ha)
    obtain ⟨q1, q2, q3, _⟩ := PMV.summ_fields (hfr a (fun x => by
      rcases List.mem_cons.mp x with x | x
      · exact hane x
      · exact hat x))
    exact ⟨q1, q2, q3⟩
  have hstW : Stored s'.vm nvp (t.wrapped untilp nvp) := hWcorr.1
  have hstt : Stored s.vm t.root t := VTree.Corr_root ht hcorrt
  refine ⟨s', T', hs', ⟨?_, ?_, ?_⟩, hframe, hTs, ?_, hTr,
    hTs.Corr w1 w2 w3 hWcorr hnd hcorr hframe, hTs.summary w1 w2 w3⟩
  · rw [hstW.1, hstt.1, w1]
  · rw [hstW.2.1, hstt.2.1, w2]
  · rw [hstW.2.2, hstt.2.2, w3]
  · rcases hd with ⟨e, r⟩ | ⟨r, o⟩
    · have h1 := hW.1
      rw [e] at h1
      exact h1.trans r.symm
    · rw [r, ← hhead]
      refine hW.2.2.2.2.2.2.2.2 c (fun e => ?_)
      rw [e] at o
      exact VTree.nodes_ne_zero T hrep _ o rfl

theorem pm_example_Linked : pm_example_tree.Linked pm_example.vm (PMVSlot.headp 1) := by
  unfold pm_example_tree
  simp only [VTree.Linked]
  decide!

theorem PMV_wrap_section_keeps_summary_witness :
    ∃ s' T', PMV_wrap_section 0 12 pm_example 2 2 4 14 = some (s', 4) ∧
      ((s'.vm 4).hash = (pm_example.vm 2).hash ∧ (s'.vm 4).depth = (pm_example.vm 2).depth ∧
        (s'.vm 4).vcnt = (pm_example.vm 2).vcnt) ∧
      (∀ a ∈ pm_example_tree.nodes, a ∉ (VTree.seg 2 VTree.nil).nodes →
        (s'.vm a).hash = (pm_example.vm a).hash ∧ (s'.vm a).depth = (pm_example.vm a).depth ∧
          (s'.vm a).vcnt = (pm_example.vm a).vcnt) ∧
      Splice (VTree.seg 2 VTree.nil) ((VTree.seg 2 VTree.nil).wrapped 2 4) pm_example_tree T' ∧
      (s'.cm 1).headp = T'.root ∧ T'.Rep s'.vm ∧ T'.Corr s'.vm ∧
      T'.hash = pm_example_tree.hash ∧ T'.depth = pm_example_tree.depth ∧
      T'.vcnt = pm_example_tree.vcnt :=
  PMV_wrap_section_keeps_summary 0 12 pm_example 1 pm_example_tree (VTree.seg 2 VTree.nil) 2 4 14
    (by decide) (pm_example_established pm_example_tree (SubtreeOf.refl _)).2.1 (by decide)
    pm_example_Linked (pm_example_established pm_example_tree (SubtreeOf.refl _)).2.2.1
    (SubtreeOf.insc_pp 1 _ _ _ _ (SubtreeOf.refl _)) (by decide) (by decide!) (by decide!)
    (by decide) (by decide) (by decide) (by decide)

/-- The example after `PMV_wrap_section(2, 2)`: the wrapper 4 has the summary
the segment 2 had, and the inosculation 1 above it keeps its own. -/
theorem pm_example_wrapped_summary :
    [(pm_example.vm 2).hash, (pm_example.vm 2).depth, (pm_example.vm 2).vcnt,
      (pm_example_wrapped.vm 4).hash, (pm_example_wrapped.vm 4).depth,
      (pm_example_wrapped.vm 4).vcnt, (pm_example.vm 1).hash, (pm_example_wrapped.vm 1).hash,
      (pm_example_wrapped.vm 1).depth, (pm_example_wrapped.vm 1).vcnt]
      = [1, 1, 1, 1, 1, 1, 32770, 32770, 2, 3] := by
  decide!


/-! ### The prune of `GM_find_terminating` -/

theorem GM_find_terminating_gen_true (junk : Nat) : ∀ (fuel : Nat) (m : PMVMem)
    (h n : Nat) (l : arll Nat),
    GM_find_terminating_gen true junk fuel m h n l = GM_find_terminating junk fuel m h n l := by
  intro fuel
  induction fuel with
  | zero => intro m h n l; rfl
  | succ f ih =>
    intro m h n l
    unfold GM_find_terminating_gen GM_find_terminating
    simp only [ih, true_and]

theorem GM_find_terminating_gen_false (junk : Nat) : ∀ (fuel : Nat) (m : PMVMem)
    (h n : Nat) (l : arll Nat),
    GM_find_terminating_gen false junk fuel m h n l
      = GM_find_terminating_unpruned junk fuel m h n l := by
  intro fuel
  induction fuel with
  | zero => intro m h n l; rfl
  | succ f ih =>
    intro m h n l
    unfold GM_find_terminating_gen GM_find_terminating_unpruned
    simp only [ih, Bool.false_eq_true, false_and, if_false]

theorem VTree.matches_length_le (N : VTree) : ∀ H : VTree, (H.matches N).length ≤ H.size := by
  intro H
  induction H with
  | nil => exact Nat.le_refl _
  | seg a np ih =>
    unfold VTree.matches
    simp only [VTree.size]
    split
    · simp
    · omega
  | insc a pp cp np ihp ihc ihn =>
    unfold VTree.matches
    simp only [VTree.size]
    split
    · simp
      omega
    · simp only [List.length_append]
      omega
  | wrap a wp np ihw ihn =>
    unfold VTree.matches
    simp only [VTree.size]
    split
    · simp
      omega
    · simp only [List.length_append]
      omega

/-- The prune is sound: a tree of fewer than 2^32 vertices whose depth or
whose vertex count is below that of the needle has no subtree of the shape of
the needle. -/
theorem VTree.matches_nil_of_lt (N : VTree) : ∀ H : VTree, H.size < 4294967296 →
    (H.depth < N.depth ∨ H.vcnt < N.vcnt) → H.matches N = [] := by
  intro H
  induction H with
  | nil => intro _ _; rfl
  | seg a np ih =>
    intro hsz hlt
    simp only [VTree.size] at hsz
    have hne : (VTree.seg a np).shape ≠ N.shape := by
      intro e
      obtain ⟨_, e2, e3, _⟩ := VTree.summary_of_shape _ _ e
      omega
    unfold VTree.matches
    rw [if_neg hne]
    apply ih (by omega)
    have d1 := VTree.depth_le_size np
    have v1 := VTree.vcnt_le_size np
    simp only [VTree.depth, VTree.vcnt, ufold] at hlt
    omega
  | insc a pp cp np ihp ihc ihn =>
    intro hsz hlt
    simp only [VTree.size] at hsz
    have hne : (VTree.insc a pp cp np).shape ≠ N.shape := by
      intro e
      obtain ⟨_, e2, e3, _⟩ := VTree.summary_of_shape _ _ e
      omega
    unfold VTree.matches
    rw [if_neg hne]
    have d1 := VTree.depth_le_size np
    have v1 := VTree.vcnt_le_size np
    have d2 := VTree.depth_le_size pp
    have v2 := VTree.vcnt_le_size pp
    have d3 := VTree.depth_le_size cp
    have v3 := VTree.vcnt_le_size cp
    simp only [VTree.depth, VTree.vcnt, ufold] at hlt
    have hmax : max pp.depth cp.depth ≤ pp.size + cp.size := by
      rcases Nat.le_total pp.depth cp.depth with e | e
      · rw [max_eq_right e]; omega
      · rw [max_eq_left e]; omega
    have hmp : pp.depth ≤ max pp.depth cp.depth := le_max_left _ _
    have hmc : cp.depth ≤ max pp.depth cp.depth := le_max_right _ _
    rw [ihp (by omega) (by omega), ihc (by omega) (by omega), ihn (by omega) (by omega)]
    rfl
  | wrap a wp np ihw ihn =>
    intro hsz hlt
    simp only [VTree.size] at hsz
    have hne : (VTree.wrap a wp np).shape ≠ N.shape := by
      intro e
      obtain ⟨_, e2, e3, _⟩ := VTree.summary_of_shape _ _ e
      omega
    unfold VTree.matches
    rw [if_neg hne]
    have d1 := VTree.depth_le_size np
    have v1 := VTree.vcnt_le_size np
    have d2 := VTree.depth_le_size wp
    have v2 := VTree.vcnt_le_size wp
    simp only [VTree.depth, VTree.vcnt, ufold] at hlt
    rw [ihw (by omega) (by omega), ihn (by omega) (by omega)]
    rfl

/-- The search with or without the prune on an evaluated IR without wrappers:
it appends to the list the roots of the subtrees of the haystack that have the
shape of the needle, in the order of the depth-first search. -/
theorem GM_find_terminating_gen_spec (prune : Bool) (junk : Nat) (N : VTree)
    (hN : N ≠ VTree.nil) :
    ∀ (H : VTree) (fuel : Nat) (m : PMVMem) (l : arll Nat) (xs : List Nat),
    H.Held m → N.Held m → (H.nodes ++ N.nodes).Nodup → H.FlagsOK m → N.FlagsOK m →
    ArllRep l xs → xs.length + H.size < 33554432 → 3 * (H.size + N.size) + 3 ≤ fuel →
    ∃ m' l', GM_find_terminating_gen prune junk fuel m H.root N.root l = some (m', l') ∧
      ArllRep l' (xs ++ H.matches N) ∧ l'.blk_curi = l.blk_curi ∧
      Gd m m' (H.nodes ++ N.nodes) ∧ H.FlagsOK m' ∧ N.FlagsOK m' := by
  intro H
  induction H with
  | nil =>
    intro fuel m l xs _ _ _ _ hfN hl _ hfuel
    obtain ⟨f, rfl⟩ : ∃ f, fuel = f + 1 := ⟨fuel - 1, by omega⟩
    refine ⟨m, l, ?_, by rw [show VTree.nil.matches N = [] from rfl, List.append_nil]; exact hl,
      rfl, Gd_refl _ _, trivial, hfN⟩
    unfold GM_find_terminating_gen
    rw [if_pos (show VTree.nil.root = 0 from rfl)]
  | wrap a wp np _ _ =>
    intro fuel m l xs hH
    exact absurd hH.1 (fun x => x)
  | seg a np ih =>
    intro fuel m l xs hH hNh hnd hfH hfN hl hlen hfuel
    obtain ⟨f, rfl⟩ : ∃ f, fuel = f + 1 := ⟨fuel - 1, by omega⟩
    have hsz : (VTree.seg a np).size = 1 + np.size := rfl
    obtain ⟨m1, h1, g1, f1, f2⟩ := (PMV_good_specs f).2.2.2.1 m (VTree.seg a np) N true
      (fun h => VTree.noConfusion h) hN hH hNh hnd hfH hfN (by omega)
    have hH1 := VTree.Held_of_noflags g1.1 hH
    have hN1 := VTree.Held_of_noflags g1.1 hNh
    have ha0 : a ≠ 0 := hH.2.1.1
    have hn0 : N.root ≠ 0 := VTree.root_ne_zero hN hNh.2.1
    have hstH : Stored m1 a (VTree.seg a np) := hH1.2.2.1
    have hstN : Stored m1 N.root N := VTree.Corr_root hN hN1.2.2
    rw [show (VTree.seg a np).root = a from rfl]
    unfold GM_find_terminating_gen
    rw [if_neg ha0]
    have h1' : PMV_is_similar f m a N.root true =
        some (m1, if (VTree.seg a np).shape = N.shape then 1 else 0) := h1
    rw [h1']
    dsimp only
    by_cases hs : (VTree.seg a np).shape = N.shape
    · rw [if_pos hs, if_pos (by decide)]
      obtain ⟨l1, hp, rl1, hc1⟩ :=
        arll_push_rep junk sizeof_PMVp a (by decide) (by decide) hl (by omega)
      rw [hp]
      refine ⟨m1, l1, rfl, ?_, hc1, g1, f1, f2⟩
      unfold VTree.matches
      rw [if_pos hs]
      exact rl1
    · rw [if_neg hs, if_neg (by decide), if_neg (fun h => hn0 h.2)]
      by_cases hd : prune = true ∧ (m1 a).depth < (m1 N.root).depth
      · rw [if_pos hd]
        refine ⟨m1, l, rfl, ?_, rfl, g1, f1, f2⟩
        rw [VTree.matches_nil_of_lt N (VTree.seg a np) (by omega)
          (Or.inl (by rw [← hstH.2.1, ← hstN.2.1]; exact hd.2)), List.append_nil]
        exact hl
      rw [if_neg hd]
      by_cases hv : prune = true ∧ (m1 a).vcnt < (m1 N.root).vcnt
      · rw [if_pos hv]
        refine ⟨m1, l, rfl, ?_, rfl, g1, f1, f2⟩
        rw [VTree.matches_nil_of_lt N (VTree.seg a np) (by omega)
          (Or.inr (by rw [← hstH.2.2, ← hstN.2.2]; exact hv.2)), List.append_nil]
        exact hl
      rw [if_neg hv, if_pos hH1.2.1.2.1]
      dsimp only
      rw [hH1.2.1.2.2.1]
      have hndnp : (np.nodes ++ N.nodes).Nodup :=
        nodup_append_of_subset hnd (List.nodup_cons.mp (List.nodup_append.mp hnd).1).2
          (List.nodup_append.mp hnd).2.1 (fun x hx => List.mem_cons_of_mem _ hx) (fun x hx => hx)
      obtain ⟨m2, l2, h2, rl2, hc2, g2, q1, q2⟩ :=
        ih f m1 l xs (VTree.Held_npt hH1) hN1 hndnp f1.2 f2 hl (by omega) (by omega)
      rw [h2]
      have ham : m2 a = m1 a := by
        apply g2.2
        intro hm
        rcases List.mem_append.mp hm with hm | hm
        · exact (List.nodup_cons.mp (List.nodup_append.mp hnd).1).1 hm
        · exact (List.nodup_append.mp hnd).2.2 (List.mem_cons_self _ _) hm
      refine ⟨m2, l2, rfl, ?_, hc2, ?_, ⟨?_, q1⟩, q2⟩
      · unfold VTree.matches
        rw [if_neg hs]
        exact rl2
      · exact Gd_trans g1 g2 (fun _ h => h) (fun x hx => by
          rcases List.mem_append.mp hx with hx | hx
          · exact List.mem_append_left _ (List.mem_cons_of_mem _ hx)
          · exact List.mem_append_right _ hx)
      · rw [ham]; exact f1.1
  | insc a pp cp np ihp ihc ihn =>
    intro fuel m l xs hH hNh hnd hfH hfN hl hlen hfuel
    obtain ⟨f, rfl⟩ : ∃ f, fuel = f + 1 := ⟨fuel - 1, by omega⟩
    have hsz : (VTree.insc a pp cp np).size = 1 + pp.size + cp.size + np.size := rfl
    obtain ⟨m1, h1, g1, f1, f2⟩ := (PMV_good_specs f).2.2.2.1 m (VTree.insc a pp cp np) N true
      (fun h => VTree.noConfusion h) hN hH hNh hnd hfH hfN (by omega)
    have hH1 := VTree.Held_of_noflags g1.1 hH
    have hN1 := VTree.Held_of_noflags g1.1 hNh
    have ha0 : a ≠ 0 := hH.2.1.1
    have hn0 : N.root ≠ 0 := VTree.root_ne_zero hN hNh.2.1
    have hstH : Stored m1 a (VTree.insc a pp cp np) := hH1.2.2.1
    have hstN : Stored m1 N.root N := VTree.Corr_root hN hN1.2.2
    obtain ⟨hndH, hndN, hdis⟩ := List.nodup_append.mp hnd
    obtain ⟨dp, dc, dn, ap, ac, an, pc, pn, cn⟩ := VTree.insc_nodup hndH
    have haN : a ∉ N.nodes := fun hm => hdis (List.mem_cons_self _ _) hm
    have hpN : ∀ x ∈ pp.nodes, x ∉ N.nodes := fun x hx hm => hdis (VTree.mem_insc_pp hx) hm
    have hcN : ∀ x ∈ cp.nodes, x ∉ N.nodes := fun x hx hm => hdis (VTree.mem_insc_cp hx) hm
    have hnN : ∀ x ∈ np.nodes, x ∉ N.nodes := fun x hx hm => hdis (VTree.mem_insc_np hx) hm
    have lp := VTree.matches_length_le N pp
    have lc := VTree.matches_length_le N cp
    rw [show (VTree.insc a pp cp np).root = a from rfl]
    unfold GM_find_terminating_gen
    rw [if_neg ha0]
    have h1' : PMV_is_similar f m a N.root true =
        some (m1, if (VTree.insc a pp cp np).shape = N.shape then 1 else 0) := h1
    rw [h1']
    dsimp only
    by_cases hs : (VTree.insc a pp cp np).shape = N.shape
    · rw [if_pos hs, if_pos (by decide)]
      obtain ⟨l1, hp, rl1, hc1⟩ :=
        arll_push_rep junk sizeof_PMVp a (by decide) (by decide) hl (by omega)
      rw [hp]
      refine ⟨m1, l1, rfl, ?_, hc1, g1, f1, f2⟩
      unfold VTree.matches
      rw [if_pos hs]
      exact rl1
    · rw [if_neg hs, if_neg (by decide), if_neg (fun h => hn0 h.2)]
      by_cases hd : prune = true ∧ (m1 a).depth < (m1 N.root).depth
      · rw [if_pos hd]
        refine ⟨m1, l, rfl, ?_, rfl, g1, f1, f2⟩
        rw [VTree.matches_nil_of_lt N (VTree.insc a pp cp np) (by omega)
          (Or.inl (by rw [← hstH.2.1, ← hstN.2.1]; exact hd.2)), List.append_nil]
        exact hl
      rw [if_neg hd]
      by_cases hv : prune = true ∧ (m1 a).vcnt < (m1 N.root).vcnt
      · rw [if_pos hv]
        refine ⟨m1, l, rfl, ?_, rfl, g1, f1, f2⟩
        rw [VTree.matches_nil_of_lt N (VTree.insc a pp cp np) (by omega)
          (Or.inr (by rw [← hstH.2.2, ← hstN.2.2]; exact hv.2)), List.append_nil]
        exact hl
      rw [if_neg hv, if_neg (by rw [hH1.2.1.2.1]; decide), if_pos hH1.2.1.2.1]
      rw [hH1.2.1.2.2.1]
      -- the parent branch
      obtain ⟨m2, l2, h2, rl2, hc2, g2, p1, p2⟩ :=
        ihp f m1 l xs (VTree.Held_pp hH1) hN1
          (List.nodup_append.mpr ⟨dp, hndN, fun _ hx hm => hpN _ hx hm⟩) f1.2.1 f2 hl (by omega)
          (by omega)
      rw [h2]
      dsimp only
      have ham2 : m2 a = m1 a :=
        g2.2 a (fun hm => (List.mem_append.mp hm).elim ap haN)
      rw [ham2, hH1.2.1.2.2.2.1]
      -- the child branch
      have hH2 := VTree.Held_of_noflags g2.1 hH1
      obtain ⟨m3, l3, h3, rl3, hc3, g3, c1, c2⟩ :=
        ihc f m2 l2 (xs ++ pp.matches N) (VTree.Held_cp hH2)
          (VTree.Held_of_noflags g2.1 hN1)
          (List.nodup_append.mpr ⟨dc, hndN, fun _ hx hm => hcN _ hx hm⟩)
          (VTree.FlagsOK_frame cp g2
            (fun x hx hm => (List.mem_append.mp hm).elim (fun h => pc x h hx) (hcN x hx))
            f1.2.2.1)
          p2 rl2 (by rw [List.length_append]; omega) (by omega)
      rw [h3]
      dsimp only
      have ham3 : m3 a = m1 a := by
        rw [g3.2 a (fun hm => (List.mem_append.mp hm).elim ac haN), ham2]
      rw [ham3, hH1.2.1.2.2.2.2.1]
      -- what follows the inosculation
      have hH3 := VTree.Held_of_noflags g3.1 hH2
      obtain ⟨m4, l4, h4, rl4, hc4, g4, n1, n2⟩ :=
        ihn f m3 l3 (xs ++ pp.matches N ++ cp.matches N) (VTree.Held_npt hH3)
          (VTree.Held_of_noflags g3.1 (VTree.Held_of_noflags g2.1 hN1))
          (List.nodup_append.mpr ⟨dn, hndN, fun _ hx hm => hnN _ hx hm⟩)
          (VTree.FlagsOK_frame np g3
            (fun x hx hm => (List.mem_append.mp hm).elim (fun h => cn x h hx) (hnN x hx))
            (VTree.FlagsOK_frame np g2
              (fun x hx hm => (List.mem_append.mp hm).elim (fun h => pn x h hx) (hnN x hx))
              f1.2.2.2))
          c2 rl3 (by simp only [List.length_append]; omega) (by omega)
      rw [h4]
      have ham4 : m4 a = m1 a := by
        rw [g4.2 a (fun hm => (List.mem_append.mp hm).elim an haN), ham3]
      refine ⟨m4, l4, rfl, ?_, by rw [hc4, hc3, hc2], ?_, ⟨?_, ?_, ?_, n1⟩, n2⟩
      · unfold VTree.matches
        rw [if_neg hs, ← List.append_assoc, ← List.append_assoc]
        exact rl4
      · refine Gd_trans (Gd_trans (Gd_trans g1 g2 (fun _ h => h) ?_) g3 (fun _ h => h) ?_) g4
          (fun _ h => h) ?_
        · intro x hx
          exact (List.mem_append.mp hx).elim
            (fun h => List.mem_append_left _ (VTree.mem_insc_pp h))
            (fun h => List.mem_append_right _ h)
        · intro x hx
          exact (List.mem_append.mp hx).elim
            (fun h => List.mem_append_left _ (VTree.mem_insc_cp h))
            (fun h => List.mem_append_right _ h)
        · intro x hx
          exact (List.mem_append.mp hx).elim
            (fun h => List.mem_append_left _ (VTree.mem_insc_np h))
            (fun h => List.mem_append_right _ h)
      · rw [ham4]; exact f1.1
      · exact VTree.FlagsOK_frame pp g4
          (fun x hx hm => (List.mem_append.mp hm).elim (pn x hx) (hpN x hx))
          (VTree.FlagsOK_frame pp g3
            (fun x hx hm => (List.mem_append.mp hm).elim (pc x hx) (hpN x hx)) p1)
      · exact VTree.FlagsOK_frame cp g4
          (fun x hx hm => (List.mem_append.mp hm).elim (cn x hx) (hcN x hx)) c1

/-- The prune on an IR without wrappers: for a haystack `H` and a needle `N`,
not NULL, that are trees of an evaluated IR without wrappers and share no
vertex, `GM_find_terminating` (with
its depth/vcnt prune) and the same depth-first search without the prune both
return, and they record the same matches in the same order: both lists hold
the entries that were there before, followed by the roots of the subtrees of
the haystack that have the shape of the needle, in depth-first order, and the
two memories differ at most in flags. The prune is sound because a subtree
whose depth or vcnt is below that of the needle has no subtree of the shape of
the needle. -/
theorem GM_find_terminating_prune_refines (junk fuel : Nat) (m : PMVMem) (H N : VTree)
    (l : arll Nat) (xs : List Nat) (hN : N ≠ VTree.nil) (hpH : H.Plain) (hpN : N.Plain)
    (hrH : H.Rep m) (hrN : N.Rep m) (hcH : H.Corr m) (hcN : N.Corr m) (hfH : H.FlagsOK m)
    (hfN : N.FlagsOK m) (hnd : (H.nodes ++ N.nodes).Nodup) (hl : ArllRep l xs)
    (hlen : xs.length + H.size < 33554432) (hfuel : 3 * (H.size + N.size) + 3 ≤ fuel) :
    ∃ m1 l1 m2 l2,
      GM_find_terminating junk fuel m H.root N.root l = some (m1, l1) ∧
      GM_find_terminating_unpruned junk fuel m H.root N.root l = some (m2, l2) ∧
      l1.members = xs ++ H.matches N ∧ l2.members = xs ++ H.matches N ∧
      l1.blk_cnt = l2.blk_cnt ∧ l1.blk_curi = l2.blk_curi ∧
      (∀ a, (m1 a).noflags = (m2 a).noflags) ∧
      ∀ t, SubtreeOf H t → (t.depth < N.depth ∨ t.vcnt < N.vcnt) → t.matches N = [] := by
  obtain ⟨m1, l1, h1, r1, c1, g1, _, _⟩ :=
    GM_find_terminating_gen_spec true junk N hN H fuel m l xs ⟨hpH, hrH, hcH⟩ ⟨hpN, hrN, hcN⟩
      hnd hfH hfN hl hlen hfuel
  obtain ⟨m2, l2, h2, r2, c2, g2, _, _⟩ :=
    GM_find_terminating_gen_spec false junk N hN H fuel m l xs ⟨hpH, hrH, hcH⟩ ⟨hpN, hrN, hcN⟩
      hnd hfH hfN hl hlen hfuel
  rw [GM_find_terminating_gen_true] at h1
  rw [GM_find_terminating_gen_false] at h2
  refine ⟨m1, l1, m2, l2, h1, h2, r1.1, r2.1, by rw [r1.2.1, r2.2.1], by rw [c1, c2],
    fun a => (g1.1 a).trans (g2.1 a).symm, ?_⟩
  intro t ht hlt
  have := SubtreeOf_size ht
  exact VTree.matches_nil_of_lt N t (by omega) hlt

theorem GM_find_terminating_prune_refines_witness :
    ∃ m1 l1 m2 l2,
      GM_find_terminating 0 15 pm_tail (VTree.seg 2 (VTree.seg 4 VTree.nil)).root
        (VTree.seg 3 VTree.nil).root arll_example_empty = some (m1, l1) ∧
      GM_find_terminating_unpruned 0 15 pm_tail (VTree.seg 2 (VTree.seg 4 VTree.nil)).root
        (VTree.seg 3 VTree.nil).root arll_example_empty = some (m2, l2) ∧
      l1.members = [] ++ (VTree.seg 2 (VTree.seg 4 VTree.nil)).matches (VTree.seg 3 VTree.nil) ∧
      l2.members = [] ++ (VTree.seg 2 (VTree.seg 4 VTree.nil)).matches (VTree.seg 3 VTree.nil) ∧
      l1.blk_cnt = l2.blk_cnt ∧ l1.blk_curi = l2.blk_curi ∧
      (∀ a, (m1 a).noflags = (m2 a).noflags) ∧
      ∀ t, SubtreeOf (VTree.seg 2 (VTree.seg 4 VTree.nil)) t →
        (t.depth < (VTree.seg 3 VTree.nil).depth ∨ t.vcnt < (VTree.seg 3 VTree.nil).vcnt) →
        t.matches (VTree.seg 3 VTree.nil) = [] :=
  GM_find_terminating_prune_refines 0 15 pm_tail (VTree.seg 2 (VTree.seg 4 VTree.nil))
    (VTree.seg 3 VTree.nil) arll_example_empty [] (by decide)
    (pm_tail_established _ (SubtreeOf.insc_pp 1 _ _ _ _ (SubtreeOf.refl _))).1
    (pm_tail_established _ (SubtreeOf.insc_cp 1 _ _ _ _ (SubtreeOf.refl _))).1
    (pm_tail_established _ (SubtreeOf.insc_pp 1 _ _ _ _ (SubtreeOf.refl _))).2.1
    (pm_tail_established _ (SubtreeOf.insc_cp 1 _ _ _ _ (SubtreeOf.refl _))).2.1
    (pm_tail_established _ (SubtreeOf.insc_pp 1 _ _ _ _ (SubtreeOf.refl _))).2.2.1
    (pm_tail_established _ (SubtreeOf.insc_cp 1 _ _ _ _ (SubtreeOf.refl _))).2.2.1
    (pm_tail_established _ (SubtreeOf.insc_pp 1 _ _ _ _ (SubtreeOf.refl _))).2.2.2
    (pm_tail_established _ (SubtreeOf.insc_cp 1 _ _ _ _ (SubtreeOf.refl _))).2.2.2
    (by decide) arll_example_empty_rep (by decide) (by decide)

/-- In the example both searches find the tail 4 of the parent branch for the
needle 3; for the needle 2 (depth 2) and the haystack 3 (depth 1) the prune
stops the search at once and the search without the prune finds nothing
either. -/
theorem pm_tail_prune_example :
    (GM_find_terminating 0 15 pm_tail 2 3 arll_example_empty).map (fun r => r.2.members)
        = some [4] ∧
      (GM_find_terminating_unpruned 0 15 pm_tail 2 3 arll_example_empty).map
        (fun r => r.2.members) = some [4] ∧
      (GM_find_terminating 0 15 pm_tail 3 2 arll_example_empty).map (fun r => r.2.members)
        = some [] ∧
      (GM_find_terminating_unpruned 0 15 pm_tail 3 2 arll_example_empty).map
        (fun r => r.2.members) = some [] := by
  decide!


/-! ### The membership of the vertices in the groups -/

theorem GroupInv_test_iff (s : PMState) (V live : List Nat) :
    GroupInv_test s V live = true ↔ GroupInv s V live := by
  unfold GroupInv_test GroupInv
  simp only [List.all_eq_true, Bool.and_eq_true, decide_eq_true_eq, and_assoc]

/-- The groups in order (`GroupsOK`, which also fixes the cursors of the member
lists at the start) satisfy the membership invariant. -/
theorem GroupInv_of_GroupsOK {s : PMState} {c : Nat} {V live : List Nat}
    (h : GroupsOK s c V live) : GroupInv s V live := by
  obtain ⟨_, hVnd, _, _, _, hg, hv⟩ := h
  intro v hvV
  obtain ⟨_, _, hlive, hty⟩ := hv v hvV
  obtain ⟨_, _, _, ms, rep, _, nd, _, mem⟩ := hg _ hlive
  refine ⟨hlive, hty.symm, ?_, ?_⟩
  · rw [rep.1]
    exact List.count_eq_one_of_mem nd ((mem v).mpr ⟨hvV, rfl⟩)
  · intro g hgl hne hin
    obtain ⟨_, _, _, ms', rep', _, _, _, mem'⟩ := hg g hgl
    rw [rep'.1] at hin
    exact hne ((mem' v).mp hin).2.symm

/-- C38 (failing input): the example IR whose group member lists were iterated
before satisfies the membership invariant (three live groups 13, 12, 11, every
vertex listed once in its own live group), but `PMVG_merge(12, 13)` and
`PMV_merge_r(2, 3)` do not preserve it: the loop of `PMVG_merge` starts at the
cursor of `from->vpl`, so the vertex 3 is not transferred; it keeps `gp = 13`,
the group 13 is removed from the context (the live groups are 12 and 11), and
the vertex 3 is listed in no live group. -/
theorem PMVG_merge_loses_membership :
    PMVG_live pm_example_iterated 1 = [13, 12, 11] ∧
      GroupInv pm_example_iterated [1, 2, 3] (PMVG_live pm_example_iterated 1) ∧
      (PMVG_merge 0 pm_example_iterated 12 13).map
          (fun s => (PMVG_live s 1, (s.vm 3).gp, (s.gm 12).vpl.members,
            GroupInv_test s [1, 2, 3] (PMVG_live s 1)))
        = some ([12, 11], 13, [2], false) ∧
      (PMV_merge_r 0 5 15 12 pm_example_iterated 2 3).map
          (fun s => (PMVG_live s 1, (s.vm 3).gp, (s.gm 12).vpl.members,
            GroupInv_test s [1, 2, 3] (PMVG_live s 1)))
        = some ([12, 11], 13, [2], false) := by
  refine ⟨by decide!, (GroupInv_test_iff _ _ _).mp (by decide!), by decide!, by decide!⟩

/-- With the cursors of the member lists at the start the same calls keep the
membership invariant: the vertex 3 moves to the group 12. -/
theorem PMVG_merge_keeps_membership_example :
    (PMVG_merge 0 pm_example 12 13).map
        (fun s => (PMVG_live s 1, (s.vm 3).gp, (s.gm 12).vpl.members,
          GroupInv_test s [1, 2, 3] (PMVG_live s 1)))
      = some ([12, 11], 12, [2, 3], true) := by
  decide!

/-- The membership invariant holds for the IR the builder makes of the
symmetric fork, and after `GM_mine_for_symm` on it. -/
theorem pm_symm_membership :
    (PMVG_live pm_symm 1, GroupInv_test pm_symm [1, 2, 3] (PMVG_live pm_symm 1),
        (GM_mine_for_symm 0 4 14 12 pm_symm 1).map
          (fun s => (PMVG_live s 1, GroupInv_test s [1, 2, 3] (PMVG_live s 1))))
      = ([13, 12, 11], true, some ([12, 11], true)) := by
  decide!

/-- The membership invariant holds after `PMV_wrap_section(2, 2)` on the
example: the new wrapper 4 is the one member of the new group 14. -/
theorem pm_example_wrapped_membership :
    (PMVG_live pm_example_wrapped 1,
        GroupInv_test pm_example_wrapped [1, 2, 3, 4] (PMVG_live pm_example_wrapped 1))
      = ([14, 13, 12, 11], true) := by
  decide!

/-- `PMVG_merge` keeps the membership invariant when the groups are in order
with the cursors of the member lists at the start. -/
theorem PMVG_merge_keeps_membership (junk : Nat) {s : PMState} {c to_ from_ : Nat}
    {V live : List Nat} (hok : GroupsOK s c V live) (hto : to_ ∈ live) (hfrom : from_ ∈ live)
    (hty : (s.gm to_).cpmv.type = (s.gm from_).cpmv.type) :
    ∃ s' live', PMVG_merge junk s to_ from_ = some s' ∧ GroupInv s' V live' :=
  let ⟨s', live', h, hok', _⟩ := PMVG_merge_spec junk hok hto hfrom hty
  ⟨s', live', h, GroupInv_of_GroupsOK hok'⟩



/-! ## `Buck_create` in `double` arithmetic -/

/-- The leaves of the example: the two runs `[1, 3]` and `[11, 13]`, whose
computed badness is at most 3/4 and whose means are 2 and 12. -/
theorem Buck_create_double_example :
    (Buck_create_double [1, 3, 11, 13] (3 / 4)).map Bucket.leaves = some [(2, 3), (12, 13)] ∧
      Buck_bad_double [1, 3, 11, 13] > 3 / 4 ∧ Buck_bad_double [1, 3] ≤ 3 / 4 ∧
      Buck_bad_double [11, 13] ≤ 3 / 4 := by
  decide!

/-- C40 (failing input): for the two doubles `1 + 2^-52` and `1 + 2^-51` and
`k = 2^-54` the assertion `assert(upbound < size)` of `Buck_create` fails.
The exact mean `1 + 3 * 2^-53` lies halfway between the two elements and is
rounded to the even one, the maximum `1 + 2^-51`; the computed badness
exceeds `k`, no element is greater than the mean, and `bsearch_upbound`
returns `size`. In exact arithmetic the mean is below the maximum and the
function returns a tree. -/
theorem Buck_create_double_assert_fails :
    ([1 + 1 / 2 ^ 52, 1 + 1 / 2 ^ 51] : List ℚ).Sorted (· ≤ ·) ∧ (1 / 2 ^ 54 : ℚ) > 0 ∧
    (∀ x ∈ ([1 + 1 / 2 ^ 52, 1 + 1 / 2 ^ 51, 1 / 2 ^ 54] : List ℚ), double_round x = x) ∧
    gsl_stats_mean [1 + 1 / 2 ^ 52, 1 + 1 / 2 ^ 51] = 1 + 3 / 2 ^ 53 ∧
    double_round (1 + 3 / 2 ^ 53) = 1 + 1 / 2 ^ 51 ∧
    gsl_stats_mean_double [1 + 1 / 2 ^ 52, 1 + 1 / 2 ^ 51] = 1 + 1 / 2 ^ 51 ∧
    Buck_bad_double [1 + 1 / 2 ^ 52, 1 + 1 / 2 ^ 51] > 1 / 2 ^ 54 ∧
    bsearch_upbound (gsl_stats_mean_double [1 + 1 / 2 ^ 52, 1 + 1 / 2 ^ 51])
      [1 + 1 / 2 ^ 52, 1 + 1 / 2 ^ 51] = some 2 ∧
    Buck_create_double [1 + 1 / 2 ^ 52, 1 + 1 / 2 ^ 51] (1 / 2 ^ 54) = none ∧
    (Buck_create [1 + 1 / 2 ^ 52, 1 + 1 / 2 ^ 51] (1 / 2 ^ 54)).isSome = true := by
  refine ⟨by decide!, by decide!, by decide!, by decide!, by decide!, by decide!, by decide!,
    by decide!, by decide!, by decide!⟩


/-! ## The search of terminating subtrees on every evaluated tree -/

theorem pm_wraps_haystack_Rep : pm_wraps_haystack.Rep pm_wraps.vm := by
  unfold pm_wraps_haystack
  simp only [VTree.Rep, VTree.root]
  decide!

theorem pm_wraps_needle_Rep : pm_wraps_needle.Rep pm_wraps.vm := by
  unfold pm_wraps_needle
  simp only [VTree.Rep, VTree.root]
  decide!

theorem pm_wraps_haystack_Corr : pm_wraps_haystack.Corr pm_wraps.vm := by
  unfold pm_wraps_haystack
  simp only [VTree.Corr, Stored]
  decide!

theorem pm_wraps_needle_Corr : pm_wraps_needle.Corr pm_wraps.vm := by
  unfold pm_wraps_needle
  simp only [VTree.Corr, Stored]
  decide!

theorem pm_wraps_nodup : (pm_wraps_haystack.nodes ++ pm_wraps_needle.nodes).Nodup := by
  decide

/-! ### The matches the search records -/

/-- C37 (failing input): the example `pm_wraps` is the IR `pm_wraps_built`
after `PMV_eval_r(headp, 1)` and the calls `PMV_wrap_section(3, 4)`,
`PMV_wrap_section(10, 10)` and `PMV_wrap_section(24, 24)`, which all return. Its
trees under the vertices 1 (the haystack) and 20 (the needle) store their
summaries and share no vertex. The inosculations 7 and 21 still carry the
flag `PMV_SBIT_INSC_is_sym` that `PMV_eval_r` cached before their child
branches were wrapped, though their branches are no longer similar.
`GM_find_terminating(1, 20, similarl)` records the vertex 6: the search stops
at the vertex 2, whose depth 3 is below the depth 4 of the needle. The search
without the prune records nothing: it goes on to the wrapper 40, and
`PMV_is_similar(40, 20, 1)` returns 0 and clears the flags of the vertex 21,
after which `PMV_is_similar(6, 20, 1)` returns 0. Before the three wrappers
were added both searches record the vertex 6. -/
theorem GM_find_terminating_prune_differs :
    (PMV_eval_r 60 pm_wraps_built.vm 50 true).isSome = true ∧
    (PMV_wrap_section 0 60 pm_wraps_eval 3 4 40 140).map (fun r => r.2) = some 40 ∧
    (PMV_wrap_section 0 60 pm_wraps_first 10 10 41 141).map (fun r => r.2) = some 41 ∧
    (PMV_wrap_section 0 60 pm_wraps_second 24 24 42 142).map (fun r => r.2) = some 42 ∧
    pm_wraps_haystack.Rep pm_wraps.vm ∧ pm_wraps_needle.Rep pm_wraps.vm ∧
    pm_wraps_haystack.Corr pm_wraps.vm ∧ pm_wraps_needle.Corr pm_wraps.vm ∧
    (pm_wraps_haystack.nodes ++ pm_wraps_needle.nodes).Nodup ∧
    pm_wraps_haystack.root = 1 ∧ pm_wraps_needle.root = 20 ∧
    (pm_wraps.vm 7).flags = PMV_SBIT_evaluated ||| PMV_SBIT_INSC_is_sym ∧
    (pm_wraps.vm 21).flags = PMV_SBIT_evaluated ||| PMV_SBIT_INSC_is_sym ∧
    (PMV_is_similar 99 pm_wraps.vm 8 41 true).map (fun r => r.2) = some 0 ∧
    (PMV_is_similar 99 pm_wraps.vm 22 42 true).map (fun r => r.2) = some 0 ∧
    (GM_find_terminating 0 100 pm_wraps.vm 1 20 arll_example_empty).map
      (fun r => r.2.members) = some [6] ∧
    (GM_find_terminating_unpruned 0 100 pm_wraps.vm 1 20 arll_example_empty).map
      (fun r => r.2.members) = some [] ∧
    (PMV_is_similar 99 pm_wraps.vm 2 20 true).map (fun r => r.2) = some 0 ∧
    (pm_wraps.vm 2).depth = 3 ∧ (pm_wraps.vm 20).depth = 4 ∧
    (PMV_is_similar 99 pm_wraps.vm 40 20 true).map (fun r => (r.2, (r.1 21).flags)) =
      some (0, 0) ∧
    (GM_find_terminating 0 100 pm_wraps_eval.vm 1 20 arll_example_empty).map
      (fun r => r.2.members) = some [6] ∧
    (GM_find_terminating_unpruned 0 100 pm_wraps_eval.vm 1 20 arll_example_empty).map
      (fun r => r.2.members) = some [6] := by
  refine ⟨by decide!, by decide!, by decide!, by decide!, pm_wraps_haystack_Rep,
    pm_wraps_needle_Rep, pm_wraps_haystack_Corr, pm_wraps_needle_Corr, pm_wraps_nodup, rfl, rfl,
    by decide!, by decide!, by decide!, by decide!, by decide!, by decide!, by decide!,
    by decide!, by decide!, by decide!, by decide!, by decide!⟩

end PPM
